import Mathlib

/-!
# Park runtime: value stack, frames, dispatch and collector

A shallow embedding of the execution core of the Park runtime
(`stack.h`, `stack.cc`, `fiber.cc`, `frame.h`, `builtin.cc`, `integer.cc`,
`list.cc`, `gc_base.h`, `gc.h`, `gc.cc`) together with theorems about it.

Conventions of the embedding:

* a `std::vector` used as a stack (`frame_stack`, `link_stack`) is a `List`
  whose head is `back()`;
* a C++ exception is the `error` branch of `Except Exn`;
* 64-bit machine integers are `Int`/`Nat` with explicit wrap-around.
-/

namespace park

/-! ## Values (`value.h`, `value.cc`) -/

/-- The discriminator of a stack slot (`value_t::kind_t`). -/
inductive kind_t where
  | UVALUE
  | IVALUE
  | BVALUE
  | DVALUE
  | RVALUE
  deriving DecidableEq, Repr

/-- Identity of a type descriptor object, as handed out by `Runtime::create_type`. -/
inductive TypeRef where
  | Integer
  | Boolean
  | Closure
  | Builtin
  | Error2
  | List
  | String
  | Other (n : Nat)
  deriving DecidableEq, Repr

/-- A heap object of class `Value`, as far as the runtime helpers inspect it:
its dynamic class, the fields they read and, for objects compared by address
(builtins, functions), an identity. -/
inductive Value where
  | Integer (v : Int)
  | Boolean (v_ : Bool)
  | Closure (function_ : Nat)
  | Builtin (addr : Nat)
  | Error2 (message_ : Nat)
  | Other (type : Nat) (addr : Nat)
  deriving DecidableEq, Repr

/-- The virtual `Value::get_type`. -/
def Value.get_type : Value → TypeRef
  | .Integer _ => .Integer
  | .Boolean _ => .Boolean
  | .Closure _ => .Closure
  | .Builtin _ => .Builtin
  | .Error2 _ => .Error2
  | .Other t _ => .Other t

/-- The tagged 16-byte stack slot `value_t`. The payload of a `DVALUE` is kept
as its raw bits. -/
inductive value_t where
  | UVALUE
  | IVALUE (ivalue : Int)
  | BVALUE (bvalue : Bool)
  | DVALUE (bits : Nat)
  | RVALUE (rvalue : Value)
  deriving DecidableEq, Repr

instance : Inhabited value_t := ⟨value_t.UVALUE⟩

/-- The field `value_t::kind`. -/
def value_t.kind : value_t → kind_t
  | .UVALUE => .UVALUE
  | .IVALUE _ => .IVALUE
  | .BVALUE _ => .BVALUE
  | .DVALUE _ => .DVALUE
  | .RVALUE _ => .RVALUE

/-- What the runtime throws. `undefined` stands for a violated `assert`
(behaviour the C++ code leaves undefined), `diverges` for a loop that does not
end. -/
inductive Exn where
  | bad_alloc
  | runtime_error (what : String)
  | operator_not_defined_for_argument_types (lhs rhs : TypeRef)
  | not_implemented (what : String)
  | out_of_range (what : String)
  | length_error (what : String)
  | undefined
  | diverges
  deriving DecidableEq, Repr

/-- Two's-complement wrap-around of a 64-bit signed result. -/
def wrap64 (x : Int) : Int := (x + 2 ^ 63) % 2 ^ 64 - 2 ^ 63

/-! ## The value stack (`stack.h`, `stack.cc`) -/

/-- The class `Stack`: `slots` is the live range `[begin_, end_)`, `capacity`
is `cap_ - begin_` and `chunk_` tells whether a chunk is held. -/
structure Stack where
  slots : List value_t
  capacity : Nat
  chunk_ : Bool
  deriving DecidableEq, Repr

namespace Stack

def INIT_CAP : Nat := 32
def MAX_CAP : Nat := 4096

/-- A default constructed `Stack`. -/
def empty_stack : Stack := ⟨[], 0, false⟩

def size (s : Stack) : Nat := s.slots.length

/-- The doubling loop of `Stack::ensure_capacity`; `none` when the loop has
not ended after `fuel` rounds. -/
def grow_loop : Nat → Nat → Nat → Option Nat
  | 0, _, _ => none
  | fuel + 1, next_capacity, need =>
    if next_capacity < need ∧ next_capacity ≤ MAX_CAP then
      grow_loop fuel (next_capacity * 2) need
    else some next_capacity

/-- `Stack::ensure_capacity(n)`; the sum `current_size + n` is one of `size_t`
values and wraps around at `2^64`. -/
def ensure_capacity (s : Stack) (n : Nat) : Except Exn Stack :=
  let current_size := s.size
  let next_capacity := if s.chunk_ then s.capacity else INIT_CAP
  match grow_loop 64 next_capacity ((current_size + n) % 2 ^ 64) with
  | none => .error .diverges
  | some next_capacity =>
    if next_capacity > MAX_CAP then .error .bad_alloc
    else .ok ⟨s.slots, next_capacity, true⟩

/-- `Stack::pop(n)`. -/
def pop (s : Stack) (n : Nat) : Except Exn Stack :=
  if n ≤ s.size then .ok { s with slots := s.slots.take (s.size - n) }
  else .error .undefined

def pop_back (s : Stack) : Except Exn Stack := s.pop 1

/-- `Stack::back`. -/
def back (s : Stack) : Except Exn value_t :=
  match s.slots.getLast? with
  | some v => .ok v
  | none => .error .undefined

/-- `Stack::base(argument_count)`. -/
def base (s : Stack) (argument_count : Nat) : Except Exn Nat :=
  if argument_count + 1 ≤ s.size then .ok (s.size - argument_count - 1)
  else .error .undefined

/-- `Stack::callable(base)`, `Stack::local`, `Stack::argument`: slot `base + i`. -/
def argument (s : Stack) (base i : Nat) : Except Exn value_t :=
  match s.slots.get? (base + i) with
  | some v => .ok v
  | none => .error .undefined

def callable (s : Stack) (base : Nat) : Except Exn value_t := s.argument base 0

/-- `Stack::push_back`. -/
def push_back (s : Stack) (val : value_t) : Except Exn Stack := do
  let s1 ← if s.size = s.capacity then s.ensure_capacity 1 else pure s
  pure { s1 with slots := s1.slots ++ [val] }

/-- `Stack::init_locals`. -/
def init_locals (s : Stack) (local_count : Nat) : Except Exn Stack := do
  let s1 ← if s.size + local_count > s.capacity then s.ensure_capacity local_count else pure s
  pure { s1 with slots := s1.slots ++ List.replicate local_count value_t.UVALUE }

/-- `Stack::set_local(base, local_index)`: the slot is overwritten with `back()`. -/
def set_local (s : Stack) (base local_index : Nat) : Except Exn Stack := do
  let v ← s.back
  if base + local_index < s.size then pure { s with slots := s.slots.set (base + local_index) v }
  else .error .undefined

/-- `Stack::pop_frame(base)`. -/
def pop_frame (s : Stack) (base : Nat) : Except Exn Stack :=
  if base ≤ s.size then s.pop (s.size - base) else .error .undefined

/-- The element-wise forward copy of `std::copy(first, first + n, d_first)` on
slot indices. -/
def copy_slots (xs : List value_t) (first d_first : Nat) : Nat → List value_t
  | 0 => xs
  | n + 1 => copy_slots (xs.set d_first (xs.getD first default)) (first + 1) (d_first + 1) n

/-- `Stack::recur(argument_count, local_count)`. -/
def recur (s : Stack) (argument_count local_count : Nat) : Except Exn Stack :=
  if 2 * argument_count + local_count ≤ s.size then
    let copied := copy_slots s.slots (s.size - argument_count)
      (s.size - 2 * argument_count - local_count) argument_count
    .ok { s with slots := copied.take (s.size - argument_count) }
  else .error .undefined

end Stack

end park

namespace park

/-! ## Call sites, functions, frames and the fiber (`ast.h`, `fiber.cc`) -/

/-- The methods a call site's `target_` can point to (`MethodImpl`). -/
inductive MethodImpl where
  | exec_dispatch
  | code (function : Nat)
  | _equals
  | _equals_int64_t
  | _add
  | _add_int64_t
  | _subtract_boxed_boxed
  | _subtract_boxed_int64
  | _subtract_int64_boxed
  | _subtract_int64_t
  | _multiply
  | _multiply_int64_t
  | other (n : Nat)
  deriving DecidableEq, Repr

namespace AST

/-- The node `AST::Apply`: its address, the size of `arguments_`, the flag
`throws_` and the cached `target_`. -/
structure Apply where
  addr : Nat
  argument_count : Nat
  throws_ : Bool
  target_ : MethodImpl
  deriving DecidableEq, Repr

/-- `Apply::set_target`. -/
def Apply.set_target (apply : Apply) (target : MethodImpl) : Apply :=
  { apply with target_ := target }

/-- The node `AST::Function`: its address and the sizes of `parameters_` and
`locals_`. -/
structure Function where
  addr : Nat
  parameters_ : Nat
  locals_ : Nat
  deriving DecidableEq, Repr

def Function.local_count (function : Function) : Nat := function.locals_

/-- The node `AST::Recur`: the size of `arguments_`. -/
structure Recur where
  arguments_ : Nat
  deriving DecidableEq, Repr

end AST

/-- The class `ListImpl` (`list.cc`): a nullable `item_` and a nullable
`tail_`; `last` is an object whose `tail_` is null, `node` one whose `tail_`
points to another list object. -/
inductive ListImpl where
  | last (item_ : Option Value)
  | node (item_ : Option Value) (tail : ListImpl)
  deriving DecidableEq, Repr

/-- The field `ListImpl::item_`. -/
def ListImpl.item_ : ListImpl → Option Value
  | .last item => item
  | .node item _ => item

/-- The field `ListImpl::tail_`. -/
def ListImpl.tail_ : ListImpl → Option ListImpl
  | .last _ => none
  | .node _ tail => some tail

/-- The record `FiberImpl::frame_stack_t`. -/
structure frame_stack_t where
  apply : AST.Apply
  base : Nat
  argument_count : Nat
  local_count : Nat
  defers : Option ListImpl
  deriving DecidableEq, Repr

/-- The state of a `FiberImpl` the execution helpers work on. -/
structure FiberImpl where
  stack : Stack
  frame_stack : List frame_stack_t
  link_stack : List Nat
  deriving DecidableEq, Repr

namespace FiberImpl

/-- `FiberImpl::exec_recur`. -/
def exec_recur (fbr : FiberImpl) (recur : AST.Recur) : Except Exn FiberImpl :=
  match fbr.frame_stack with
  | [] => .error .undefined
  | current_frame :: frames =>
    if recur.arguments_ ≠ current_frame.argument_count then .error .undefined
    else do
      let stack ← fbr.stack.recur current_frame.argument_count current_frame.local_count
      pure { fbr with stack := stack, frame_stack := { current_frame with defers := none } :: frames }

/-- The argument pushes the backend emits before `exec_recur`, one `push_back`
for each argument value. -/
def push_arguments (s : Stack) : List value_t → Except Exn Stack
  | [] => .ok s
  | v :: vs => do
    let s1 ← s.push_back v
    push_arguments s1 vs

/-- One tail call: the arguments are pushed, then `exec_recur` runs. -/
def recur_step (fbr : FiberImpl) (arguments : List value_t) : Except Exn FiberImpl := do
  let stack ← push_arguments fbr.stack arguments
  exec_recur { fbr with stack := stack } ⟨arguments.length⟩

/-- Successive tail calls, one for every argument vector. -/
def recur_steps (fbr : FiberImpl) : List (List value_t) → Except Exn FiberImpl
  | [] => .ok fbr
  | arguments :: rest => do
    let fbr1 ← recur_step fbr arguments
    recur_steps fbr1 rest

end FiberImpl

end park

namespace park

/-- The capacities `Stack::ensure_capacity` produces: no chunk and capacity 0,
or a chunk of `INIT_CAP` slots doubled some number of times up to `MAX_CAP`;
the live slots fit (`end_ <= cap_`). -/
def Stack.wf (s : Stack) : Prop :=
  s.size ≤ s.capacity ∧
    if s.chunk_ then s.capacity ∈ [32, 64, 128, 256, 512, 1024, 2048, 4096]
    else s.capacity = 0

instance (s : Stack) : Decidable s.wf := by
  unfold Stack.wf; infer_instance

end park

namespace park

/-! ## Function epilog and prolog (`fiber.cc`) -/

/-- `Error2::is_error`. -/
def Error2.is_error (value : Value) : Bool := value.get_type = TypeRef.Error2

/-- `Closure::isinstance`. -/
def Closure.isinstance (value : Value) : Bool := value.get_type = TypeRef.Closure

namespace value

/-- `value::value_type`. -/
def value_type : value_t → Except Exn TypeRef
  | .RVALUE rvalue => .ok rvalue.get_type
  | .IVALUE _ => .ok TypeRef.Integer
  | .BVALUE _ => .ok TypeRef.Boolean
  | _ => .error (.runtime_error "unexpected kind in value_type")

/-- `value::from_value_t(fbr, value)`: boxes an unboxed integer or boolean. -/
def from_value_t : value_t → Except Exn Value
  | .IVALUE ivalue => .ok (Value.Integer ivalue)
  | .BVALUE bvalue => .ok (Value.Boolean bvalue)
  | _ => .error (.runtime_error "TODO from_value_t")

/-- `value::ref_from_value_t`. -/
def ref_from_value_t : value_t → Except Exn Value
  | .IVALUE ivalue => .ok (Value.Integer ivalue)
  | .BVALUE bvalue => .ok (Value.Boolean bvalue)
  | _ => .error (.runtime_error "TODO ref_from_value_t")

/-- `value::cast<const Value &>`. -/
def cast_Value : value_t → Except Exn Value
  | .RVALUE rvalue => .ok rvalue
  | .IVALUE ivalue => from_value_t (.IVALUE ivalue)
  | .BVALUE bvalue => from_value_t (.BVALUE bvalue)
  | .DVALUE _ => .error (.runtime_error "TODO")
  | .UVALUE => .error (.runtime_error "undefined value_t cannot be cast to Value &")

/-- `value::cast<gc::ref<Value>>`. -/
def cast_ref : value_t → Except Exn Value
  | .RVALUE rvalue => .ok rvalue
  | .IVALUE ivalue => ref_from_value_t (.IVALUE ivalue)
  | .BVALUE bvalue => ref_from_value_t (.BVALUE bvalue)
  | .DVALUE bits => ref_from_value_t (.DVALUE bits)
  | .UVALUE => .error (.runtime_error "undefined value_t cannot be cast to gc::ref<Value>")

end value

/-! ## Builtins and their method tables (`builtin.h`, `builtin.cc`) -/

/-- `std::map::find` on a map kept as the list of its entries. -/
def map_find {κ ν : Type} [DecidableEq κ] (m : List (κ × ν)) (k : κ) : Option ν :=
  m.lookup k

/-- `std::map::insert`: an entry whose key is present is not replaced. -/
def map_insert {κ ν : Type} [DecidableEq κ] (m : List (κ × ν)) (k : κ) (v : ν) :
    List (κ × ν) :=
  if (m.lookup k).isSome then m else m ++ [(k, v)]

/-- The four method tables of a `BuiltinBinaryDispatch`. -/
structure BuiltinBinaryDispatch where
  methods_by_type_type_ : List ((TypeRef × TypeRef) × MethodImpl)
  methods_by_kind_kind_ : List ((kind_t × kind_t) × MethodImpl)
  methods_by_kind_type_ : List ((kind_t × TypeRef) × MethodImpl)
  methods_by_type_kind_ : List ((TypeRef × kind_t) × MethodImpl)
  deriving DecidableEq, Repr

namespace BuiltinBinaryDispatch

def register_type_type (b : BuiltinBinaryDispatch) (lhs rhs : TypeRef) (method : MethodImpl) :
    BuiltinBinaryDispatch :=
  { b with methods_by_type_type_ := map_insert b.methods_by_type_type_ (lhs, rhs) method }

def register_kind_kind (b : BuiltinBinaryDispatch) (lhs rhs : kind_t) (method : MethodImpl) :
    BuiltinBinaryDispatch :=
  { b with methods_by_kind_kind_ := map_insert b.methods_by_kind_kind_ (lhs, rhs) method }

def register_kind_type (b : BuiltinBinaryDispatch) (lhs : kind_t) (rhs : TypeRef)
    (method : MethodImpl) : BuiltinBinaryDispatch :=
  { b with methods_by_kind_type_ := map_insert b.methods_by_kind_type_ (lhs, rhs) method }

def register_type_kind (b : BuiltinBinaryDispatch) (lhs : TypeRef) (rhs : kind_t)
    (method : MethodImpl) : BuiltinBinaryDispatch :=
  { b with methods_by_type_kind_ := map_insert b.methods_by_type_kind_ (lhs, rhs) method }

/-- `BuiltinBinaryDispatch::dispatch`. The `Frame` constructor computes the
base from the call site's argument count; the arguments are slots `base + 1`
and `base + 2`. -/
def dispatch (b : BuiltinBinaryDispatch) (stack : Stack) (apply : AST.Apply) :
    Except Exn MethodImpl := do
  let base ← stack.base apply.argument_count
  if apply.argument_count ≠ 2 then
    throw (.runtime_error "wrong number of arguments")
  let arg1 ← stack.argument base 1
  let arg2 ← stack.argument base 2
  match map_find b.methods_by_kind_kind_ (arg1.kind, arg2.kind) with
  | some method => pure method
  | none =>
    let typeof_lhs ← value.value_type arg1
    match map_find b.methods_by_type_kind_ (typeof_lhs, arg2.kind) with
    | some method => pure method
    | none =>
      let typeof_rhs ← value.value_type arg2
      match map_find b.methods_by_kind_type_ (arg1.kind, typeof_rhs) with
      | some method => pure method
      | none =>
        match map_find b.methods_by_type_type_ (typeof_lhs, typeof_rhs) with
        | some method => pure method
        | none => throw (.operator_not_defined_for_argument_types typeof_lhs typeof_rhs)

end BuiltinBinaryDispatch

/-- The three kinds of builtin objects. -/
inductive BuiltinImpl where
  | static_dispatch (method : MethodImpl)
  | single_dispatch (methods : List (TypeRef × MethodImpl))
  | binary_dispatch (b : BuiltinBinaryDispatch)
  deriving DecidableEq, Repr

/-- `BuiltinSingleDispatch::dispatch`. -/
def BuiltinImpl.single (methods : List (TypeRef × MethodImpl)) (stack : Stack)
    (apply : AST.Apply) : Except Exn MethodImpl := do
  let base ← stack.base apply.argument_count
  if apply.argument_count < 1 then
    throw (.runtime_error "wrong number of arguments")
  let arg1 ← stack.argument base 1
  let typeof_arg ← value.value_type arg1
  match map_find methods typeof_arg with
  | some method => pure method
  | none => throw (.not_implemented "function_not_defined_for_argument_type")

/-- What the helpers need of the `Runtime`: the builtin object at an address,
and the `dispatch` of the value classes not modelled here (keywords, struct
types). -/
structure Runtime where
  builtins : Nat → Option BuiltinImpl
  dispatch_other : Nat → Nat → Except Exn MethodImpl

/-- The virtual `Value::dispatch`. -/
def Value.dispatch (rt : Runtime) (stack : Stack) (apply : AST.Apply) :
    Value → Except Exn MethodImpl
  | .Closure function_ => .ok (MethodImpl.code function_)
  | .Builtin addr =>
    match rt.builtins addr with
    | some (.static_dispatch method) => .ok method
    | some (.single_dispatch methods) => BuiltinImpl.single methods stack apply
    | some (.binary_dispatch b) => b.dispatch stack apply
    | none => .error .undefined
  | .Other type addr => rt.dispatch_other type addr
  | _ => .error (.not_implemented "dispatch")

/-- What a method leaves behind: the fiber, the call site (its `target_` may
have been replaced) and the returned status. -/
abbrev Outcome := FiberImpl × AST.Apply × Int

namespace FiberImpl

/-- `FiberImpl::exec_dispatch`. -/
def exec_dispatch (rt : Runtime) (fbr : FiberImpl) (apply : AST.Apply) : Except Exn Outcome := do
  let base ← fbr.stack.base apply.argument_count
  let slot ← fbr.stack.callable base
  let callable ← value.cast_ref slot
  let target ← callable.dispatch rt fbr.stack apply
  pure (fbr, apply.set_target target, -1)

/-- `FiberImpl::exec_function_prolog`. -/
def exec_function_prolog (rt : Runtime) (fbr : FiberImpl) (apply : AST.Apply)
    (function : AST.Function) (link : Nat) : Except Exn Outcome := do
  let argument_count := apply.argument_count
  let local_count := function.local_count
  let base ← fbr.stack.base argument_count
  let callable ← fbr.stack.callable base
  match callable with
  | .RVALUE rvalue =>
    if ¬ Closure.isinstance rvalue then exec_dispatch rt fbr apply
    else
      match rvalue with
      | .Closure function_ =>
        if function_ ≠ function.addr then exec_dispatch rt fbr apply
        else do
          let frame_stack := ⟨apply, base, argument_count, local_count, none⟩ :: fbr.frame_stack
          let link_stack := link :: fbr.link_stack
          let stack ← fbr.stack.init_locals local_count
          pure (⟨stack, frame_stack, link_stack⟩, apply, 0)
      | _ => .error .undefined
  | _ => .error .undefined

/-- `FiberImpl::pop_frame(f)`; `f` pushes the result. -/
def pop_frame (fbr : FiberImpl) (f : Stack → Except Exn Stack) : Except Exn (FiberImpl × Nat) :=
  match fbr.frame_stack, fbr.link_stack with
  | frame :: frames, link :: links => do
    let stack ← fbr.stack.pop_frame frame.base
    let stack ← f stack
    pure (⟨stack, frames, links⟩, link)
  | _, _ => .error .undefined

/-- `FiberImpl::exec_function_epilog`: the fiber, the link and the status. -/
def exec_function_epilog (fbr : FiberImpl) (function : AST.Function) :
    Except Exn (FiberImpl × Nat × Int) :=
  match fbr.frame_stack with
  | [] => .error .undefined
  | frame :: _ => do
    let apply := frame.apply
    let result ← fbr.stack.back
    let stack ← fbr.stack.pop_back
    let stack ← stack.pop function.local_count
    let (fbr1, link) ← pop_frame { fbr with stack := stack } (fun s => s.push_back result)
    match result with
    | .RVALUE rvalue =>
      if Error2.is_error rvalue ∧ apply.throws_ then pure (fbr1, link, 1)
      else pure (fbr1, link, 0)
    | _ => pure (fbr1, link, 0)

end FiberImpl

end park

namespace park

/-- The order in which the claim of first-hit dispatch consults the tables:
(kind,kind), (type,kind), (kind,type), (type,type), keyed by the kinds `k1`,
`k2` and the types `t1`, `t2` of the two arguments. -/
def BuiltinBinaryDispatch.first_hit (b : BuiltinBinaryDispatch) (k1 k2 : kind_t)
    (t1 t2 : TypeRef) : Option MethodImpl :=
  [map_find b.methods_by_kind_kind_ (k1, k2), map_find b.methods_by_type_kind_ (t1, k2),
    map_find b.methods_by_kind_type_ (k1, t2), map_find b.methods_by_type_type_ (t1, t2)].findSome? id

/-! ## Integer methods (`integer.cc`, `frame.h`) -/

namespace Builtin

/-- Addresses of the builtin objects `equals`, `add`, `subtract`, `multiply`
created by `Builtin::init`; all that matters is that they differ. -/
def EQUALS : Nat := 0
def ADD : Nat := 1
def SUBTRACT : Nat := 2
def MULTIPLY : Nat := 3

end Builtin

/-- Type descriptors of classes that register methods on the same builtins. -/
def BigStringImpl.TYPE : TypeRef := TypeRef.Other 0
def VectorImpl.TYPE : TypeRef := TypeRef.Other 1
def VectorIteratorImpl.TYPE : TypeRef := TypeRef.Other 2

/-- A builtin freshly made by `Runtime::create_builtin<BuiltinBinaryDispatch>`. -/
def BuiltinBinaryDispatch.created : BuiltinBinaryDispatch := ⟨[], [], [], []⟩

/-- The table of `equals` after `Integer::init`, `String::init` and
`Boolean::init`, in the order `RuntimeImpl` runs them. -/
def equals_methods : BuiltinBinaryDispatch :=
  (((BuiltinBinaryDispatch.created.register_type_type .Integer .Integer ._equals).register_kind_kind
    .IVALUE .IVALUE ._equals_int64_t).register_type_type .String .String (.other 0)).register_type_type
    .Boolean .Boolean (.other 1)

/-- The table of `add` after `Integer::init`, `String::init`, `Vector::init`. -/
def add_methods : BuiltinBinaryDispatch :=
  ((((((BuiltinBinaryDispatch.created.register_type_type .Integer .Integer ._add).register_kind_kind
    .IVALUE .IVALUE ._add_int64_t).register_type_type .String .String (.other 2)).register_type_type
    BigStringImpl.TYPE .String (.other 3)).register_type_type .String BigStringImpl.TYPE
    (.other 4)).register_type_type VectorImpl.TYPE VectorImpl.TYPE (.other 5)).register_type_type
    VectorImpl.TYPE VectorIteratorImpl.TYPE (.other 6)

/-- The table of `subtract` after `Integer::init`. -/
def subtract_methods : BuiltinBinaryDispatch :=
  (((BuiltinBinaryDispatch.created.register_type_type .Integer .Integer
    ._subtract_boxed_boxed).register_type_kind .Integer .IVALUE
    ._subtract_boxed_int64).register_kind_type .IVALUE .Integer
    ._subtract_int64_boxed).register_kind_kind .IVALUE .IVALUE ._subtract_int64_t

/-- The table of `multiply` after `Integer::init`. -/
def multiply_methods : BuiltinBinaryDispatch :=
  (BuiltinBinaryDispatch.created.register_type_type .Integer .Integer ._multiply).register_kind_kind
    .IVALUE .IVALUE ._multiply_int64_t

/-- The runtime after initialisation, as far as the four integer builtins go. -/
def initialised_runtime : Runtime where
  builtins := fun addr =>
    if addr = Builtin.EQUALS then some (.binary_dispatch equals_methods)
    else if addr = Builtin.ADD then some (.binary_dispatch add_methods)
    else if addr = Builtin.SUBTRACT then some (.binary_dispatch subtract_methods)
    else if addr = Builtin.MULTIPLY then some (.binary_dispatch multiply_methods)
    else none
  dispatch_other := fun _ _ => .error (.not_implemented "dispatch")

namespace Frame

/-- `Frame::bad_dispatch`. -/
def bad_dispatch (rt : Runtime) (fbr : FiberImpl) (apply : AST.Apply) : Except Exn Outcome :=
  fbr.exec_dispatch rt apply

/-- The tail of a method that accepted its arguments: `stack.pop(3)` followed
by the push of the result. -/
def pop3_push (fbr : FiberImpl) (apply : AST.Apply) (result : value_t) : Except Exn Outcome := do
  let stack ← fbr.stack.pop 3
  let stack ← stack.push_back result
  pure ({ fbr with stack := stack }, apply, 0)

/-- `Frame::binary<int64_t, int64_t>` and `Frame::check_binary<int64_t,
int64_t>` followed by the push of `op a b`: the callable slot must hold the
builtin at `callable`, both arguments must be unboxed integers. -/
def binary_int64 (rt : Runtime) (fbr : FiberImpl) (apply : AST.Apply) (callable : Nat)
    (op : Int → Int → value_t) : Except Exn Outcome := do
  let base ← fbr.stack.base apply.argument_count
  let slot0 ← fbr.stack.argument base 0
  if slot0 = .RVALUE (.Builtin callable) then
    let slot1 ← fbr.stack.argument base 1
    match slot1 with
    | .IVALUE a =>
      let slot2 ← fbr.stack.argument base 2
      match slot2 with
      | .IVALUE b => pop3_push fbr apply (op a b)
      | _ => bad_dispatch rt fbr apply
    | _ => bad_dispatch rt fbr apply
  else bad_dispatch rt fbr apply

/-- `Frame::binary<IntegerImpl, IntegerImpl>` and
`Frame::check_binary_boxed<IntegerImpl, IntegerImpl>` followed by the push of
`op a.v b.v`: both arguments are first cast to `const Value &` (which boxes an
unboxed integer or boolean and throws on the other unboxed kinds). -/
def binary_boxed (rt : Runtime) (fbr : FiberImpl) (apply : AST.Apply) (callable : Nat)
    (op : Int → Int → value_t) : Except Exn Outcome := do
  let base ← fbr.stack.base apply.argument_count
  let slot1 ← fbr.stack.argument base 1
  let _a ← value.cast_Value slot1
  let slot2 ← fbr.stack.argument base 2
  let _b ← value.cast_Value slot2
  let slot0 ← fbr.stack.argument base 0
  if slot0 = .RVALUE (.Builtin callable) then
    match _a, _b with
    | .Integer a, .Integer b => pop3_push fbr apply (op a b)
    | _, _ => bad_dispatch rt fbr apply
  else bad_dispatch rt fbr apply

end Frame

namespace IntegerImpl

/-- `IntegerImpl::_subtract_boxed_boxed`. -/
def _subtract_boxed_boxed (rt : Runtime) (fbr : FiberImpl) (apply : AST.Apply) :
    Except Exn Outcome := do
  let base ← fbr.stack.base apply.argument_count
  if apply.argument_count ≠ 2 then Frame.bad_dispatch rt fbr apply
  else
    let c ← fbr.stack.argument base 0
    if c ≠ .RVALUE (.Builtin Builtin.SUBTRACT) then Frame.bad_dispatch rt fbr apply
    else
      let a ← fbr.stack.argument base 1
      let b ← fbr.stack.argument base 2
      match a with
      | .RVALUE (.Integer a_) =>
        match b with
        | .RVALUE (.Integer b_) => Frame.pop3_push fbr apply (.IVALUE (wrap64 (a_ - b_)))
        | _ => Frame.bad_dispatch rt fbr apply
      | _ => Frame.bad_dispatch rt fbr apply

/-- `IntegerImpl::_subtract_boxed_int64`. -/
def _subtract_boxed_int64 (rt : Runtime) (fbr : FiberImpl) (apply : AST.Apply) :
    Except Exn Outcome := do
  let base ← fbr.stack.base apply.argument_count
  if apply.argument_count ≠ 2 then Frame.bad_dispatch rt fbr apply
  else
    let c ← fbr.stack.argument base 0
    if c ≠ .RVALUE (.Builtin Builtin.SUBTRACT) then Frame.bad_dispatch rt fbr apply
    else
      let a ← fbr.stack.argument base 1
      let b ← fbr.stack.argument base 2
      match a with
      | .RVALUE (.Integer a_) =>
        match b with
        | .IVALUE b_ => Frame.pop3_push fbr apply (.IVALUE (wrap64 (a_ - b_)))
        | _ => Frame.bad_dispatch rt fbr apply
      | _ => Frame.bad_dispatch rt fbr apply

/-- `IntegerImpl::_subtract_int64_boxed`. -/
def _subtract_int64_boxed (_rt : Runtime) (_fbr : FiberImpl) (_apply : AST.Apply) :
    Except Exn Outcome :=
  .error (.runtime_error "TODO _subtract_int64_boxed")

/-- The body behind each method pointer registered by `IntegerImpl::init`;
`none` for a method of another class. -/
def method : MethodImpl → Option (Runtime → FiberImpl → AST.Apply → Except Exn Outcome)
  | ._equals => some fun rt fbr apply =>
      Frame.binary_boxed rt fbr apply Builtin.EQUALS fun a b => .BVALUE (a = b)
  | ._equals_int64_t => some fun rt fbr apply =>
      Frame.binary_int64 rt fbr apply Builtin.EQUALS fun a b => .BVALUE (a = b)
  | ._add => some fun rt fbr apply =>
      Frame.binary_boxed rt fbr apply Builtin.ADD fun a b => .IVALUE (wrap64 (a + b))
  | ._add_int64_t => some fun rt fbr apply =>
      Frame.binary_int64 rt fbr apply Builtin.ADD fun a b => .IVALUE (wrap64 (a + b))
  | ._subtract_boxed_boxed => some _subtract_boxed_boxed
  | ._subtract_boxed_int64 => some _subtract_boxed_int64
  | ._subtract_int64_boxed => some _subtract_int64_boxed
  | ._subtract_int64_t => some fun rt fbr apply =>
      Frame.binary_int64 rt fbr apply Builtin.SUBTRACT fun a b => .IVALUE (wrap64 (a - b))
  | ._multiply => some fun rt fbr apply =>
      Frame.binary_boxed rt fbr apply Builtin.MULTIPLY fun a b => .IVALUE (wrap64 (a * b))
  | ._multiply_int64_t => some fun rt fbr apply =>
      Frame.binary_int64 rt fbr apply Builtin.MULTIPLY fun a b => .IVALUE (wrap64 (a * b))
  | _ => none

end IntegerImpl

/-- An integer argument on the stack: an unboxed `IVALUE` slot, or an `RVALUE`
slot pointing to a boxed `IntegerImpl`. -/
def integer_slot (boxed : Bool) (v : Int) : value_t :=
  match boxed with
  | true => .RVALUE (.Integer v)
  | false => .IVALUE v

/-- First resolution at a call site with two arguments, then the call of the
method now cached in `target_`, as the code emitted for an `Apply` node does:
the first call goes to `exec_dispatch`, which installs the target and returns
a negative status, and the retry calls the installed target. -/
def dispatch_then_call (rt : Runtime) (fbr : FiberImpl) (apply : AST.Apply) :
    Except Exn Outcome := do
  let (fbr1, apply1, _) ← fbr.exec_dispatch rt apply
  match IntegerImpl.method apply1.target_ with
  | some body => body rt fbr1 apply1
  | none => .error .undefined

end park

namespace park

/-! ## Defer lists (`list.cc`, `fiber.cc`) -/

namespace ListImpl

/-- The shared root `ListImpl::EMPTY`: no item, no tail. -/
def EMPTY : ListImpl := .last none

/-- `List::create`. -/
def create : ListImpl := EMPTY

/-- `ListImpl::conj`: a new object with the item in front of `this`. -/
def conj (self : ListImpl) (item : Value) : ListImpl := .node (some item) self

/-- `ListImpl::to_bool`: whether `tail_` is set. -/
def to_bool (self : ListImpl) : Bool := self.tail_.isSome

/-- The result computed by `ListImpl::_first`. -/
def _first (self : ListImpl) : Except Exn (Option Value) :=
  if self.tail_.isSome then .ok self.item_
  else .error (.runtime_error "TODO exc from first on LIST")

/-- The result computed by `ListImpl::_next`. -/
def _next (self : ListImpl) : Except Exn ListImpl :=
  match self.tail_ with
  | some tail => .ok tail
  | none => .error (.runtime_error "TODO exc from next on LIST")

/-- Enumeration of a list by repeatedly taking `first` and `next` while the
list is true; `fuel` bounds the number of rounds. -/
def enumerate : Nat → ListImpl → Except Exn (List (Option Value))
  | 0, _ => .error .diverges
  | fuel + 1, self =>
    if self.to_bool then do
      let item ← self._first
      let rest ← self._next
      let items ← enumerate fuel rest
      pure (item :: items)
    else pure []

end ListImpl

namespace FiberImpl

/-- `FiberImpl::defers`. -/
def defers (fbr : FiberImpl) : Except Exn ListImpl :=
  match fbr.frame_stack with
  | [] => .error .undefined
  | frame :: _ =>
    match frame.defers with
    | some defers => .ok defers
    | none => .ok ListImpl.create

/-- `FiberImpl::__defer`. -/
def __defer (fbr : FiberImpl) (closure : Value) : Except Exn FiberImpl := do
  let defers ← fbr.defers
  match fbr.frame_stack with
  | [] => .error .undefined
  | frame :: frames =>
    pure { fbr with frame_stack := { frame with defers := some (defers.conj closure) } :: frames }

/-- `FiberImpl::exec_check_defers`. -/
def exec_check_defers (fbr : FiberImpl) : Except Exn Int :=
  match fbr.frame_stack with
  | [] => .error .undefined
  | frame :: _ => .ok (if frame.defers.isSome then 1 else 0)

/-- The closures are deferred one after the other in the current frame. -/
def defer_all (fbr : FiberImpl) : List Value → Except Exn FiberImpl
  | [] => .ok fbr
  | closure :: closures => do
    let fbr1 ← fbr.__defer closure
    defer_all fbr1 closures

end FiberImpl

end park

namespace park

/-- The items of a list object from the front up to, and without, the object
whose `tail_` is null. -/
def ListImpl.items : ListImpl → List (Option Value)
  | .last _ => []
  | .node item tail => item :: items tail

end park

namespace gc

/-! ## Blocks of the shared heap (`gc_base.h`, `gc.cc`) -/

/-- The value `0xffffffffffffffff` of a `uint64_t` with every bit set. -/
def ALL_ONES : Nat := 0xffffffffffffffff

/-- The complement `~x` of a `uint64_t`. -/
def not64 (x : Nat) : Nat := x ^^^ ALL_ONES

/-- `__builtin_popcountll`. -/
def popcountll (x : Nat) : Nat := ((List.range 64).filter fun j => x.testBit j).length

/-- The index of the lowest clear bit among the low 64 bits of `x`, that is
`__builtin_ffsll(~x) - 1` when there is one. -/
def lowest_clear (x : Nat) : Option Nat := (List.range 64).find? fun j => !x.testBit j

/-- The class `block_t`: the dirty bit, the summary byte `select_`, the three
bitmaps of eight 64-bit words each (a word is looked up by its index), the
slot size, the block size, and the counters. The data area is not part of the
model; a slot is named by its index. -/
structure block_t where
  dirty_ : Bool
  select_ : Nat
  bitmap_ : Nat → Nat
  marked_ : Nat → Nat
  finalize_ : Nat → Nat
  sz_ : Nat
  block_size_ : Nat
  available_ : Int
  capacity_ : Nat

namespace block_t

def full (b : block_t) : Bool := b.available_ = 0

def empty (b : block_t) : Bool := b.available_ = b.capacity_

def used (b : block_t) : Int := b.capacity_ - b.available_

def available (b : block_t) : Int := b.available_

/-- `block_t::count`: the number of set alloc bits. -/
def count (b : block_t) : Nat :=
  popcountll (b.bitmap_ 0) + popcountll (b.bitmap_ 1) + popcountll (b.bitmap_ 2) +
    popcountll (b.bitmap_ 3) + popcountll (b.bitmap_ 4) + popcountll (b.bitmap_ 5) +
    popcountll (b.bitmap_ 6) + popcountll (b.bitmap_ 7)

def mask64 (idx : Nat) : Nat := 1 <<< idx

def mask8 (idx : Nat) : Nat := 1 <<< idx

/-- `block_t::split`: the word index and the bit offset of a slot index. -/
def split (idx : Nat) : Nat × Nat := (idx / 64, idx % 64)

/-- Whether the alloc bit of slot `idx` is set. -/
def allocated (b : block_t) (idx : Nat) : Bool :=
  b.bitmap_ (split idx).1 &&& mask64 (split idx).2 ≠ 0

/-- `block_t::marked`. -/
def marked (b : block_t) (idx : Nat) : Bool :=
  b.marked_ (split idx).1 &&& mask64 (split idx).2 ≠ 0

/-- Whether the finalizer bit of slot `idx` is set. -/
def finalizer (b : block_t) (idx : Nat) : Bool :=
  b.finalize_ (split idx).1 &&& mask64 (split idx).2 ≠ 0

/-- `block_t::set_mark_concurrent`: an atomic fetch-and-or; the result tells
whether the bit was set before. -/
def set_mark_concurrent (b : block_t) (idx : Nat) : block_t × Bool :=
  let idx0 := (split idx).1
  let mask := mask64 (split idx).2
  ({ b with marked_ := Function.update b.marked_ idx0 (b.marked_ idx0 ||| mask) },
    b.marked_ idx0 &&& mask ≠ 0)

/-- `block_t::alloc`: the block and the index `idx0 * 64 + idx1` of the slot
whose address `data + idx * sz_` is returned. -/
def alloc (b : block_t) (with_finalizer marked : Bool) : Except park.Exn (block_t × Nat) :=
  if b.full then .error .undefined
  else
    match lowest_clear b.select_ with
    | none => .error .undefined
    | some idx0 =>
      if ¬ idx0 < 8 then .error .undefined
      else
        match lowest_clear (b.bitmap_ idx0) with
        | none => .error .undefined
        | some idx1 =>
          let word := b.bitmap_ idx0 ||| mask64 idx1
          let b1 := { b with bitmap_ := Function.update b.bitmap_ idx0 word }
          let b2 := if word = ALL_ONES then { b1 with select_ := b1.select_ ||| mask8 idx0 } else b1
          let b3 := if with_finalizer then
              { b2 with finalize_ := Function.update b2.finalize_ idx0 (b2.finalize_ idx0 ||| mask64 idx1) }
            else b2
          let b4 := if marked then
              { b3 with marked_ := Function.update b3.marked_ idx0 (b3.marked_ idx0 ||| mask64 idx1) }
            else b3
          .ok ({ b4 with available_ := b4.available_ - 1 }, idx0 * 64 + idx1)

/-- `block_t::clear_marked`. -/
def clear_marked (b : block_t) : block_t := { b with marked_ := fun _ => 0 }

/-- The statement `finalize_[i] &= ~mask64(j)`. -/
def clear_finalizer_bit (b : block_t) (i j : Nat) : block_t :=
  { b with finalize_ := Function.update b.finalize_ i (b.finalize_ i &&& not64 (mask64 j)) }

/-- The loop of `block_t::sweep` over the bits `j` of word `i` that runs the
destructors: for every slot below the capacity whose bit is set in
`to_finalize` the finalizer runs (the slot index is appended to the log) and
the finalizer bit is cleared. -/
def run_finalizers (b : block_t) (i to_finalize : Nat) (log : List Nat) :
    List Nat → block_t × List Nat
  | [] => (b, log)
  | j :: js =>
    let idx := i * 64 + j
    if idx < b.capacity_ ∧ to_finalize &&& mask64 j ≠ 0 then
      run_finalizers (b.clear_finalizer_bit i j) i to_finalize (log ++ [idx]) js
    else run_finalizers b i to_finalize log js

/-- The body of the loop of `block_t::sweep` for word `i`. -/
def sweep_word (bl : block_t × List Nat) (i : Nat) : block_t × List Nat :=
  let b := bl.1
  let b1 := { b with bitmap_ := Function.update b.bitmap_ i (b.marked_ i) }
  let b2 := if b1.bitmap_ i = ALL_ONES then { b1 with select_ := b1.select_ ||| mask8 i } else b1
  let to_finalize := b2.finalize_ i &&& not64 (b2.marked_ i)
  if to_finalize ≠ 0 then run_finalizers b2 i to_finalize bl.2 (List.range 64)
  else (b2, bl.2)

/-- `block_t::sweep`: the block afterwards and the slots whose finalizer ran,
in the order of the calls. -/
def sweep (b : block_t) : block_t × List Nat :=
  let r := (List.range 8).foldl sweep_word ({ b with select_ := 0 }, [])
  let b1 := r.1.clear_marked
  ({ b1 with available_ := (b1.capacity_ : Int) - b1.count }, r.2)

/-- `block_t::dirty_cas`. -/
def dirty_cas (b : block_t) (mask : Bool) : block_t × Bool :=
  if b.dirty_ = !mask then ({ b with dirty_ := mask }, true) else (b, false)

end block_t

/-- `allocator_t::sweep(block)` under the allocator's `dirty_mask_`: the block,
the slots finalized and the number of slots freed. -/
def allocator_sweep (dirty_mask_ : Bool) (block : block_t) : block_t × List Nat × Int :=
  let r := block.dirty_cas dirty_mask_
  if r.2 then
    let available_before := r.1.available
    let s := r.1.sweep
    (s.1, s.2, s.1.available - available_before)
  else (r.1, [], 0)

/-- One sweep of a block: the per-cycle sweep of `allocator_t::sweep` under
some value of the dirty mask, or the unguarded sweep of
`allocator_t::sweep_final`. -/
inductive Sweep where
  | guarded (dirty_mask_ : Bool)
  | final
  deriving DecidableEq, Repr

/-- The effect of one sweep on a block and on the log of finalizer calls. -/
def Sweep.run (bl : block_t × List Nat) : Sweep → block_t × List Nat
  | .guarded dirty_mask_ =>
    let r := allocator_sweep dirty_mask_ bl.1
    (r.1, bl.2 ++ r.2.1)
  | .final =>
    let r := bl.1.sweep
    (r.1, bl.2 ++ r.2)

/-- Whether the sweep reaches `block_t::sweep` on this block. -/
def Sweep.effective (b : block_t) : Sweep → Bool
  | .guarded dirty_mask_ => b.dirty_ = !dirty_mask_
  | .final => true

/-- A sequence of sweeps of one block. -/
def run_sweeps (bl : block_t × List Nat) (sweeps : List Sweep) : block_t × List Nat :=
  sweeps.foldl Sweep.run bl

/-- The two states of a slot that was allocated with the finalizer flag: still
allocated, flagged and not finalized, or free, unflagged, unmarked and
finalized once. -/
def finalizer_state (capacity_ idx : Nat) (bl : block_t × List Nat) : Prop :=
  bl.1.capacity_ = capacity_ ∧
    ((bl.1.allocated idx = true ∧ bl.1.finalizer idx = true ∧ bl.2.count idx = 0) ∨
      (bl.1.allocated idx = false ∧ bl.1.finalizer idx = false ∧ bl.1.marked idx = false ∧
        bl.2.count idx = 1))

end gc

namespace gc

/-! ## Concurrent marking (`gc.cc`) -/

/-- A pointer to a shared-heap object as `block_t::block_and_index_from_ptr`
resolves it: the block and the slot index. -/
structure ref where
  block : Nat
  idx : Nat
  deriving DecidableEq, Repr

/-- Whether the mark bit of the object is set. -/
def is_marked (blocks : Nat → block_t) (r : ref) : Bool := (blocks r.block).marked r.idx

/-- One round of the loop of `collector_t::mark_concurrent`: the last entry is
popped, its mark bit is set with `set_mark_concurrent`, the references its
`walk` yields are pushed when the bit was clear, and when more than 128
entries are left the upper half is split off and queued as a work item of
its own. `walk` gives the outgoing references of an object, `todo` is the
queue `stw_work_todo` of grey lists waiting for a worker. -/
def mark_round (walk : ref → List ref) (blocks : Nat → block_t) (grey : List ref)
    (todo : List (List ref)) : (Nat → block_t) × List ref × List (List ref) :=
  match grey.getLast? with
  | none => (blocks, grey, todo)
  | some r =>
    let popped := grey.dropLast
    let m := (blocks r.block).set_mark_concurrent r.idx
    let blocks1 := Function.update blocks r.block m.1
    let grey1 := if m.2 then popped else popped ++ walk r
    if grey1.length > 128 then
      let half := grey1.length / 2
      (blocks1, grey1.take half, todo ++ [grey1.drop half])
    else (blocks1, grey1, todo)

/-- `collector_t::mark_concurrent(grey)`: rounds until the grey list is empty;
`none` when `fuel` rounds do not suffice. -/
def mark_concurrent (walk : ref → List ref) :
    Nat → (Nat → block_t) → List ref → List (List ref) → Option ((Nat → block_t) × List (List ref))
  | 0, _, _, _ => none
  | fuel + 1, blocks, grey, todo =>
    if grey = [] then some (blocks, todo)
    else
      let r := mark_round walk blocks grey todo
      mark_concurrent walk fuel r.1 r.2.1 r.2.2

/-- `collector_t::perform_work` run until `stw_work_todo` is empty, the work
items being calls of `mark_concurrent` on their grey lists, taken from the
front one after the other. -/
def perform_all_work (walk : ref → List ref) :
    Nat → (Nat → block_t) → List (List ref) → Option (Nat → block_t)
  | 0, _, _ => none
  | _ + 1, blocks, [] => some blocks
  | fuel + 1, blocks, grey :: todo =>
    match mark_concurrent walk fuel blocks grey todo with
    | none => none
    | some r => perform_all_work walk fuel r.1 r.2

/-- The sweep of every block of the heap. -/
def sweep_blocks (blocks : Nat → block_t) : Nat → block_t := fun k => (blocks k).sweep.1

/-- An object is reachable from the roots through `walk`. -/
inductive reachable (walk : ref → List ref) (roots : List ref) : ref → Prop where
  | root (r : ref) : r ∈ roots → reachable walk roots r
  | step (r c : ref) : reachable walk roots r → c ∈ walk r → reachable walk roots c

/-- The number of objects of `objects` whose mark bit is clear. -/
def unmarked_count (objects : List ref) (blocks : Nat → block_t) : Nat :=
  (objects.toFinset.filter fun r => is_marked blocks r = false).card

/-- A bound on the number of references an object of `objects` holds. -/
def max_degree (walk : ref → List ref) (objects : List ref) : Nat :=
  (objects.map fun r => (walk r).length).sum

/-- The number of rounds and work items left at most: it decreases with every
round of `mark_concurrent` and with every work item taken. -/
def work_left (walk : ref → List ref) (objects : List ref) (blocks : Nat → block_t)
    (grey : List ref) (todo : List (List ref)) : Nat :=
  todo.length + 2 * (unmarked_count objects blocks * (max_degree walk objects + 1)
    + grey.length + (todo.map List.length).sum)

/-- The marking invariant over the entries `pool` of all grey lists: the
entries are objects of `objects`, every reference of a marked object is
marked or grey, and so is every root. -/
def marking_invariant (walk : ref → List ref) (objects roots : List ref)
    (blocks : Nat → block_t) (pool : List ref) : Prop :=
  (∀ x ∈ pool, x ∈ objects) ∧
    (∀ r ∈ objects, is_marked blocks r = true → ∀ c ∈ walk r, is_marked blocks c = true ∨ c ∈ pool) ∧
    (∀ r ∈ roots, is_marked blocks r = true ∨ r ∈ pool)

end gc

namespace gc

/-! ## A small heap -/

/-- A block of four slots of which the slots 0, 1 and 2 are allocated, slot 1
with the finalizer flag, and none is marked. -/
def example_block : block_t :=
  { dirty_ := false, select_ := 0, bitmap_ := fun i => if i = 0 then 7 else 0,
    marked_ := fun _ => 0, finalize_ := fun i => if i = 0 then 2 else 0,
    sz_ := 16, block_size_ := 4096, available_ := 1, capacity_ := 4 }

/-- The three objects of block 0. -/
def example_objects : List ref := [⟨0, 0⟩, ⟨0, 1⟩, ⟨0, 2⟩]

/-- Object 0 refers to object 1; the objects 1 and 2 hold no reference. -/
def example_walk (r : ref) : List ref := if r = ⟨0, 0⟩ then [⟨0, 1⟩] else []

end gc

namespace gc

/-! ## Promotion to the shared heap (`gc_ref.h`, `gc_base.h`, `gc.h`, `gc.cc`) -/

def SHARED_BIT_MASK : Nat := 0x100000

/-- `is_shared_ref`: whether the pointer has the shared bit, the bit
`block_t::create` sets in the address of every shared block. -/
def is_shared_ref (r : Nat) : Bool := r &&& SHARED_BIT_MASK ≠ 0

/-- `private_heap_t::header_t`, the eight bytes in front of a nursery
object. -/
structure header_t where
  sz : Nat
  marked : Bool
  deriving DecidableEq, Repr

/-- What the collector sees of a `collectable`: its first word (the vtable
pointer, which a nursery collection overwrites with the forwarding pointer)
and the references its `walk` passes to `accept`, in order. -/
structure collectable where
  word0 : Nat
  refs : List Nat
  deriving DecidableEq, Repr

/-- The counters of `private_heap_t`. -/
structure private_heap_t where
  allocated_ : Int
  allocated_bytes_ : Int
  freed_ : Int
  freed_bytes_ : Int
  deriving DecidableEq, Repr

/-- The allocator of a fiber with the memory it works on: `header` gives the
nursery header in front of an address, `data` the object at an address,
`none` where there is no object. -/
structure allocator_t where
  header : Nat → Option header_t
  data : Nat → Option collectable
  shared_ : Int
  shared_allocated_ : Nat
  shared_allocated_bytes_ : Nat
  private_heap_ : private_heap_t
  nr_collections_ : Nat

/-- `allocator_t::alloc_shared(sz, false)`: the counters are advanced and a
slot of the shared heap is returned. Which slot the shared heap hands out is
given by `next`, by the number of shared allocations made before. -/
def allocator_t.alloc_shared (next : Nat → Nat) (a : allocator_t) (sz : Nat) :
    allocator_t × Nat :=
  ({ a with shared_allocated_ := a.shared_allocated_ + 1,
            shared_allocated_bytes_ := a.shared_allocated_bytes_ + sz },
    next a.shared_allocated_)

/-- Storing the object `c` at the address `p`. -/
def allocator_t.set_data (a : allocator_t) (p : Nat) (c : collectable) : allocator_t :=
  { a with data := Function.update a.data p (some c) }

/-- Reading the `i`-th reference of the object at `obj`. -/
def allocator_t.get_ref (a : allocator_t) (obj i : Nat) : Except park.Exn Nat :=
  match a.data obj with
  | none => .error .undefined
  | some c =>
    match c.refs[i]? with
    | none => .error .undefined
    | some v => .ok v

/-- Writing the `i`-th reference of the object at `obj`. -/
def allocator_t.set_ref (a : allocator_t) (obj i v : Nat) : Except park.Exn allocator_t :=
  match a.data obj with
  | none => .error .undefined
  | some c =>
    if i < c.refs.length then
      .ok (a.set_data obj { c with refs := c.refs.set i v })
    else .error .undefined

/-- The call `new_ptr->walk(share_)`: `share_` is applied to the references of
the object at `new_ptr` one after the other, each reference being read when
its turn comes and overwritten with what `share_` leaves in it. -/
def share_walk (share_ : allocator_t → Nat → Except park.Exn (allocator_t × Nat))
    (new_ptr : Nat) : List Nat → allocator_t → Except park.Exn allocator_t
  | [], a => .ok a
  | i :: rest, a =>
    match a.get_ref new_ptr i with
    | .error e => .error e
    | .ok v =>
      match share_ a v with
      | .error e => .error e
      | .ok (a1, v1) =>
        match a1.set_ref new_ptr i v1 with
        | .error e => .error e
        | .ok a2 => share_walk share_ new_ptr rest a2

/-- The lambda `share_` of `allocator_t::share`, on the reference holding `r`;
the result is the allocator and what the reference holds on return. A shared
reference is left alone. A nursery object is copied to a new shared slot,
`share_` is applied to the references of the copy, and the reference is set
to the copy. `fuel` bounds the depth of the recursion. -/
def share_ (next : Nat → Nat) : Nat → allocator_t → Nat → Except park.Exn (allocator_t × Nat)
  | 0, _, _ => .error .diverges
  | fuel + 1, a, r =>
    if r = 0 then .error .undefined
    else if is_shared_ref r then .ok (a, r)
    else
      match a.header r, a.data r with
      | some header, some c =>
        if header.sz % 16 ≠ 0 then .error .undefined
        else
          let m := a.alloc_shared next header.sz
          let a1 := allocator_t.set_data { m.1 with shared_ := m.1.shared_ + 1 } m.2 c
          match share_walk (share_ next fuel) m.2 (List.range c.refs.length) a1 with
          | .error e => .error e
          | .ok a2 => .ok (a2, m.2)
      | _, _ => .error .undefined

/-- `allocator_t::share(o)`. -/
def allocator_t.share (next : Nat → Nat) (fuel : Nat) (a : allocator_t) (o : Nat) :
    Except park.Exn (allocator_t × Nat) :=
  share_ next fuel a o

/-- The object at `p`, if there is one, holds shared references only. -/
def closed_at (a : allocator_t) (p : Nat) : Prop :=
  ∀ c, a.data p = some c → ∀ f ∈ c.refs, is_shared_ref f = true

/-- No shared-heap object holds a pointer into a nursery. -/
def shared_closed (a : allocator_t) : Prop :=
  ∀ p, is_shared_ref p = true → closed_at a p

/-- The references reachable from the reference `r` through `walk`. -/
inductive reachable_ref (a : allocator_t) (r : Nat) : Nat → Prop where
  | self : reachable_ref a r r
  | step (x f : Nat) (c : collectable) :
      reachable_ref a r x → a.data x = some c → f ∈ c.refs → reachable_ref a r f

end gc

namespace gc

/-- What a call of `share_` on a reference holding `r` establishes, from the
allocator `a` to the allocator `a1` with the reference holding `r1`. -/
def share_post (next : Nat → Nat) (a : allocator_t) (r : Nat) (a1 : allocator_t) (r1 : Nat) :
    Prop :=
  is_shared_ref r1 = true ∧ a1.header = a.header ∧
    a.shared_allocated_ ≤ a1.shared_allocated_ ∧
    (∀ p, (∀ n, a.shared_allocated_ ≤ n → n < a1.shared_allocated_ → p ≠ next n) →
      a1.data p = a.data p) ∧
    (∀ p, a1.data p = a.data p ∨ closed_at a1 p) ∧
    (∀ p, a.data p ≠ none → a1.data p ≠ none) ∧
    a.shared_ ≤ a1.shared_ ∧
    (is_shared_ref r = true → r1 = r ∧ a1 = a) ∧
    (is_shared_ref r = false → closed_at a1 r1 ∧ a1.data r1 ≠ none ∧ a.shared_ < a1.shared_)

/-- The nursery objects below the reference `r` are objects with a header of
a size that is a multiple of 16, no reference is null, and every path through
nursery objects ends after at most `d` objects. -/
def promotable (a : allocator_t) : Nat → Nat → Bool
  | 0, r => decide (r ≠ 0) && is_shared_ref r
  | d + 1, r =>
    decide (r ≠ 0) && (is_shared_ref r ||
      match a.header r, a.data r with
      | some header, some c => decide (header.sz % 16 = 0) && c.refs.all (promotable a d)
      | _, _ => false)

end gc

namespace gc

/-! ## A small nursery -/

/-- A shared heap that hands out the first slot of a new block each time. -/
def example_next (n : Nat) : Nat := 0x100000 + 0x200000 * n

/-- A nursery object of 32 bytes at 16 holding a reference to the nursery
object of 16 bytes at 64 and a reference to the shared object at 0x100010;
these two hold no reference. -/
def example_allocator : allocator_t :=
  { header := fun p => if p = 16 then some ⟨32, false⟩ else if p = 64 then some ⟨16, false⟩
      else none,
    data := fun p => if p = 16 then some ⟨1, [64, 0x100010]⟩ else if p = 64 then some ⟨1, []⟩
      else if p = 0x100010 then some ⟨1, []⟩ else none,
    shared_ := 0, shared_allocated_ := 1, shared_allocated_bytes_ := 16,
    private_heap_ := ⟨2, 48, 0, 0⟩, nr_collections_ := 0 }

end gc

namespace gc

/-! ## Nursery collection (`gc.cc`, `gc_base.h`) -/

/-- Storing the header `h` in front of the address `p`. -/
def allocator_t.set_header (a : allocator_t) (p : Nat) (h : header_t) : allocator_t :=
  { a with header := Function.update a.header p (some h) }

/-- The state of a running `collect_local_to_local`: the allocator with the
memory, and the local variable `new_private_heap`. -/
structure local_collection where
  allocator : allocator_t
  new_private_heap : private_heap_t

/-- `private_heap_t::alloc(allocator, sz)` on `new_private_heap`: the header in
front of the new object is written with the size and a clear mark, the
counters are advanced. Which address the bump pointer yields is given by
`next`, by the number of allocations made in this heap before; the chunks
behind it are not modelled. -/
def local_collection.alloc (next : Nat → Nat) (s : local_collection) (sz : Nat) :
    local_collection × Nat :=
  ({ allocator := s.allocator.set_header (next s.new_private_heap.allocated_.toNat) ⟨sz, false⟩,
     new_private_heap :=
      { s.new_private_heap with
        allocated_bytes_ := s.new_private_heap.allocated_bytes_ + sz,
        allocated_ := s.new_private_heap.allocated_ + 1 } },
    next s.new_private_heap.allocated_.toNat)

/-- The call `new_ptr->walk(mark_and_copy)`: `mark_and_copy` is applied to the
references of the copy at `new_ptr` one after the other, each reference being
read when its turn comes and overwritten with what the call leaves in it. -/
def copy_walk (mark_and_copy : local_collection → Nat → Except park.Exn (local_collection × Nat))
    (new_ptr : Nat) : List Nat → local_collection → Except park.Exn local_collection
  | [], s => .ok s
  | i :: rest, s =>
    match s.allocator.get_ref new_ptr i with
    | .error e => .error e
    | .ok v =>
      match mark_and_copy s v with
      | .error e => .error e
      | .ok (s1, v1) =>
        match s1.allocator.set_ref new_ptr i v1 with
        | .error e => .error e
        | .ok a2 => copy_walk mark_and_copy new_ptr rest { s1 with allocator := a2 }

/-- The copying of an unmarked nursery object in `mark_and_copy`: the mark in
the header of the object at `r` is set, room is taken from the new private
heap, the object `c` is copied there, and the first word of the old object
is overwritten with the forwarding pointer. The result holds `new_ptr`. -/
def copy_object (next : Nat → Nat) (s : local_collection) (r : Nat) (header : header_t)
    (c : collectable) : local_collection × Nat :=
  let s1 : local_collection :=
    { s with allocator := s.allocator.set_header r { header with marked := true } }
  let m := s1.alloc next header.sz
  let s2 : local_collection := { m.1 with allocator := m.1.allocator.set_data m.2 c }
  ({ s2 with allocator := s2.allocator.set_data r { c with word0 := m.2 } }, m.2)

/-- The lambda `mark_and_copy` of `collect_local_to_local`, on the reference
holding `r`; the result is the state and what the reference holds on return.
A shared reference is left alone. A marked nursery object has been copied
and the reference is set to the forwarding pointer found in its first word.
An unmarked one is marked, copied to the new private heap, overwritten with
the forwarding pointer, and the references of the copy are visited. `fuel`
bounds the depth of the recursion. -/
def mark_and_copy (next : Nat → Nat) :
    Nat → local_collection → Nat → Except park.Exn (local_collection × Nat)
  | 0, _, _ => .error .diverges
  | fuel + 1, s, r =>
    if r = 0 then .error .undefined
    else if is_shared_ref r then .ok (s, r)
    else
      match s.allocator.header r, s.allocator.data r with
      | some header, some c =>
        if header.marked then .ok (s, c.word0)
        else
          let m := copy_object next s r header c
          match copy_walk (mark_and_copy next fuel) m.2 (List.range c.refs.length) m.1 with
          | .error e => .error e
          | .ok s4 => .ok (s4, m.2)
      | _, _ => .error .undefined

/-- The call `for_each_root(mark_and_copy)`: the roots are visited in order;
the result holds what the roots hold afterwards. -/
def for_each_root (mark_and_copy : local_collection → Nat → Except park.Exn (local_collection × Nat)) :
    List Nat → local_collection → Except park.Exn (local_collection × List Nat)
  | [], s => .ok (s, [])
  | r :: rest, s =>
    match mark_and_copy s r with
    | .error e => .error e
    | .ok (s1, r1) =>
      match for_each_root mark_and_copy rest s1 with
      | .error e => .error e
      | .ok (s2, rs) => .ok (s2, r1 :: rs)

/-- `allocator_t::collect_local_to_local(for_each_root)`: the nursery objects
reachable from the roots are copied to a new private heap, which takes the
counters of the old one with the numbers of objects and bytes not copied
added to the freed ones, and replaces it. The release of the chunks of the
old heap, the block lists of the local heap and the timing statistics are
not part of the model. -/
def allocator_t.collect_local_to_local (next : Nat → Nat) (fuel : Nat) (a : allocator_t)
    (roots : List Nat) : Except park.Exn (allocator_t × List Nat) :=
  let used_at_start := a.private_heap_.allocated_ - a.private_heap_.freed_
  let used_bytes_at_start := a.private_heap_.allocated_bytes_ - a.private_heap_.freed_bytes_
  let new_private_heap : private_heap_t := ⟨0, 0, 0, 0⟩
  match for_each_root (mark_and_copy next fuel) roots ⟨a, new_private_heap⟩ with
  | .error e => .error e
  | .ok (s, roots1) =>
    let freed := used_at_start - s.new_private_heap.allocated_
    let freed_bytes := used_bytes_at_start - s.new_private_heap.allocated_bytes_
    let swapped : private_heap_t :=
      { allocated_ := s.allocator.private_heap_.allocated_,
        allocated_bytes_ := s.allocator.private_heap_.allocated_bytes_,
        freed_ := s.allocator.private_heap_.freed_ + freed,
        freed_bytes_ := s.allocator.private_heap_.freed_bytes_ + freed_bytes }
    .ok ({ s.allocator with private_heap_ := swapped,
                            nr_collections_ := s.allocator.nr_collections_ + 1 }, roots1)

/-- The live-byte count of the nursery. -/
def allocator_t.live_bytes (a : allocator_t) : Int :=
  a.private_heap_.allocated_bytes_ - a.private_heap_.freed_bytes_

/-- The live-object count of the nursery. -/
def allocator_t.live_objects (a : allocator_t) : Int :=
  a.private_heap_.allocated_ - a.private_heap_.freed_

/-- The size in the header of the nursery object at `p`. -/
def sz_of (a : allocator_t) (p : Nat) : Nat :=
  match a.header p with
  | some h => h.sz
  | none => 0

/-- The references of the object at `p`. -/
def refs_of (a : allocator_t) (p : Nat) : List Nat :=
  match a.data p with
  | some c => c.refs
  | none => []

/-- The nursery objects reachable from the roots through `walk`. -/
inductive nursery_reachable (a : allocator_t) (roots : List Nat) : Nat → Prop where
  | root (r : Nat) : r ∈ roots → is_shared_ref r = false → nursery_reachable a roots r
  | step (x f : Nat) :
      nursery_reachable a roots x → f ∈ refs_of a x → is_shared_ref f = false →
      nursery_reachable a roots f

/-- A reference is neither null nor dangling: it is shared or one of
`objects`. -/
def valid_ref (objects : List Nat) (r : Nat) : Prop :=
  r ≠ 0 ∧ (is_shared_ref r = true ∨ r ∈ objects)

/-- The nursery objects `objects` are unmarked objects with a header, and
their references are valid. -/
def nursery_wf (a : allocator_t) (objects : List Nat) : Prop :=
  ∀ p ∈ objects, p ≠ 0 ∧ is_shared_ref p = false ∧ a.header p = some ⟨sz_of a p, false⟩ ∧
    a.data p ≠ none ∧ ∀ f ∈ refs_of a p, valid_ref objects f

/-- The new private heap yields addresses of the local heap, none twice and
none of them the address of one of `objects`. -/
def fresh (next : Nat → Nat) (objects : List Nat) : Prop :=
  Function.Injective next ∧
    ∀ n, next n ≠ 0 ∧ is_shared_ref (next n) = false ∧ next n ∉ objects

/-- The value `v` is what a reference holding `f` holds after the
collection: `f` itself when shared, the copy of `f` otherwise. -/
def forwarded (next : Nat → Nat) (copied : List Nat) (f v : Nat) : Prop :=
  (is_shared_ref f = true ∧ v = f) ∨
    (is_shared_ref f = false ∧ ∃ m, copied[m]? = some f ∧ v = next m)

/-- The references of the `m`-th copy, of the object `p`, are those of `p`,
some of them forwarded already. -/
def partial_at (next : Nat → Nat) (a0 : allocator_t) (s : local_collection) (copied : List Nat)
    (m p : Nat) : Prop :=
  s.allocator.header (next m) = some ⟨sz_of a0 p, false⟩ ∧
    ∃ c, s.allocator.data (next m) = some c ∧ c.refs.length = (refs_of a0 p).length ∧
      ∀ (j f v : Nat), (refs_of a0 p)[j]? = some f → c.refs[j]? = some v →
        (v = f ∨ forwarded next copied f v)

/-- The references of the `m`-th copy, of the object `p`, are those of `p`,
all forwarded. -/
def complete_at (next : Nat → Nat) (a0 : allocator_t) (s : local_collection) (copied : List Nat)
    (m p : Nat) : Prop :=
  ∃ c, s.allocator.data (next m) = some c ∧ c.refs.length = (refs_of a0 p).length ∧
    ∀ (j f v : Nat), (refs_of a0 p)[j]? = some f → c.refs[j]? = some v →
      forwarded next copied f v

/-- The first word of the object at `p`. -/
def word0_of (a : allocator_t) (p : Nat) : Nat :=
  match a.data p with
  | some c => c.word0
  | none => 0

/-- The first words during a collection: an object that is not copied yet
still has its first word, and every copy has the first word of its
original. -/
def word0_kept (next : Nat → Nat) (a0 : allocator_t) (objects : List Nat) (s : local_collection)
    (copied : List Nat) : Prop :=
  (∀ p ∈ objects, p ∉ copied → ∃ c, s.allocator.data p = some c ∧ c.word0 = word0_of a0 p) ∧
    (∀ m p, copied[m]? = some p →
      ∃ c, s.allocator.data (next m) = some c ∧ c.word0 = word0_of a0 p)

/-- The state of a collection that started from the allocator `a0` and has
copied the objects `copied` so far, in this order: the counters of the new
heap, the marks and forwarding pointers of the old objects, and the
copies. -/
def copying (next : Nat → Nat) (a0 : allocator_t) (objects : List Nat) (s : local_collection)
    (copied : List Nat) : Prop :=
  s.new_private_heap.allocated_ = copied.length ∧
    s.new_private_heap.allocated_bytes_ = ((copied.map (sz_of a0)).sum : Nat) ∧
    s.allocator.private_heap_ = a0.private_heap_ ∧
    copied.Nodup ∧ (∀ p ∈ copied, p ∈ objects) ∧
    (∀ p ∈ objects, s.allocator.header p = some ⟨sz_of a0 p, decide (p ∈ copied)⟩) ∧
    (∀ p ∈ objects, ∃ c, s.allocator.data p = some c ∧ c.refs = refs_of a0 p ∧
      ∀ m, copied[m]? = some p → c.word0 = next m) ∧
    (∀ m p, copied[m]? = some p → partial_at next a0 s copied m p) ∧
    word0_kept next a0 objects s copied

/-- What a call of `mark_and_copy` on a reference holding `r` establishes,
from the state `s` with the objects `copied` to the state `s1` with
`copied1`, the reference holding `r1`. -/
def copy_post (next : Nat → Nat) (a0 : allocator_t) (objects : List Nat)
    (s : local_collection) (copied : List Nat) (r : Nat)
    (s1 : local_collection) (copied1 : List Nat) (r1 : Nat) : Prop :=
  (∃ ext, copied1 = copied ++ ext) ∧ copying next a0 objects s1 copied1 ∧
    forwarded next copied1 r r1 ∧
    (∀ m, m < copied.length → s1.allocator.data (next m) = s.allocator.data (next m)) ∧
    (∀ m p, copied.length ≤ m → copied1[m]? = some p → complete_at next a0 s1 copied1 m p) ∧
    (∀ p ∈ copied1, p ∈ copied ∨ nursery_reachable a0 [r] p)

end gc

namespace gc

/-- What a nursery collection of the allocator `a0` with the roots `roots`
leaves, `copied` being the objects it copied, in the order of copying: the
objects copied are the nursery objects reachable from the roots, each once;
the live counts are their number and the sum of their sizes; the roots and
the references of the copies are forwarded; every copy has the first word of
its original. -/
def collected (next : Nat → Nat) (a0 : allocator_t) (roots : List Nat) (a1 : allocator_t)
    (roots1 : List Nat) (copied : List Nat) : Prop :=
  copied.Nodup ∧ (∀ p, p ∈ copied ↔ nursery_reachable a0 roots p) ∧
    a1.live_bytes = ((copied.map (sz_of a0)).sum : Nat) ∧
    a1.live_objects = (copied.length : Nat) ∧
    roots1.length = roots.length ∧
    (∀ (j r v : Nat), roots[j]? = some r → roots1[j]? = some v → forwarded next copied r v) ∧
    (∀ m p, copied[m]? = some p →
      a1.header (next m) = some ⟨sz_of a0 p, false⟩ ∧
      ∃ c, a1.data (next m) = some c ∧ c.refs.length = (refs_of a0 p).length ∧
        ∀ (j f v : Nat), (refs_of a0 p)[j]? = some f → c.refs[j]? = some v →
          forwarded next copied f v) ∧
    (∀ m p, copied[m]? = some p →
      ∃ c, a1.data (next m) = some c ∧ c.word0 = word0_of a0 p)

end gc

namespace gc

/-- A new private heap whose objects lie in local blocks of their own. -/
def example_private_next (n : Nat) : Nat := 0x200000 * (n + 1) + 0x1000

end gc

namespace park

/-! ## Conversion to an index (`value.h`, `integer.cc`, `boolean.cc`) -/

/-- The virtual `Value::to_index`: `IntegerImpl` overrides it and asserts that
the integer is not negative; every other class, `BooleanImpl` among them,
inherits `ValueImpl::to_index`, which throws `Error::not_implemented`. -/
def Value.to_index : Value → Except Exn Int
  | .Integer v => if v ≥ 0 then .ok v else .error .undefined
  | _ => .error (.not_implemented "to_index")

namespace value

/-- `value::cast<int64_t>`. The conversion of the payload of a `DVALUE` from
`double` to `int64_t` is given by `trunc`. -/
def cast_int64 (trunc : Nat → Int) : value_t → Except Exn Int
  | .BVALUE bvalue => .ok (if bvalue then 1 else 0)
  | .RVALUE rvalue => rvalue.to_index
  | .IVALUE ivalue => .ok ivalue
  | .DVALUE bits => .ok (trunc bits)
  | .UVALUE => .error (.runtime_error "blah")

end value

end park

namespace park

/-! ## Channels (`channel.cc`) -/

/-- The two queues of a `ChannelImpl`: the fibers blocked in `recv` and the
fibers blocked in `send` with the value each of them sends; the front of a
deque is the head of the list. A fiber is named by a number. -/
structure ChannelImpl (V : Type) where
  receivers_ : List Nat
  senders_ : List (Nat × V)

/-- What a callback does to a fiber: `fbr.stack.push(value)` or
`fbr.resume_async` with a function that pushes `value`. -/
inductive ChannelEffect (V : Type) where
  | push (fbr : Nat) (value : V)
  | resume_async (fbr : Nat) (value : V)

/-- A call of `recv` or `send` on the channel by the fiber `fbr`. -/
inductive ChannelCall (V : Type) where
  | recv (fbr : Nat)
  | send (fbr : Nat) (value : V)

/-- The record of one callback: the call, what it did to the fibers, in
order, and whether it returned `true` (the caller goes on) or `false` (the
caller blocks). -/
structure ChannelStep (V : Type) where
  call : ChannelCall V
  effects : List (ChannelEffect V)
  resumed : Bool

namespace ChannelImpl

/-- A new channel. -/
def create (V : Type) : ChannelImpl V := ⟨[], []⟩

/-- The callback of `ChannelImpl::_recv`, run under the lock of the channel
for the receiver `fbr`. -/
def _recv {V : Type} (channel : ChannelImpl V) (fbr : Nat) :
    ChannelImpl V × List (ChannelEffect V) × Bool :=
  match channel.senders_ with
  | sending :: rest =>
    ({ channel with senders_ := rest },
      [.push fbr sending.2, .resume_async sending.1 sending.2], true)
  | [] => ({ channel with receivers_ := channel.receivers_ ++ [fbr] }, [], false)

/-- The callback of `ChannelImpl::_send`, run under the lock of the channel
for the sender `fbr`; `make_shared` gives the value after its promotion to
the shared heap. -/
def _send {V : Type} (make_shared : V → V) (channel : ChannelImpl V) (fbr : Nat) (value : V) :
    ChannelImpl V × List (ChannelEffect V) × Bool :=
  match channel.receivers_ with
  | receiver :: rest =>
    ({ channel with receivers_ := rest },
      [.resume_async receiver (make_shared value), .push fbr (make_shared value)], true)
  | [] =>
    ({ channel with senders_ := channel.senders_ ++ [(fbr, make_shared value)] }, [], false)

/-- One callback as an atomic step. -/
def step {V : Type} (make_shared : V → V) (channel : ChannelImpl V) (call : ChannelCall V) :
    ChannelImpl V × ChannelStep V :=
  match call with
  | .recv fbr =>
    let r := channel._recv fbr
    (r.1, ⟨call, r.2.1, r.2.2⟩)
  | .send fbr value =>
    let r := channel._send make_shared fbr value
    (r.1, ⟨call, r.2.1, r.2.2⟩)

/-- A sequence of callbacks, from a channel and the record of the steps taken
before. -/
def run {V : Type} (make_shared : V → V) (st : ChannelImpl V × List (ChannelStep V))
    (calls : List (ChannelCall V)) : ChannelImpl V × List (ChannelStep V) :=
  calls.foldl (fun st call => ((st.1.step make_shared call).1,
    st.2 ++ [(st.1.step make_shared call).2])) st

end ChannelImpl

namespace ChannelStep

/-- The value sent by the step, as promoted. -/
def sent {V : Type} (make_shared : V → V) (s : ChannelStep V) : List V :=
  match s.call with
  | .send _ value => [make_shared value]
  | .recv _ => []

/-- The receiver and the value handed to it by the step: pushed on the stack
of the caller of `recv`, or given to the blocked receiver that `send`
resumes. -/
def handed {V : Type} (s : ChannelStep V) : List (Nat × V) :=
  match s.call, s.effects with
  | .recv _, .push fbr value :: _ => [(fbr, value)]
  | .send _ _, .resume_async fbr value :: _ => [(fbr, value)]
  | _, _ => []

/-- The sender that blocks in the step. -/
def blocked_sender {V : Type} (s : ChannelStep V) : List Nat :=
  match s.call, s.resumed with
  | .send fbr _, false => [fbr]
  | _, _ => []

/-- The blocked sender that the step releases. -/
def released_sender {V : Type} (s : ChannelStep V) : List Nat :=
  match s.call, s.effects with
  | .recv _, [_, .resume_async fbr _] => [fbr]
  | _, _ => []

/-- The receiver that blocks in the step. -/
def blocked_receiver {V : Type} (s : ChannelStep V) : List Nat :=
  match s.call, s.resumed with
  | .recv fbr, false => [fbr]
  | _, _ => []

/-- The blocked receiver that the step serves. -/
def served_receiver {V : Type} (s : ChannelStep V) : List Nat :=
  match s.call, s.effects with
  | .send _ _, .resume_async fbr _ :: _ => [fbr]
  | _, _ => []

end ChannelStep

/-- The invariant of a channel and the record of its steps: the values handed
to receivers followed by the values queued are the values sent, the senders
released followed by the senders queued are the senders that blocked, the
receivers served followed by the receivers queued are the receivers that
blocked, and one of the queues is empty. -/
def channel_invariant {V : Type} (make_shared : V → V)
    (st : ChannelImpl V × List (ChannelStep V)) : Prop :=
  ((st.2.map ChannelStep.handed).flatten.map Prod.snd ++ st.1.senders_.map Prod.snd
      = (st.2.map (ChannelStep.sent make_shared)).flatten) ∧
    ((st.2.map ChannelStep.released_sender).flatten ++ st.1.senders_.map Prod.fst
      = (st.2.map ChannelStep.blocked_sender).flatten) ∧
    ((st.2.map ChannelStep.served_receiver).flatten ++ st.1.receivers_
      = (st.2.map ChannelStep.blocked_receiver).flatten) ∧
    (st.1.senders_ = [] ∨ st.1.receivers_ = [])

end park

namespace park

/-! ## The colour lists of the fibers (`fiber.h`, `runtime.cc`) -/

/-- The part of `RuntimeImpl` and of the fibers that the colour lists live in.
`fibers_ i` is the list `fibers_i_` (the front is the head), the four
pointers name one of these lists each, `color_` and `allocator_` are the
fields of the fibers (`allocator_ f` tells whether the pointer is set),
`attaching f` tells that a worker is inside `fiber_attach` for `f`, waiting
for the fiber to become black, `created` and `live` record the calls of
`fiber_created` and `fiber_exitted`. A fiber is named by a number. -/
structure RuntimeImpl where
  fibers_ : Nat → List Nat
  fibers_running_ : Nat
  fibers_sleeping_grey_ : Nat
  fibers_sleeping_black_ : Nat
  fibers_sleeping_scanning_ : Nat
  color_ : Nat → Option Nat
  allocator_ : Nat → Bool
  attaching : Nat → Bool
  created : Nat → Bool
  live : Nat → Bool

namespace RuntimeImpl

/-- The lists and pointers as the constructor of `RuntimeImpl` sets them up,
without any fiber. -/
def init : RuntimeImpl :=
  { fibers_ := fun _ => [], fibers_running_ := 0, fibers_sleeping_grey_ := 1,
    fibers_sleeping_black_ := 2, fibers_sleeping_scanning_ := 3,
    color_ := fun _ => none, allocator_ := fun _ => false, attaching := fun _ => false,
    created := fun _ => false, live := fun _ => false }

/-- The first half of `Fiber::switch_color`: the fiber is erased from the
list it is in. -/
def unlink (rt : RuntimeImpl) (f : Nat) : RuntimeImpl :=
  match rt.color_ f with
  | some c =>
    { rt with fibers_ := Function.update rt.fibers_ c ((rt.fibers_ c).erase f),
              color_ := Function.update rt.color_ f none }
  | none => rt

/-- The second half of `Fiber::switch_color`: the fiber is pushed to the front
of the list `color`. -/
def link (rt : RuntimeImpl) (f : Nat) (color : Option Nat) : RuntimeImpl :=
  match color with
  | some c =>
    { rt with color_ := Function.update rt.color_ f (some c),
              fibers_ := Function.update rt.fibers_ c (f :: rt.fibers_ c) }
  | none => rt

/-- `Fiber::switch_color(color)` on the fiber `f`. -/
def switch_color (rt : RuntimeImpl) (f : Nat) (color : Option Nat) : RuntimeImpl :=
  (rt.unlink f).link f color

/-- `Fiber::color`. -/
def color (rt : RuntimeImpl) (f : Nat) : Except Exn Nat :=
  match rt.color_ f with
  | some c => .ok c
  | none => .error .undefined

/-- `RuntimeImpl::fiber_created` on a fiber that `Fiber::create` has just
made. -/
def fiber_created (rt : RuntimeImpl) (f : Nat) : Except Exn RuntimeImpl :=
  if rt.created f then .error .undefined
  else
    let rt1 := rt.switch_color f (some rt.fibers_sleeping_grey_)
    .ok { rt1 with created := Function.update rt1.created f true,
                   live := Function.update rt1.live f true }

/-- `RuntimeImpl::fiber_exitted`. -/
def fiber_exitted (rt : RuntimeImpl) (f : Nat) : Except Exn RuntimeImpl :=
  let rt1 := rt.switch_color f none
  .ok { rt1 with live := Function.update rt1.live f false }

/-- `RuntimeImpl::fiber_attach` up to the point where it returns or starts to
wait, called as in `attach_and_exec` on a fiber without an allocator, by a
worker whose allocator has the given `write_barrier_`. -/
def fiber_attach (rt : RuntimeImpl) (f : Nat) (write_barrier_ : Bool) :
    Except Exn RuntimeImpl :=
  if rt.allocator_ f then .error .undefined
  else
    match rt.color f with
    | .error e => .error e
    | .ok c =>
      if c = rt.fibers_running_ then .error .undefined
      else
        let rt1 := { rt with allocator_ := Function.update rt.allocator_ f true }
        if write_barrier_ then
          if c = rt.fibers_sleeping_scanning_ ∨ c = rt.fibers_sleeping_grey_ then
            let rt2 := if c = rt.fibers_sleeping_grey_ then
                rt1.switch_color f (some rt.fibers_sleeping_grey_)
              else rt1
            .ok { rt2 with attaching := Function.update rt2.attaching f true }
          else if c = rt.fibers_sleeping_black_ then
            .ok (rt1.switch_color f (some rt.fibers_running_))
          else .error .undefined
        else if c = rt.fibers_sleeping_grey_ then
          .ok (rt1.switch_color f (some rt.fibers_running_))
        else .error .undefined

/-- The end of the wait in `RuntimeImpl::fiber_attach`: the fiber has become
black and is switched to the running list. -/
def fiber_attach_wake (rt : RuntimeImpl) (f : Nat) : Except Exn RuntimeImpl :=
  if rt.attaching f ∧ rt.color_ f = some rt.fibers_sleeping_black_ then
    let rt1 := rt.switch_color f (some rt.fibers_running_)
    .ok { rt1 with attaching := Function.update rt1.attaching f false }
  else .error .undefined

/-- `RuntimeImpl::fiber_detach`, called as in `attach_and_exec` on a fiber
with an allocator after `fiber_attach` has returned. -/
def fiber_detach (rt : RuntimeImpl) (f : Nat) (write_barrier_ : Bool) :
    Except Exn RuntimeImpl :=
  if rt.allocator_ f ∧ rt.attaching f = false then
    let rt1 := { rt with allocator_ := Function.update rt.allocator_ f false }
    .ok (rt1.switch_color f
      (some (if write_barrier_ then rt.fibers_sleeping_black_ else rt.fibers_sleeping_grey_)))
  else .error .undefined

/-- The move of the collector from the front of the list `src` to the list
`dst`: `f.switch_color(dst)` after `assert(f.color() == src)`. -/
def move_front (rt : RuntimeImpl) (src dst : Nat) : Except Exn RuntimeImpl :=
  match rt.fibers_ src with
  | [] => .error .undefined
  | f :: _ =>
    if rt.color_ f = some src then .ok (rt.switch_color f (some dst))
    else .error .undefined

/-- The swap of the black and the grey list at the end of the second
stop-the-world phase, after `assert(fibers_sleeping_grey_->empty())`. -/
def swap_black_grey (rt : RuntimeImpl) : Except Exn RuntimeImpl :=
  if rt.fibers_ rt.fibers_sleeping_grey_ = [] then
    .ok { rt with fibers_sleeping_black_ := rt.fibers_sleeping_grey_,
                  fibers_sleeping_grey_ := rt.fibers_sleeping_black_ }
  else .error .undefined

end RuntimeImpl

/-- The steps that touch the colour lists. -/
inductive FiberEvent where
  | created (f : Nat)
  | exitted (f : Nat)
  | attach (f : Nat) (write_barrier_ : Bool)
  | attach_wake (f : Nat)
  | detach (f : Nat) (write_barrier_ : Bool)
  | grey_to_scanning
  | scanning_to_black
  | swap_black_grey
  deriving DecidableEq, Repr

namespace RuntimeImpl

def step (rt : RuntimeImpl) : FiberEvent → Except Exn RuntimeImpl
  | .created f => rt.fiber_created f
  | .exitted f => rt.fiber_exitted f
  | .attach f write_barrier_ => rt.fiber_attach f write_barrier_
  | .attach_wake f => rt.fiber_attach_wake f
  | .detach f write_barrier_ => rt.fiber_detach f write_barrier_
  | .grey_to_scanning => rt.move_front rt.fibers_sleeping_grey_ rt.fibers_sleeping_scanning_
  | .scanning_to_black => rt.move_front rt.fibers_sleeping_scanning_ rt.fibers_sleeping_black_
  | .swap_black_grey => rt.swap_black_grey

/-- A sequence of steps; an error ends it. -/
def run (rt : RuntimeImpl) : List FiberEvent → Except Exn RuntimeImpl
  | [] => .ok rt
  | e :: es =>
    match rt.step e with
    | .error x => .error x
    | .ok rt1 => rt1.run es

/-- The invariant of the colour lists: a fiber occurs once in the list its
`color_` names and in no other list; the four pointers name four lists; a
live fiber has a colour, one of the four; a fiber in the running list has an
allocator and is not waiting in `fiber_attach`; a live fiber with an
allocator that is not waiting is in the running list; a waiting fiber has an
allocator. -/
def colors_invariant (rt : RuntimeImpl) : Prop :=
  (∀ f c, (rt.fibers_ c).count f = if rt.color_ f = some c then 1 else 0) ∧
    [rt.fibers_running_, rt.fibers_sleeping_grey_, rt.fibers_sleeping_black_,
      rt.fibers_sleeping_scanning_].Nodup ∧
    (∀ f, rt.live f = true → ∃ c, rt.color_ f = some c ∧
      c ∈ [rt.fibers_running_, rt.fibers_sleeping_grey_, rt.fibers_sleeping_black_,
        rt.fibers_sleeping_scanning_]) ∧
    (∀ f, rt.color_ f = some rt.fibers_running_ →
      rt.allocator_ f = true ∧ rt.attaching f = false) ∧
    (∀ f, rt.live f = true → rt.allocator_ f = true → rt.attaching f = false →
      rt.color_ f = some rt.fibers_running_) ∧
    (∀ f, rt.attaching f = true → rt.allocator_ f = true) ∧
    (∀ f, rt.created f = false →
      rt.color_ f = none ∧ rt.allocator_ f = false ∧ rt.live f = false)

end RuntimeImpl

end park

namespace gc

/-! ## Creation, release and reset of a block (`gc_base.h`, `gc.cc`) -/

/-- The constant `BLOCK_ALIGN`. -/
def BLOCK_ALIGN : Nat := 1 <<< 20

/-- The value of `sizeof(block_t)`: the pointer `next`, the two bytes `dirty_`
and `select_` (with `type_` in a debug build), the three bitmaps of 64 bytes
each from offset 16, `sz_`, `block_size_`, `available_` and `capacity_` up to
offset 232, and the data area aligned to 16 bytes. -/
def sizeof_block_t : Nat := 240

/-- The complement `~x` of a `uint8_t`, cut to eight bits. -/
def not8 (x : Nat) : Nat := x ^^^ 0xff

namespace block_t

/-- `block_t::create` with the constructor of `block_t`: the block size is
`min(sz * 512, BLOCK_ALIGN)`, the capacity is what fits behind the header, the
bitmaps are zero. The type of the block is kept in a debug build only and is
not part of the model. -/
def create (sz : Nat) (dirty : Bool) : Except park.Exn block_t :=
  if ¬ sz % 16 = 0 then .error .undefined
  else if ¬ (0 < sz ∧ sz ≤ 65536) then .error .undefined
  else
    let block_size := min (sz * 512) BLOCK_ALIGN
    let capacity_ := (block_size - sizeof_block_t) / sz
    if ¬ capacity_ ≤ 512 then .error .undefined
    else
      .ok { dirty_ := dirty, select_ := 0, bitmap_ := fun _ => 0, marked_ := fun _ => 0,
            finalize_ := fun _ => 0, sz_ := sz, block_size_ := block_size,
            available_ := capacity_, capacity_ := capacity_ }

/-- The assignments of `block_t::free`. -/
def free_slot (b : block_t) (idx0 idx1 : Nat) : block_t :=
  { b with bitmap_ := Function.update b.bitmap_ idx0 (b.bitmap_ idx0 &&& not64 (mask64 idx1)),
           select_ := b.select_ &&& not8 (mask8 idx0),
           available_ := b.available_ + 1 }

/-- `block_t::free(idx)` with its assertions; an index outside of the bitmaps
is an access out of bounds. -/
def free (b : block_t) (idx : Nat) : Except park.Exn block_t :=
  if b.empty then .error .undefined
  else if b.used ≠ b.count then .error .undefined
  else if ¬ idx < 512 then .error .undefined
  else
    let idx0 := (split idx).1
    let idx1 := (split idx).2
    if b.bitmap_ idx0 &&& mask64 idx1 = 0 then .error .undefined
    else if b.marked_ idx0 &&& mask64 idx1 ≠ 0 then .error .undefined
    else if b.finalize_ idx0 &&& mask64 idx1 ≠ 0 then .error .undefined
    else
      let b1 := b.free_slot idx0 idx1
      if b1.full then .error .undefined
      else if b1.used ≠ b1.count then .error .undefined
      else .ok b1

/-- The assignments of `block_t::clear`. -/
def clear_slots (b : block_t) : block_t :=
  { b with bitmap_ := fun _ => 0, marked_ := fun _ => 0, finalize_ := fun _ => 0,
           select_ := 0, available_ := b.capacity_ }

/-- `block_t::clear` with its assertion. -/
def clear (b : block_t) : Except park.Exn block_t :=
  let b1 := b.clear_slots
  if b1.used ≠ b1.count then .error .undefined else .ok b1

/-- The words of the bitmaps are values of `uint64_t`, the summary is one of
`uint8_t`, and the capacity is at most 512 as the constructor asserts. -/
def typed (b : block_t) : Prop :=
  b.capacity_ ≤ 512 ∧ b.select_ < 2 ^ 8 ∧
    (∀ i, i < 8 → b.bitmap_ i < 2 ^ 64) ∧ (∀ i, i < 8 → b.marked_ i < 2 ^ 64)

/-- The well-formedness of a block: the number of set alloc bits is `used()`;
every set alloc, mark or finalizer bit has an index below the capacity; every
finalizer bit is an alloc bit; and bit `i` of the summary is set exactly when
word `i` of the alloc bitmap is all ones. -/
def well_formed (b : block_t) : Prop :=
  b.typed ∧
    (b.count : Int) = b.used ∧
    (∀ idx, idx < 512 → b.allocated idx = true → idx < b.capacity_) ∧
    (∀ idx, idx < 512 → b.marked idx = true → idx < b.capacity_) ∧
    (∀ idx, idx < 512 → b.finalizer idx = true → idx < b.capacity_) ∧
    (∀ idx, idx < 512 → b.finalizer idx = true → b.allocated idx = true) ∧
    (∀ i, i < 8 → (b.select_.testBit i = true ↔ b.bitmap_ i = ALL_ONES))

instance (b : block_t) : Decidable b.typed := by
  unfold typed; infer_instance

instance (b : block_t) : Decidable b.well_formed := by
  unfold well_formed; infer_instance

end block_t

/-- The number of slots below `capacity_` that word `i` of a bitmap holds. -/
def word_share (capacity_ i : Nat) : Nat :=
  if 64 * (i + 1) ≤ capacity_ then 64 else capacity_ - 64 * i

end gc

namespace gc

/-! ## The block lists of a heap (`gc_base.h`) and `alloc_shared` (`gc.h`) -/

/-- `szi_shared`: the size class of a slot size. -/
def szi_shared (sz : Nat) : Nat := sz / 16 - 1

/-- The four arrays of block lists of `heap_t`, indexed by the size class. A
list stands for the chain of `next` pointers that starts at the array entry;
the empty list is the null pointer. -/
structure heap_t where
  head_blocks_ : Nat → List block_t
  rest_blocks_ : Nat → List block_t
  empty_blocks_ : Nat → List block_t
  full_blocks_ : Nat → List block_t

namespace heap_t

def set_head (h : heap_t) (szi : Nat) (l : List block_t) : heap_t :=
  { h with head_blocks_ := Function.update h.head_blocks_ szi l }

def set_rest (h : heap_t) (szi : Nat) (l : List block_t) : heap_t :=
  { h with rest_blocks_ := Function.update h.rest_blocks_ szi l }

def set_empty (h : heap_t) (szi : Nat) (l : List block_t) : heap_t :=
  { h with empty_blocks_ := Function.update h.empty_blocks_ szi l }

def set_full (h : heap_t) (szi : Nat) (l : List block_t) : heap_t :=
  { h with full_blocks_ := Function.update h.full_blocks_ szi l }

/-- `heap_t::valid_head(sz)`. -/
def valid_head (h : heap_t) (sz : Nat) : Bool :=
  match h.head_blocks_ (szi_shared sz) with
  | b :: _ => !b.full
  | [] => false

/-- The loop of `heap_t::next_head`: a full head goes to the front of the
full list and its `next` becomes the head; without a head the front of the
rest list, else the front of the empty list, else a new block becomes the
head. -/
def next_head_loop (szi sz : Nat) (dirty : Bool) : Nat → heap_t → Except park.Exn heap_t
  | 0, _ => .error .diverges
  | fuel + 1, h =>
    match h.head_blocks_ szi with
    | b :: next =>
      if b.full then
        next_head_loop szi sz dirty fuel
          ((h.set_head szi next).set_full szi (b :: h.full_blocks_ szi))
      else .ok h
    | [] =>
      match h.rest_blocks_ szi with
      | b :: next => next_head_loop szi sz dirty fuel ((h.set_head szi [b]).set_rest szi next)
      | [] =>
        match h.empty_blocks_ szi with
        | b :: next => next_head_loop szi sz dirty fuel ((h.set_head szi [b]).set_empty szi next)
        | [] =>
          match block_t.create sz dirty with
          | .error e => .error e
          | .ok b => next_head_loop szi sz dirty fuel (h.set_head szi [b])

/-- `heap_t::next_head(sz, dirty)` of the shared heap, whose arrays have 32
entries, for the sizes from 16 to 512; the head block is the front of
`head_blocks_` in the heap returned. -/
def next_head (h : heap_t) (fuel sz : Nat) (dirty : Bool) : Except park.Exn heap_t :=
  if ¬ sz % 16 = 0 then .error .undefined
  else if ¬ (0 < sz ∧ sz ≤ 512) then .error .undefined
  else next_head_loop (szi_shared sz) sz dirty fuel h

/-- `allocator_t::alloc_shared(sz, with_finalizer)` on the shared heap `h` by
an allocator with the given `write_barrier_` and `dirty_mask_`: the heap
afterwards, the index of the slot taken in the head block, and the slots whose
finalizer ran in the sweep of the new head. -/
def alloc_shared (h : heap_t) (write_barrier_ dirty_mask_ : Bool) (fuel sz : Nat)
    (with_finalizer : Bool) : Except park.Exn (heap_t × Nat × List Nat) :=
  if ¬ sz % 16 = 0 then .error .undefined
  else if ¬ (0 < sz ∧ sz ≤ 512) then .error .undefined
  else if h.valid_head sz then
    match h.head_blocks_ (szi_shared sz) with
    | [] => .error .undefined
    | b :: next =>
      match b.alloc with_finalizer write_barrier_ with
      | .error e => .error e
      | .ok (b1, idx) => .ok (h.set_head (szi_shared sz) (b1 :: next), idx, [])
  else
    match h.next_head fuel sz false with
    | .error e => .error e
    | .ok h1 =>
      match h1.head_blocks_ (szi_shared sz) with
      | [] => .error .undefined
      | b :: next =>
        let s := allocator_sweep dirty_mask_ b
        match s.1.alloc with_finalizer write_barrier_ with
        | .error e => .error e
        | .ok (b1, idx) => .ok (h1.set_head (szi_shared sz) (b1 :: next), idx, s.2.1)

end heap_t

/-- A block of four slots that has just been filled. -/
def example_full_block : block_t :=
  { dirty_ := false, select_ := 0, bitmap_ := fun i => if i = 0 then 15 else 0,
    marked_ := fun _ => 0, finalize_ := fun _ => 0,
    sz_ := 16, block_size_ := 4096, available_ := 0, capacity_ := 4 }

/-- A heap whose head of the size class of 16 bytes is the full block, with a
partly used block in the rest list. -/
def example_heap : heap_t :=
  { head_blocks_ := fun i => if i = 0 then [example_full_block] else [],
    rest_blocks_ := fun i => if i = 0 then [example_block] else [],
    empty_blocks_ := fun _ => [], full_blocks_ := fun _ => [] }

end gc

namespace gc

/-- A nursery with a cycle: the object at 16 holds two references to the
object at 64, which refers back to it and to the shared object at 0x100010;
the object at 96 refers to the object at 16 and nothing refers to it. -/
def example_cyclic_allocator : allocator_t :=
  { header := fun p => if p = 16 then some ⟨32, false⟩ else if p = 64 then some ⟨32, false⟩
      else if p = 96 then some ⟨16, false⟩ else none,
    data := fun p => if p = 16 then some ⟨7, [64, 64]⟩
      else if p = 64 then some ⟨8, [16, 0x100010]⟩
      else if p = 96 then some ⟨9, [16]⟩
      else if p = 0x100010 then some ⟨1, []⟩ else none,
    shared_ := 0, shared_allocated_ := 1, shared_allocated_bytes_ := 16,
    private_heap_ := ⟨3, 80, 0, 0⟩, nr_collections_ := 0 }

end gc

namespace park

/-! ## The persistent map (`map.cc`) -/

namespace mapimpl

/-- `std::bitset<32>(x).count()`. -/
def popcount32 (x : Nat) : Nat := (List.range 32).countP fun j => x.testBit j

/-- `map_index(bitmap, bit)`: the number of set bits of `bitmap` below the
one of `bit`. -/
def map_index (bitmap bit : Nat) : Nat := popcount32 (bitmap &&& (bit - 1))

/-- `map_mask(hash, shift)` for a shift below the width of `size_t`. -/
def map_mask (hash shift : Nat) : Nat := (hash >>> shift) &&& 0x1f

/-- `map_bitpos(hash, shift)`. -/
def map_bitpos (hash shift : Nat) : Nat := 1 <<< map_mask hash shift

/-- The classes `EmptyNode`, `LeafNode`, `BitmapIndexedNode` and `FullNode`;
`_size` is the length of `_nodes`. There is no node for keys of equal hash. -/
inductive Node (K V : Type) where
  | Empty : Node K V
  | Leaf (_hash : Nat) (key_ : K) (val_ : V) : Node K V
  | BitmapIndexed (_bitmap _shift _hash : Nat) (_nodes : List (Node K V)) : Node K V
  | Full (_shift _hash : Nat) (_nodes : List (Node K V)) : Node K V

namespace Node

variable {K V : Type}

/-- `Node::get_hash`. -/
def get_hash : Node K V → Nat
  | .Empty => 0
  | .Leaf _hash _ _ => _hash
  | .BitmapIndexed _ _ _hash _ => _hash
  | .Full _ _hash _ => _hash

/-- The hash of `nodes[0]`, read by the constructors of the inner nodes. -/
def first_hash (nodes : List (Node K V)) : Nat :=
  match nodes with
  | n :: _ => n.get_hash
  | [] => 0

/-- `insert_leaf_node_at_idx`. -/
def insert_leaf_node_at_idx (nodes_src : List (Node K V)) (idx : Nat) (key : K) (val : V)
    (hash : Nat) : List (Node K V) :=
  nodes_src.take idx ++ [Leaf hash key val] ++ nodes_src.drop idx

/-- `Node::assoc(fbr, level_shift, hash, key, val)`: the node returned, whether
a leaf was added, and whether the node returned is the node itself (the
comparisons `n == _nodes[idx]` of the callers; a node made by `make_ref` is
never the old one). A shift of 64 or more in `map_mask` is undefined. `fuel`
bounds the depth of the calls. -/
def assoc (map_key_equals : K → K → Except Exn Bool) :
    Nat → Node K V → Nat → Nat → K → V → Except Exn (Node K V × Bool × Bool)
  | 0, _, _, _, _, _ => .error .diverges
  | fuel + 1, n, level_shift, hash, key, val =>
    match n with
    | Empty => .ok (Leaf hash key val, true, false)
    | Leaf _hash key_ _ =>
      if hash = _hash then
        match map_key_equals key_ key with
        | .error e => .error e
        | .ok true => .ok (Leaf hash key val, false, false)
        | .ok false => .error (.runtime_error "todo possible collision")
      else if ¬ level_shift < 64 then .error .undefined
      else
        assoc map_key_equals fuel
          (BitmapIndexed (map_bitpos _hash level_shift) level_shift _hash [n])
          level_shift hash key val
    | BitmapIndexed _bitmap _shift _ _nodes =>
      if ¬ _shift < 64 then .error .undefined
      else
        let bit := map_bitpos hash _shift
        let idx := map_index _bitmap bit
        if _bitmap &&& bit ≠ 0 then
          match _nodes[idx]? with
          | none => .error .undefined
          | some child =>
            match assoc map_key_equals fuel child (_shift + 5) hash key val with
            | .error e => .error e
            | .ok (n1, leaf_added, same) =>
              if same then .ok (n, leaf_added, true)
              else
                .ok (BitmapIndexed _bitmap _shift (first_hash _nodes) (_nodes.set idx n1),
                  leaf_added, false)
        else if _bitmap ||| bit = 0xffffffff then
          if _nodes.length ≠ 31 then .error .undefined
          else
            .ok (Full _shift (first_hash _nodes)
              (insert_leaf_node_at_idx _nodes idx key val hash), true, false)
        else
          .ok (BitmapIndexed (_bitmap ||| bit) _shift (first_hash _nodes)
            (insert_leaf_node_at_idx _nodes idx key val hash), true, false)
    | Full _shift _ _nodes =>
      if ¬ _shift < 64 then .error .undefined
      else
        let idx := map_mask hash _shift
        match _nodes[idx]? with
        | none => .error .undefined
        | some child =>
          match assoc map_key_equals fuel child (_shift + 5) hash key val with
          | .error e => .error e
          | .ok (n1, leaf_added, same) =>
            if same then .ok (n, leaf_added, true)
            else .ok (Full _shift (first_hash _nodes) (_nodes.set idx n1), leaf_added, false)

/-- `Node::find(fbr, hash, key)`. -/
def find (map_key_equals : K → K → Except Exn Bool) :
    Nat → Node K V → Nat → K → Except Exn (Option (Node K V))
  | 0, _, _, _ => .error .diverges
  | fuel + 1, n, hash, key =>
    match n with
    | Empty => .ok none
    | Leaf _hash key_ _ =>
      if hash = _hash then
        match map_key_equals key_ key with
        | .error e => .error e
        | .ok true => .ok (some n)
        | .ok false => .ok none
      else .ok none
    | BitmapIndexed _bitmap _shift _ _nodes =>
      if ¬ _shift < 64 then .error .undefined
      else
        let bit := map_bitpos hash _shift
        if _bitmap &&& bit ≠ 0 then
          match _nodes[map_index _bitmap bit]? with
          | none => .error .undefined
          | some child => find map_key_equals fuel child hash key
        else .ok none
    | Full _shift _ _nodes =>
      if ¬ _shift < 64 then .error .undefined
      else
        match _nodes[map_mask hash _shift]? with
        | none => .error .undefined
        | some child => find map_key_equals fuel child hash key

/-- The leaves below a node in the order of `Node::iterate`, each with its
hash, down to the depth `fuel`. -/
def leaves : Nat → Node K V → List (Nat × K × V)
  | _, Empty => []
  | _, Leaf _hash key_ val_ => [(_hash, key_, val_)]
  | 0, _ => []
  | fuel + 1, BitmapIndexed _ _ _ _nodes => (_nodes.map (leaves fuel)).flatten
  | fuel + 1, Full _ _ _nodes => (_nodes.map (leaves fuel)).flatten

/-- `Node::iterate`: the keys and values passed to `f`, in order. -/
def iterate (fuel : Nat) (n : Node K V) : List (K × V) :=
  (leaves fuel n).map fun x => x.2

end Node

end mapimpl

/-- The fields `count_` and `root_` of `MapImpl`. -/
structure MapImpl (K V : Type) where
  count_ : Nat
  root_ : mapimpl.Node K V

namespace MapImpl

variable {K V : Type}

/-- The static `EMPTY` map. -/
def EMPTY : MapImpl K V := ⟨0, .Empty⟩

/-- `MapImpl::assoc(fbr, key, val)`; `count_ + 1` is one of `size_t`. -/
def assoc (map_key_hash : K → Except Exn Nat) (map_key_equals : K → K → Except Exn Bool)
    (fuel : Nat) (m : MapImpl K V) (key : K) (val : V) : Except Exn (MapImpl K V) :=
  match map_key_hash key with
  | .error e => .error e
  | .ok hash =>
    match m.root_.assoc map_key_equals fuel 0 hash key val with
    | .error e => .error e
    | .ok (new_root, leaf_added, same) =>
      if same then .ok m
      else .ok ⟨if leaf_added then (m.count_ + 1) % 2 ^ 64 else m.count_, new_root⟩

/-- `MapImpl::get(fbr, key)`. -/
def get (map_key_hash : K → Except Exn Nat) (map_key_equals : K → K → Except Exn Bool)
    (fuel : Nat) (m : MapImpl K V) (key : K) : Except Exn (Option V) :=
  match map_key_hash key with
  | .error e => .error e
  | .ok hash =>
    match m.root_.find map_key_equals fuel hash key with
    | .error e => .error e
    | .ok (some (.Leaf _ _ val_)) => .ok (some val_)
    | .ok (some _) => .error .undefined
    | .ok none => .ok none

/-- `MapImpl::iterate`. -/
def iterate (fuel : Nat) (m : MapImpl K V) : List (K × V) := m.root_.iterate fuel

/-- `MapImpl::size`. -/
def size (m : MapImpl K V) : Nat := m.count_

end MapImpl

end park

namespace park

namespace mapimpl

/-- The number of set bits of `bitmap` below bit `b`. -/
def below (bitmap b : Nat) : Nat := (List.range b).countP fun j => bitmap.testBit j

namespace Node

variable {K V : Type}

/-- The shape of a node at the depth where keys are told apart by the bits of
the hash from `shift` on, `pre` being the bits below: a leaf has a hash of 64
bits whose low bits are `pre`; an inner node has this shift, at most 60, one
child for every set bit of its bitmap, in the order of the bits, and the child
for bit `b` has the shape for the shift five higher and the low bits `pre`
and `b`. The first argument bounds the height. -/
def wf : Nat → Node K V → Nat → Nat → Prop
  | _, Leaf _hash _ _, shift, pre => _hash < 2 ^ 64 ∧ _hash % 2 ^ shift = pre
  | _, Empty, _, _ => False
  | 0, BitmapIndexed _ _ _ _, _, _ => False
  | 0, Full _ _ _, _, _ => False
  | d + 1, BitmapIndexed _bitmap _shift _ _nodes, shift, pre =>
    _shift = shift ∧ shift ≤ 60 ∧ pre < 2 ^ shift ∧ _bitmap < 2 ^ 32 ∧
      _nodes.length = popcount32 _bitmap ∧
      ∀ i c, _nodes[i]? = some c →
        ∃ b, b < 32 ∧ _bitmap.testBit b = true ∧ below _bitmap b = i ∧
          wf d c (shift + 5) (pre + b * 2 ^ shift)
  | d + 1, Full _shift _ _nodes, shift, pre =>
    _shift = shift ∧ shift ≤ 60 ∧ pre < 2 ^ shift ∧ _nodes.length = 32 ∧
      ∀ i c, _nodes[i]? = some c → wf d c (shift + 5) (pre + i * 2 ^ shift)

/-- The depth of calls that `assoc` needs on a node of height at most `d`. -/
def assoc_fuel (n : Node K V) (d : Nat) : Nat :=
  match n with
  | Leaf _ _ _ => 2 * d - 1
  | _ => 2 * d - 2

end Node

end mapimpl

namespace MapImpl

variable {K V : Type}

/-- The shape of a map made from the empty map by `assoc`: the root is the
empty node or a node of the shape for the shift 0, of a height of at most 14,
and every leaf holds the hash of its key. -/
def wf (map_key_hash : K → Except Exn Nat) (m : MapImpl K V) : Prop :=
  (m.root_ = .Empty ∨ m.root_.wf 14 0 0) ∧
    ∀ x, x ∈ m.root_.leaves 14 → map_key_hash x.2.1 = .ok x.1

end MapImpl

/-- A hash with collisions: the key modulo 4. -/
def example_key_hash (k : Nat) : Except Exn Nat := .ok (k % 4)

/-- The equality of numbers as `map_key_equals`. -/
def example_key_equals (a b : Nat) : Except Exn Bool := .ok (decide (a = b))

/-- The map that holds the key 1 with the value 10. -/
def example_map : MapImpl Nat Nat := ⟨1, .Leaf 1 1 10⟩

end park

namespace park

/-! ## Serialization (`pack.cc`) -/

namespace pack

/-- The values that `Packer` visits and `unpack` makes: a boolean, an integer
of 64 bits, a string of bytes, a vector, a map, an atom. A vector is
represented by the sequence of its elements (`size()` is the length, `nth(i)`
the `i`-th element, `conj` appends); a map is the `MapImpl` with its nodes. -/
inductive Value where
  | Boolean (value : Bool) : Value
  | Integer (v : Int) : Value
  | String (s : List Nat) : Value
  | Vector (items : List Value) : Value
  | Map (m : MapImpl Value Value) : Value
  | Atom (v_ : Value) : Value

/-- The bytes of the `w`-byte integer with the bits `x`, the lowest first. -/
def to_bytes_le (w x : Nat) : List Nat := (List.range w).map fun i => x / 256 ^ i % 256

/-- The integer whose bytes, the lowest first, are `bs`. -/
def of_bytes_le : List Nat → Nat
  | [] => 0
  | b :: bs => b + 256 * of_bytes_le bs

/-- The object representation of an integer of `w` bytes with the bits `x`,
as `os.write(reinterpret_cast<const char *>(&x), sizeof(x))` writes it, on a
host of the given byte order. -/
def object_bytes (little_endian : Bool) (w x : Nat) : List Nat :=
  if little_endian then to_bytes_le w x else (to_bytes_le w x).reverse

/-- The bits of the integer whose object representation is `bs`, as
`ins.read(reinterpret_cast<char *>(&x), sizeof(x))` stores them. -/
def object_value (little_endian : Bool) (bs : List Nat) : Nat :=
  if little_endian then of_bytes_le bs else of_bytes_le bs.reverse

/-- `boost::endian::endian_reverse` on an integer of `w` bytes. -/
def endian_reverse (w x : Nat) : Nat := of_bytes_le (to_bytes_le w x).reverse

/-- `boost::endian::native_to_big`. -/
def native_to_big (little_endian : Bool) (w x : Nat) : Nat :=
  if little_endian then endian_reverse w x else x

/-- `boost::endian::big_to_native`. -/
def big_to_native (little_endian : Bool) (w x : Nat) : Nat :=
  if little_endian then endian_reverse w x else x

/-- The bits of a signed integer of `w` bytes (two's complement). -/
def bits (w : Nat) (v : Int) : Nat := (v % 2 ^ (8 * w)).toNat

/-- The signed integer of `w` bytes with the bits `x`. -/
def signed (w x : Nat) : Int := if x < 2 ^ (8 * w - 1) then (x : Int) else (x : Int) - 2 ^ (8 * w)

/-- `Packer::len_from_size`. -/
def len_from_size (size : Nat) : Except Exn Int :=
  if size < 2147483647 then .ok (size : Int)
  else .error (.out_of_range "to big to pack")

/-- `Packer::write_type`. -/
def write_type (os : List Nat) (type : Nat) : List Nat := os ++ [type]

/-- The statements that follow `write_type` in `write_map_header` and in the
visits of a vector and a string: `len_from_size`, `native_to_big_inplace` and
the write of the four bytes. The result is the stream and what was thrown. -/
def write_len (little_endian : Bool) (os : List Nat) (size : Nat) : List Nat × Option Exn :=
  match len_from_size size with
  | .error e => (os, some e)
  | .ok len => (os ++ object_bytes little_endian 4 (native_to_big little_endian 4 (bits 4 len)), none)

/-- The loop over the elements of a vector: `accept` on each in turn. -/
def visit_items (accept : Value → List Nat → List Nat × Option Exn) :
    List Value → List Nat → List Nat × Option Exn
  | [], os => (os, none)
  | v :: vs, os =>
    match accept v os with
    | (os1, some e) => (os1, some e)
    | (os1, none) => visit_items accept vs os1

/-- The callback of `v.iterate` in the visit of a map: `accept` on the key,
then on the value, for each entry in turn. -/
def visit_entries (accept : Value → List Nat → List Nat × Option Exn) :
    List (Value × Value) → List Nat → List Nat × Option Exn
  | [], os => (os, none)
  | (key, value) :: rest, os =>
    match accept key os with
    | (os1, some e) => (os1, some e)
    | (os1, none) =>
      match accept value os1 with
      | (os2, some e) => (os2, some e)
      | (os2, none) => visit_entries accept rest os2

/-- `value.accept(fbr, packer)` for a `Packer` on the stream `os`: the stream
afterwards and what was thrown. `fuel` bounds the nesting of the values; the
nodes of a map are iterated to the depth 14. -/
def accept (little_endian : Bool) : Nat → Value → List Nat → List Nat × Option Exn
  | 0, _, os => (os, some .diverges)
  | fuel + 1, .Map m, os =>
    match write_len little_endian (write_type os 0xdf) m.size with
    | (os1, some e) => (os1, some e)
    | (os1, none) => visit_entries (accept little_endian fuel) (m.iterate 14) os1
  | fuel + 1, .Vector items, os =>
    match write_len little_endian (write_type os 0xdd) items.length with
    | (os1, some e) => (os1, some e)
    | (os1, none) => visit_items (accept little_endian fuel) items os1
  | _ + 1, .Integer v, os =>
    let os1 := write_type os 0xd3
    match (park.Value.Integer v).to_index with
    | .error e => (os1, some e)
    | .ok i => (os1 ++ object_bytes little_endian 8 (native_to_big little_endian 8 (bits 8 i)), none)
  | fuel + 1, .Atom v_, os =>
    accept little_endian fuel v_ (write_type (write_type (write_type os 0xc7) 0x00) 0x01)
  | _ + 1, .String s, os =>
    match write_len little_endian (write_type os 0xdb) s.length with
    | (os1, some e) => (os1, some e)
    | (os1, none) => (os1 ++ s, none)
  | _ + 1, .Boolean value, os => (write_type os (if value then 0xc3 else 0xc2), none)

set_option linter.dupNamespace false in
/-- `pack(fbr, value, outs)`. -/
def pack (little_endian : Bool) (fuel : Nat) (value : Value) (outs : List Nat) :
    List Nat × Option Exn :=
  accept little_endian fuel value outs

/-- `ins.read(buf, n)` where the `n` bytes are there; the code does not look
at the state of the stream, and what it reads past the end is not defined. -/
def read (ins : List Nat) (n : Nat) : Except Exn (List Nat × List Nat) :=
  if n ≤ ins.length then .ok (ins.take n, ins.drop n) else .error .undefined

/-- The two statements `std::string str(len, 0)` and `ins.read(&str[0], len)`:
the bytes that are there, followed by the zeros the string was made of. -/
def read_string_bytes (ins : List Nat) (len : Nat) : List Nat × List Nat :=
  (ins.take len ++ List.replicate (len - ins.length) 0, ins.drop len)

/-- The read of an integer of `w` bytes followed by `big_to_native`. -/
def read_int (little_endian : Bool) (w : Nat) (ins : List Nat) : Except Exn (Int × List Nat) :=
  match read ins w with
  | .error e => .error e
  | .ok (bs, ins1) =>
    .ok (signed w (big_to_native little_endian w (object_value little_endian bs)), ins1)

/-- The loop of `unpack` for an array: `len` elements are read and appended. -/
def unpack_items (unpack : List Nat → Except Exn (Value × List Nat)) :
    Nat → List Value → List Nat → Except Exn (List Value × List Nat)
  | 0, v, ins => .ok (v, ins)
  | len + 1, v, ins =>
    match unpack ins with
    | .error e => .error e
    | .ok (x, ins1) => unpack_items unpack len (v ++ [x]) ins1

/-- The loop of `unpack` for a map: `m = m->assoc(fbr, unpack(fbr, ins),
unpack(fbr, ins))`. The order in which the two arguments are evaluated is not
specified; `right_to_left` tells whether the second one, the value, is read
first. -/
def unpack_entries (assoc : MapImpl Value Value → Value → Value → Except Exn (MapImpl Value Value))
    (unpack : List Nat → Except Exn (Value × List Nat)) (right_to_left : Bool) :
    Nat → MapImpl Value Value → List Nat → Except Exn (MapImpl Value Value × List Nat)
  | 0, m, ins => .ok (m, ins)
  | len + 1, m, ins =>
    match unpack ins with
    | .error e => .error e
    | .ok (first, ins1) =>
      match unpack ins1 with
      | .error e => .error e
      | .ok (second, ins2) =>
        match (if right_to_left then assoc m second first else assoc m first second) with
        | .error e => .error e
        | .ok m1 => unpack_entries assoc unpack right_to_left len m1 ins2

/-- `unpack(fbr, ins)`: the value and the rest of the stream. `fuel` bounds
the nesting; `assoc` of a map runs with the fuel 28. -/
def unpack (little_endian : Bool) (map_key_hash : Value → Except Exn Nat)
    (map_key_equals : Value → Value → Except Exn Bool) (right_to_left : Bool) :
    Nat → List Nat → Except Exn (Value × List Nat)
  | 0, _ => .error .diverges
  | fuel + 1, ins =>
    match read ins 1 with
    | .error e => .error e
    | .ok (type, ins1) =>
      if type = [0xc3] then .ok (.Boolean true, ins1)
      else if type = [0xc2] then .ok (.Boolean false, ins1)
      else if type = [0xd3] then
        match read_int little_endian 8 ins1 with
        | .error e => .error e
        | .ok (v, ins2) => .ok (.Integer v, ins2)
      else if type = [0xdb] then
        match read_int little_endian 4 ins1 with
        | .error e => .error e
        | .ok (len, ins2) =>
          if len < 0 then .error (.length_error "basic_string")
          else
            .ok (.String (read_string_bytes ins2 len.toNat).1, (read_string_bytes ins2 len.toNat).2)
      else if type = [0xdd] then
        match read_int little_endian 4 ins1 with
        | .error e => .error e
        | .ok (len, ins2) =>
          match unpack_items
              (unpack little_endian map_key_hash map_key_equals right_to_left fuel)
              len.toNat [] ins2 with
          | .error e => .error e
          | .ok (v, ins3) => .ok (.Vector v, ins3)
      else if type = [0xdf] then
        match read_int little_endian 4 ins1 with
        | .error e => .error e
        | .ok (len, ins2) =>
          match unpack_entries (MapImpl.assoc map_key_hash map_key_equals 28)
              (unpack little_endian map_key_hash map_key_equals right_to_left fuel)
              right_to_left len.toNat MapImpl.EMPTY ins2 with
          | .error e => .error e
          | .ok (m, ins3) => .ok (.Map m, ins3)
      else if type = [0xc7] then
        match read ins1 1 with
        | .error e => .error e
        | .ok (ch, ins2) =>
          if ch ≠ [0] then .error .undefined
          else
            match read ins2 1 with
            | .error e => .error e
            | .ok (ch, ins3) =>
              if ch ≠ [1] then .error .undefined
              else
                match unpack little_endian map_key_hash map_key_equals right_to_left fuel ins3 with
                | .error e => .error e
                | .ok (v, ins4) => .ok (.Atom v, ins4)
      else .error (.runtime_error "unknown msgpack type")

end pack

end park

namespace park

namespace pack

/-- The `w` bytes of `x` in big-endian order: the highest byte first. -/
def big_endian (w x : Nat) : List Nat := (List.range w).map fun i => x / 256 ^ (w - 1 - i) % 256

/-- The two's-complement encoding of `n` in `w` bytes, as a number. -/
def twos_complement (w : Nat) (n : Int) : Nat := (n % 2 ^ (8 * w)).toNat

/-- The byte layout of a value: a map is `0xdf`, its entry count in four
bytes, then each key followed by its value; a vector is `0xdd`, its length in
four bytes, then its elements in index order; a string is `0xdb`, its length
in four bytes, then its bytes; an integer is `0xd3` and the eight bytes of
its two's-complement encoding; true is `0xc3`, false `0xc2`; an atom is
`0xc7 0x00 0x01` and its content. All numbers are big-endian. `fuel` bounds
the nesting. -/
def layout : Nat → Value → List Nat
  | 0, _ => []
  | fuel + 1, .Map m =>
    0xdf :: big_endian 4 m.size
      ++ ((m.iterate 14).map fun kv => layout fuel kv.1 ++ layout fuel kv.2).flatten
  | fuel + 1, .Vector items =>
    0xdd :: big_endian 4 items.length ++ (items.map (layout fuel)).flatten
  | _ + 1, .String s => 0xdb :: big_endian 4 s.length ++ s
  | _ + 1, .Integer n => 0xd3 :: big_endian 8 (twos_complement 8 n)
  | _ + 1, .Boolean value => [if value then 0xc3 else 0xc2]
  | fuel + 1, .Atom v_ => [0xc7, 0x00, 0x01] ++ layout fuel v_

/-- The values nested less than `fuel` deep whose sizes are below
`2^31 - 1` and whose integers, of 64 bits, are not negative. -/
def packable : Nat → Value → Prop
  | 0, _ => False
  | fuel + 1, .Map m =>
    m.size < 2147483647 ∧ ∀ kv, kv ∈ m.iterate 14 → packable fuel kv.1 ∧ packable fuel kv.2
  | fuel + 1, .Vector items => items.length < 2147483647 ∧ ∀ v, v ∈ items → packable fuel v
  | _ + 1, .String s => s.length < 2147483647
  | _ + 1, .Integer n => 0 ≤ n ∧ n < 2 ^ 63
  | _ + 1, .Boolean _ => True
  | fuel + 1, .Atom v_ => packable fuel v_

/-- The values nested less than `fuel` deep that hold no map. -/
def map_free : Nat → Value → Prop
  | 0, _ => False
  | _ + 1, .Map _ => False
  | fuel + 1, .Vector items => ∀ v, v ∈ items → map_free fuel v
  | _ + 1, .String _ => True
  | _ + 1, .Integer _ => True
  | _ + 1, .Boolean _ => True
  | fuel + 1, .Atom v_ => map_free fuel v_

/-- The vector of the integer 1 and the atom of the string "a", with the map
that holds the integer 1 under the key true. -/
def example_value : Value :=
  .Vector [.Integer 1, .Atom (.String [97]),
    .Map ⟨1, .Leaf 1 (.Boolean true) (.Integer 1)⟩]

/-- The vector of the integer 258, the string "ab", the vector of false and
the atom of true. -/
def example_plain_value : Value :=
  .Vector [.Integer 258, .String [97, 98], .Vector [.Boolean false], .Atom (.Boolean true)]

/-- A hash of the keys for the examples, with the value of an integer as its
hash and 7 for every other key. -/
def example_key_hash_value : Value → Except Exn Nat
  | .Integer v => .ok (v % 2 ^ 64).toNat
  | _ => .ok 7

/-- An equality of keys for the examples: integers and booleans are compared
by value, other keys are told apart. -/
def example_key_equals_value : Value → Value → Except Exn Bool
  | .Integer a, .Integer b => .ok (decide (a = b))
  | .Boolean a, .Boolean b => .ok (decide (a = b))
  | _, _ => .ok false

end pack

end park

namespace gc

/-- A nursery without a cycle in which one object is referred to twice: the
object of 32 bytes at 16 holds two references to the object of 16 bytes at
64, which holds no reference. Nothing has been allocated in the shared heap
yet. -/
def example_diamond_allocator : allocator_t :=
  { header := fun p => if p = 16 then some ⟨32, false⟩ else if p = 64 then some ⟨16, false⟩
      else none,
    data := fun p => if p = 16 then some ⟨7, [64, 64]⟩ else if p = 64 then some ⟨8, []⟩
      else none,
    shared_ := 0, shared_allocated_ := 0, shared_allocated_bytes_ := 0,
    private_heap_ := ⟨2, 48, 0, 0⟩, nr_collections_ := 0 }

/-- What `share` leaves behind: the promoted reference, the references held
by the object it points to, and the counters `shared_` and
`shared_allocated_`. -/
def share_summary (r : Except park.Exn (allocator_t × Nat)) :
    Except park.Exn (Nat × Option (List Nat) × Int × Nat) :=
  match r with
  | .error e => .error e
  | .ok (a1, r1) => .ok (r1, (a1.data r1).map collectable.refs, a1.shared_, a1.shared_allocated_)

/-- The two nursery objects of a cycle are in place: the object at 16 refers
to the object at 64 first, and the object at 64 refers to the object at 16
first. -/
def cycle_in_place (a : allocator_t) : Prop :=
  (∃ h, a.header 16 = some h ∧ h.sz % 16 = 0) ∧ (∃ h, a.header 64 = some h ∧ h.sz % 16 = 0) ∧
    (∃ c rest, a.data 16 = some c ∧ c.refs = 64 :: rest) ∧
    (∃ c rest, a.data 64 = some c ∧ c.refs = 16 :: rest)

end gc

namespace gc

namespace block_t

/-- The address of the member `data` of the block at the address `this`: the
array follows the fields of the block. -/
def data (this : Nat) : Nat := this + sizeof_block_t

/-- What `block_t::create` and the constructor fix for the life of a block at
the address `this`: the address is a multiple of 16, the slot size is a
positive multiple of 16, the header fits in the block, and the capacity is
`(block_size - sizeof(block_t)) / sz`. -/
def laid_out (b : block_t) (this : Nat) : Prop :=
  this % 16 = 0 ∧ b.sz_ % 16 = 0 ∧ 0 < b.sz_ ∧ sizeof_block_t ≤ b.block_size_ ∧
    b.capacity_ = (b.block_size_ - sizeof_block_t) / b.sz_

instance (b : block_t) (this : Nat) : Decidable (b.laid_out this) := by
  unfold laid_out; infer_instance

/-- `block_t::alloc` of the block at the address `this`, with the pointer
`data + (idx0 * 64 + idx1) * sz_` it returns and with its assertions on
`used()` and on the pointer. -/
def alloc_ptr (b : block_t) (this : Nat) (with_finalizer marked : Bool) :
    Except park.Exn (block_t × Nat) :=
  if b.used ≠ b.count then .error .undefined
  else
    match b.alloc with_finalizer marked with
    | .error e => .error e
    | .ok (b1, idx) =>
      let ptr := data this + idx * b.sz_
      if ¬ ptr % 16 = 0 then .error .undefined
      else if ¬ (data this ≤ ptr ∧ ptr + b.sz_ ≤ this + b.block_size_) then .error .undefined
      else if b1.used ≠ b1.count then .error .undefined
      else .ok (b1, ptr)

end block_t

end gc

namespace gc

/-- A block of slots of 16 bytes as `block_t::create` makes it: 8192 bytes
with room for 497 slots, none allocated. -/
def example_fresh_block : block_t :=
  { dirty_ := false, select_ := 0, bitmap_ := fun _ => 0, marked_ := fun _ => 0,
    finalize_ := fun _ => 0, sz_ := 16, block_size_ := 8192, available_ := 497,
    capacity_ := 497 }

end gc

namespace gc

/-! ## The write barrier (`gc.h`) -/

/-- The allocator together with the two fields of `allocator_t` that the
write barrier uses and `share` leaves alone: the flag `write_barrier_` and
the list `ref_list_` (the back of the list is its end). -/
structure barrier_allocator_t where
  allocator : allocator_t
  write_barrier_ : Bool
  ref_list_ : List Nat

/-- `gc::ref_write(allocator, slot, src)`, the slot being reference `i` of
the object at `obj`: `src` is promoted; under the write barrier the value of
the slot and the promoted `src` are pushed to the back of `ref_list_`; the
promoted `src` is stored in the slot. -/
def ref_write (next : Nat → Nat) (fuel : Nat) (w : barrier_allocator_t) (obj i src : Nat) :
    Except park.Exn barrier_allocator_t :=
  match w.allocator.share next fuel src with
  | .error e => .error e
  | .ok (a1, src1) =>
    let pushed : Except park.Exn (List Nat) :=
      if w.write_barrier_ then
        match a1.get_ref obj i with
        | .error e => .error e
        | .ok old => .ok (w.ref_list_ ++ [old, src1])
      else .ok w.ref_list_
    match pushed with
    | .error e => .error e
    | .ok ref_list =>
      match a1.set_ref obj i src1 with
      | .error e => .error e
      | .ok a2 => .ok { allocator := a2, write_barrier_ := w.write_barrier_, ref_list_ := ref_list }

/-- A mutator under the write barrier with an empty `ref_list_`: the shared
object at 0x100010 holds one reference, to the shared object at 0x100020;
the nursery holds an object of 16 bytes at 16; two shared allocations have
been made. -/
def example_barrier_allocator : barrier_allocator_t :=
  { allocator :=
      { header := fun p => if p = 16 then some ⟨16, false⟩ else none,
        data := fun p => if p = 16 then some ⟨7, []⟩
          else if p = 0x100010 then some ⟨8, [0x100020]⟩
          else if p = 0x100020 then some ⟨9, []⟩ else none,
        shared_ := 0, shared_allocated_ := 2, shared_allocated_bytes_ := 32,
        private_heap_ := ⟨1, 16, 0, 0⟩, nr_collections_ := 0 },
    write_barrier_ := true, ref_list_ := [] }

end gc

namespace park

/-! ## The collector's walk through the colour lists (`gc.cc`, `runtime.cc`) -/

/-- Where the collector thread stands in `collector_t::collect_shared`, as far
as the colour lists are concerned: waiting for the next cycle; the first
stop-the-world achieved; at the test `has_incremental_root_sets()` of the
marking loop; between `incremental_root_sets` and
`incremental_root_sets_done`; after the loop, `stw_start(2)` called and the
mutators not yet checked in; the second stop-the-world achieved. -/
inductive CollectorPc where
  | waiting
  | stw1
  | marking
  | scanned
  | stw2_wait
  | stw2
  deriving DecidableEq, Repr

/-- The colour lists, the flag `write_barrier_` that the collector sets in
every allocator during a stop-the-world, and the place of the collector. -/
structure CollectorWorld where
  rt : RuntimeImpl
  write_barrier_ : Bool
  pc : CollectorPc

/-- The steps of the mutators, which take the runtime lock (`__spawn`,
`attach_and_exec`, the end of a fiber), and the next step of the collector. -/
inductive WorldEvent where
  | collector
  | created (f : Nat)
  | exitted (f : Nat)
  | attach (f : Nat)
  | attach_wake (f : Nat)
  | detach (f : Nat)
  deriving DecidableEq, Repr

namespace CollectorWorld

/-- The runtime as `RuntimeImpl::run` starts the collector: no cycle under
way, the write barrier off. -/
def init : CollectorWorld := ⟨RuntimeImpl.init, false, .waiting⟩

/-- The callback `has_incremental_root_sets`. -/
def has_incremental_root_sets (rt : RuntimeImpl) : Bool :=
  !(rt.fibers_ rt.fibers_sleeping_grey_).isEmpty

/-- The first loop of the callback `incremental_root_sets`: at most `n`
fibers go from the front of the grey list to the scanning list. -/
def incremental_root_sets : Nat → RuntimeImpl → Except Exn RuntimeImpl
  | 0, rt => .ok rt
  | n + 1, rt =>
    if (rt.fibers_ rt.fibers_sleeping_grey_).isEmpty then .ok rt
    else
      match rt.move_front rt.fibers_sleeping_grey_ rt.fibers_sleeping_scanning_ with
      | .error e => .error e
      | .ok rt1 => incremental_root_sets n rt1

/-- The loop of the callback `incremental_root_sets_done`: every fiber of the
scanning list goes to the black list. `fuel` bounds the number of rounds. -/
def incremental_root_sets_done : Nat → RuntimeImpl → Except Exn RuntimeImpl
  | fuel, rt =>
    if (rt.fibers_ rt.fibers_sleeping_scanning_).isEmpty then .ok rt
    else
      match fuel with
      | 0 => .error .diverges
      | fuel + 1 =>
        match rt.move_front rt.fibers_sleeping_scanning_ rt.fibers_sleeping_black_ with
        | .error e => .error e
        | .ok rt1 => incremental_root_sets_done fuel rt1

/-- The next step of the collector. The first stop-the-world ends with the
write barrier on and `stw_end(1)`, which leaves the lists alone. The marking
loop runs `incremental_root_sets` and `incremental_root_sets_done` as long as
the grey list is not empty. The second stop-the-world ends with the write
barrier off and `stw_end(2)`, which swaps the black and the grey list after
its assertion. -/
def collector_step (w : CollectorWorld) : Except Exn CollectorWorld :=
  match w.pc with
  | .waiting => .ok { w with pc := .stw1 }
  | .stw1 => .ok { w with write_barrier_ := true, pc := .marking }
  | .marking =>
    if has_incremental_root_sets w.rt then
      match incremental_root_sets 100 w.rt with
      | .error e => .error e
      | .ok rt1 => .ok { w with rt := rt1, pc := .scanned }
    else .ok { w with pc := .stw2_wait }
  | .scanned =>
    match incremental_root_sets_done (w.rt.fibers_ w.rt.fibers_sleeping_scanning_).length w.rt with
    | .error e => .error e
    | .ok rt1 => .ok { w with rt := rt1, pc := .marking }
  | .stw2_wait => .ok { w with pc := .stw2 }
  | .stw2 =>
    match w.rt.swap_black_grey with
    | .error e => .error e
    | .ok rt1 => .ok { rt := rt1, write_barrier_ := false, pc := .waiting }

/-- The mutators run except while a stop-the-world is achieved. -/
def mutators_run (w : CollectorWorld) : Bool :=
  decide (w.pc ≠ .stw1 ∧ w.pc ≠ .stw2)

/-- A step of a mutator on the colour lists, under the write barrier flag of
its allocator. -/
def mutator_step (w : CollectorWorld) : WorldEvent → Except Exn RuntimeImpl
  | .collector => .ok w.rt
  | .created f => w.rt.fiber_created f
  | .exitted f => w.rt.fiber_exitted f
  | .attach f => w.rt.fiber_attach f w.write_barrier_
  | .attach_wake f => w.rt.fiber_attach_wake f
  | .detach f => w.rt.fiber_detach f w.write_barrier_

/-- One step of an interleaving; `none` when the step cannot take place, a
step of a mutator during a stop-the-world. -/
def step (w : CollectorWorld) (e : WorldEvent) : Option (Except Exn CollectorWorld) :=
  match e with
  | .collector => some w.collector_step
  | e =>
    if w.mutators_run then
      match w.mutator_step e with
      | .error x => some (.error x)
      | .ok rt1 => some (.ok { w with rt := rt1 })
    else none

/-- An interleaving; a failed assertion ends it. -/
def run (w : CollectorWorld) : List WorldEvent → Option (Except Exn CollectorWorld)
  | [] => some (.ok w)
  | e :: es =>
    match w.step e with
    | none => none
    | some (.error x) => some (.error x)
    | some (.ok w1) => w1.run es

end CollectorWorld

/-- The main fiber is created and attached; a collection starts and the
marking loop finds the grey list empty; the main fiber spawns fiber 1 while
the collector waits for the mutators to check in for the second
stop-the-world; the second stop-the-world is achieved. -/
def example_spawn_before_stw2 : List WorldEvent :=
  [.created 0, .attach 0, .collector, .collector, .collector, .created 1, .collector]

end park

namespace park

/-! ## The persistent vector (`vector.cc`) -/

/-- What a reference held by an `ArrayImpl` points to: a value that was
conj-ed to the vector, or another `ArrayImpl`, given by its `arr_`. -/
inductive ArrayItem (V : Type) where
  | value (v : V)
  | array (arr_ : List (ArrayItem V))

namespace ArrayImpl

variable {V : Type}

/-- The copy constructor with its assertion on the size. -/
def create (other : List (ArrayItem V)) : Except Exn (List (ArrayItem V)) :=
  if 0 < other.length ∧ other.length ≤ 32 then .ok other else .error .undefined

/-- The constructor of an array of one value. -/
def create1 (val : ArrayItem V) : List (ArrayItem V) := [val]

/-- The constructor of an array of two values. -/
def create2 (val1 val2 : ArrayItem V) : List (ArrayItem V) := [val1, val2]

/-- `ArrayImpl::append`, the copy and append constructor with its assertion. -/
def append (arr : List (ArrayItem V)) (val : ArrayItem V) : Except Exn (List (ArrayItem V)) :=
  if arr.length + 1 ≤ 32 then .ok (arr ++ [val]) else .error .undefined

/-- `ArrayImpl::set` with its assertion. -/
def set (arr : List (ArrayItem V)) (idx : Nat) (v : ArrayItem V) :
    Except Exn (List (ArrayItem V)) :=
  if idx < arr.length then .ok (List.set arr idx v) else .error .undefined

/-- `ArrayImpl::get` with its assertion. -/
def get (arr : List (ArrayItem V)) (idx : Nat) : Except Exn (ArrayItem V) :=
  match arr[idx]? with
  | some v => .ok v
  | none => .error .undefined

/-- `gc::ref_dynamic_cast<ArrayImpl>` followed by the use of the result: a
reference to something else gives a null pointer. -/
def cast (v : ArrayItem V) : Except Exn (List (ArrayItem V)) :=
  match v with
  | .array arr => .ok arr
  | .value _ => .error .undefined

end ArrayImpl

/-- The class `VectorImpl`: `cnt_` and `shift_` are values of `int`, `root_`
and `tail_` are given by the `arr_` of the arrays they point to. -/
structure VectorImpl (V : Type) where
  cnt_ : Nat
  shift_ : Nat
  root_ : List (ArrayItem V)
  tail_ : List (ArrayItem V)

namespace VectorImpl

variable {V : Type}

/-- The vector `EMPTY` that `VectorImpl::create` returns. -/
def EMPTY : VectorImpl V := ⟨0, 5, [], []⟩

/-- `VectorImpl::size`. -/
def size (self : VectorImpl V) : Nat := self.cnt_

/-- `VectorImpl::tailoff`. -/
def tailoff (self : VectorImpl V) : Nat := self.cnt_ - self.tail_.length

/-- The loop of `VectorImpl::nth` from the level `level` on:
`for (; level > 0; level -= 5) arr = arr->get((i >> level) & 0x01f)`. At a
level between 1 and 4 one round is made and the loop ends, the next level
being negative. -/
def descend (i : Nat) : Nat → List (ArrayItem V) → Except Exn (List (ArrayItem V))
  | 0, arr => .ok arr
  | level + 5, arr =>
    match ArrayImpl.get arr ((i >>> (level + 5)) &&& 0x01f) with
    | .error e => .error e
    | .ok child =>
      match ArrayImpl.cast child with
      | .error e => .error e
      | .ok arr1 => descend i level arr1
  | level, arr =>
    match ArrayImpl.get arr ((i >>> level) &&& 0x01f) with
    | .error e => .error e
    | .ok child => ArrayImpl.cast child

/-- `VectorImpl::nth`. -/
def nth (self : VectorImpl V) (i : Nat) : Except Exn (ArrayItem V) :=
  if i < self.cnt_ then
    if i ≥ self.tailoff then ArrayImpl.get self.tail_ (i &&& 0x01f)
    else
      match descend i self.shift_ self.root_ with
      | .error e => .error e
      | .ok arr => ArrayImpl.get arr (i &&& 0x01f)
  else .error (.runtime_error "index out of bound")

/-- The end of `VectorImpl::pushTail`, from the comment `expansion` on: a
full array is returned as it is with the new child as the expansion, any
other array is returned with the new child appended. -/
def pushTail_expansion (arr newchild : List (ArrayItem V)) :
    Except Exn (List (ArrayItem V) × Option (List (ArrayItem V))) :=
  if arr.length = 32 then .ok (arr, some (ArrayImpl.create1 (.array newchild)))
  else
    match ArrayImpl.append arr (.array newchild) with
    | .error e => .error e
    | .ok ret => .ok (ret, none)

/-- `VectorImpl::pushTail(level, arr, tailNode, expansion)`: the array returned
and the expansion, `none` for a null pointer. At a level that is no multiple
of 5 the recursion passes level 0 and goes down until a cast or an assertion
fails. -/
def pushTail : Nat → List (ArrayItem V) → List (ArrayItem V) →
    Except Exn (List (ArrayItem V) × Option (List (ArrayItem V)))
  | 0, arr, tailNode => pushTail_expansion arr tailNode
  | level + 5, arr, tailNode =>
    if ¬ 0 < arr.length then .error .undefined
    else
      match ArrayImpl.get arr (arr.length - 1) with
      | .error e => .error e
      | .ok last =>
        match ArrayImpl.cast last with
        | .error e => .error e
        | .ok last_arr =>
          match ArrayImpl.create last_arr with
          | .error e => .error e
          | .ok copy =>
            match pushTail level copy tailNode with
            | .error e => .error e
            | .ok (newchild, none) =>
              match ArrayImpl.create arr with
              | .error e => .error e
              | .ok ret =>
                match ArrayImpl.set ret (arr.length - 1) (.array newchild) with
                | .error e => .error e
                | .ok ret1 => .ok (ret1, none)
            | .ok (_, some expansion) => pushTail_expansion arr expansion
  | _, _, _ => .error .undefined

/-- The sum `cnt_ + 1` of two values of `int`; an overflow is undefined. -/
def next_cnt (cnt : Nat) : Except Exn Nat :=
  if cnt + 1 < 2 ^ 31 then .ok (cnt + 1) else .error .undefined

/-- `VectorImpl::conj`. -/
def conj (self : VectorImpl V) (val : V) : Except Exn (VectorImpl V) :=
  if self.tail_.length < 32 then
    match ArrayImpl.append self.tail_ (.value val) with
    | .error e => .error e
    | .ok tail =>
      match next_cnt self.cnt_ with
      | .error e => .error e
      | .ok cnt => .ok ⟨cnt, self.shift_, self.root_, tail⟩
  else
    if self.shift_ < 5 then .error .undefined
    else
      match pushTail (self.shift_ - 5) self.root_ self.tail_ with
      | .error e => .error e
      | .ok (newroot, expansion) =>
        let grown : List (ArrayItem V) × Nat :=
          match expansion with
          | some e => (ArrayImpl.create2 (.array newroot) (.array e), self.shift_ + 5)
          | none => (newroot, self.shift_)
        match next_cnt self.cnt_ with
        | .error e => .error e
        | .ok cnt => .ok ⟨cnt, grown.2, grown.1, ArrayImpl.create1 (.value val)⟩

/-- The values conj-ed to a vector one after the other. -/
def conj_all (self : VectorImpl V) : List V → Except Exn (VectorImpl V)
  | [] => .ok self
  | val :: rest =>
    match self.conj val with
    | .error e => .error e
    | .ok v => conj_all v rest

end VectorImpl

end park

namespace park

namespace VectorImpl

variable {V : Type}

/-- The array `arr` is a node of height `h` that holds the `len` values
`xs[base], ..., xs[base + len - 1]`, filled from the left. A node of height 0
is an array of 32 values. A node of height `h + 1` is empty, or it is an array
of `m + 1 <= 32` nodes of height `h`, the first `m` of them holding
`32^(h+1)` values each and the last one at least one value. -/
def node_ok : Nat → List (ArrayItem V) → List V → Nat → Nat → Prop
  | 0, arr, xs, base, len =>
    len = 32 ∧ arr.length = 32 ∧
      ∀ j, j < 32 → ∃ x, xs[base + j]? = some x ∧ arr[j]? = some (.value x)
  | h + 1, arr, xs, base, len =>
    (arr = [] ∧ len = 0) ∨
    ∃ m last, arr.length = m + 1 ∧ m + 1 ≤ 32 ∧ len = m * 32 ^ (h + 1) + last ∧ 0 < last ∧
      (∀ k, k < m → ∃ a, arr[k]? = some (.array a) ∧
        node_ok h a xs (base + k * 32 ^ (h + 1)) (32 ^ (h + 1))) ∧
      ∃ a, arr[m]? = some (.array a) ∧ node_ok h a xs (base + m * 32 ^ (h + 1)) last

/-- The vector `self` holds the values `xs`: `cnt_` is their number, the tail
holds the last ones, at least one and at most 32, and the root is a node of
height `shift_ / 5` that holds the values before the tail. -/
def vector_repr (self : VectorImpl V) (xs : List V) : Prop :=
  self.cnt_ = xs.length ∧ self.tail_.length ≤ 32 ∧ self.tail_.length ≤ xs.length ∧
    (0 < xs.length → 0 < self.tail_.length) ∧
    (∀ j, j < self.tail_.length →
      ∃ x, xs[xs.length - self.tail_.length + j]? = some x ∧ self.tail_[j]? = some (.value x)) ∧
    ∃ h, self.shift_ = 5 * (h + 1) ∧
      node_ok (h + 1) self.root_ xs 0 (xs.length - self.tail_.length) ∧
      (h = 0 ∨ 0 < xs.length - self.tail_.length)

end VectorImpl

end park

namespace park

/-- A hash without collisions on the keys 0 to 3: the key itself. -/
def example_small_hash (k : Fin 4) : Except Exn Nat := .ok k.val

/-- The equality of the hashes as `map_key_equals`. -/
def example_small_equals (a b : Fin 4) : Except Exn Bool := .ok (decide (a.val = b.val))

/-- The map that holds the key 1 with the value 10. -/
def example_small_map : MapImpl (Fin 4) Nat := ⟨1, .Leaf 1 1 10⟩

end park

namespace park

namespace MapImpl

variable {K V : Type}

/-- A sequence of `assoc` calls, each one on the map that the call before
returned; a call that raises ends the sequence. -/
def assoc_all (map_key_hash : K → Except Exn Nat) (map_key_equals : K → K → Except Exn Bool)
    (fuel : Nat) (m : MapImpl K V) : List (K × V) → Except Exn (MapImpl K V)
  | [] => .ok m
  | kv :: rest =>
    match m.assoc map_key_hash map_key_equals fuel kv.1 kv.2 with
    | .error e => .error e
    | .ok m1 => assoc_all map_key_hash map_key_equals fuel m1 rest

/-- In the sequence `kvs` of keys and values, `v` is the value most recently
associated with the key `k`. -/
def latest (kvs : List (K × V)) (k : K) (v : V) : Prop :=
  ∃ pre post, kvs = pre ++ (k, v) :: post ∧ ∀ p, p ∈ post → p.1 ≠ k

/-- The map `m` holds what the calls `kvs` have associated: it has the shape
`wf`, `count_` is the number of its leaves, which is no more than the number
of calls, and `iterate` visits a key with a value exactly when this value is
the one most recently associated with the key. -/
def holds (map_key_hash : K → Except Exn Nat) (m : MapImpl K V) (kvs : List (K × V)) : Prop :=
  m.wf map_key_hash ∧ m.count_ = (m.root_.leaves 14).length ∧ m.count_ ≤ kvs.length ∧
    ∀ k v, (k, v) ∈ m.iterate 14 ↔ latest kvs k v

end MapImpl

end park

namespace park

/-- Three calls of `assoc`, the third one for a key associated before. -/
def example_calls : List (Nat × Nat) := [(1, 10), (2, 20), (1, 11)]

/-- The map that the three calls make from the empty map. -/
def example_filled_map : MapImpl Nat Nat :=
  match MapImpl.EMPTY.assoc_all example_key_hash example_key_equals 28 example_calls with
  | .ok m => m
  | .error _ => MapImpl.EMPTY

end park

namespace park

/-! ## The compiler backend (`compiler.cc`) and the helpers its code calls (`fiber.cc`) -/

namespace AST

/-- The expression nodes of `ast.h` that `X64Backend` has a visitor for. A
`Symbol`, the symbol of a `Let`, a `Global` and a free variable of a `Function`
are known by their interned name `namei_`; an `Apply` by its address, its flag
`throws_` and the `target_` it starts with, its `argument_count` being the
size of `arguments_`. -/
inductive Node where
  | Literal (value_ : value_t)
  | Symbol (namei_ : Nat)
  | Builtin (value_ : value_t)
  | Let (symbol_ : Nat) (expression_ : Node)
  | Local (index_ : Nat)
  | Global (initialized_ : Bool) (value_ : Option Value) (namei_ : Nat)
  | Do (statements_ : List Node)
  | Branch (condition_ trueBranch_ falseBranch_ : Node)
  | Return (expression_ : Node)
  | Recur (arguments_ : List Node)
  | Function (function : park.AST.Function) (freevars_ : List Nat)
  | Apply (addr : Nat) (throws_ : Bool) (target_ : MethodImpl) (callable_ : Node)
      (arguments_ : List Node)

end AST

/-- What the execution helpers read besides the two stacks of the fiber:
`FiberImpl::lookup` (it reads the current closure, its free variables and the
builtins and leaves the fiber as it is), the `local_map_` of the function at an
address, the namespace of the module a `Global` is looked up in, and `to_bool`
of the value classes that are not modelled here. -/
structure HelperEnv where
  lookup : FiberImpl → Nat → Except Exn (Option Value)
  local_index : Nat → Nat → Option Nat
  ns_find : Nat → Option Value
  to_bool_other : Nat → Nat → Except Exn Bool

/-- The virtual `Value::to_bool`: `BooleanImpl` returns `v_`, the classes that
do not override it throw `Error::not_implemented`. -/
def Value.to_bool (env : HelperEnv) : Value → Except Exn Bool
  | .Boolean v_ => .ok v_
  | .Other type addr => env.to_bool_other type addr
  | _ => .error (.not_implemented "to_bool")

/-- `value::cast<bool>`; a `DVALUE` is false exactly when it is `0.0` or
`-0.0`. -/
def value.cast_bool (env : HelperEnv) : value_t → Except Exn Bool
  | .BVALUE bvalue => .ok bvalue
  | .RVALUE rvalue => rvalue.to_bool env
  | .IVALUE ivalue => .ok (decide (ivalue ≠ 0))
  | .DVALUE bits => .ok (decide (bits % 2 ^ 63 ≠ 0))
  | .UVALUE => .ok false

namespace FiberImpl

/-- `FiberImpl::exec_literal`. -/
def exec_literal (fbr : FiberImpl) (value_ : value_t) : Except Exn FiberImpl := do
  let stack ← fbr.stack.push_back value_
  pure { fbr with stack := stack }

/-- `FiberImpl::exec_symbol`; `Error::symbol_not_found` is a `runtime_error`. -/
def exec_symbol (env : HelperEnv) (fbr : FiberImpl) (namei_ : Nat) : Except Exn FiberImpl := do
  match ← env.lookup fbr namei_ with
  | some value =>
    let stack ← fbr.stack.push_back (.RVALUE value)
    pure { fbr with stack := stack }
  | none => throw (.runtime_error "Symbol not found")

/-- `FiberImpl::exec_local`: `Stack::push_local` of the current frame. -/
def exec_local (fbr : FiberImpl) (index_ : Nat) : Except Exn FiberImpl :=
  match fbr.frame_stack with
  | [] => .error .undefined
  | frame :: _ => do
    let slot ← fbr.stack.argument frame.base index_
    let stack ← fbr.stack.push_back slot
    pure { fbr with stack := stack }

/-- `FiberImpl::exec_builtin`. -/
def exec_builtin (fbr : FiberImpl) (value_ : value_t) : Except Exn FiberImpl := do
  let stack ← fbr.stack.push_back value_
  pure { fbr with stack := stack }

/-- `FiberImpl::exec_global`: a global that is not initialised is looked up in
the namespace of its module first (`Global::initialize`). -/
def exec_global (env : HelperEnv) (fbr : FiberImpl) (initialized_ : Bool)
    (value_ : Option Value) (namei_ : Nat) : Except Exn FiberImpl := do
  let value_ ←
    if initialized_ then pure value_
    else
      match env.ns_find namei_ with
      | some found => pure (some found)
      | none => throw (.runtime_error "name not found while initializing global")
  match value_ with
  | none => throw .undefined
  | some value =>
    let stack ← fbr.stack.push_back (.RVALUE value)
    pure { fbr with stack := stack }

/-- `FiberImpl::current_closure`, as the address of the function of the
closure. -/
def current_closure (fbr : FiberImpl) : Except Exn Nat :=
  match fbr.frame_stack with
  | [] => .error .undefined
  | current_frame :: _ => do
    let callable ← fbr.stack.callable current_frame.base
    match callable with
    | .RVALUE (.Closure function_) => pure function_
    | _ => throw .undefined

/-- `FiberImpl::exec_let`. -/
def exec_let (env : HelperEnv) (fbr : FiberImpl) (namei_ : Nat) : Except Exn FiberImpl :=
  match fbr.frame_stack with
  | [] => .error .undefined
  | frame :: _ => do
    let function_ ← fbr.current_closure
    match env.local_index function_ namei_ with
    | some local_index =>
      let stack ← fbr.stack.set_local frame.base local_index
      pure { fbr with stack := stack }
    | none => throw (.runtime_error "Symbol not found")

/-- `FiberImpl::exec_pop`. -/
def exec_pop (fbr : FiberImpl) : Except Exn FiberImpl := do
  let stack ← fbr.stack.pop_back
  pure { fbr with stack := stack }

/-- `FiberImpl::exec_bool`: `Stack::pop_cast<bool>`. -/
def exec_bool (env : HelperEnv) (fbr : FiberImpl) : Except Exn (FiberImpl × Bool) := do
  let back ← fbr.stack.back
  let result ← value.cast_bool env back
  let stack ← fbr.stack.pop_back
  pure ({ fbr with stack := stack }, result)

/-- The loop of `FiberImpl::exec_function` over the free variables. Every
name of `freevars_` has an index in `freevar_map_`, which the constructor of
`AST::Function` fills from `freevars_`. -/
def lookup_freevars (env : HelperEnv) (fbr : FiberImpl) : List Nat → Except Exn Unit
  | [] => pure ()
  | namei_ :: freevars => do
    match ← env.lookup fbr namei_ with
    | some _ => lookup_freevars env fbr freevars
    | none => throw (.runtime_error "could not lookup freevar!")

/-- `FiberImpl::exec_function`. -/
def exec_function (env : HelperEnv) (fbr : FiberImpl) (function : AST.Function)
    (freevars_ : List Nat) : Except Exn FiberImpl := do
  lookup_freevars env fbr freevars_
  let stack ← fbr.stack.push_back (.RVALUE (.Closure function.addr))
  pure { fbr with stack := stack }

end FiberImpl

namespace Frame

/-- `Frame::pop_arguments_and_push_result`. -/
def pop_arguments_and_push_result (fbr : FiberImpl) (apply : AST.Apply) (result : value_t) :
    Except Exn FiberImpl := do
  let stack ← fbr.stack.pop (apply.argument_count + 1)
  let stack ← stack.push_back result
  pure { fbr with stack := stack }

/-- `Frame::result`. -/
def result (fbr : FiberImpl) (apply : AST.Apply) (v : value_t) : Except Exn Outcome := do
  let fbr ← pop_arguments_and_push_result fbr apply v
  pure (fbr, apply, 0)

end Frame

namespace X64

/-- A call the backend emits with `emit_call(node, exec_fn)`: the helper
`exec_fn` together with the fields of `node` it reads. -/
inductive Call where
  | exec_literal (value_ : value_t)
  | exec_symbol (namei_ : Nat)
  | exec_builtin (value_ : value_t)
  | exec_let (namei_ : Nat)
  | exec_local (index_ : Nat)
  | exec_global (initialized_ : Bool) (value_ : Option Value) (namei_ : Nat)
  | exec_pop
  | exec_bool
  | exec_function (function : AST.Function) (freevars_ : List Nat)
  | exec_check_defers
  | exec_recur (recur : AST.Recur)

/-- What `X64Backend` asks of the assembler. `emit_call` stands for the four
instructions of `X64Backend::emit_call`, `call_target` for the call through
`apply.target_`, `call_exit_thunk` for the call of the exit thunk with the
status in `rdx`; a `bind` marks the place of a label. -/
inductive Instr where
  | emit_call (call : Call)
  | call_target (apply : AST.Apply)
  | call_exit_thunk (apply : AST.Apply)
  | test_rax_rax
  | cmp_rax_1
  | jz (label : Nat)
  | js (label : Nat)
  | jmp_rel (label : Nat)
  | bind (label : Nat)

end X64

/-- The class `X64Assembler`: the code emitted so far and the counter
`labels` of `new_label`. -/
structure X64Assembler where
  code : List X64.Instr
  labels : Nat

/-- The instructions `instrs` are emitted in turn. -/
def X64Assembler.emit (x64 : X64Assembler) (instrs : List X64.Instr) : X64Assembler :=
  { x64 with code := x64.code ++ instrs }

/-- The members of `X64Backend` besides the assembler, and the global node
`APPLY_DEFERS` that `Function::exec_defers` returns: the call site
`APPLY_DEFERS` of the callable `Symbol` named `APPLY_DEFERS_NAMEI` with the one
argument `Symbol` named `DEFERS_NAMEI`. -/
structure X64Backend where
  return_label : Nat
  recur_label : Nat
  exit_thunk : Option Nat
  current_function_ : Option AST.Function
  APPLY_DEFERS : AST.Apply
  APPLY_DEFERS_NAMEI : Nat
  DEFERS_NAMEI : Nat

namespace X64Backend

/-- The instructions of `visit_apply` from `x64.bind(apply_label)` on. -/
def apply_code (b : X64Backend) (apply : AST.Apply)
    (apply_label check_return_label end_label exit_label : Nat) : List X64.Instr :=
  [.bind apply_label, .call_target apply, .test_rax_rax, .jz end_label,
    .js apply_label, .jmp_rel check_return_label, .bind exit_label, .call_exit_thunk apply,
    .bind check_return_label, .cmp_rax_1, .js end_label,
    .jz (if b.current_function_.isSome then b.return_label else end_label),
    .jmp_rel exit_label, .bind end_label]

/-- The tail of `visit_apply`, from `x64.bind(apply_label)` on. -/
def apply_call (b : X64Backend) (apply : AST.Apply)
    (apply_label check_return_label end_label exit_label : Nat) (x64 : X64Assembler) :
    X64Assembler :=
  x64.emit (b.apply_code apply apply_label check_return_label end_label exit_label)

/-- The two assertions at the head of `visit_apply`. -/
def apply_asserts (b : X64Backend) : Bool :=
  b.exit_thunk.isSome && (!b.current_function_.isSome || b.return_label != 0)

/-- The visit of the node `APPLY_DEFERS`: `visit_apply` with `visit_symbol`
for the callable and for the argument. -/
def visit_exec_defers (b : X64Backend) (x64 : X64Assembler) : Except Exn X64Assembler :=
  if ¬ b.apply_asserts then .error .undefined
  else
    let x64a : X64Assembler := { x64 with labels := x64.labels + 4 }
    let x64b := x64a.emit [.emit_call (.exec_symbol b.APPLY_DEFERS_NAMEI),
      .emit_call (.exec_symbol b.DEFERS_NAMEI)]
    .ok (b.apply_call b.APPLY_DEFERS (x64.labels + 1) (x64.labels + 2) (x64.labels + 3)
      (x64.labels + 4) x64b)

mutual
/-- The visitor `X64Backend::visit_*`, by the class of the node. -/
def visit (b : X64Backend) : AST.Node → X64Assembler → Except Exn X64Assembler
  | .Literal value_, x64 => .ok (x64.emit [.emit_call (.exec_literal value_)])
  | .Symbol namei_, x64 => .ok (x64.emit [.emit_call (.exec_symbol namei_)])
  | .Builtin value_, x64 => .ok (x64.emit [.emit_call (.exec_builtin value_)])
  | .Let symbol_ expression_, x64 => do
    let x64 ← visit b expression_ x64
    pure (x64.emit [.emit_call (.exec_let symbol_)])
  | .Local index_, x64 => .ok (x64.emit [.emit_call (.exec_local index_)])
  | .Global initialized_ value_ namei_, x64 =>
    .ok (x64.emit [.emit_call (.exec_global initialized_ value_ namei_)])
  | .Do statements_, x64 => visit_do b statements_ x64
  | .Branch condition_ trueBranch_ falseBranch_, x64 => do
    let false_branch_label := x64.labels + 1
    let end_label := x64.labels + 2
    let x64 ← visit b condition_ { x64 with labels := x64.labels + 2 }
    let x64 := x64.emit [.emit_call .exec_bool, .test_rax_rax, .jz false_branch_label]
    let x64 ← visit b trueBranch_ x64
    let x64 := x64.emit [.jmp_rel end_label, .bind false_branch_label]
    let x64 ← visit b falseBranch_ x64
    pure (x64.emit [.bind end_label])
  | .Return expression_, x64 =>
    if b.return_label = 0 then .error .undefined
    else do
      let x64 ← visit b expression_ x64
      pure (x64.emit [.jmp_rel b.return_label])
  | .Recur arguments_, x64 =>
    if b.current_function_.isNone ∨ b.recur_label = 0 then .error .undefined
    else do
      let exec_recur_label := x64.labels + 1
      let x64 ← visit_arguments b arguments_ { x64 with labels := x64.labels + 1 }
      let x64 := x64.emit [.emit_call .exec_check_defers, .test_rax_rax, .jz exec_recur_label]
      let x64 ← b.visit_exec_defers x64
      pure (x64.emit [.emit_call .exec_pop, .bind exec_recur_label,
        .emit_call (.exec_recur ⟨arguments_.length⟩), .jmp_rel b.recur_label])
  | .Function function freevars_, x64 =>
    .ok (x64.emit [.emit_call (.exec_function function freevars_)])
  | .Apply addr throws_ target_ callable_ arguments_, x64 =>
    if ¬ b.apply_asserts then .error .undefined
    else do
      let apply_label := x64.labels + 1
      let check_return_label := x64.labels + 2
      let end_label := x64.labels + 3
      let exit_label := x64.labels + 4
      let x64 ← visit b callable_ { x64 with labels := x64.labels + 4 }
      let x64 ← visit_arguments b arguments_ x64
      pure (b.apply_call ⟨addr, arguments_.length, throws_, target_⟩ apply_label
        check_return_label end_label exit_label x64)
/-- The loop of `visit_do`: `exec_pop` is emitted after every statement but
the last; no statement, no code. -/
def visit_do (b : X64Backend) : List AST.Node → X64Assembler → Except Exn X64Assembler
  | [], x64 => .ok x64
  | statement :: rest, x64 => do
    let x64 ← visit b statement x64
    visit_do b rest (if rest.isEmpty then x64 else x64.emit [.emit_call .exec_pop])
/-- The loop over `arguments_` in `visit_apply` and in `visit_recur`. -/
def visit_arguments (b : X64Backend) : List AST.Node → X64Assembler → Except Exn X64Assembler
  | [], x64 => .ok x64
  | argument :: rest, x64 => do
    let x64 ← visit b argument x64
    visit_arguments b rest x64
end

end X64Backend

namespace X64

/-- The method a `MethodImpl` points to, as the code behind `apply.target_`. -/
abbrev Methods := MethodImpl → FiberImpl → AST.Apply → Except Exn Outcome

/-- The call of a helper: the fiber afterwards and, for a helper that returns
a number, the value it leaves in `rax`. -/
def exec_call (env : HelperEnv) (fbr : FiberImpl) : Call → Except Exn (FiberImpl × Option Int)
  | .exec_literal value_ => do pure (← fbr.exec_literal value_, none)
  | .exec_symbol namei_ => do pure (← fbr.exec_symbol env namei_, none)
  | .exec_builtin value_ => do pure (← fbr.exec_builtin value_, none)
  | .exec_let namei_ => do pure (← fbr.exec_let env namei_, none)
  | .exec_local index_ => do pure (← fbr.exec_local index_, none)
  | .exec_global initialized_ value_ namei_ => do
    pure (← fbr.exec_global env initialized_ value_ namei_, none)
  | .exec_pop => do pure (← fbr.exec_pop, none)
  | .exec_bool => do
    let (fbr, result) ← fbr.exec_bool env
    pure (fbr, some (if result then 1 else 0))
  | .exec_function function freevars_ => do
    pure (← fbr.exec_function env function freevars_, none)
  | .exec_check_defers => do
    let result ← fbr.exec_check_defers
    pure (fbr, some result)
  | .exec_recur recur => do pure (← fbr.exec_recur recur, none)

/-- How control left the emitted code: by a jump to a label that is bound
elsewhere (the `return_label` or the `recur_label` of the function), or
through the exit thunk. -/
inductive Left where
  | jump (label : Nat)
  | exit_thunk (exit_code : Int)
  deriving DecidableEq, Repr

/-- The state the emitted code runs on: the fiber in `rbx`, the `target_` that
was stored into the call site at an address, `rax`, the flags `ZF` and `SF`,
and the place in the code. -/
structure State where
  fbr : FiberImpl
  target_ : Nat → Option MethodImpl
  rax : Int
  zf : Bool
  sf : Bool
  pc : Nat
  left : Option Left

/-- The state at the head of the code. -/
def State.start (fbr : FiberImpl) : State := ⟨fbr, fun _ => none, 0, false, false, 0, none⟩

/-- The place of the first `bind` of `label` in the code. -/
def find_label (label : Nat) : List Instr → Option Nat
  | [] => none
  | .bind l :: rest => if l = label then some 0 else (find_label label rest).map (· + 1)
  | _ :: rest => (find_label label rest).map (· + 1)

/-- The call through `apply.target_`: the method that `target_` points to by
now runs and may store another target into the call site. -/
def call_target (methods : Methods) (fbr : FiberImpl) (target_ : Nat → Option MethodImpl)
    (apply : AST.Apply) : Except Exn (FiberImpl × (Nat → Option MethodImpl) × Int) := do
  let target := (target_ apply.addr).getD apply.target_
  let (fbr, apply1, rax) ← methods target fbr (apply.set_target target)
  pure (fbr, Function.update target_ apply.addr (some apply1.target_), rax)

/-- A jump to `label`. -/
def goto (code : List Instr) (m : State) (label : Nat) : State :=
  match find_label label code with
  | some i => { m with pc := i }
  | none => { m with pc := code.length, left := some (.jump label) }

/-- One instruction. A helper that returns nothing leaves `rax` as it is (the
code does not read it). -/
def step (env : HelperEnv) (methods : Methods) (code : List Instr) (m : State) :
    Except Exn State :=
  match code.get? m.pc with
  | none => .ok m
  | some (.emit_call call) => do
    let (fbr, rax) ← exec_call env m.fbr call
    pure { m with fbr := fbr, rax := rax.getD m.rax, pc := m.pc + 1 }
  | some (.call_target apply) => do
    let (fbr, target_, rax) ← call_target methods m.fbr m.target_ apply
    pure { m with fbr := fbr, target_ := target_, rax := rax, pc := m.pc + 1 }
  | some (.call_exit_thunk _) => .ok { m with pc := code.length, left := some (.exit_thunk m.rax) }
  | some .test_rax_rax =>
    .ok { m with zf := decide (m.rax = 0), sf := decide (m.rax < 0), pc := m.pc + 1 }
  | some .cmp_rax_1 =>
    .ok { m with zf := decide (m.rax = 1), sf := decide (wrap64 (m.rax - 1) < 0), pc := m.pc + 1 }
  | some (.jz label) => .ok (if m.zf then goto code m label else { m with pc := m.pc + 1 })
  | some (.js label) => .ok (if m.sf then goto code m label else { m with pc := m.pc + 1 })
  | some (.jmp_rel label) => .ok (goto code m label)
  | some (.bind _) => .ok { m with pc := m.pc + 1 }

/-- The code runs until control is past its last instruction or has left it;
`diverges` when this has not happened after `fuel` instructions. -/
def run (env : HelperEnv) (methods : Methods) (code : List Instr) : Nat → State → Except Exn State
  | 0, m => if m.pc < code.length then .error .diverges else .ok m
  | fuel + 1, m =>
    if m.pc < code.length then do
      let m1 ← step env methods code m
      run env methods code fuel m1
    else .ok m

end X64

end park

namespace park

/-! ## The stack effect of the code of an expression -/

namespace AST

mutual
/-- The node has no `Return` and no `Recur` in it, and each `Do` in it has a
statement. -/
def Node.plain : Node → Bool
  | .Let _ expression_ => expression_.plain
  | .Do statements_ => !statements_.isEmpty && Node.plain_list statements_
  | .Branch condition_ trueBranch_ falseBranch_ =>
    condition_.plain && trueBranch_.plain && falseBranch_.plain
  | .Return _ => false
  | .Recur _ => false
  | .Apply _ _ _ callable_ arguments_ => callable_.plain && Node.plain_list arguments_
  | _ => true
/-- Every node of the list is `plain`. -/
def Node.plain_list : List Node → Bool
  | [] => true
  | node :: rest => node.plain && Node.plain_list rest
end

mutual
/-- The number of `exec_pop` calls the specification gives the code of a node:
a `Do` of `n` statements adds `n - 1` to those of its statements. -/
def Node.pops : Node → Nat
  | .Let _ expression_ => expression_.pops
  | .Do statements_ => Node.pops_list statements_ + (statements_.length - 1)
  | .Branch condition_ trueBranch_ falseBranch_ =>
    condition_.pops + trueBranch_.pops + falseBranch_.pops
  | .Return expression_ => expression_.pops
  | .Recur arguments_ => Node.pops_list arguments_
  | .Apply _ _ _ callable_ arguments_ => callable_.pops + Node.pops_list arguments_
  | _ => 0
/-- The sum of `pops` over a list of nodes. -/
def Node.pops_list : List Node → Nat
  | [] => 0
  | node :: rest => node.pops + Node.pops_list rest
end

mutual
/-- The names of the symbols of the `Let` nodes in a node. -/
def Node.lets : Node → List Nat
  | .Let symbol_ expression_ => symbol_ :: expression_.lets
  | .Do statements_ => Node.lets_list statements_
  | .Branch condition_ trueBranch_ falseBranch_ =>
    condition_.lets ++ trueBranch_.lets ++ falseBranch_.lets
  | .Return expression_ => expression_.lets
  | .Recur arguments_ => Node.lets_list arguments_
  | .Apply _ _ _ callable_ arguments_ => callable_.lets ++ Node.lets_list arguments_
  | _ => []
/-- The names of the symbols of the `Let` nodes in a list of nodes. -/
def Node.lets_list : List Node → List Nat
  | [] => []
  | node :: rest => node.lets ++ Node.lets_list rest
end

end AST

namespace X64

/-- The labels bound in a piece of code. -/
def binds : List Instr → List Nat
  | [] => []
  | .bind label :: rest => label :: binds rest
  | _ :: rest => binds rest

/-- The number of `exec_pop` calls in a piece of code. -/
def pops : List Instr → Nat
  | [] => 0
  | .emit_call .exec_pop :: rest => pops rest + 1
  | _ :: rest => pops rest

/-- The fiber together with the targets stored into the call sites. -/
abbrev World := FiberImpl × (Nat → Option MethodImpl)

mutual
/-- The effect the specification gives the code of a node, in its words:
`Literal`, `Symbol`, `Local`, `Global`, `Builtin` and `Function` push one slot;
`Let` evaluates its expression and copies the top slot into the local without
popping; `Do` evaluates its statements with a pop after each but the last;
`Branch` evaluates and pops the condition and evaluates one arm; `Apply`
evaluates the callable and the arguments and calls the target. `Return` and
`Recur` are not described. -/
def described_effect (env : HelperEnv) (methods : Methods) : AST.Node → World → Except Exn World
  | .Literal value_, w => do pure (← w.1.exec_literal value_, w.2)
  | .Symbol namei_, w => do pure (← w.1.exec_symbol env namei_, w.2)
  | .Builtin value_, w => do pure (← w.1.exec_builtin value_, w.2)
  | .Let symbol_ expression_, w => do
    let w ← described_effect env methods expression_ w
    pure (← w.1.exec_let env symbol_, w.2)
  | .Local index_, w => do pure (← w.1.exec_local index_, w.2)
  | .Global initialized_ value_ namei_, w => do
    pure (← w.1.exec_global env initialized_ value_ namei_, w.2)
  | .Do statements_, w => described_effect_do env methods statements_ w
  | .Branch condition_ trueBranch_ falseBranch_, w => do
    let w ← described_effect env methods condition_ w
    let (fbr, condition) ← w.1.exec_bool env
    if condition then described_effect env methods trueBranch_ (fbr, w.2)
    else described_effect env methods falseBranch_ (fbr, w.2)
  | .Return _, _ => .error .undefined
  | .Recur _, _ => .error .undefined
  | .Function function freevars_, w => do
    pure (← w.1.exec_function env function freevars_, w.2)
  | .Apply addr throws_ target_ callable_ arguments_, w => do
    let w ← described_effect env methods callable_ w
    let w ← described_effect_arguments env methods arguments_ w
    let (fbr, targets, _) ←
      call_target methods w.1 w.2 ⟨addr, arguments_.length, throws_, target_⟩
    pure (fbr, targets)
/-- The statements of a `Do` in turn, with a pop after each but the last. -/
def described_effect_do (env : HelperEnv) (methods : Methods) :
    List AST.Node → World → Except Exn World
  | [], w => .ok w
  | statement :: rest, w => do
    let w ← described_effect env methods statement w
    if rest.isEmpty then pure w
    else do
      let fbr ← w.1.exec_pop
      described_effect_do env methods rest (fbr, w.2)
/-- The arguments of an `Apply` in turn. -/
def described_effect_arguments (env : HelperEnv) (methods : Methods) :
    List AST.Node → World → Except Exn World
  | [], w => .ok w
  | argument :: rest, w => do
    let w ← described_effect env methods argument w
    described_effect_arguments env methods rest w
end

/-- Every method that returns, returns 0 and has replaced the callable and the
arguments by one result, with the frames as they were. -/
def returns_result (methods : Methods) : Prop :=
  ∀ (target : MethodImpl) (fbr : FiberImpl) (apply : AST.Apply) (out : Outcome),
    methods target fbr apply = .ok out →
      out.2.2 = 0 ∧ out.1.frame_stack = fbr.frame_stack ∧
        ∃ result, out.1.stack.slots =
          fbr.stack.slots.take (fbr.stack.size - (apply.argument_count + 1)) ++ [result]

/-- From `m`, the code runs as `effect` tells: within `bound` instructions
either a helper has raised what `effect` raises, or control is at `pc` with the
fiber and the targets `effect` gives. -/
def runs_as (env : HelperEnv) (methods : Methods) (code : List Instr) (m : State)
    (bound : Nat) (effect : Except Exn World) (pc : Nat) : Prop :=
  ∃ k, k ≤ bound ∧ ∃ (rax : Int) (zf sf : Bool), ∀ fuel,
    run env methods code (fuel + k) m =
      effect.bind (fun w => run env methods code fuel ⟨w.1, w.2, rax, zf, sf, pc, none⟩)

/-- Slot `i` is a local that a `Let` with a name of `lets` writes in the
current frame. -/
def let_slot (env : HelperEnv) (frame_stack : List frame_stack_t) (lets : List Nat) (i : Nat) :
    Prop :=
  ∃ frame frames function_ namei_ local_index, frame_stack = frame :: frames ∧
    namei_ ∈ lets ∧ env.local_index function_ namei_ = some local_index ∧
    frame.base + local_index = i

/-- The slots below `s` are in `new_slots` what they are in `old_slots`,
except for locals written by a `Let`. -/
def unchanged_below (env : HelperEnv) (frame_stack : List frame_stack_t) (lets : List Nat)
    (s : Nat) (old_slots new_slots : List value_t) : Prop :=
  ∀ i, i < s → new_slots.get? i = old_slots.get? i ∨ let_slot env frame_stack lets i

/-- From `w` to `w1` the value stack has grown by `k` slots, the frames are as
they were, and the slots that were there are unchanged, except for locals
written by a `Let` with a name of `lets`. -/
def stack_effect (env : HelperEnv) (lets : List Nat) (k : Nat) (w w1 : World) : Prop :=
  w1.1.frame_stack = w.1.frame_stack ∧
    w1.1.stack.slots.length = w.1.stack.slots.length + k ∧
    unchanged_below env w.1.frame_stack lets w.1.stack.slots.length w.1.stack.slots
      w1.1.stack.slots

end X64

end park

namespace park

/-- A helper environment in which the name 5 is the local with index 2 in
every function and no symbol, global or free variable is found. -/
def example_helper_env : HelperEnv :=
  ⟨fun _ _ => .ok none, fun _ namei_ => if namei_ = 5 then some 2 else none, fun _ => none,
    fun _ _ => .error (.not_implemented "to_bool")⟩

/-- The backend while it compiles the function at address 7, which has one
parameter and one local: `compile` has taken the labels 1 to 4, the third for
`return_label` and the fourth for `recur_label`. -/
def example_backend : X64Backend :=
  ⟨3, 4, some 9, some ⟨7, 1, 1⟩, ⟨666, 1, true, .exec_dispatch⟩, 100, 101⟩

/-- Every method answers 42 through `Frame::result`. -/
def example_methods : X64.Methods := fun _ fbr apply => Frame.result fbr apply (.IVALUE 42)

/-- A fiber inside a call of the function at address 7: the closure, the
argument 1 and the local, in a frame with base 0. -/
def example_frame_fiber : FiberImpl :=
  ⟨⟨[.RVALUE (.Closure 7), .IVALUE 1, .UVALUE], 32, true⟩,
    [⟨⟨1, 1, true, .exec_dispatch⟩, 0, 1, 1, none⟩], [0]⟩

/-- A body whose last statement is a tail call: a `Do` with a `Recur` in it. -/
def example_recur_body : AST.Node := .Do [.Recur [.Literal (.IVALUE 5)]]

/-- The code of `example_recur_body`. -/
def example_recur_code : List X64.Instr :=
  [.emit_call (.exec_literal (.IVALUE 5)), .emit_call .exec_check_defers, .test_rax_rax, .jz 5,
    .emit_call (.exec_symbol 100), .emit_call (.exec_symbol 101),
    .bind 6, .call_target ⟨666, 1, true, .exec_dispatch⟩, .test_rax_rax, .jz 8, .js 6,
    .jmp_rel 7, .bind 9, .call_exit_thunk ⟨666, 1, true, .exec_dispatch⟩, .bind 7, .cmp_rax_1,
    .js 8, .jz 3, .jmp_rel 9, .bind 8,
    .emit_call .exec_pop, .bind 5, .emit_call (.exec_recur ⟨1⟩), .jmp_rel 4]

/-- A body without `Return` and `Recur`: a `Let` of the local, then a `Branch`
on the local with a call of two arguments in its first arm. -/
def example_plain_body : AST.Node :=
  .Do [.Let 5 (.Literal (.IVALUE 3)),
    .Branch (.Local 2)
      (.Apply 50 true (.other 0) (.Builtin (.RVALUE (.Builtin 0)))
        [.Literal (.IVALUE 1), .Local 1])
      (.Literal (.IVALUE 9))]

/-- The code of `example_plain_body`. -/
def example_plain_code : List X64.Instr :=
  [.emit_call (.exec_literal (.IVALUE 3)), .emit_call (.exec_let 5), .emit_call .exec_pop,
    .emit_call (.exec_local 2), .emit_call .exec_bool, .test_rax_rax, .jz 5,
    .emit_call (.exec_builtin (.RVALUE (.Builtin 0))), .emit_call (.exec_literal (.IVALUE 1)),
    .emit_call (.exec_local 1),
    .bind 7, .call_target ⟨50, 2, true, .other 0⟩, .test_rax_rax, .jz 9, .js 7, .jmp_rel 8,
    .bind 10, .call_exit_thunk ⟨50, 2, true, .other 0⟩, .bind 8, .cmp_rax_1, .js 9, .jz 3,
    .jmp_rel 10, .bind 9,
    .jmp_rel 6, .bind 5, .emit_call (.exec_literal (.IVALUE 9)), .bind 6]

end park

namespace park

/-! ## The value stack -/

theorem Stack.copy_slots_length (n : Nat) : ∀ (xs : List value_t) (first d : Nat),
    (Stack.copy_slots xs first d n).length = xs.length := by
  induction n with
  | zero => intro xs first d; rfl
  | succ n ih => intro xs first d; simp [Stack.copy_slots, ih]

theorem Stack.copy_slots_getElem? (n : Nat) : ∀ (xs : List value_t) (first d i : Nat),
    d + n ≤ first → first + n ≤ xs.length →
    (Stack.copy_slots xs first d n)[i]? =
      if d ≤ i ∧ i < d + n then xs[first + (i - d)]? else xs[i]? := by
  induction n with
  | zero =>
    intro xs first d i _ _
    rw [if_neg (by omega)]
    rfl
  | succ n ih =>
    intro xs first d i h1 h2
    have hf : first < xs.length := by omega
    simp only [Stack.copy_slots]
    rw [ih _ _ _ _ (by omega) (by simpa using by omega)]
    simp only [List.getElem?_set, List.getD_eq_getElem?_getD]
    by_cases hi : d = i
    · subst hi
      have h3 : ¬ (d + 1 ≤ d ∧ d < d + 1 + n) := by omega
      have h4 : d ≤ d ∧ d < d + (n + 1) := by omega
      have h5 : d < xs.length := by omega
      rw [if_neg h3, if_pos h4, if_pos rfl, if_pos h5]
      simp [List.getElem?_eq_getElem hf]
    · by_cases h3 : d + 1 ≤ i ∧ i < d + 1 + n
      · have h4 : d ≤ i ∧ i < d + (n + 1) := by omega
        have h5 : ¬ d = first + 1 + (i - (d + 1)) := by omega
        have h6 : first + 1 + (i - (d + 1)) = first + (i - d) := by omega
        rw [if_pos h3, if_pos h4, if_neg h5, h6]
      · have h4 : ¬ (d ≤ i ∧ i < d + (n + 1)) := by omega
        rw [if_neg h3, if_neg h4, if_neg hi]

theorem Stack.copy_slots_frame (pre : List value_t) (c : value_t)
    (args locals newargs : List value_t) (hn : newargs.length = args.length) :
    List.take (pre.length + 1 + args.length + locals.length)
      (Stack.copy_slots (pre ++ c :: args ++ locals ++ newargs)
        (pre.length + 1 + args.length + locals.length) (pre.length + 1) args.length)
      = pre ++ c :: newargs ++ locals := by
  have e3 : pre ++ c :: args ++ locals ++ newargs
      = pre ++ ([c] ++ (args ++ (locals ++ newargs))) := by simp
  have e4 : pre ++ c :: newargs ++ locals = pre ++ ([c] ++ (newargs ++ locals)) := by simp
  rw [e3, e4]
  apply List.ext_getElem?
  intro i
  rw [List.getElem?_take]
  rw [Stack.copy_slots_getElem? _ _ _ _ _ (by omega) (by simp; omega)]
  by_cases h1 : i < pre.length + 1 + args.length + locals.length
  · rw [if_pos h1]
    simp only [List.getElem?_append, List.length_append, List.length_singleton]
    split_ifs <;> first | omega | rfl | (congr 1; omega)
  · rw [if_neg h1]
    symm
    rw [List.getElem?_eq_none_iff]
    simp; omega

/-- What `Stack::recur` does to a frame laid out as callable, arguments,
locals and freshly pushed arguments. -/
theorem Stack.recur_frame (s : Stack) (pre : List value_t) (c : value_t)
    (args locals newargs : List value_t)
    (hs : s.slots = pre ++ c :: args ++ locals ++ newargs)
    (hn : newargs.length = args.length) :
    s.recur args.length locals.length
      = .ok { s with slots := pre ++ c :: newargs ++ locals } := by
  have hlen : s.slots.length = pre.length + 1 + args.length + locals.length + args.length := by
    simp [hs, hn]; omega
  unfold Stack.recur Stack.size
  rw [if_pos (by omega)]
  have e1 : s.slots.length - args.length = pre.length + 1 + args.length + locals.length := by omega
  have e2 : s.slots.length - 2 * args.length - locals.length = pre.length + 1 := by omega
  simp only [e1, e2]
  rw [hs, Stack.copy_slots_frame pre c args locals newargs hn]

end park

namespace park

theorem Stack.ensure_capacity_slots (s s1 : Stack) (n : Nat) (h : s.ensure_capacity n = .ok s1) :
    s1.slots = s.slots ∧ s1.chunk_ = true ∧ s1.capacity ≤ Stack.MAX_CAP := by
  unfold Stack.ensure_capacity at h
  simp only [] at h
  split at h
  · simp at h
  · rename_i nc _
    by_cases hm : nc > Stack.MAX_CAP
    · simp [hm] at h
    · simp only [hm, if_false, Except.ok.injEq] at h
      subst h
      exact ⟨rfl, rfl, by simpa using hm⟩

theorem Stack.ensure_capacity_eq (s : Stack) (n : Nat) (h : s.size + n < 2 ^ 64) :
    s.ensure_capacity n =
      match Stack.grow_loop 64 (if s.chunk_ then s.capacity else Stack.INIT_CAP) (s.size + n) with
      | none => .error .diverges
      | some next_capacity =>
        if next_capacity > Stack.MAX_CAP then .error .bad_alloc
        else .ok ⟨s.slots, next_capacity, true⟩ := by
  unfold Stack.ensure_capacity
  simp only [Nat.mod_eq_of_lt h]

theorem Stack.push_back_slots (s s1 : Stack) (v : value_t) (h : s.push_back v = .ok s1) :
    s1.slots = s.slots ++ [v] := by
  unfold Stack.push_back at h
  by_cases hc : s.size = s.capacity
  · simp only [hc, if_true] at h
    cases he : s.ensure_capacity 1 with
    | error e => simp [he, bind, Except.bind] at h
    | ok s2 =>
      simp only [he, bind, Except.bind, pure, Except.pure, Except.ok.injEq] at h
      subst h
      simp [(Stack.ensure_capacity_slots s s2 1 he).1]
  · simp only [hc, if_false, bind, Except.bind, pure, Except.pure] at h
    cases h; rfl

theorem Stack.push_back_ok (s : Stack) (v : value_t) (hw : s.wf) (hlt : s.size < Stack.MAX_CAP) :
    ∃ s1, s.push_back v = .ok s1 ∧ s1.wf := by
  obtain ⟨h1, h2⟩ := hw
  have hmod : s.size + 1 < 2 ^ 64 := by
    unfold Stack.MAX_CAP at hlt
    omega
  unfold Stack.push_back
  by_cases hc : s.size = s.capacity
  · simp only [hc, if_true]
    rw [Stack.ensure_capacity_eq s 1 hmod]
    cases hk : s.chunk_ with
    | false =>
      simp only [hk, Bool.false_eq_true, if_false] at h2 ⊢
      have h0 : s.size = 0 := by omega
      refine ⟨⟨s.slots ++ [v], 32, true⟩, ?_, ?_⟩
      · simp [Stack.grow_loop, Stack.INIT_CAP, Stack.MAX_CAP, h0, bind, Except.bind, pure, Except.pure]
      · simp [Stack.wf, Stack.size] at h0 ⊢
        simp [h0]
    | true =>
      simp only [hk, if_true] at h2 ⊢
      unfold Stack.MAX_CAP at hlt
      refine ⟨⟨s.slots ++ [v], s.capacity * 2, true⟩, ?_, ?_⟩
      · have hg : Stack.grow_loop 64 s.capacity (s.size + 1) = some (s.capacity * 2) := by
          simp only [List.mem_cons, List.mem_singleton, List.not_mem_nil, or_false] at h2
          rcases h2 with h | h | h | h | h | h | h | h <;>
            simp [Stack.grow_loop, Stack.MAX_CAP, h, hc]
        rw [hg]
        have : ¬ s.capacity * 2 > Stack.MAX_CAP := by
          simp only [List.mem_cons, List.mem_singleton, List.not_mem_nil, or_false] at h2
          unfold Stack.MAX_CAP
          omega
        simp [this, bind, Except.bind, pure, Except.pure]
      · simp only [List.mem_cons, List.mem_singleton, List.not_mem_nil, or_false] at h2
        have hsz : s.slots.length = s.capacity := hc
        refine ⟨?_, ?_⟩
        · simp only [Stack.size, List.length_append, List.length_singleton]
          omega
        · simp only [if_true, List.mem_cons, List.mem_singleton, List.not_mem_nil, or_false]
          simp only [Stack.size] at hlt
          omega
  · refine ⟨{ s with slots := s.slots ++ [v] }, ?_, ?_⟩
    · simp [hc, bind, Except.bind, pure, Except.pure]
    · refine ⟨?_, ?_⟩
      · simp [Stack.size] at *; omega
      · exact h2

theorem FiberImpl.push_arguments_slots (vs : List value_t) : ∀ (s s1 : Stack),
    FiberImpl.push_arguments s vs = .ok s1 → s1.slots = s.slots ++ vs := by
  induction vs with
  | nil => intro s s1 h; simp [FiberImpl.push_arguments] at h; simp [h]
  | cons v vs ih =>
    intro s s1 h
    simp only [FiberImpl.push_arguments, bind, Except.bind] at h
    cases hp : s.push_back v with
    | error e => simp [hp] at h
    | ok s2 =>
      simp only [hp] at h
      rw [ih s2 s1 h, Stack.push_back_slots s s2 v hp]
      simp

theorem FiberImpl.push_arguments_ok (vs : List value_t) : ∀ (s : Stack),
    s.wf → s.size + vs.length ≤ Stack.MAX_CAP →
    ∃ s1, FiberImpl.push_arguments s vs = .ok s1 ∧ s1.wf := by
  induction vs with
  | nil => intro s hw _; exact ⟨s, rfl, hw⟩
  | cons v vs ih =>
    intro s hw hle
    simp only [List.length_cons] at hle
    obtain ⟨s2, hp, hw2⟩ := Stack.push_back_ok s v hw (by omega)
    have hs2 : s2.size = s.size + 1 := by
      simp [Stack.size, Stack.push_back_slots s s2 v hp]
    obtain ⟨s1, h1, hw1⟩ := ih s2 hw2 (by omega)
    exact ⟨s1, by simp [FiberImpl.push_arguments, hp, bind, Except.bind, h1], hw1⟩

end park

namespace park

/-- The shape of a fiber between two tail calls: the frame on top of the frame
stack has base `pre.length`, the stack holds `pre`, the callable `c`, the
arguments and the locals. -/
theorem FiberImpl.recur_step_shape (fbr fbr1 : FiberImpl) (pre : List value_t) (c : value_t)
    (args locals newargs : List value_t) (frame : frame_stack_t) (frames : List frame_stack_t)
    (hs : fbr.stack.slots = pre ++ c :: args ++ locals)
    (hf : fbr.frame_stack = frame :: frames)
    (ha : frame.argument_count = args.length) (hl : frame.local_count = locals.length)
    (hn : newargs.length = args.length)
    (h : fbr.recur_step newargs = .ok fbr1) :
    fbr1.stack.slots = pre ++ c :: newargs ++ locals ∧
      fbr1.frame_stack = { frame with defers := none } :: frames := by
  simp only [FiberImpl.recur_step, bind, Except.bind] at h
  cases hp : FiberImpl.push_arguments fbr.stack newargs with
  | error e => simp [hp] at h
  | ok s1 =>
    simp only [hp] at h
    have hs1 := FiberImpl.push_arguments_slots newargs fbr.stack s1 hp
    rw [hs] at hs1
    simp only [FiberImpl.exec_recur, hf, hn, ha, ne_eq, not_true_eq_false, if_false, hl,
      bind, Except.bind] at h
    rw [Stack.recur_frame s1 pre c args locals newargs hs1 hn] at h
    simp only [pure, Except.pure] at h
    cases h
    refine ⟨rfl, ?_⟩
    simp only [ha, hl]

theorem FiberImpl.recur_steps_shape (argss : List (List value_t)) :
    ∀ (fbr fbr1 : FiberImpl) (pre : List value_t) (c : value_t)
      (args locals : List value_t) (frame : frame_stack_t) (frames : List frame_stack_t),
    fbr.stack.slots = pre ++ c :: args ++ locals →
    fbr.frame_stack = frame :: frames →
    frame.argument_count = args.length → frame.local_count = locals.length →
    (∀ a ∈ argss, a.length = args.length) →
    fbr.recur_steps argss = .ok fbr1 →
    fbr1.stack.size = fbr.stack.size ∧ fbr1.frame_stack.length = fbr.frame_stack.length := by
  induction argss with
  | nil =>
    intro fbr fbr1 pre c args locals frame frames _ _ _ _ _ h
    simp only [FiberImpl.recur_steps] at h
    cases h
    exact ⟨rfl, rfl⟩
  | cons a argss ih =>
    intro fbr fbr1 pre c args locals frame frames hs hf ha hl hall h
    simp only [FiberImpl.recur_steps, bind, Except.bind] at h
    cases hstep : fbr.recur_step a with
    | error e => simp [hstep] at h
    | ok fbr2 =>
      simp only [hstep] at h
      have hlen : a.length = args.length := hall a (by simp)
      obtain ⟨hs2, hf2⟩ := FiberImpl.recur_step_shape fbr fbr2 pre c args locals a frame frames
        hs hf ha hl hlen hstep
      obtain ⟨r1, r2⟩ := ih fbr2 fbr1 pre c a locals { frame with defers := none } frames
        hs2 hf2 (by simp [ha, hlen]) (by simp [hl])
        (fun b hb => by rw [hall b (by simp [hb]), hlen]) h
      refine ⟨?_, ?_⟩
      · rw [r1]; simp [Stack.size, hs2, hs, hlen]
      · rw [r2, hf2, hf]; rfl

theorem FiberImpl.recur_step_ok (fbr : FiberImpl) (pre : List value_t) (c : value_t)
    (args locals newargs : List value_t) (frame : frame_stack_t) (frames : List frame_stack_t)
    (hs : fbr.stack.slots = pre ++ c :: args ++ locals)
    (hf : fbr.frame_stack = frame :: frames)
    (ha : frame.argument_count = args.length) (hl : frame.local_count = locals.length)
    (hn : newargs.length = args.length)
    (hw : fbr.stack.wf) (hcap : fbr.stack.size + args.length ≤ Stack.MAX_CAP) :
    ∃ fbr1, fbr.recur_step newargs = .ok fbr1 ∧ fbr1.stack.wf := by
  obtain ⟨s1, hp, hw1⟩ := FiberImpl.push_arguments_ok newargs fbr.stack hw (by omega)
  have hs1 := FiberImpl.push_arguments_slots newargs fbr.stack s1 hp
  rw [hs] at hs1
  refine ⟨{ fbr with stack := { s1 with slots := pre ++ c :: newargs ++ locals },
                     frame_stack := { frame with defers := none } :: frames }, ?_, ?_⟩
  · simp only [FiberImpl.recur_step, bind, Except.bind, hp, FiberImpl.exec_recur, hf, hn, ha,
      ne_eq, not_true_eq_false, if_false, hl]
    rw [Stack.recur_frame s1 pre c args locals newargs hs1 hn]
    rfl
  · obtain ⟨w1, w2⟩ := hw1
    refine ⟨?_, w2⟩
    simp only [Stack.size] at w1 ⊢
    rw [hs1] at w1
    simp at w1 ⊢
    omega

theorem FiberImpl.recur_steps_ok (argss : List (List value_t)) :
    ∀ (fbr : FiberImpl) (pre : List value_t) (c : value_t)
      (args locals : List value_t) (frame : frame_stack_t) (frames : List frame_stack_t),
    fbr.stack.slots = pre ++ c :: args ++ locals →
    fbr.frame_stack = frame :: frames →
    frame.argument_count = args.length → frame.local_count = locals.length →
    (∀ a ∈ argss, a.length = args.length) →
    fbr.stack.wf → fbr.stack.size + args.length ≤ Stack.MAX_CAP →
    ∃ fbr1, fbr.recur_steps argss = .ok fbr1 := by
  induction argss with
  | nil => intro fbr _ _ _ _ _ _ _ _ _ _ _ _ _; exact ⟨fbr, rfl⟩
  | cons a argss ih =>
    intro fbr pre c args locals frame frames hs hf ha hl hall hw hcap
    have hlen : a.length = args.length := hall a (by simp)
    obtain ⟨fbr2, hstep, hw2⟩ := FiberImpl.recur_step_ok fbr pre c args locals a frame frames
      hs hf ha hl hlen hw hcap
    obtain ⟨hs2, hf2⟩ := FiberImpl.recur_step_shape fbr fbr2 pre c args locals a frame frames
      hs hf ha hl hlen hstep
    have hsz : fbr2.stack.size = fbr.stack.size := by simp [Stack.size, hs2, hs, hlen]
    obtain ⟨fbr1, h1⟩ := ih fbr2 pre c a locals { frame with defers := none } frames
      hs2 hf2 (by simp [ha, hlen]) (by simp [hl])
      (fun b hb => by rw [hall b (by simp [hb]), hlen]) hw2 (by rw [hsz, hlen]; exact hcap)
    exact ⟨fbr1, by simp [FiberImpl.recur_steps, hstep, bind, Except.bind, h1]⟩

/-- C1: on a frame with base `b`, `a` arguments and `L` locals whose stack
holds `b+1+a+L` slots followed by `a` newly pushed arguments, `Stack::recur`
leaves exactly `b+1+a+L` slots, slot `b+i` holding the `i`-th new argument and
every slot at index `<= b` unchanged, and `exec_recur` keeps the frame-stack
depth; any number of successive tail calls started after the prolog ends with
the value-stack size and frame-stack depth of the prolog, and the calls go
through as long as the arguments fit under the stack bound. -/
theorem C1_recur_constant_stack (fbr0 : FiberImpl) (pre : List value_t) (c : value_t)
    (args locals : List value_t) (frame : frame_stack_t) (frames : List frame_stack_t)
    (hs : fbr0.stack.slots = pre ++ c :: args ++ locals)
    (hf : fbr0.frame_stack = frame :: frames)
    (hb : frame.base = pre.length)
    (ha : frame.argument_count = args.length) (hl : frame.local_count = locals.length) :
    (∀ (newargs : List value_t) (fbr : FiberImpl), newargs.length = frame.argument_count →
        fbr.stack.slots = fbr0.stack.slots ++ newargs → fbr.frame_stack = fbr0.frame_stack →
        ∃ s1 fbr1, fbr.stack.recur frame.argument_count frame.local_count = .ok s1 ∧
          s1.size = frame.base + 1 + frame.argument_count + frame.local_count ∧
          (∀ i, 1 ≤ i → i ≤ frame.argument_count →
            s1.slots[frame.base + i]? = newargs[i - 1]?) ∧
          (∀ i, i ≤ frame.base → s1.slots[i]? = fbr.stack.slots[i]?) ∧
          fbr.exec_recur ⟨newargs.length⟩ = .ok fbr1 ∧ fbr1.stack = s1 ∧
          fbr1.frame_stack.length = fbr.frame_stack.length) ∧
    (∀ (argss : List (List value_t)) (fbr1 : FiberImpl),
        (∀ a ∈ argss, a.length = frame.argument_count) →
        fbr0.recur_steps argss = .ok fbr1 →
        fbr1.stack.size = fbr0.stack.size ∧
          fbr1.frame_stack.length = fbr0.frame_stack.length) ∧
    (∀ (argss : List (List value_t)), (∀ a ∈ argss, a.length = frame.argument_count) →
        fbr0.stack.wf → fbr0.stack.size + frame.argument_count ≤ Stack.MAX_CAP →
        ∃ fbr1, fbr0.recur_steps argss = .ok fbr1 ∧ fbr1.stack.size = fbr0.stack.size ∧
          fbr1.frame_stack.length = fbr0.frame_stack.length) := by
  refine ⟨?_, ?_, ?_⟩
  · intro newargs fbr hn hfs hff
    rw [ha] at hn
    have hs1 : fbr.stack.slots = pre ++ c :: args ++ locals ++ newargs := by rw [hfs, hs]
    have hr := Stack.recur_frame fbr.stack pre c args locals newargs hs1 hn
    refine ⟨_, { fbr with stack := { fbr.stack with slots := pre ++ c :: newargs ++ locals },
                          frame_stack := { frame with defers := none } :: frames }, ?_, ?_, ?_, ?_, ?_, rfl, ?_⟩
    · rw [ha, hl]; exact hr
    · simp [Stack.size, hb, ha, hl, hn]; omega
    · intro i h1 h2
      have e4 : pre ++ c :: newargs ++ locals = pre ++ ([c] ++ (newargs ++ locals)) := by simp
      simp only [e4, hb, List.getElem?_append, List.length_append, List.length_singleton]
      rw [ha] at h2
      split_ifs <;> first | omega | (congr 1; omega)
    · intro i h1
      rw [hs1]
      have e3 : pre ++ c :: args ++ locals ++ newargs
          = pre ++ ([c] ++ (args ++ (locals ++ newargs))) := by simp
      have e4 : pre ++ c :: newargs ++ locals = pre ++ ([c] ++ (newargs ++ locals)) := by simp
      simp only [e3, e4, List.getElem?_append, List.length_append, List.length_singleton]
      rw [hb] at h1
      split_ifs <;> first | omega | rfl
    · simp only [FiberImpl.exec_recur, hff, hf, hn, ha, ne_eq, not_true_eq_false, if_false, hl,
        bind, Except.bind]
      rw [hr]
      rfl
    · rw [hff, hf]; rfl
  · intro argss fbr1 hall h
    exact FiberImpl.recur_steps_shape argss fbr0 fbr1 pre c args locals frame frames hs hf ha hl
      (fun a h1 => by rw [hall a h1, ha]) h
  · intro argss hall hw hcap
    obtain ⟨fbr1, h1⟩ := FiberImpl.recur_steps_ok argss fbr0 pre c args locals frame frames
      hs hf ha hl (fun a h1 => by rw [hall a h1, ha]) hw (by rw [← ha]; exact hcap)
    exact ⟨fbr1, h1, FiberImpl.recur_steps_shape argss fbr0 fbr1 pre c args locals frame frames
      hs hf ha hl (fun a h1 => by rw [hall a h1, ha]) h1⟩

end park

namespace park

/-! ## Function epilog -/

theorem Stack.pop_append (s : Stack) (xs ys : List value_t) (n : Nat)
    (h : s.slots = xs ++ ys) (hn : n = ys.length) :
    s.pop n = .ok { s with slots := xs } := by
  subst hn
  unfold Stack.pop Stack.size
  rw [if_pos (by simp [h])]
  simp [h]

/-- C2: the epilog of a frame with base `b` whose stack holds the callable, the
arguments, the locals and the result on top leaves exactly `b+1` slots with the
result at index `b` and the slots below unchanged, pops one frame record and
its link, and returns 1 exactly when the result is an error value and the call
site is marked as throwing, and 0 in every other case. -/
theorem C2_epilog_unwinds_frame (fbr : FiberImpl) (function : AST.Function)
    (pre : List value_t) (c : value_t) (args locals : List value_t) (result : value_t)
    (frame : frame_stack_t) (frames : List frame_stack_t) (link : Nat) (links : List Nat)
    (hs : fbr.stack.slots = pre ++ c :: args ++ locals ++ [result])
    (hf : fbr.frame_stack = frame :: frames) (hk : fbr.link_stack = link :: links)
    (hb : frame.base = pre.length) (hl : function.local_count = locals.length)
    (hcap : fbr.stack.size ≤ fbr.stack.capacity) :
    ∃ fbr1 ret, fbr.exec_function_epilog function = .ok (fbr1, link, ret) ∧
      fbr1.stack.size = frame.base + 1 ∧
      fbr1.stack.slots[frame.base]? = some result ∧
      (∀ i, i < frame.base → fbr1.stack.slots[i]? = fbr.stack.slots[i]?) ∧
      fbr1.frame_stack = frames ∧ fbr1.link_stack = links ∧
      fbr1.frame_stack.length + 1 = fbr.frame_stack.length ∧
      (ret = 1 ↔ (∃ rvalue, result = .RVALUE rvalue ∧ Error2.is_error rvalue = true) ∧
        frame.apply.throws_ = true) ∧
      (ret ≠ 1 → ret = 0) := by
  have hback : fbr.stack.back = .ok result := by
    have : fbr.stack.slots.getLast? = some result := by
      rw [hs, List.getLast?_append]
      rfl
    simp [Stack.back, this]
  have hpop1 : fbr.stack.pop_back = .ok { fbr.stack with slots := pre ++ c :: args ++ locals } :=
    Stack.pop_append fbr.stack (pre ++ c :: args ++ locals) [result] 1 (by simp [hs]) rfl
  have hpop2 : Stack.pop { fbr.stack with slots := pre ++ c :: args ++ locals }
      function.local_count = .ok { fbr.stack with slots := pre ++ c :: args } :=
    Stack.pop_append _ (pre ++ c :: args) locals _ (by simp) hl
  have hpop3 : Stack.pop_frame { fbr.stack with slots := pre ++ c :: args } frame.base
      = .ok { fbr.stack with slots := pre } := by
    unfold Stack.pop_frame
    rw [if_pos (by simp [Stack.size, hb])]
    exact Stack.pop_append _ pre (c :: args) _ (by simp) (by simp [Stack.size, hb])
  have hpush : Stack.push_back { fbr.stack with slots := pre } result
      = .ok { fbr.stack with slots := pre ++ [result] } := by
    unfold Stack.push_back
    have : ¬ (Stack.size { fbr.stack with slots := pre } = fbr.stack.capacity) := by
      simp only [Stack.size, hs] at hcap ⊢
      simp at hcap
      omega
    simp only [this, if_false]
    rfl
  have hrun : ∀ ret : Int,
      (match result with
        | .RVALUE rvalue =>
          if Error2.is_error rvalue = true ∧ frame.apply.throws_ = true then (1 : Int) else 0
        | _ => 0) = ret →
      fbr.exec_function_epilog function
        = .ok (⟨{ fbr.stack with slots := pre ++ [result] }, frames, links⟩, link, ret) := by
    intro ret hret
    subst hret
    unfold FiberImpl.exec_function_epilog
    simp only [hf, hback, hpop1, hpop2, bind, Except.bind, FiberImpl.pop_frame, hk, hpop3,
      hpush, pure, Except.pure]
    cases result with
    | RVALUE rvalue =>
      by_cases he : Error2.is_error rvalue = true ∧ frame.apply.throws_ = true
      · simp [he]
      · simp only [he, if_false]
    | _ => rfl
  refine ⟨⟨{ fbr.stack with slots := pre ++ [result] }, frames, links⟩, _, hrun _ rfl,
    ?_, ?_, ?_, rfl, rfl, ?_, ?_, ?_⟩
  · simp [Stack.size, hb]
  · simp [hb]
  · intro i hi
    rw [hb] at hi
    simp only [hs]
    have e3 : pre ++ c :: args ++ locals ++ [result]
        = pre ++ (c :: args ++ locals ++ [result]) := by simp
    rw [e3, List.getElem?_append_left hi, List.getElem?_append_left hi]
  · simp [hf]
  · cases result with
    | RVALUE rvalue =>
      by_cases he : Error2.is_error rvalue = true ∧ frame.apply.throws_ = true
      · simp [he]
      · simp only [he, if_false]
        simp only [not_and] at he
        constructor
        · intro h; exact absurd h (by decide)
        · rintro ⟨⟨r, hr, h1⟩, h2⟩
          cases hr
          exact absurd h2 (he h1)
    | _ => simp
  · cases result with
    | RVALUE rvalue =>
      by_cases he : Error2.is_error rvalue = true ∧ frame.apply.throws_ = true
      · simp [he]
      · simp [he]
    | _ => simp

end park

namespace park

/-! ## Function prolog -/

/-- C3 (the code at the failing input): a call site with no argument calling a
closure of a function with one parameter and no local: `exec_function_prolog`
returns 0 and pushes a frame record for the function. -/
theorem C3_prolog_ignores_parameter_count :
    (⟨100, 0, true, .exec_dispatch⟩ : AST.Apply).argument_count
        ≠ (⟨7, 1, 0⟩ : AST.Function).parameters_ ∧
      FiberImpl.exec_function_prolog initialised_runtime
        ⟨⟨[.RVALUE (.Closure 7)], 32, true⟩, [], []⟩ ⟨100, 0, true, .exec_dispatch⟩ ⟨7, 1, 0⟩ 55
      = .ok (⟨⟨[.RVALUE (.Closure 7)], 32, true⟩,
              [⟨⟨100, 0, true, .exec_dispatch⟩, 0, 0, 0, none⟩], [55]⟩,
             ⟨100, 0, true, .exec_dispatch⟩, 0) := by
  constructor
  · decide
  · rfl

/-! ## Binary dispatch -/

/-- C4 (counterexample): on a builtin none of whose tables has an entry, a call
with two arguments of kind `UVALUE` does not raise the operator-not-defined
error; `value_type` raises a runtime error. -/
theorem C4_undefined_argument_counterexample :
    BuiltinBinaryDispatch.created.dispatch ⟨[.RVALUE (.Builtin 9), .UVALUE, .UVALUE], 32, true⟩
        ⟨100, 2, true, .exec_dispatch⟩
      = .error (.runtime_error "unexpected kind in value_type") := by
  rfl

/-- C4 (amended): with two arguments on the stack, `dispatch` returns the
(kind,kind) entry when there is one; when both arguments have a type (kind
`IVALUE`, `BVALUE` or `RVALUE`) it returns the method of the first of the
(kind,kind), (type,kind), (kind,type), (type,type) tables that has an entry and
raises the operator-not-defined error when none has; when there is no
(kind,kind) entry and the first argument has no type it raises the error of
`value_type`; a call site whose argument count is not 2 is rejected. -/
theorem C4_binary_dispatch_first_hit (b : BuiltinBinaryDispatch) (stack : Stack)
    (apply : AST.Apply) (pre : List value_t) (c arg1 arg2 : value_t)
    (hs : stack.slots = pre ++ [c, arg1, arg2]) :
    (apply.argument_count = 2 →
      (∀ m, map_find b.methods_by_kind_kind_ (arg1.kind, arg2.kind) = some m →
        b.dispatch stack apply = .ok m) ∧
      (∀ t1 t2, value.value_type arg1 = .ok t1 → value.value_type arg2 = .ok t2 →
        b.dispatch stack apply =
          match b.first_hit arg1.kind arg2.kind t1 t2 with
          | some m => .ok m
          | none => .error (.operator_not_defined_for_argument_types t1 t2)) ∧
      (∀ e, map_find b.methods_by_kind_kind_ (arg1.kind, arg2.kind) = none →
        value.value_type arg1 = .error e → b.dispatch stack apply = .error e)) ∧
    (apply.argument_count ≠ 2 → apply.argument_count + 1 ≤ stack.size →
      b.dispatch stack apply = .error (.runtime_error "wrong number of arguments")) := by
  constructor
  · intro h2
    have hbase : stack.base 2 = .ok pre.length := by
      simp [Stack.base, Stack.size, hs]
    have ha1 : stack.argument pre.length 1 = .ok arg1 := by
      have : stack.slots[pre.length + 1]? = some arg1 := by
        rw [hs, List.getElem?_append_right (by omega)]
        simp
      simp [Stack.argument, this]
    have ha2 : stack.argument pre.length 2 = .ok arg2 := by
      have : stack.slots[pre.length + 2]? = some arg2 := by
        rw [hs, List.getElem?_append_right (by omega)]
        simp
      simp [Stack.argument, this]
    refine ⟨?_, ?_, ?_⟩
    · intro m hm
      simp [BuiltinBinaryDispatch.dispatch, hbase, h2, ha1, ha2, hm, bind, Except.bind, pure,
        Except.pure]
    · intro t1 t2 ht1 ht2
      simp only [BuiltinBinaryDispatch.dispatch, hbase, h2, ha1, ha2, ht1, ht2, bind, Except.bind,
        pure, Except.pure, BuiltinBinaryDispatch.first_hit, ne_eq, not_true_eq_false, if_false,
        List.findSome?, id]
      cases map_find b.methods_by_kind_kind_ (arg1.kind, arg2.kind) <;>
        cases map_find b.methods_by_type_kind_ (t1, arg2.kind) <;>
        cases map_find b.methods_by_kind_type_ (arg1.kind, t2) <;>
        cases map_find b.methods_by_type_type_ (t1, t2) <;> rfl
    · intro e hm he
      simp [BuiltinBinaryDispatch.dispatch, hbase, h2, ha1, ha2, hm, he, bind, Except.bind, pure,
        Except.pure]
  · intro h2 hsz
    simp [BuiltinBinaryDispatch.dispatch, Stack.base, hsz, h2, bind, Except.bind, throw,
      throwThe, MonadExceptOf.throw]

end park

namespace park

/-! ## Integer methods -/

theorem Stack.base_two (stack : Stack) (pre : List value_t) (c arg1 arg2 : value_t)
    (hs : stack.slots = pre ++ [c, arg1, arg2]) : stack.base 2 = .ok pre.length := by
  simp [Stack.base, Stack.size, hs]

theorem Stack.argument_zero (stack : Stack) (pre : List value_t) (c arg1 arg2 : value_t)
    (hs : stack.slots = pre ++ [c, arg1, arg2]) : stack.argument pre.length 0 = .ok c := by
  have : stack.slots[pre.length + 0]? = some c := by
    rw [hs, List.getElem?_append_right (by omega)]
    simp
  simp only [Stack.argument, List.get?_eq_getElem?, this]

theorem Stack.argument_one (stack : Stack) (pre : List value_t) (c arg1 arg2 : value_t)
    (hs : stack.slots = pre ++ [c, arg1, arg2]) : stack.argument pre.length 1 = .ok arg1 := by
  have : stack.slots[pre.length + 1]? = some arg1 := by
    rw [hs, List.getElem?_append_right (by omega)]
    simp
  simp only [Stack.argument, List.get?_eq_getElem?, this]

theorem Stack.argument_two (stack : Stack) (pre : List value_t) (c arg1 arg2 : value_t)
    (hs : stack.slots = pre ++ [c, arg1, arg2]) : stack.argument pre.length 2 = .ok arg2 := by
  have : stack.slots[pre.length + 2]? = some arg2 := by
    rw [hs, List.getElem?_append_right (by omega)]
    simp
  simp only [Stack.argument, List.get?_eq_getElem?, this]

theorem Frame.pop3_push_ok (fbr : FiberImpl) (apply : AST.Apply) (pre : List value_t)
    (c arg1 arg2 result : value_t) (hs : fbr.stack.slots = pre ++ [c, arg1, arg2])
    (hcap : fbr.stack.size ≤ fbr.stack.capacity) :
    Frame.pop3_push fbr apply result
      = .ok ({ fbr with stack := { fbr.stack with slots := pre ++ [result] } }, apply, 0) := by
  have hpop : fbr.stack.pop 3 = .ok { fbr.stack with slots := pre } :=
    Stack.pop_append fbr.stack pre [c, arg1, arg2] 3 hs rfl
  have hne : ¬ (Stack.size { fbr.stack with slots := pre } = fbr.stack.capacity) := by
    simp only [Stack.size, hs] at hcap ⊢
    simp at hcap
    omega
  simp only [Frame.pop3_push, hpop, bind, Except.bind, Stack.push_back, hne, if_false, pure,
    Except.pure]

theorem FiberImpl.exec_dispatch_builtin (rt : Runtime) (fbr : FiberImpl) (apply : AST.Apply)
    (pre : List value_t) (addr : Nat) (arg1 arg2 : value_t) (b : BuiltinBinaryDispatch)
    (m : MethodImpl)
    (hs : fbr.stack.slots = pre ++ [.RVALUE (.Builtin addr), arg1, arg2])
    (h2 : apply.argument_count = 2)
    (hb : rt.builtins addr = some (.binary_dispatch b))
    (hd : b.dispatch fbr.stack apply = .ok m) :
    fbr.exec_dispatch rt apply = .ok (fbr, apply.set_target m, -1) := by
  simp only [FiberImpl.exec_dispatch, h2, Stack.base_two fbr.stack pre _ arg1 arg2 hs,
    Stack.callable, Stack.argument_zero fbr.stack pre _ arg1 arg2 hs, bind, Except.bind,
    value.cast_ref, Value.dispatch, hb]
  simp only [hd, pure, Except.pure]

theorem value_type_integer (boxed : Bool) (x : Int) :
    value.value_type (integer_slot boxed x) = .ok .Integer := by
  cases boxed <;> rfl

theorem Frame.binary_int64_ok (rt : Runtime) (fbr : FiberImpl) (apply : AST.Apply)
    (pre : List value_t) (callable : Nat) (a b : Int) (op : Int → Int → value_t)
    (hs : fbr.stack.slots = pre ++ [.RVALUE (.Builtin callable), .IVALUE a, .IVALUE b])
    (h2 : apply.argument_count = 2) (hcap : fbr.stack.size ≤ fbr.stack.capacity) :
    Frame.binary_int64 rt fbr apply callable op
      = .ok ({ fbr with stack := { fbr.stack with slots := pre ++ [op a b] } }, apply, 0) := by
  simp only [Frame.binary_int64, h2, Stack.base_two fbr.stack pre _ _ _ hs,
    Stack.argument_zero fbr.stack pre _ _ _ hs, Stack.argument_one fbr.stack pre _ _ _ hs,
    Stack.argument_two fbr.stack pre _ _ _ hs, bind, Except.bind, if_true,
    Frame.pop3_push_ok fbr apply pre _ _ _ (op a b) hs hcap]

theorem Frame.binary_boxed_ok (rt : Runtime) (fbr : FiberImpl) (apply : AST.Apply)
    (pre : List value_t) (callable : Nat) (arg1 arg2 : value_t) (a b : Int)
    (op : Int → Int → value_t)
    (hs : fbr.stack.slots = pre ++ [.RVALUE (.Builtin callable), arg1, arg2])
    (h1 : value.cast_Value arg1 = .ok (.Integer a))
    (h3 : value.cast_Value arg2 = .ok (.Integer b))
    (h2 : apply.argument_count = 2) (hcap : fbr.stack.size ≤ fbr.stack.capacity) :
    Frame.binary_boxed rt fbr apply callable op
      = .ok ({ fbr with stack := { fbr.stack with slots := pre ++ [op a b] } }, apply, 0) := by
  simp only [Frame.binary_boxed, h2, Stack.base_two fbr.stack pre _ _ _ hs,
    Stack.argument_zero fbr.stack pre _ _ _ hs, Stack.argument_one fbr.stack pre _ _ _ hs,
    Stack.argument_two fbr.stack pre _ _ _ hs, bind, Except.bind, if_true, h1, h3,
    Frame.pop3_push_ok fbr apply pre _ _ _ (op a b) hs hcap]

theorem cast_Value_integer (boxed : Bool) (x : Int) :
    value.cast_Value (integer_slot boxed x) = .ok (.Integer x) := by
  cases boxed <;> rfl

theorem BuiltinBinaryDispatch.dispatch_typed (b : BuiltinBinaryDispatch) (stack : Stack)
    (apply : AST.Apply) (pre : List value_t) (c arg1 arg2 : value_t)
    (hs : stack.slots = pre ++ [c, arg1, arg2]) (h2 : apply.argument_count = 2)
    (t1 t2 : TypeRef) (ht1 : value.value_type arg1 = .ok t1)
    (ht2 : value.value_type arg2 = .ok t2) :
    b.dispatch stack apply =
      match b.first_hit arg1.kind arg2.kind t1 t2 with
      | some m => .ok m
      | none => .error (.operator_not_defined_for_argument_types t1 t2) := by
  simp only [BuiltinBinaryDispatch.dispatch, h2, Stack.base_two stack pre c arg1 arg2 hs,
    Stack.argument_one stack pre c arg1 arg2 hs, Stack.argument_two stack pre c arg1 arg2 hs,
    ht1, ht2, bind, Except.bind, pure, Except.pure, BuiltinBinaryDispatch.first_hit, ne_eq,
    not_true_eq_false, if_false, List.findSome?, id]
  cases map_find b.methods_by_kind_kind_ (arg1.kind, arg2.kind) <;>
    cases map_find b.methods_by_type_kind_ (t1, arg2.kind) <;>
    cases map_find b.methods_by_kind_type_ (arg1.kind, t2) <;>
    cases map_find b.methods_by_type_type_ (t1, t2) <;> rfl

theorem dispatch_then_call_ok (rt : Runtime) (fbr : FiberImpl) (apply : AST.Apply)
    (pre : List value_t) (addr : Nat) (arg1 arg2 : value_t) (b : BuiltinBinaryDispatch)
    (m : MethodImpl) (body : Runtime → FiberImpl → AST.Apply → Except Exn Outcome)
    (out : Except Exn Outcome)
    (hs : fbr.stack.slots = pre ++ [.RVALUE (.Builtin addr), arg1, arg2])
    (h2 : apply.argument_count = 2)
    (hb : rt.builtins addr = some (.binary_dispatch b))
    (hd : b.dispatch fbr.stack apply = .ok m)
    (hm : IntegerImpl.method m = some body)
    (hbody : body rt fbr (apply.set_target m) = out) :
    dispatch_then_call rt fbr apply = out := by
  simp only [dispatch_then_call, FiberImpl.exec_dispatch_builtin rt fbr apply pre addr arg1 arg2
    b m hs h2 hb hd, bind, Except.bind, AST.Apply.set_target, hm]
  exact hbody

theorem IntegerImpl.subtract_boxed_boxed_ok (rt : Runtime) (fbr : FiberImpl) (apply : AST.Apply)
    (pre : List value_t) (a b : Int)
    (hs : fbr.stack.slots
      = pre ++ [.RVALUE (.Builtin Builtin.SUBTRACT), .RVALUE (.Integer a), .RVALUE (.Integer b)])
    (h2 : apply.argument_count = 2) (hcap : fbr.stack.size ≤ fbr.stack.capacity) :
    IntegerImpl._subtract_boxed_boxed rt fbr apply
      = .ok ({ fbr with stack := { fbr.stack with slots := pre ++ [.IVALUE (wrap64 (a - b))] } },
          apply, 0) := by
  simp only [IntegerImpl._subtract_boxed_boxed, h2, Stack.base_two fbr.stack pre _ _ _ hs,
    Stack.argument_zero fbr.stack pre _ _ _ hs, Stack.argument_one fbr.stack pre _ _ _ hs,
    Stack.argument_two fbr.stack pre _ _ _ hs, bind, Except.bind, ne_eq, not_true_eq_false,
    if_false, Frame.pop3_push_ok fbr apply pre _ _ _ _ hs hcap]

theorem IntegerImpl.subtract_boxed_int64_ok (rt : Runtime) (fbr : FiberImpl) (apply : AST.Apply)
    (pre : List value_t) (a b : Int)
    (hs : fbr.stack.slots
      = pre ++ [.RVALUE (.Builtin Builtin.SUBTRACT), .RVALUE (.Integer a), .IVALUE b])
    (h2 : apply.argument_count = 2) (hcap : fbr.stack.size ≤ fbr.stack.capacity) :
    IntegerImpl._subtract_boxed_int64 rt fbr apply
      = .ok ({ fbr with stack := { fbr.stack with slots := pre ++ [.IVALUE (wrap64 (a - b))] } },
          apply, 0) := by
  simp only [IntegerImpl._subtract_boxed_int64, h2, Stack.base_two fbr.stack pre _ _ _ hs,
    Stack.argument_zero fbr.stack pre _ _ _ hs, Stack.argument_one fbr.stack pre _ _ _ hs,
    Stack.argument_two fbr.stack pre _ _ _ hs, bind, Except.bind, ne_eq, not_true_eq_false,
    if_false, Frame.pop3_push_ok fbr apply pre _ _ _ _ hs hcap]

/-- Outside the pair (unboxed, boxed) of `subtract`, the method resolved for
two integer arguments accepts them: it returns 0 and replaces the callable and
the two arguments by one result slot. -/
theorem integer_methods_accept (builtin : Nat) (bx bz : Bool) (x z : Int)
    (hbuiltin : builtin ∈ [Builtin.EQUALS, Builtin.ADD, Builtin.SUBTRACT, Builtin.MULTIPLY])
    (hpair : ¬ (builtin = Builtin.SUBTRACT ∧ bx = false ∧ bz = true))
    (fbr : FiberImpl) (apply : AST.Apply) (pre : List value_t)
    (hs : fbr.stack.slots
      = pre ++ [.RVALUE (.Builtin builtin), integer_slot bx x, integer_slot bz z])
    (h2 : apply.argument_count = 2) (hcap : fbr.stack.size ≤ fbr.stack.capacity) :
    ∃ result target, dispatch_then_call initialised_runtime fbr apply
      = .ok ({ fbr with stack := { fbr.stack with slots := pre ++ [result] } },
          apply.set_target target, 0) := by
  have hd := fun b => BuiltinBinaryDispatch.dispatch_typed b fbr.stack apply pre _ _ _ hs h2
    .Integer .Integer (value_type_integer bx x) (value_type_integer bz z)
  simp only [List.mem_cons, List.mem_singleton, List.not_mem_nil, or_false] at hbuiltin
  rcases hbuiltin with h | h | h | h <;> subst h
  · cases bx <;> cases bz
    · exact ⟨_, _, dispatch_then_call_ok _ fbr apply pre _ _ _ equals_methods ._equals_int64_t _ _
        hs h2 rfl (hd _) rfl (Frame.binary_int64_ok _ fbr _ pre _ x z _ hs h2 hcap)⟩
    all_goals exact ⟨_, _, dispatch_then_call_ok _ fbr apply pre _ _ _ equals_methods ._equals _ _
        hs h2 rfl (hd _) rfl (Frame.binary_boxed_ok _ fbr _ pre _ _ _ x z _ hs
          (cast_Value_integer _ x) (cast_Value_integer _ z) h2 hcap)⟩
  · cases bx <;> cases bz
    · exact ⟨_, _, dispatch_then_call_ok _ fbr apply pre _ _ _ add_methods ._add_int64_t _ _
        hs h2 rfl (hd _) rfl (Frame.binary_int64_ok _ fbr _ pre _ x z _ hs h2 hcap)⟩
    all_goals exact ⟨_, _, dispatch_then_call_ok _ fbr apply pre _ _ _ add_methods ._add _ _
        hs h2 rfl (hd _) rfl (Frame.binary_boxed_ok _ fbr _ pre _ _ _ x z _ hs
          (cast_Value_integer _ x) (cast_Value_integer _ z) h2 hcap)⟩
  · cases bx <;> cases bz
    · exact ⟨_, _, dispatch_then_call_ok _ fbr apply pre _ _ _ subtract_methods ._subtract_int64_t
        _ _ hs h2 rfl (hd _) rfl (Frame.binary_int64_ok _ fbr _ pre _ x z _ hs h2 hcap)⟩
    · exact absurd ⟨rfl, rfl, rfl⟩ hpair
    · exact ⟨_, _, dispatch_then_call_ok _ fbr apply pre _ _ _ subtract_methods
        ._subtract_boxed_int64 _ _ hs h2 rfl (hd _) rfl
        (IntegerImpl.subtract_boxed_int64_ok _ fbr _ pre x z hs h2 hcap)⟩
    · exact ⟨_, _, dispatch_then_call_ok _ fbr apply pre _ _ _ subtract_methods
        ._subtract_boxed_boxed _ _ hs h2 rfl (hd _) rfl
        (IntegerImpl.subtract_boxed_boxed_ok _ fbr _ pre x z hs h2 hcap)⟩
  · cases bx <;> cases bz
    · exact ⟨_, _, dispatch_then_call_ok _ fbr apply pre _ _ _ multiply_methods ._multiply_int64_t
        _ _ hs h2 rfl (hd _) rfl (Frame.binary_int64_ok _ fbr _ pre _ x z _ hs h2 hcap)⟩
    all_goals exact ⟨_, _, dispatch_then_call_ok _ fbr apply pre _ _ _ multiply_methods ._multiply
        _ _ hs h2 rfl (hd _) rfl (Frame.binary_boxed_ok _ fbr _ pre _ _ _ x z _ hs
          (cast_Value_integer _ x) (cast_Value_integer _ z) h2 hcap)⟩

/-- C5 (the code at the failing input): for `subtract` applied to the unboxed
integer 5 and the boxed integer 3 the dispatch helper installs
`_subtract_int64_boxed`, and that method, invoked on the same stack, raises. -/
theorem C5_subtract_int64_boxed_raises :
    FiberImpl.exec_dispatch initialised_runtime
        ⟨⟨[.RVALUE (.Builtin Builtin.SUBTRACT), .IVALUE 5, .RVALUE (.Integer 3)], 32, true⟩,
          [], []⟩ ⟨100, 2, true, .exec_dispatch⟩
      = .ok (⟨⟨[.RVALUE (.Builtin Builtin.SUBTRACT), .IVALUE 5, .RVALUE (.Integer 3)], 32, true⟩,
          [], []⟩, ⟨100, 2, true, ._subtract_int64_boxed⟩, -1) ∧
    dispatch_then_call initialised_runtime
        ⟨⟨[.RVALUE (.Builtin Builtin.SUBTRACT), .IVALUE 5, .RVALUE (.Integer 3)], 32, true⟩,
          [], []⟩ ⟨100, 2, true, .exec_dispatch⟩
      = .error (.runtime_error "TODO _subtract_int64_boxed") := by
  constructor <;> rfl

end park

namespace park

theorem FiberImpl.exec_dispatch_shape (rt : Runtime) (fbr : FiberImpl) (apply : AST.Apply)
    (out : Outcome) (h : fbr.exec_dispatch rt apply = .ok out) :
    out.1 = fbr ∧ out.2.2 = -1 := by
  unfold FiberImpl.exec_dispatch at h
  simp only [bind, Except.bind, pure, Except.pure] at h
  repeat' (split at h)
  all_goals first | (cases h; done) | (cases h; exact ⟨rfl, rfl⟩)

theorem Frame.pop3_push_shape (fbr : FiberImpl) (apply : AST.Apply) (result : value_t)
    (out : Outcome) (h : Frame.pop3_push fbr apply result = .ok out) : out.2.2 = 0 := by
  unfold Frame.pop3_push at h
  simp only [bind, Except.bind, pure, Except.pure] at h
  repeat' (split at h)
  all_goals first | (cases h; done) | (cases h; rfl)

/-- An integer method that returns without accepting its arguments went
through `bad_dispatch`: the status is negative and the fiber, its value stack
included, is as before. -/
theorem integer_methods_refuse (m : MethodImpl)
    (body : Runtime → FiberImpl → AST.Apply → Except Exn Outcome)
    (hm : IntegerImpl.method m = some body) (rt : Runtime) (fbr : FiberImpl)
    (apply : AST.Apply) (out : Outcome) (h : body rt fbr apply = .ok out)
    (hne : out.2.2 ≠ 0) : out.2.2 < 0 ∧ out.1 = fbr := by
  have key : out.2.2 = 0 ∨ (out.1 = fbr ∧ out.2.2 = -1) := by
    cases m <;> simp only [IntegerImpl.method, Option.some.injEq] at hm <;>
      first
      | exact absurd hm (by simp)
      | (subst hm
         simp only [Frame.binary_boxed, Frame.binary_int64, IntegerImpl._subtract_boxed_boxed,
           IntegerImpl._subtract_boxed_int64, IntegerImpl._subtract_int64_boxed,
           Frame.bad_dispatch, bind, Except.bind] at h
         repeat' (split at h)
         all_goals first
           | cases h
           | exact Or.inl (Frame.pop3_push_shape _ _ _ _ h)
           | exact Or.inr (FiberImpl.exec_dispatch_shape _ _ _ _ h))
  rcases key with h0 | ⟨h1, h2⟩
  · exact absurd h0 hne
  · exact ⟨by rw [h2]; decide, h1⟩

end park

namespace park

/-! ## Defer lists -/

theorem ListImpl.enumerate_items (fuel : Nat) : ∀ (l : ListImpl), l.items.length < fuel →
    l.enumerate fuel = .ok l.items := by
  induction fuel with
  | zero => intro l h; omega
  | succ fuel ih =>
    intro l h
    cases l with
    | last item => rfl
    | node item tail =>
      simp only [ListImpl.items, List.length_cons] at h
      simp only [ListImpl.enumerate, ListImpl.to_bool, ListImpl.tail_, Option.isSome_some,
        if_true, ListImpl._first, ListImpl._next, ListImpl.item_, bind, Except.bind,
        ih tail (by omega), pure, Except.pure, ListImpl.items]

theorem FiberImpl.defer_all_frame (closures : List Value) :
    ∀ (fbr : FiberImpl) (frame : frame_stack_t) (frames : List frame_stack_t),
    fbr.frame_stack = frame :: frames →
    ∃ defers, fbr.defer_all closures
        = .ok { fbr with frame_stack := { frame with defers := defers } :: frames } ∧
      (defers.isSome = true ↔ (frame.defers.isSome = true ∨ 1 ≤ closures.length)) ∧
      (defers.getD ListImpl.create).items
        = closures.reverse.map some ++ (frame.defers.getD ListImpl.create).items := by
  induction closures with
  | nil =>
    intro fbr frame frames hf
    refine ⟨frame.defers, ?_, by simp, by simp⟩
    simp only [FiberImpl.defer_all]
    rw [← hf]
  | cons c closures ih =>
    intro fbr frame frames hf
    have hstep : fbr.__defer c = .ok { fbr with frame_stack :=
        { frame with defers := some ((frame.defers.getD ListImpl.create).conj c) } :: frames } := by
      unfold FiberImpl.__defer FiberImpl.defers
      rw [hf]
      obtain ⟨_, _, _, _, d⟩ := frame
      cases d <;> rfl
    obtain ⟨defers, h1, h2, h3⟩ := ih
      { fbr with frame_stack :=
        { frame with defers := some ((frame.defers.getD ListImpl.create).conj c) } :: frames }
      { frame with defers := some ((frame.defers.getD ListImpl.create).conj c) } frames rfl
    refine ⟨defers, ?_, ?_, ?_⟩
    · simp only [FiberImpl.defer_all, hstep, bind, Except.bind]
      exact h1
    · rw [h2]
      simp
    · rw [h3]
      simp [ListImpl.conj, ListImpl.items]

/-- C6: closures deferred in the order `c1, ..., cn` within one frame that
starts without defers are enumerated from the frame's defer list, by `first`
and `next`, in the order `cn, ..., c1`; `exec_check_defers` reports pending
defers exactly when `n >= 1`; the records of the other frames, and so their
defer lists, are untouched. -/
theorem C6_defers_last_in_first_out (fbr : FiberImpl) (frame : frame_stack_t)
    (frames : List frame_stack_t) (closures : List Value)
    (hf : fbr.frame_stack = frame :: frames) (hd : frame.defers = none) :
    ∃ fbr1 frame1 defers, fbr.defer_all closures = .ok fbr1 ∧
      fbr1.frame_stack = frame1 :: frames ∧
      fbr1.defers = .ok defers ∧
      defers.enumerate (closures.length + 1) = .ok (closures.reverse.map some) ∧
      fbr1.exec_check_defers = .ok (if 1 ≤ closures.length then 1 else 0) ∧
      fbr1.stack = fbr.stack := by
  obtain ⟨defers, h1, h2, h3⟩ := FiberImpl.defer_all_frame closures fbr frame frames hf
  rw [hd] at h2 h3
  simp only [Option.isSome_none, Bool.false_eq_true, false_or] at h2
  have h3b : (defers.getD ListImpl.create).items = closures.reverse.map some := by
    rw [h3]
    simp [ListImpl.create, ListImpl.EMPTY, ListImpl.items]
  refine ⟨_, { frame with defers := defers }, defers.getD ListImpl.create, h1, rfl, ?_, ?_, ?_, rfl⟩
  · cases defers <;> rfl
  · rw [ListImpl.enumerate_items _ _ (by rw [h3b]; simp), h3b]
  · simp only [FiberImpl.exec_check_defers]
    by_cases hn : 1 ≤ closures.length
    · rw [if_pos hn, if_pos (h2.mpr hn)]
    · rw [if_neg hn, if_neg (fun h => hn (h2.mp h))]

end park

namespace park

/-! ## Instances -/

theorem C1_recur_constant_stack_witness :
    ∃ fbr1, FiberImpl.recur_steps
        ⟨⟨[.RVALUE (.Closure 7), .IVALUE 1, .UVALUE], 32, true⟩,
          [⟨⟨100, 1, true, .code 7⟩, 0, 1, 1, none⟩], [55]⟩
        [[.IVALUE 2], [.IVALUE 3]] = .ok fbr1 ∧
      fbr1.stack.size = 3 ∧ fbr1.frame_stack.length = 1 :=
  (C1_recur_constant_stack
    ⟨⟨[.RVALUE (.Closure 7), .IVALUE 1, .UVALUE], 32, true⟩,
      [⟨⟨100, 1, true, .code 7⟩, 0, 1, 1, none⟩], [55]⟩
    [] (.RVALUE (.Closure 7)) [.IVALUE 1] [.UVALUE] ⟨⟨100, 1, true, .code 7⟩, 0, 1, 1, none⟩ []
    rfl rfl rfl rfl rfl).2.2 [[.IVALUE 2], [.IVALUE 3]] (by decide) (by decide) (by decide)

theorem C2_epilog_unwinds_frame_witness :
    ∃ fbr1, FiberImpl.exec_function_epilog
        ⟨⟨[.IVALUE 9, .RVALUE (.Closure 7), .IVALUE 1, .UVALUE, .RVALUE (.Error2 4)], 32, true⟩,
          [⟨⟨100, 1, true, .code 7⟩, 1, 1, 1, none⟩], [55]⟩ ⟨7, 1, 1⟩
        = .ok (fbr1, 55, 1) ∧ fbr1.stack.size = 2 ∧
      fbr1.stack.slots[1]? = some (.RVALUE (.Error2 4)) ∧ fbr1.frame_stack = [] := by
  obtain ⟨fbr1, ret, h, h1, h2, _, h4, _, _, hret, _⟩ := C2_epilog_unwinds_frame
    ⟨⟨[.IVALUE 9, .RVALUE (.Closure 7), .IVALUE 1, .UVALUE, .RVALUE (.Error2 4)], 32, true⟩,
      [⟨⟨100, 1, true, .code 7⟩, 1, 1, 1, none⟩], [55]⟩ ⟨7, 1, 1⟩
    [.IVALUE 9] (.RVALUE (.Closure 7)) [.IVALUE 1] [.UVALUE] (.RVALUE (.Error2 4))
    ⟨⟨100, 1, true, .code 7⟩, 1, 1, 1, none⟩ [] 55 [] rfl rfl rfl rfl rfl (by decide)
  have hr : ret = 1 := hret.mpr ⟨⟨_, rfl, rfl⟩, rfl⟩
  subst hr
  exact ⟨fbr1, h, h1, h2, h4⟩

theorem C4_binary_dispatch_first_hit_witness :
    subtract_methods.dispatch
        ⟨[.RVALUE (.Builtin Builtin.SUBTRACT), .RVALUE (.Integer 5), .IVALUE 3], 32, true⟩
        ⟨100, 2, true, .exec_dispatch⟩ = .ok ._subtract_boxed_int64 :=
  ((C4_binary_dispatch_first_hit subtract_methods
    ⟨[.RVALUE (.Builtin Builtin.SUBTRACT), .RVALUE (.Integer 5), .IVALUE 3], 32, true⟩
    ⟨100, 2, true, .exec_dispatch⟩ [] _ _ _ rfl).1 rfl).2.1 .Integer .Integer rfl rfl

theorem C6_defers_last_in_first_out_witness :
    ∃ fbr1 frame1 defers, FiberImpl.defer_all
        ⟨⟨[.RVALUE (.Closure 7)], 32, true⟩, [⟨⟨100, 0, true, .code 7⟩, 0, 0, 0, none⟩], [55]⟩
        [.Closure 1, .Closure 2, .Closure 3] = .ok fbr1 ∧
      fbr1.frame_stack = frame1 :: [] ∧
      fbr1.defers = .ok defers ∧
      defers.enumerate 4 = .ok [some (.Closure 3), some (.Closure 2), some (.Closure 1)] ∧
      fbr1.exec_check_defers = .ok 1 ∧
      fbr1.stack = ⟨[.RVALUE (.Closure 7)], 32, true⟩ :=
  C6_defers_last_in_first_out
    ⟨⟨[.RVALUE (.Closure 7)], 32, true⟩, [⟨⟨100, 0, true, .code 7⟩, 0, 0, 0, none⟩], [55]⟩
    ⟨⟨100, 0, true, .code 7⟩, 0, 0, 0, none⟩ [] [.Closure 1, .Closure 2, .Closure 3] rfl rfl

end park

namespace gc

/-! ## Bit operations on bitmap words -/

theorem and_mask64_ne_zero (x j : Nat) : (x &&& block_t.mask64 j ≠ 0) ↔ x.testBit j = true := by
  unfold block_t.mask64
  rw [Nat.one_shiftLeft, Nat.and_two_pow]
  cases x.testBit j <;> simp

theorem testBit_mask64 (j p : Nat) : (block_t.mask64 j).testBit p = decide (j = p) := by
  unfold block_t.mask64
  rw [Nat.one_shiftLeft, Nat.testBit_two_pow]

theorem testBit_not64 (x p : Nat) (hp : p < 64) : (not64 x).testBit p = !x.testBit p := by
  unfold not64 ALL_ONES
  rw [Nat.testBit_xor]
  have : (0xffffffffffffffff : Nat).testBit p = true := by
    have h := Nat.testBit_two_pow_sub_one 64 p
    rw [h]
    exact decide_eq_true hp
  rw [this]
  cases x.testBit p <;> rfl

theorem split_eq (idx idx2 : Nat) :
    (block_t.split idx = block_t.split idx2) ↔ idx = idx2 := by
  unfold block_t.split
  constructor
  · intro h
    have h1 : idx / 64 = idx2 / 64 := congrArg Prod.fst h
    have h2 : idx % 64 = idx2 % 64 := congrArg Prod.snd h
    omega
  · intro h; rw [h]

theorem block_t.marked_iff (b : block_t) (idx : Nat) :
    b.marked idx = (b.marked_ (idx / 64)).testBit (idx % 64) := by
  have h := and_mask64_ne_zero (b.marked_ (idx / 64)) (idx % 64)
  unfold block_t.marked block_t.split
  by_cases hb : (b.marked_ (idx / 64)).testBit (idx % 64) = true
  · rw [hb]; simpa using h.mpr hb
  · have hb2 : (b.marked_ (idx / 64)).testBit (idx % 64) = false := by simpa using hb
    rw [hb2]
    have := (not_congr h).mpr hb
    simpa using this

theorem block_t.allocated_iff (b : block_t) (idx : Nat) :
    b.allocated idx = (b.bitmap_ (idx / 64)).testBit (idx % 64) := by
  have h := and_mask64_ne_zero (b.bitmap_ (idx / 64)) (idx % 64)
  unfold block_t.allocated block_t.split
  by_cases hb : (b.bitmap_ (idx / 64)).testBit (idx % 64) = true
  · rw [hb]; simpa using h.mpr hb
  · have hb2 : (b.bitmap_ (idx / 64)).testBit (idx % 64) = false := by simpa using hb
    rw [hb2]
    have := (not_congr h).mpr hb
    simpa using this

theorem block_t.finalizer_iff (b : block_t) (idx : Nat) :
    b.finalizer idx = (b.finalize_ (idx / 64)).testBit (idx % 64) := by
  have h := and_mask64_ne_zero (b.finalize_ (idx / 64)) (idx % 64)
  unfold block_t.finalizer block_t.split
  by_cases hb : (b.finalize_ (idx / 64)).testBit (idx % 64) = true
  · rw [hb]; simpa using h.mpr hb
  · have hb2 : (b.finalize_ (idx / 64)).testBit (idx % 64) = false := by simpa using hb
    rw [hb2]
    have := (not_congr h).mpr hb
    simpa using this

/-- `set_mark_concurrent` sets the mark bit of its slot, reports the bit's
previous value and changes no other mark bit. -/
theorem block_t.set_mark_concurrent_spec (b : block_t) (idx : Nat) :
    (b.set_mark_concurrent idx).2 = b.marked idx ∧
      ∀ idx2, (b.set_mark_concurrent idx).1.marked idx2 = (decide (idx = idx2) || b.marked idx2) := by
  constructor
  · rfl
  · intro idx2
    rw [block_t.marked_iff, block_t.marked_iff]
    simp only [block_t.set_mark_concurrent, block_t.split]
    by_cases h0 : idx2 / 64 = idx / 64
    · rw [h0, Function.update_same, Nat.testBit_lor, testBit_mask64]
      by_cases h1 : idx % 64 = idx2 % 64
      · have : idx = idx2 := by omega
        simp [h1, this]
      · have : ¬ idx = idx2 := fun h => h1 (by rw [h])
        simp [h1, this]
    · rw [Function.update_noteq h0]
      have : ¬ idx = idx2 := fun h => h0 (by rw [h])
      simp [this]

end gc

namespace gc

/-! ## Sweep -/

theorem block_t.run_finalizers_spec (i to_finalize : Nat) : ∀ (js : List Nat) (b : block_t)
    (log : List Nat), js.Nodup → (∀ j ∈ js, j < 64) →
    (block_t.run_finalizers b i to_finalize log js).1
        = { b with finalize_ := (block_t.run_finalizers b i to_finalize log js).1.finalize_ } ∧
      (∀ k, k ≠ i →
        (block_t.run_finalizers b i to_finalize log js).1.finalize_ k = b.finalize_ k) ∧
      (∀ p, p < 64 →
        ((block_t.run_finalizers b i to_finalize log js).1.finalize_ i).testBit p
          = ((b.finalize_ i).testBit p &&
              !(decide (p ∈ js) && decide (i * 64 + p < b.capacity_) && to_finalize.testBit p))) ∧
      (∀ x, (block_t.run_finalizers b i to_finalize log js).2.count x
          = log.count x +
            if x / 64 = i ∧ x % 64 ∈ js ∧ x < b.capacity_ ∧ to_finalize.testBit (x % 64) = true
            then 1 else 0) := by
  intro js
  induction js with
  | nil =>
    intro b log _ _
    simp [block_t.run_finalizers]
  | cons j js ih =>
    intro b log hnd hlt
    have hj : j ∉ js := (List.nodup_cons.mp hnd).1
    have hnd2 : js.Nodup := (List.nodup_cons.mp hnd).2
    have hj64 : j < 64 := hlt j (by simp)
    have hlt2 : ∀ j ∈ js, j < 64 := fun k hk => hlt k (by simp [hk])
    have hsplit : ∀ x, x = i * 64 + j ↔ (x / 64 = i ∧ x % 64 = j) := by
      intro x; constructor
      · intro h; subst h; constructor <;> omega
      · rintro ⟨h1, h2⟩; omega
    by_cases hc : i * 64 + j < b.capacity_ ∧ to_finalize &&& block_t.mask64 j ≠ 0
    · have htb : to_finalize.testBit j = true := (and_mask64_ne_zero _ _).mp hc.2
      have hrun : block_t.run_finalizers b i to_finalize log (j :: js)
          = block_t.run_finalizers (b.clear_finalizer_bit i j) i to_finalize
              (log ++ [i * 64 + j]) js := by
        simp only [block_t.run_finalizers]
        rw [if_pos hc]
      obtain ⟨h1, h2, h3, h4⟩ := ih (b.clear_finalizer_bit i j) (log ++ [i * 64 + j]) hnd2 hlt2
      have hcapc : (b.clear_finalizer_bit i j).capacity_ = b.capacity_ := rfl
      rw [hcapc] at h3 h4
      rw [hrun]
      refine ⟨?_, ?_, ?_, ?_⟩
      · rw [h1]
        rfl
      · intro k hk
        rw [h2 k hk]
        simp [block_t.clear_finalizer_bit, Function.update_noteq hk]
      · intro p hp
        rw [h3 p hp]
        simp only [block_t.clear_finalizer_bit, Function.update_same, Nat.testBit_land, testBit_not64 _ p hp, testBit_mask64,
          List.mem_cons]
        by_cases hpj : j = p
        · subst hpj
          simp [hj, hc.1, htb]
        · have hpj2 : ¬ p = j := fun h => hpj h.symm
          simp [hpj, hpj2]
      · intro x
        rw [h4 x]
        simp only [List.count_append, List.mem_cons]
        by_cases hx : x = i * 64 + j
        · have hx2 := (hsplit x).mp hx
          have hxc : x < b.capacity_ := by rw [hx]; exact hc.1
          simp [hx2.1, hx2.2, hj, hxc, htb, ← hx]
        · have hx3 : ¬ (x / 64 = i ∧ x % 64 = j) := fun h => hx ((hsplit x).mpr h)
          have hcount : List.count x [i * 64 + j] = 0 := by
            simp [List.count_singleton]
            exact fun h => hx h.symm
          rw [hcount]
          by_cases h5 : x / 64 = i
          · have h6 : ¬ x % 64 = j := fun h => hx3 ⟨h5, h⟩
            simp [h5, h6]
          · simp [h5]
    · have hrun : block_t.run_finalizers b i to_finalize log (j :: js)
          = block_t.run_finalizers b i to_finalize log js := by
        simp only [block_t.run_finalizers]
        rw [if_neg hc]
      obtain ⟨h1, h2, h3, h4⟩ := ih b log hnd2 hlt2
      rw [hrun]
      refine ⟨h1, h2, ?_, ?_⟩
      · intro p hp
        rw [h3 p hp]
        simp only [List.mem_cons]
        by_cases hpj : p = j
        · subst hpj
          have : (decide (i * 64 + p < b.capacity_) && to_finalize.testBit p) = false := by
            by_cases h7 : i * 64 + p < b.capacity_
            · have h8 : ¬ to_finalize.testBit p = true := fun h =>
                hc ⟨h7, (and_mask64_ne_zero _ _).mpr h⟩
              simp [h8]
            · simp [h7]
          simp [hj, Bool.and_assoc, this]
        · simp [hpj]
      · intro x
        rw [h4 x]
        simp only [List.mem_cons]
        by_cases hx : x = i * 64 + j
        · have hx2 := (hsplit x).mp hx
          have h9 : ¬ (x < b.capacity_ ∧ to_finalize.testBit (x % 64) = true) := by
            rintro ⟨h7, h8⟩
            rw [hx2.2] at h8
            exact hc ⟨by rw [← hx]; exact h7, (and_mask64_ne_zero _ _).mpr h8⟩
          have h10 : ¬ (x / 64 = i ∧ (x % 64 = j ∨ x % 64 ∈ js) ∧ x < b.capacity_ ∧
              to_finalize.testBit (x % 64) = true) := fun h => h9 h.2.2
          have h11 : ¬ (x / 64 = i ∧ x % 64 ∈ js ∧ x < b.capacity_ ∧
              to_finalize.testBit (x % 64) = true) := fun h => h9 h.2.2
          rw [if_neg h10, if_neg h11]
        · have hx3 : ¬ (x / 64 = i ∧ x % 64 = j) := fun h => hx ((hsplit x).mpr h)
          by_cases h5 : x / 64 = i
          · have h6 : ¬ x % 64 = j := fun h => hx3 ⟨h5, h⟩
            simp [h5, h6]
          · simp [h5]

end gc

namespace gc

theorem testBit_eq_false_of_eq_zero (x : Nat) (h : x = 0) (p : Nat) : x.testBit p = false := by
  subst h; simp

theorem block_t.sweep_word_spec (bl : block_t × List Nat) (i : Nat) :
    (block_t.sweep_word bl i).1
        = { bl.1 with
            bitmap_ := Function.update bl.1.bitmap_ i (bl.1.marked_ i),
            select_ := if bl.1.marked_ i = ALL_ONES then bl.1.select_ ||| block_t.mask8 i
              else bl.1.select_,
            finalize_ := (block_t.sweep_word bl i).1.finalize_ } ∧
      (∀ k, k ≠ i → (block_t.sweep_word bl i).1.finalize_ k = bl.1.finalize_ k) ∧
      (∀ p, p < 64 →
        ((block_t.sweep_word bl i).1.finalize_ i).testBit p
          = ((bl.1.finalize_ i).testBit p &&
              !(decide (i * 64 + p < bl.1.capacity_) && !(bl.1.marked_ i).testBit p))) ∧
      (∀ x, (block_t.sweep_word bl i).2.count x
          = bl.2.count x +
            if x / 64 = i ∧ x < bl.1.capacity_ ∧ (bl.1.finalize_ i).testBit (x % 64) = true ∧
                (bl.1.marked_ i).testBit (x % 64) = false
            then 1 else 0) := by
  obtain ⟨b, log⟩ := bl
  have htf : ∀ p, p < 64 → (b.finalize_ i &&& not64 (b.marked_ i)).testBit p
      = ((b.finalize_ i).testBit p && !(b.marked_ i).testBit p) := by
    intro p hp
    rw [Nat.testBit_land, testBit_not64 _ p hp]
  by_cases hones : b.marked_ i = ALL_ONES
  · by_cases hz : b.finalize_ i &&& not64 (b.marked_ i) ≠ 0
    · have hrun : block_t.sweep_word (b, log) i
          = block_t.run_finalizers
              { b with bitmap_ := Function.update b.bitmap_ i (b.marked_ i),
                       select_ := b.select_ ||| block_t.mask8 i } i
              (b.finalize_ i &&& not64 (b.marked_ i)) log (List.range 64) := by
        simp only [block_t.sweep_word, Function.update_same, hones, if_true]
        rw [← hones, if_pos hz]
      obtain ⟨h1, h2, h3, h4⟩ := block_t.run_finalizers_spec i
        (b.finalize_ i &&& not64 (b.marked_ i)) (List.range 64)
        { b with bitmap_ := Function.update b.bitmap_ i (b.marked_ i),
                 select_ := b.select_ ||| block_t.mask8 i } log (List.nodup_range 64)
        (fun j hj => List.mem_range.mp hj)
      rw [hrun]
      refine ⟨?_, h2, ?_, ?_⟩
      · rw [h1]; simp only [hones, if_true]
      · intro p hp
        rw [h3 p hp, htf p hp]
        have : p ∈ List.range 64 := List.mem_range.mpr hp
        cases (b.finalize_ i).testBit p <;> cases (b.marked_ i).testBit p <;> simp [this]
      · intro x
        rw [h4 x]
        have hx : x % 64 ∈ List.range 64 := List.mem_range.mpr (Nat.mod_lt _ (by decide))
        rw [htf _ (Nat.mod_lt _ (by decide))]
        simp only [hx, true_and, Bool.and_eq_true, Bool.not_eq_true']
    · have hz0 : b.finalize_ i &&& not64 (b.marked_ i) = 0 := by
        by_contra h; exact hz h
      have hrun : block_t.sweep_word (b, log) i
          = ({ b with bitmap_ := Function.update b.bitmap_ i (b.marked_ i),
                      select_ := b.select_ ||| block_t.mask8 i }, log) := by
        simp only [block_t.sweep_word, Function.update_same, hones, if_true]
        rw [← hones, if_neg hz]
      have hbits : ∀ p, p < 64 →
          ((b.finalize_ i).testBit p && !(b.marked_ i).testBit p) = false := by
        intro p hp
        rw [← htf p hp]
        exact testBit_eq_false_of_eq_zero _ hz0 p
      rw [hrun]
      refine ⟨?_, fun _ _ => rfl, ?_, ?_⟩
      · simp only [hones, if_true]
      · intro p hp
        have := hbits p hp
        revert this
        cases (b.finalize_ i).testBit p <;> cases (b.marked_ i).testBit p <;> simp
      · intro x
        have := hbits (x % 64) (Nat.mod_lt _ (by decide))
        have hn : ¬ (x / 64 = i ∧ x < b.capacity_ ∧ (b.finalize_ i).testBit (x % 64) = true ∧
            (b.marked_ i).testBit (x % 64) = false) := by
          rintro ⟨_, _, h5, h6⟩
          rw [h5, h6] at this
          exact absurd this (by decide)
        simp only [hn, if_false, Nat.add_zero]
  · by_cases hz : b.finalize_ i &&& not64 (b.marked_ i) ≠ 0
    · have hrun : block_t.sweep_word (b, log) i
          = block_t.run_finalizers
              { b with bitmap_ := Function.update b.bitmap_ i (b.marked_ i) } i
              (b.finalize_ i &&& not64 (b.marked_ i)) log (List.range 64) := by
        simp only [block_t.sweep_word, Function.update_same, hones, if_false]
        rw [if_pos hz]
      obtain ⟨h1, h2, h3, h4⟩ := block_t.run_finalizers_spec i
        (b.finalize_ i &&& not64 (b.marked_ i)) (List.range 64)
        { b with bitmap_ := Function.update b.bitmap_ i (b.marked_ i) } log
        (List.nodup_range 64) (fun j hj => List.mem_range.mp hj)
      rw [hrun]
      refine ⟨?_, h2, ?_, ?_⟩
      · rw [h1]; simp only [hones, if_false]
      · intro p hp
        rw [h3 p hp, htf p hp]
        have : p ∈ List.range 64 := List.mem_range.mpr hp
        cases (b.finalize_ i).testBit p <;> cases (b.marked_ i).testBit p <;> simp [this]
      · intro x
        rw [h4 x]
        have hx : x % 64 ∈ List.range 64 := List.mem_range.mpr (Nat.mod_lt _ (by decide))
        rw [htf _ (Nat.mod_lt _ (by decide))]
        simp only [hx, true_and, Bool.and_eq_true, Bool.not_eq_true']
    · have hz0 : b.finalize_ i &&& not64 (b.marked_ i) = 0 := by
        by_contra h; exact hz h
      have hrun : block_t.sweep_word (b, log) i
          = ({ b with bitmap_ := Function.update b.bitmap_ i (b.marked_ i) }, log) := by
        simp only [block_t.sweep_word, Function.update_same, hones, if_false]
        rw [if_neg hz]
      have hbits : ∀ p, p < 64 →
          ((b.finalize_ i).testBit p && !(b.marked_ i).testBit p) = false := by
        intro p hp
        rw [← htf p hp]
        exact testBit_eq_false_of_eq_zero _ hz0 p
      rw [hrun]
      refine ⟨?_, fun _ _ => rfl, ?_, ?_⟩
      · simp only [hones, if_false]
      · intro p hp
        have := hbits p hp
        revert this
        cases (b.finalize_ i).testBit p <;> cases (b.marked_ i).testBit p <;> simp
      · intro x
        have := hbits (x % 64) (Nat.mod_lt _ (by decide))
        have hn : ¬ (x / 64 = i ∧ x < b.capacity_ ∧ (b.finalize_ i).testBit (x % 64) = true ∧
            (b.marked_ i).testBit (x % 64) = false) := by
          rintro ⟨_, _, h5, h6⟩
          rw [h5, h6] at this
          exact absurd this (by decide)
        simp only [hn, if_false, Nat.add_zero]

end gc

namespace gc

theorem block_t.sweep_words_spec : ∀ (ws : List Nat) (bl : block_t × List Nat), ws.Nodup →
    (ws.foldl block_t.sweep_word bl).1.marked_ = bl.1.marked_ ∧
      (ws.foldl block_t.sweep_word bl).1.capacity_ = bl.1.capacity_ ∧
      (ws.foldl block_t.sweep_word bl).1.dirty_ = bl.1.dirty_ ∧
      (ws.foldl block_t.sweep_word bl).1.sz_ = bl.1.sz_ ∧
      (ws.foldl block_t.sweep_word bl).1.block_size_ = bl.1.block_size_ ∧
      (∀ k, (ws.foldl block_t.sweep_word bl).1.bitmap_ k
          = if k ∈ ws then bl.1.marked_ k else bl.1.bitmap_ k) ∧
      (∀ k, ((ws.foldl block_t.sweep_word bl).1.select_).testBit k
          = ((bl.1.select_).testBit k || (decide (k ∈ ws) && decide (bl.1.marked_ k = ALL_ONES)))) ∧
      (∀ k, k ∉ ws → (ws.foldl block_t.sweep_word bl).1.finalize_ k = bl.1.finalize_ k) ∧
      (∀ k, k ∈ ws → ∀ p, p < 64 →
        ((ws.foldl block_t.sweep_word bl).1.finalize_ k).testBit p
          = ((bl.1.finalize_ k).testBit p &&
              !(decide (k * 64 + p < bl.1.capacity_) && !(bl.1.marked_ k).testBit p))) ∧
      (∀ x, (ws.foldl block_t.sweep_word bl).2.count x
          = bl.2.count x +
            if x / 64 ∈ ws ∧ x < bl.1.capacity_ ∧
                (bl.1.finalize_ (x / 64)).testBit (x % 64) = true ∧
                (bl.1.marked_ (x / 64)).testBit (x % 64) = false
            then 1 else 0) := by
  intro ws
  induction ws with
  | nil => intro bl _; simp
  | cons i ws ih =>
    intro bl hnd
    have hi : i ∉ ws := (List.nodup_cons.mp hnd).1
    have hnd2 : ws.Nodup := (List.nodup_cons.mp hnd).2
    obtain ⟨w1, w2, w3, w4⟩ := block_t.sweep_word_spec bl i
    obtain ⟨f1, f2, f3, f4, f5, f6, f7, f8, f9, f10⟩ := ih (block_t.sweep_word bl i) hnd2
    have m1 : (block_t.sweep_word bl i).1.marked_ = bl.1.marked_ := by rw [w1]
    have c1 : (block_t.sweep_word bl i).1.capacity_ = bl.1.capacity_ := by rw [w1]
    have d1 : (block_t.sweep_word bl i).1.dirty_ = bl.1.dirty_ := by rw [w1]
    have s1 : (block_t.sweep_word bl i).1.sz_ = bl.1.sz_ := by rw [w1]
    have bs1 : (block_t.sweep_word bl i).1.block_size_ = bl.1.block_size_ := by rw [w1]
    have b1 : (block_t.sweep_word bl i).1.bitmap_
        = Function.update bl.1.bitmap_ i (bl.1.marked_ i) := by rw [w1]
    have sel1 : (block_t.sweep_word bl i).1.select_
        = if bl.1.marked_ i = ALL_ONES then bl.1.select_ ||| block_t.mask8 i
          else bl.1.select_ := by rw [w1]
    simp only [List.foldl_cons]
    refine ⟨by rw [f1, m1], by rw [f2, c1], by rw [f3, d1], by rw [f4, s1], by rw [f5, bs1],
      ?_, ?_, ?_, ?_, ?_⟩
    · intro k
      rw [f6 k, m1, b1]
      by_cases hk : k = i
      · subst hk; simp [hi]
      · simp [hk, Function.update_noteq hk]
    · intro k
      rw [f7 k, m1, sel1]
      by_cases hk : k = i
      · subst hk
        by_cases ho : bl.1.marked_ k = ALL_ONES
        · simp [ho, hi, Nat.testBit_lor, block_t.mask8, Nat.one_shiftLeft]
        · simp [ho, hi]
      · have hik : ¬ i = k := fun h => hk h.symm
        by_cases ho : bl.1.marked_ i = ALL_ONES
        · simp [ho, hk, hik, Nat.testBit_lor, block_t.mask8, Nat.one_shiftLeft,
            Nat.testBit_two_pow]
        · simp [ho, hk]
    · intro k hk
      have hk1 : k ≠ i := fun h => hk (by simp [h])
      have hk2 : k ∉ ws := fun h => hk (by simp [h])
      rw [f8 k hk2, w2 k hk1]
    · intro k hk p hp
      by_cases hki : k = i
      · subst hki
        rw [f8 k hi, w3 p hp]
      · have hk2 : k ∈ ws := by
          rcases List.mem_cons.mp hk with h | h
          · exact absurd h hki
          · exact h
        rw [f9 k hk2 p hp, w2 k hki, c1, m1]
    · intro x
      rw [f10 x, w4 x, c1, m1]
      by_cases hx : x / 64 = i
      · have hxw : x / 64 ∉ ws := by rw [hx]; exact hi
        rw [hx] at hxw ⊢
        simp [hxw]
      · have hx2 : x / 64 ≠ i := hx
        rw [w2 _ hx2]
        simp [hx]

end gc

namespace gc

/-- What `block_t::sweep` does, slot by slot: the alloc bit becomes the mark
bit, the mark bit is cleared, the finalizer runs once for the slots below the
capacity whose finalizer bit was set and whose mark bit was clear, and exactly
their finalizer bits are cleared. -/
theorem block_t.sweep_slot (b : block_t) (idx : Nat) (hidx : idx < 512) :
    b.sweep.1.allocated idx = b.marked idx ∧
      b.sweep.1.marked idx = false ∧
      b.sweep.1.finalizer idx
        = (b.finalizer idx && !(decide (idx < b.capacity_) && !b.marked idx)) ∧
      b.sweep.2.count idx
        = (if idx < b.capacity_ ∧ b.finalizer idx = true ∧ b.marked idx = false then 1 else 0) ∧
      b.sweep.1.capacity_ = b.capacity_ ∧ b.sweep.1.dirty_ = b.dirty_ := by
  obtain ⟨f1, f2, f3, _, _, f6, _, _, f9, f10⟩ :=
    block_t.sweep_words_spec (List.range 8) ({ b with select_ := 0 }, []) (List.nodup_range 8)
  have hw : idx / 64 ∈ List.range 8 := List.mem_range.mpr (by omega)
  have hp : idx % 64 < 64 := Nat.mod_lt _ (by decide)
  have hsplit : idx / 64 * 64 + idx % 64 = idx := by omega
  refine ⟨?_, ?_, ?_, ?_, ?_, ?_⟩
  · rw [block_t.allocated_iff, block_t.marked_iff]
    simp only [block_t.sweep, block_t.clear_marked]
    rw [f6 (idx / 64), if_pos hw]
  · rw [block_t.marked_iff]
    simp [block_t.sweep, block_t.clear_marked]
  · rw [block_t.finalizer_iff, block_t.finalizer_iff, block_t.marked_iff]
    simp only [block_t.sweep, block_t.clear_marked]
    rw [f9 (idx / 64) hw (idx % 64) hp, hsplit]
  · simp only [block_t.sweep]
    rw [f10 idx, block_t.finalizer_iff, block_t.marked_iff]
    simp [hw]
  · simp only [block_t.sweep, block_t.clear_marked]
    rw [f2]
  · simp only [block_t.sweep, block_t.clear_marked]
    rw [f3]

end gc

namespace gc

/-! ## Finalizers -/

theorem lowest_clear_some (x j : Nat) (h : lowest_clear x = some j) :
    j < 64 ∧ x.testBit j = false := by
  unfold lowest_clear at h
  have h1 := List.find?_some h
  have h2 := List.mem_of_find?_eq_some h
  exact ⟨List.mem_range.mp h2, by simpa using h1⟩

/-- A slot returned by `block_t::alloc` had its alloc bit clear. -/
theorem block_t.alloc_was_free (b b1 : block_t) (with_finalizer marked : Bool) (idx : Nat)
    (h : b.alloc with_finalizer marked = .ok (b1, idx)) : b.allocated idx = false := by
  unfold block_t.alloc at h
  split at h
  · cases h
  · split at h
    · cases h
    · rename_i idx0 h0
      split at h
      · cases h
      · rename_i h8
        split at h
        · cases h
        · rename_i idx1 h1
          obtain ⟨hlt, hbit⟩ := lowest_clear_some _ _ h1
          have hidx : idx = idx0 * 64 + idx1 := by
            simp only [Except.ok.injEq, Prod.mk.injEq] at h
            exact h.2.symm
          rw [block_t.allocated_iff, hidx]
          have e1 : (idx0 * 64 + idx1) / 64 = idx0 := by omega
          have e2 : (idx0 * 64 + idx1) % 64 = idx1 := by omega
          rw [e1, e2, hbit]

theorem Sweep.run_not_effective (bl : block_t × List Nat) (s : Sweep)
    (h : s.effective bl.1 = false) : Sweep.run bl s = bl := by
  cases s with
  | final => simp [Sweep.effective] at h
  | guarded mask =>
    simp only [Sweep.effective, decide_eq_false_iff_not] at h
    simp [Sweep.run, allocator_sweep, block_t.dirty_cas, h]

theorem Sweep.run_effective (bl : block_t × List Nat) (s : Sweep)
    (h : s.effective bl.1 = true) :
    ∃ b1 : block_t, b1.bitmap_ = bl.1.bitmap_ ∧ b1.marked_ = bl.1.marked_ ∧
      b1.finalize_ = bl.1.finalize_ ∧ b1.capacity_ = bl.1.capacity_ ∧
      Sweep.run bl s = (b1.sweep.1, bl.2 ++ b1.sweep.2) := by
  cases s with
  | final => exact ⟨bl.1, rfl, rfl, rfl, rfl, rfl⟩
  | guarded mask =>
    simp only [Sweep.effective, decide_eq_true_eq] at h
    exact ⟨{ bl.1 with dirty_ := mask }, rfl, rfl, rfl, rfl, by
      simp [Sweep.run, allocator_sweep, block_t.dirty_cas, h]⟩

theorem Sweep.run_slot (capacity_ idx : Nat) (bl : block_t × List Nat) (s : Sweep)
    (hidx : idx < capacity_) (hcap : capacity_ ≤ 512) (hst : finalizer_state capacity_ idx bl) :
    finalizer_state capacity_ idx (Sweep.run bl s) ∧
      (bl.2.count idx = 0 → s.effective bl.1 = true → bl.1.marked idx = false →
        (Sweep.run bl s).2.count idx = 1) ∧
      (¬ (s.effective bl.1 = true ∧ bl.1.marked idx = false) →
        (Sweep.run bl s).2.count idx = bl.2.count idx) := by
  by_cases he : s.effective bl.1 = true
  · obtain ⟨b1, e1, e2, e3, e4, hrun⟩ := Sweep.run_effective bl s he
    obtain ⟨s1, s2, s3, s4, s5, _⟩ := block_t.sweep_slot b1 idx (by omega)
    have ha : b1.allocated idx = bl.1.allocated idx := by
      simp only [block_t.allocated, e1]
    have hm : b1.marked idx = bl.1.marked idx := by
      simp only [block_t.marked, e2]
    have hf : b1.finalizer idx = bl.1.finalizer idx := by
      simp only [block_t.finalizer, e3]
    obtain ⟨hc, hst2⟩ := hst
    have hcap1 : b1.capacity_ = capacity_ := by rw [e4, hc]
    have t1 : b1.sweep.1.allocated idx = bl.1.marked idx := by rw [s1, hm]
    have t3 : b1.sweep.1.finalizer idx = (bl.1.finalizer idx && bl.1.marked idx) := by
      rw [s3, hf, hm, hcap1]
      simp [hidx]
    have t4 : b1.sweep.2.count idx
        = if bl.1.finalizer idx = true ∧ bl.1.marked idx = false then 1 else 0 := by
      rw [s4, hf, hm, hcap1]
      simp [hidx]
    have t5 : b1.sweep.1.capacity_ = capacity_ := by rw [s5, hcap1]
    rw [hrun]
    rcases hst2 with ⟨a1, a2, a3⟩ | ⟨a1, a2, a3, a4⟩
    · cases hmk : bl.1.marked idx
      · have t6 : (bl.2 ++ b1.sweep.2).count idx = 1 := by
          rw [List.count_append, t4, a3, a2, hmk]; rfl
        refine ⟨⟨t5, Or.inr ⟨?_, ?_, s2, t6⟩⟩, fun _ _ _ => t6, ?_⟩
        · rw [t1, hmk]
        · rw [t3, a2, hmk]; rfl
        · intro h; exact absurd ⟨he, rfl⟩ h
      · have t6 : (bl.2 ++ b1.sweep.2).count idx = bl.2.count idx := by
          rw [List.count_append, t4, a2, hmk]; simp
        refine ⟨⟨t5, Or.inl ⟨?_, ?_, by rw [t6, a3]⟩⟩, ?_, fun _ => t6⟩
        · rw [t1, hmk]
        · rw [t3, a2, hmk]; rfl
        · intro _ _ h; exact absurd h (by simp)
    · have t6 : (bl.2 ++ b1.sweep.2).count idx = bl.2.count idx := by
        rw [List.count_append, t4, a2]; simp
      refine ⟨⟨t5, Or.inr ⟨?_, ?_, s2, by rw [t6, a4]⟩⟩, ?_, fun _ => t6⟩
      · rw [t1, a3]
      · rw [t3, a2]; rfl
      · intro h; rw [a4] at h; exact absurd h (by decide)
  · have he2 : s.effective bl.1 = false := by simpa using he
    rw [Sweep.run_not_effective bl s he2]
    exact ⟨hst, fun _ h => absurd h he, fun _ => rfl⟩

theorem run_sweeps_state (capacity_ idx : Nat) (hidx : idx < capacity_) (hcap : capacity_ ≤ 512) :
    ∀ (sweeps : List Sweep) (bl : block_t × List Nat), finalizer_state capacity_ idx bl →
      finalizer_state capacity_ idx (run_sweeps bl sweeps) := by
  intro sweeps
  induction sweeps with
  | nil => intro bl h; exact h
  | cons s sweeps ih =>
    intro bl h
    exact ih _ (Sweep.run_slot capacity_ idx bl s hidx hcap h).1

theorem run_sweeps_append (bl : block_t × List Nat) (sweeps : List Sweep) (s : Sweep) :
    run_sweeps bl (sweeps ++ [s]) = Sweep.run (run_sweeps bl sweeps) s := by
  simp [run_sweeps, List.foldl_append]

theorem allocator_sweep_skip (dirty_mask_ : Bool) (b : block_t) (h : b.dirty_ ≠ !dirty_mask_) :
    allocator_sweep dirty_mask_ b = (b, [], 0) := by
  simp only [allocator_sweep, block_t.dirty_cas, h, if_false]
  rfl

theorem allocator_sweep_dirty (dirty_mask_ : Bool) (b : block_t) :
    (allocator_sweep dirty_mask_ b).1.dirty_ ≠ !dirty_mask_ := by
  by_cases h : b.dirty_ = !dirty_mask_
  · have hsw := (block_t.sweep_words_spec (List.range 8)
      ({ ({ b with dirty_ := dirty_mask_ } : block_t) with select_ := 0 }, [])
      (List.nodup_range 8)).2.2.1
    simp only [allocator_sweep, block_t.dirty_cas, h, if_true, block_t.sweep,
      block_t.clear_marked]
    rw [hsw]
    cases dirty_mask_ <;> simp
  · rw [allocator_sweep_skip dirty_mask_ b h]
    exact h

theorem allocator_sweep_twice (dirty_mask_ : Bool) (b : block_t) :
    allocator_sweep dirty_mask_ (allocator_sweep dirty_mask_ b).1
      = ((allocator_sweep dirty_mask_ b).1, [], 0) :=
  allocator_sweep_skip dirty_mask_ _ (allocator_sweep_dirty dirty_mask_ b)

/-- C8: a slot allocated with the finalizer flag and not marked afterwards:
over any sequence of sweeps of its block (guarded by the dirty bit under any
mask values, repeated, or final) the finalizer is invoked at most once; it is
invoked by the first sweep that reaches the block while the slot is unmarked
and by no other sweep; the alloc bit is cleared only together with that call,
so every later `alloc` returning the slot comes after it; and a second
`allocator_t::sweep` of a block under the same dirty mask sweeps nothing,
returns 0 and leaves the block unchanged. -/
theorem C8_finalizer_runs_exactly_once (b : block_t) (idx : Nat) (sweeps : List Sweep)
    (hidx : idx < b.capacity_) (hcap : b.capacity_ ≤ 512)
    (halloc : b.allocated idx = true) (hfin : b.finalizer idx = true) :
    (run_sweeps (b, []) sweeps).2.count idx ≤ 1 ∧
    (∀ s : Sweep,
      ((run_sweeps (b, []) sweeps).2.count idx = 0 →
        s.effective (run_sweeps (b, []) sweeps).1 = true →
        (run_sweeps (b, []) sweeps).1.marked idx = false →
        (run_sweeps (b, []) (sweeps ++ [s])).2.count idx = 1) ∧
      (¬ (s.effective (run_sweeps (b, []) sweeps).1 = true ∧
          (run_sweeps (b, []) sweeps).1.marked idx = false) →
        (run_sweeps (b, []) (sweeps ++ [s])).2.count idx
          = (run_sweeps (b, []) sweeps).2.count idx)) ∧
    ((run_sweeps (b, []) sweeps).1.allocated idx = false →
      (run_sweeps (b, []) sweeps).2.count idx = 1) ∧
    (∀ (with_finalizer marked : Bool) (b1 : block_t),
      (run_sweeps (b, []) sweeps).1.alloc with_finalizer marked = .ok (b1, idx) →
      (run_sweeps (b, []) sweeps).2.count idx = 1) ∧
    (∀ (dirty_mask_ : Bool) (block : block_t),
      allocator_sweep dirty_mask_ (allocator_sweep dirty_mask_ block).1
        = ((allocator_sweep dirty_mask_ block).1, [], 0)) := by
  have h0 : finalizer_state b.capacity_ idx (b, []) :=
    ⟨rfl, Or.inl ⟨halloc, hfin, rfl⟩⟩
  have hst := run_sweeps_state b.capacity_ idx hidx hcap sweeps (b, []) h0
  have hfree : (run_sweeps (b, []) sweeps).1.allocated idx = false →
      (run_sweeps (b, []) sweeps).2.count idx = 1 := by
    intro hf
    rcases hst.2 with ⟨a1, _, _⟩ | ⟨_, _, _, a4⟩
    · rw [a1] at hf; exact absurd hf (by decide)
    · exact a4
  refine ⟨?_, ?_, hfree, ?_, allocator_sweep_twice⟩
  · rcases hst.2 with ⟨_, _, a3⟩ | ⟨_, _, _, a4⟩
    · rw [a3]; exact Nat.zero_le 1
    · rw [a4]
  · intro s
    rw [run_sweeps_append]
    obtain ⟨_, r2, r3⟩ := Sweep.run_slot b.capacity_ idx (run_sweeps (b, []) sweeps) s hidx hcap hst
    exact ⟨r2, r3⟩
  · intro wf m b1 ha
    exact hfree (block_t.alloc_was_free _ b1 wf m idx ha)

end gc

namespace gc

/-! ## Concurrent marking -/

theorem is_marked_update (blocks : Nat → block_t) (r x : ref) :
    is_marked (Function.update blocks r.block ((blocks r.block).set_mark_concurrent r.idx).1) x
      = (decide (x = r) || is_marked blocks x) := by
  unfold is_marked
  by_cases hb : x.block = r.block
  · rw [hb, Function.update_same, (block_t.set_mark_concurrent_spec _ _).2]
    by_cases hi : r.idx = x.idx
    · have : x = r := by
        cases x; cases r; simp only [ref.mk.injEq]; exact ⟨hb, hi.symm⟩
      simp [hi, this]
    · have : ¬ x = r := fun h => hi (by rw [h])
      simp [hi, this]
  · rw [Function.update_noteq hb]
    have : ¬ x = r := fun h => hb (by rw [h])
    simp [this]

/-- What one round on a grey list ending in `r` does: the mark bit of `r` is
set and no other; the entries left, the kept part followed by the work items
queued by the split, are exactly the popped list followed by the references
of `r` when `r` was not marked before, and the popped list otherwise. -/
theorem mark_round_spec (walk : ref → List ref) (blocks : Nat → block_t) (popped : List ref)
    (r : ref) (todo : List (List ref)) :
    (∀ x, is_marked (mark_round walk blocks (popped ++ [r]) todo).1 x
        = (decide (x = r) || is_marked blocks x)) ∧
    ∃ items : List (List ref),
      (mark_round walk blocks (popped ++ [r]) todo).2.2 = todo ++ items ∧
      (mark_round walk blocks (popped ++ [r]) todo).2.1 ++ items.flatten
        = (if is_marked blocks r = true then popped else popped ++ walk r) ∧
      items.length ≤ 1 := by
  have hlast : (popped ++ [r]).getLast? = some r := by simp
  have hdrop : (popped ++ [r]).dropLast = popped := by simp
  have hm : ((blocks r.block).set_mark_concurrent r.idx).2 = is_marked blocks r :=
    (block_t.set_mark_concurrent_spec _ _).1
  unfold mark_round
  simp only [hlast, hdrop, hm]
  by_cases hlen : (if is_marked blocks r = true then popped else popped ++ walk r).length > 128
  · rw [if_pos hlen]
    refine ⟨fun x => is_marked_update blocks r x, [_], rfl, ?_, by simp⟩
    simp
  · rw [if_neg hlen]
    exact ⟨fun x => is_marked_update blocks r x, [], by simp, by simp, by simp⟩

theorem mark_round_invariant (walk : ref → List ref) (objects roots : List ref)
    (blocks : Nat → block_t) (popped : List ref) (r : ref) (todo : List (List ref))
    (hclosed : ∀ r ∈ objects, ∀ c ∈ walk r, c ∈ objects)
    (hinv : marking_invariant walk objects roots blocks ((popped ++ [r]) ++ todo.flatten)) :
    marking_invariant walk objects roots (mark_round walk blocks (popped ++ [r]) todo).1
      ((mark_round walk blocks (popped ++ [r]) todo).2.1
        ++ (mark_round walk blocks (popped ++ [r]) todo).2.2.flatten) := by
  obtain ⟨hm, items, h1, h2, _⟩ := mark_round_spec walk blocks popped r todo
  obtain ⟨i1, i2, i3⟩ := hinv
  have hr : r ∈ objects := i1 r (by simp)
  have hpool : ∀ x, x ∈ (mark_round walk blocks (popped ++ [r]) todo).2.1
        ++ (mark_round walk blocks (popped ++ [r]) todo).2.2.flatten ↔
      (x ∈ (if is_marked blocks r = true then popped else popped ++ walk r) ∨ x ∈ todo.flatten) := by
    intro x
    rw [h1, ← h2]
    simp only [List.flatten_append, List.mem_append]
    tauto
  have hkeep : ∀ x, x ∈ (popped ++ [r]) ++ todo.flatten → x ≠ r →
      x ∈ (mark_round walk blocks (popped ++ [r]) todo).2.1
        ++ (mark_round walk blocks (popped ++ [r]) todo).2.2.flatten := by
    intro x hx hne
    rw [hpool x]
    simp only [List.mem_append, List.mem_singleton] at hx
    rcases hx with (hx | hx) | hx
    · left
      by_cases hmr : is_marked blocks r = true
      · rw [if_pos hmr]; exact hx
      · rw [if_neg hmr]; exact List.mem_append_left _ hx
    · exact absurd hx hne
    · right; exact hx
  refine ⟨?_, ?_, ?_⟩
  · intro x hx
    rcases (hpool x).mp hx with hx | hx
    · by_cases hmr : is_marked blocks r = true
      · rw [if_pos hmr] at hx
        exact i1 x (by simp [hx])
      · rw [if_neg hmr] at hx
        rcases List.mem_append.mp hx with hx | hx
        · exact i1 x (by simp [hx])
        · exact hclosed r hr x hx
    · exact i1 x (by simp [hx])
  · intro r0 hr0 hmark c hc
    rw [hm r0] at hmark
    rw [hm c]
    by_cases hcr : c = r
    · left; simp [hcr]
    · by_cases hr0r : r0 = r
      · subst hr0r
        by_cases hmr : is_marked blocks r0 = true
        · rcases i2 r0 hr0 hmr c hc with h | h
          · left; simp [h]
          · right; exact hkeep c h hcr
        · right
          rw [hpool c, if_neg hmr]
          left
          exact List.mem_append_right _ hc
      · have hmark0 : is_marked blocks r0 = true := by simpa [hr0r] using hmark
        rcases i2 r0 hr0 hmark0 c hc with h | h
        · left; simp [h]
        · right; exact hkeep c h hcr
  · intro x hx
    rw [hm x]
    by_cases hxr : x = r
    · left; simp [hxr]
    · rcases i3 x hx with h | h
      · left; simp [h]
      · right; exact hkeep x h hxr

end gc

namespace gc

theorem unmarked_count_marked (objects : List ref) (blocks blocks1 : Nat → block_t) (r : ref)
    (hm : ∀ x, is_marked blocks1 x = (decide (x = r) || is_marked blocks x))
    (hr : is_marked blocks r = true) :
    unmarked_count objects blocks1 = unmarked_count objects blocks := by
  unfold unmarked_count
  congr 1
  apply Finset.filter_congr
  intro x _
  rw [hm x]
  by_cases hx : x = r
  · subst hx; simp [hr]
  · simp [hx]

theorem unmarked_count_fresh (objects : List ref) (blocks blocks1 : Nat → block_t) (r : ref)
    (hm : ∀ x, is_marked blocks1 x = (decide (x = r) || is_marked blocks x))
    (hr : is_marked blocks r = false) (hobj : r ∈ objects) :
    unmarked_count objects blocks1 + 1 = unmarked_count objects blocks := by
  unfold unmarked_count
  have hmem : r ∈ objects.toFinset.filter fun r => is_marked blocks r = false := by
    simp [hobj, hr]
  have heq : (objects.toFinset.filter fun r => is_marked blocks1 r = false)
      = (objects.toFinset.filter fun r => is_marked blocks r = false).erase r := by
    ext x
    simp only [Finset.mem_filter, Finset.mem_erase, List.mem_toFinset, hm x]
    by_cases hx : x = r
    · simp [hx]
    · simp [hx]
  rw [heq, Finset.card_erase_of_mem hmem]
  have := Finset.card_pos.mpr ⟨r, hmem⟩
  omega

theorem walk_length_le_max_degree (walk : ref → List ref) (objects : List ref) (r : ref)
    (hobj : r ∈ objects) : (walk r).length ≤ max_degree walk objects := by
  unfold max_degree
  exact List.le_sum_of_mem (List.mem_map.mpr ⟨r, hobj, rfl⟩)

/-- Every round of `mark_concurrent` on an object of `objects` lowers the
bound `work_left`. -/
theorem mark_round_work_left (walk : ref → List ref) (objects : List ref)
    (blocks : Nat → block_t) (popped : List ref) (r : ref) (todo : List (List ref))
    (hobj : r ∈ objects) :
    work_left walk objects (mark_round walk blocks (popped ++ [r]) todo).1
        (mark_round walk blocks (popped ++ [r]) todo).2.1
        (mark_round walk blocks (popped ++ [r]) todo).2.2
      < work_left walk objects blocks (popped ++ [r]) todo := by
  obtain ⟨hm, items, h1, h2, h3⟩ := mark_round_spec walk blocks popped r todo
  have hlen := congrArg List.length h2
  have hdeg := walk_length_le_max_degree walk objects r hobj
  unfold work_left
  rw [h1]
  simp only [List.length_append, List.map_append, List.sum_append, List.length_singleton]
  rw [List.length_append, List.length_flatten] at hlen
  by_cases hr : is_marked blocks r = true
  · rw [if_pos hr] at hlen
    rw [unmarked_count_marked objects blocks _ r hm hr]
    omega
  · rw [if_neg hr, List.length_append] at hlen
    have hr2 : is_marked blocks r = false := by simpa using hr
    have hc := unmarked_count_fresh objects blocks _ r hm hr2 hobj
    have hmul : unmarked_count objects blocks * (max_degree walk objects + 1)
        = unmarked_count objects (mark_round walk blocks (popped ++ [r]) todo).1
            * (max_degree walk objects + 1) + (max_degree walk objects + 1) := by
      rw [← hc, Nat.add_mul, Nat.one_mul]
    rw [hmul]
    omega

/-- With more fuel than `work_left`, `mark_concurrent` returns; the marking
invariant holds afterwards over the work items it leaves queued. -/
theorem mark_concurrent_ok (walk : ref → List ref) (objects roots : List ref)
    (hclosed : ∀ r ∈ objects, ∀ c ∈ walk r, c ∈ objects) :
    ∀ (fuel : Nat) (blocks : Nat → block_t) (grey : List ref) (todo : List (List ref)),
      marking_invariant walk objects roots blocks (grey ++ todo.flatten) →
      work_left walk objects blocks grey todo < fuel →
      ∃ blocks1 todo1, mark_concurrent walk fuel blocks grey todo = some (blocks1, todo1) ∧
        marking_invariant walk objects roots blocks1 todo1.flatten ∧
        work_left walk objects blocks1 [] todo1 ≤ work_left walk objects blocks grey todo := by
  intro fuel
  induction fuel with
  | zero => intro _ _ _ _ h; omega
  | succ fuel ih =>
    intro blocks grey todo hinv hfuel
    unfold mark_concurrent
    by_cases hg : grey = []
    · rw [if_pos hg]
      subst hg
      exact ⟨blocks, todo, rfl, by simpa using hinv, le_refl _⟩
    · rw [if_neg hg]
      obtain ⟨popped, r, hgr⟩ : ∃ popped r, grey = popped ++ [r] :=
        ⟨grey.dropLast, grey.getLast hg, (List.dropLast_append_getLast hg).symm⟩
      subst hgr
      have hobj : r ∈ objects := hinv.1 r (by simp)
      have hw := mark_round_work_left walk objects blocks popped r todo hobj
      have hi := mark_round_invariant walk objects roots blocks popped r todo hclosed hinv
      obtain ⟨blocks1, todo1, e1, e2, e3⟩ := ih _ _ _ hi (by omega)
      exact ⟨blocks1, todo1, e1, e2, by omega⟩

/-- With more fuel than `work_left`, the work queue is drained; the marking
invariant holds afterwards with no grey entry left. -/
theorem perform_all_work_ok (walk : ref → List ref) (objects roots : List ref)
    (hclosed : ∀ r ∈ objects, ∀ c ∈ walk r, c ∈ objects) :
    ∀ (fuel : Nat) (blocks : Nat → block_t) (todo : List (List ref)),
      marking_invariant walk objects roots blocks todo.flatten →
      work_left walk objects blocks [] todo < fuel →
      ∃ blocks1, perform_all_work walk fuel blocks todo = some blocks1 ∧
        marking_invariant walk objects roots blocks1 [] := by
  intro fuel
  induction fuel with
  | zero => intro _ _ _ h; omega
  | succ fuel ih =>
    intro blocks todo hinv hfuel
    cases todo with
    | nil => exact ⟨blocks, rfl, by simpa using hinv⟩
    | cons grey rest =>
      have hw : work_left walk objects blocks [] (grey :: rest)
          = work_left walk objects blocks grey rest + 1 := by
        unfold work_left
        simp only [List.length_cons, List.map_cons, List.sum_cons, List.length_nil]
        omega
      obtain ⟨blocks1, todo1, e1, e2, e3⟩ :=
        mark_concurrent_ok walk objects roots hclosed fuel blocks grey rest
          (by simpa using hinv) (by omega)
      obtain ⟨blocks2, e4, e5⟩ := ih blocks1 todo1 e2 (by omega)
      refine ⟨blocks2, ?_, e5⟩
      unfold perform_all_work
      rw [e1]
      exact e4

/-- With no grey entry left, every object reachable from the roots is
marked. -/
theorem marked_of_reachable (walk : ref → List ref) (objects roots : List ref)
    (blocks : Nat → block_t) (hroots : ∀ r ∈ roots, r ∈ objects)
    (hclosed : ∀ r ∈ objects, ∀ c ∈ walk r, c ∈ objects)
    (hinv : marking_invariant walk objects roots blocks []) (x : ref)
    (hx : reachable walk roots x) : x ∈ objects ∧ is_marked blocks x = true := by
  obtain ⟨_, i2, i3⟩ := hinv
  induction hx with
  | root r hr =>
    refine ⟨hroots r hr, ?_⟩
    rcases i3 r hr with h | h
    · exact h
    · simp at h
  | step r c _ hc ih =>
    refine ⟨hclosed r ih.1 c hc, ?_⟩
    rcases i2 r ih.1 ih.2 c hc with h | h
    · exact h
    · simp at h

/-- C7: in a collection cycle without concurrent mutation, with the mark bits
of the objects clear at the start, marking from the root grey list run to
completion (every work item split off included) returns, and after the
sweep of every block each object reachable from the roots through `walk` has
its alloc bit set, while a slot whose alloc bit is set after the sweep was
marked and all mark bits are clear again. A round that splits the grey list queues at most one work item, and
the entries it keeps followed by the entries it queues are the grey entries
of before the split, in order, none dropped and none duplicated. -/
theorem C7_mark_sweep_keeps_reachable (walk : ref → List ref) (objects roots : List ref)
    (blocks : Nat → block_t) (fuel : Nat)
    (hroots : ∀ r ∈ roots, r ∈ objects)
    (hclosed : ∀ r ∈ objects, ∀ c ∈ walk r, c ∈ objects)
    (hclear : ∀ r ∈ objects, is_marked blocks r = false)
    (hfuel : work_left walk objects blocks [] [roots] < fuel) :
    (∃ blocks1, perform_all_work walk fuel blocks [roots] = some blocks1 ∧
      (∀ x, reachable walk roots x → x.idx < 512 →
        (sweep_blocks blocks1 x.block).allocated x.idx = true) ∧
      (∀ x : ref, x.idx < 512 → (sweep_blocks blocks1 x.block).allocated x.idx = true →
        is_marked blocks1 x = true) ∧
      (∀ x : ref, x.idx < 512 → is_marked (sweep_blocks blocks1) x = false)) ∧
    (∀ (blocks2 : Nat → block_t) (popped : List ref) (r : ref) (todo : List (List ref)),
      ∃ items : List (List ref),
        (mark_round walk blocks2 (popped ++ [r]) todo).2.2 = todo ++ items ∧
        (mark_round walk blocks2 (popped ++ [r]) todo).2.1 ++ items.flatten
          = (if is_marked blocks2 r = true then popped else popped ++ walk r) ∧
        items.length ≤ 1) := by
  refine ⟨?_, ?_⟩
  · have hinv : marking_invariant walk objects roots blocks [roots].flatten := by
      refine ⟨fun x hx => hroots x (by simpa using hx), ?_, fun r hr => Or.inr (by simpa using hr)⟩
      intro r hr hm
      rw [hclear r hr] at hm
      exact absurd hm (by decide)
    obtain ⟨blocks1, e1, e2⟩ :=
      perform_all_work_ok walk objects roots hclosed fuel blocks [roots] hinv hfuel
    refine ⟨blocks1, e1, ?_, ?_, fun x hidx => ((blocks1 x.block).sweep_slot x.idx hidx).2.1⟩
    · intro x hx hidx
      unfold sweep_blocks
      rw [((blocks1 x.block).sweep_slot x.idx hidx).1]
      exact (marked_of_reachable walk objects roots blocks1 hroots hclosed e2 x hx).2
    · intro x hidx ha
      unfold sweep_blocks at ha
      rw [((blocks1 x.block).sweep_slot x.idx hidx).1] at ha
      exact ha
  · intro blocks2 popped r todo
    exact (mark_round_spec walk blocks2 popped r todo).2

end gc

namespace gc

theorem C7_mark_sweep_keeps_reachable_witness :
    ∃ blocks1, perform_all_work example_walk 100 (fun _ => example_block) [[⟨0, 0⟩]] = some blocks1 ∧
      (sweep_blocks blocks1 0).allocated 1 = true :=
  match (C7_mark_sweep_keeps_reachable example_walk example_objects [⟨0, 0⟩]
      (fun _ => example_block) 100 (by decide) (by decide) (by decide) (by decide)).1 with
  | ⟨blocks1, e, hr, _⟩ =>
    ⟨blocks1, e, hr ⟨0, 1⟩
      (reachable.step ⟨0, 0⟩ ⟨0, 1⟩ (reachable.root ⟨0, 0⟩ (List.mem_singleton.mpr rfl)) (by decide))
      (by decide)⟩

theorem C8_finalizer_runs_exactly_once_witness :
    (run_sweeps (example_block, []) ([] ++ [Sweep.final])).2.count 1 = 1 ∧
      (run_sweeps (example_block, []) [Sweep.final, Sweep.guarded true, Sweep.final]).2.count 1 ≤ 1 :=
  ⟨((C8_finalizer_runs_exactly_once example_block 1 [] (by decide) (by decide) (by decide)
      (by decide)).2.1 Sweep.final).1 (by decide) (by decide) (by decide),
    (C8_finalizer_runs_exactly_once example_block 1 [Sweep.final, Sweep.guarded true, Sweep.final]
      (by decide) (by decide) (by decide) (by decide)).1⟩

end gc

namespace gc

/-! ## Promotion to the shared heap -/

theorem allocator_t.get_ref_ok (a : allocator_t) (obj i v : Nat)
    (h : a.get_ref obj i = .ok v) : ∃ c, a.data obj = some c ∧ c.refs[i]? = some v := by
  unfold allocator_t.get_ref at h
  cases hd : a.data obj with
  | none => simp [hd] at h
  | some c =>
    cases hr : c.refs[i]? with
    | none => simp [hd, hr] at h
    | some w =>
      simp only [hd, hr, Except.ok.injEq] at h
      exact ⟨c, rfl, by rw [← h]; exact hr⟩

theorem allocator_t.set_ref_ok (a a2 : allocator_t) (obj i v : Nat)
    (h : a.set_ref obj i v = .ok a2) :
    ∃ c, a.data obj = some c ∧ i < c.refs.length ∧
      a2 = a.set_data obj { c with refs := c.refs.set i v } := by
  unfold allocator_t.set_ref at h
  cases hd : a.data obj with
  | none => simp [hd] at h
  | some c =>
    simp only [hd] at h
    by_cases hi : i < c.refs.length
    · rw [if_pos hi] at h
      simp only [Except.ok.injEq] at h
      exact ⟨c, rfl, hi, h.symm⟩
    · rw [if_neg hi] at h
      simp at h

theorem closed_at_congr (a b : allocator_t) (p : Nat) (h : b.data p = a.data p)
    (hc : closed_at a p) : closed_at b p := by
  intro c hd f hf
  exact hc c (by rw [← h]; exact hd) f hf

/-- What the walk over the references of the copy at `new_ptr` establishes. -/
theorem share_walk_post (next : Nat → Nat)
    (rec : allocator_t → Nat → Except park.Exn (allocator_t × Nat))
    (hrec : ∀ a v a1 v1, rec a v = .ok (a1, v1) → share_post next a v a1 v1) (new_ptr : Nat) :
    ∀ (is : List Nat) (a a3 : allocator_t), share_walk rec new_ptr is a = .ok a3 →
      a3.header = a.header ∧ a.shared_allocated_ ≤ a3.shared_allocated_ ∧
      (∀ p, p ≠ new_ptr →
        (∀ n, a.shared_allocated_ ≤ n → n < a3.shared_allocated_ → p ≠ next n) →
        a3.data p = a.data p) ∧
      (∀ p, p ≠ new_ptr → a3.data p = a.data p ∨ closed_at a3 p) ∧
      ((∀ c, a.data new_ptr = some c → ∀ j v, c.refs[j]? = some v → j ∉ is →
          is_shared_ref v = true) → closed_at a3 new_ptr) ∧
      (∀ p, a.data p ≠ none → a3.data p ≠ none) ∧
      a.shared_ ≤ a3.shared_ := by
  intro is
  induction is with
  | nil =>
    intro a a3 h
    simp only [share_walk, Except.ok.injEq] at h
    subst h
    refine ⟨rfl, le_refl _, fun _ _ _ => rfl, fun _ _ => Or.inl rfl, ?_, fun _ h => h, le_refl _⟩
    intro H c hc f hf
    obtain ⟨j, hj⟩ := List.getElem?_of_mem hf
    exact H c hc j f hj (by simp)
  | cons i rest ih =>
    intro a a3 h
    unfold share_walk at h
    cases hg : a.get_ref new_ptr i with
    | error e => simp [hg] at h
    | ok v =>
      simp only [hg] at h
      cases hs : rec a v with
      | error e => simp [hs] at h
      | ok av =>
        obtain ⟨a1, v1⟩ := av
        simp only [hs] at h
        cases hw : a1.set_ref new_ptr i v1 with
        | error e => simp [hw] at h
        | ok a2 =>
          simp only [hw] at h
          obtain ⟨s1, s2, s3, s4, s5, s6, s7, _, _⟩ := hrec a v a1 v1 hs
          obtain ⟨c1, hc1, hi, ha2⟩ := a1.set_ref_ok a2 new_ptr i v1 hw
          obtain ⟨i1, i2, i3, i4, i5, i6, i7⟩ := ih a2 a3 h
          have h2h : a2.header = a1.header := by rw [ha2]; rfl
          have h2c : a2.shared_allocated_ = a1.shared_allocated_ := by rw [ha2]; rfl
          have h2s : a2.shared_ = a1.shared_ := by rw [ha2]; rfl
          have h2d : ∀ p, p ≠ new_ptr → a2.data p = a1.data p := by
            intro p hp
            rw [ha2]
            exact Function.update_noteq hp _ _
          have h2n : a2.data new_ptr = some { c1 with refs := c1.refs.set i v1 } := by
            rw [ha2]
            exact Function.update_same _ _ _
          refine ⟨?_, ?_, ?_, ?_, ?_, ?_, ?_⟩
          · rw [i1, h2h, s2]
          · omega
          · intro p hp hn
            rw [i3 p hp (fun n h1 h2 => hn n (by omega) h2), h2d p hp]
            exact s4 p (fun n h1 h2 => hn n h1 (by omega))
          · intro p hp
            rcases i4 p hp with e | e
            · rw [h2d p hp] at e
              rcases s5 p with e1 | e1
              · left; rw [e, e1]
              · right; exact closed_at_congr a1 a3 p e e1
            · right; exact e
          · intro H
            apply i5
            intro c hc j w hj hjr
            rw [h2n] at hc
            simp only [Option.some.injEq] at hc
            subst hc
            simp only [List.getElem?_set] at hj
            by_cases hij : i = j
            · subst hij
              rw [if_pos rfl, if_pos hi] at hj
              simp only [Option.some.injEq] at hj
              rw [← hj]
              exact s1
            · rw [if_neg hij] at hj
              rcases s5 new_ptr with e1 | e1
              · exact H c1 (by rw [← e1]; exact hc1) j w hj (by
                  simp only [List.mem_cons, not_or]
                  exact ⟨fun h => hij h.symm, hjr⟩)
              · exact e1 c1 hc1 w (List.getElem?_mem hj)
          · intro p hp
            apply i6
            by_cases hpn : p = new_ptr
            · rw [hpn, h2n]; simp
            · rw [h2d p hpn]; exact s6 p hp
          · omega

/-- What `share_` establishes when it returns. -/
theorem share_post_of_ok (next : Nat → Nat) (hnext : ∀ n, is_shared_ref (next n) = true) :
    ∀ (fuel : Nat) (a : allocator_t) (r : Nat) (a1 : allocator_t) (r1 : Nat),
      share_ next fuel a r = .ok (a1, r1) → share_post next a r a1 r1 := by
  intro fuel
  induction fuel with
  | zero => intro a r a1 r1 h; simp [share_] at h
  | succ fuel ih =>
    intro a r a1 r1 h
    unfold share_ at h
    by_cases h0 : r = 0
    · rw [if_pos h0] at h; simp at h
    rw [if_neg h0] at h
    by_cases hs : is_shared_ref r = true
    · rw [if_pos hs] at h
      simp only [Except.ok.injEq, Prod.mk.injEq] at h
      obtain ⟨e1, e2⟩ := h
      subst e1 e2
      refine ⟨hs, rfl, le_refl _, fun _ _ => rfl, fun _ => Or.inl rfl, fun _ h => h, le_refl _,
        fun _ => ⟨rfl, rfl⟩, fun hn => ?_⟩
      rw [hs] at hn
      exact absurd hn (by decide)
    rw [if_neg hs] at h
    cases hh : a.header r with
    | none => simp [hh] at h
    | some header =>
      cases hd : a.data r with
      | none => simp [hh, hd] at h
      | some c =>
        simp only [hh, hd] at h
        by_cases hsz : header.sz % 16 ≠ 0
        · rw [if_pos hsz] at h; simp at h
        rw [if_neg hsz] at h
        cases hw : share_walk (share_ next fuel) (a.alloc_shared next header.sz).2
            (List.range c.refs.length)
            (allocator_t.set_data { (a.alloc_shared next header.sz).1 with
              shared_ := (a.alloc_shared next header.sz).1.shared_ + 1 }
              (a.alloc_shared next header.sz).2 c) with
        | error e => simp [hw] at h
        | ok a2 =>
          simp only [hw, Except.ok.injEq, Prod.mk.injEq] at h
          obtain ⟨e1, e2⟩ := h
          subst e1
          have hnp : (a.alloc_shared next header.sz).2 = next a.shared_allocated_ := rfl
          rw [hnp] at e2 hw
          subst e2
          obtain ⟨l1, l2, l3, l4, l5, l6, l7⟩ :=
            share_walk_post next (share_ next fuel) ih (next a.shared_allocated_) _ _ _ hw
          simp only [allocator_t.alloc_shared, allocator_t.set_data] at l1 l2 l3 l4 l5 l6 l7
          have hcl : closed_at a2 (next a.shared_allocated_) := by
            apply l5
            intro c1 hc1 j v hj hjr
            rw [Function.update_same] at hc1
            simp only [Option.some.injEq] at hc1
            subst hc1
            have hlt : j < c.refs.length := by
              by_contra hge
              rw [List.getElem?_eq_none (by omega)] at hj
              simp at hj
            exact absurd (List.mem_range.mpr hlt) hjr
          refine ⟨hnext _, l1, by omega, ?_, ?_, ?_, by omega, ?_, ?_⟩
          · intro p hp
            have hpn : p ≠ next a.shared_allocated_ := hp _ (le_refl _) (by omega)
            rw [l3 p hpn (fun n h1 h2 => hp n (by omega) h2)]
            exact Function.update_noteq hpn _ _
          · intro p
            by_cases hpn : p = next a.shared_allocated_
            · right; rw [hpn]; exact hcl
            · rcases l4 p hpn with e | e
              · left; rw [e]; exact Function.update_noteq hpn _ _
              · right; exact e
          · intro p hp
            apply l6
            by_cases hpn : p = next a.shared_allocated_
            · rw [hpn, Function.update_same]; simp
            · rw [Function.update_noteq hpn]; exact hp
          · intro hs2; exact absurd hs2 hs
          · intro _
            refine ⟨hcl, ?_, by omega⟩
            apply l6
            rw [Function.update_same]
            simp

end gc

namespace gc

theorem promotable_congr (a b : allocator_t) (hh : b.header = a.header)
    (hd : ∀ p, is_shared_ref p = false → b.data p = a.data p) :
    ∀ (d r : Nat), promotable b d r = promotable a d r := by
  intro d
  induction d with
  | zero => intro r; rfl
  | succ d ih =>
    intro r
    have hfun : promotable b d = promotable a d := funext ih
    unfold promotable
    cases hs : is_shared_ref r with
    | true => rfl
    | false => rw [hh, hd r hs, hfun]

/-- The walk over the references of the copy at `next n0` returns when the
references still to be visited are promotable. -/
theorem share_walk_returns (next : Nat → Nat) (hnext : ∀ n, is_shared_ref (next n) = true)
    (hinj : Function.Injective next) (d n0 : Nat)
    (rec : allocator_t → Nat → Except park.Exn (allocator_t × Nat))
    (hrec : ∀ a v a1 v1, rec a v = .ok (a1, v1) → share_post next a v a1 v1)
    (hret : ∀ a v, promotable a d v = true → ∃ a1 v1, rec a v = .ok (a1, v1)) :
    ∀ (is : List Nat) (a : allocator_t) (c : collectable), is.Nodup →
      n0 < a.shared_allocated_ → a.data (next n0) = some c →
      (∀ i ∈ is, ∃ v, c.refs[i]? = some v ∧ promotable a d v = true) →
      ∃ a3, share_walk rec (next n0) is a = .ok a3 := by
  intro is
  induction is with
  | nil => intro a c _ _ _ _; exact ⟨a, rfl⟩
  | cons i rest ih =>
    intro a c hnd hn0 hc hall
    obtain ⟨v, hv, hpv⟩ := hall i (List.mem_cons_self _ _)
    obtain ⟨a1, v1, hs⟩ := hret a v hpv
    obtain ⟨_, s2, s3, s4, _, _, _, _, _⟩ := hrec a v a1 v1 hs
    have hsame : a1.data (next n0) = some c := by
      rw [s4 (next n0) (fun n h1 _ heq => by have := hinj heq; omega)]
      exact hc
    have hi : i < c.refs.length := by
      by_contra hge
      rw [List.getElem?_eq_none (by omega)] at hv
      simp at hv
    have hg : a.get_ref (next n0) i = .ok v := by
      simp only [allocator_t.get_ref, hc, hv]
    have hw : a1.set_ref (next n0) i v1
        = .ok (a1.set_data (next n0) { c with refs := c.refs.set i v1 }) := by
      simp only [allocator_t.set_ref, hsame, if_pos hi]
    have hnd2 := List.nodup_cons.mp hnd
    obtain ⟨a3, h3⟩ := ih (a1.set_data (next n0) { c with refs := c.refs.set i v1 })
      { c with refs := c.refs.set i v1 } hnd2.2 (by show n0 < a1.shared_allocated_; omega)
      (Function.update_same _ _ _) (by
        intro j hj
        obtain ⟨w, hw1, hw2⟩ := hall j (List.mem_cons_of_mem _ hj)
        have hij : i ≠ j := fun e => hnd2.1 (by rw [e]; exact hj)
        refine ⟨w, by simp only [List.getElem?_set, if_neg hij]; exact hw1, ?_⟩
        have key := promotable_congr a (a1.set_data (next n0) { c with refs := c.refs.set i v1 })
          s2 (fun p hp => by
            have hpn : p ≠ next n0 := fun e => by
              rw [e, hnext] at hp; exact absurd hp (by decide)
            show Function.update a1.data (next n0) _ p = a.data p
            rw [Function.update_noteq hpn]
            exact s4 p (fun n _ _ e => by rw [e, hnext] at hp; exact absurd hp (by decide))) d w
        rw [key]
        exact hw2)
    refine ⟨a3, ?_⟩
    unfold share_walk
    simp only [hg, hs, hw]
    exact h3

/-- The lambda `share_` returns on a promotable reference when the fuel exceeds
the depth of the nursery objects below it. -/
theorem share_returns (next : Nat → Nat) (hnext : ∀ n, is_shared_ref (next n) = true)
    (hinj : Function.Injective next) :
    ∀ (fuel d : Nat) (a : allocator_t) (r : Nat), promotable a d r = true → d < fuel →
      ∃ a1 r1, share_ next fuel a r = .ok (a1, r1) := by
  intro fuel
  induction fuel with
  | zero => intro d _ _ _ h; omega
  | succ fuel ih =>
    intro d a r hp hd
    unfold share_
    have h0 : r ≠ 0 := by
      cases d with
      | zero => unfold promotable at hp; simp at hp; exact hp.1
      | succ d => unfold promotable at hp; simp at hp; exact hp.1
    rw [if_neg h0]
    by_cases hs : is_shared_ref r = true
    · rw [if_pos hs]; exact ⟨a, r, rfl⟩
    rw [if_neg hs]
    cases d with
    | zero => unfold promotable at hp; simp at hp; exact absurd hp.2 hs
    | succ d =>
      unfold promotable at hp
      have hs2 : is_shared_ref r = false := by simpa using hs
      rw [hs2] at hp
      cases hh : a.header r with
      | none => simp [hh] at hp
      | some header =>
        cases hdt : a.data r with
        | none => simp [hh, hdt] at hp
        | some c =>
          simp only [hh, hdt, Bool.false_or, Bool.and_eq_true, decide_eq_true_eq,
            List.all_eq_true] at hp
          obtain ⟨_, hsz, hall⟩ := hp
          simp only [hsz]
          rw [if_neg (by simp)]
          obtain ⟨a3, h3⟩ := share_walk_returns next hnext hinj d a.shared_allocated_
            (share_ next fuel) (share_post_of_ok next hnext fuel)
            (fun a v hv => ih d a v hv (by omega)) (List.range c.refs.length)
            (allocator_t.set_data { (a.alloc_shared next header.sz).1 with
              shared_ := (a.alloc_shared next header.sz).1.shared_ + 1 }
              (a.alloc_shared next header.sz).2 c)
            c (List.nodup_range _) (by show a.shared_allocated_ < a.shared_allocated_ + 1; omega)
            (Function.update_same _ _ _) (by
              intro i hi
              have hlt := List.mem_range.mp hi
              refine ⟨c.refs[i], List.getElem?_eq_getElem hlt, ?_⟩
              have key := promotable_congr a
                (allocator_t.set_data { (a.alloc_shared next header.sz).1 with
                  shared_ := (a.alloc_shared next header.sz).1.shared_ + 1 }
                  (a.alloc_shared next header.sz).2 c) rfl (fun p hp => by
                    have hpn : p ≠ next a.shared_allocated_ := fun e => by
                      rw [e, hnext] at hp; exact absurd hp (by decide)
                    exact Function.update_noteq hpn _ _) d c.refs[i]
              rw [key]
              exact hall _ (List.getElem_mem hlt))
          refine ⟨a3, next a.shared_allocated_, ?_⟩
          have hnp : (a.alloc_shared next header.sz).2 = next a.shared_allocated_ := rfl
          rw [hnp] at h3 ⊢
          rw [h3]

/-- C9: with a shared heap that hands out shared slots and holds no pointer
into a nursery beforehand: when `allocator_t::share(r)` returns, the reference
holds a shared pointer, every reference reachable from it through `walk` is a
shared pointer, no shared-heap object holds a pointer into a nursery, and the
nursery is as it was; a reference that was shared already is unchanged and so
is the allocator, nothing being copied, while a nursery reference is set to a
copy that holds shared pointers only. The call returns when the nursery
objects below the reference are well formed and free of cycles and the shared
heap never hands out a slot twice. -/
theorem C9_share_promotes_closure (next : Nat → Nat) (fuel : Nat) (a : allocator_t) (r : Nat)
    (hnext : ∀ n, is_shared_ref (next n) = true) (hclosed : shared_closed a) :
    (∀ a1 r1, a.share next fuel r = .ok (a1, r1) →
      is_shared_ref r1 = true ∧
      (∀ x, reachable_ref a1 r1 x → is_shared_ref x = true) ∧
      shared_closed a1 ∧
      (∀ p, is_shared_ref p = false → a1.data p = a.data p ∧ a1.header p = a.header p) ∧
      (is_shared_ref r = true → r1 = r ∧ a1 = a) ∧
      (is_shared_ref r = false → closed_at a1 r1 ∧ a1.data r1 ≠ none ∧ a.shared_ < a1.shared_)) ∧
    (∀ d, Function.Injective next → promotable a d r = true → d < fuel →
      ∃ a1 r1, a.share next fuel r = .ok (a1, r1)) := by
  refine ⟨?_, fun d hinj hp hd => share_returns next hnext hinj fuel d a r hp hd⟩
  intro a1 r1 h
  obtain ⟨s1, s2, _, s4, s5, _, _, s8, s9⟩ := share_post_of_ok next hnext fuel a r a1 r1 h
  have hcl : shared_closed a1 := by
    intro p hp
    rcases s5 p with e | e
    · exact closed_at_congr a a1 p e (hclosed p hp)
    · exact e
  refine ⟨s1, ?_, hcl, ?_, s8, s9⟩
  · intro x hx
    induction hx with
    | self => exact s1
    | step x f c _ hc hf ih => exact hcl x ih c hc f hf
  · intro p hp
    refine ⟨s4 p (fun n _ _ e => ?_), by rw [s2]⟩
    rw [e, hnext] at hp
    exact absurd hp (by decide)

end gc

namespace gc

theorem is_shared_ref_eq_testBit (r : Nat) : is_shared_ref r = r.testBit 20 := by
  unfold is_shared_ref SHARED_BIT_MASK
  have h : (0x100000 : Nat) = 2 ^ 20 := by norm_num
  rw [h, Nat.and_two_pow]
  cases r.testBit 20 <;> simp

theorem example_next_shared (n : Nat) : is_shared_ref (example_next n) = true := by
  rw [is_shared_ref_eq_testBit, Nat.testBit_to_div_mod]
  unfold example_next
  simp only [decide_eq_true_eq]
  omega

theorem example_next_injective : Function.Injective example_next := by
  intro n m h
  unfold example_next at h
  omega

theorem example_allocator_closed : shared_closed example_allocator := by
  intro p _ c hc f hf
  unfold example_allocator at hc
  simp only at hc
  split_ifs at hc with h1 h2 h3
  · subst h1; exact absurd ‹is_shared_ref 16 = true› (by decide)
  · subst h2; exact absurd ‹is_shared_ref 64 = true› (by decide)
  · simp only [Option.some.injEq] at hc
    subst hc
    simp at hf

theorem C9_share_promotes_closure_witness :
    ∃ a1 r1, example_allocator.share example_next 3 16 = .ok (a1, r1) ∧
      is_shared_ref r1 = true ∧ shared_closed a1 :=
  match (C9_share_promotes_closure example_next 3 example_allocator 16 example_next_shared
      example_allocator_closed).2 2 example_next_injective (by decide) (by decide) with
  | ⟨a1, r1, e⟩ =>
    ⟨a1, r1, e,
      ((C9_share_promotes_closure example_next 3 example_allocator 16 example_next_shared
        example_allocator_closed).1 a1 r1 e).1,
      ((C9_share_promotes_closure example_next 3 example_allocator 16 example_next_shared
        example_allocator_closed).1 a1 r1 e).2.2.1⟩

end gc

namespace gc

/-! ## Nursery collection -/

theorem allocator_t.set_data_data (a : allocator_t) (p q : Nat) (c : collectable) :
    (a.set_data p c).data q = if q = p then some c else a.data q := by
  unfold allocator_t.set_data
  simp only [Function.update_apply]

theorem allocator_t.set_header_header (a : allocator_t) (p q : Nat) (h : header_t) :
    (a.set_header p h).header q = if q = p then some h else a.header q := by
  unfold allocator_t.set_header
  simp only [Function.update_apply]

theorem forwarded_mono (next : Nat → Nat) (copied ext : List Nat) (f v : Nat)
    (h : forwarded next copied f v) : forwarded next (copied ++ ext) f v := by
  rcases h with h | ⟨h1, m, h2, h3⟩
  · exact Or.inl h
  · refine Or.inr ⟨h1, m, ?_, h3⟩
    have hm : m < copied.length := by
      by_contra hge
      rw [List.getElem?_eq_none (by omega)] at h2
      simp at h2
    rw [List.getElem?_append_left hm]
    exact h2

theorem getElem?_lt_length (l : List Nat) (m p : Nat) (h : l[m]? = some p) : m < l.length := by
  by_contra hge
  rw [List.getElem?_eq_none (by omega)] at h
  simp at h

theorem nodup_index_eq (l : List Nat) (hnd : l.Nodup) (m n p : Nat) (hm : l[m]? = some p)
    (hn : l[n]? = some p) : m = n := by
  have h1 := getElem?_lt_length l m p hm
  have h2 := getElem?_lt_length l n p hn
  rw [List.getElem?_eq_getElem h1] at hm
  rw [List.getElem?_eq_getElem h2] at hn
  simp only [Option.some.injEq] at hm hn
  exact (List.Nodup.getElem_inj_iff hnd).mp (by rw [hm, hn])

theorem copied_length_le (objects copied : List Nat) (hnd : copied.Nodup)
    (hsub : ∀ p ∈ copied, p ∈ objects) : copied.length ≤ objects.toFinset.card := by
  rw [← List.toFinset_card_of_nodup hnd]
  apply Finset.card_le_card
  intro p hp
  rw [List.mem_toFinset] at hp ⊢
  exact hsub p hp

theorem nursery_reachable_of_ref (a : allocator_t) (r f p : Nat) (hr : is_shared_ref r = false)
    (hf : f ∈ refs_of a r) (h : nursery_reachable a [f] p) : nursery_reachable a [r] p := by
  induction h with
  | root x hx hs =>
    rw [List.mem_singleton] at hx
    subst hx
    exact nursery_reachable.step r x (nursery_reachable.root r (List.mem_singleton.mpr rfl) hr) hf hs
  | step x g _ hg hs ih => exact nursery_reachable.step x g ih hg hs

theorem nursery_reachable_of_root (a : allocator_t) (roots : List Nat) (r p : Nat)
    (hr : r ∈ roots) (h : nursery_reachable a [r] p) : nursery_reachable a roots p := by
  induction h with
  | root x hx hs =>
    rw [List.mem_singleton] at hx
    subst hx
    exact nursery_reachable.root x hr hs
  | step x g _ hg hs ih => exact nursery_reachable.step x g ih hg hs

end gc

namespace gc

/-- Overwriting a reference of a copy with its forwarded value keeps the
state of the collection. -/
theorem copying_set_ref (next : Nat → Nat) (a0 : allocator_t) (objects : List Nat)
    (hfresh : fresh next objects) (s : local_collection) (copied : List Nat)
    (i0 r0 i f v1 : Nat) (c : collectable) (hc : copying next a0 objects s copied)
    (h0 : copied[i0]? = some r0) (hd : s.allocator.data (next i0) = some c)
    (hf : (refs_of a0 r0)[i]? = some f) (hv : forwarded next copied f v1) :
    copying next a0 objects
      { s with allocator := s.allocator.set_data (next i0) { c with refs := c.refs.set i v1 } }
      copied := by
  obtain ⟨c1, c2, c3, c4, c5, c6, c7, c8, c9⟩ := hc
  refine ⟨c1, c2, c3, c4, c5, c6, ?_, ?_, ⟨?_, ?_⟩⟩
  rotate_left 2
  · intro p hp hpc
    have hne : p ≠ next i0 := fun e => (hfresh.2 i0).2.2 (by rw [← e]; exact hp)
    show ∃ c', (s.allocator.set_data (next i0) _).data p = some c' ∧ _
    rw [allocator_t.set_data_data, if_neg hne]
    exact c9.1 p hp hpc
  · intro m p hm
    show ∃ c', (s.allocator.set_data (next i0) _).data (next m) = some c' ∧ _
    rw [allocator_t.set_data_data]
    obtain ⟨cm, k1, k2⟩ := c9.2 m p hm
    by_cases hmi : next m = next i0
    · rw [if_pos hmi]
      rw [hmi, hd] at k1
      simp only [Option.some.injEq] at k1
      refine ⟨_, rfl, ?_⟩
      rw [← k2, ← k1]
    · rw [if_neg hmi]
      exact ⟨cm, k1, k2⟩
  · intro p hp
    have hne : p ≠ next i0 := fun e => (hfresh.2 i0).2.2 (by rw [← e]; exact hp)
    show ∃ c', (s.allocator.set_data (next i0) _).data p = some c' ∧ _
    rw [allocator_t.set_data_data, if_neg hne]
    exact c7 p hp
  · intro m p hm
    obtain ⟨p1, cm, p2, p3, p4⟩ := c8 m p hm
    by_cases hmi : m = i0
    · subst hmi
      rw [hm] at h0
      simp only [Option.some.injEq] at h0
      subst h0
      rw [hd] at p2
      simp only [Option.some.injEq] at p2
      subst p2
      refine ⟨p1, { c with refs := c.refs.set i v1 }, ?_, ?_, ?_⟩
      · show (s.allocator.set_data (next m) _).data (next m) = _
        rw [allocator_t.set_data_data, if_pos rfl]
      · simpa only [List.length_set] using p3
      · intro j f2 v hj hv2
        simp only [List.getElem?_set] at hv2
        by_cases hij : i = j
        · subst hij
          rw [if_pos rfl] at hv2
          split_ifs at hv2 with hlt
          simp only [Option.some.injEq] at hv2
          rw [hf] at hj
          simp only [Option.some.injEq] at hj
          subst hj hv2
          exact Or.inr hv
        · rw [if_neg hij] at hv2
          exact p4 j f2 v hj hv2
    · have hne : next m ≠ next i0 := fun e => hmi (hfresh.1 e)
      refine ⟨p1, cm, ?_, p3, p4⟩
      show (s.allocator.set_data (next i0) _).data (next m) = _
      rw [allocator_t.set_data_data, if_neg hne]
      exact p2

theorem complete_at_mono (next : Nat → Nat) (a0 : allocator_t) (s s1 : local_collection)
    (copied ext : List Nat) (m p : Nat)
    (hd : s1.allocator.data (next m) = s.allocator.data (next m))
    (h : complete_at next a0 s copied m p) : complete_at next a0 s1 (copied ++ ext) m p := by
  obtain ⟨c, h1, h2, h3⟩ := h
  exact ⟨c, by rw [hd]; exact h1, h2, fun j f v hj hv => forwarded_mono next copied ext f v (h3 j f v hj hv)⟩

/-- The walk over the references of the copy at `next i0`, of the object
`r0`: it returns, the references visited are forwarded, the others are as
before, and the objects copied on the way are reachable from `r0`. -/
theorem copy_walk_spec (next : Nat → Nat) (a0 : allocator_t) (objects : List Nat)
    (hwf : nursery_wf a0 objects) (hfresh : fresh next objects) (fuel : Nat)
    (rec : local_collection → Nat → Except park.Exn (local_collection × Nat))
    (hrec : ∀ s copied v, copying next a0 objects s copied → valid_ref objects v →
      objects.toFinset.card < copied.length + fuel →
      ∃ s1 copied1 v1, rec s v = .ok (s1, v1) ∧ copy_post next a0 objects s copied v s1 copied1 v1)
    (i0 r0 : Nat) :
    ∀ (is : List Nat) (s : local_collection) (copied : List Nat), is.Nodup →
      copying next a0 objects s copied → copied[i0]? = some r0 →
      objects.toFinset.card < copied.length + fuel →
      (∀ j ∈ is, ∃ f c, (refs_of a0 r0)[j]? = some f ∧ s.allocator.data (next i0) = some c ∧
        c.refs[j]? = some f) →
      ∃ s1 copied1, copy_walk rec (next i0) is s = .ok s1 ∧
        (∃ ext, copied1 = copied ++ ext) ∧ copying next a0 objects s1 copied1 ∧
        (∀ m, m < copied.length → m ≠ i0 →
          s1.allocator.data (next m) = s.allocator.data (next m)) ∧
        (∀ c, s.allocator.data (next i0) = some c →
          ∃ c1, s1.allocator.data (next i0) = some c1 ∧
            (∀ j, j ∉ is → c1.refs[j]? = c.refs[j]?) ∧
            (∀ j ∈ is, ∀ f v, (refs_of a0 r0)[j]? = some f → c1.refs[j]? = some v →
              forwarded next copied1 f v)) ∧
        (∀ m p, copied.length ≤ m → copied1[m]? = some p →
          complete_at next a0 s1 copied1 m p) ∧
        (∀ p ∈ copied1, p ∈ copied ∨ ∃ f ∈ refs_of a0 r0, nursery_reachable a0 [f] p) := by
  intro is
  induction is with
  | nil =>
    intro s copied _ hc _ _ _
    refine ⟨s, copied, rfl, ⟨[], by simp⟩, hc, fun _ _ _ => rfl, ?_, ?_, fun p hp => Or.inl hp⟩
    · intro c hd
      exact ⟨c, hd, fun _ _ => rfl, fun j hj => absurd hj (List.not_mem_nil j)⟩
    · intro m p hm hp
      have := getElem?_lt_length copied m p hp
      omega
  | cons i rest ih =>
    intro s copied hnd hc h0 hfuel hall
    obtain ⟨hi_rest, hnd_rest⟩ := List.nodup_cons.mp hnd
    obtain ⟨f, c, hf, hd, hcf⟩ := hall i (List.mem_cons_self _ _)
    have hi0 : i0 < copied.length := getElem?_lt_length copied i0 r0 h0
    have hr0 : r0 ∈ objects := hc.2.2.2.2.1 r0 (List.getElem?_mem h0)
    have hvalid : valid_ref objects f := (hwf r0 hr0).2.2.2.2 f (List.getElem?_mem hf)
    obtain ⟨s1, copied1, v1, hs1, ⟨ext1, hext1⟩, q2, q3, q4, q5, q6⟩ := hrec s copied f hc hvalid hfuel
    subst hext1
    have hd1 : s1.allocator.data (next i0) = some c := by rw [q4 i0 hi0]; exact hd
    have h01 : (copied ++ ext1)[i0]? = some r0 := by
      rw [List.getElem?_append_left hi0]; exact h0
    have hilt : i < c.refs.length := getElem?_lt_length c.refs i f hcf
    have hg : s.allocator.get_ref (next i0) i = .ok f := by
      simp only [allocator_t.get_ref, hd, hcf]
    have hw : s1.allocator.set_ref (next i0) i v1
        = .ok (s1.allocator.set_data (next i0) { c with refs := c.refs.set i v1 }) := by
      simp only [allocator_t.set_ref, hd1, if_pos hilt]
    have hc2 := copying_set_ref next a0 objects hfresh s1 (copied ++ ext1) i0 r0 i f v1 c q2 h01
      hd1 hf q3
    have hd2 : (s1.allocator.set_data (next i0) { c with refs := c.refs.set i v1 }).data (next i0)
        = some { c with refs := c.refs.set i v1 } := by
      rw [allocator_t.set_data_data, if_pos rfl]
    obtain ⟨s3, copied3, hs3, ⟨ext3, hext3⟩, r2, r3, r4, r5, r6⟩ :=
      ih { s1 with allocator := s1.allocator.set_data (next i0) { c with refs := c.refs.set i v1 } }
        (copied ++ ext1) hnd_rest hc2 h01 (by rw [List.length_append]; omega) (by
          intro j hj
          obtain ⟨fj, cj, hfj, hdj, hcj⟩ := hall j (List.mem_cons_of_mem _ hj)
          rw [hd] at hdj
          simp only [Option.some.injEq] at hdj
          subst hdj
          have hij : i ≠ j := fun e => hi_rest (by rw [e]; exact hj)
          refine ⟨fj, { c with refs := c.refs.set i v1 }, hfj, hd2, ?_⟩
          simp only [List.getElem?_set, if_neg hij]
          exact hcj)
    subst hext3
    refine ⟨s3, copied ++ ext1 ++ ext3, ?_, ⟨ext1 ++ ext3, by simp⟩, r2, ?_, ?_, ?_, ?_⟩
    · unfold copy_walk
      simp only [hg, hs1, hw]
      exact hs3
    · intro m hm hmi
      rw [r3 m (by rw [List.length_append]; omega) hmi]
      have hne : next m ≠ next i0 := fun e => hmi (hfresh.1 e)
      show (s1.allocator.set_data (next i0) _).data (next m) = _
      rw [allocator_t.set_data_data, if_neg hne]
      exact q4 m hm
    · intro c' hd'
      rw [hd] at hd'
      simp only [Option.some.injEq] at hd'
      subst hd'
      obtain ⟨c3, t1, t2, t3⟩ := r4 _ hd2
      refine ⟨c3, t1, ?_, ?_⟩
      · intro j hj
        simp only [List.mem_cons, not_or] at hj
        rw [t2 j hj.2]
        have hij : ¬ i = j := fun e => hj.1 e.symm
        simp only [List.getElem?_set, if_neg hij]
      · intro j hj f2 v hf2 hv
        rcases List.mem_cons.mp hj with e | e
        · subst e
          rw [t2 j hi_rest] at hv
          simp only [List.getElem?_set, if_pos hilt, if_true, Option.some.injEq] at hv
          rw [hf] at hf2
          simp only [Option.some.injEq] at hf2
          subst hf2 hv
          exact forwarded_mono next (copied ++ ext1) ext3 f v1 q3
        · exact t3 j e f2 v hf2 hv
    · intro m p hm hp
      by_cases hlt : m < (copied ++ ext1).length
      · have hp1 : (copied ++ ext1)[m]? = some p := by
          rw [← List.getElem?_append_left hlt]; exact hp
        have hmi : m ≠ i0 := by omega
        have hne : next m ≠ next i0 := fun e => hmi (hfresh.1 e)
        refine complete_at_mono next a0 s1 s3 (copied ++ ext1) ext3 m p ?_ (q5 m p hm hp1)
        rw [r3 m hlt hmi]
        show (s1.allocator.set_data (next i0) _).data (next m) = _
        rw [allocator_t.set_data_data, if_neg hne]
      · exact r5 m p (by omega) hp
    · intro p hp
      rcases r6 p hp with e | e
      · rcases q6 p e with e1 | e1
        · exact Or.inl e1
        · exact Or.inr ⟨f, List.getElem?_mem hf, e1⟩
      · exact Or.inr e

end gc

namespace gc

theorem copy_object_snd (next : Nat → Nat) (s : local_collection) (r k : Nat) (h : header_t)
    (c : collectable) (hk : s.new_private_heap.allocated_ = k) :
    (copy_object next s r h c).2 = next k := by
  simp only [copy_object, local_collection.alloc, hk, Int.toNat_ofNat]

theorem copy_object_header (next : Nat → Nat) (s : local_collection) (r k : Nat) (h : header_t)
    (c : collectable) (hk : s.new_private_heap.allocated_ = k) (p : Nat) :
    (copy_object next s r h c).1.allocator.header p
      = if p = next k then some ⟨h.sz, false⟩
        else if p = r then some { h with marked := true } else s.allocator.header p := by
  simp only [copy_object, local_collection.alloc, hk, Int.toNat_ofNat]
  show ((s.allocator.set_header r _).set_header (next k) _).header p = _
  rw [allocator_t.set_header_header, allocator_t.set_header_header]

theorem copy_object_data (next : Nat → Nat) (s : local_collection) (r k : Nat) (h : header_t)
    (c : collectable) (hk : s.new_private_heap.allocated_ = k) (p : Nat) :
    (copy_object next s r h c).1.allocator.data p
      = if p = r then some { c with word0 := next k }
        else if p = next k then some c else s.allocator.data p := by
  simp only [copy_object, local_collection.alloc, hk, Int.toNat_ofNat]
  rw [allocator_t.set_data_data, allocator_t.set_data_data]
  rfl

theorem copy_object_counters (next : Nat → Nat) (s : local_collection) (r : Nat) (h : header_t)
    (c : collectable) :
    (copy_object next s r h c).1.new_private_heap.allocated_
        = s.new_private_heap.allocated_ + 1 ∧
      (copy_object next s r h c).1.new_private_heap.allocated_bytes_
        = s.new_private_heap.allocated_bytes_ + h.sz ∧
      (copy_object next s r h c).1.allocator.private_heap_ = s.allocator.private_heap_ :=
  ⟨rfl, rfl, rfl⟩

end gc

namespace gc

/-- Copying an object that has not been copied yet keeps the state of the
collection, with the object added to the list of copied objects. -/
theorem copying_copy_object (next : Nat → Nat) (a0 : allocator_t) (objects : List Nat)
    (hfresh : fresh next objects) (s : local_collection) (copied : List Nat) (r : Nat)
    (h : header_t) (c : collectable) (hc : copying next a0 objects s copied)
    (hr : r ∈ objects) (hnr : r ∉ copied) (hh : s.allocator.header r = some h)
    (hd : s.allocator.data r = some c) :
    copying next a0 objects (copy_object next s r h c).1 (copied ++ [r]) ∧
      c.refs = refs_of a0 r := by
  obtain ⟨c1, c2, c3, c4, c5, c6, c7, c8, c9⟩ := hc
  obtain ⟨h1, h2, h3⟩ := copy_object_counters next s r h c
  have hsz : h = ⟨sz_of a0 r, false⟩ := by
    have := c6 r hr
    rw [hh] at this
    simp only [Option.some.injEq] at this
    rw [this]
    simp [hnr]
  obtain ⟨c', hc', hrefs, _⟩ := c7 r hr
  rw [hd] at hc'
  simp only [Option.some.injEq] at hc'
  subst hc'
  have hlast : (copied ++ [r])[copied.length]? = some r := by
    rw [List.getElem?_append_right (le_refl _)]
    simp
  have hnd : (copied ++ [r]).Nodup := by
    rw [List.nodup_append]
    refine ⟨c4, List.nodup_singleton r, ?_⟩
    intro x hx hx2
    rw [List.mem_singleton] at hx2
    exact hnr (hx2 ▸ hx)
  have hrk : r ≠ next copied.length := fun e => (hfresh.2 copied.length).2.2 (by rw [← e]; exact hr)
  have hw0 : c.word0 = word0_of a0 r := by
    obtain ⟨c0, k1, k2⟩ := c9.1 r hr hnr
    rw [hd] at k1
    simp only [Option.some.injEq] at k1
    rw [k1, k2]
  refine ⟨⟨?_, ?_, ?_, hnd, ?_, ?_, ?_, ?_, ⟨?_, ?_⟩⟩, hrefs⟩
  rotate_left 7
  · intro p hp hpc
    have hpk : p ≠ next copied.length :=
      fun e => (hfresh.2 copied.length).2.2 (by rw [← e]; exact hp)
    have hpr : p ≠ r := fun e => hpc (by rw [e]; simp)
    rw [copy_object_data next s r copied.length h c c1, if_neg hpr, if_neg hpk]
    exact c9.1 p hp (fun e => hpc (List.mem_append_left _ e))
  · intro m p hm
    have hmlt := getElem?_lt_length _ m p hm
    rw [List.length_append, List.length_singleton] at hmlt
    have hne2 : next m ≠ r := fun e => (hfresh.2 m).2.2 (by rw [e]; exact hr)
    rw [copy_object_data next s r copied.length h c c1, if_neg hne2]
    by_cases hmk : m = copied.length
    · subst hmk
      rw [hlast] at hm
      simp only [Option.some.injEq] at hm
      subst hm
      rw [if_pos rfl]
      exact ⟨c, rfl, hw0⟩
    · have hlt : m < copied.length := by omega
      rw [List.getElem?_append_left hlt] at hm
      have hne1 : next m ≠ next copied.length := fun e => hmk (hfresh.1 e)
      rw [if_neg hne1]
      exact c9.2 m p hm
  · rw [h1, c1, List.length_append, List.length_singleton]
    push_cast
    rfl
  · rw [h2, c2, List.map_append, List.sum_append, hsz]
    simp
  · rw [h3, c3]
  · intro p hp
    rcases List.mem_append.mp hp with e | e
    · exact c5 p e
    · rw [List.mem_singleton] at e
      rw [e]; exact hr
  · intro p hp
    have hpk : p ≠ next copied.length :=
      fun e => (hfresh.2 copied.length).2.2 (by rw [← e]; exact hp)
    rw [copy_object_header next s r copied.length h c c1, if_neg hpk]
    by_cases hpr : p = r
    · rw [if_pos hpr, hsz, hpr]
      simp
    · rw [if_neg hpr, c6 p hp]
      simp [hpr]
  · intro p hp
    have hpk : p ≠ next copied.length :=
      fun e => (hfresh.2 copied.length).2.2 (by rw [← e]; exact hp)
    rw [copy_object_data next s r copied.length h c c1]
    by_cases hpr : p = r
    · rw [if_pos hpr, hpr]
      refine ⟨_, rfl, hrefs, ?_⟩
      intro m hm
      rw [nodup_index_eq _ hnd m copied.length r hm hlast]
    · rw [if_neg hpr, if_neg hpk]
      obtain ⟨cp, e1, e2, e3⟩ := c7 p hp
      refine ⟨cp, e1, e2, ?_⟩
      intro m hm
      have hlt : m < copied.length := by
        have := getElem?_lt_length _ m p hm
        rw [List.length_append, List.length_singleton] at this
        by_contra hge
        have hmk : m = copied.length := by omega
        rw [hmk, hlast] at hm
        simp only [Option.some.injEq] at hm
        exact hpr hm.symm
      rw [List.getElem?_append_left hlt] at hm
      exact e3 m hm
  · intro m p hm
    have hmlt := getElem?_lt_length _ m p hm
    rw [List.length_append, List.length_singleton] at hmlt
    by_cases hmk : m = copied.length
    · subst hmk
      rw [hlast] at hm
      simp only [Option.some.injEq] at hm
      subst hm
      refine ⟨?_, c, ?_, by rw [hrefs], ?_⟩
      · rw [copy_object_header next s r copied.length h c c1, if_pos rfl, hsz]
      · rw [copy_object_data next s r copied.length h c c1, if_neg (fun e => hrk e.symm),
          if_pos rfl]
      · intro j f v hj hv
        rw [hrefs, hj] at hv
        simp only [Option.some.injEq] at hv
        exact Or.inl hv.symm
    · have hlt : m < copied.length := by omega
      rw [List.getElem?_append_left hlt] at hm
      obtain ⟨p1, cm, p2, p3, p4⟩ := c8 m p hm
      have hne1 : next m ≠ next copied.length := fun e => hmk (hfresh.1 e)
      have hne2 : next m ≠ r := fun e => (hfresh.2 m).2.2 (by rw [e]; exact hr)
      refine ⟨?_, cm, ?_, p3, ?_⟩
      · rw [copy_object_header next s r copied.length h c c1, if_neg hne1, if_neg hne2]
        exact p1
      · rw [copy_object_data next s r copied.length h c c1, if_neg hne2, if_neg hne1]
        exact p2
      · intro j f v hj hv
        rcases p4 j f v hj hv with e | e
        · exact Or.inl e
        · exact Or.inr (forwarded_mono next copied [r] f v e)

end gc

namespace gc

/-- The lambda `mark_and_copy` returns when the fuel exceeds the number of
objects not copied yet, and establishes `copy_post`. -/
theorem mark_and_copy_spec (next : Nat → Nat) (a0 : allocator_t) (objects : List Nat)
    (hwf : nursery_wf a0 objects) (hfresh : fresh next objects) :
    ∀ (fuel : Nat) (s : local_collection) (copied : List Nat) (r : Nat),
      copying next a0 objects s copied → valid_ref objects r →
      objects.toFinset.card < copied.length + fuel →
      ∃ s1 copied1 r1, mark_and_copy next fuel s r = .ok (s1, r1) ∧
        copy_post next a0 objects s copied r s1 copied1 r1 := by
  intro fuel
  induction fuel with
  | zero =>
    intro s copied r hc _ hfuel
    have := copied_length_le objects copied hc.2.2.2.1 hc.2.2.2.2.1
    omega
  | succ fuel ih =>
    intro s copied r hc hv hfuel
    have hnone : ∀ m p, copied.length ≤ m → copied[m]? = some p →
        complete_at next a0 s copied m p := by
      intro m p hm hp
      have := getElem?_lt_length copied m p hp
      omega
    unfold mark_and_copy
    rw [if_neg hv.1]
    by_cases hs : is_shared_ref r = true
    · rw [if_pos hs]
      exact ⟨s, copied, r, rfl, ⟨[], by simp⟩, hc, Or.inl ⟨hs, rfl⟩, fun _ _ => rfl, hnone,
        fun p hp => Or.inl hp⟩
    rw [if_neg hs]
    have hs2 : is_shared_ref r = false := by simpa using hs
    have hr : r ∈ objects := by
      rcases hv.2 with e | e
      · exact absurd e hs
      · exact e
    have hh := hc.2.2.2.2.2.1 r hr
    obtain ⟨c, hd, hrefs, hword⟩ := hc.2.2.2.2.2.2.1 r hr
    simp only [hh, hd]
    by_cases hm : r ∈ copied
    · obtain ⟨m, hm2⟩ := List.getElem?_of_mem hm
      simp only [hm, decide_True, if_true]
      refine ⟨s, copied, c.word0, rfl, ⟨[], by simp⟩, hc, Or.inr ⟨hs2, m, hm2, hword m hm2⟩,
        fun _ _ => rfl, hnone, fun p hp => Or.inl hp⟩
    · simp only [hm, decide_False]
      rw [if_neg (by simp)]
      have hh2 : s.allocator.header r = some ⟨sz_of a0 r, false⟩ := by
        rw [hh]; simp [hm]
      obtain ⟨hc3, _⟩ := copying_copy_object next a0 objects hfresh s copied r
        ⟨sz_of a0 r, false⟩ c hc hr hm hh2 hd
      have hk := copy_object_snd next s r copied.length ⟨sz_of a0 r, false⟩ c hc.1
      have hrk : r ≠ next copied.length :=
        fun e => (hfresh.2 copied.length).2.2 (by rw [← e]; exact hr)
      have hd3 : (copy_object next s r ⟨sz_of a0 r, false⟩ c).1.allocator.data (next copied.length)
          = some c := by
        rw [copy_object_data next s r copied.length _ c hc.1, if_neg (fun e => hrk e.symm),
          if_pos rfl]
      have hlast : (copied ++ [r])[copied.length]? = some r := by
        rw [List.getElem?_append_right (le_refl _)]
        simp
      obtain ⟨s4, copied4, hw, ⟨ext, hext⟩, w2, w3, w4, w5, w6⟩ :=
        copy_walk_spec next a0 objects hwf hfresh fuel (mark_and_copy next fuel) ih
          copied.length r (List.range c.refs.length)
          (copy_object next s r ⟨sz_of a0 r, false⟩ c).1 (copied ++ [r]) (List.nodup_range _)
          hc3 hlast (by rw [List.length_append, List.length_singleton]; omega) (by
            intro j hj
            have hlt := List.mem_range.mp hj
            refine ⟨c.refs[j], c, ?_, hd3, List.getElem?_eq_getElem hlt⟩
            rw [← hrefs]
            exact List.getElem?_eq_getElem hlt)
      subst hext
      rw [hk, hw]
      have hk4 : (copied ++ [r] ++ ext)[copied.length]? = some r := by
        rw [List.getElem?_append_left (by rw [List.length_append, List.length_singleton]; omega)]
        exact hlast
      refine ⟨s4, copied ++ [r] ++ ext, next copied.length, rfl, ⟨[r] ++ ext, by simp⟩, w2,
        Or.inr ⟨hs2, copied.length, hk4, rfl⟩, ?_, ?_, ?_⟩
      · intro m hm2
        rw [w3 m (by rw [List.length_append, List.length_singleton]; omega) (by omega),
          copy_object_data next s r copied.length _ c hc.1,
          if_neg (fun e => (hfresh.2 m).2.2 (by rw [e]; exact hr)),
          if_neg (fun e => by have := hfresh.1 e; omega)]
      · intro m p hm2 hp
        by_cases hmk : m = copied.length
        · subst hmk
          rw [hk4] at hp
          simp only [Option.some.injEq] at hp
          subst hp
          obtain ⟨c4, t1, t2, t3⟩ := w4 c hd3
          obtain ⟨_, c4', u1, u2, _⟩ := w2.2.2.2.2.2.2.2.1 copied.length r hk4
          rw [t1] at u1
          simp only [Option.some.injEq] at u1
          subst u1
          refine ⟨c4, t1, u2, ?_⟩
          intro j f v hj hv
          have hjl := getElem?_lt_length _ j f hj
          rw [← hrefs] at hjl
          exact t3 j (List.mem_range.mpr hjl) f v hj hv
        · exact w5 m p (by rw [List.length_append, List.length_singleton]; omega) hp
      · intro p hp
        rcases w6 p hp with e | ⟨f, hf, e⟩
        · rcases List.mem_append.mp e with e1 | e1
          · exact Or.inl e1
          · rw [List.mem_singleton] at e1
            rw [e1]
            exact Or.inr (nursery_reachable.root r (List.mem_singleton.mpr rfl) hs2)
        · exact Or.inr (nursery_reachable_of_ref a0 r f p hs2 hf e)

end gc

namespace gc

/-- The visit of the roots: it returns, the roots are forwarded, all copies
are complete and the objects copied are reachable from the roots. -/
theorem for_each_root_spec (next : Nat → Nat) (a0 : allocator_t) (objects : List Nat)
    (hwf : nursery_wf a0 objects) (hfresh : fresh next objects) (fuel : Nat)
    (all_roots : List Nat) :
    ∀ (roots : List Nat) (s : local_collection) (copied : List Nat),
      copying next a0 objects s copied → (∀ r ∈ roots, valid_ref objects r) →
      (∀ r ∈ roots, r ∈ all_roots) →
      objects.toFinset.card < copied.length + fuel →
      (∀ m p, copied[m]? = some p → complete_at next a0 s copied m p) →
      (∀ p ∈ copied, nursery_reachable a0 all_roots p) →
      ∃ s1 copied1 roots1, for_each_root (mark_and_copy next fuel) roots s = .ok (s1, roots1) ∧
        copying next a0 objects s1 copied1 ∧
        (∀ m p, copied1[m]? = some p → complete_at next a0 s1 copied1 m p) ∧
        (∀ p ∈ copied1, nursery_reachable a0 all_roots p) ∧
        roots1.length = roots.length ∧
        (∀ (j r v : Nat), roots[j]? = some r → roots1[j]? = some v →
          forwarded next copied1 r v) ∧
        ∃ ext, copied1 = copied ++ ext := by
  intro roots
  induction roots with
  | nil =>
    intro s copied hc _ _ _ hcomp hreach
    exact ⟨s, copied, [], rfl, hc, hcomp, hreach, rfl, fun j r v hj => by simp at hj, [], by simp⟩
  | cons r rest ih =>
    intro s copied hc hvalid hsub hfuel hcomp hreach
    obtain ⟨s1, copied1, r1, h1, ⟨ext1, hext1⟩, q2, q3, q4, q5, q6⟩ :=
      mark_and_copy_spec next a0 objects hwf hfresh fuel s copied r hc
        (hvalid r (List.mem_cons_self _ _)) hfuel
    subst hext1
    obtain ⟨s2, copied2, rs, h2, w2, w3, w4, w5, w6, ext2, hext2⟩ :=
      ih s1 (copied ++ ext1) q2 (fun x hx => hvalid x (List.mem_cons_of_mem _ hx))
        (fun x hx => hsub x (List.mem_cons_of_mem _ hx))
        (by rw [List.length_append]; omega)
        (by
          intro m p hp
          by_cases hlt : m < copied.length
          · have hp0 : copied[m]? = some p := by
              rw [← List.getElem?_append_left hlt]; exact hp
            exact complete_at_mono next a0 s s1 copied ext1 m p (q4 m hlt) (hcomp m p hp0)
          · exact q5 m p (by omega) hp)
        (by
          intro p hp
          rcases q6 p hp with e | e
          · exact hreach p e
          · exact nursery_reachable_of_root a0 all_roots r p (hsub r (List.mem_cons_self _ _)) e)
    subst hext2
    refine ⟨s2, copied ++ ext1 ++ ext2, r1 :: rs, ?_, w2, w3, w4, by simp [w5], ?_,
      ext1 ++ ext2, by simp⟩
    · unfold for_each_root
      simp only [h1, h2]
    · intro j x v hj hv
      cases j with
      | zero =>
        simp only [List.getElem?_cons_zero, Option.some.injEq] at hj hv
        subst hj hv
        exact forwarded_mono next (copied ++ ext1) ext2 r r1 q3
      | succ j =>
        simp only [List.getElem?_cons_succ] at hj hv
        exact w6 j x v hj hv

/-- A nursery collection returns when the fuel exceeds the number of nursery
objects, and leaves what `collected` says. -/
theorem collect_spec (next : Nat → Nat) (a0 : allocator_t) (objects roots : List Nat)
    (fuel : Nat) (hwf : nursery_wf a0 objects) (hfresh : fresh next objects)
    (hroots : ∀ r ∈ roots, valid_ref objects r) (hfuel : objects.toFinset.card < fuel) :
    ∃ a1 roots1 copied, a0.collect_local_to_local next fuel roots = .ok (a1, roots1) ∧
      collected next a0 roots a1 roots1 copied ∧ ∀ p ∈ copied, p ∈ objects := by
  have hc0 : copying next a0 objects ⟨a0, ⟨0, 0, 0, 0⟩⟩ [] := by
    refine ⟨rfl, rfl, rfl, List.nodup_nil, fun p hp => absurd hp (List.not_mem_nil p), ?_, ?_,
      fun m p hp => by simp at hp, ⟨?_, fun m p hp => by simp at hp⟩⟩
    rotate_left 2
    · intro p hp _
      have hne := (hwf p hp).2.2.2.1
      cases hd : a0.data p with
      | none => exact absurd hd hne
      | some c =>
        refine ⟨c, rfl, ?_⟩
        unfold word0_of
        rw [hd]
    · intro p hp
      rw [(hwf p hp).2.2.1]
      simp
    · intro p hp
      have hne := (hwf p hp).2.2.2.1
      cases hd : a0.data p with
      | none => exact absurd hd hne
      | some c =>
        refine ⟨c, rfl, ?_, fun m hm => by simp at hm⟩
        unfold refs_of
        rw [hd]
  obtain ⟨s1, copied, roots1, h1, w2, w3, w4, w5, w6, _⟩ :=
    for_each_root_spec next a0 objects hwf hfresh fuel roots roots ⟨a0, ⟨0, 0, 0, 0⟩⟩ [] hc0
      hroots (fun r hr => hr) (by simpa using hfuel) (fun m p hp => by simp at hp)
      (fun p hp => absurd hp (List.not_mem_nil p))
  obtain ⟨c1, c2, c3, c4, c5, c6, c7, c8, c9⟩ := w2
  have hcol : ∃ a1, a0.collect_local_to_local next fuel roots = .ok (a1, roots1) ∧
      a1.live_bytes = s1.new_private_heap.allocated_bytes_ ∧
      a1.live_objects = s1.new_private_heap.allocated_ ∧
      a1.header = s1.allocator.header ∧ a1.data = s1.allocator.data := by
    unfold allocator_t.collect_local_to_local
    simp only [h1]
    refine ⟨_, rfl, ?_, ?_, rfl, rfl⟩
    · unfold allocator_t.live_bytes
      simp only [c3]
      omega
    · unfold allocator_t.live_objects
      simp only [c3]
      omega
  obtain ⟨a1, e1, e2, e3, e4, e5⟩ := hcol
  refine ⟨a1, roots1, copied, e1, ⟨c4, ?_, by rw [e2, c2], by rw [e3, c1], w5, w6, ?_,
    fun m p hp => by rw [e5]; exact c9.2 m p hp⟩, c5⟩
  · intro p
    refine ⟨w4 p, fun hp => ?_⟩
    induction hp with
    | root r hr hs =>
      obtain ⟨j, hj⟩ := List.getElem?_of_mem hr
      have hjl := getElem?_lt_length roots j r hj
      rw [← w5] at hjl
      rcases w6 j r roots1[j] hj (List.getElem?_eq_getElem hjl) with e | ⟨_, m, e, _⟩
      · rw [e.1] at hs; exact absurd hs (by decide)
      · exact List.getElem?_mem e
    | step x f _ hf hs ih =>
      obtain ⟨m, hm⟩ := List.getElem?_of_mem ih
      obtain ⟨c, _, t2, t3⟩ := w3 m x hm
      obtain ⟨j, hj⟩ := List.getElem?_of_mem hf
      have hjl := getElem?_lt_length _ j f hj
      rw [← t2] at hjl
      rcases t3 j f c.refs[j] hj (List.getElem?_eq_getElem hjl) with e | ⟨_, m2, e, _⟩
      · rw [e.1] at hs; exact absurd hs (by decide)
      · exact List.getElem?_mem e
  · intro m p hp
    obtain ⟨p1, _⟩ := c8 m p hp
    rw [e4, e5]
    exact ⟨p1, w3 m p hp⟩

end gc

namespace gc

/-- The copy of an object reachable before the collection is reachable after
it, from the forwarded roots. -/
theorem reachable_forward (next : Nat → Nat) (a0 a1 : allocator_t) (roots roots1 copied : List Nat)
    (hnext : ∀ n, is_shared_ref (next n) = false)
    (hcol : collected next a0 roots a1 roots1 copied) (p : Nat)
    (hp : nursery_reachable a0 roots p) :
    ∃ m, copied[m]? = some p ∧ nursery_reachable a1 roots1 (next m) := by
  obtain ⟨_, _, _, _, k5, k6, k7, _⟩ := hcol
  induction hp with
  | root r hr hs =>
    obtain ⟨j, hj⟩ := List.getElem?_of_mem hr
    have hjl := getElem?_lt_length roots j r hj
    rw [← k5] at hjl
    rcases k6 j r roots1[j] hj (List.getElem?_eq_getElem hjl) with e | ⟨_, m, e1, e2⟩
    · rw [e.1] at hs; exact absurd hs (by decide)
    · refine ⟨m, e1, nursery_reachable.root _ ?_ (hnext m)⟩
      rw [← e2]
      exact List.getElem_mem hjl
  | step x f _ hf hs ih =>
    obtain ⟨mx, hmx, hrx⟩ := ih
    obtain ⟨_, c, t1, t2, t3⟩ := k7 mx x hmx
    obtain ⟨j, hj⟩ := List.getElem?_of_mem hf
    have hjl := getElem?_lt_length _ j f hj
    rw [← t2] at hjl
    rcases t3 j f c.refs[j] hj (List.getElem?_eq_getElem hjl) with e | ⟨_, m, e1, e2⟩
    · rw [e.1] at hs; exact absurd hs (by decide)
    · refine ⟨m, e1, nursery_reachable.step (next mx) (next m) hrx ?_ (hnext m)⟩
      unfold refs_of
      rw [t1, ← e2]
      exact List.getElem_mem hjl

/-- The copies a collection leaves are well-formed nursery objects. -/
theorem collected_wf (next : Nat → Nat) (a0 a1 : allocator_t)
    (objects roots roots1 copied : List Nat) (hwf : nursery_wf a0 objects)
    (hfresh : fresh next objects) (hroots : ∀ r ∈ roots, valid_ref objects r)
    (hsub : ∀ p ∈ copied, p ∈ objects) (hcol : collected next a0 roots a1 roots1 copied) :
    nursery_wf a1 ((List.range copied.length).map next) ∧
      ∀ v ∈ roots1, valid_ref ((List.range copied.length).map next) v := by
  obtain ⟨_, _, _, _, k5, k6, k7, _⟩ := hcol
  have hfw : ∀ f v, valid_ref objects f → forwarded next copied f v →
      valid_ref ((List.range copied.length).map next) v := by
    intro f v hf hfv
    rcases hfv with ⟨e1, e2⟩ | ⟨_, m, e1, e2⟩
    · rw [e2]; exact ⟨hf.1, Or.inl e1⟩
    · rw [e2]
      refine ⟨(hfresh.2 m).1, Or.inr ?_⟩
      exact List.mem_map.mpr ⟨m, List.mem_range.mpr (getElem?_lt_length copied m f e1), rfl⟩
  constructor
  · intro q hq
    obtain ⟨m, hm, rfl⟩ := List.mem_map.mp hq
    have hm2 := List.mem_range.mp hm
    obtain ⟨t0, c, t1, t2, t3⟩ := k7 m copied[m] (List.getElem?_eq_getElem hm2)
    have hobj : copied[m] ∈ objects := hsub _ (List.getElem_mem hm2)
    refine ⟨(hfresh.2 m).1, (hfresh.2 m).2.1, ?_, by rw [t1]; simp, ?_⟩
    · rw [t0]
      unfold sz_of
      rw [t0]
      rfl
    · intro f hf
      unfold refs_of at hf
      rw [t1] at hf
      obtain ⟨j, hj⟩ := List.getElem?_of_mem hf
      have hjl := getElem?_lt_length _ j f hj
      rw [t2] at hjl
      exact hfw _ f ((hwf _ hobj).2.2.2.2 _ (List.getElem_mem hjl))
        (t3 j _ f (List.getElem?_eq_getElem hjl) hj)
  · intro v hv
    obtain ⟨j, hj⟩ := List.getElem?_of_mem hv
    have hjl := getElem?_lt_length _ j v hj
    rw [k5] at hjl
    exact hfw _ v (hroots _ (List.getElem_mem hjl)) (k6 j _ v (List.getElem?_eq_getElem hjl) hj)

/-- A second nursery collection, right after the first, with the roots the
first one left, yields the same live counts. -/
theorem collect_again (next next2 : Nat → Nat) (a0 a1 : allocator_t)
    (objects roots roots1 copied : List Nat) (fuel2 : Nat) (hwf : nursery_wf a0 objects)
    (hfresh : fresh next objects) (hroots : ∀ r ∈ roots, valid_ref objects r)
    (hsub : ∀ p ∈ copied, p ∈ objects) (hcol : collected next a0 roots a1 roots1 copied)
    (hfresh2 : fresh next2 ((List.range copied.length).map next)) (hfuel2 : copied.length < fuel2) :
    ∃ a2 roots2, a1.collect_local_to_local next2 fuel2 roots1 = .ok (a2, roots2) ∧
      a2.live_bytes = a1.live_bytes ∧ a2.live_objects = a1.live_objects := by
  obtain ⟨hwf2, hroots2⟩ := collected_wf next a0 a1 objects roots roots1 copied hwf hfresh hroots
    hsub hcol
  have hcard : ((List.range copied.length).map next).toFinset.card < fuel2 := by
    have := List.toFinset_card_le ((List.range copied.length).map next)
    rw [List.length_map, List.length_range] at this
    omega
  obtain ⟨a2, roots2, copied2, h2, hcol2, hsub2⟩ :=
    collect_spec next2 a1 ((List.range copied.length).map next) roots1 fuel2 hwf2 hfresh2 hroots2
      hcard
  have hnd : ((List.range copied.length).map next).Nodup :=
    List.Nodup.map hfresh.1 (List.nodup_range _)
  have hcol' := hcol
  obtain ⟨k1, k2, k3, k4, _, _, k7, _⟩ := hcol'
  obtain ⟨l1, l2, l3, l4, _, _, _⟩ := hcol2
  have hperm : List.Perm copied2 ((List.range copied.length).map next) := by
    rw [List.perm_ext_iff_of_nodup l1 hnd]
    intro q
    refine ⟨hsub2 q, fun hq => ?_⟩
    obtain ⟨m, hm, rfl⟩ := List.mem_map.mp hq
    have hm2 := List.mem_range.mp hm
    have hreach := (k2 copied[m]).mp (List.getElem_mem hm2)
    obtain ⟨m', e1, e2⟩ := reachable_forward next a0 a1 roots roots1 copied
      (fun n => (hfresh.2 n).2.1) hcol _ hreach
    have := nodup_index_eq copied k1 m' m _ e1 (List.getElem?_eq_getElem hm2)
    subst this
    exact (l2 _).mpr e2
  have hsz : ((List.range copied.length).map next).map (sz_of a1) = copied.map (sz_of a0) := by
    apply List.ext_getElem
    · simp
    · intro i h1 h2
      simp only [List.getElem_map, List.getElem_range]
      have hi : i < copied.length := by simpa using h2
      obtain ⟨t0, _⟩ := k7 i copied[i] (List.getElem?_eq_getElem hi)
      unfold sz_of
      rw [t0]
      rfl
  refine ⟨a2, roots2, h2, ?_, ?_⟩
  · rw [l3, k3, (hperm.map (sz_of a1)).sum_eq, hsz]
  · rw [l4, k4, hperm.length_eq, List.length_map, List.length_range]

/-- C10: a nursery collection with the roots `roots`, of a nursery of
well-formed unmarked objects, with more fuel than there are objects and a new
private heap that yields fresh local addresses: it returns; the objects it
copied are the nursery objects reachable from the roots, each once; the
live-byte count afterwards (`allocated_bytes_` minus `freed_bytes_` of the
private heap) is the sum of their sizes and the live-object count is their
number. A second collection right after it, with the roots the first one
left, returns and yields the same live-byte count and the same live-object
count. -/
theorem C10_nursery_collection_live_bytes (next : Nat → Nat) (a : allocator_t)
    (objects roots : List Nat) (fuel : Nat) (hwf : nursery_wf a objects)
    (hfresh : fresh next objects) (hroots : ∀ r ∈ roots, valid_ref objects r)
    (hfuel : objects.toFinset.card < fuel) :
    ∃ (a1 : allocator_t) (roots1 copied : List Nat),
      a.collect_local_to_local next fuel roots = .ok (a1, roots1) ∧
      copied.Nodup ∧ (∀ p, p ∈ copied ↔ nursery_reachable a roots p) ∧
      a1.live_bytes = ((copied.map (sz_of a)).sum : Nat) ∧
      a1.live_objects = (copied.length : Nat) ∧
      ∀ (next2 : Nat → Nat) (fuel2 : Nat),
        fresh next2 ((List.range copied.length).map next) → copied.length < fuel2 →
        ∃ (a2 : allocator_t) (roots2 : List Nat),
          a1.collect_local_to_local next2 fuel2 roots1 = .ok (a2, roots2) ∧
          a2.live_bytes = a1.live_bytes ∧ a2.live_objects = a1.live_objects := by
  obtain ⟨a1, roots1, copied, h1, hcol, hsub⟩ :=
    collect_spec next a objects roots fuel hwf hfresh hroots hfuel
  have hcol' := hcol
  obtain ⟨k1, k2, k3, k4, _⟩ := hcol'
  exact ⟨a1, roots1, copied, h1, k1, k2, k3, k4,
    fun next2 fuel2 hf2 hfuel2 =>
      collect_again next next2 a a1 objects roots roots1 copied fuel2 hwf hfresh hroots hsub hcol
        hf2 hfuel2⟩

end gc

namespace gc

/-- With a shared heap that holds no pointer into a nursery, the nursery
objects reachable through nursery objects are the nursery objects reachable
through `walk` at all. -/
theorem nursery_reachable_iff (a : allocator_t) (roots : List Nat) (p : Nat)
    (hclosed : shared_closed a) :
    nursery_reachable a roots p ↔
      (is_shared_ref p = false ∧ ∃ r ∈ roots, reachable_ref a r p) := by
  constructor
  · intro h
    induction h with
    | root r hr hs => exact ⟨hs, r, hr, reachable_ref.self⟩
    | step x f _ hf hs ih =>
      obtain ⟨_, r, hr, hx⟩ := ih
      unfold refs_of at hf
      cases hd : a.data x with
      | none => rw [hd] at hf; simp at hf
      | some c =>
        rw [hd] at hf
        exact ⟨hs, r, hr, reachable_ref.step x f c hx hd hf⟩
  · rintro ⟨hs, r, hr, h⟩
    induction h with
    | self => exact nursery_reachable.root r hr hs
    | step x f c _ hd hf ih =>
      have hx : is_shared_ref x = false := by
        cases hsx : is_shared_ref x with
        | false => rfl
        | true =>
          rw [hclosed x hsx c hd f hf] at hs
          exact absurd hs (by decide)
      refine nursery_reachable.step x f (ih hx) ?_ hs
      unfold refs_of
      rw [hd]
      exact hf

theorem example_private_next_fresh : fresh example_private_next [16, 64] := by
  refine ⟨fun n m h => ?_, fun n => ⟨?_, ?_, ?_⟩⟩
  · unfold example_private_next at h
    omega
  · unfold example_private_next
    omega
  · rw [is_shared_ref_eq_testBit, Nat.testBit_to_div_mod]
    unfold example_private_next
    simp only [decide_eq_false_iff_not]
    omega
  · unfold example_private_next
    simp only [List.mem_cons, List.mem_singleton, List.not_mem_nil, or_false, not_or]
    omega

theorem example_allocator_wf : nursery_wf example_allocator [16, 64] := by
  intro p hp
  simp only [List.mem_cons, List.mem_singleton, List.not_mem_nil, or_false] at hp
  rcases hp with rfl | rfl
  · refine ⟨by decide, by decide, by decide, by decide, ?_⟩
    intro f hf
    have hf2 : f = 64 ∨ f = 0x100010 := by
      simpa [refs_of, example_allocator] using hf
    rcases hf2 with rfl | rfl
    · exact ⟨by decide, Or.inr (by decide)⟩
    · exact ⟨by decide, Or.inl (by decide)⟩
  · refine ⟨by decide, by decide, by decide, by decide, ?_⟩
    intro f hf
    simp [refs_of, example_allocator] at hf

theorem example_roots_valid : ∀ r ∈ [16, 64, 16], valid_ref [16, 64] r := by
  intro r hr
  simp only [List.mem_cons, List.mem_singleton, List.not_mem_nil, or_false] at hr
  rcases hr with rfl | rfl | rfl
  · exact ⟨by decide, Or.inr (by decide)⟩
  · exact ⟨by decide, Or.inr (by decide)⟩
  · exact ⟨by decide, Or.inr (by decide)⟩

theorem C10_nursery_collection_live_bytes_witness :
    ∃ (a1 : allocator_t) (roots1 copied : List Nat),
      example_allocator.collect_local_to_local example_private_next 3 [16, 64, 16]
        = .ok (a1, roots1) ∧
      copied.Nodup ∧ (∀ p, p ∈ copied ↔ nursery_reachable example_allocator [16, 64, 16] p) ∧
      a1.live_bytes = ((copied.map (sz_of example_allocator)).sum : Nat) ∧
      a1.live_objects = (copied.length : Nat) :=
  match C10_nursery_collection_live_bytes example_private_next example_allocator [16, 64]
      [16, 64, 16] 3 example_allocator_wf example_private_next_fresh example_roots_valid
      (by decide) with
  | ⟨a1, roots1, copied, h1, h2, h3, h4, h5, _⟩ => ⟨a1, roots1, copied, h1, h2, h3, h4, h5⟩

end gc

namespace park

/-! ## Growth of the value stack -/

/-- The doubling loop started at `c` ends, with enough fuel, at `c * 2^j` for
the least `j` at which the capacity suffices or exceeds `MAX_CAP`. -/
theorem Stack.grow_loop_spec (need : Nat) :
    ∀ (fuel c : Nat), 0 < c → Stack.MAX_CAP < c * 2 ^ fuel →
      ∃ j, Stack.grow_loop (fuel + 1) c need = some (c * 2 ^ j) ∧
        (need ≤ c * 2 ^ j ∨ Stack.MAX_CAP < c * 2 ^ j) ∧
        ∀ i, i < j → c * 2 ^ i < need ∧ c * 2 ^ i ≤ Stack.MAX_CAP := by
  intro fuel
  induction fuel with
  | zero =>
    intro c hc hf
    simp only [pow_zero, Nat.mul_one] at hf
    refine ⟨0, ?_, Or.inr (by simpa using hf), fun i hi => by omega⟩
    unfold Stack.grow_loop
    rw [if_neg (by omega)]
    simp
  | succ fuel ih =>
    intro c hc hf
    unfold Stack.grow_loop
    by_cases hcond : c < need ∧ c ≤ Stack.MAX_CAP
    · rw [if_pos hcond]
      obtain ⟨j, h1, h2, h3⟩ := ih (c * 2) (by omega) (by rw [Nat.mul_assoc, ← Nat.pow_succ']; exact hf)
      refine ⟨j + 1, ?_, ?_, ?_⟩
      · rw [h1, Nat.pow_succ', Nat.mul_assoc]
      · rw [Nat.pow_succ', ← Nat.mul_assoc]; exact h2
      · intro i hi
        cases i with
        | zero => simpa using hcond
        | succ i =>
          have := h3 i (by omega)
          rw [Nat.pow_succ', ← Nat.mul_assoc]
          exact this
    · rw [if_neg hcond]
      refine ⟨0, by simp, ?_, fun i hi => by omega⟩
      simp only [pow_zero, Nat.mul_one]
      omega

end park

namespace park

theorem Stack.wf_capacity (s : Stack) (hw : s.wf) :
    ∃ k, k ≤ 7 ∧ (if s.chunk_ then s.capacity else Stack.INIT_CAP) = 32 * 2 ^ k := by
  obtain ⟨_, h2⟩ := hw
  cases hk : s.chunk_ with
  | false => exact ⟨0, by omega, by simp [Stack.INIT_CAP]⟩
  | true =>
    simp only [hk, if_true, List.mem_cons, List.mem_singleton, List.not_mem_nil, or_false] at h2 ⊢
    rcases h2 with h | h | h | h | h | h | h | h
    · exact ⟨0, by omega, by rw [h]; rfl⟩
    · exact ⟨1, by omega, by rw [h]; rfl⟩
    · exact ⟨2, by omega, by rw [h]; rfl⟩
    · exact ⟨3, by omega, by rw [h]; rfl⟩
    · exact ⟨4, by omega, by rw [h]; rfl⟩
    · exact ⟨5, by omega, by rw [h]; rfl⟩
    · exact ⟨6, by omega, by rw [h]; rfl⟩
    · exact ⟨7, by omega, by rw [h]; rfl⟩

theorem Stack.capacity_mem (m : Nat) (hm : m ≤ 7) :
    32 * 2 ^ m ∈ [32, 64, 128, 256, 512, 1024, 2048, 4096] := by
  interval_cases m <;> simp

/-- C14: for a stack of `s` slots whose capacity is one that
`ensure_capacity` produces, and `n >= 1` with `s + n` below `2^64`, as it is
in every call the code makes (`push_back` asks for 1 slot, `init_locals` for
the locals of a function, and `s` is at most 4096): `ensure_capacity(n)`
succeeds exactly
when `s + n <= 4096`; on success the capacity is `c0 * 2^j` for the least `j`
with `c0 * 2^j >= s + n`, `c0` being 32 without a chunk and the capacity
otherwise, it is `32 * 2^k` and at most 4096, and the slots are unchanged; on
failure `bad_alloc` is raised, the stack being left as it was. -/
theorem C14_ensure_capacity_bound (s : Stack) (n : Nat) (hw : s.wf) (hn : 1 ≤ n)
    (hsum : s.size + n < 2 ^ 64) :
    (s.size + n ≤ Stack.MAX_CAP →
      ∃ j s1, s.ensure_capacity n = .ok s1 ∧
        s1.capacity = (if s.chunk_ then s.capacity else Stack.INIT_CAP) * 2 ^ j ∧
        s.size + n ≤ s1.capacity ∧
        (∀ i, i < j → (if s.chunk_ then s.capacity else Stack.INIT_CAP) * 2 ^ i < s.size + n) ∧
        s1.slots = s.slots ∧ s1.size = s.size ∧ s1.chunk_ = true ∧ s1.wf ∧
        (∃ k, s1.capacity = 32 * 2 ^ k) ∧ s1.capacity ≤ Stack.MAX_CAP) ∧
    (Stack.MAX_CAP < s.size + n → s.ensure_capacity n = .error .bad_alloc) ∧
    ((∃ s1, s.ensure_capacity n = .ok s1) ↔ s.size + n ≤ Stack.MAX_CAP) := by
  obtain ⟨k, hk7, hc0⟩ := Stack.wf_capacity s hw
  have hpos : 0 < 32 * 2 ^ k := by positivity
  have hfuel : Stack.MAX_CAP < 32 * 2 ^ k * 2 ^ 63 := by
    have h1 : 1 ≤ 2 ^ k := Nat.one_le_two_pow
    have : 32 * 1 * 2 ^ 63 ≤ 32 * 2 ^ k * 2 ^ 63 :=
      Nat.mul_le_mul_right _ (Nat.mul_le_mul_left _ h1)
    unfold Stack.MAX_CAP
    omega
  obtain ⟨j, g1, g2, g3⟩ := Stack.grow_loop_spec (s.size + n) 63 (32 * 2 ^ k) hpos hfuel
  have heq := Stack.ensure_capacity_eq s n hsum
  rw [hc0, g1] at heq
  simp only [] at heq
  have hkj : 32 * 2 ^ k * 2 ^ j = 32 * 2 ^ (k + j) := by rw [Nat.pow_add, Nat.mul_assoc]
  have hsucc : s.size + n ≤ Stack.MAX_CAP → k + j ≤ 7 := by
    intro hle
    by_contra hgt
    have hj : 0 < j := by omega
    obtain ⟨h1, _⟩ := g3 (j - 1) (by omega)
    have h2 : 32 * 2 ^ k * 2 ^ (j - 1) = 32 * 2 ^ (k + (j - 1)) := by
      rw [Nat.pow_add, Nat.mul_assoc]
    rw [h2] at h1
    have h3 : 2 ^ 7 ≤ 2 ^ (k + (j - 1)) := Nat.pow_le_pow_right (by omega) (by omega)
    unfold Stack.MAX_CAP at hle
    omega
  have hfail : Stack.MAX_CAP < s.size + n → Stack.MAX_CAP < 32 * 2 ^ k * 2 ^ j := by
    intro hgt
    rcases g2 with h | h
    · omega
    · exact h
  refine ⟨?_, ?_, ?_⟩
  · intro hle
    have hm := hsucc hle
    have hcap : 32 * 2 ^ k * 2 ^ j ≤ Stack.MAX_CAP := by
      rw [hkj]
      have : 2 ^ (k + j) ≤ 2 ^ 7 := Nat.pow_le_pow_right (by omega) hm
      unfold Stack.MAX_CAP
      omega
    have hneed : s.size + n ≤ 32 * 2 ^ k * 2 ^ j := by
      rcases g2 with h | h
      · exact h
      · omega
    rw [if_neg (by omega)] at heq
    refine ⟨j, _, heq, by rw [hc0], hneed, ?_, rfl, rfl, rfl, ?_, ⟨k + j, hkj⟩, hcap⟩
    · intro i hi
      rw [hc0]
      exact (g3 i hi).1
    · refine ⟨?_, ?_⟩
      · show s.slots.length ≤ 32 * 2 ^ k * 2 ^ j
        unfold Stack.size at hneed
        omega
      · simp only [if_true]
        rw [hkj]
        exact Stack.capacity_mem (k + j) hm
  · intro hgt
    rw [heq, if_pos (hfail hgt)]
  · constructor
    · rintro ⟨s1, h1⟩
      by_contra hgt
      rw [heq, if_pos (hfail (by omega))] at h1
      simp at h1
    · intro hle
      have hm := hsucc hle
      have hcap : 32 * 2 ^ k * 2 ^ j ≤ Stack.MAX_CAP := by
        rw [hkj]
        have : 2 ^ (k + j) ≤ 2 ^ 7 := Nat.pow_le_pow_right (by omega) hm
        unfold Stack.MAX_CAP
        omega
      rw [if_neg (by omega)] at heq
      exact ⟨_, heq⟩

/-- The sum `current_size + n` of `ensure_capacity` is one of `size_t` values:
for the `n` no caller passes, `2^64 - 1` on a stack of one slot, it wraps
around to 0 and the call returns with the capacity of 32 it found. -/
theorem Stack.ensure_capacity_wraps :
    (Stack.mk [value_t.UVALUE] 32 true).ensure_capacity (2 ^ 64 - 1)
        = .ok (Stack.mk [value_t.UVALUE] 32 true) ∧
      ¬ ((Stack.mk [value_t.UVALUE] 32 true).size + (2 ^ 64 - 1) ≤ Stack.MAX_CAP) ∧
      1 ≤ 2 ^ 64 - 1 ∧ (Stack.mk [value_t.UVALUE] 32 true).wf := by
  refine ⟨?_, by decide, by decide, by decide⟩
  unfold Stack.ensure_capacity
  simp [Stack.size, Stack.grow_loop, Stack.INIT_CAP, Stack.MAX_CAP]

theorem C14_ensure_capacity_bound_witness :
    (∃ s1, (Stack.mk [value_t.UVALUE] 32 true).ensure_capacity 40 = .ok s1) ↔
      (Stack.mk [value_t.UVALUE] 32 true).size + 40 ≤ Stack.MAX_CAP :=
  (C14_ensure_capacity_bound (Stack.mk [value_t.UVALUE] 32 true) 40 (by decide) (by decide)
    (by decide)).2.2

end park

namespace park

/-! ## Booleans as indices -/

/-- C19, counterexample: the conversion of a slot holding the boxed Boolean
`true` to an integer index raises the not-implemented error of
`ValueImpl::to_index`. -/
theorem C19_boxed_boolean_counterexample :
    value.cast_int64 (fun _ => 0) (value_t.RVALUE (Value.Boolean true))
      = .error (Exn.not_implemented "to_index") := rfl

/-- C19, amended: the conversion of an unboxed `BOOL` slot to an integer
index returns 0 for `false` and 1 for `true` without raising; for a boxed
Boolean, `to_index` and with it the conversion of a slot referring to it
raise the not-implemented error. -/
theorem C19_boolean_to_index (trunc : Nat → Int) (b : Bool) :
    value.cast_int64 trunc (value_t.BVALUE b) = .ok (if b then 1 else 0) ∧
      value.cast_int64 trunc (value_t.BVALUE false) = .ok 0 ∧
      value.cast_int64 trunc (value_t.BVALUE true) = .ok 1 ∧
      (Value.Boolean b).to_index = .error (Exn.not_implemented "to_index") ∧
      value.cast_int64 trunc (value_t.RVALUE (Value.Boolean b))
        = .error (Exn.not_implemented "to_index") :=
  ⟨rfl, rfl, rfl, rfl, rfl⟩

end park

namespace park

/-! ## Channels -/

theorem channel_invariant_step {V : Type} (make_shared : V → V)
    (st : ChannelImpl V × List (ChannelStep V)) (call : ChannelCall V)
    (h : channel_invariant make_shared st) :
    channel_invariant make_shared
      ((st.1.step make_shared call).1, st.2 ++ [(st.1.step make_shared call).2]) := by
  obtain ⟨ch, log⟩ := st
  obtain ⟨receivers, senders⟩ := ch
  obtain ⟨h1, h2, h3, h4⟩ := h
  simp only at h1 h2 h3 h4
  cases call with
  | recv fbr =>
    cases senders with
    | nil =>
      refine ⟨?_, ?_, ?_, Or.inl rfl⟩
      · simpa [ChannelImpl.step, ChannelImpl._recv, ChannelStep.handed, ChannelStep.sent] using h1
      · simpa [ChannelImpl.step, ChannelImpl._recv, ChannelStep.released_sender,
          ChannelStep.blocked_sender] using h2
      · simp only [ChannelImpl.step, ChannelImpl._recv, List.map_append, List.flatten_append,
          List.map_cons, List.map_nil, List.flatten_cons, List.flatten_nil, List.append_nil,
          ChannelStep.served_receiver, ChannelStep.blocked_receiver]
        rw [← h3]
        simp
    | cons sending rest =>
      have hr : receivers = [] := by
        rcases h4 with h | h
        · simp at h
        · exact h
      subst hr
      refine ⟨?_, ?_, ?_, Or.inr rfl⟩
      · simp only [ChannelImpl.step, ChannelImpl._recv, List.map_append, List.flatten_append,
          List.map_cons, List.map_nil, List.flatten_cons, List.flatten_nil, List.append_nil,
          ChannelStep.handed, ChannelStep.sent]
        rw [← h1]
        simp
      · simp only [ChannelImpl.step, ChannelImpl._recv, List.map_append, List.flatten_append,
          List.map_cons, List.map_nil, List.flatten_cons, List.flatten_nil, List.append_nil,
          ChannelStep.released_sender, ChannelStep.blocked_sender]
        rw [← h2]
        simp
      · simpa [ChannelImpl.step, ChannelImpl._recv, ChannelStep.served_receiver,
          ChannelStep.blocked_receiver] using h3
  | send fbr value =>
    cases receivers with
    | nil =>
      refine ⟨?_, ?_, ?_, Or.inr rfl⟩
      · simp only [ChannelImpl.step, ChannelImpl._send, List.map_append, List.flatten_append,
          List.map_cons, List.map_nil, List.flatten_cons, List.flatten_nil, List.append_nil,
          ChannelStep.handed, ChannelStep.sent]
        rw [← h1]
        simp
      · simp only [ChannelImpl.step, ChannelImpl._send, List.map_append, List.flatten_append,
          List.map_cons, List.map_nil, List.flatten_cons, List.flatten_nil, List.append_nil,
          ChannelStep.released_sender, ChannelStep.blocked_sender]
        rw [← h2]
        simp
      · simpa [ChannelImpl.step, ChannelImpl._send, ChannelStep.served_receiver,
          ChannelStep.blocked_receiver] using h3
    | cons receiver rest =>
      have hs : senders = [] := by
        rcases h4 with h | h
        · exact h
        · simp at h
      subst hs
      refine ⟨?_, ?_, ?_, Or.inl rfl⟩
      · simp only [ChannelImpl.step, ChannelImpl._send, List.map_append, List.flatten_append,
          List.map_cons, List.map_nil, List.flatten_cons, List.flatten_nil, List.append_nil,
          ChannelStep.handed, ChannelStep.sent]
        rw [← h1]
        simp
      · simpa [ChannelImpl.step, ChannelImpl._send, ChannelStep.released_sender,
          ChannelStep.blocked_sender] using h2
      · simp only [ChannelImpl.step, ChannelImpl._send, List.map_append, List.flatten_append,
          List.map_cons, List.map_nil, List.flatten_cons, List.flatten_nil, List.append_nil,
          ChannelStep.served_receiver, ChannelStep.blocked_receiver]
        rw [← h3]
        simp

theorem channel_invariant_run {V : Type} (make_shared : V → V) (calls : List (ChannelCall V)) :
    ∀ st : ChannelImpl V × List (ChannelStep V), channel_invariant make_shared st →
      channel_invariant make_shared (ChannelImpl.run make_shared st calls) := by
  induction calls with
  | nil => intro st h; exact h
  | cons call calls ih =>
    intro st h
    exact ih _ (channel_invariant_step make_shared st call h)

theorem getElem?_of_append_eq {α : Type} (xs ys zs : List α) (h : xs ++ ys = zs) (k : Nat) (v : α)
    (hk : xs[k]? = some v) : zs[k]? = some v := by
  rw [← h]
  have hlt : k < xs.length := by
    by_contra hge
    rw [List.getElem?_eq_none (by omega)] at hk
    simp at hk
  rw [List.getElem?_append_left hlt]
  exact hk

end park

namespace park

/-- C11: for a new channel and every finite sequence of `send` and `recv`
callbacks, each an atomic step, by any fibers: the values handed to
receivers, in the order of the handing over, followed by the values of the
queued senders, are the values sent, in the order of the sends, so that the
k-th value handed to a receiver is the k-th value sent and no value is lost
or handed over twice; the senders released followed by the senders still
queued are the senders that blocked, in the order of their blocking; the
receivers served followed by the receivers still queued are the receivers
that blocked, in the order of their blocking; and the sender queue or the
receiver queue is empty. -/
theorem C11_channel_fifo {V : Type} (make_shared : V → V) (calls : List (ChannelCall V)) :
    (((ChannelImpl.run make_shared (ChannelImpl.create V, []) calls).2.map
          ChannelStep.handed).flatten.map Prod.snd
        ++ (ChannelImpl.run make_shared (ChannelImpl.create V, []) calls).1.senders_.map Prod.snd
      = ((ChannelImpl.run make_shared (ChannelImpl.create V, []) calls).2.map
          (ChannelStep.sent make_shared)).flatten) ∧
    (∀ (k : Nat) (v : V),
      (((ChannelImpl.run make_shared (ChannelImpl.create V, []) calls).2.map
          ChannelStep.handed).flatten.map Prod.snd)[k]? = some v →
      (((ChannelImpl.run make_shared (ChannelImpl.create V, []) calls).2.map
          (ChannelStep.sent make_shared)).flatten)[k]? = some v) ∧
    (((ChannelImpl.run make_shared (ChannelImpl.create V, []) calls).2.map
          ChannelStep.released_sender).flatten
        ++ (ChannelImpl.run make_shared (ChannelImpl.create V, []) calls).1.senders_.map Prod.fst
      = ((ChannelImpl.run make_shared (ChannelImpl.create V, []) calls).2.map
          ChannelStep.blocked_sender).flatten) ∧
    (∀ (k fbr : Nat),
      (((ChannelImpl.run make_shared (ChannelImpl.create V, []) calls).2.map
          ChannelStep.released_sender).flatten)[k]? = some fbr →
      (((ChannelImpl.run make_shared (ChannelImpl.create V, []) calls).2.map
          ChannelStep.blocked_sender).flatten)[k]? = some fbr) ∧
    (((ChannelImpl.run make_shared (ChannelImpl.create V, []) calls).2.map
          ChannelStep.served_receiver).flatten
        ++ (ChannelImpl.run make_shared (ChannelImpl.create V, []) calls).1.receivers_
      = ((ChannelImpl.run make_shared (ChannelImpl.create V, []) calls).2.map
          ChannelStep.blocked_receiver).flatten) ∧
    (∀ (k fbr : Nat),
      (((ChannelImpl.run make_shared (ChannelImpl.create V, []) calls).2.map
          ChannelStep.served_receiver).flatten)[k]? = some fbr →
      (((ChannelImpl.run make_shared (ChannelImpl.create V, []) calls).2.map
          ChannelStep.blocked_receiver).flatten)[k]? = some fbr) ∧
    ((ChannelImpl.run make_shared (ChannelImpl.create V, []) calls).1.senders_ = [] ∨
      (ChannelImpl.run make_shared (ChannelImpl.create V, []) calls).1.receivers_ = []) := by
  have h0 : channel_invariant make_shared (ChannelImpl.create V, []) :=
    ⟨rfl, rfl, rfl, Or.inl rfl⟩
  obtain ⟨h1, h2, h3, h4⟩ := channel_invariant_run make_shared calls _ h0
  exact ⟨h1, fun k v hk => getElem?_of_append_eq _ _ _ h1 k v hk, h2,
    fun k f hk => getElem?_of_append_eq _ _ _ h2 k f hk, h3,
    fun k f hk => getElem?_of_append_eq _ _ _ h3 k f hk, h4⟩

theorem C11_channel_fifo_witness :
    ((ChannelImpl.run id (ChannelImpl.create Nat, [])
          [.send 1 10, .send 2 20, .recv 3, .recv 4, .recv 5]).2.map
          ChannelStep.handed).flatten.map Prod.snd
        ++ (ChannelImpl.run id (ChannelImpl.create Nat, [])
          [.send 1 10, .send 2 20, .recv 3, .recv 4, .recv 5]).1.senders_.map Prod.snd
      = ((ChannelImpl.run id (ChannelImpl.create Nat, [])
          [.send 1 10, .send 2 20, .recv 3, .recv 4, .recv 5]).2.map
          (ChannelStep.sent id)).flatten :=
  (C11_channel_fifo id [.send 1 10, .send 2 20, .recv 3, .recv 4, .recv 5]).1

end park

namespace park

/-! ## The colour lists of the fibers -/

theorem RuntimeImpl.switch_color_color_ (rt : RuntimeImpl) (f : Nat) (color : Option Nat) (g : Nat) :
    (rt.switch_color f color).color_ g = if g = f then color else rt.color_ g := by
  unfold RuntimeImpl.switch_color RuntimeImpl.link RuntimeImpl.unlink
  cases hc : rt.color_ f <;> cases color <;> by_cases hg : g = f <;>
    simp [hc, hg, Function.update]

@[simp]
theorem RuntimeImpl.switch_color_fibers_running_ (rt : RuntimeImpl) (f : Nat)
    (color : Option Nat) : (rt.switch_color f color).fibers_running_ = rt.fibers_running_ := by
  unfold RuntimeImpl.switch_color RuntimeImpl.link RuntimeImpl.unlink
  cases rt.color_ f <;> cases color <;> rfl

@[simp]
theorem RuntimeImpl.switch_color_fibers_sleeping_grey_ (rt : RuntimeImpl) (f : Nat)
    (color : Option Nat) : (rt.switch_color f color).fibers_sleeping_grey_ = rt.fibers_sleeping_grey_ := by
  unfold RuntimeImpl.switch_color RuntimeImpl.link RuntimeImpl.unlink
  cases rt.color_ f <;> cases color <;> rfl

@[simp]
theorem RuntimeImpl.switch_color_fibers_sleeping_black_ (rt : RuntimeImpl) (f : Nat)
    (color : Option Nat) : (rt.switch_color f color).fibers_sleeping_black_ = rt.fibers_sleeping_black_ := by
  unfold RuntimeImpl.switch_color RuntimeImpl.link RuntimeImpl.unlink
  cases rt.color_ f <;> cases color <;> rfl

@[simp]
theorem RuntimeImpl.switch_color_fibers_sleeping_scanning_ (rt : RuntimeImpl) (f : Nat)
    (color : Option Nat) : (rt.switch_color f color).fibers_sleeping_scanning_ = rt.fibers_sleeping_scanning_ := by
  unfold RuntimeImpl.switch_color RuntimeImpl.link RuntimeImpl.unlink
  cases rt.color_ f <;> cases color <;> rfl

@[simp]
theorem RuntimeImpl.switch_color_allocator_ (rt : RuntimeImpl) (f : Nat)
    (color : Option Nat) : (rt.switch_color f color).allocator_ = rt.allocator_ := by
  unfold RuntimeImpl.switch_color RuntimeImpl.link RuntimeImpl.unlink
  cases rt.color_ f <;> cases color <;> rfl

@[simp]
theorem RuntimeImpl.switch_color_attaching (rt : RuntimeImpl) (f : Nat)
    (color : Option Nat) : (rt.switch_color f color).attaching = rt.attaching := by
  unfold RuntimeImpl.switch_color RuntimeImpl.link RuntimeImpl.unlink
  cases rt.color_ f <;> cases color <;> rfl

@[simp]
theorem RuntimeImpl.switch_color_created (rt : RuntimeImpl) (f : Nat)
    (color : Option Nat) : (rt.switch_color f color).created = rt.created := by
  unfold RuntimeImpl.switch_color RuntimeImpl.link RuntimeImpl.unlink
  cases rt.color_ f <;> cases color <;> rfl

@[simp]
theorem RuntimeImpl.switch_color_live_ (rt : RuntimeImpl) (f : Nat)
    (color : Option Nat) : (rt.switch_color f color).live = rt.live := by
  unfold RuntimeImpl.switch_color RuntimeImpl.link RuntimeImpl.unlink
  cases rt.color_ f <;> cases color <;> rfl

/-- `switch_color` takes the fiber out of the list it is in before it puts it
into the new one: a fiber that occurs once in the list of its colour and
nowhere else does so afterwards. -/
theorem RuntimeImpl.switch_color_count (rt : RuntimeImpl) (f : Nat) (color : Option Nat)
    (h : ∀ g c, (rt.fibers_ c).count g = if rt.color_ g = some c then 1 else 0) :
    ∀ g c, ((rt.switch_color f color).fibers_ c).count g
      = if (rt.switch_color f color).color_ g = some c then 1 else 0 := by
  intro g c
  rw [RuntimeImpl.switch_color_color_]
  have hu : ∀ g c, ((rt.unlink f).fibers_ c).count g
      = if g = f then 0 else (if rt.color_ g = some c then 1 else 0) := by
    intro g c
    unfold RuntimeImpl.unlink
    cases hc : rt.color_ f with
    | none =>
      simp only [h g c]
      by_cases hg : g = f
      · simp [hg, hc]
      · simp [hg]
    | some c0 =>
      simp only [Function.update_apply]
      by_cases hcc : c = c0
      · subst hcc
        rw [if_pos rfl]
        by_cases hg : g = f
        · subst hg
          rw [List.count_erase_self, h g c, hc]
          simp
        · rw [List.count_erase_of_ne hg, h g c]
          simp [hg]
      · rw [if_neg hcc, h g c]
        by_cases hg : g = f
        · subst hg
          rw [hc]
          have : ¬ c0 = c := fun e => hcc e.symm
          simp [this]
        · simp [hg]
  unfold RuntimeImpl.switch_color RuntimeImpl.link
  cases color with
  | none =>
    simp only [hu g c]
    by_cases hg : g = f <;> simp [hg]
  | some c1 =>
    simp only [Function.update_apply]
    by_cases hcc : c = c1
    · subst hcc
      rw [if_pos rfl, List.count_cons, hu g c]
      by_cases hg : g = f
      · subst hg; simp
      · have : ¬ f = g := fun e => hg e.symm
        simp [hg, this]
    · rw [if_neg hcc, hu g c]
      by_cases hg : g = f
      · have : ¬ c1 = c := fun e => hcc e.symm
        simp [hg, this]
      · simp [hg]

/-- A step that switches the colour of the fiber `f` and sets its flags keeps
the invariant when the new colour and the flags of `f` fit together. -/
theorem RuntimeImpl.colors_invariant_switch (rt rt1 : RuntimeImpl) (f : Nat) (color : Option Nat)
    (h : rt.colors_invariant)
    (hcnt : ∀ g c, (rt1.fibers_ c).count g = if rt1.color_ g = some c then 1 else 0)
    (hcol : ∀ g, rt1.color_ g = if g = f then color else rt.color_ g)
    (hp1 : rt1.fibers_running_ = rt.fibers_running_)
    (hp2 : rt1.fibers_sleeping_grey_ = rt.fibers_sleeping_grey_)
    (hp3 : rt1.fibers_sleeping_black_ = rt.fibers_sleeping_black_)
    (hp4 : rt1.fibers_sleeping_scanning_ = rt.fibers_sleeping_scanning_)
    (hal : ∀ g, g ≠ f → rt1.allocator_ g = rt.allocator_ g)
    (hat : ∀ g, g ≠ f → rt1.attaching g = rt.attaching g)
    (hcr : ∀ g, g ≠ f → rt1.created g = rt.created g)
    (hlv : ∀ g, g ≠ f → rt1.live g = rt.live g)
    (k1 : rt1.live f = true → ∃ c, color = some c ∧
      c ∈ [rt.fibers_running_, rt.fibers_sleeping_grey_, rt.fibers_sleeping_black_,
        rt.fibers_sleeping_scanning_])
    (k2 : color = some rt.fibers_running_ → rt1.allocator_ f = true ∧ rt1.attaching f = false)
    (k3 : rt1.live f = true → rt1.allocator_ f = true → rt1.attaching f = false →
      color = some rt.fibers_running_)
    (k4 : rt1.attaching f = true → rt1.allocator_ f = true)
    (k5 : rt1.created f = false → color = none ∧ rt1.allocator_ f = false ∧ rt1.live f = false) :
    rt1.colors_invariant := by
  obtain ⟨i1, i2, i3, i4, i5, i6, i7⟩ := h
  refine ⟨hcnt, ?_, ?_, ?_, ?_, ?_, ?_⟩
  · rw [hp1, hp2, hp3, hp4]; exact i2
  · intro g hg
    rw [hp1, hp2, hp3, hp4, hcol g]
    by_cases e : g = f
    · rw [if_pos e]; rw [e] at hg; exact k1 hg
    · rw [if_neg e]; rw [hlv g e] at hg; exact i3 g hg
  · intro g hg
    rw [hp1, hcol g] at hg
    by_cases e : g = f
    · rw [if_pos e] at hg; rw [e]; exact k2 hg
    · rw [if_neg e] at hg; rw [hal g e, hat g e]; exact i4 g hg
  · intro g h1 h2 h3
    rw [hp1, hcol g]
    by_cases e : g = f
    · rw [if_pos e]; rw [e] at h1 h2 h3; exact k3 h1 h2 h3
    · rw [if_neg e]; rw [hlv g e] at h1; rw [hal g e] at h2; rw [hat g e] at h3
      exact i5 g h1 h2 h3
  · intro g hg
    by_cases e : g = f
    · rw [e] at hg ⊢; exact k4 hg
    · rw [hat g e] at hg; rw [hal g e]; exact i6 g hg
  · intro g hg
    rw [hcol g]
    by_cases e : g = f
    · rw [if_pos e]; rw [e] at hg ⊢; exact k5 hg
    · rw [if_neg e]; rw [hcr g e] at hg; rw [hal g e, hlv g e]; exact i7 g hg

end park

namespace park

theorem RuntimeImpl.pointers_ne (rt : RuntimeImpl) (h : rt.colors_invariant) :
    rt.fibers_running_ ≠ rt.fibers_sleeping_grey_ ∧
      rt.fibers_running_ ≠ rt.fibers_sleeping_black_ ∧
      rt.fibers_running_ ≠ rt.fibers_sleeping_scanning_ ∧
      rt.fibers_sleeping_grey_ ≠ rt.fibers_sleeping_black_ ∧
      rt.fibers_sleeping_grey_ ≠ rt.fibers_sleeping_scanning_ ∧
      rt.fibers_sleeping_black_ ≠ rt.fibers_sleeping_scanning_ := by
  have h2 := h.2.1
  simp only [List.nodup_cons, List.mem_cons, List.mem_singleton, List.not_mem_nil, not_or,
    or_false, not_false_eq_true, List.nodup_nil, and_true] at h2
  tauto

theorem RuntimeImpl.fiber_created_invariant (rt rt1 : RuntimeImpl) (f : Nat)
    (h : rt.colors_invariant) (hs : rt.fiber_created f = .ok rt1) : rt1.colors_invariant := by
  unfold RuntimeImpl.fiber_created at hs
  by_cases hcr : rt.created f = true
  · rw [if_pos hcr] at hs; simp at hs
  rw [if_neg hcr] at hs
  simp only [Except.ok.injEq] at hs
  subst hs
  have hne := rt.pointers_ne h
  have hfresh := h.2.2.2.2.2.2 f (by simpa using hcr)
  refine RuntimeImpl.colors_invariant_switch rt _ f (some rt.fibers_sleeping_grey_) h
    ?_ ?_ ?_ ?_ ?_ ?_ ?_ ?_ ?_ ?_ ?_ ?_ ?_ ?_ ?_
  · exact RuntimeImpl.switch_color_count rt f (some rt.fibers_sleeping_grey_) h.1
  · exact RuntimeImpl.switch_color_color_ rt f (some rt.fibers_sleeping_grey_)
  · simp
  · simp
  · simp
  · simp
  · intro g _; simp
  · intro g _; simp
  · intro g hg; simp [Function.update_noteq hg]
  · intro g hg; simp [Function.update_noteq hg]
  · intro _; exact ⟨_, rfl, by simp⟩
  · intro e
    simp only [Option.some.injEq] at e
    exact absurd e.symm hne.1
  · intro _ ha
    simp [hfresh.2.1] at ha
  · intro ha
    simp only [RuntimeImpl.switch_color_attaching, RuntimeImpl.switch_color_allocator_] at ha ⊢
    exact h.2.2.2.2.2.1 f ha
  · intro e
    simp at e

theorem RuntimeImpl.fiber_exitted_invariant (rt rt1 : RuntimeImpl) (f : Nat)
    (h : rt.colors_invariant) (hs : rt.fiber_exitted f = .ok rt1) : rt1.colors_invariant := by
  unfold RuntimeImpl.fiber_exitted at hs
  simp only [Except.ok.injEq] at hs
  subst hs
  refine RuntimeImpl.colors_invariant_switch rt _ f none h
    ?_ ?_ ?_ ?_ ?_ ?_ ?_ ?_ ?_ ?_ ?_ ?_ ?_ ?_ ?_
  · exact RuntimeImpl.switch_color_count rt f _ h.1
  · exact RuntimeImpl.switch_color_color_ rt f _
  · simp
  · simp
  · simp
  · simp
  · intro g _; simp
  · intro g _; simp
  · intro g _; simp
  · intro g hg; simp [Function.update_noteq hg]
  · intro e; simp at e
  · intro e; simp at e
  · intro e; simp at e
  · intro ha
    simp only [RuntimeImpl.switch_color_attaching, RuntimeImpl.switch_color_allocator_] at ha ⊢
    exact h.2.2.2.2.2.1 f ha
  · intro e
    simp only [RuntimeImpl.switch_color_created] at e
    simp [(h.2.2.2.2.2.2 f e).2.1]

theorem RuntimeImpl.fiber_detach_invariant (rt rt1 : RuntimeImpl) (f : Nat) (wb : Bool)
    (h : rt.colors_invariant) (hs : rt.fiber_detach f wb = .ok rt1) : rt1.colors_invariant := by
  unfold RuntimeImpl.fiber_detach at hs
  by_cases hg : rt.allocator_ f = true ∧ rt.attaching f = false
  swap
  · rw [if_neg hg] at hs; simp at hs
  rw [if_pos hg] at hs
  simp only [Except.ok.injEq] at hs
  subst hs
  have hne := rt.pointers_ne h
  refine RuntimeImpl.colors_invariant_switch rt _ f
    (some (if wb = true then rt.fibers_sleeping_black_ else rt.fibers_sleeping_grey_)) h
    ?_ ?_ ?_ ?_ ?_ ?_ ?_ ?_ ?_ ?_ ?_ ?_ ?_ ?_ ?_
  · exact RuntimeImpl.switch_color_count _ f _ h.1
  · exact RuntimeImpl.switch_color_color_ _ f _
  · simp
  · simp
  · simp
  · simp
  · intro g hg; simp [Function.update_noteq hg]
  · intro g _; simp
  · intro g _; simp
  · intro g _; simp
  · intro _
    refine ⟨_, rfl, ?_⟩
    cases wb <;> simp
  · intro e
    simp only [Option.some.injEq] at e
    cases wb
    · exact absurd e.symm hne.1
    · exact absurd e.symm hne.2.1
  · intro _ ha
    simp at ha
  · intro ha
    simp [hg.2] at ha
  · intro e
    simp only [RuntimeImpl.switch_color_created] at e
    have := (h.2.2.2.2.2.2 f e).2.1
    rw [hg.1] at this
    exact absurd this (by decide)

theorem RuntimeImpl.fiber_attach_wake_invariant (rt rt1 : RuntimeImpl) (f : Nat)
    (h : rt.colors_invariant) (hs : rt.fiber_attach_wake f = .ok rt1) :
    rt1.colors_invariant := by
  unfold RuntimeImpl.fiber_attach_wake at hs
  by_cases hg : rt.attaching f = true ∧ rt.color_ f = some rt.fibers_sleeping_black_
  swap
  · rw [if_neg hg] at hs; simp at hs
  rw [if_pos hg] at hs
  simp only [Except.ok.injEq] at hs
  subst hs
  refine RuntimeImpl.colors_invariant_switch rt _ f (some rt.fibers_running_) h
    ?_ ?_ ?_ ?_ ?_ ?_ ?_ ?_ ?_ ?_ ?_ ?_ ?_ ?_ ?_
  · exact RuntimeImpl.switch_color_count rt f (some rt.fibers_running_) h.1
  · exact RuntimeImpl.switch_color_color_ rt f (some rt.fibers_running_)
  · simp
  · simp
  · simp
  · simp
  · intro g _; simp
  · intro g hg; simp [Function.update_noteq hg]
  · intro g _; simp
  · intro g _; simp
  · intro _; exact ⟨_, rfl, by simp⟩
  · intro _; simp [h.2.2.2.2.2.1 f hg.1]
  · intro _ _ _; rfl
  · intro e; simp at e
  · intro e
    simp only [RuntimeImpl.switch_color_created] at e
    have := (h.2.2.2.2.2.2 f e).1
    rw [hg.2] at this
    simp at this

theorem RuntimeImpl.move_front_invariant (rt rt1 : RuntimeImpl) (src dst : Nat)
    (h : rt.colors_invariant) (hsrc : src ≠ rt.fibers_running_)
    (hdst : dst ≠ rt.fibers_running_)
    (hmem : dst ∈ [rt.fibers_running_, rt.fibers_sleeping_grey_, rt.fibers_sleeping_black_,
      rt.fibers_sleeping_scanning_])
    (hs : rt.move_front src dst = .ok rt1) : rt1.colors_invariant := by
  unfold RuntimeImpl.move_front at hs
  cases hl : rt.fibers_ src with
  | nil => simp [hl] at hs
  | cons f rest =>
    simp only [hl] at hs
    by_cases hg : rt.color_ f = some src
    swap
    · rw [if_neg hg] at hs; simp at hs
    rw [if_pos hg] at hs
    simp only [Except.ok.injEq] at hs
    subst hs
    refine RuntimeImpl.colors_invariant_switch rt _ f (some dst) h
      ?_ ?_ ?_ ?_ ?_ ?_ ?_ ?_ ?_ ?_ ?_ ?_ ?_ ?_ ?_
    · exact RuntimeImpl.switch_color_count _ f _ h.1
    · exact RuntimeImpl.switch_color_color_ _ f _
    · simp
    · simp
    · simp
    · simp
    · intro g _; simp
    · intro g _; simp
    · intro g _; simp
    · intro g _; simp
    · intro _; exact ⟨_, rfl, hmem⟩
    · intro e
      simp only [Option.some.injEq] at e
      exact absurd e hdst
    · intro h1 h2 h3
      simp only [RuntimeImpl.switch_color_live_, RuntimeImpl.switch_color_allocator_,
        RuntimeImpl.switch_color_attaching] at h1 h2 h3
      have := h.2.2.2.2.1 f h1 h2 h3
      rw [hg] at this
      simp only [Option.some.injEq] at this
      exact absurd this hsrc
    · intro ha
      simp only [RuntimeImpl.switch_color_attaching, RuntimeImpl.switch_color_allocator_] at ha ⊢
      exact h.2.2.2.2.2.1 f ha
    · intro e
      simp only [RuntimeImpl.switch_color_created] at e
      have := (h.2.2.2.2.2.2 f e).1
      rw [hg] at this
      simp at this

theorem RuntimeImpl.swap_black_grey_invariant (rt rt1 : RuntimeImpl)
    (h : rt.colors_invariant) (hs : rt.swap_black_grey = .ok rt1) : rt1.colors_invariant := by
  unfold RuntimeImpl.swap_black_grey at hs
  by_cases hg : rt.fibers_ rt.fibers_sleeping_grey_ = []
  swap
  · rw [if_neg hg] at hs; simp at hs
  rw [if_pos hg] at hs
  simp only [Except.ok.injEq] at hs
  subst hs
  obtain ⟨i1, i2, i3, i4, i5, i6, i7⟩ := h
  refine ⟨i1, ?_, ?_, i4, i5, i6, i7⟩
  · simp only [List.nodup_cons, List.mem_cons, List.mem_singleton, List.not_mem_nil, not_or,
      or_false, not_false_eq_true, List.nodup_nil, and_true] at i2 ⊢
    refine ⟨⟨?_, ?_, ?_⟩, ⟨?_, ?_⟩, ?_⟩ <;> tauto
  · intro f hf
    obtain ⟨c, hc, hm⟩ := i3 f hf
    refine ⟨c, hc, ?_⟩
    simp only [List.mem_cons, List.mem_singleton, List.not_mem_nil, or_false] at hm ⊢
    tauto

end park

namespace park

theorem RuntimeImpl.fiber_attach_running_invariant (rt : RuntimeImpl) (f : Nat)
    (h : rt.colors_invariant) (hat0 : rt.attaching f = false)
    (hcreated : rt.created f = true) :
    (RuntimeImpl.switch_color { rt with allocator_ := Function.update rt.allocator_ f true } f
      (some rt.fibers_running_)).colors_invariant := by
  refine RuntimeImpl.colors_invariant_switch rt _ f (some rt.fibers_running_) h
    ?_ ?_ ?_ ?_ ?_ ?_ ?_ ?_ ?_ ?_ ?_ ?_ ?_ ?_ ?_
  · exact RuntimeImpl.switch_color_count
      { rt with allocator_ := Function.update rt.allocator_ f true } f
      (some rt.fibers_running_) h.1
  · exact RuntimeImpl.switch_color_color_
      { rt with allocator_ := Function.update rt.allocator_ f true } f (some rt.fibers_running_)
  · simp
  · simp
  · simp
  · simp
  · intro g hg; simp [Function.update_noteq hg]
  · intro g _; simp
  · intro g _; simp
  · intro g _; simp
  · intro _; exact ⟨_, rfl, by simp⟩
  · intro _; simp [hat0]
  · intro _ _ _; rfl
  · intro e; simp [hat0] at e
  · intro e; simp [hcreated] at e

theorem RuntimeImpl.fiber_attach_waiting_invariant (rt rt1 : RuntimeImpl) (f c : Nat)
    (h : rt.colors_invariant)
    (hc : c = rt.fibers_sleeping_scanning_ ∨ c = rt.fibers_sleeping_grey_)
    (hcreated : rt.created f = true)
    (hcnt : ∀ g c, (rt1.fibers_ c).count g = if rt1.color_ g = some c then 1 else 0)
    (hcol : ∀ g, rt1.color_ g = if g = f then some c else rt.color_ g)
    (hp1 : rt1.fibers_running_ = rt.fibers_running_)
    (hp2 : rt1.fibers_sleeping_grey_ = rt.fibers_sleeping_grey_)
    (hp3 : rt1.fibers_sleeping_black_ = rt.fibers_sleeping_black_)
    (hp4 : rt1.fibers_sleeping_scanning_ = rt.fibers_sleeping_scanning_)
    (hal : rt1.allocator_ = Function.update rt.allocator_ f true)
    (hat : rt1.attaching = Function.update rt.attaching f true)
    (hcr : rt1.created = rt.created) (hlv : rt1.live = rt.live) :
    rt1.colors_invariant := by
  have hne := rt.pointers_ne h
  refine RuntimeImpl.colors_invariant_switch rt rt1 f (some c) h hcnt hcol hp1 hp2 hp3 hp4
    ?_ ?_ ?_ ?_ ?_ ?_ ?_ ?_ ?_
  · intro g hg; rw [hal, Function.update_noteq hg]
  · intro g hg; rw [hat, Function.update_noteq hg]
  · intro g _; rw [hcr]
  · intro g _; rw [hlv]
  · intro _
    refine ⟨c, rfl, ?_⟩
    rcases hc with e | e <;> simp [e]
  · intro e
    simp only [Option.some.injEq] at e
    rcases hc with e1 | e1
    · exact absurd (e.symm.trans e1) hne.2.2.1
    · exact absurd (e.symm.trans e1) hne.1
  · intro _ _ e
    rw [hat, Function.update_same] at e
    exact absurd e (by decide)
  · intro _; rw [hal, Function.update_same]
  · intro e
    rw [hcr, hcreated] at e
    exact absurd e (by decide)

theorem RuntimeImpl.fiber_attach_invariant (rt rt1 : RuntimeImpl) (f : Nat) (wb : Bool)
    (h : rt.colors_invariant) (hs : rt.fiber_attach f wb = .ok rt1) : rt1.colors_invariant := by
  unfold RuntimeImpl.fiber_attach RuntimeImpl.color at hs
  by_cases hal : rt.allocator_ f = true
  · rw [if_pos hal] at hs; simp at hs
  rw [if_neg hal] at hs
  cases hc : rt.color_ f with
  | none => simp [hc] at hs
  | some c =>
    simp only [hc] at hs
    by_cases hrun : c = rt.fibers_running_
    · rw [if_pos hrun] at hs; simp at hs
    rw [if_neg hrun] at hs
    have hal0 : rt.allocator_ f = false := by simpa using hal
    have hat0 : rt.attaching f = false := by
      cases hx : rt.attaching f with
      | false => rfl
      | true =>
        have := h.2.2.2.2.2.1 f hx
        rw [hal0] at this
        exact absurd this (by decide)
    have hcreated : rt.created f = true := by
      cases hx : rt.created f with
      | true => rfl
      | false =>
        have := (h.2.2.2.2.2.2 f hx).1
        rw [hc] at this
        simp at this
    cases wb with
    | false =>
      simp only [Bool.false_eq_true, if_false] at hs
      by_cases hgrey : c = rt.fibers_sleeping_grey_
      · rw [if_pos hgrey] at hs
        simp only [Except.ok.injEq] at hs
        subst hs
        exact RuntimeImpl.fiber_attach_running_invariant rt f h hat0 hcreated
      · rw [if_neg hgrey] at hs; simp at hs
    | true =>
      simp only [if_true] at hs
      by_cases hw : c = rt.fibers_sleeping_scanning_ ∨ c = rt.fibers_sleeping_grey_
      · rw [if_pos hw] at hs
        by_cases hgrey : c = rt.fibers_sleeping_grey_
        · rw [if_pos hgrey] at hs
          simp only [Except.ok.injEq] at hs
          subst hs
          refine RuntimeImpl.fiber_attach_waiting_invariant rt _ f c h hw hcreated
            ?_ ?_ ?_ ?_ ?_ ?_ ?_ ?_ ?_ ?_
          · exact RuntimeImpl.switch_color_count
              { rt with allocator_ := Function.update rt.allocator_ f true } f
              (some rt.fibers_sleeping_grey_) h.1
          · rw [hgrey]
            exact RuntimeImpl.switch_color_color_
              { rt with allocator_ := Function.update rt.allocator_ f true } f
              (some rt.fibers_sleeping_grey_)
          · simp
          · simp
          · simp
          · simp
          · simp
          · simp
          · simp
          · simp
        · rw [if_neg hgrey] at hs
          simp only [Except.ok.injEq] at hs
          subst hs
          refine RuntimeImpl.fiber_attach_waiting_invariant rt _ f c h hw hcreated
            h.1 ?_ rfl rfl rfl rfl rfl rfl rfl rfl
          intro g
          by_cases e : g = f
          · rw [if_pos e, e]; exact hc
          · rw [if_neg e]
      · rw [if_neg hw] at hs
        by_cases hb : c = rt.fibers_sleeping_black_
        · rw [if_pos hb] at hs
          simp only [Except.ok.injEq] at hs
          subst hs
          exact RuntimeImpl.fiber_attach_running_invariant rt f h hat0 hcreated
        · rw [if_neg hb] at hs; simp at hs

theorem RuntimeImpl.step_invariant (rt rt1 : RuntimeImpl) (e : FiberEvent)
    (h : rt.colors_invariant) (hs : rt.step e = .ok rt1) : rt1.colors_invariant := by
  have hne := rt.pointers_ne h
  cases e with
  | created f => exact RuntimeImpl.fiber_created_invariant rt rt1 f h hs
  | exitted f => exact RuntimeImpl.fiber_exitted_invariant rt rt1 f h hs
  | attach f wb => exact RuntimeImpl.fiber_attach_invariant rt rt1 f wb h hs
  | attach_wake f => exact RuntimeImpl.fiber_attach_wake_invariant rt rt1 f h hs
  | detach f wb => exact RuntimeImpl.fiber_detach_invariant rt rt1 f wb h hs
  | grey_to_scanning =>
    exact RuntimeImpl.move_front_invariant rt rt1 _ _ h (fun e => hne.1 e.symm)
      (fun e => hne.2.2.1 e.symm) (by simp) hs
  | scanning_to_black =>
    exact RuntimeImpl.move_front_invariant rt rt1 _ _ h (fun e => hne.2.2.1 e.symm)
      (fun e => hne.2.1 e.symm) (by simp) hs
  | swap_black_grey => exact RuntimeImpl.swap_black_grey_invariant rt rt1 h hs

theorem RuntimeImpl.run_invariant (evs : List FiberEvent) :
    ∀ (rt rt1 : RuntimeImpl), rt.colors_invariant → rt.run evs = .ok rt1 →
      rt1.colors_invariant := by
  induction evs with
  | nil =>
    intro rt rt1 h hs
    simp only [RuntimeImpl.run, Except.ok.injEq] at hs
    subst hs; exact h
  | cons e es ih =>
    intro rt rt1 h hs
    simp only [RuntimeImpl.run] at hs
    cases hst : rt.step e with
    | error x => rw [hst] at hs; simp at hs
    | ok rt2 =>
      rw [hst] at hs
      exact ih rt2 rt1 (RuntimeImpl.step_invariant rt rt2 e h hst) hs

theorem RuntimeImpl.init_invariant : RuntimeImpl.init.colors_invariant := by
  refine ⟨?_, by decide, ?_, ?_, ?_, ?_, ?_⟩ <;> simp [RuntimeImpl.init]

end park

namespace park

/-- C17, the sentence as it stands fails: `fiber_attach` binds the allocator
of the worker to the fiber before it waits for the fiber to become black.
After the creation of fiber 1 and the start of an attach under the write
barrier the fiber is live and attached, and it sits in the sleeping-grey
list, not in the running list. -/
theorem C17_attach_wait_counterexample :
    ∃ rt : RuntimeImpl,
      RuntimeImpl.init.run [FiberEvent.created 1, FiberEvent.attach 1 true] = .ok rt ∧
        rt.live 1 = true ∧ rt.allocator_ 1 = true ∧
        1 ∈ rt.fibers_ rt.fibers_sleeping_grey_ ∧
        1 ∉ rt.fibers_ rt.fibers_running_ := by
  refine ⟨_, rfl, ?_, ?_, ?_, ?_⟩ <;> decide

/-- C17, amended: in every state reached from the initial one by fiber
creation, attach (its start and the end of its wait), detach, exit, the
grey-to-scanning and scanning-to-black moves of the collector and the swap of
the black and the grey list, the four colour lists are distinct and every live
fiber occurs exactly once in exactly one of them; a live fiber is in the
running list exactly when it is attached and `fiber_attach` is not waiting
for it; a live fiber that is not attached occurs exactly once in exactly one
of sleeping-grey, sleeping-scanning and sleeping-black; and `switch_color`
erases the fiber from its list before it inserts it, so that afterwards the
fiber occurs once in the new list and in no other. -/
theorem C17_fiber_color_lists (evs : List FiberEvent) (rt : RuntimeImpl)
    (h : RuntimeImpl.init.run evs = .ok rt) :
    [rt.fibers_running_, rt.fibers_sleeping_grey_, rt.fibers_sleeping_black_,
        rt.fibers_sleeping_scanning_].Nodup ∧
      (∀ f, rt.live f = true →
        ∃ c, c ∈ [rt.fibers_running_, rt.fibers_sleeping_grey_, rt.fibers_sleeping_black_,
            rt.fibers_sleeping_scanning_] ∧
          ∀ d, (rt.fibers_ d).count f = if d = c then 1 else 0) ∧
      (∀ f, rt.live f = true →
        (f ∈ rt.fibers_ rt.fibers_running_ ↔
          (rt.allocator_ f = true ∧ rt.attaching f = false))) ∧
      (∀ f, rt.live f = true → rt.allocator_ f = false →
        ∃ c, c ∈ [rt.fibers_sleeping_grey_, rt.fibers_sleeping_scanning_,
            rt.fibers_sleeping_black_] ∧
          ∀ d, (rt.fibers_ d).count f = if d = c then 1 else 0) ∧
      (∀ f color d, ((rt.switch_color f color).fibers_ d).count f
        = if color = some d then 1 else 0) := by
  have inv := RuntimeImpl.run_invariant evs _ rt RuntimeImpl.init_invariant h
  have hne := rt.pointers_ne inv
  obtain ⟨i1, i2, i3, i4, i5, i6, i7⟩ := inv
  have hcnt : ∀ f c, rt.color_ f = some c →
      ∀ d, (rt.fibers_ d).count f = if d = c then 1 else 0 := by
    intro f c hc d
    rw [i1 f d, hc]
    by_cases e : d = c
    · simp [e]
    · have : ¬ c = d := fun x => e x.symm
      simp [e, this]
  refine ⟨i2, ?_, ?_, ?_, ?_⟩
  · intro f hf
    obtain ⟨c, hc, hm⟩ := i3 f hf
    exact ⟨c, hm, hcnt f c hc⟩
  · intro f hf
    constructor
    · intro hm
      have : 0 < (rt.fibers_ rt.fibers_running_).count f := List.count_pos_iff.mpr hm
      rw [i1 f rt.fibers_running_] at this
      by_cases e : rt.color_ f = some rt.fibers_running_
      · exact i4 f e
      · rw [if_neg e] at this; exact absurd this (by decide)
    · intro ⟨ha, hw⟩
      have e := i5 f hf ha hw
      have : 0 < (rt.fibers_ rt.fibers_running_).count f := by
        rw [i1 f rt.fibers_running_, if_pos e]; decide
      exact List.count_pos_iff.mp this
  · intro f hf ha
    obtain ⟨c, hc, hm⟩ := i3 f hf
    refine ⟨c, ?_, hcnt f c hc⟩
    simp only [List.mem_cons, List.mem_singleton, List.not_mem_nil, or_false] at hm ⊢
    rcases hm with e | e | e | e
    · rw [e] at hc
      have := (i4 f hc).1
      rw [ha] at this
      exact absurd this (by decide)
    · exact Or.inl e
    · exact Or.inr (Or.inr e)
    · exact Or.inr (Or.inl e)
  · intro f color d
    rw [RuntimeImpl.switch_color_count rt f color i1 f d, RuntimeImpl.switch_color_color_,
      if_pos rfl]

theorem C17_fiber_color_lists_witness :
    ∃ rt : RuntimeImpl,
      RuntimeImpl.init.run [FiberEvent.created 1, FiberEvent.created 2,
          FiberEvent.attach 1 false, FiberEvent.detach 1 true, FiberEvent.attach 2 true]
        = .ok rt ∧
      (∀ f, rt.live f = true →
        (f ∈ rt.fibers_ rt.fibers_running_ ↔
          (rt.allocator_ f = true ∧ rt.attaching f = false))) :=
  ⟨_, rfl, (C17_fiber_color_lists [FiberEvent.created 1, FiberEvent.created 2,
    FiberEvent.attach 1 false, FiberEvent.detach 1 true, FiberEvent.attach 2 true] _ rfl).2.2.1⟩

end park

namespace gc

/-! ## Counting the bits of a bitmap word -/

theorem popcountll_eq_countP (x : Nat) :
    popcountll x = (List.range 64).countP fun j => x.testBit j := by
  unfold popcountll
  rw [List.countP_eq_length_filter]

theorem countP_flip (p q : Nat → Bool) (j : Nat) (hp : p j = false) (hq : q j = true) :
    ∀ l : List Nat, l.Nodup → j ∈ l → (∀ k, k ∈ l → k ≠ j → q k = p k) →
      l.countP q = l.countP p + 1 := by
  intro l
  induction l with
  | nil => intro _ h; simp at h
  | cons a l ih =>
    intro hl hj hpq
    rw [List.nodup_cons] at hl
    rw [List.countP_cons, List.countP_cons]
    by_cases e : a = j
    · subst e
      have hrest : l.countP q = l.countP p := by
        apply List.countP_congr
        intro k hk
        have : k ≠ a := fun e => hl.1 (e ▸ hk)
        rw [hpq k (List.mem_cons_of_mem _ hk) this]
      rw [hrest, hp, hq]
      simp
    · have hj2 : j ∈ l := by
        rcases List.mem_cons.mp hj with h | h
        · exact absurd h.symm e
        · exact h
      rw [ih hl.2 hj2 (fun k hk => hpq k (List.mem_cons_of_mem _ hk)),
        hpq a (List.mem_cons_self _ _) e]
      omega

theorem popcountll_or_mask64 (w j : Nat) (hj : j < 64) (hbit : w.testBit j = false) :
    popcountll (w ||| block_t.mask64 j) = popcountll w + 1 := by
  rw [popcountll_eq_countP, popcountll_eq_countP]
  refine countP_flip _ _ j hbit ?_ _ (List.nodup_range 64) (List.mem_range.mpr hj) ?_
  · rw [Nat.testBit_lor, testBit_mask64]
    simp
  · intro k _ hk
    rw [Nat.testBit_lor, testBit_mask64]
    have : ¬ j = k := fun e => hk e.symm
    simp [this]

theorem popcountll_and_not_mask64 (w j : Nat) (hj : j < 64) (hbit : w.testBit j = true) :
    popcountll w = popcountll (w &&& not64 (block_t.mask64 j)) + 1 := by
  rw [popcountll_eq_countP, popcountll_eq_countP]
  refine countP_flip _ _ j ?_ hbit _ (List.nodup_range 64) (List.mem_range.mpr hj) ?_
  · rw [Nat.testBit_land, testBit_not64 _ j hj, testBit_mask64]
    simp
  · intro k hk64 hk
    rw [Nat.testBit_land, testBit_not64 _ k (List.mem_range.mp hk64), testBit_mask64]
    have : ¬ j = k := fun e => hk e.symm
    simp [this]

theorem popcountll_zero : popcountll 0 = 0 := by
  rw [popcountll_eq_countP]
  simp

theorem popcountll_ge (w m : Nat) (hm : m ≤ 64) (h : ∀ j, j < m → w.testBit j = true) :
    m ≤ popcountll w := by
  rw [popcountll_eq_countP]
  have h1 : (List.range m).countP (fun j => w.testBit j) = m := by
    rw [List.countP_eq_length.mpr]
    · exact List.length_range m
    · intro j hj
      exact h j (List.mem_range.mp hj)
  have h2 : List.Sublist (List.range m) (List.range 64) := by
    have : List.range 64 = List.range m ++ (List.range (64 - m)).map (m + ·) := by
      rw [← List.range_add]
      congr 1
      omega
    rw [this]
    exact List.sublist_append_left _ _
  calc m = (List.range m).countP (fun j => w.testBit j) := h1.symm
    _ ≤ _ := h2.countP_le _

theorem testBit_ALL_ONES (j : Nat) : ALL_ONES.testBit j = decide (j < 64) := by
  have h := Nat.testBit_two_pow_sub_one 64 j
  exact h

theorem eq_ALL_ONES_iff (w : Nat) (hw : w < 2 ^ 64) :
    w = ALL_ONES ↔ ∀ j, j < 64 → w.testBit j = true := by
  constructor
  · intro e j hj
    rw [e, testBit_ALL_ONES]
    exact decide_eq_true hj
  · intro h
    apply Nat.eq_of_testBit_eq
    intro j
    rw [testBit_ALL_ONES]
    by_cases hj : j < 64
    · rw [h j hj]; exact (decide_eq_true hj).symm
    · have : w < 2 ^ j := lt_of_lt_of_le hw (Nat.pow_le_pow_right (by decide) (by omega))
      rw [Nat.testBit_lt_two_pow this]
      exact (decide_eq_false hj).symm

theorem lowest_clear_range (p : Nat → Bool) : ∀ (n s j : Nat),
    (List.range' s n).find? p = some j →
      s ≤ j ∧ j < s + n ∧ p j = true ∧ ∀ k, s ≤ k → k < j → p k = false := by
  intro n
  induction n with
  | zero => intro s j h; simp at h
  | succ n ih =>
    intro s j h
    rw [List.range'_succ, List.find?_cons] at h
    cases hp : p s with
    | true =>
      rw [hp] at h
      simp only [Option.some.injEq] at h
      subst h
      exact ⟨le_refl _, by omega, hp, fun k h1 h2 => by omega⟩
    | false =>
      rw [hp] at h
      obtain ⟨h1, h2, h3, h4⟩ := ih (s + 1) j h
      refine ⟨by omega, by omega, h3, ?_⟩
      intro k hk1 hk2
      by_cases e : k = s
      · rw [e]; exact hp
      · exact h4 k (by omega) hk2

theorem lowest_clear_min (x j : Nat) (h : lowest_clear x = some j) :
    ∀ k, k < j → x.testBit k = true := by
  unfold lowest_clear at h
  rw [List.range_eq_range'] at h
  intro k hk
  have := (lowest_clear_range _ 64 0 j h).2.2.2 k (Nat.zero_le _) hk
  simpa using this

theorem lowest_clear_exists (x k : Nat) (hk : k < 64) (hbit : x.testBit k = false) :
    ∃ j, lowest_clear x = some j := by
  cases h : lowest_clear x with
  | some j => exact ⟨j, rfl⟩
  | none =>
    unfold lowest_clear at h
    rw [List.find?_eq_none] at h
    have := h k (List.mem_range.mpr hk)
    simp [hbit] at this

end gc

namespace gc

theorem popcountll_le (w m : Nat) (h : ∀ j, j < 64 → w.testBit j = true → j < m) :
    popcountll w ≤ m := by
  rw [popcountll_eq_countP]
  by_cases hm : m ≤ 64
  · have hsplit : List.range 64 = List.range m ++ (List.range (64 - m)).map (m + ·) := by
      rw [← List.range_add]
      congr 1
      omega
    rw [hsplit, List.countP_append]
    have h0 : ((List.range (64 - m)).map (m + ·)).countP (fun j => w.testBit j) = 0 := by
      rw [List.countP_eq_zero]
      intro a ha
      obtain ⟨k, hk, e⟩ := List.mem_map.mp ha
      have hk2 := List.mem_range.mp hk
      intro hbit
      have := h a (by omega) hbit
      omega
    rw [h0]
    have := List.countP_le_length (fun j => w.testBit j) (l := List.range m)
    rw [List.length_range] at this
    omega
  · have := List.countP_le_length (fun j => w.testBit j) (l := List.range 64)
    rw [List.length_range] at this
    omega

theorem word_share_sum (c : Nat) (hc : c ≤ 512) :
    word_share c 0 + word_share c 1 + word_share c 2 + word_share c 3 + word_share c 4 +
      word_share c 5 + word_share c 6 + word_share c 7 = c := by
  unfold word_share
  split_ifs <;> omega

theorem block_t.count_le (b : block_t) (hcap : b.capacity_ ≤ 512)
    (h : ∀ idx, idx < 512 → b.allocated idx = true → idx < b.capacity_) :
    b.count ≤ b.capacity_ := by
  have hw : ∀ i, i < 8 → popcountll (b.bitmap_ i) ≤ word_share b.capacity_ i := by
    intro i hi
    apply popcountll_le
    intro j hj hbit
    have e1 : (i * 64 + j) / 64 = i := by omega
    have e2 : (i * 64 + j) % 64 = j := by omega
    have := h (i * 64 + j) (by omega) (by rw [block_t.allocated_iff, e1, e2]; exact hbit)
    unfold word_share
    split_ifs <;> omega
  have hs := word_share_sum b.capacity_ hcap
  have h0 := hw 0 (by decide)
  have h1 := hw 1 (by decide)
  have h2 := hw 2 (by decide)
  have h3 := hw 3 (by decide)
  have h4 := hw 4 (by decide)
  have h5 := hw 5 (by decide)
  have h6 := hw 6 (by decide)
  have h7 := hw 7 (by decide)
  unfold block_t.count
  omega

theorem block_t.count_ge (b : block_t) (hcap : b.capacity_ ≤ 512)
    (h : ∀ idx, idx < b.capacity_ → b.allocated idx = true) :
    b.capacity_ ≤ b.count := by
  have hw : ∀ i, i < 8 → word_share b.capacity_ i ≤ popcountll (b.bitmap_ i) := by
    intro i hi
    apply popcountll_ge
    · unfold word_share; split_ifs <;> omega
    · intro j hj
      have e1 : (i * 64 + j) / 64 = i := by
        unfold word_share at hj; split_ifs at hj <;> omega
      have e2 : (i * 64 + j) % 64 = j := by
        unfold word_share at hj; split_ifs at hj <;> omega
      have := h (i * 64 + j) (by unfold word_share at hj; split_ifs at hj <;> omega)
      rw [block_t.allocated_iff, e1, e2] at this
      exact this
  have hs := word_share_sum b.capacity_ hcap
  have h0 := hw 0 (by decide)
  have h1 := hw 1 (by decide)
  have h2 := hw 2 (by decide)
  have h3 := hw 3 (by decide)
  have h4 := hw 4 (by decide)
  have h5 := hw 5 (by decide)
  have h6 := hw 6 (by decide)
  have h7 := hw 7 (by decide)
  unfold block_t.count
  omega

theorem block_t.count_update (b b1 : block_t) (i w : Nat) (hi : i < 8)
    (h : b1.bitmap_ = Function.update b.bitmap_ i w) :
    b1.count + popcountll (b.bitmap_ i) = b.count + popcountll w := by
  unfold block_t.count
  rw [h]
  interval_cases i <;> simp [Function.update] <;> omega

theorem block_t.count_congr (b b1 : block_t) (h : ∀ i, i < 8 → b1.bitmap_ i = b.bitmap_ i) :
    b1.count = b.count := by
  unfold block_t.count
  rw [h 0 (by decide), h 1 (by decide), h 2 (by decide), h 3 (by decide), h 4 (by decide),
    h 5 (by decide), h 6 (by decide), h 7 (by decide)]

theorem testBit_mask8 (j p : Nat) : (block_t.mask8 j).testBit p = decide (j = p) := by
  unfold block_t.mask8
  rw [Nat.one_shiftLeft, Nat.testBit_two_pow]

theorem mask64_lt (j : Nat) (hj : j < 64) : block_t.mask64 j < 2 ^ 64 := by
  unfold block_t.mask64
  rw [Nat.one_shiftLeft]
  exact Nat.pow_lt_pow_right (by decide) hj

theorem mask8_lt (j : Nat) (hj : j < 8) : block_t.mask8 j < 2 ^ 8 := by
  unfold block_t.mask8
  rw [Nat.one_shiftLeft]
  exact Nat.pow_lt_pow_right (by decide) hj

theorem testBit_not8 (x p : Nat) (hp : p < 8) : (not8 x).testBit p = !x.testBit p := by
  unfold not8
  rw [Nat.testBit_xor]
  have : (0xff : Nat).testBit p = true := by
    have h := Nat.testBit_two_pow_sub_one 8 p
    rw [h]
    exact decide_eq_true hp
  rw [this]
  cases x.testBit p <;> rfl

end gc

namespace gc

/-- The fields of the block that `block_t::alloc` returns. -/
theorem block_t.alloc_fields (b : block_t) (with_finalizer marked : Bool) (idx0 idx1 : Nat)
    (hfull : b.full = false) (h0 : lowest_clear b.select_ = some idx0) (h8 : idx0 < 8)
    (h1 : lowest_clear (b.bitmap_ idx0) = some idx1) :
    ∃ b1, b.alloc with_finalizer marked = .ok (b1, idx0 * 64 + idx1) ∧
      b1.bitmap_ = Function.update b.bitmap_ idx0 (b.bitmap_ idx0 ||| block_t.mask64 idx1) ∧
      b1.select_ = (if b.bitmap_ idx0 ||| block_t.mask64 idx1 = ALL_ONES
        then b.select_ ||| block_t.mask8 idx0 else b.select_) ∧
      b1.finalize_ = (if with_finalizer = true
        then Function.update b.finalize_ idx0 (b.finalize_ idx0 ||| block_t.mask64 idx1)
        else b.finalize_) ∧
      b1.marked_ = (if marked = true
        then Function.update b.marked_ idx0 (b.marked_ idx0 ||| block_t.mask64 idx1)
        else b.marked_) ∧
      b1.available_ = b.available_ - 1 ∧ b1.capacity_ = b.capacity_ ∧ b1.sz_ = b.sz_ ∧
      b1.block_size_ = b.block_size_ ∧ b1.dirty_ = b.dirty_ := by
  unfold block_t.alloc
  rw [hfull]
  simp only [Bool.false_eq_true, if_false, h0, h8, not_true_eq_false, h1]
  refine ⟨_, rfl, ?_⟩
  by_cases e : b.bitmap_ idx0 ||| block_t.mask64 idx1 = ALL_ONES <;>
    cases with_finalizer <;> cases marked <;> simp [e]

theorem testBit_update_or (f : Nat → Nat) (idx0 idx1 x : Nat) (h1 : idx1 < 64) :
    (Function.update f idx0 (f idx0 ||| block_t.mask64 idx1) (x / 64)).testBit (x % 64)
      = (decide (x = idx0 * 64 + idx1) || (f (x / 64)).testBit (x % 64)) := by
  by_cases e0 : x / 64 = idx0
  · rw [e0, Function.update_same, Nat.testBit_lor, testBit_mask64]
    by_cases e1 : idx1 = x % 64
    · have e2 : x = idx0 * 64 + idx1 := by omega
      rw [decide_eq_true e1, decide_eq_true e2, Bool.or_true, Bool.true_or]
    · have e2 : ¬ x = idx0 * 64 + idx1 := by omega
      rw [decide_eq_false e1, decide_eq_false e2, Bool.or_false, Bool.false_or]
  · rw [Function.update_noteq e0]
    have e2 : ¬ x = idx0 * 64 + idx1 := by omega
    rw [decide_eq_false e2, Bool.false_or]

theorem testBit_update_and_not (f : Nat → Nat) (idx0 idx1 x : Nat) (h1 : idx1 < 64) :
    (Function.update f idx0 (f idx0 &&& not64 (block_t.mask64 idx1)) (x / 64)).testBit (x % 64)
      = (!decide (x = idx0 * 64 + idx1) && (f (x / 64)).testBit (x % 64)) := by
  have hx : x % 64 < 64 := Nat.mod_lt _ (by decide)
  by_cases e0 : x / 64 = idx0
  · rw [e0, Function.update_same, Nat.testBit_land, testBit_not64 _ _ hx, testBit_mask64]
    by_cases e1 : idx1 = x % 64
    · have e2 : x = idx0 * 64 + idx1 := by omega
      rw [decide_eq_true e1, decide_eq_true e2]
      simp
    · have e2 : ¬ x = idx0 * 64 + idx1 := by omega
      rw [decide_eq_false e1, decide_eq_false e2]
      simp
  · rw [Function.update_noteq e0]
    have e2 : ¬ x = idx0 * 64 + idx1 := by omega
    rw [decide_eq_false e2]
    simp

/-- A block with a free slot below its capacity: `alloc` finds the lowest one. -/
theorem block_t.lowest_free (b : block_t) (hwf : b.well_formed) (hfull : b.full = false) :
    ∃ idx0 idx1, lowest_clear b.select_ = some idx0 ∧ idx0 < 8 ∧
      lowest_clear (b.bitmap_ idx0) = some idx1 ∧ idx1 < 64 ∧
      (b.bitmap_ idx0).testBit idx1 = false ∧ b.select_.testBit idx0 = false ∧
      idx0 * 64 + idx1 < b.capacity_ ∧ 0 < b.available_ := by
  obtain ⟨⟨hcap, hsel, hbm, hmk⟩, hcount, ha, hm, hf, hfa, hsum⟩ := hwf
  have hle := b.count_le hcap ha
  have hav : 0 < b.available_ := by
    have h1 : b.available_ ≠ 0 := by
      intro e
      simp [block_t.full, e] at hfull
    unfold block_t.used at hcount
    omega
  have hlt : b.count < b.capacity_ := by
    unfold block_t.used at hcount
    omega
  have hex : ∃ e, e < b.capacity_ ∧ b.allocated e = false := by
    by_contra hno
    push_neg at hno
    have := b.count_ge hcap (fun idx hidx => by simpa using hno idx hidx)
    omega
  obtain ⟨e, he, hfree⟩ := hex
  rw [block_t.allocated_iff] at hfree
  have he8 : e / 64 < 8 := by omega
  have hne : b.bitmap_ (e / 64) ≠ ALL_ONES := by
    intro hall
    have := (eq_ALL_ONES_iff _ (hbm _ he8)).mp hall (e % 64) (Nat.mod_lt _ (by decide))
    rw [hfree] at this
    exact absurd this (by decide)
  have hselbit : b.select_.testBit (e / 64) = false := by
    cases hx : b.select_.testBit (e / 64) with
    | false => rfl
    | true => exact absurd ((hsum _ he8).mp hx) hne
  obtain ⟨idx0, h0⟩ := lowest_clear_exists b.select_ (e / 64) (by omega) hselbit
  obtain ⟨_, hbit0⟩ := lowest_clear_some _ _ h0
  have hmin0 := lowest_clear_min _ _ h0
  have hidx0 : idx0 ≤ e / 64 := by
    by_contra hgt
    have := hmin0 (e / 64) (by omega)
    rw [hselbit] at this
    exact absurd this (by decide)
  have h8 : idx0 < 8 := by omega
  have hne0 : b.bitmap_ idx0 ≠ ALL_ONES := by
    intro hall
    have := (hsum idx0 h8).mpr hall
    rw [hbit0] at this
    exact absurd this (by decide)
  have hex1 : ∃ j, j < 64 ∧ (b.bitmap_ idx0).testBit j = false := by
    by_contra hno
    push_neg at hno
    exact hne0 ((eq_ALL_ONES_iff _ (hbm _ h8)).mpr (fun j hj => by simpa using hno j hj))
  obtain ⟨j, hj, hjbit⟩ := hex1
  obtain ⟨idx1, h1⟩ := lowest_clear_exists (b.bitmap_ idx0) j hj hjbit
  obtain ⟨h64, hbit1⟩ := lowest_clear_some _ _ h1
  have hmin1 := lowest_clear_min _ _ h1
  refine ⟨idx0, idx1, h0, h8, h1, h64, hbit1, hbit0, ?_, hav⟩
  by_cases heq : idx0 = e / 64
  · have : idx1 ≤ e % 64 := by
      by_contra hgt
      have := hmin1 (e % 64) (by omega)
      rw [heq, hfree] at this
      exact absurd this (by decide)
    omega
  · omega

end gc

namespace gc

/-- `alloc` on a well-formed block that is not full returns a slot below the
capacity whose bits were clear, and the block stays well formed. -/
theorem block_t.alloc_well_formed (b : block_t) (with_finalizer marked : Bool)
    (hwf : b.well_formed) (hfull : b.full = false) :
    ∃ b1 idx, b.alloc with_finalizer marked = .ok (b1, idx) ∧ b1.well_formed ∧
      idx < b.capacity_ ∧ b.allocated idx = false ∧ b1.allocated idx = true ∧
      b1.used = b.used + 1 ∧ b1.capacity_ = b.capacity_ := by
  obtain ⟨idx0, idx1, h0, h8, h1, h64, hbit1, hbit0, hlt, hav⟩ := b.lowest_free hwf hfull
  obtain ⟨b1, hok, ebm, esel, efin, emk, eav, ecap, _, _, _⟩ :=
    b.alloc_fields with_finalizer marked idx0 idx1 hfull h0 h8 h1
  obtain ⟨⟨hcap, hsel, hbm, hmk⟩, hcount, ha, hm, hf, hfa, hsum⟩ := hwf
  have e1 : (idx0 * 64 + idx1) / 64 = idx0 := by omega
  have e2 : (idx0 * 64 + idx1) % 64 = idx1 := by omega
  have hal : ∀ x, b1.allocated x = (decide (x = idx0 * 64 + idx1) || b.allocated x) := by
    intro x
    rw [block_t.allocated_iff, block_t.allocated_iff, ebm]
    exact testBit_update_or b.bitmap_ idx0 idx1 x h64
  have hfi : ∀ x, b1.finalizer x = true →
      x = idx0 * 64 + idx1 ∨ b.finalizer x = true := by
    intro x hx
    rw [block_t.finalizer_iff, efin] at hx
    cases with_finalizer with
    | false =>
      right
      rw [block_t.finalizer_iff]
      simpa using hx
    | true =>
      simp only [if_true] at hx
      rw [testBit_update_or b.finalize_ idx0 idx1 x h64] at hx
      rw [block_t.finalizer_iff]
      simpa using hx
  have hma : ∀ x, b1.marked x = true → x = idx0 * 64 + idx1 ∨ b.marked x = true := by
    intro x hx
    rw [block_t.marked_iff, emk] at hx
    cases marked with
    | false =>
      right
      rw [block_t.marked_iff]
      simpa using hx
    | true =>
      simp only [if_true] at hx
      rw [testBit_update_or b.marked_ idx0 idx1 x h64] at hx
      rw [block_t.marked_iff]
      simpa using hx
  have hcnt : b1.count = b.count + 1 := by
    have := b.count_update b1 idx0 _ h8 ebm
    rw [popcountll_or_mask64 _ _ h64 hbit1] at this
    omega
  refine ⟨b1, idx0 * 64 + idx1, hok, ⟨⟨?_, ?_, ?_, ?_⟩, ?_, ?_, ?_, ?_, ?_, ?_⟩, hlt, ?_, ?_, ?_,
    ecap⟩
  · rw [ecap]; exact hcap
  · rw [esel]
    split_ifs
    · exact Nat.or_lt_two_pow hsel (mask8_lt idx0 h8)
    · exact hsel
  · intro i hi
    rw [ebm]
    by_cases e : i = idx0
    · rw [e, Function.update_same]
      exact Nat.or_lt_two_pow (hbm idx0 h8) (mask64_lt idx1 h64)
    · rw [Function.update_noteq e]; exact hbm i hi
  · intro i hi
    rw [emk]
    cases marked with
    | false => exact hmk i hi
    | true =>
      simp only [if_true]
      by_cases e : i = idx0
      · rw [e, Function.update_same]
        exact Nat.or_lt_two_pow (hmk idx0 h8) (mask64_lt idx1 h64)
      · rw [Function.update_noteq e]; exact hmk i hi
  · unfold block_t.used
    rw [hcnt, ecap, eav]
    unfold block_t.used at hcount
    push_cast
    omega
  · intro x hx hxa
    rw [hal x, ecap] at *
    simp only [Bool.or_eq_true, decide_eq_true_eq] at hxa
    rcases hxa with e | e
    · rw [e]; exact hlt
    · exact ha x hx e
  · intro x hx hxm
    rw [ecap]
    rcases hma x hxm with e | e
    · rw [e]; exact hlt
    · exact hm x hx e
  · intro x hx hxf
    rw [ecap]
    rcases hfi x hxf with e | e
    · rw [e]; exact hlt
    · exact hf x hx e
  · intro x hx hxf
    rw [hal x]
    rcases hfi x hxf with e | e
    · simp [e]
    · simp [hfa x hx e]
  · intro i hi
    rw [esel, ebm]
    by_cases e : i = idx0
    · rw [e, Function.update_same]
      by_cases hall : b.bitmap_ idx0 ||| block_t.mask64 idx1 = ALL_ONES
      · rw [if_pos hall, Nat.testBit_lor, testBit_mask8]
        simp [hall]
      · rw [if_neg hall, hbit0]
        simp [hall]
    · rw [Function.update_noteq e]
      have hbit : (b.select_ ||| block_t.mask8 idx0).testBit i = b.select_.testBit i := by
        rw [Nat.testBit_lor, testBit_mask8]
        have : ¬ idx0 = i := fun x => e x.symm
        simp [this]
      split_ifs
      · rw [hbit]; exact hsum i hi
      · exact hsum i hi
  · rw [block_t.allocated_iff, e1, e2]; exact hbit1
  · rw [hal]; simp
  · unfold block_t.used
    rw [ecap, eav]
    omega

end gc

namespace gc

/-- `free` of an allocated slot that is neither marked nor flagged for a
finalizer passes every assertion and keeps the block well formed. -/
theorem block_t.free_well_formed (b : block_t) (idx : Nat) (hwf : b.well_formed)
    (hidx : idx < 512) (hal : b.allocated idx = true) (hmk : b.marked idx = false)
    (hfin : b.finalizer idx = false) :
    ∃ b1, b.free idx = .ok b1 ∧ b1.well_formed ∧ b1.allocated idx = false ∧
      b1.used = b.used - 1 ∧ b1.capacity_ = b.capacity_ := by
  obtain ⟨⟨hcap, hsel, hbm, hmkw⟩, hcount, ha, hm, hf, hfa, hsum⟩ := hwf
  have h8 : idx / 64 < 8 := by omega
  have h64 : idx % 64 < 64 := Nat.mod_lt _ (by decide)
  have hsplit : idx / 64 * 64 + idx % 64 = idx := by omega
  have hbit : (b.bitmap_ (idx / 64)).testBit (idx % 64) = true := by
    rw [← block_t.allocated_iff]; exact hal
  have hle := b.count_le hcap ha
  have hcnt : b.count = (b.free_slot (idx / 64) (idx % 64)).count + 1 := by
    have := b.count_update (b.free_slot (idx / 64) (idx % 64)) (idx / 64) _ h8 rfl
    rw [popcountll_and_not_mask64 _ _ h64 hbit] at this
    omega
  have hal1 : ∀ x, (b.free_slot (idx / 64) (idx % 64)).allocated x
      = (!decide (x = idx) && b.allocated x) := by
    intro x
    rw [block_t.allocated_iff, block_t.allocated_iff]
    have := testBit_update_and_not b.bitmap_ (idx / 64) (idx % 64) x h64
    rw [hsplit] at this
    exact this
  have hwf1 : (b.free_slot (idx / 64) (idx % 64)).well_formed := by
    refine ⟨⟨hcap, ?_, ?_, hmkw⟩, ?_, ?_, hm, hf, ?_, ?_⟩
    · exact lt_of_le_of_lt Nat.and_le_left hsel
    · intro i hi
      show Function.update b.bitmap_ (idx / 64) _ i < 2 ^ 64
      by_cases e : i = idx / 64
      · rw [e, Function.update_same]
        exact lt_of_le_of_lt Nat.and_le_left (hbm _ h8)
      · rw [Function.update_noteq e]; exact hbm i hi
    · unfold block_t.used at hcount ⊢
      show ((b.free_slot (idx / 64) (idx % 64)).count : Int)
        = (b.capacity_ : Int) - (b.available_ + 1)
      omega
    · intro x hx hxa
      rw [hal1 x] at hxa
      simp only [Bool.and_eq_true, Bool.not_eq_true', decide_eq_false_iff_not] at hxa
      exact ha x hx hxa.2
    · intro x hx hxf
      have hxf2 : b.finalizer x = true := hxf
      rw [hal1 x]
      have : ¬ x = idx := by
        intro e
        rw [e, hfin] at hxf2
        exact absurd hxf2 (by decide)
      simp [this, hfa x hx hxf2]
    · intro i hi
      show (b.select_ &&& not8 (block_t.mask8 (idx / 64))).testBit i = true
        ↔ Function.update b.bitmap_ (idx / 64) _ i = ALL_ONES
      rw [Nat.testBit_land, testBit_not8 _ _ hi, testBit_mask8]
      by_cases e : i = idx / 64
      · rw [e, Function.update_same]
        have hne : b.bitmap_ (idx / 64) &&& not64 (block_t.mask64 (idx % 64)) ≠ ALL_ONES := by
          intro hall
          have h1 : (b.bitmap_ (idx / 64) &&& not64 (block_t.mask64 (idx % 64))).testBit
              (idx % 64) = true := by
            rw [hall, testBit_ALL_ONES]; exact decide_eq_true h64
          rw [Nat.testBit_land, testBit_not64 _ _ h64, testBit_mask64] at h1
          simp at h1
        simp [hne]
      · rw [Function.update_noteq e]
        have : ¬ idx / 64 = i := fun x => e x.symm
        simp only [this, decide_False, Bool.not_false, Bool.and_true]
        exact hsum i hi
  refine ⟨b.free_slot (idx / 64) (idx % 64), ?_, hwf1, ?_, ?_, rfl⟩
  · unfold block_t.free
    have hnotempty : b.empty = false := by
      unfold block_t.empty
      unfold block_t.used at hcount
      apply decide_eq_false
      omega
    have hused : ¬ b.used ≠ (b.count : Int) := by
      intro h; exact h hcount.symm
    have c1 : ¬ b.bitmap_ (block_t.split idx).1 &&& block_t.mask64 (block_t.split idx).2 = 0 := by
      have : b.allocated idx = true := hal
      unfold block_t.allocated at this
      simpa using this
    have c2 : ¬ b.marked_ (block_t.split idx).1 &&& block_t.mask64 (block_t.split idx).2 ≠ 0 := by
      have : b.marked idx = false := hmk
      unfold block_t.marked at this
      simpa using this
    have c3 : ¬ b.finalize_ (block_t.split idx).1 &&& block_t.mask64 (block_t.split idx).2 ≠ 0 := by
      have : b.finalizer idx = false := hfin
      unfold block_t.finalizer at this
      simpa using this
    have c4 : (b.free_slot (idx / 64) (idx % 64)).full = false := by
      unfold block_t.full
      apply decide_eq_false
      show ¬ b.available_ + 1 = 0
      unfold block_t.used at hcount
      omega
    have c5 : ¬ (b.free_slot (idx / 64) (idx % 64)).used
        ≠ ((b.free_slot (idx / 64) (idx % 64)).count : Int) := by
      intro h; exact h hwf1.2.1.symm
    rw [hnotempty]
    simp only [Bool.false_eq_true, if_false, if_neg hused, hidx, not_true_eq_false, if_neg c1,
      if_neg c2, if_neg c3]
    have hs1 : (block_t.split idx).1 = idx / 64 := rfl
    have hs2 : (block_t.split idx).2 = idx % 64 := rfl
    rw [hs1, hs2, c4]
    simp only [Bool.false_eq_true, if_false, if_neg c5]
  · rw [hal1]; simp
  · unfold block_t.used
    show (b.capacity_ : Int) - (b.available_ + 1) = b.capacity_ - b.available_ - 1
    omega

/-- `clear` passes its assertion; the block is well formed afterwards and
every bitmap is empty. -/
theorem block_t.clear_well_formed (b : block_t) (hcap : b.capacity_ ≤ 512) :
    ∃ b1, b.clear = .ok b1 ∧ b1.well_formed ∧ (∀ i, b1.marked_ i = 0) ∧
      (∀ i, b1.bitmap_ i = 0) ∧ b1.capacity_ = b.capacity_ := by
  have hcount : b.clear_slots.count = 0 := by
    simp [block_t.count, block_t.clear_slots, popcountll_zero]
  have hused : b.clear_slots.used = 0 := by
    simp [block_t.used, block_t.clear_slots]
  refine ⟨b.clear_slots, ?_, ⟨⟨hcap, ?_, ?_, ?_⟩, ?_, ?_, ?_, ?_, ?_, ?_⟩, fun _ => rfl,
    fun _ => rfl, rfl⟩
  · unfold block_t.clear
    simp [hcount, hused]
  · show (0 : Nat) < 2 ^ 8
    decide
  · intro i _
    show (0 : Nat) < 2 ^ 64
    exact Nat.pos_pow_of_pos 64 (by decide)
  · intro i _
    show (0 : Nat) < 2 ^ 64
    exact Nat.pos_pow_of_pos 64 (by decide)
  · rw [hcount, hused]; rfl
  · intro x _ hx
    rw [block_t.allocated_iff] at hx
    simp [block_t.clear_slots] at hx
  · intro x _ hx
    rw [block_t.marked_iff] at hx
    simp [block_t.clear_slots] at hx
  · intro x _ hx
    rw [block_t.finalizer_iff] at hx
    simp [block_t.clear_slots] at hx
  · intro x _ hx
    rw [block_t.finalizer_iff] at hx
    simp [block_t.clear_slots] at hx
  · intro i _
    simp [block_t.clear_slots, ALL_ONES]

/-- A block as `block_t::create` makes it is well formed and empty. -/
theorem block_t.create_well_formed (sz : Nat) (dirty : Bool) (h16 : sz % 16 = 0)
    (hpos : 0 < sz) (hsz : sz ≤ 65536) :
    ∃ b, block_t.create sz dirty = .ok b ∧ b.well_formed ∧ b.full = false ∧
      b.available_ = b.capacity_ ∧ 0 < b.capacity_ ∧ b.sz_ = sz ∧
      (∀ i, b.bitmap_ i = 0) ∧ (∀ i, b.marked_ i = 0) := by
  have hcap : (min (sz * 512) BLOCK_ALIGN - sizeof_block_t) / sz ≤ 512 := by
    apply Nat.div_le_of_le_mul
    have : min (sz * 512) BLOCK_ALIGN ≤ sz * 512 := Nat.min_le_left _ _
    omega
  have hcap0 : 0 < (min (sz * 512) BLOCK_ALIGN - sizeof_block_t) / sz := by
    apply Nat.div_pos _ hpos
    have hb : BLOCK_ALIGN = 1048576 := by decide
    have hs : sizeof_block_t = 240 := rfl
    rw [hb, hs]
    rcases Nat.le_total (sz * 512) 1048576 with h | h
    · rw [Nat.min_eq_left h]; omega
    · rw [Nat.min_eq_right h]; omega
  refine ⟨{ dirty_ := dirty, select_ := 0, bitmap_ := fun _ => 0, marked_ := fun _ => 0,
            finalize_ := fun _ => 0, sz_ := sz,
            block_size_ := min (sz * 512) BLOCK_ALIGN,
            available_ := ((min (sz * 512) BLOCK_ALIGN - sizeof_block_t) / sz : Nat),
            capacity_ := (min (sz * 512) BLOCK_ALIGN - sizeof_block_t) / sz },
    ?_, ?_, ?_, rfl, hcap0, rfl, fun _ => rfl, fun _ => rfl⟩
  · unfold block_t.create
    simp only [h16, not_true_eq_false, if_false, hpos, hsz, and_self, hcap]
  · refine ⟨⟨hcap, ?_, ?_, ?_⟩, ?_, ?_, ?_, ?_, ?_, ?_⟩
    · show (0 : Nat) < 2 ^ 8
      decide
    · intro i _
      show (0 : Nat) < 2 ^ 64
      exact Nat.pos_pow_of_pos 64 (by decide)
    · intro i _
      show (0 : Nat) < 2 ^ 64
      exact Nat.pos_pow_of_pos 64 (by decide)
    · simp [block_t.count, block_t.used, popcountll_zero]
    · intro x _ hx
      rw [block_t.allocated_iff] at hx
      simp at hx
    · intro x _ hx
      rw [block_t.marked_iff] at hx
      simp at hx
    · intro x _ hx
      rw [block_t.finalizer_iff] at hx
      simp at hx
    · intro x _ hx
      rw [block_t.finalizer_iff] at hx
      simp at hx
    · intro i _
      simp [ALL_ONES]
  · unfold block_t.full
    apply decide_eq_false
    show ¬ (((min (sz * 512) BLOCK_ALIGN - sizeof_block_t) / sz : Nat) : Int) = 0
    omega

end gc

namespace gc

/-- `sweep` keeps a well-formed block well formed: the alloc bitmap becomes
the mark bitmap, the mark bitmap is emptied, the summary and the counter are
recomputed. -/
theorem block_t.sweep_well_formed (b : block_t) (hwf : b.well_formed) :
    b.sweep.1.well_formed ∧ (∀ i, b.sweep.1.marked_ i = 0) ∧
      (∀ i, i < 8 → b.sweep.1.bitmap_ i = b.marked_ i) ∧
      b.sweep.1.capacity_ = b.capacity_ := by
  obtain ⟨⟨hcap, hsel, hbm, hmkw⟩, hcount, ha, hm, hf, hfa, hsum⟩ := hwf
  obtain ⟨f1, f2, _, _, _, f6, f7, _, _, _⟩ :=
    block_t.sweep_words_spec (List.range 8) ({ b with select_ := 0 }, []) (List.nodup_range 8)
  have ecap : b.sweep.1.capacity_ = b.capacity_ := by
    simp only [block_t.sweep, block_t.clear_marked]
    rw [f2]
  have ebm : ∀ i, i < 8 → b.sweep.1.bitmap_ i = b.marked_ i := by
    intro i hi
    simp only [block_t.sweep, block_t.clear_marked]
    rw [f6 i, if_pos (List.mem_range.mpr hi)]
  have esel : ∀ k, b.sweep.1.select_.testBit k
      = (decide (k < 8) && decide (b.marked_ k = ALL_ONES)) := by
    intro k
    simp only [block_t.sweep, block_t.clear_marked]
    rw [f7 k]
    simp [List.mem_range]
  have emk : ∀ i, b.sweep.1.marked_ i = 0 := by
    intro i
    simp [block_t.sweep, block_t.clear_marked]
  have eav : b.sweep.1.available_ = (b.sweep.1.capacity_ : Int) - b.sweep.1.count := by
    simp only [block_t.sweep, block_t.clear_marked]
    rfl
  refine ⟨⟨⟨?_, ?_, ?_, ?_⟩, ?_, ?_, ?_, ?_, ?_, ?_⟩, emk, ebm, ecap⟩
  · rw [ecap]; exact hcap
  · apply Nat.lt_pow_two_of_testBit
    intro k hk
    rw [esel k]
    have : ¬ k < 8 := by omega
    simp [this]
  · intro i hi
    rw [ebm i hi]; exact hmkw i hi
  · intro i _
    rw [emk i]
    exact Nat.pos_pow_of_pos 64 (by decide)
  · unfold block_t.used
    rw [eav]
    omega
  · intro x hx hxa
    rw [(b.sweep_slot x hx).1] at hxa
    rw [ecap]
    exact hm x hx hxa
  · intro x hx hxm
    rw [(b.sweep_slot x hx).2.1] at hxm
    exact absurd hxm (by decide)
  · intro x hx hxf
    rw [(b.sweep_slot x hx).2.2.1] at hxf
    simp only [Bool.and_eq_true] at hxf
    rw [ecap]
    exact hf x hx hxf.1
  · intro x hx hxf
    rw [(b.sweep_slot x hx).2.2.1] at hxf
    rw [(b.sweep_slot x hx).1]
    simp only [Bool.and_eq_true, Bool.not_eq_true', Bool.and_eq_false_imp, decide_eq_true_eq,
      Bool.not_eq_false'] at hxf
    exact hxf.2 (hf x hx hxf.1)
  · intro i hi
    rw [esel i, ebm i hi]
    simp [hi]

/-- Under `mark ⊆ alloc` a sweep frees slots and takes none. -/
theorem block_t.sweep_available (b : block_t) (hwf : b.well_formed)
    (hsub : ∀ idx, idx < 512 → b.marked idx = true → b.allocated idx = true) :
    b.available_ ≤ b.sweep.1.available_ := by
  obtain ⟨hwf1, _, ebm, ecap⟩ := b.sweep_well_formed hwf
  have hc1 := hwf1.2.1
  have hc := hwf.2.1
  have hle : b.sweep.1.count ≤ b.count := by
    have hw : ∀ i, i < 8 → popcountll (b.sweep.1.bitmap_ i) ≤ popcountll (b.bitmap_ i) := by
      intro i hi
      rw [ebm i hi, popcountll_eq_countP, popcountll_eq_countP]
      apply List.countP_mono_left
      intro j hj hbit
      have hj64 := List.mem_range.mp hj
      have e1 : (i * 64 + j) / 64 = i := by omega
      have e2 : (i * 64 + j) % 64 = j := by omega
      have := hsub (i * 64 + j) (by omega) (by rw [block_t.marked_iff, e1, e2]; exact hbit)
      rw [block_t.allocated_iff, e1, e2] at this
      exact this
    have h0 := hw 0 (by decide)
    have h1 := hw 1 (by decide)
    have h2 := hw 2 (by decide)
    have h3 := hw 3 (by decide)
    have h4 := hw 4 (by decide)
    have h5 := hw 5 (by decide)
    have h6 := hw 6 (by decide)
    have h7 := hw 7 (by decide)
    unfold block_t.count
    omega
  unfold block_t.used at hc hc1
  rw [ecap] at hc1
  omega

end gc

namespace gc

set_option maxRecDepth 100000 in
theorem example_block_well_formed : example_block.well_formed := by decide

/-- C15, the sentence as it stands fails for `free`: slot 1 of the example
block is allocated and not marked, the block is well formed, and `free(1)`
stops at the assertion that the slot has no finalizer flag. -/
theorem C15_free_finalizer_counterexample :
    example_block.well_formed ∧ example_block.allocated 1 = true ∧
      example_block.marked 1 = false ∧ example_block.free 1 = .error .undefined :=
  ⟨example_block_well_formed, by decide, by decide, rfl⟩

/-- C15, amended: a block made by `create` is well formed; on a well-formed
block `alloc` (when the block is not full) returns a slot below the capacity
and keeps the block well formed, `free` of an allocated slot that is neither
marked nor flagged for a finalizer passes every assertion and keeps the block
well formed, while `free` of a slot with the finalizer flag fails an
assertion, `sweep` keeps the block well formed whatever the marks are, and
`clear` passes its assertion and keeps the block well formed; after `sweep`
and after `clear` the mark bitmap is empty. -/
theorem C15_block_well_formed (b : block_t) (hwf : b.well_formed) :
    (∀ sz dirty, sz % 16 = 0 → 0 < sz → sz ≤ 65536 →
      ∃ b0, block_t.create sz dirty = .ok b0 ∧ b0.well_formed) ∧
    (∀ with_finalizer marked, b.full = false →
      ∃ b1 idx, b.alloc with_finalizer marked = .ok (b1, idx) ∧ b1.well_formed ∧
        idx < b.capacity_) ∧
    (∀ idx, idx < 512 → b.allocated idx = true → b.marked idx = false →
      b.finalizer idx = false → ∃ b1, b.free idx = .ok b1 ∧ b1.well_formed) ∧
    (∀ idx, idx < 512 → b.finalizer idx = true → b.free idx = .error .undefined) ∧
    (b.sweep.1.well_formed ∧ ∀ i, b.sweep.1.marked_ i = 0) ∧
    (∃ b1, b.clear = .ok b1 ∧ b1.well_formed ∧ ∀ i, b1.marked_ i = 0) := by
  refine ⟨?_, ?_, ?_, ?_, ?_, ?_⟩
  · intro sz dirty h16 hpos hsz
    obtain ⟨b0, h1, h2, _⟩ := block_t.create_well_formed sz dirty h16 hpos hsz
    exact ⟨b0, h1, h2⟩
  · intro with_finalizer marked hfull
    obtain ⟨b1, idx, h1, h2, h3, _⟩ := b.alloc_well_formed with_finalizer marked hwf hfull
    exact ⟨b1, idx, h1, h2, h3⟩
  · intro idx hidx hal hmk hfin
    obtain ⟨b1, h1, h2, _⟩ := b.free_well_formed idx hwf hidx hal hmk hfin
    exact ⟨b1, h1, h2⟩
  · intro idx hidx hfin
    have c3 : b.finalize_ (block_t.split idx).1 &&& block_t.mask64 (block_t.split idx).2 ≠ 0 := by
      have : b.finalizer idx = true := hfin
      unfold block_t.finalizer at this
      simpa using this
    unfold block_t.free
    simp only [if_pos c3]
    split_ifs <;> rfl
  · exact ⟨(b.sweep_well_formed hwf).1, (b.sweep_well_formed hwf).2.1⟩
  · obtain ⟨b1, h1, h2, h3, _⟩ := b.clear_well_formed hwf.1.1
    exact ⟨b1, h1, h2, h3⟩

theorem C15_block_well_formed_witness :
    example_block.well_formed ∧
      (∃ b1, example_block.free 0 = .ok b1 ∧ b1.well_formed) ∧
      (∃ b1 idx, example_block.alloc true false = .ok (b1, idx) ∧ b1.well_formed ∧
        idx < example_block.capacity_) :=
  ⟨example_block_well_formed,
    (C15_block_well_formed example_block example_block_well_formed).2.2.1 0 (by decide)
      (by decide) (by decide) (by decide),
    (C15_block_well_formed example_block example_block_well_formed).2.1 true false (by decide)⟩

end gc

namespace gc

/-! ## The head of a size class -/

theorem heap_t.next_head_loop_ok (szi sz : Nat) (dirty : Bool) (fuel : Nat) (h : heap_t)
    (b : block_t) (next : List block_t) (hh : h.head_blocks_ szi = b :: next)
    (hb : b.full = false) :
    heap_t.next_head_loop szi sz dirty (fuel + 1) h = .ok h := by
  rw [heap_t.next_head_loop, hh]
  simp [hb]

theorem heap_t.next_head_loop_full (szi sz : Nat) (dirty : Bool) (fuel : Nat) (h : heap_t)
    (b : block_t) (next : List block_t) (hh : h.head_blocks_ szi = b :: next)
    (hb : b.full = true) :
    heap_t.next_head_loop szi sz dirty (fuel + 1) h
      = heap_t.next_head_loop szi sz dirty fuel
          ((h.set_head szi next).set_full szi (b :: h.full_blocks_ szi)) := by
  rw [heap_t.next_head_loop, hh]
  simp [hb]

theorem heap_t.next_head_loop_rest (szi sz : Nat) (dirty : Bool) (fuel : Nat) (h : heap_t)
    (b : block_t) (next : List block_t) (hh : h.head_blocks_ szi = [])
    (hr : h.rest_blocks_ szi = b :: next) :
    heap_t.next_head_loop szi sz dirty (fuel + 1) h
      = heap_t.next_head_loop szi sz dirty fuel ((h.set_head szi [b]).set_rest szi next) := by
  rw [heap_t.next_head_loop, hh]
  simp [hr]

theorem heap_t.next_head_loop_empty (szi sz : Nat) (dirty : Bool) (fuel : Nat) (h : heap_t)
    (b : block_t) (next : List block_t) (hh : h.head_blocks_ szi = [])
    (hr : h.rest_blocks_ szi = []) (he : h.empty_blocks_ szi = b :: next) :
    heap_t.next_head_loop szi sz dirty (fuel + 1) h
      = heap_t.next_head_loop szi sz dirty fuel ((h.set_head szi [b]).set_empty szi next) := by
  rw [heap_t.next_head_loop, hh]
  simp [hr, he]

theorem heap_t.next_head_loop_create (szi sz : Nat) (dirty : Bool) (fuel : Nat) (h : heap_t)
    (b : block_t) (hh : h.head_blocks_ szi = [])
    (hr : h.rest_blocks_ szi = []) (he : h.empty_blocks_ szi = [])
    (hc : block_t.create sz dirty = .ok b) :
    heap_t.next_head_loop szi sz dirty (fuel + 1) h
      = heap_t.next_head_loop szi sz dirty fuel (h.set_head szi [b]) := by
  rw [heap_t.next_head_loop, hh]
  simp [hr, he, hc]

/-- What the loop of `next_head` does: it ends with a head that is not full;
the blocks it found full are at the front of the full list, last first; the
rest list and the empty list lose a prefix and gain nothing; the other size
classes keep their lists. -/
theorem heap_t.next_head_loop_spec (szi sz : Nat) (dirty : Bool) (h16 : sz % 16 = 0)
    (hpos : 0 < sz) (hsz : sz ≤ 65536) :
    ∀ (fuel : Nat) (h : heap_t),
      (h.head_blocks_ szi).length
          + 2 * ((h.rest_blocks_ szi).length + (h.empty_blocks_ szi).length) + 3 ≤ fuel →
      ∃ (h1 : heap_t) (c : block_t) (next moved taken_rest taken_empty : List block_t),
        heap_t.next_head_loop szi sz dirty fuel h = .ok h1 ∧
          h1.head_blocks_ szi = c :: next ∧ c.full = false ∧
          h1.full_blocks_ szi = moved.reverse ++ h.full_blocks_ szi ∧
          (∀ x, x ∈ moved → x.full = true) ∧
          h.rest_blocks_ szi = taken_rest ++ h1.rest_blocks_ szi ∧
          h.empty_blocks_ szi = taken_empty ++ h1.empty_blocks_ szi ∧
          (c ∈ h.head_blocks_ szi ∨ c ∈ h.rest_blocks_ szi ∨ c ∈ h.empty_blocks_ szi ∨
            block_t.create sz dirty = .ok c) ∧
          (∀ i, i ≠ szi → h1.head_blocks_ i = h.head_blocks_ i ∧
            h1.rest_blocks_ i = h.rest_blocks_ i ∧ h1.empty_blocks_ i = h.empty_blocks_ i ∧
            h1.full_blocks_ i = h.full_blocks_ i) := by
  intro fuel
  induction fuel with
  | zero => intro h hf; omega
  | succ fuel ih =>
    intro h hf
    cases hh : h.head_blocks_ szi with
    | cons b next =>
      cases hb : b.full with
      | false =>
        refine ⟨h, b, next, [], [], [], heap_t.next_head_loop_ok szi sz dirty fuel h b next hh hb,
          hh, hb, rfl, ?_, rfl, rfl, Or.inl (List.mem_cons_self _ _), fun _ _ => ⟨rfl, rfl, rfl, rfl⟩⟩
        intro x hx; simp at hx
      | true =>
        rw [heap_t.next_head_loop_full szi sz dirty fuel h b next hh hb]
        obtain ⟨h1, c, nx, moved, tr, te, e1, e2, e3, e4, e5, e6, e7, e8, e9⟩ :=
          ih ((h.set_head szi next).set_full szi (b :: h.full_blocks_ szi)) (by
            simp only [heap_t.set_head, heap_t.set_full, Function.update_same]
            rw [hh] at hf
            simp only [List.length_cons] at hf
            omega)
        simp only [heap_t.set_head, heap_t.set_full, Function.update_same] at e4 e6 e7 e8
        refine ⟨h1, c, nx, b :: moved, tr, te, e1, e2, e3, ?_, ?_, e6, e7, ?_, ?_⟩
        · rw [e4]; simp
        · intro x hx
          rcases List.mem_cons.mp hx with e | e
          · rw [e]; exact hb
          · exact e5 x e
        · rcases e8 with e | e | e | e
          · exact Or.inl (List.mem_cons_of_mem _ e)
          · exact Or.inr (Or.inl e)
          · exact Or.inr (Or.inr (Or.inl e))
          · exact Or.inr (Or.inr (Or.inr e))
        · intro i hi
          have := e9 i hi
          simp only [heap_t.set_head, heap_t.set_full, Function.update_noteq hi] at this
          exact this
    | nil =>
      rw [hh] at hf
      simp only [List.length_nil] at hf
      have hone : ∀ (h2 : heap_t) (b : block_t), h2.head_blocks_ szi = [b] →
          (h2.rest_blocks_ szi).length + (h2.empty_blocks_ szi).length + 1
            ≤ (h.rest_blocks_ szi).length + (h.empty_blocks_ szi).length →
          (h2.head_blocks_ szi).length
            + 2 * ((h2.rest_blocks_ szi).length + (h2.empty_blocks_ szi).length) + 3 ≤ fuel := by
        intro h2 b e1 e2
        rw [e1]
        simp only [List.length_cons, List.length_nil]
        omega
      cases hr : h.rest_blocks_ szi with
      | cons b next =>
        rw [heap_t.next_head_loop_rest szi sz dirty fuel h b next hh hr]
        obtain ⟨h1, c, nx, moved, tr, te, e1, e2, e3, e4, e5, e6, e7, e8, e9⟩ :=
          ih ((h.set_head szi [b]).set_rest szi next) (hone _ b
            (by simp [heap_t.set_head, heap_t.set_rest])
            (by simp [heap_t.set_head, heap_t.set_rest, hr]; omega))
        simp only [heap_t.set_head, heap_t.set_rest, Function.update_same] at e4 e6 e7 e8
        refine ⟨h1, c, nx, moved, b :: tr, te, e1, e2, e3, e4, e5, ?_, e7, ?_, ?_⟩
        · rw [e6]; rfl
        · rcases e8 with e | e | e | e
          · rw [List.mem_singleton] at e
            rw [e]; exact Or.inr (Or.inl (List.mem_cons_self _ _))
          · exact Or.inr (Or.inl (List.mem_cons_of_mem _ e))
          · exact Or.inr (Or.inr (Or.inl e))
          · exact Or.inr (Or.inr (Or.inr e))
        · intro i hi
          have := e9 i hi
          simp only [heap_t.set_head, heap_t.set_rest, Function.update_noteq hi] at this
          exact this
      | nil =>
        cases he : h.empty_blocks_ szi with
        | cons b next =>
          rw [heap_t.next_head_loop_empty szi sz dirty fuel h b next hh hr he]
          obtain ⟨h1, c, nx, moved, tr, te, e1, e2, e3, e4, e5, e6, e7, e8, e9⟩ :=
            ih ((h.set_head szi [b]).set_empty szi next) (hone _ b
              (by simp [heap_t.set_head, heap_t.set_empty])
              (by simp [heap_t.set_head, heap_t.set_empty, hr, he]))
          simp only [heap_t.set_head, heap_t.set_empty, Function.update_same] at e4 e6 e7 e8
          refine ⟨h1, c, nx, moved, tr, b :: te, e1, e2, e3, e4, e5, ?_, ?_, ?_, ?_⟩
          · rw [← hr]; exact e6
          · rw [e7]; rfl
          · rcases e8 with e | e | e | e
            · rw [List.mem_singleton] at e
              rw [e]; exact Or.inr (Or.inr (Or.inl (List.mem_cons_self _ _)))
            · rw [hr] at e; simp at e
            · exact Or.inr (Or.inr (Or.inl (List.mem_cons_of_mem _ e)))
            · exact Or.inr (Or.inr (Or.inr e))
          · intro i hi
            have := e9 i hi
            simp only [heap_t.set_head, heap_t.set_empty, Function.update_noteq hi] at this
            exact this
        | nil =>
          obtain ⟨b, hc, hwf, hnf, _⟩ := block_t.create_well_formed sz dirty h16 hpos hsz
          rw [heap_t.next_head_loop_create szi sz dirty fuel h b hh hr he hc]
          cases fuel with
          | zero => omega
          | succ fuel =>
            have hh2 : (h.set_head szi [b]).head_blocks_ szi = [b] := by
              simp [heap_t.set_head]
            rw [heap_t.next_head_loop_ok szi sz dirty fuel _ b [] hh2 hnf]
            refine ⟨_, b, [], [], [], [], rfl, hh2, hnf, rfl, ?_, ?_, ?_,
              Or.inr (Or.inr (Or.inr hc)), ?_⟩
            · intro x hx; simp at hx
            · simp [heap_t.set_head, hr]
            · simp [heap_t.set_head, he]
            · intro i hi
              simp [heap_t.set_head, Function.update_noteq hi]

/-- Without a head, the loop of `next_head` makes the first block of the rest
list followed by the empty list that is not full the head. -/
theorem heap_t.next_head_loop_first (szi sz : Nat) (dirty : Bool) :
    ∀ (pre : List block_t) (fuel : Nat) (h : heap_t) (x : block_t) (post : List block_t),
      h.head_blocks_ szi = [] →
      h.rest_blocks_ szi ++ h.empty_blocks_ szi = pre ++ x :: post →
      (∀ y, y ∈ pre → y.full = true) → x.full = false → 2 * pre.length + 2 ≤ fuel →
      ∃ h1, heap_t.next_head_loop szi sz dirty fuel h = .ok h1 ∧ h1.head_blocks_ szi = [x] := by
  intro pre
  induction pre with
  | nil =>
    intro fuel h x post hh hl _ hx hf
    obtain ⟨f, rfl⟩ : ∃ f, fuel = f + 2 := ⟨fuel - 2, by simp at hf; omega⟩
    cases hr : h.rest_blocks_ szi with
    | cons b next =>
      rw [hr] at hl
      simp only [List.cons_append, List.nil_append, List.cons.injEq] at hl
      rw [heap_t.next_head_loop_rest szi sz dirty (f + 1) h b next hh hr]
      have hh2 : ((h.set_head szi [b]).set_rest szi next).head_blocks_ szi = [b] := by
        simp [heap_t.set_head, heap_t.set_rest]
      rw [heap_t.next_head_loop_ok szi sz dirty f _ b [] hh2 (by rw [hl.1]; exact hx)]
      exact ⟨_, rfl, by rw [hh2, hl.1]⟩
    | nil =>
      rw [hr] at hl
      simp only [List.nil_append] at hl
      cases he : h.empty_blocks_ szi with
      | nil => rw [he] at hl; cases hl
      | cons b next =>
        rw [he] at hl
        simp only [List.cons.injEq] at hl
        rw [heap_t.next_head_loop_empty szi sz dirty (f + 1) h b next hh hr he]
        have hh2 : ((h.set_head szi [b]).set_empty szi next).head_blocks_ szi = [b] := by
          simp [heap_t.set_head, heap_t.set_empty]
        rw [heap_t.next_head_loop_ok szi sz dirty f _ b [] hh2 (by rw [hl.1]; exact hx)]
        exact ⟨_, rfl, by rw [hh2, hl.1]⟩
  | cons p pre ih =>
    intro fuel h x post hh hl hpre hx hf
    obtain ⟨f, rfl⟩ : ∃ f, fuel = f + 2 := ⟨fuel - 2, by simp at hf; omega⟩
    simp only [List.length_cons] at hf
    have hp : p.full = true := hpre p (List.mem_cons_self _ _)
    have hpre2 : ∀ y, y ∈ pre → y.full = true := fun y hy => hpre y (List.mem_cons_of_mem _ hy)
    cases hr : h.rest_blocks_ szi with
    | cons b next =>
      rw [hr] at hl
      simp only [List.cons_append, List.cons.injEq] at hl
      rw [heap_t.next_head_loop_rest szi sz dirty (f + 1) h b next hh hr]
      have hh2 : ((h.set_head szi [b]).set_rest szi next).head_blocks_ szi = [b] := by
        simp [heap_t.set_head, heap_t.set_rest]
      rw [heap_t.next_head_loop_full szi sz dirty f _ b [] hh2 (by rw [hl.1]; exact hp)]
      exact ih f _ x post (by simp [heap_t.set_head, heap_t.set_rest, heap_t.set_full])
        (by simpa [heap_t.set_head, heap_t.set_rest, heap_t.set_full] using hl.2) hpre2 hx
        (by omega)
    | nil =>
      rw [hr] at hl
      simp only [List.nil_append] at hl
      cases he : h.empty_blocks_ szi with
      | nil => rw [he] at hl; cases hl
      | cons b next =>
        rw [he] at hl
        simp only [List.cons_append, List.cons.injEq] at hl
        rw [heap_t.next_head_loop_empty szi sz dirty (f + 1) h b next hh hr he]
        have hh2 : ((h.set_head szi [b]).set_empty szi next).head_blocks_ szi = [b] := by
          simp [heap_t.set_head, heap_t.set_empty]
        rw [heap_t.next_head_loop_full szi sz dirty f _ b [] hh2 (by rw [hl.1]; exact hp)]
        exact ih f _ x post (by simp [heap_t.set_head, heap_t.set_empty, heap_t.set_full])
          (by simpa [heap_t.set_head, heap_t.set_empty, heap_t.set_full, hr] using hl.2) hpre2 hx
          (by omega)

end gc

namespace gc

theorem block_t.well_formed_dirty (b : block_t) (m : Bool) (hwf : b.well_formed) :
    block_t.well_formed { b with dirty_ := m } := hwf

/-- The sweep of `alloc_shared` keeps a well-formed block that is not full
well formed and not full when no free slot is marked. -/
theorem allocator_sweep_well_formed (dirty_mask_ : Bool) (b : block_t) (hwf : b.well_formed)
    (hsub : ∀ idx, idx < 512 → b.marked idx = true → b.allocated idx = true)
    (hfull : b.full = false) :
    (allocator_sweep dirty_mask_ b).1.well_formed ∧
      (allocator_sweep dirty_mask_ b).1.full = false ∧
      (allocator_sweep dirty_mask_ b).1.capacity_ = b.capacity_ := by
  by_cases h : b.dirty_ = !dirty_mask_
  · have hwf2 := block_t.well_formed_dirty b dirty_mask_ hwf
    have hsub2 : ∀ idx, idx < 512 →
        block_t.marked { b with dirty_ := dirty_mask_ } idx = true →
        block_t.allocated { b with dirty_ := dirty_mask_ } idx = true := hsub
    have e : (allocator_sweep dirty_mask_ b).1
        = (block_t.sweep { b with dirty_ := dirty_mask_ }).1 := by
      simp only [allocator_sweep, block_t.dirty_cas, h, if_true]
    rw [e]
    obtain ⟨w1, _, _, w4⟩ := block_t.sweep_well_formed _ hwf2
    have hav := block_t.sweep_available _ hwf2 hsub2
    obtain ⟨_, _, _, _, _, _, _, _, _, hpos⟩ := b.lowest_free hwf hfull
    refine ⟨w1, ?_, w4⟩
    unfold block_t.full
    apply decide_eq_false
    have hav2 : b.available_ ≤ (block_t.sweep { b with dirty_ := dirty_mask_ }).1.available_ :=
      hav
    omega
  · rw [allocator_sweep_skip dirty_mask_ b h]
    exact ⟨hwf, hfull, rfl⟩

theorem example_block_unmarked :
    ∀ idx, idx < 512 → example_block.marked idx = true → example_block.allocated idx = true := by
  intro idx _ hm
  rw [block_t.marked_iff] at hm
  simp [example_block] at hm

/-- C16, the sentence as it stands fails: with the filled block as the head
of the size class of 16 bytes and one partly used block in the rest list, the
next `alloc_shared` leaves the rest list empty and puts the filled block into
the full list. -/
theorem C16_rest_list_counterexample :
    example_full_block.full = true ∧
      ∃ (h1 : heap_t) (idx : Nat) (log : List Nat),
        example_heap.alloc_shared false false 10 16 false = .ok (h1, idx, log) ∧
          h1.rest_blocks_ 0 = [] ∧ h1.full_blocks_ 0 = [example_full_block] ∧ idx = 3 :=
  ⟨rfl, _, _, _, rfl, rfl, rfl, rfl⟩

/-- C16, amended: when the head block of a size class is full, the head has no
successor, and the blocks of the rest list and of the empty list are well
formed with no free slot marked, the next `alloc_shared` for that size class
moves the full head to the full list (not to the rest list, which only loses
blocks from its front); the blocks taken from the rest or the empty list that
are full follow it there; the new head comes from the rest list, the empty
list or `block_t::create` and is not full: it is the first block that is not
full of the rest list followed by the empty list, and a new block when all of
them are full; and after the sweep of that head
the request is served from it, from a slot below its capacity that was free. -/
theorem C16_full_head_goes_to_full_list (h : heap_t) (b : block_t) (sz fuel : Nat)
    (write_barrier_ dirty_mask_ with_finalizer : Bool)
    (h16 : sz % 16 = 0) (hpos : 0 < sz) (hsz : sz ≤ 512)
    (hhead : h.head_blocks_ (szi_shared sz) = [b]) (hfull : b.full = true)
    (hwf : ∀ c, c ∈ h.rest_blocks_ (szi_shared sz) ∨ c ∈ h.empty_blocks_ (szi_shared sz) →
      c.well_formed ∧ ∀ idx, idx < 512 → c.marked idx = true → c.allocated idx = true)
    (hfuel : 2 * ((h.rest_blocks_ (szi_shared sz)).length
      + (h.empty_blocks_ (szi_shared sz)).length) + 4 ≤ fuel) :
    ∃ (h0 : heap_t) (c : block_t) (next moved taken : List block_t),
      h.next_head fuel sz false = .ok h0 ∧
        h0.head_blocks_ (szi_shared sz) = c :: next ∧ c.full = false ∧
        h0.full_blocks_ (szi_shared sz) = moved.reverse ++ b :: h.full_blocks_ (szi_shared sz) ∧
        (∀ x, x ∈ moved → x.full = true) ∧
        h.rest_blocks_ (szi_shared sz) = taken ++ h0.rest_blocks_ (szi_shared sz) ∧
        (c ∈ h.rest_blocks_ (szi_shared sz) ∨ c ∈ h.empty_blocks_ (szi_shared sz) ∨
          block_t.create sz false = .ok c) ∧
        (∀ pre x post,
          h.rest_blocks_ (szi_shared sz) ++ h.empty_blocks_ (szi_shared sz) = pre ++ x :: post →
          (∀ y, y ∈ pre → y.full = true) → x.full = false → c = x) ∧
        ((∀ y, y ∈ h.rest_blocks_ (szi_shared sz) ∨ y ∈ h.empty_blocks_ (szi_shared sz) →
          y.full = true) → block_t.create sz false = .ok c) ∧
        ∃ (h1 : heap_t) (c1 : block_t) (idx : Nat) (log : List Nat),
          h.alloc_shared write_barrier_ dirty_mask_ fuel sz with_finalizer = .ok (h1, idx, log) ∧
            h1.head_blocks_ (szi_shared sz) = c1 :: next ∧
            (allocator_sweep dirty_mask_ c).1.alloc with_finalizer write_barrier_
              = .ok (c1, idx) ∧
            idx < c.capacity_ ∧
            (allocator_sweep dirty_mask_ c).1.allocated idx = false ∧
            h1.full_blocks_ (szi_shared sz) = h0.full_blocks_ (szi_shared sz) ∧
            h1.rest_blocks_ (szi_shared sz) = h0.rest_blocks_ (szi_shared sz) := by
  cases fuel with
  | zero => omega
  | succ fuel =>
    have hnh : h.next_head (fuel + 1) sz false
        = heap_t.next_head_loop (szi_shared sz) sz false fuel
            ((h.set_head (szi_shared sz) []).set_full (szi_shared sz)
              (b :: h.full_blocks_ (szi_shared sz))) := by
      unfold heap_t.next_head
      simp only [h16, not_true_eq_false, if_false, hpos, hsz, and_self]
      exact heap_t.next_head_loop_full _ sz false fuel h b [] hhead hfull
    obtain ⟨h0, c, next, moved, tr, te, e1, e2, e3, e4, e5, e6, e7, e8, _⟩ :=
      heap_t.next_head_loop_spec (szi_shared sz) sz false h16 hpos (by omega) fuel
        ((h.set_head (szi_shared sz) []).set_full (szi_shared sz)
          (b :: h.full_blocks_ (szi_shared sz))) (by
          simp only [heap_t.set_head, heap_t.set_full, Function.update_same, List.length_nil]
          omega)
    simp only [heap_t.set_head, heap_t.set_full, Function.update_same] at e4 e6 e7 e8
    have horigin : c ∈ h.rest_blocks_ (szi_shared sz) ∨ c ∈ h.empty_blocks_ (szi_shared sz) ∨
        block_t.create sz false = .ok c := by
      rcases e8 with e | e | e | e
      · simp at e
      · exact Or.inl e
      · exact Or.inr (Or.inl e)
      · exact Or.inr (Or.inr e)
    have hc : c.well_formed ∧ ∀ idx, idx < 512 → c.marked idx = true → c.allocated idx = true := by
      rcases horigin with e | e | e
      · exact hwf c (Or.inl e)
      · exact hwf c (Or.inr e)
      · obtain ⟨c0, hc0, hwf0, _, _, _, _, _, hmk0⟩ :=
          block_t.create_well_formed sz false h16 hpos (by omega)
        rw [hc0] at e
        simp only [Except.ok.injEq] at e
        subst e
        refine ⟨hwf0, ?_⟩
        intro idx _ hm
        rw [block_t.marked_iff, hmk0] at hm
        simp at hm
    obtain ⟨s1, s2, s3⟩ := allocator_sweep_well_formed dirty_mask_ c hc.1 hc.2 e3
    obtain ⟨c1, idx, a1, _, a3, a4, _⟩ :=
      block_t.alloc_well_formed _ with_finalizer write_barrier_ s1 s2
    have hvalid : h.valid_head sz = false := by
      unfold heap_t.valid_head
      rw [hhead]
      simp [hfull]
    have hfirst : ∀ pre x post,
        h.rest_blocks_ (szi_shared sz) ++ h.empty_blocks_ (szi_shared sz) = pre ++ x :: post →
        (∀ y, y ∈ pre → y.full = true) → x.full = false → c = x := by
      intro pre x post hl hpre hx
      have hlen := congrArg List.length hl
      simp only [List.length_append, List.length_cons] at hlen
      obtain ⟨h2, g1, g2⟩ := heap_t.next_head_loop_first (szi_shared sz) sz false pre fuel
        ((h.set_head (szi_shared sz) []).set_full (szi_shared sz)
          (b :: h.full_blocks_ (szi_shared sz))) x post
        (by simp [heap_t.set_head, heap_t.set_full])
        (by simpa [heap_t.set_head, heap_t.set_full] using hl) hpre hx (by omega)
      rw [e1] at g1
      simp only [Except.ok.injEq] at g1
      rw [← g1, e2] at g2
      simp only [List.cons.injEq] at g2
      exact g2.1
    have hcreate : (∀ y, y ∈ h.rest_blocks_ (szi_shared sz) ∨
        y ∈ h.empty_blocks_ (szi_shared sz) → y.full = true) →
        block_t.create sz false = .ok c := by
      intro hall
      rcases horigin with e | e | e
      · have := hall c (Or.inl e); rw [e3] at this; cases this
      · have := hall c (Or.inr e); rw [e3] at this; cases this
      · exact e
    refine ⟨h0, c, next, moved, tr, hnh.trans e1, e2, e3, e4, e5, e6, horigin, hfirst, hcreate,
      h0.set_head (szi_shared sz) (c1 :: next), c1, idx, (allocator_sweep dirty_mask_ c).2.1,
      ?_, ?_, a1, ?_, a4, rfl, rfl⟩
    · unfold heap_t.alloc_shared
      rw [hvalid, hnh, e1]
      simp only [Bool.false_eq_true, if_false, e2, a1, h16, not_true_eq_false, hpos, hsz,
        and_self]
    · simp [heap_t.set_head]
    · rw [← s3]; exact a3

theorem C16_full_head_goes_to_full_list_witness :
    ∃ (h0 : heap_t) (c : block_t) (next moved taken : List block_t),
      example_heap.next_head 10 16 false = .ok h0 ∧
        h0.head_blocks_ (szi_shared 16) = c :: next ∧ c.full = false ∧
        h0.full_blocks_ (szi_shared 16)
          = moved.reverse ++ example_full_block :: example_heap.full_blocks_ (szi_shared 16) ∧
        (∀ x, x ∈ moved → x.full = true) ∧
        example_heap.rest_blocks_ (szi_shared 16) = taken ++ h0.rest_blocks_ (szi_shared 16) :=
  match C16_full_head_goes_to_full_list example_heap example_full_block 16 10 false false false
      (by decide) (by decide) (by decide) rfl rfl
      (fun c hc => by
        have e : c = example_block := by
          rcases hc with hc | hc
          · exact List.mem_singleton.mp hc
          · exact absurd hc (List.not_mem_nil c)
        rw [e]
        exact ⟨example_block_well_formed, example_block_unmarked⟩)
      (by decide) with
  | ⟨h0, c, next, moved, taken, e1, e2, e3, e4, e5, e6, _⟩ =>
    ⟨h0, c, next, moved, taken, e1, e2, e3, e4, e5, e6⟩

end gc

namespace gc

theorem example_private_next_fresh3 : fresh example_private_next [16, 64, 96] := by
  refine ⟨fun n m h => ?_, fun n => ⟨?_, ?_, ?_⟩⟩
  · unfold example_private_next at h
    omega
  · unfold example_private_next
    omega
  · exact (example_private_next_fresh.2 n).2.1
  · unfold example_private_next
    simp only [List.mem_cons, List.mem_singleton, List.not_mem_nil, or_false, not_or]
    omega

theorem example_cyclic_allocator_wf : nursery_wf example_cyclic_allocator [16, 64, 96] := by
  intro p hp
  simp only [List.mem_cons, List.mem_singleton, List.not_mem_nil, or_false] at hp
  rcases hp with rfl | rfl | rfl
  · refine ⟨by decide, by decide, by decide, by decide, ?_⟩
    intro f hf
    have hf2 : f = 64 := by
      simpa [refs_of, example_cyclic_allocator] using hf
    rw [hf2]
    exact ⟨by decide, Or.inr (by decide)⟩
  · refine ⟨by decide, by decide, by decide, by decide, ?_⟩
    intro f hf
    have hf2 : f = 16 ∨ f = 0x100010 := by
      simpa [refs_of, example_cyclic_allocator] using hf
    rcases hf2 with rfl | rfl
    · exact ⟨by decide, Or.inr (by decide)⟩
    · exact ⟨by decide, Or.inl (by decide)⟩
  · refine ⟨by decide, by decide, by decide, by decide, ?_⟩
    intro f hf
    have hf2 : f = 16 := by
      simpa [refs_of, example_cyclic_allocator] using hf
    rw [hf2]
    exact ⟨by decide, Or.inr (by decide)⟩

/-- C20: a nursery collection with the roots `roots`, of a nursery of
well-formed unmarked objects (cycles and shared substructure included), with
more fuel than there are objects and a new private heap that yields fresh
local addresses, returns; the objects it copied are the nursery objects
reachable from the roots, each of them once, the `m`-th of them to the `m`-th
address of the new heap, and the new heap holds as many objects as were
copied, so that no unreachable object is copied; every root and every
reference of a copy holds what it held before when that is a shared
reference, and the address of the copy of the nursery object it referred to
otherwise; and a copy has the size, the first word and the number of
references of its original. -/
theorem C20_nursery_collection_preserves_graph (next : Nat → Nat) (a : allocator_t)
    (objects roots : List Nat) (fuel : Nat) (hwf : nursery_wf a objects)
    (hfresh : fresh next objects) (hroots : ∀ r ∈ roots, valid_ref objects r)
    (hfuel : objects.toFinset.card < fuel) :
    ∃ (a1 : allocator_t) (roots1 copied : List Nat),
      a.collect_local_to_local next fuel roots = .ok (a1, roots1) ∧
      copied.Nodup ∧ (∀ p, p ∈ copied ↔ nursery_reachable a roots p) ∧
      a1.live_objects = (copied.length : Nat) ∧
      roots1.length = roots.length ∧
      (∀ (j r v : Nat), roots[j]? = some r → roots1[j]? = some v →
        (is_shared_ref r = true ∧ v = r) ∨
          (is_shared_ref r = false ∧ ∃ m, copied[m]? = some r ∧ v = next m)) ∧
      (∀ m p, copied[m]? = some p →
        a1.header (next m) = some ⟨sz_of a p, false⟩ ∧
        ∃ c, a1.data (next m) = some c ∧ c.word0 = word0_of a p ∧
          c.refs.length = (refs_of a p).length ∧
          ∀ (j f v : Nat), (refs_of a p)[j]? = some f → c.refs[j]? = some v →
            (is_shared_ref f = true ∧ v = f) ∨
              (is_shared_ref f = false ∧ ∃ k, copied[k]? = some f ∧ v = next k)) ∧
      (∀ m k, m < copied.length → k < copied.length → next m = next k → m = k) := by
  obtain ⟨a1, roots1, copied, h1, hcol, _⟩ :=
    collect_spec next a objects roots fuel hwf hfresh hroots hfuel
  obtain ⟨k1, k2, _, k4, k5, k6, k7, k8⟩ := hcol
  refine ⟨a1, roots1, copied, h1, k1, k2, k4, k5, k6, ?_, fun m k _ _ e => hfresh.1 e⟩
  intro m p hm
  obtain ⟨t0, c, t1, t2, t3⟩ := k7 m p hm
  obtain ⟨c', u1, u2⟩ := k8 m p hm
  rw [t1] at u1
  simp only [Option.some.injEq] at u1
  subst u1
  exact ⟨t0, c, t1, u2, t2, t3⟩

theorem C20_nursery_collection_preserves_graph_witness :
    ∃ (a1 : allocator_t) (roots1 copied : List Nat),
      example_cyclic_allocator.collect_local_to_local example_private_next 4 [16]
        = .ok (a1, roots1) ∧
      copied.Nodup ∧ (∀ p, p ∈ copied ↔ nursery_reachable example_cyclic_allocator [16] p) ∧
      a1.live_objects = (copied.length : Nat) :=
  match C20_nursery_collection_preserves_graph example_private_next example_cyclic_allocator
      [16, 64, 96] [16] 4 example_cyclic_allocator_wf example_private_next_fresh3
      (fun r hr => by
        rw [List.mem_singleton] at hr
        rw [hr]
        exact ⟨by decide, Or.inr (by decide)⟩)
      (by decide) with
  | ⟨a1, roots1, copied, h1, h2, h3, h4, _⟩ => ⟨a1, roots1, copied, h1, h2, h3, h4⟩

end gc

namespace park

namespace mapimpl

/-! ## Bitmaps of the persistent map -/

theorem below_eq_popcount32 (bm : Nat) : below bm 32 = popcount32 bm := rfl

theorem range_split (b n : Nat) (h : b ≤ n) :
    List.range n = List.range b ++ (List.range (n - b)).map (b + ·) := by
  rw [← List.range_add]
  congr 1
  omega

theorem below_mono (bm b1 b2 : Nat) (h : b1 ≤ b2) : below bm b1 ≤ below bm b2 := by
  unfold below
  rw [range_split b1 b2 h, List.countP_append]
  omega

theorem below_lt (bm b1 b2 : Nat) (h : b1 < b2) (hbit : bm.testBit b1 = true) :
    below bm b1 < below bm b2 := by
  have h1 : below bm (b1 + 1) = below bm b1 + 1 := by
    unfold below
    rw [List.range_succ, List.countP_append]
    simp [hbit]
  have h2 := below_mono bm (b1 + 1) b2 h
  omega

theorem below_inj (bm b1 b2 : Nat) (h1 : bm.testBit b1 = true) (h2 : bm.testBit b2 = true)
    (h : below bm b1 = below bm b2) : b1 = b2 := by
  rcases Nat.lt_trichotomy b1 b2 with e | e | e
  · have := below_lt bm b1 b2 e h1; omega
  · exact e
  · have := below_lt bm b2 b1 e h2; omega

theorem below_lt_popcount32 (bm b : Nat) (hb : b < 32) (hbit : bm.testBit b = true) :
    below bm b < popcount32 bm := by
  rw [← below_eq_popcount32]
  exact below_lt bm b 32 hb hbit

theorem testBit_one_shiftLeft (c j : Nat) : (1 <<< c).testBit j = decide (c = j) := by
  rw [Nat.one_shiftLeft, Nat.testBit_two_pow]

/-- Setting a clear bit adds one to the count of every higher position. -/
theorem below_or (bm c b : Nat) (hc : bm.testBit c = false) :
    below (bm ||| 1 <<< c) b = below bm b + if c < b then 1 else 0 := by
  unfold below
  by_cases hcb : c < b
  · rw [if_pos hcb]
    refine gc.countP_flip _ _ c hc ?_ _ (List.nodup_range b) (List.mem_range.mpr hcb) ?_
    · rw [Nat.testBit_lor, testBit_one_shiftLeft]; simp
    · intro k _ hk
      rw [Nat.testBit_lor, testBit_one_shiftLeft]
      have : ¬ c = k := fun e => hk e.symm
      simp [this]
  · rw [if_neg hcb, Nat.add_zero]
    apply List.countP_congr
    intro k hk
    have hk2 := List.mem_range.mp hk
    rw [Nat.testBit_lor, testBit_one_shiftLeft]
    have : ¬ c = k := by omega
    simp [this]

theorem popcount32_or (bm c : Nat) (hc : bm.testBit c = false) (h32 : c < 32) :
    popcount32 (bm ||| 1 <<< c) = popcount32 bm + 1 := by
  rw [← below_eq_popcount32, ← below_eq_popcount32, below_or bm c 32 hc, if_pos h32]

theorem map_index_eq_below (bm b : Nat) (hb : b < 32) : map_index bm (1 <<< b) = below bm b := by
  unfold map_index popcount32 below
  rw [range_split b 32 (by omega), List.countP_append]
  have h0 : ((List.range (32 - b)).map (b + ·)).countP
      (fun j => (bm &&& (1 <<< b - 1)).testBit j) = 0 := by
    rw [List.countP_eq_zero]
    intro a ha
    obtain ⟨k, _, e⟩ := List.mem_map.mp ha
    rw [Nat.testBit_land, Nat.one_shiftLeft, Nat.testBit_two_pow_sub_one]
    have : ¬ a < b := by omega
    simp [this]
  rw [h0, Nat.add_zero]
  apply List.countP_congr
  intro k hk
  have hk2 := List.mem_range.mp hk
  rw [Nat.testBit_land, Nat.one_shiftLeft, Nat.testBit_two_pow_sub_one]
  simp [hk2]

theorem and_bit_ne_zero (bm b : Nat) : bm &&& 1 <<< b ≠ 0 ↔ bm.testBit b = true := by
  rw [Nat.one_shiftLeft, Nat.and_two_pow]
  cases bm.testBit b <;> simp

theorem map_mask_lt (hash shift : Nat) : map_mask hash shift < 32 := by
  unfold map_mask
  have : (hash >>> shift) &&& 0x1f ≤ 0x1f := Nat.and_le_right
  omega

theorem map_mask_eq (hash shift : Nat) : map_mask hash shift = hash / 2 ^ shift % 32 := by
  unfold map_mask
  rw [Nat.shiftRight_eq_div_pow]
  exact Nat.and_pow_two_sub_one_eq_mod _ 5

/-- The low bits of a hash one level down. -/
theorem mod_next_level (hash shift : Nat) :
    hash % 2 ^ (shift + 5) = hash % 2 ^ shift + map_mask hash shift * 2 ^ shift := by
  rw [map_mask_eq, Nat.pow_add, Nat.mod_mul, Nat.mul_comm]

theorem map_mask_of_low_bits (hash shift pre b : Nat) (hpre : pre < 2 ^ shift)
    (h : hash % 2 ^ (shift + 5) = pre + b * 2 ^ shift) :
    map_mask hash shift = b ∧ hash % 2 ^ shift = pre := by
  rw [mod_next_level] at h
  have hpos : 0 < 2 ^ shift := Nat.pos_pow_of_pos shift (by decide)
  have hlt : hash % 2 ^ shift < 2 ^ shift := Nat.mod_lt _ hpos
  have h1 : hash % 2 ^ shift = pre := by
    have e := congrArg (· % 2 ^ shift) h
    simp only [Nat.add_mul_mod_self_right] at e
    rw [Nat.mod_eq_of_lt hlt, Nat.mod_eq_of_lt hpre] at e
    exact e
  refine ⟨?_, h1⟩
  have : map_mask hash shift * 2 ^ shift = b * 2 ^ shift := by omega
  exact Nat.eq_of_mul_eq_mul_right hpos this

/-- Two different hashes of 64 bits differ within their low 64 bits. -/
theorem shift_lt_of_ne (h1 h2 shift : Nat) (hlt1 : h1 < 2 ^ 64) (hlt2 : h2 < 2 ^ 64)
    (hne : h1 ≠ h2) (hmod : h1 % 2 ^ shift = h2 % 2 ^ shift) : shift < 64 := by
  by_contra hge
  have hle : 2 ^ 64 ≤ 2 ^ shift := Nat.pow_le_pow_right (by decide) (by omega)
  rw [Nat.mod_eq_of_lt (lt_of_lt_of_le hlt1 hle), Nat.mod_eq_of_lt (lt_of_lt_of_le hlt2 hle)]
    at hmod
  exact hne hmod

end mapimpl

end park

namespace park

namespace mapimpl

/-! ## The shape of the nodes -/

variable {K V : Type}

theorem mem_flatten_leaves (d : Nat) (nodes : List (Node K V)) (x : Nat × K × V) :
    x ∈ (nodes.map (Node.leaves d)).flatten ↔
      ∃ (i : Nat) (c : Node K V), nodes[i]? = some c ∧ x ∈ Node.leaves d c := by
  rw [List.mem_flatten]
  constructor
  · rintro ⟨l, hl, hx⟩
    obtain ⟨c, hc, rfl⟩ := List.mem_map.mp hl
    obtain ⟨i, hi⟩ := List.getElem?_of_mem hc
    exact ⟨i, c, hi, hx⟩
  · rintro ⟨i, c, hi, hx⟩
    exact ⟨Node.leaves d c, List.mem_map.mpr ⟨c, List.getElem?_mem hi, rfl⟩, hx⟩

theorem Node.leaves_BitmapIndexed (d bm s hh : Nat) (nodes : List (Node K V)) :
    Node.leaves (d + 1) (Node.BitmapIndexed bm s hh nodes)
      = (nodes.map (Node.leaves d)).flatten := by
  simp [Node.leaves]

theorem Node.leaves_Full (d s hh : Nat) (nodes : List (Node K V)) :
    Node.leaves (d + 1) (Node.Full s hh nodes) = (nodes.map (Node.leaves d)).flatten := by
  simp [Node.leaves]

theorem Node.leaves_Leaf (d h : Nat) (k : K) (v : V) :
    Node.leaves d (Node.Leaf h k v) = [(h, k, v)] := by
  cases d <;> simp [Node.leaves]

theorem Node.wf_Leaf (d h : Nat) (k : K) (v : V) (s pre : Nat) :
    (Node.Leaf h k v).wf d s pre ↔ (h < 2 ^ 64 ∧ h % 2 ^ s = pre) := by
  cases d <;> simp [Node.wf]

theorem Node.wf_BitmapIndexed (d bm s0 hh : Nat) (nodes : List (Node K V)) (s pre : Nat) :
    (Node.BitmapIndexed bm s0 hh nodes).wf (d + 1) s pre ↔
      (s0 = s ∧ s ≤ 60 ∧ pre < 2 ^ s ∧ bm < 2 ^ 32 ∧ nodes.length = popcount32 bm ∧
        ∀ (i : Nat) (c : Node K V), nodes[i]? = some c →
          ∃ b, b < 32 ∧ bm.testBit b = true ∧ below bm b = i ∧
            c.wf d (s + 5) (pre + b * 2 ^ s)) := by
  simp [Node.wf]

theorem Node.wf_Full (d s0 hh : Nat) (nodes : List (Node K V)) (s pre : Nat) :
    (Node.Full s0 hh nodes).wf (d + 1) s pre ↔
      (s0 = s ∧ s ≤ 60 ∧ pre < 2 ^ s ∧ nodes.length = 32 ∧
        ∀ (i : Nat) (c : Node K V), nodes[i]? = some c → c.wf d (s + 5) (pre + i * 2 ^ s)) := by
  simp [Node.wf]

/-- Every leaf below a node has a hash of 64 bits with the low bits of the
node. -/
theorem Node.wf_leaves : ∀ (d : Nat) (n : Node K V) (s pre : Nat), n.wf d s pre →
    ∀ x, x ∈ n.leaves d → x.1 < 2 ^ 64 ∧ x.1 % 2 ^ s = pre := by
  intro d
  induction d with
  | zero =>
    intro n s pre hwf x hx
    cases n with
    | Empty => simp [Node.wf] at hwf
    | Leaf h k v =>
      rw [Node.leaves_Leaf, List.mem_singleton] at hx
      rw [Node.wf_Leaf] at hwf
      rw [hx]; exact hwf
    | BitmapIndexed bm s0 hh nodes => simp [Node.wf] at hwf
    | Full s0 hh nodes => simp [Node.wf] at hwf
  | succ d ih =>
    intro n s pre hwf x hx
    cases n with
    | Empty => simp [Node.wf] at hwf
    | Leaf h k v =>
      rw [Node.leaves_Leaf, List.mem_singleton] at hx
      rw [Node.wf_Leaf] at hwf
      rw [hx]; exact hwf
    | BitmapIndexed bm s0 hh nodes =>
      rw [Node.wf_BitmapIndexed] at hwf
      obtain ⟨_, _, hpre, _, _, hch⟩ := hwf
      rw [Node.leaves_BitmapIndexed, mem_flatten_leaves] at hx
      obtain ⟨i, c, hi, hxc⟩ := hx
      obtain ⟨b, _, _, _, hc⟩ := hch i c hi
      obtain ⟨h1, h2⟩ := ih c _ _ hc x hxc
      exact ⟨h1, (map_mask_of_low_bits x.1 s pre b hpre h2).2⟩
    | Full s0 hh nodes =>
      rw [Node.wf_Full] at hwf
      obtain ⟨_, _, hpre, _, hch⟩ := hwf
      rw [Node.leaves_Full, mem_flatten_leaves] at hx
      obtain ⟨i, c, hi, hxc⟩ := hx
      obtain ⟨h1, h2⟩ := ih c _ _ (hch i c hi) x hxc
      exact ⟨h1, (map_mask_of_low_bits x.1 s pre i hpre h2).2⟩

/-- The child that holds a leaf is the child that the hash of the leaf leads
to. -/
theorem Node.leaf_child_BitmapIndexed (d bm s pre : Nat) (nodes : List (Node K V))
    (hpre : pre < 2 ^ s)
    (hch : ∀ (i : Nat) (c : Node K V), nodes[i]? = some c →
      ∃ b, b < 32 ∧ bm.testBit b = true ∧ below bm b = i ∧ c.wf d (s + 5) (pre + b * 2 ^ s))
    (i : Nat) (c : Node K V) (hi : nodes[i]? = some c) (x : Nat × K × V)
    (hx : x ∈ c.leaves d) :
    bm.testBit (map_mask x.1 s) = true ∧ below bm (map_mask x.1 s) = i := by
  obtain ⟨b, _, hbit, hbelow, hc⟩ := hch i c hi
  obtain ⟨_, h2⟩ := Node.wf_leaves d c _ _ hc x hx
  rw [(map_mask_of_low_bits x.1 s pre b hpre h2).1]
  exact ⟨hbit, hbelow⟩

theorem Node.leaf_child_Full (d s pre : Nat) (nodes : List (Node K V))
    (hpre : pre < 2 ^ s)
    (hch : ∀ (i : Nat) (c : Node K V), nodes[i]? = some c → c.wf d (s + 5) (pre + i * 2 ^ s))
    (i : Nat) (c : Node K V) (hi : nodes[i]? = some c) (x : Nat × K × V)
    (hx : x ∈ c.leaves d) : map_mask x.1 s = i := by
  obtain ⟨_, h2⟩ := Node.wf_leaves d c _ _ (hch i c hi) x hx
  exact (map_mask_of_low_bits x.1 s pre i hpre h2).1

/-- A node holds at most one key for a hash. -/
theorem Node.leaves_hash_unique : ∀ (d : Nat) (n : Node K V) (s pre : Nat), n.wf d s pre →
    ∀ (h : Nat) (k1 k2 : K) (v1 v2 : V), (h, k1, v1) ∈ n.leaves d → (h, k2, v2) ∈ n.leaves d →
      k1 = k2 ∧ v1 = v2 := by
  intro d
  induction d with
  | zero =>
    intro n s pre hwf h k1 k2 v1 v2 h1 h2
    cases n with
    | Empty => simp [Node.wf] at hwf
    | Leaf lh lk lv =>
      rw [Node.leaves_Leaf, List.mem_singleton] at h1 h2
      simp only [Prod.mk.injEq] at h1 h2
      exact ⟨h1.2.1.trans h2.2.1.symm, h1.2.2.trans h2.2.2.symm⟩
    | BitmapIndexed bm s0 hh nodes => simp [Node.wf] at hwf
    | Full s0 hh nodes => simp [Node.wf] at hwf
  | succ d ih =>
    intro n s pre hwf h k1 k2 v1 v2 h1 h2
    cases n with
    | Empty => simp [Node.wf] at hwf
    | Leaf lh lk lv =>
      rw [Node.leaves_Leaf, List.mem_singleton] at h1 h2
      simp only [Prod.mk.injEq] at h1 h2
      exact ⟨h1.2.1.trans h2.2.1.symm, h1.2.2.trans h2.2.2.symm⟩
    | BitmapIndexed bm s0 hh nodes =>
      rw [Node.wf_BitmapIndexed] at hwf
      obtain ⟨_, _, hpre, _, _, hch⟩ := hwf
      rw [Node.leaves_BitmapIndexed, mem_flatten_leaves] at h1 h2
      obtain ⟨i1, c1, hi1, hx1⟩ := h1
      obtain ⟨i2, c2, hi2, hx2⟩ := h2
      have e1 := (Node.leaf_child_BitmapIndexed d bm s pre nodes hpre hch i1 c1 hi1 _ hx1).2
      have e2 := (Node.leaf_child_BitmapIndexed d bm s pre nodes hpre hch i2 c2 hi2 _ hx2).2
      have ei : i1 = i2 := e1.symm.trans e2
      subst ei
      rw [hi1] at hi2
      simp only [Option.some.injEq] at hi2
      subst hi2
      obtain ⟨b, _, _, _, hc⟩ := hch i1 c1 hi1
      exact ih c1 _ _ hc h k1 k2 v1 v2 hx1 hx2
    | Full s0 hh nodes =>
      rw [Node.wf_Full] at hwf
      obtain ⟨_, _, hpre, _, hch⟩ := hwf
      rw [Node.leaves_Full, mem_flatten_leaves] at h1 h2
      obtain ⟨i1, c1, hi1, hx1⟩ := h1
      obtain ⟨i2, c2, hi2, hx2⟩ := h2
      have e1 := Node.leaf_child_Full d s pre nodes hpre hch i1 c1 hi1 _ hx1
      have e2 := Node.leaf_child_Full d s pre nodes hpre hch i2 c2 hi2 _ hx2
      have ei : i1 = i2 := e1.symm.trans e2
      subst ei
      rw [hi1] at hi2
      simp only [Option.some.injEq] at hi2
      subst hi2
      exact ih c1 _ _ (hch i1 c1 hi1) h k1 k2 v1 v2 hx1 hx2

end mapimpl

end park

namespace park

namespace mapimpl

variable {K V : Type}

theorem below_zero (b : Nat) : below 0 b = 0 := by
  unfold below
  rw [List.countP_eq_zero]
  intro a _
  simp

theorem popcount32_full : popcount32 0xffffffff = 32 := by decide

theorem below_full (b : Nat) (hb : b ≤ 32) : below 0xffffffff b = b := by
  unfold below
  have h : (List.range b).countP (fun j => (0xffffffff : Nat).testBit j) = (List.range b).length := by
    rw [List.countP_eq_length]
    intro a ha
    have ha2 := List.mem_range.mp ha
    have := Nat.testBit_two_pow_sub_one 32 a
    rw [this]
    exact decide_eq_true (by omega)
  rw [h, List.length_range]

theorem insert_leaf_getElem? (nodes : List (Node K V)) (idx : Nat) (k : K) (v : V) (h : Nat)
    (hidx : idx ≤ nodes.length) (i : Nat) :
    (Node.insert_leaf_node_at_idx nodes idx k v h)[i]?
      = if i < idx then nodes[i]? else if i = idx then some (Node.Leaf h k v)
        else nodes[i - 1]? := by
  unfold Node.insert_leaf_node_at_idx
  have hlen : (nodes.take idx).length = idx := by
    rw [List.length_take]; omega
  by_cases h1 : i < idx
  · rw [if_pos h1, List.append_assoc, List.getElem?_append_left (by rw [hlen]; exact h1),
      List.getElem?_take_of_lt h1]
  · rw [if_neg h1, List.append_assoc, List.getElem?_append_right (by rw [hlen]; omega), hlen]
    by_cases h2 : i = idx
    · rw [if_pos h2, h2]
      simp
    · rw [if_neg h2]
      have e : i - idx = (i - idx - 1) + 1 := by omega
      rw [e, List.singleton_append, List.getElem?_cons_succ, List.getElem?_drop]
      congr 1
      omega

theorem insert_leaf_length (nodes : List (Node K V)) (idx : Nat) (k : K) (v : V) (h : Nat) :
    (Node.insert_leaf_node_at_idx nodes idx k v h).length = nodes.length + 1 := by
  unfold Node.insert_leaf_node_at_idx
  simp only [List.length_append, List.length_take, List.length_drop, List.length_singleton]
  omega

/-- The children of an inner node after a leaf for a new bit is put in. -/
theorem insert_leaf_children (d bm s pre b h : Nat) (k : K) (v : V) (nodes : List (Node K V))
    (hlen : nodes.length = popcount32 bm) (hb : b < 32) (hbit : bm.testBit b = false)
    (hleaf : (Node.Leaf h k v).wf d (s + 5) (pre + b * 2 ^ s))
    (hch : ∀ (i : Nat) (c : Node K V), nodes[i]? = some c →
      ∃ b, b < 32 ∧ bm.testBit b = true ∧ below bm b = i ∧ c.wf d (s + 5) (pre + b * 2 ^ s)) :
    ∀ (i : Nat) (c : Node K V),
      (Node.insert_leaf_node_at_idx nodes (below bm b) k v h)[i]? = some c →
      ∃ b2, b2 < 32 ∧ (bm ||| 1 <<< b).testBit b2 = true ∧ below (bm ||| 1 <<< b) b2 = i ∧
        c.wf d (s + 5) (pre + b2 * 2 ^ s) := by
  intro i c hi
  have hidx : below bm b ≤ nodes.length := by
    rw [hlen, ← below_eq_popcount32]
    exact below_mono bm b 32 (by omega)
  rw [insert_leaf_getElem? nodes _ k v h hidx i] at hi
  have hset : ∀ b2, bm.testBit b2 = true → (bm ||| 1 <<< b).testBit b2 = true := by
    intro b2 h2
    rw [Nat.testBit_lor, h2]; rfl
  by_cases h1 : i < below bm b
  · rw [if_pos h1] at hi
    obtain ⟨b2, hb2, hbit2, hbel, hc⟩ := hch i c hi
    have hlt : b2 < b := by
      by_contra hge
      have hne : b2 ≠ b := fun e => by rw [e, hbit] at hbit2; exact absurd hbit2 (by decide)
      have := below_mono bm b b2 (by omega)
      omega
    refine ⟨b2, hb2, hset b2 hbit2, ?_, hc⟩
    rw [below_or bm b b2 hbit, if_neg (by omega), hbel]
    rfl
  · rw [if_neg h1] at hi
    by_cases h2 : i = below bm b
    · rw [if_pos h2] at hi
      simp only [Option.some.injEq] at hi
      subst hi
      refine ⟨b, hb, ?_, ?_, hleaf⟩
      · rw [Nat.testBit_lor, testBit_one_shiftLeft]; simp
      · rw [below_or bm b b hbit, if_neg (by omega), h2]
        rfl
    · rw [if_neg h2] at hi
      obtain ⟨b2, hb2, hbit2, hbel, hc⟩ := hch (i - 1) c hi
      have hgt : b < b2 := by
        by_contra hle
        have hne : b2 ≠ b := fun e => by rw [e, hbit] at hbit2; exact absurd hbit2 (by decide)
        have := below_lt bm b2 b (by omega) hbit2
        omega
      refine ⟨b2, hb2, hset b2 hbit2, ?_, hc⟩
      rw [below_or bm b b2 hbit, if_pos hgt, hbel]
      omega

theorem insert_leaf_leaves (d : Nat) (nodes : List (Node K V)) (idx h : Nat) (k : K) (v : V)
    (x : Nat × K × V)
    (hx : x ∈ ((Node.insert_leaf_node_at_idx nodes idx k v h).map (Node.leaves d)).flatten) :
    x ∈ (nodes.map (Node.leaves d)).flatten ∨ x = (h, k, v) := by
  rw [List.mem_flatten] at hx
  obtain ⟨l, hl, hxl⟩ := hx
  obtain ⟨c, hc, rfl⟩ := List.mem_map.mp hl
  unfold Node.insert_leaf_node_at_idx at hc
  rw [List.mem_append, List.mem_append] at hc
  rcases hc with (hc | hc) | hc
  · left
    rw [List.mem_flatten]
    exact ⟨_, List.mem_map.mpr ⟨c, List.mem_of_mem_take hc, rfl⟩, hxl⟩
  · right
    rw [List.mem_singleton] at hc
    rw [hc, Node.leaves_Leaf, List.mem_singleton] at hxl
    exact hxl
  · left
    rw [List.mem_flatten]
    exact ⟨_, List.mem_map.mpr ⟨c, List.mem_of_mem_drop hc, rfl⟩, hxl⟩

theorem set_child_leaves (d : Nat) (nodes : List (Node K V)) (idx : Nat) (n1 : Node K V)
    (x : Nat × K × V)
    (hx : x ∈ ((nodes.set idx n1).map (Node.leaves d)).flatten) :
    x ∈ (nodes.map (Node.leaves d)).flatten ∨ x ∈ n1.leaves d := by
  rw [mem_flatten_leaves] at hx
  obtain ⟨i, c2, hi, hxc⟩ := hx
  rw [List.getElem?_set] at hi
  by_cases e : idx = i
  · rw [if_pos e] at hi
    split_ifs at hi
    · simp only [Option.some.injEq] at hi
      rw [← hi] at hxc
      exact Or.inr hxc
  · rw [if_neg e] at hi
    left
    rw [mem_flatten_leaves]
    exact ⟨i, c2, hi, hxc⟩

end mapimpl

end park

namespace park

namespace mapimpl

variable {K V : Type}

/-- What `assoc` does on a node of the shape `wf`, for a key whose hash has
the low bits of the node: when the node holds another key with this hash,
one that `map_key_equals` tells apart from the new key, the call throws; when
every key with this hash that the node holds is equal to the new key, the
call returns a new node of the same shape, whose leaves are leaves of the old
node or the new leaf. -/
theorem Node.assoc_spec (map_key_equals : K → K → Except Exn Bool) :
    ∀ (fuel d : Nat) (n : Node K V) (s pre h : Nat) (k : K) (v : V),
      n.wf d s pre → s % 5 = 0 → d + s / 5 = 14 → 1 ≤ d → h < 2 ^ 64 → h % 2 ^ s = pre →
      n.assoc_fuel d ≤ fuel →
      (∀ k0 v0, (h, k0, v0) ∈ n.leaves d → map_key_equals k0 k = .ok false →
        n.assoc map_key_equals fuel s h k v = .error (.runtime_error "todo possible collision")) ∧
      ((∀ k0 v0, (h, k0, v0) ∈ n.leaves d → map_key_equals k0 k = .ok true) →
        ∃ n1 leaf_added, n.assoc map_key_equals fuel s h k v = .ok (n1, leaf_added, false) ∧
          n1.wf d s pre ∧ ∀ x, x ∈ n1.leaves d → x ∈ n.leaves d ∨ x = (h, k, v)) := by
  intro fuel
  induction fuel with
  | zero =>
    intro d n s pre h k v hwf h5 hd hd1 hh hpre hfuel
    cases n with
    | Empty => simp [Node.wf] at hwf
    | Leaf lh lk lv =>
      simp only [Node.assoc_fuel] at hfuel
      omega
    | BitmapIndexed bm s0 hh0 nodes =>
      cases d with
      | zero => omega
      | succ d =>
        rw [Node.wf_BitmapIndexed] at hwf
        simp only [Node.assoc_fuel] at hfuel
        omega
    | Full s0 hh0 nodes =>
      cases d with
      | zero => omega
      | succ d =>
        rw [Node.wf_Full] at hwf
        simp only [Node.assoc_fuel] at hfuel
        omega
  | succ fuel ih =>
    intro d n s pre h k v hwf h5 hd hd1 hh hpre hfuel
    cases n with
    | Empty => simp [Node.wf] at hwf
    | Leaf lh lk lv =>
      rw [Node.wf_Leaf] at hwf
      simp only [Node.leaves_Leaf, List.mem_singleton, Prod.mk.injEq]
      by_cases e : h = lh
      · constructor
        · intro k0 v0 hm heq
          rw [hm.2.1] at heq
          simp only [Node.assoc, if_pos e, heq]
        · intro hall
          have heq := hall lk lv ⟨e, rfl, rfl⟩
          refine ⟨Node.Leaf h k v, false, ?_, ?_, ?_⟩
          · simp only [Node.assoc, if_pos e, heq]
          · rw [Node.wf_Leaf]; exact ⟨hh, hpre⟩
          · intro x hx
            rw [Node.leaves_Leaf, List.mem_singleton] at hx
            exact Or.inr hx
      · constructor
        · intro k0 v0 hm _
          exact absurd hm.1 e
        · intro _
          have hs64 : s < 64 :=
            shift_lt_of_ne h lh s hh hwf.1 e (by rw [hpre, hwf.2])
          have hs60 : s ≤ 60 := by omega
          cases d with
          | zero => omega
          | succ d =>
          have hbwf : (Node.BitmapIndexed (map_bitpos lh s) s lh [Node.Leaf lh lk lv]).wf (d + 1)
              s pre := by
            rw [Node.wf_BitmapIndexed]
            have hm32 := map_mask_lt lh s
            have hbm : map_bitpos lh s = 0 ||| 1 <<< map_mask lh s := by
              unfold map_bitpos; rw [Nat.zero_or]
            refine ⟨rfl, hs60, ?_, ?_, ?_, ?_⟩
            · rw [← hpre]; exact Nat.mod_lt _ (Nat.pos_pow_of_pos s (by decide))
            · unfold map_bitpos
              rw [Nat.one_shiftLeft]
              exact Nat.pow_lt_pow_right (by decide) hm32
            · rw [hbm, popcount32_or 0 _ (by simp) hm32]
              rfl
            · intro i c hi
              cases i with
              | zero =>
                simp only [List.getElem?_cons_zero, Option.some.injEq] at hi
                subst hi
                refine ⟨map_mask lh s, hm32, ?_, ?_, ?_⟩
                · unfold map_bitpos
                  rw [testBit_one_shiftLeft]; simp
                · rw [hbm, below_or 0 _ _ (by simp), below_zero]
                  simp
                · rw [Node.wf_Leaf]
                  refine ⟨hwf.1, ?_⟩
                  rw [mod_next_level, hwf.2]
              | succ i => simp at hi
          have hleaves : (Node.BitmapIndexed (map_bitpos lh s) s lh [Node.Leaf lh lk lv]).leaves
              (d + 1) = [(lh, lk, lv)] := by
            rw [Node.leaves_BitmapIndexed]
            simp [Node.leaves_Leaf]
          obtain ⟨_, ihc⟩ := ih (d + 1) _ s pre h k v hbwf h5 hd hd1 hh hpre (by
            simp only [Node.assoc_fuel] at hfuel ⊢
            omega)
          obtain ⟨n1, la, h1, h2, h3⟩ := ihc (by
            intro k0 v0 hm
            rw [hleaves, List.mem_singleton] at hm
            simp only [Prod.mk.injEq] at hm
            exact absurd hm.1 e)
          refine ⟨n1, la, ?_, h2, ?_⟩
          · simp only [Node.assoc, if_neg e, hs64, not_true_eq_false, if_false]
            exact h1
          · intro x hx
            rcases h3 x hx with e1 | e1
            · rw [hleaves] at e1
              exact Or.inl (List.mem_singleton.mp e1)
            · exact Or.inr e1
    | BitmapIndexed bm s0 hh0 nodes =>
      cases d with
      | zero => simp [Node.wf] at hwf
      | succ d =>
      rw [Node.wf_BitmapIndexed] at hwf
      obtain ⟨hs0, hs60, hprelt, hbm32, hlen, hch⟩ := hwf
      subst hs0
      have hs64 : s0 < 64 := by omega
      have hm32 := map_mask_lt h s0
      have hidx : map_index bm (map_bitpos h s0) = below bm (map_mask h s0) :=
        map_index_eq_below bm _ hm32
      have hd2 : 1 ≤ d := by omega
      by_cases hbit : bm.testBit (map_mask h s0) = true
      · have hcond : bm &&& map_bitpos h s0 ≠ 0 := (and_bit_ne_zero bm _).mpr hbit
        have hlt : below bm (map_mask h s0) < nodes.length := by
          rw [hlen]; exact below_lt_popcount32 bm _ hm32 hbit
        obtain ⟨b2, hb2, hbit2, hbel2, hcwf⟩ :=
          hch _ _ (List.getElem?_eq_getElem hlt)
        have eb : b2 = map_mask h s0 := below_inj bm _ _ hbit2 hbit hbel2
        subst eb
        obtain ⟨iha, ihc⟩ := ih d (nodes.get ⟨_, hlt⟩) (s0 + 5) (pre + map_mask h s0 * 2 ^ s0) h k v
          hcwf (by omega) (by omega) hd2 hh (by rw [mod_next_level, hpre]) (by
            have : Node.assoc_fuel (nodes.get ⟨_, hlt⟩) d ≤ 2 * d - 1 := by
              unfold Node.assoc_fuel
              split <;> omega
            simp only [Node.assoc_fuel] at hfuel
            omega)
        have hchild : ∀ k0 v0, (h, k0, v0) ∈ (Node.BitmapIndexed bm s0 hh0 nodes).leaves (d + 1) →
            (h, k0, v0) ∈ (nodes.get ⟨_, hlt⟩).leaves d := by
          intro k0 v0 hm
          rw [Node.leaves_BitmapIndexed, mem_flatten_leaves] at hm
          obtain ⟨i, c, hi, hxc⟩ := hm
          have := (Node.leaf_child_BitmapIndexed d bm s0 pre nodes hprelt hch i c hi _ hxc).2
          simp only at this
          subst this
          rw [List.getElem?_eq_getElem hlt] at hi
          simp only [Option.some.injEq] at hi
          rw [← hi] at hxc
          exact hxc
        constructor
        · intro k0 v0 hm heq
          have := iha k0 v0 (hchild k0 v0 hm) heq
          simp only [Node.assoc, hs64, not_true_eq_false, if_false, hcond, ne_eq,
            if_true, hidx, List.getElem?_eq_getElem hlt]
          simp only [List.get_eq_getElem] at this
          rw [this]
          simp
        · intro hall
          obtain ⟨n1, la, h1, h2, h3⟩ := ihc (by
            intro k0 v0 hm
            refine hall k0 v0 ?_
            rw [Node.leaves_BitmapIndexed, mem_flatten_leaves]
            exact ⟨_, _, List.getElem?_eq_getElem hlt, hm⟩)
          refine ⟨Node.BitmapIndexed bm s0 (Node.first_hash nodes)
            (nodes.set (below bm (map_mask h s0)) n1), la, ?_, ?_, ?_⟩
          · simp only [Node.assoc, hs64, not_true_eq_false, if_false, hcond, ne_eq,
              if_true, hidx, List.getElem?_eq_getElem hlt]
            simp only [List.get_eq_getElem] at h1
            rw [h1]
            simp
          · rw [Node.wf_BitmapIndexed]
            refine ⟨rfl, hs60, hprelt, hbm32, by rw [List.length_set]; exact hlen, ?_⟩
            intro i c hi
            rw [List.getElem?_set] at hi
            by_cases e : below bm (map_mask h s0) = i
            · rw [if_pos e] at hi
              split_ifs at hi
              simp only [Option.some.injEq] at hi
              subst hi
              exact ⟨map_mask h s0, hm32, hbit, e, h2⟩
            · rw [if_neg e] at hi
              exact hch i c hi
          · intro x hx
            rw [Node.leaves_BitmapIndexed] at hx
            rcases set_child_leaves d nodes _ n1 x hx with e1 | e1
            · left
              rw [Node.leaves_BitmapIndexed]
              exact e1
            · rcases h3 x e1 with e2 | e2
              · left
                rw [Node.leaves_BitmapIndexed, mem_flatten_leaves]
                exact ⟨_, _, List.getElem?_eq_getElem hlt, e2⟩
              · exact Or.inr e2
      · have hbitf : bm.testBit (map_mask h s0) = false := by simpa using hbit
        have hcond : ¬ bm &&& map_bitpos h s0 ≠ 0 := fun hc => hbit ((and_bit_ne_zero bm _).mp hc)
        constructor
        · intro k0 v0 hm _
          rw [Node.leaves_BitmapIndexed, mem_flatten_leaves] at hm
          obtain ⟨i, c, hi, hxc⟩ := hm
          have := (Node.leaf_child_BitmapIndexed d bm s0 pre nodes hprelt hch i c hi _ hxc).1
          exact absurd this hbit
        · intro _
          have hleaf : (Node.Leaf h k v).wf d (s0 + 5) (pre + map_mask h s0 * 2 ^ s0) := by
            rw [Node.wf_Leaf]
            exact ⟨hh, by rw [mod_next_level, hpre]⟩
          have hchn := insert_leaf_children d bm s0 pre (map_mask h s0) h k v nodes hlen hm32 hbitf
            hleaf hch
          have hpc := popcount32_or bm (map_mask h s0) hbitf hm32
          have hbp : map_bitpos h s0 = 1 <<< map_mask h s0 := rfl
          by_cases hfullbm : bm ||| map_bitpos h s0 = 0xffffffff
          · have hl31 : nodes.length = 31 := by
              rw [← hbp, hfullbm, popcount32_full] at hpc
              omega
            refine ⟨Node.Full s0 (Node.first_hash nodes)
              (Node.insert_leaf_node_at_idx nodes (below bm (map_mask h s0)) k v h), true,
              ?_, ?_, ?_⟩
            · simp only [Node.assoc, hs64, not_true_eq_false, if_false, hcond, hidx, hfullbm,
                if_true, hl31, ne_eq]
            · rw [Node.wf_Full]
              refine ⟨rfl, hs60, hprelt, by rw [insert_leaf_length, hl31], ?_⟩
              intro i c hi
              obtain ⟨b2, hb2, _, hbel, hc⟩ := hchn i c hi
              rw [← hbp, hfullbm, below_full b2 (by omega)] at hbel
              rw [← hbel]
              exact hc
            · intro x hx
              rw [Node.leaves_Full] at hx
              rw [Node.leaves_BitmapIndexed]
              exact insert_leaf_leaves d nodes _ h k v x hx
          · refine ⟨Node.BitmapIndexed (bm ||| map_bitpos h s0) s0 (Node.first_hash nodes)
              (Node.insert_leaf_node_at_idx nodes (below bm (map_mask h s0)) k v h), true,
              ?_, ?_, ?_⟩
            · simp only [Node.assoc, hs64, not_true_eq_false, if_false, hcond, hidx, hfullbm]
            · rw [Node.wf_BitmapIndexed]
              refine ⟨rfl, hs60, hprelt, ?_, ?_, hchn⟩
              · apply Nat.or_lt_two_pow hbm32
                rw [hbp, Nat.one_shiftLeft]
                exact Nat.pow_lt_pow_right (by decide) hm32
              · rw [insert_leaf_length, hbp, hpc, hlen]
            · intro x hx
              rw [Node.leaves_BitmapIndexed] at hx
              rw [Node.leaves_BitmapIndexed]
              exact insert_leaf_leaves d nodes _ h k v x hx
    | Full s0 hh0 nodes =>
      cases d with
      | zero => simp [Node.wf] at hwf
      | succ d =>
      rw [Node.wf_Full] at hwf
      obtain ⟨hs0, hs60, hprelt, hlen, hch⟩ := hwf
      subst hs0
      have hs64 : s0 < 64 := by omega
      have hm32 := map_mask_lt h s0
      have hd2 : 1 ≤ d := by omega
      have hlt : map_mask h s0 < nodes.length := by rw [hlen]; exact hm32
      have hcwf := hch _ _ (List.getElem?_eq_getElem hlt)
      obtain ⟨iha, ihc⟩ := ih d (nodes.get ⟨_, hlt⟩) (s0 + 5) (pre + map_mask h s0 * 2 ^ s0) h k v
        hcwf (by omega) (by omega) hd2 hh (by rw [mod_next_level, hpre]) (by
          have : Node.assoc_fuel (nodes.get ⟨_, hlt⟩) d ≤ 2 * d - 1 := by
            unfold Node.assoc_fuel
            split <;> omega
          simp only [Node.assoc_fuel] at hfuel
          omega)
      have hchild : ∀ k0 v0, (h, k0, v0) ∈ (Node.Full s0 hh0 nodes).leaves (d + 1) →
          (h, k0, v0) ∈ (nodes.get ⟨_, hlt⟩).leaves d := by
        intro k0 v0 hm
        rw [Node.leaves_Full, mem_flatten_leaves] at hm
        obtain ⟨i, c, hi, hxc⟩ := hm
        have := Node.leaf_child_Full d s0 pre nodes hprelt hch i c hi _ hxc
        simp only at this
        subst this
        rw [List.getElem?_eq_getElem hlt] at hi
        simp only [Option.some.injEq] at hi
        rw [← hi] at hxc
        exact hxc
      constructor
      · intro k0 v0 hm heq
        have := iha k0 v0 (hchild k0 v0 hm) heq
        simp only [Node.assoc, hs64, not_true_eq_false, if_false, List.getElem?_eq_getElem hlt]
        simp only [List.get_eq_getElem] at this
        rw [this]
      · intro hall
        obtain ⟨n1, la, h1, h2, h3⟩ := ihc (by
          intro k0 v0 hm
          refine hall k0 v0 ?_
          rw [Node.leaves_Full, mem_flatten_leaves]
          exact ⟨_, _, List.getElem?_eq_getElem hlt, hm⟩)
        refine ⟨Node.Full s0 (Node.first_hash nodes) (nodes.set (map_mask h s0) n1), la,
          ?_, ?_, ?_⟩
        · simp only [Node.assoc, hs64, not_true_eq_false, if_false, List.getElem?_eq_getElem hlt]
          simp only [List.get_eq_getElem] at h1
          rw [h1]
          simp
        · rw [Node.wf_Full]
          refine ⟨rfl, hs60, hprelt, by rw [List.length_set]; exact hlen, ?_⟩
          intro i c hi
          rw [List.getElem?_set] at hi
          by_cases e : map_mask h s0 = i
          · rw [if_pos e] at hi
            split_ifs at hi
            simp only [Option.some.injEq] at hi
            subst hi
            rw [← e]
            exact h2
          · rw [if_neg e] at hi
            exact hch i c hi
        · intro x hx
          rw [Node.leaves_Full] at hx
          rcases set_child_leaves d nodes _ n1 x hx with e1 | e1
          · left
            rw [Node.leaves_Full]
            exact e1
          · rcases h3 x e1 with e2 | e2
            · left
              rw [Node.leaves_Full, mem_flatten_leaves]
              exact ⟨_, _, List.getElem?_eq_getElem hlt, e2⟩
            · exact Or.inr e2

end mapimpl

end park

namespace park

variable {K V : Type}

theorem MapImpl.mem_iterate (map_key_hash : K → Except Exn Nat) (m : MapImpl K V)
    (hwf : m.wf map_key_hash) (h : Nat) (k : K) (v : V) (hm : (k, v) ∈ m.iterate 14)
    (hk : map_key_hash k = .ok h) : (h, k, v) ∈ m.root_.leaves 14 := by
  unfold MapImpl.iterate mapimpl.Node.iterate at hm
  obtain ⟨x, hx, e⟩ := List.mem_map.mp hm
  have hx2 := hwf.2 x hx
  have e1 : x.2.1 = k := congrArg Prod.fst e
  rw [e1, hk] at hx2
  simp only [Except.ok.injEq] at hx2
  have : x = (h, k, v) := by
    rw [hx2]
    exact Prod.ext rfl e
  rw [← this]
  exact hx

theorem MapImpl.EMPTY_wf (map_key_hash : K → Except Exn Nat) :
    (MapImpl.EMPTY : MapImpl K V).wf map_key_hash := by
  refine ⟨Or.inl rfl, ?_⟩
  intro x hx
  simp [MapImpl.EMPTY, mapimpl.Node.leaves] at hx

/-- C18: for a map of the shape that `assoc` keeps from the empty map on, a
key `k` with the hash `h` and enough fuel for the 13 levels of a hash of 64
bits: when the map holds a key `k'` with the same hash that `map_key_equals`
tells apart from `k`, `assoc` throws the runtime error "todo possible
collision" and returns no map; when every key of the map with this hash is
equal to `k`, in particular when no key of the map has this hash, however
many groups of five low bits it shares with the hashes in the map, `assoc`
returns a map of this shape; no map of this shape holds two keys of one
hash; and the empty map has this shape. -/
theorem C18_hash_collision_raises (map_key_hash : K → Except Exn Nat)
    (map_key_equals : K → K → Except Exn Bool) (m : MapImpl K V) (fuel : Nat) (k : K) (v : V)
    (h : Nat) (hwf : m.wf map_key_hash) (hfuel : 28 ≤ fuel) (hk : map_key_hash k = .ok h)
    (hh : h < 2 ^ 64) :
    (∀ k' v', (k', v') ∈ m.iterate 14 → map_key_hash k' = .ok h →
      map_key_equals k' k = .ok false →
      m.assoc map_key_hash map_key_equals fuel k v
        = .error (.runtime_error "todo possible collision")) ∧
    ((∀ k' v', (k', v') ∈ m.iterate 14 → map_key_hash k' = .ok h →
        map_key_equals k' k = .ok true) →
      ∃ m1, m.assoc map_key_hash map_key_equals fuel k v = .ok m1 ∧ m1.wf map_key_hash ∧
        ∀ x, x ∈ m1.iterate 14 → x ∈ m.iterate 14 ∨ x = (k, v)) ∧
    (∀ k1 v1 k2 v2, (k1, v1) ∈ m.iterate 14 → (k2, v2) ∈ m.iterate 14 →
      map_key_hash k1 = map_key_hash k2 → k1 = k2 ∧ v1 = v2) ∧
    (MapImpl.EMPTY : MapImpl K V).wf map_key_hash := by
  have hmod : h % 2 ^ 0 = 0 := by simp [Nat.mod_one]
  refine ⟨?_, ?_, ?_, MapImpl.EMPTY_wf map_key_hash⟩
  · intro k' v' hm hk' heq
    have hl := MapImpl.mem_iterate map_key_hash m hwf h k' v' hm hk'
    rcases hwf.1 with e | e
    · rw [e] at hl
      simp [mapimpl.Node.leaves] at hl
    · have := (mapimpl.Node.assoc_spec map_key_equals fuel 14 m.root_ 0 0 h k v e (by decide)
        (by decide) (by decide) hh hmod (by
          have : m.root_.assoc_fuel 14 ≤ 27 := by
            unfold mapimpl.Node.assoc_fuel
            split <;> omega
          omega)).1 k' v' hl heq
      unfold MapImpl.assoc
      simp only [hk, this]
  · intro hall
    rcases hwf.1 with e | e
    · cases fuel with
      | zero => omega
      | succ fuel =>
        refine ⟨⟨(m.count_ + 1) % 2 ^ 64, .Leaf h k v⟩, ?_, ⟨Or.inr ?_, ?_⟩, ?_⟩
        · unfold MapImpl.assoc
          simp [hk, e, mapimpl.Node.assoc]
        · rw [mapimpl.Node.wf_Leaf]
          exact ⟨hh, hmod⟩
        · intro x hx
          rw [mapimpl.Node.leaves_Leaf, List.mem_singleton] at hx
          rw [hx]
          exact hk
        · intro x hx
          unfold MapImpl.iterate mapimpl.Node.iterate at hx
          rw [mapimpl.Node.leaves_Leaf] at hx
          simp only [List.map_cons, List.map_nil, List.mem_singleton] at hx
          exact Or.inr hx
    · obtain ⟨n1, la, h1, h2, h3⟩ :=
        (mapimpl.Node.assoc_spec map_key_equals fuel 14 m.root_ 0 0 h k v e (by decide)
          (by decide) (by decide) hh hmod (by
            have : m.root_.assoc_fuel 14 ≤ 27 := by
              unfold mapimpl.Node.assoc_fuel
              split <;> omega
            omega)).2 (by
          intro k0 v0 hm
          have hk0 := hwf.2 _ hm
          refine hall k0 v0 ?_ hk0
          unfold MapImpl.iterate mapimpl.Node.iterate
          exact List.mem_map.mpr ⟨_, hm, rfl⟩)
      refine ⟨⟨if la = true then (m.count_ + 1) % 2 ^ 64 else m.count_, n1⟩, ?_,
        ⟨Or.inr h2, ?_⟩, ?_⟩
      · unfold MapImpl.assoc
        simp only [hk, h1]
        simp
      · intro x hx
        rcases h3 x hx with e1 | e1
        · exact hwf.2 x e1
        · rw [e1]; exact hk
      · intro x hx
        unfold MapImpl.iterate mapimpl.Node.iterate at hx ⊢
        obtain ⟨y, hy, e1⟩ := List.mem_map.mp hx
        rcases h3 y hy with e2 | e2
        · exact Or.inl (List.mem_map.mpr ⟨y, e2, e1⟩)
        · right
          rw [← e1, e2]
  · intro k1 v1 k2 v2 h1 h2 heq
    rcases hwf.1 with e | e
    · unfold MapImpl.iterate mapimpl.Node.iterate at h1
      rw [e] at h1
      simp [mapimpl.Node.leaves] at h1
    · unfold MapImpl.iterate mapimpl.Node.iterate at h1 h2
      obtain ⟨x1, hx1, e1⟩ := List.mem_map.mp h1
      obtain ⟨x2, hx2, e2⟩ := List.mem_map.mp h2
      have g1 := hwf.2 x1 hx1
      have g2 := hwf.2 x2 hx2
      have f1 : x1.2.1 = k1 := congrArg Prod.fst e1
      have f2 : x2.2.1 = k2 := congrArg Prod.fst e2
      rw [f1] at g1
      rw [f2, ← heq, g1] at g2
      simp only [Except.ok.injEq] at g2
      have y1 : x1 = (x1.1, k1, v1) := Prod.ext rfl e1
      have y2 : x2 = (x1.1, k2, v2) := by
        rw [g2]; exact Prod.ext rfl e2
      rw [y1] at hx1
      rw [y2] at hx2
      exact mapimpl.Node.leaves_hash_unique 14 m.root_ 0 0 e x1.1 k1 k2 v1 v2 hx1 hx2

theorem example_map_wf : example_map.wf example_key_hash := by
  refine ⟨Or.inr ?_, ?_⟩
  · show mapimpl.Node.wf 14 (.Leaf 1 1 10) 0 0
    rw [mapimpl.Node.wf_Leaf]
    decide
  · intro x hx
    have : x = (1, 1, 10) := by
      simpa [example_map, mapimpl.Node.leaves] using hx
    rw [this]
    rfl

theorem C18_hash_collision_raises_witness :
    example_map.assoc example_key_hash example_key_equals 28 5 50
        = .error (.runtime_error "todo possible collision") ∧
      ∃ m1, example_map.assoc example_key_hash example_key_equals 28 6 60 = .ok m1 ∧
        m1.wf example_key_hash :=
  ⟨(C18_hash_collision_raises example_key_hash example_key_equals example_map 28 5 50 1
      example_map_wf (by decide) rfl (by decide)).1 1 10 (by decide) rfl rfl,
    match (C18_hash_collision_raises example_key_hash example_key_equals example_map 28 6 60 2
      example_map_wf (by decide) rfl (by decide)).2.1 (by
        intro k' v' hm hk'
        have e : (k', v') = (1, 10) := by
          simpa [MapImpl.iterate, mapimpl.Node.iterate, example_map, mapimpl.Node.leaves]
            using hm
        simp only [Prod.mk.injEq] at e
        rw [e.1] at hk'
        simp [example_key_hash] at hk') with
    | ⟨m1, h1, h2, _⟩ => ⟨m1, h1, h2⟩⟩

end park

namespace park

namespace pack

/-! ## Byte order -/

theorem to_bytes_le_length (w x : Nat) : (to_bytes_le w x).length = w := by
  simp [to_bytes_le]

theorem to_bytes_le_succ (w x : Nat) :
    to_bytes_le (w + 1) x = (x % 256) :: to_bytes_le w (x / 256) := by
  unfold to_bytes_le
  rw [List.range_succ_eq_map, List.map_cons, List.map_map]
  congr 1
  · simp
  · apply List.map_congr_left
    intro i _
    simp only [Function.comp]
    rw [Nat.pow_succ, Nat.mul_comm, Nat.div_div_eq_div_mul]

/-- Writing down the bytes of a number made of `w` bytes gives them back. -/
theorem to_bytes_le_of_bytes_le : ∀ (bs : List Nat), (∀ b, b ∈ bs → b < 256) →
    to_bytes_le bs.length (of_bytes_le bs) = bs := by
  intro bs
  induction bs with
  | nil => intro _; rfl
  | cons b bs ih =>
    intro h
    have hb : b < 256 := h b (List.mem_cons_self _ _)
    rw [List.length_cons, to_bytes_le_succ]
    simp only [of_bytes_le]
    have e1 : (b + 256 * of_bytes_le bs) % 256 = b := by omega
    have e2 : (b + 256 * of_bytes_le bs) / 256 = of_bytes_le bs := by omega
    rw [e1, e2, ih (fun x hx => h x (List.mem_cons_of_mem _ hx))]

theorem to_bytes_le_lt (w x b : Nat) (h : b ∈ to_bytes_le w x) : b < 256 := by
  unfold to_bytes_le at h
  obtain ⟨i, _, e⟩ := List.mem_map.mp h
  rw [← e]
  exact Nat.mod_lt _ (by decide)

theorem big_endian_eq_reverse (w x : Nat) : big_endian w x = (to_bytes_le w x).reverse := by
  apply List.ext_getElem
  · simp [big_endian, to_bytes_le]
  · intro i h1 h2
    have hw : i < w := by simpa [big_endian] using h1
    rw [List.getElem_reverse]
    simp only [big_endian, to_bytes_le, List.getElem_map, List.getElem_range, List.length_map,
      List.length_range]

/-- The bytes that `native_to_big` and the write of the object put on the
stream are the big-endian bytes, whatever the byte order of the host. -/
theorem object_bytes_native_to_big (little_endian : Bool) (w x : Nat) :
    object_bytes little_endian w (native_to_big little_endian w x) = big_endian w x := by
  rw [big_endian_eq_reverse]
  cases little_endian with
  | false => simp [object_bytes, native_to_big]
  | true =>
    simp only [object_bytes, native_to_big, if_true, endian_reverse]
    have h := to_bytes_le_of_bytes_le (to_bytes_le w x).reverse (by
      intro b hb
      exact to_bytes_le_lt w x b (List.mem_reverse.mp hb))
    rw [List.length_reverse, to_bytes_le_length] at h
    exact h

end pack

end park

namespace park

namespace pack

/-! ## The bytes that `pack` writes -/

theorem write_len_ok (little_endian : Bool) (os : List Nat) (size : Nat)
    (h : size < 2147483647) :
    write_len little_endian os size = (os ++ big_endian 4 size, none) := by
  unfold write_len len_from_size
  rw [if_pos h]
  simp only [object_bytes_native_to_big]
  have : bits 4 (size : Int) = size := by
    unfold bits
    have h2 : ((size : Int) % 2 ^ (8 * 4)) = (size : Int) := by
      apply Int.emod_eq_of_lt (by omega)
      norm_num
      omega
    rw [h2, Int.toNat_ofNat]
  rw [this]

theorem write_len_throws (little_endian : Bool) (os : List Nat) (size : Nat)
    (h : 2147483647 ≤ size) :
    write_len little_endian os size = (os, some (.out_of_range "to big to pack")) := by
  unfold write_len len_from_size
  rw [if_neg (by omega)]

theorem visit_items_spec (f : Value → List Nat → List Nat × Option Exn) (L : Value → List Nat) :
    ∀ (items : List Value) (os : List Nat),
      (∀ v, v ∈ items → ∀ os, f v os = (os ++ L v, none)) →
      visit_items f items os = (os ++ (items.map L).flatten, none) := by
  intro items
  induction items with
  | nil => intro os _; simp [visit_items]
  | cons v vs ih =>
    intro os h
    simp only [visit_items, h v (List.mem_cons_self _ _)]
    rw [ih _ (fun x hx => h x (List.mem_cons_of_mem _ hx))]
    simp

theorem visit_entries_spec (f : Value → List Nat → List Nat × Option Exn) (L : Value → List Nat) :
    ∀ (entries : List (Value × Value)) (os : List Nat),
      (∀ kv, kv ∈ entries → (∀ os, f kv.1 os = (os ++ L kv.1, none)) ∧
        ∀ os, f kv.2 os = (os ++ L kv.2, none)) →
      visit_entries f entries os
        = (os ++ (entries.map fun kv => L kv.1 ++ L kv.2).flatten, none) := by
  intro entries
  induction entries with
  | nil => intro os _; simp [visit_entries]
  | cons kv rest ih =>
    intro os h
    obtain ⟨key, value⟩ := kv
    have h1 := h (key, value) (List.mem_cons_self _ _)
    simp only [visit_entries, h1.1, h1.2]
    rw [ih _ (fun x hx => h x (List.mem_cons_of_mem _ hx))]
    simp

/-- `pack` on a packable value appends the layout of the value. -/
theorem accept_layout (little_endian : Bool) :
    ∀ (fuel : Nat) (v : Value) (os : List Nat), packable fuel v →
      accept little_endian fuel v os = (os ++ layout fuel v, none) := by
  intro fuel
  induction fuel with
  | zero => intro v os h; simp [packable] at h
  | succ fuel ih =>
    intro v os h
    cases v with
    | Boolean value => simp [accept, layout, write_type]
    | Integer n =>
      simp only [packable] at h
      simp only [accept, layout, write_type, park.Value.to_index, ge_iff_le, h.1, if_true,
        object_bytes_native_to_big]
      simp [bits, twos_complement]
    | String s =>
      simp only [packable] at h
      simp only [accept, layout, write_type, write_len_ok little_endian _ _ h]
      simp
    | Vector items =>
      simp only [packable] at h
      simp only [accept, layout, write_type, write_len_ok little_endian _ _ h.1]
      rw [visit_items_spec _ (layout fuel) items _ (fun x hx os => ih x os (h.2 x hx))]
      simp
    | Map m =>
      simp only [packable] at h
      simp only [accept, layout, write_type, write_len_ok little_endian _ _ h.1]
      rw [visit_entries_spec _ (layout fuel) (m.iterate 14) _
        (fun kv hkv => ⟨fun os => ih kv.1 os (h.2 kv hkv).1, fun os => ih kv.2 os (h.2 kv hkv).2⟩)]
      simp
    | Atom v_ =>
      simp only [packable] at h
      simp only [accept, layout, write_type]
      rw [ih v_ _ h]
      simp

theorem example_value_packable : packable 3 example_value := by
  simp [packable, example_value, MapImpl.iterate, mapimpl.Node.iterate, mapimpl.Node.leaves,
    MapImpl.size]

/-- C13: `pack` writes the layout of a packable value, whatever the byte
order of the host; for a negative integer it writes `0xd3` and stops at the
assertion of `to_index`, the eight bytes are not written; for a string, a
vector or a map whose size is `2^31 - 1` or more it writes the type byte and
throws `out_of_range` instead of writing the length. -/
theorem C13_pack_layout (little_endian : Bool) (fuel : Nat) (v : Value) (os : List Nat) :
    (packable fuel v → pack little_endian fuel v os = (os ++ layout fuel v, none)) ∧
    (∀ n, n < 0 →
      pack little_endian (fuel + 1) (.Integer n) os = (os ++ [0xd3], some .undefined)) ∧
    (∀ s, 2147483647 ≤ s.length →
      pack little_endian (fuel + 1) (.String s) os
        = (os ++ [0xdb], some (.out_of_range "to big to pack"))) ∧
    (∀ items, 2147483647 ≤ items.length →
      pack little_endian (fuel + 1) (.Vector items) os
        = (os ++ [0xdd], some (.out_of_range "to big to pack"))) ∧
    (∀ m : MapImpl Value Value, 2147483647 ≤ m.size →
      pack little_endian (fuel + 1) (.Map m) os
        = (os ++ [0xdf], some (.out_of_range "to big to pack"))) := by
  refine ⟨accept_layout little_endian fuel v os, ?_, ?_, ?_, ?_⟩
  · intro n hn
    have : ¬ n ≥ 0 := by omega
    simp [pack, accept, write_type, park.Value.to_index, this]
  · intro s hs
    simp only [pack, accept, write_type, write_len_throws little_endian _ _ hs]
  · intro items hs
    simp only [pack, accept, write_type, write_len_throws little_endian _ _ hs]
  · intro m hs
    simp only [pack, accept, write_type, write_len_throws little_endian _ _ hs]

theorem C13_pack_layout_witness :
    pack true 3 example_value []
        = ([0xdd, 0, 0, 0, 3, 0xd3, 0, 0, 0, 0, 0, 0, 0, 1, 0xc7, 0, 1, 0xdb, 0, 0, 0, 1, 97,
            0xdf, 0, 0, 0, 1, 0xc3, 0xd3, 0, 0, 0, 0, 0, 0, 0, 1], none) ∧
      pack false 3 example_value [] = ([] ++ layout 3 example_value, none) :=
  ⟨((C13_pack_layout true 3 example_value []).1 example_value_packable).trans (by decide),
    (C13_pack_layout false 3 example_value []).1 example_value_packable⟩

end pack

end park

namespace park

namespace pack

/-! ## Reading back what `pack` wrote -/

theorem of_bytes_le_to_bytes_le : ∀ (w x : Nat), of_bytes_le (to_bytes_le w x) = x % 256 ^ w := by
  intro w
  induction w with
  | zero => intro x; simp [to_bytes_le, of_bytes_le, Nat.mod_one]
  | succ w ih =>
    intro x
    rw [to_bytes_le_succ]
    simp only [of_bytes_le]
    rw [ih, Nat.pow_succ, Nat.mul_comm (256 ^ w) 256, Nat.mod_mul]

theorem big_endian_length (w x : Nat) : (big_endian w x).length = w := by
  simp [big_endian]

theorem read_append (bs rest : List Nat) (n : Nat) (h : bs.length = n) :
    read (bs ++ rest) n = .ok (bs, rest) := by
  unfold read
  rw [if_pos (by rw [List.length_append]; omega)]
  subst h
  simp

/-- Reading an integer of `w` bytes from its big-endian bytes gives it back,
whatever the byte order of the host. -/
theorem read_int_big_endian (little_endian : Bool) (w x : Nat) (rest : List Nat)
    (hx : x < 256 ^ w) :
    read_int little_endian w (big_endian w x ++ rest) = .ok (signed w x, rest) := by
  unfold read_int
  rw [read_append _ _ w (big_endian_length w x)]
  have hmod : x % 256 ^ w = x := Nat.mod_eq_of_lt hx
  have hval : big_to_native little_endian w (object_value little_endian (big_endian w x)) = x := by
    rw [big_endian_eq_reverse]
    cases little_endian with
    | false =>
      simp only [big_to_native, object_value, Bool.false_eq_true, if_false, List.reverse_reverse]
      rw [of_bytes_le_to_bytes_le, hmod]
    | true =>
      simp only [big_to_native, object_value, if_true, endian_reverse]
      have h := to_bytes_le_of_bytes_le (to_bytes_le w x).reverse (by
        intro b hb
        exact to_bytes_le_lt w x b (List.mem_reverse.mp hb))
      rw [List.length_reverse, to_bytes_le_length] at h
      rw [h, List.reverse_reverse, of_bytes_le_to_bytes_le, hmod]
  simp only [hval]

theorem signed_size (size : Nat) (h : size < 2147483647) : signed 4 size = (size : Int) := by
  unfold signed
  rw [if_pos (by norm_num; omega)]

theorem signed_twos_complement (n : Int) (h0 : 0 ≤ n) (h1 : n < 2 ^ 63) :
    twos_complement 8 n < 256 ^ 8 ∧ signed 8 (twos_complement 8 n) = n := by
  unfold twos_complement
  have e : n % 2 ^ (8 * 8) = n := Int.emod_eq_of_lt h0 (by norm_num at h1 ⊢; omega)
  rw [e]
  have hn : (n.toNat : Int) = n := Int.toNat_of_nonneg h0
  have hlt : n.toNat < 2 ^ 63 := by
    have : (n.toNat : Int) < 2 ^ 63 := by rw [hn]; exact h1
    exact_mod_cast this
  constructor
  · norm_num at hlt ⊢; omega
  · unfold signed
    rw [if_pos (by norm_num at hlt ⊢; omega), hn]

theorem unpack_items_spec (U : List Nat → Except Exn (Value × List Nat)) (L : Value → List Nat) :
    ∀ (items acc : List Value) (rest : List Nat),
      (∀ v, v ∈ items → ∀ rest, U (L v ++ rest) = .ok (v, rest)) →
      unpack_items U items.length acc ((items.map L).flatten ++ rest)
        = .ok (acc ++ items, rest) := by
  intro items
  induction items with
  | nil => intro acc rest _; simp [unpack_items]
  | cons v vs ih =>
    intro acc rest h
    simp only [List.length_cons, List.map_cons, List.flatten_cons, List.append_assoc,
      unpack_items, h v (List.mem_cons_self _ _)]
    rw [ih _ _ (fun x hx => h x (List.mem_cons_of_mem _ hx))]
    simp

theorem read_string_bytes_append (s rest : List Nat) :
    read_string_bytes (s ++ rest) s.length = (s, rest) := by
  unfold read_string_bytes
  simp

/-- `unpack` reads a packable value without maps back from its layout and
leaves the rest of the stream, in either order of evaluation. -/
theorem unpack_layout (little_endian : Bool) (map_key_hash : Value → Except Exn Nat)
    (map_key_equals : Value → Value → Except Exn Bool) (right_to_left : Bool) :
    ∀ (fuel : Nat) (v : Value) (rest : List Nat), packable fuel v → map_free fuel v →
      unpack little_endian map_key_hash map_key_equals right_to_left fuel (layout fuel v ++ rest)
        = .ok (v, rest) := by
  intro fuel
  induction fuel with
  | zero => intro v rest h; simp [packable] at h
  | succ fuel ih =>
    intro v rest h hm
    cases v with
    | Boolean value =>
      cases value <;> simp [unpack, layout, read]
    | Integer n =>
      simp only [packable] at h
      obtain ⟨hlt, hs⟩ := signed_twos_complement n h.1 h.2
      simp only [layout, List.cons_append, unpack, read, List.length_cons]
      simp [read_int_big_endian little_endian 8 _ rest hlt, hs]
    | String s =>
      simp only [packable] at h
      have e1 := read_int_big_endian little_endian 4 s.length (s ++ rest)
        (by norm_num; omega)
      rw [signed_size _ h] at e1
      simp only [layout, List.cons_append, unpack, read, List.length_cons, List.append_assoc]
      simp [e1, read_string_bytes_append]
    | Vector items =>
      simp only [packable] at h
      simp only [map_free] at hm
      have e1 := read_int_big_endian little_endian 4 items.length
        ((items.map (layout fuel)).flatten ++ rest) (by norm_num; omega)
      rw [signed_size _ h.1] at e1
      have e2 := unpack_items_spec
        (unpack little_endian map_key_hash map_key_equals right_to_left fuel) (layout fuel)
        items [] rest (fun x hx r => ih x r (h.2 x hx) (hm x hx))
      simp only [layout, List.cons_append, unpack, read, List.length_cons, List.append_assoc]
      simp [e1, e2]
    | Map m => simp [map_free] at hm
    | Atom v_ =>
      simp only [packable] at h
      simp only [map_free] at hm
      simp only [layout, List.cons_append, unpack, read, List.length_cons, List.append_assoc]
      simp [ih v_ rest h hm, read]

end pack

end park

namespace park

namespace pack

theorem example_plain_value_packable :
    packable 3 example_plain_value ∧ map_free 3 example_plain_value := by
  constructor <;> simp [packable, map_free, example_plain_value]

theorem unpack_map_entry (little_endian : Bool) (map_key_hash : Value → Except Exn Nat)
    (map_key_equals : Value → Value → Except Exn Bool) (right_to_left : Bool) (fuel : Nat) :
    unpack little_endian map_key_hash map_key_equals right_to_left (fuel + 2)
        [0xdf, 0, 0, 0, 1, 0xd3, 0, 0, 0, 0, 0, 0, 0, 1, 0xc3]
      = match (if right_to_left
            then MapImpl.assoc map_key_hash map_key_equals 28 MapImpl.EMPTY
              (.Boolean true) (.Integer 1)
            else MapImpl.assoc map_key_hash map_key_equals 28 MapImpl.EMPTY
              (.Integer 1) (.Boolean true)) with
        | .error e => .error e
        | .ok m => .ok (.Map m, []) := by
  have e4 := read_int_big_endian little_endian 4 1
    [0xd3, 0, 0, 0, 0, 0, 0, 0, 1, 0xc3] (by decide)
  have b4 : big_endian 4 1 = [0, 0, 0, 1] := by decide
  rw [b4] at e4
  have s4 : signed 4 1 = 1 := by decide
  rw [s4] at e4
  have u1 := unpack_layout little_endian map_key_hash map_key_equals right_to_left (fuel + 1)
    (.Integer 1) [0xc3] (by simp [packable]) (by simp [map_free])
  have l1 : layout (fuel + 1) (.Integer 1) = [0xd3, 0, 0, 0, 0, 0, 0, 0, 1] := by
    simp only [layout]
    decide
  rw [l1] at u1
  have u2 := unpack_layout little_endian map_key_hash map_key_equals right_to_left (fuel + 1)
    (.Boolean true) [] (by simp [packable]) (by simp [map_free])
  have l2 : layout (fuel + 1) (.Boolean true) = [0xc3] := by
    simp [layout]
  rw [l2] at u2
  simp only [List.cons_append, List.nil_append] at e4 u1 u2
  rw [unpack]
  simp only [read, List.length_cons, List.length_nil, List.take, List.drop]
  simp only [show (1 : Nat) ≤ 0 + 1 + 1 + 1 + 1 + 1 + 1 + 1 + 1 + 1 + 1 + 1 + 1 + 1 + 1 + 1
    from by decide, if_true]
  simp only [show ¬ ([0xdf] : List Nat) = [0xc3] from by decide,
    show ¬ ([0xdf] : List Nat) = [0xc2] from by decide,
    show ¬ ([0xdf] : List Nat) = [0xd3] from by decide,
    show ¬ ([0xdf] : List Nat) = [0xdb] from by decide,
    show ¬ ([0xdf] : List Nat) = [0xdd] from by decide, if_false, if_true, e4]
  simp only [show (1 : Int).toNat = 1 from rfl, unpack_entries, u1, u2]
  cases right_to_left
  · simp only [Bool.false_eq_true, if_false]
    cases MapImpl.assoc map_key_hash map_key_equals 28 MapImpl.EMPTY (Value.Integer 1)
      (Value.Boolean true) <;> rfl
  · simp only [if_true]
    cases MapImpl.assoc map_key_hash map_key_equals 28 MapImpl.EMPTY (Value.Boolean true)
      (Value.Integer 1) <;> rfl

/-- C12: the round trip holds for the packable values without maps, in either
order of evaluation and on a host of either byte order. It fails for a
negative integer, where `pack` writes `0xd3` and stops at the assertion of
`to_index`. It fails for a map when the arguments of `assoc` in `unpack` are
evaluated from right to left: the stream of the map that holds true under the
key 1 is read back as the map that holds 1 under the key true; from left to
right the map comes back. -/
theorem C12_pack_unpack_round_trip (little_endian : Bool)
    (map_key_hash : Value → Except Exn Nat) (map_key_equals : Value → Value → Except Exn Bool)
    (fuel : Nat) (h1 ht : Nat) (hk1 : map_key_hash (.Integer 1) = .ok h1)
    (hkt : map_key_hash (.Boolean true) = .ok ht) :
    (∀ n, n < 0 → pack little_endian (fuel + 1) (.Integer n) [] = ([0xd3], some .undefined)) ∧
    (pack little_endian (fuel + 2) (.Map ⟨1, .Leaf h1 (.Integer 1) (.Boolean true)⟩) []
        = ([0xdf, 0, 0, 0, 1, 0xd3, 0, 0, 0, 0, 0, 0, 0, 1, 0xc3], none) ∧
      unpack little_endian map_key_hash map_key_equals true (fuel + 2)
          [0xdf, 0, 0, 0, 1, 0xd3, 0, 0, 0, 0, 0, 0, 0, 1, 0xc3]
        = .ok (.Map ⟨1, .Leaf ht (.Boolean true) (.Integer 1)⟩, []) ∧
      unpack little_endian map_key_hash map_key_equals false (fuel + 2)
          [0xdf, 0, 0, 0, 1, 0xd3, 0, 0, 0, 0, 0, 0, 0, 1, 0xc3]
        = .ok (.Map ⟨1, .Leaf h1 (.Integer 1) (.Boolean true)⟩, [])) ∧
    (∀ right_to_left v, packable fuel v → map_free fuel v →
      ∃ stream, pack little_endian fuel v [] = (stream, none) ∧
        unpack little_endian map_key_hash map_key_equals right_to_left fuel stream
          = .ok (v, [])) := by
  refine ⟨?_, ⟨?_, ?_, ?_⟩, ?_⟩
  · intro n hn
    have : ¬ n ≥ 0 := by omega
    simp [pack, accept, write_type, park.Value.to_index, this]
  · have hp : packable (fuel + 2) (.Map ⟨1, .Leaf h1 (.Integer 1) (.Boolean true)⟩) := by
      simp [packable, MapImpl.iterate, mapimpl.Node.iterate, mapimpl.Node.leaves, MapImpl.size]
    have := accept_layout little_endian (fuel + 2) _ [] hp
    unfold pack
    rw [this]
    simp only [layout, MapImpl.iterate, mapimpl.Node.iterate, mapimpl.Node.leaves, MapImpl.size,
      List.map_cons, List.map_nil, List.flatten_cons, List.flatten_nil, List.nil_append,
      if_true, List.append_nil]
    congr 1
  · rw [unpack_map_entry]
    simp [MapImpl.assoc, MapImpl.EMPTY, hkt, mapimpl.Node.assoc]
  · rw [unpack_map_entry]
    simp [MapImpl.assoc, MapImpl.EMPTY, hk1, mapimpl.Node.assoc]
  · intro right_to_left v hp hm
    refine ⟨layout fuel v, ?_, ?_⟩
    · have := accept_layout little_endian fuel v [] hp
      unfold pack
      rw [this]
      simp
    · have := unpack_layout little_endian map_key_hash map_key_equals right_to_left fuel v []
        hp hm
      simpa using this

theorem C12_pack_unpack_round_trip_witness :
    (unpack true example_key_hash_value example_key_equals_value true 2
        [0xdf, 0, 0, 0, 1, 0xd3, 0, 0, 0, 0, 0, 0, 0, 1, 0xc3]
      = .ok (.Map ⟨1, .Leaf 7 (.Boolean true) (.Integer 1)⟩, [])) ∧
    ∃ stream, pack true 3 example_plain_value [] = (stream, none) ∧
      unpack true example_key_hash_value example_key_equals_value true 3 stream
        = .ok (example_plain_value, []) :=
  ⟨(C12_pack_unpack_round_trip true example_key_hash_value example_key_equals_value 0 1 7
      rfl rfl).2.1.2.1,
    (C12_pack_unpack_round_trip true example_key_hash_value example_key_equals_value 3 1 7
      rfl rfl).2.2 true example_plain_value example_plain_value_packable.1
      example_plain_value_packable.2⟩

end pack

end park

namespace gc

/-! ## Promotion of a nursery graph with a shared object or a cycle -/

theorem example_cyclic_in_place : cycle_in_place example_cyclic_allocator :=
  ⟨⟨⟨32, false⟩, rfl, rfl⟩, ⟨⟨32, false⟩, rfl, rfl⟩, ⟨⟨7, [64, 64]⟩, [64], rfl, rfl⟩,
    ⟨⟨8, [16, 0x100010]⟩, [0x100010], rfl, rfl⟩⟩

theorem cycle_in_place_copy (next : Nat → Nat) (hnext : ∀ n, is_shared_ref (next n) = true)
    (a : allocator_t) (sz : Nat) (c : collectable) (h : cycle_in_place a) :
    cycle_in_place (allocator_t.set_data
      { (a.alloc_shared next sz).1 with shared_ := (a.alloc_shared next sz).1.shared_ + 1 }
      (a.alloc_shared next sz).2 c) := by
  have h16 : (16 : Nat) ≠ next a.shared_allocated_ := by
    intro e
    have := hnext a.shared_allocated_
    rw [← e] at this
    exact absurd this (by decide)
  have h64 : (64 : Nat) ≠ next a.shared_allocated_ := by
    intro e
    have := hnext a.shared_allocated_
    rw [← e] at this
    exact absurd this (by decide)
  obtain ⟨k1, k2, k3, k4⟩ := h
  refine ⟨k1, k2, ?_, ?_⟩
  · simpa [allocator_t.set_data, allocator_t.alloc_shared, Function.update, h16] using k3
  · simpa [allocator_t.set_data, allocator_t.alloc_shared, Function.update, h64] using k4

theorem share_cycle_diverges (next : Nat → Nat) (hnext : ∀ n, is_shared_ref (next n) = true)
    (fuel : Nat) : ∀ a, cycle_in_place a →
      share_ next fuel a 16 = .error .diverges ∧ share_ next fuel a 64 = .error .diverges := by
  induction fuel with
  | zero => intro a _; exact ⟨rfl, rfl⟩
  | succ fuel ih =>
    intro a h
    obtain ⟨⟨h1, e1, d1⟩, ⟨h2, e2, d2⟩, ⟨c1, t1, f1, g1⟩, ⟨c2, t2, f2, g2⟩⟩ := h
    have hin : cycle_in_place a := ⟨⟨h1, e1, d1⟩, ⟨h2, e2, d2⟩, ⟨c1, t1, f1, g1⟩, ⟨c2, t2, f2, g2⟩⟩
    constructor
    · have k := (ih _ (cycle_in_place_copy next hnext a h1.sz c1 hin)).2
      have hr : List.range c1.refs.length = 0 :: (List.range t1.length).map Nat.succ := by
        rw [g1, List.length_cons, List.range_succ_eq_map]
      unfold share_
      simp only [show (16 : Nat) ≠ 0 by decide, if_false, e1, f1, show is_shared_ref 16 = false by decide,
        Bool.false_eq_true, d1, ne_eq, not_true_eq_false, hr, share_walk]
      simp only [allocator_t.get_ref, allocator_t.set_data, Function.update_same, g1,
        List.getElem?_cons_zero]
      simp only [allocator_t.set_data] at k
      rw [k]
    · have k := (ih _ (cycle_in_place_copy next hnext a h2.sz c2 hin)).1
      have hr : List.range c2.refs.length = 0 :: (List.range t2.length).map Nat.succ := by
        rw [g2, List.length_cons, List.range_succ_eq_map]
      unfold share_
      simp only [show (64 : Nat) ≠ 0 by decide, if_false, e2, f2, show is_shared_ref 64 = false by decide,
        Bool.false_eq_true, d2, ne_eq, not_true_eq_false, hr, share_walk]
      simp only [allocator_t.get_ref, allocator_t.set_data, Function.update_same, g2,
        List.getElem?_cons_zero]
      simp only [allocator_t.set_data] at k
      rw [k]

/-- C21: `allocator_t::share` keeps no record of what it has copied. On a
nursery object that holds two references to one nursery object, it copies
that object twice: there are two reachable nursery objects, three shared
allocations are made, and the two references of the copy point to two
different shared objects. On a nursery graph with a cycle it never returns,
whatever the depth allowed to the recursion. -/
theorem C21_share_copies_an_object_twice :
    (∀ fuel, share_summary (example_diamond_allocator.share example_next (fuel + 2) 16) =
      .ok (0x100000, some [0x300000, 0x500000], 3, 3)) ∧
    (∀ fuel, example_cyclic_allocator.share example_next fuel 16 = .error .diverges) := by
  constructor
  · intro fuel
    rfl
  · intro fuel
    exact (share_cycle_diverges example_next example_next_shared fuel _ example_cyclic_in_place).1

end gc

namespace gc

/-! ## The result of `block_t::sweep` -/

theorem block_t.sweep_log_count (b : block_t) (hcap : b.capacity_ ≤ 512) (idx : Nat) :
    b.sweep.2.count idx
      = if idx < b.capacity_ ∧ b.finalizer idx = true ∧ b.marked idx = false then 1 else 0 := by
  obtain ⟨_, _, _, _, _, _, _, _, _, f10⟩ :=
    block_t.sweep_words_spec (List.range 8) ({ b with select_ := 0 }, []) (List.nodup_range 8)
  simp only [block_t.sweep]
  rw [f10 idx, block_t.finalizer_iff, block_t.marked_iff]
  simp only [List.count_nil, Nat.zero_add, List.mem_range]
  by_cases h : idx < b.capacity_
  · have : idx / 64 < 8 := by omega
    simp [h, this]
  · simp [h]

theorem block_t.sweep_count (b : block_t) : b.sweep.1.available_ = b.capacity_ - b.sweep.1.count := by
  obtain ⟨_, f2, _, _, _, _, _, _, _, _⟩ :=
    block_t.sweep_words_spec (List.range 8) ({ b with select_ := 0 }, []) (List.nodup_range 8)
  simp only [block_t.sweep, block_t.clear_marked, block_t.count]
  rw [f2]

/-- C22: on a well-formed block whose mark bits are alloc bits, the opening
assertion of `block_t::sweep` holds and the sweep ends with: every word of the
alloc bitmap equal to the word of the mark bitmap before the sweep; the mark
bitmap zero; the finalizer called exactly once for each slot that was
allocated, flagged for a finalizer and not marked, and for no other slot; the
finalizer flag of exactly those slots cleared, that of a marked slot kept;
bit `i` of the summary set exactly when word `i` of the new alloc bitmap is
all ones; and `available_` equal to the capacity minus the number of set
alloc bits, which is no less than before. -/
theorem C22_sweep_postcondition (b : block_t) (hwf : b.well_formed)
    (hsub : ∀ idx, idx < 512 → b.marked idx = true → b.allocated idx = true) :
    b.used = b.count ∧
    (∀ i, i < 8 → b.sweep.1.bitmap_ i = b.marked_ i) ∧
    (∀ idx, idx < 512 → b.sweep.1.allocated idx = b.marked idx) ∧
    (∀ i, b.sweep.1.marked_ i = 0) ∧
    (∀ idx, b.sweep.2.count idx
      = if b.allocated idx = true ∧ b.finalizer idx = true ∧ b.marked idx = false ∧ idx < 512
        then 1 else 0) ∧
    (∀ idx, idx < 512 → b.sweep.1.finalizer idx
      = (b.finalizer idx && !(b.allocated idx && b.finalizer idx && !b.marked idx))) ∧
    (∀ idx, idx < 512 → b.marked idx = true → b.sweep.1.finalizer idx = b.finalizer idx) ∧
    (∀ i, i < 8 → (b.sweep.1.select_.testBit i = true ↔ b.sweep.1.bitmap_ i = ALL_ONES)) ∧
    b.sweep.1.select_ < 2 ^ 8 ∧
    b.sweep.1.available_ = b.capacity_ - b.sweep.1.count ∧
    b.available_ ≤ b.sweep.1.available_ := by
  obtain ⟨hwf1, emk, ebm, _⟩ := b.sweep_well_formed hwf
  have hcap : b.capacity_ ≤ 512 := hwf.1.1
  have hfc := hwf.2.2.2.2.1
  have hfa := hwf.2.2.2.2.2.1
  refine ⟨hwf.2.1.symm, ebm, fun idx hidx => (b.sweep_slot idx hidx).1, emk, ?_, ?_, ?_,
    hwf1.2.2.2.2.2.2, hwf1.1.2.1, b.sweep_count, b.sweep_available hwf hsub⟩
  · intro idx
    rw [b.sweep_log_count hcap idx]
    by_cases hidx : idx < 512
    · by_cases hf : b.finalizer idx = true
      · have h1 := hfc idx hidx hf
        have h2 := hfa idx hidx hf
        simp [h1, h2, hf, hidx]
      · simp [hf]
    · have : ¬ idx < b.capacity_ := by omega
      simp [this, hidx]
  · intro idx hidx
    rw [(b.sweep_slot idx hidx).2.2.1]
    by_cases hf : b.finalizer idx = true
    · have h1 := hfc idx hidx hf
      have h2 := hfa idx hidx hf
      simp [h1, h2, hf]
    · simp [hf]
  · intro idx hidx hm
    rw [(b.sweep_slot idx hidx).2.2.1]
    simp [hm]

theorem example_block_marks_allocated :
    ∀ idx, idx < 512 → example_block.marked idx = true → example_block.allocated idx = true := by
  intro idx _ h
  simp [block_t.marked, example_block] at h

theorem C22_sweep_postcondition_witness :
    example_block.sweep.1.available_ = example_block.capacity_ - example_block.sweep.1.count ∧
      example_block.available_ ≤ example_block.sweep.1.available_ :=
  ⟨(C22_sweep_postcondition example_block example_block_well_formed
      example_block_marks_allocated).2.2.2.2.2.2.2.2.2.1,
    (C22_sweep_postcondition example_block example_block_well_formed
      example_block_marks_allocated).2.2.2.2.2.2.2.2.2.2⟩

end gc

namespace gc

/-! ## The slot that `block_t::alloc` hands out -/

theorem block_t.lowest_free_min (b : block_t) (hwf : b.well_formed) (idx0 idx1 : Nat)
    (h0 : lowest_clear b.select_ = some idx0) (h8 : idx0 < 8)
    (h1 : lowest_clear (b.bitmap_ idx0) = some idx1) (h64 : idx1 < 64) :
    ∀ j, j < idx0 * 64 + idx1 → b.allocated j = true := by
  obtain ⟨⟨_, _, hbm, _⟩, _, _, _, _, _, hsum⟩ := hwf
  intro j hj
  rw [block_t.allocated_iff]
  have hj64 : j % 64 < 64 := Nat.mod_lt _ (by decide)
  by_cases hw : j / 64 < idx0
  · have hs := lowest_clear_min _ _ h0 (j / 64) hw
    have hall := (hsum (j / 64) (by omega)).mp hs
    exact (eq_ALL_ONES_iff _ (hbm _ (by omega))).mp hall (j % 64) hj64
  · have e : j / 64 = idx0 := by omega
    rw [e]
    exact lowest_clear_min _ _ h1 (j % 64) (by omega)

/-- C23: on a well-formed block that is not full, laid out at the address
`this` as `create` and the constructor leave it, `block_t::alloc` passes its
assertions and returns `data + i * sz` for the smallest slot index `i` whose
alloc bit is clear. The index is below the capacity and the slot lies between
`data` and the end of the block. The alloc bit of `i` is set, its finalizer
bit is set exactly when a finalizer is requested, its mark bit is set when
a marked allocation is requested and is left as it was otherwise; no bit of
another slot changes, `available_` goes down by one and the block stays well
formed. -/
theorem C23_alloc_lowest_free_slot (b : block_t) (this : Nat) (with_finalizer marked : Bool)
    (hwf : b.well_formed) (hlay : b.laid_out this) (hfull : b.full = false) :
    ∃ b1 i, b.alloc_ptr this with_finalizer marked = .ok (b1, block_t.data this + i * b.sz_) ∧
      b.allocated i = false ∧ (∀ j, j < i → b.allocated j = true) ∧
      i < b.capacity_ ∧
      block_t.data this ≤ block_t.data this + i * b.sz_ ∧
      block_t.data this + i * b.sz_ + b.sz_ ≤ this + b.block_size_ ∧
      b1.allocated i = true ∧ b1.finalizer i = with_finalizer ∧
      b1.marked i = (marked || b.marked i) ∧ (b.marked i = false → b1.marked i = marked) ∧
      (∀ x, x ≠ i → b1.allocated x = b.allocated x ∧ b1.finalizer x = b.finalizer x ∧
        b1.marked x = b.marked x) ∧
      b1.available_ = b.available_ - 1 ∧ b1.capacity_ = b.capacity_ ∧ b1.sz_ = b.sz_ ∧
      b1.block_size_ = b.block_size_ ∧ b1.well_formed ∧ b1.laid_out this := by
  obtain ⟨idx0, idx1, h0, h8, h1, h64, hbit1, _, hlt, _⟩ := b.lowest_free hwf hfull
  obtain ⟨b1, hok, ebm, _, efin, emk, eav, ecap, esz, ebs, _⟩ :=
    b.alloc_fields with_finalizer marked idx0 idx1 hfull h0 h8 h1
  obtain ⟨b2, i2, hok2, hwf1, _, _, _, _, _⟩ := b.alloc_well_formed with_finalizer marked hwf hfull
  have e12 : b2 = b1 := by
    rw [hok] at hok2
    injection hok2 with e
    exact (congrArg Prod.fst e).symm
  rw [e12] at hwf1
  obtain ⟨ha16, hs16, hspos, hhdr, hcapeq⟩ := hlay
  have hfit : b.capacity_ * b.sz_ ≤ b.block_size_ - sizeof_block_t := by
    rw [hcapeq]
    exact Nat.div_mul_le_self _ _
  have hslot : (idx0 * 64 + idx1) * b.sz_ + b.sz_ ≤ b.capacity_ * b.sz_ := by
    have : idx0 * 64 + idx1 + 1 ≤ b.capacity_ := hlt
    calc (idx0 * 64 + idx1) * b.sz_ + b.sz_ = (idx0 * 64 + idx1 + 1) * b.sz_ := by ring
      _ ≤ b.capacity_ * b.sz_ := Nat.mul_le_mul_right _ this
  have hend : block_t.data this + (idx0 * 64 + idx1) * b.sz_ + b.sz_ ≤ this + b.block_size_ := by
    unfold block_t.data
    omega
  have halign : (block_t.data this + (idx0 * 64 + idx1) * b.sz_) % 16 = 0 := by
    unfold block_t.data sizeof_block_t
    have : (idx0 * 64 + idx1) * b.sz_ % 16 = 0 := by
      rw [Nat.mul_mod, hs16, Nat.mul_zero, Nat.zero_mod]
    omega
  have e1 : (idx0 * 64 + idx1) / 64 = idx0 := by omega
  have e2 : (idx0 * 64 + idx1) % 64 = idx1 := by omega
  have hfree : b.allocated (idx0 * 64 + idx1) = false := by
    rw [block_t.allocated_iff, e1, e2]; exact hbit1
  have hnofin : b.finalizer (idx0 * 64 + idx1) = false := by
    cases hx : b.finalizer (idx0 * 64 + idx1) with
    | false => rfl
    | true =>
      have := hwf.2.2.2.2.2.1 _ (by omega) hx
      rw [hfree] at this
      exact absurd this (by decide)
  have hal : ∀ x, b1.allocated x = (decide (x = idx0 * 64 + idx1) || b.allocated x) := by
    intro x
    rw [block_t.allocated_iff, block_t.allocated_iff, ebm]
    exact testBit_update_or b.bitmap_ idx0 idx1 x h64
  have hfi : ∀ x, b1.finalizer x
      = ((with_finalizer && decide (x = idx0 * 64 + idx1)) || b.finalizer x) := by
    intro x
    rw [block_t.finalizer_iff, block_t.finalizer_iff, efin]
    cases with_finalizer with
    | false => simp
    | true =>
      simp only [if_true, Bool.true_and]
      exact testBit_update_or b.finalize_ idx0 idx1 x h64
  have hma : ∀ x, b1.marked x = ((marked && decide (x = idx0 * 64 + idx1)) || b.marked x) := by
    intro x
    rw [block_t.marked_iff, block_t.marked_iff, emk]
    cases marked with
    | false => simp
    | true =>
      simp only [if_true, Bool.true_and]
      exact testBit_update_or b.marked_ idx0 idx1 x h64
  refine ⟨b1, idx0 * 64 + idx1, ?_, hfree, b.lowest_free_min hwf idx0 idx1 h0 h8 h1 h64, hlt,
    Nat.le_add_right _ _, hend, ?_, ?_, ?_, ?_, ?_, eav, ecap, esz, ebs, hwf1, ?_⟩
  · unfold block_t.alloc_ptr
    rw [if_neg (by rw [ne_eq, not_not]; exact hwf.2.1.symm), hok]
    simp only
    rw [if_neg (by rw [not_not]; exact halign),
      if_neg (by rw [not_not]; exact ⟨Nat.le_add_right _ _, hend⟩),
      if_neg (by rw [ne_eq, not_not]; exact hwf1.2.1.symm)]
  · rw [hal]; simp
  · rw [hfi, hnofin]; simp
  · rw [hma]; simp
  · intro hm
    rw [hma, hm]; simp
  · intro x hx
    rw [hal, hfi, hma]
    simp [hx]
  · exact ⟨ha16, by rw [esz]; exact hs16, by rw [esz]; exact hspos, by rw [ebs]; exact hhdr,
      by rw [ecap, esz, ebs]; exact hcapeq⟩

end gc

namespace gc

theorem example_fresh_block_created : block_t.create 16 false = .ok example_fresh_block := rfl

theorem example_fresh_block_well_formed : example_fresh_block.well_formed := by
  obtain ⟨b0, h1, h2, _⟩ := block_t.create_well_formed 16 false (by decide) (by decide) (by decide)
  rw [example_fresh_block_created] at h1
  injection h1 with e
  rw [e]
  exact h2

theorem C23_alloc_lowest_free_slot_witness :
    example_fresh_block.well_formed ∧ example_fresh_block.laid_out 0x100000 ∧
      example_fresh_block.full = false ∧
      ∃ b1 i, example_fresh_block.alloc_ptr 0x100000 true false
          = .ok (b1, block_t.data 0x100000 + i * example_fresh_block.sz_) ∧
        example_fresh_block.allocated i = false ∧ b1.allocated i = true :=
  ⟨example_fresh_block_well_formed, by decide, by decide,
    match C23_alloc_lowest_free_slot example_fresh_block 0x100000 true false
      example_fresh_block_well_formed (by decide) (by decide) with
    | ⟨b1, i, h1, h2, _, _, _, _, h3, _⟩ => ⟨b1, i, h1, h2, h3⟩⟩

end gc

namespace gc

/-! ## The write barrier -/

theorem allocator_t.get_ref_inv (a : allocator_t) (obj i v : Nat) (h : a.get_ref obj i = .ok v) :
    ∃ c, a.data obj = some c ∧ c.refs[i]? = some v := by
  unfold allocator_t.get_ref at h
  cases hd : a.data obj with
  | none => rw [hd] at h; simp at h
  | some c =>
    rw [hd] at h
    simp only at h
    cases hr : c.refs[i]? with
    | none => rw [hr] at h; simp at h
    | some u =>
      rw [hr] at h
      simp only [Except.ok.injEq] at h
      exact ⟨c, rfl, by rw [hr, h]⟩

theorem allocator_t.set_ref_slot (a : allocator_t) (obj i old v : Nat)
    (h : a.get_ref obj i = .ok old) :
    ∃ a2, a.set_ref obj i v = .ok a2 ∧ a2.get_ref obj i = .ok v ∧
      (old = v → a2.data = a.data) := by
  obtain ⟨c, hd, hr⟩ := a.get_ref_inv obj i old h
  have hi : i < c.refs.length := by
    by_contra hn
    rw [List.getElem?_eq_none (by omega)] at hr
    exact absurd hr (by simp)
  refine ⟨a.set_data obj { c with refs := c.refs.set i v }, ?_, ?_, ?_⟩
  · unfold allocator_t.set_ref
    rw [hd]
    simp only [if_pos hi]
  · unfold allocator_t.get_ref allocator_t.set_data
    simp only [Function.update_same]
    rw [List.getElem?_set]
    simp [hi]
  · intro e
    subst e
    unfold allocator_t.set_data
    simp only
    have hc : ({ c with refs := c.refs.set i old } : collectable) = c := by
      have : c.refs.set i old = c.refs := by
        apply List.ext_getElem?
        intro k
        rw [List.getElem?_set]
        by_cases hk : i = k
        · subst hk
          simp [hi, hr]
        · simp [hk]
      rw [this]
    rw [hc, ← hd, Function.update_eq_self]

theorem share_of_shared (next : Nat → Nat) (fuel : Nat) (a a1 : allocator_t) (r r1 : Nat)
    (h : allocator_t.share next fuel a r = .ok (a1, r1)) (hs : is_shared_ref r = true)
    (a2 : allocator_t) : allocator_t.share next fuel a2 r = .ok (a2, r) := by
  unfold allocator_t.share at h ⊢
  cases fuel with
  | zero => simp [share_] at h
  | succ fuel =>
    unfold share_ at h ⊢
    by_cases h0 : r = 0
    · rw [if_pos h0] at h; simp at h
    · rw [if_neg h0, if_pos hs]

/-- C24: when the promotion of `src` returns and the slot is a reference of
an object, `gc::ref_write` under the write barrier pushes the value the slot
held and then the promoted `src` to the back of `ref_list_`, and without the
barrier leaves `ref_list_` alone; either way the slot ends up holding the
promoted `src`, a shared reference. When `src` is a shared reference already,
a second `ref_write` of it to the slot puts no new reference in `ref_list_`
and leaves the objects as they are. When `src` is a nursery reference this
fails: the second call promotes the object again, as in the example, where
the first call pushes 0x100020 and the copy 0x500000 and the second call
pushes 0x500000 and a second copy, 0x700000. -/
theorem C24_ref_write_barrier (next : Nat → Nat) (hnext : ∀ n, is_shared_ref (next n) = true)
    (fuel : Nat) (w : barrier_allocator_t) (obj i src : Nat) (a1 : allocator_t) (src1 old : Nat)
    (hshare : w.allocator.share next fuel src = .ok (a1, src1))
    (hslot : a1.get_ref obj i = .ok old) :
    (∃ w1, ref_write next fuel w obj i src = .ok w1 ∧
      w1.ref_list_ = (if w.write_barrier_ = true then w.ref_list_ ++ [old, src1]
        else w.ref_list_) ∧
      w1.allocator.get_ref obj i = .ok src1 ∧ is_shared_ref src1 = true ∧
      w1.write_barrier_ = w.write_barrier_ ∧
      (is_shared_ref src = true →
        ∃ w2, ref_write next fuel w1 obj i src = .ok w2 ∧
          (∀ x, x ∈ w2.ref_list_ ↔ x ∈ w1.ref_list_) ∧
          w2.allocator.data = w1.allocator.data)) ∧
    (∃ w1 w2, ref_write example_next 2 example_barrier_allocator 0x100010 0 16 = .ok w1 ∧
      ref_write example_next 2 w1 0x100010 0 16 = .ok w2 ∧
      w1.ref_list_ = [0x100020, 0x500000] ∧
      w2.ref_list_ = [0x100020, 0x500000, 0x500000, 0x700000] ∧
      0x700000 ∉ w1.ref_list_) := by
  refine ⟨?_, ⟨_, _, rfl, rfl, rfl, rfl, by decide⟩⟩
  obtain ⟨a2, hset, hget, _⟩ := a1.set_ref_slot obj i old src1 hslot
  have hpost := share_post_of_ok next hnext fuel w.allocator src a1 src1 hshare
  have e1 : ref_write next fuel w obj i src
      = .ok { allocator := a2, write_barrier_ := w.write_barrier_,
              ref_list_ := if w.write_barrier_ = true then w.ref_list_ ++ [old, src1]
                else w.ref_list_ } := by
    unfold ref_write
    rw [hshare]
    simp only [hslot, hset]
    cases w.write_barrier_ <;> rfl
  refine ⟨_, e1, rfl, hget, hpost.1, rfl, ?_⟩
  intro hs
  have esrc : src1 = src := (hpost.2.2.2.2.2.2.2.1 hs).1
  have hshare2 := share_of_shared next fuel w.allocator a1 src src1 hshare hs a2
  obtain ⟨a3, hset3, _, hdata3⟩ := a2.set_ref_slot obj i src1 src (esrc ▸ hget)
  refine ⟨{ allocator := a3, write_barrier_ := w.write_barrier_,
            ref_list_ := if w.write_barrier_ = true
              then (if w.write_barrier_ = true then w.ref_list_ ++ [old, src1]
                else w.ref_list_) ++ [src1, src]
              else (if w.write_barrier_ = true then w.ref_list_ ++ [old, src1]
                else w.ref_list_) }, ?_, ?_, hdata3 esrc⟩
  · unfold ref_write
    simp only [hshare2, hget, hset3]
    cases w.write_barrier_ <;> rfl
  · intro x
    cases w.write_barrier_ with
    | false => simp
    | true =>
      simp only [if_true, List.mem_append, List.mem_cons, List.mem_singleton, List.not_mem_nil,
        or_false]
      rw [esrc]
      tauto

theorem C24_ref_write_barrier_witness :
    ∃ w1, ref_write example_next 2 example_barrier_allocator 0x100010 0 0x100020 = .ok w1 ∧
      w1.ref_list_ = [0x100020, 0x100020] ∧ is_shared_ref 0x100020 = true :=
  match (C24_ref_write_barrier example_next example_next_shared 2 example_barrier_allocator
      0x100010 0 0x100020 example_barrier_allocator.allocator 0x100020 0x100020 rfl rfl).1 with
  | ⟨w1, h1, h2, _, h3, _⟩ => ⟨w1, h1, h2, h3⟩

end gc

namespace park

/-! ## A fiber spawned between the marking loop and the second stop-the-world -/

/-- C25: the assertion at the exchange of the black and the grey list does
not hold in every interleaving. The main fiber runs; a collection starts, the
marking loop finds the grey list empty and the collector calls `stw_start(2)`;
before the mutators have checked in, the main fiber spawns fiber 1, which
`fiber_created` puts in the grey list although the write barrier is on. When
the second stop-the-world is achieved the grey list holds fiber 1, and
`stw_end(2)` fails its assertion `fibers_sleeping_grey_->empty()`. -/
theorem C25_spawn_before_second_stw_breaks_exchange :
    ∃ w, CollectorWorld.init.run example_spawn_before_stw2 = some (.ok w) ∧
      w.pc = .stw2 ∧ w.write_barrier_ = true ∧
      w.rt.fibers_ w.rt.fibers_sleeping_grey_ = [1] ∧
      w.rt.fibers_ w.rt.fibers_running_ = [0] ∧
      w.step .collector = some (.error .undefined) ∧
      CollectorWorld.init.run (example_spawn_before_stw2 ++ [.collector])
        = some (.error .undefined) :=
  ⟨_, rfl, rfl, rfl, rfl, rfl, rfl, rfl⟩

end park

namespace park

/-! ## Entry into a function -/

theorem Stack.ensure_capacity_grows (s : Stack) (n : Nat) (hw : s.wf) (hn : 1 ≤ n) :
    (s.size + n ≤ Stack.MAX_CAP →
      ∃ s1, s.ensure_capacity n = .ok s1 ∧ s1.slots = s.slots ∧ s1.wf ∧
        s.size + n ≤ s1.capacity) ∧
    (Stack.MAX_CAP < s.size + n → s.size + n < 2 ^ 64 →
      s.ensure_capacity n = .error .bad_alloc) := by
  obtain ⟨k, hk7, hc0⟩ := Stack.wf_capacity s hw
  have hpos : 0 < 32 * 2 ^ k := by positivity
  have hfuel : Stack.MAX_CAP < 32 * 2 ^ k * 2 ^ 63 := by
    have h1 : 1 ≤ 2 ^ k := Nat.one_le_two_pow
    have : 32 * 1 * 2 ^ 63 ≤ 32 * 2 ^ k * 2 ^ 63 :=
      Nat.mul_le_mul_right _ (Nat.mul_le_mul_left _ h1)
    unfold Stack.MAX_CAP
    omega
  obtain ⟨j, g1, g2, g3⟩ := Stack.grow_loop_spec (s.size + n) 63 (32 * 2 ^ k) hpos hfuel
  have hkj : 32 * 2 ^ k * 2 ^ j = 32 * 2 ^ (k + j) := by rw [Nat.pow_add, Nat.mul_assoc]
  constructor
  · intro hle
    have heq := Stack.ensure_capacity_eq s n (by unfold Stack.MAX_CAP at hle; omega)
    rw [hc0, g1] at heq
    simp only [] at heq
    have hm : k + j ≤ 7 := by
      by_contra hgt
      have hj : 0 < j := by omega
      obtain ⟨h1, _⟩ := g3 (j - 1) (by omega)
      have h2 : 32 * 2 ^ k * 2 ^ (j - 1) = 32 * 2 ^ (k + (j - 1)) := by
        rw [Nat.pow_add, Nat.mul_assoc]
      rw [h2] at h1
      have h3 : 2 ^ 7 ≤ 2 ^ (k + (j - 1)) := Nat.pow_le_pow_right (by omega) (by omega)
      unfold Stack.MAX_CAP at hle
      omega
    have hcap : 32 * 2 ^ k * 2 ^ j ≤ Stack.MAX_CAP := by
      rw [hkj]
      have : 2 ^ (k + j) ≤ 2 ^ 7 := Nat.pow_le_pow_right (by omega) hm
      unfold Stack.MAX_CAP
      omega
    have hneed : s.size + n ≤ 32 * 2 ^ k * 2 ^ j := by
      rcases g2 with h | h
      · exact h
      · omega
    rw [if_neg (by omega)] at heq
    refine ⟨_, heq, rfl, ⟨?_, ?_⟩, hneed⟩
    · show s.slots.length ≤ 32 * 2 ^ k * 2 ^ j
      unfold Stack.size at hneed
      omega
    · simp only [if_true]
      rw [hkj]
      exact Stack.capacity_mem (k + j) hm
  · intro hgt hsum
    have heq := Stack.ensure_capacity_eq s n hsum
    rw [hc0, g1] at heq
    simp only [] at heq
    have : Stack.MAX_CAP < 32 * 2 ^ k * 2 ^ j := by
      rcases g2 with h | h
      · omega
      · exact h
    rw [heq, if_pos this]

theorem Stack.wf_capacity_le (s : Stack) (hw : s.wf) : s.capacity ≤ Stack.MAX_CAP := by
  obtain ⟨_, h2⟩ := hw
  cases hk : s.chunk_ with
  | false =>
    simp only [hk, Bool.false_eq_true, if_false] at h2
    rw [h2]; decide
  | true =>
    simp only [hk, if_true, List.mem_cons, List.mem_singleton, List.not_mem_nil, or_false] at h2
    unfold Stack.MAX_CAP
    omega

theorem Stack.init_locals_spec (s : Stack) (local_count : Nat) (hw : s.wf) :
    (s.size + local_count ≤ Stack.MAX_CAP →
      ∃ s1, s.init_locals local_count = .ok s1 ∧
        s1.slots = s.slots ++ List.replicate local_count value_t.UVALUE ∧ s1.wf) ∧
    (Stack.MAX_CAP < s.size + local_count → s.size + local_count < 2 ^ 64 →
      s.init_locals local_count = .error .bad_alloc) := by
  have hcap := s.wf_capacity_le hw
  constructor
  · intro hle
    unfold Stack.init_locals
    by_cases hc : s.size + local_count > s.capacity
    · have hn : 1 ≤ local_count := by have := hw.1; omega
      obtain ⟨s1, h1, h2, h3, h4⟩ := (s.ensure_capacity_grows local_count hw hn).1 hle
      simp only [if_pos hc, h1, bind, Except.bind, pure, Except.pure]
      refine ⟨_, rfl, by rw [h2], ?_, ?_⟩
      · show (s1.slots ++ List.replicate local_count value_t.UVALUE).length ≤ s1.capacity
        rw [List.length_append, List.length_replicate, h2]
        exact h4
      · exact h3.2
    · simp only [if_neg hc, bind, Except.bind, pure, Except.pure]
      refine ⟨_, rfl, rfl, ?_, hw.2⟩
      show (s.slots ++ List.replicate local_count value_t.UVALUE).length ≤ s.capacity
      rw [List.length_append, List.length_replicate]
      unfold Stack.size at hc
      omega
  · intro hgt hsum
    have hn : 1 ≤ local_count := by have := hw.1; omega
    unfold Stack.init_locals
    rw [if_pos (by omega), (s.ensure_capacity_grows local_count hw hn).2 hgt hsum]
    rfl

theorem FiberImpl.prolog_on_full_stack (pre : List value_t) (hpre : pre.length = 4095) :
    FiberImpl.exec_function_prolog initialised_runtime
        ⟨⟨pre ++ [.RVALUE (.Closure 7)], 4096, true⟩, [], []⟩
        ⟨100, 0, true, .exec_dispatch⟩ ⟨7, 0, 1⟩ 55
      = .error .bad_alloc := by
  have hw : (Stack.mk (pre ++ [.RVALUE (.Closure 7)]) 4096 true).wf := by
    refine ⟨?_, ?_⟩
    · simp [Stack.size, hpre]
    · simp
  have h := (Stack.init_locals_spec _ 1 hw).2 (by simp [Stack.size, Stack.MAX_CAP, hpre])
    (by simp [Stack.size, hpre])
  have hslot : (pre ++ [value_t.RVALUE (.Closure 7)]).get? 4095
      = some (.RVALUE (.Closure 7)) := by
    rw [List.get?_eq_getElem?, List.getElem?_append_right (by omega)]
    simp [hpre]
  unfold FiberImpl.exec_function_prolog
  simp only [Stack.base, Stack.callable, Stack.argument, Stack.size, List.length_append,
    List.length_singleton, AST.Function.local_count, bind, Except.bind, hpre]
  simp only [show (0 : Nat) + 1 ≤ 4095 + 1 by decide, if_true,
    show 4095 + 1 - 0 - 1 + 0 = 4095 by decide, hslot, h]
  rfl

/-- C26, the sentence as it stands fails in both of its cases. A call site
without arguments on a stack whose only slot holds a boxed integer, a heap
reference that is no closure: `exec_function_prolog` returns no code, the
dispatch of the integer raises the not-implemented error. And a stack of 4096
slots whose top slot holds a closure of the function entered, the function
having one local: no frame is entered, the growth of the stack raises
`bad_alloc`. -/
theorem C26_prolog_raises_counterexample :
    FiberImpl.exec_function_prolog initialised_runtime
        ⟨⟨[.RVALUE (.Integer 5)], 32, true⟩, [], []⟩ ⟨100, 0, true, .exec_dispatch⟩ ⟨7, 0, 0⟩ 55
      = .error (.not_implemented "dispatch") ∧
    FiberImpl.exec_function_prolog initialised_runtime
        ⟨⟨List.replicate 4095 .UVALUE ++ [.RVALUE (.Closure 7)], 4096, true⟩, [], []⟩
        ⟨100, 0, true, .exec_dispatch⟩ ⟨7, 0, 1⟩ 55
      = .error .bad_alloc := by
  constructor
  · rfl
  · exact FiberImpl.prolog_on_full_stack (List.replicate 4095 .UVALUE) (List.length_replicate _ _)

end park

namespace park

theorem FiberImpl.exec_dispatch_at (rt : Runtime) (fbr : FiberImpl) (apply : AST.Apply)
    (rvalue : Value) (hs : apply.argument_count + 1 ≤ fbr.stack.size)
    (hslot : fbr.stack.slots[fbr.stack.size - apply.argument_count - 1]? = some (.RVALUE rvalue)) :
    FiberImpl.exec_dispatch rt fbr apply
      = match rvalue.dispatch rt fbr.stack apply with
        | .ok target => .ok (fbr, apply.set_target target, -1)
        | .error e => .error e := by
  unfold FiberImpl.exec_dispatch
  simp only [Stack.base, if_pos hs, Stack.callable, Stack.argument, Nat.add_zero,
    List.get?_eq_getElem?, hslot, bind, Except.bind, value.cast_ref]
  cases rvalue.dispatch rt fbr.stack apply <;> rfl

/-- C26, amended: for a call site with `argc` arguments on a stack of size
`s >= argc + 1` whose slot `s - argc - 1` holds a heap reference, the stack
having a capacity that `ensure_capacity` produces: `base` is `s - argc - 1`
and `base + argc + 1 = s`. When the slot holds a closure of the function
entered and `s + local_count` is at most 4096, `exec_function_prolog` returns
0, pushes one frame record (call site, base, `argc`, `local_count`, no
defers) and the link, and appends `local_count` slots of kind `UNDEF`,
the slots below `s` staying as they are; when `s + local_count` exceeds 4096
it raises `bad_alloc`. When the slot holds anything else and the dispatch of
that value resolves a target, it returns -1 with the target stored at the call
site and the fiber untouched; when the dispatch raises, the error is
raised. -/
theorem C26_prolog_enters_or_redispatches (rt : Runtime) (fbr : FiberImpl) (apply : AST.Apply)
    (function : AST.Function) (link : Nat) (rvalue : Value)
    (hw : fbr.stack.wf) (hs : apply.argument_count + 1 ≤ fbr.stack.size)
    (hslot : fbr.stack.slots[fbr.stack.size - apply.argument_count - 1]? = some (.RVALUE rvalue)) :
    fbr.stack.base apply.argument_count = .ok (fbr.stack.size - apply.argument_count - 1) ∧
    (fbr.stack.size - apply.argument_count - 1) + apply.argument_count + 1 = fbr.stack.size ∧
    (rvalue = .Closure function.addr →
      fbr.stack.size + function.local_count ≤ Stack.MAX_CAP →
      ∃ stack, FiberImpl.exec_function_prolog rt fbr apply function link
          = .ok (⟨stack,
                  ⟨apply, fbr.stack.size - apply.argument_count - 1, apply.argument_count,
                    function.local_count, none⟩ :: fbr.frame_stack,
                  link :: fbr.link_stack⟩, apply, 0) ∧
        stack.slots = fbr.stack.slots ++ List.replicate function.local_count value_t.UVALUE ∧
        stack.size = fbr.stack.size + function.local_count ∧ stack.wf ∧
        ∀ i, i < fbr.stack.size → stack.slots[i]? = fbr.stack.slots[i]?) ∧
    (rvalue = .Closure function.addr →
      Stack.MAX_CAP < fbr.stack.size + function.local_count →
      fbr.stack.size + function.local_count < 2 ^ 64 →
      FiberImpl.exec_function_prolog rt fbr apply function link = .error .bad_alloc) ∧
    (rvalue ≠ .Closure function.addr →
      (∀ target, rvalue.dispatch rt fbr.stack apply = .ok target →
        FiberImpl.exec_function_prolog rt fbr apply function link
          = .ok (fbr, apply.set_target target, -1)) ∧
      (∀ e, rvalue.dispatch rt fbr.stack apply = .error e →
        FiberImpl.exec_function_prolog rt fbr apply function link = .error e)) := by
  have hbase : fbr.stack.base apply.argument_count
      = .ok (fbr.stack.size - apply.argument_count - 1) := by
    unfold Stack.base
    rw [if_pos hs]
  have hcall : fbr.stack.callable (fbr.stack.size - apply.argument_count - 1)
      = .ok (.RVALUE rvalue) := by
    simp only [Stack.callable, Stack.argument, Nat.add_zero, List.get?_eq_getElem?, hslot]
  refine ⟨hbase, by omega, ?_, ?_, ?_⟩
  · intro hc hfit
    obtain ⟨s1, h1, h2, h3⟩ := (fbr.stack.init_locals_spec function.local_count hw).1 hfit
    refine ⟨s1, ?_, h2, ?_, h3, ?_⟩
    · unfold FiberImpl.exec_function_prolog
      simp only [hbase, hcall, bind, Except.bind, hc, Closure.isinstance, Value.get_type,
        decide_True, not_true_eq_false, if_false, ne_eq, h1, pure, Except.pure]
    · unfold Stack.size
      rw [h2, List.length_append, List.length_replicate]
    · intro i hi
      rw [h2, List.getElem?_append_left hi]
  · intro hc hgt hsum
    have h1 := (fbr.stack.init_locals_spec function.local_count hw).2 hgt hsum
    unfold FiberImpl.exec_function_prolog
    simp only [hbase, hcall, bind, Except.bind, hc, Closure.isinstance, Value.get_type,
      decide_True, not_true_eq_false, if_false, ne_eq, h1]
  · intro hne
    have hd := FiberImpl.exec_dispatch_at rt fbr apply rvalue hs hslot
    have hp : FiberImpl.exec_function_prolog rt fbr apply function link
        = FiberImpl.exec_dispatch rt fbr apply := by
      unfold FiberImpl.exec_function_prolog
      simp only [hbase, hcall, bind, Except.bind]
      cases rvalue with
      | Closure f =>
        have hf : f ≠ function.addr := fun e => hne (by rw [e])
        simp [Closure.isinstance, Value.get_type, hf]
      | Integer v => simp [Closure.isinstance, Value.get_type]
      | Boolean v => simp [Closure.isinstance, Value.get_type]
      | Builtin a => simp [Closure.isinstance, Value.get_type]
      | Error2 m => simp [Closure.isinstance, Value.get_type]
      | Other t a => simp [Closure.isinstance, Value.get_type]
    rw [hp, hd]
    constructor
    · intro target ht
      rw [ht]
    · intro e he
      rw [he]

theorem C26_prolog_enters_or_redispatches_witness :
    (Stack.mk [.RVALUE (.Closure 7), .IVALUE 3] 32 true).wf ∧
      ∃ stack, FiberImpl.exec_function_prolog initialised_runtime
          ⟨⟨[.RVALUE (.Closure 7), .IVALUE 3], 32, true⟩, [], []⟩
          ⟨100, 1, true, .exec_dispatch⟩ ⟨7, 1, 2⟩ 55
        = .ok (⟨stack, [⟨⟨100, 1, true, .exec_dispatch⟩, 0, 1, 2, none⟩], [55]⟩,
            ⟨100, 1, true, .exec_dispatch⟩, 0) ∧
        stack.slots = [.RVALUE (.Closure 7), .IVALUE 3, .UVALUE, .UVALUE] :=
  ⟨by decide,
    match (C26_prolog_enters_or_redispatches initialised_runtime
      ⟨⟨[.RVALUE (.Closure 7), .IVALUE 3], 32, true⟩, [], []⟩
      ⟨100, 1, true, .exec_dispatch⟩ ⟨7, 1, 2⟩ 55 (.Closure 7) (by decide) (by decide) rfl).2.2.1
      rfl (by decide) with
    | ⟨stack, h1, h2, _⟩ => ⟨stack, h1, h2⟩⟩

end park

namespace park

namespace VectorImpl

variable {V : Type}

/-! ## The persistent vector -/

theorem pow32_pos (h : Nat) : 0 < 32 ^ h := Nat.pos_pow_of_pos h (by decide)

theorem pow32_succ (h : Nat) : 32 ^ (h + 1) = 32 * 32 ^ h := by
  rw [Nat.pow_succ, Nat.mul_comm]

theorem node_ok_len_le : ∀ (h : Nat) (arr : List (ArrayItem V)) (xs : List V) (base len : Nat),
    node_ok h arr xs base len → len ≤ 32 ^ (h + 1) ∧ len % 32 = 0 := by
  intro h
  induction h with
  | zero =>
    intro arr xs base len hn
    obtain ⟨h1, _, _⟩ := hn
    rw [h1]
    exact ⟨by decide, by decide⟩
  | succ h ih =>
    intro arr xs base len hn
    rcases hn with ⟨_, h0⟩ | ⟨m, last, _, hm, hlen, _, _, a, _, hlast⟩
    · rw [h0]
      exact ⟨Nat.zero_le _, rfl⟩
    · obtain ⟨i1, i2⟩ := ih a xs _ last hlast
      have hc := pow32_succ h
      have hc2 := pow32_succ (h + 1)
      have hmul : m * 32 ^ (h + 1) ≤ 31 * 32 ^ (h + 1) := Nat.mul_le_mul_right _ (by omega)
      refine ⟨by omega, ?_⟩
      rw [hlen, hc, Nat.add_mod, ← Nat.mul_assoc, Nat.mul_comm m 32, Nat.mul_assoc,
        Nat.mul_mod_right, i2]

theorem node_ok_append : ∀ (h : Nat) (arr : List (ArrayItem V)) (xs ys : List V) (base len : Nat),
    node_ok h arr xs base len → node_ok h arr (xs ++ ys) base len := by
  intro h
  induction h with
  | zero =>
    intro arr xs ys base len hn
    obtain ⟨h1, h2, h3⟩ := hn
    refine ⟨h1, h2, fun j hj => ?_⟩
    obtain ⟨x, e1, e2⟩ := h3 j hj
    refine ⟨x, ?_, e2⟩
    have hlt : base + j < xs.length := by
      by_contra hge
      rw [List.getElem?_eq_none (by omega)] at e1
      exact absurd e1 (by simp)
    rw [List.getElem?_append_left hlt, e1]
  | succ h ih =>
    intro arr xs ys base len hn
    rcases hn with h0 | ⟨m, last, h1, h2, h3, h4, h5, a, h6, h7⟩
    · exact Or.inl h0
    · refine Or.inr ⟨m, last, h1, h2, h3, h4, fun k hk => ?_, a, h6, ih _ _ _ _ _ h7⟩
      obtain ⟨b, e1, e2⟩ := h5 k hk
      exact ⟨b, e1, ih _ _ _ _ _ e2⟩

theorem shift_mask (i h : Nat) : (i >>> (5 * h + 5)) &&& 0x01f = i / 32 ^ (h + 1) % 32 := by
  have e : (0x01f : Nat) = 2 ^ 5 - 1 := by norm_num
  rw [e, Nat.and_pow_two_sub_one_eq_mod, Nat.shiftRight_eq_div_pow]
  have : (2 : Nat) ^ (5 * h + 5) = 32 ^ (h + 1) := by
    rw [show 5 * h + 5 = 5 * (h + 1) by ring, Nat.pow_mul]
  rw [this]

theorem low_mask (i : Nat) : i &&& 0x01f = i % 32 := by
  have e : (0x01f : Nat) = 2 ^ 5 - 1 := by norm_num
  rw [e, Nat.and_pow_two_sub_one_eq_mod]

/-- The loop of `nth` reaches the leaf that holds the value of an index. -/
theorem descend_spec : ∀ (h : Nat) (arr : List (ArrayItem V)) (xs : List V) (base len i : Nat),
    node_ok h arr xs base len → i % 32 ^ (h + 1) < len →
    ∃ leaf x, descend i (5 * h) arr = .ok leaf ∧ leaf[i % 32]? = some (.value x) ∧
      xs[base + i % 32 ^ (h + 1)]? = some x := by
  intro h
  induction h with
  | zero =>
    intro arr xs base len i hn hi
    obtain ⟨h1, _, h3⟩ := hn
    have hi32 : i % 32 < 32 := Nat.mod_lt _ (by decide)
    obtain ⟨x, e1, e2⟩ := h3 (i % 32) hi32
    exact ⟨arr, x, rfl, e2, by simpa using e1⟩
  | succ h ih =>
    intro arr xs base len i hn hi
    have hcpos := pow32_pos (h + 1)
    have hc2 : 32 ^ (h + 1 + 1) = 32 ^ (h + 1) * 32 := pow_succ 32 (h + 1)
    rcases hn with ⟨_, h0⟩ | ⟨m, last, h1, h2, h3, h4, h5, a, h6, h7⟩
    · omega
    · have hk : i % 32 ^ (h + 1 + 1) / 32 ^ (h + 1) = i / 32 ^ (h + 1) % 32 := by
        rw [hc2, Nat.mod_mul_right_div_self]
      have hr : i % 32 ^ (h + 1 + 1) % 32 ^ (h + 1) = i % 32 ^ (h + 1) := by
        rw [hc2]
        exact Nat.mod_mul_right_mod _ _ _
      have hdm := Nat.div_add_mod (i % 32 ^ (h + 1 + 1)) (32 ^ (h + 1))
      rw [hk, hr] at hdm
      have hkm : i / 32 ^ (h + 1) % 32 ≤ m := by
        by_contra hgt
        have : (m + 1) * 32 ^ (h + 1) ≤ i / 32 ^ (h + 1) % 32 * 32 ^ (h + 1) :=
          Nat.mul_le_mul_right _ (by omega)
        have hl := (node_ok_len_le h a xs _ last h7).1
        rw [Nat.add_mul, Nat.one_mul] at this
        rw [Nat.mul_comm] at hdm
        omega
      have hstep : ∀ (c : List (ArrayItem V)) (b l : Nat),
          arr[i / 32 ^ (h + 1) % 32]? = some (.array c) → node_ok h c xs b l →
          i % 32 ^ (h + 1) < l →
          b + i % 32 ^ (h + 1) = base + i % 32 ^ (h + 1 + 1) →
          ∃ leaf x, descend i (5 * (h + 1)) arr = .ok leaf ∧ leaf[i % 32]? = some (.value x) ∧
            xs[base + i % 32 ^ (h + 1 + 1)]? = some x := by
        intro c b l hc hnode hlt hb
        obtain ⟨leaf, x, e1, e2, e3⟩ := ih c xs b l i hnode hlt
        refine ⟨leaf, x, ?_, e2, by rw [← hb]; exact e3⟩
        rw [show 5 * (h + 1) = 5 * h + 5 by ring]
        unfold descend
        simp only [shift_mask, ArrayImpl.get, hc, ArrayImpl.cast]
        exact e1
      rcases Nat.lt_or_eq_of_le hkm with hlt | heq
      · obtain ⟨c, e1, e2⟩ := h5 _ hlt
        refine hstep c _ _ e1 e2 (Nat.mod_lt _ hcpos) ?_
        rw [Nat.mul_comm] at hdm
        omega
      · rw [← heq] at h6 h7
        refine hstep a _ _ h6 h7 ?_ ?_
        · rw [← heq, Nat.mul_comm] at h3
          omega
        · rw [Nat.mul_comm] at hdm
          omega

end VectorImpl

end park

namespace park

namespace VectorImpl

variable {V : Type}

/-- The end of `pushTail` on a node whose children are all full. -/
theorem pushTail_expansion_spec (h : Nat) (arr e : List (ArrayItem V)) (xs : List V) (base : Nat)
    (harr : arr.length ≤ 32)
    (hfull : ∀ k, k < arr.length → ∃ a, arr[k]? = some (.array a) ∧
      node_ok h a xs (base + k * 32 ^ (h + 1)) (32 ^ (h + 1)))
    (he : node_ok h e xs (base + arr.length * 32 ^ (h + 1)) 32) :
    (arr.length < 32 →
      ∃ arr1, pushTail_expansion arr e = .ok (arr1, none) ∧
        node_ok (h + 1) arr1 xs base (arr.length * 32 ^ (h + 1) + 32)) ∧
    (arr.length = 32 →
      ∃ e1, pushTail_expansion arr e = .ok (arr, some e1) ∧
        node_ok (h + 1) e1 xs (base + arr.length * 32 ^ (h + 1)) 32) := by
  constructor
  · intro hlt
    refine ⟨arr ++ [.array e], ?_, Or.inr ⟨arr.length, 32, ?_, by omega, rfl, by decide, ?_, e, ?_, he⟩⟩
    · unfold pushTail_expansion ArrayImpl.append
      rw [if_neg (by omega), if_pos (by omega)]
    · simp
    · intro k hk
      obtain ⟨a, e1, e2⟩ := hfull k hk
      exact ⟨a, by rw [List.getElem?_append_left hk, e1], e2⟩
    · simp
  · intro heq
    refine ⟨[.array e], ?_, Or.inr ⟨0, 32, rfl, by omega, by simp, by decide, ?_, e, rfl, ?_⟩⟩
    · unfold pushTail_expansion ArrayImpl.create1
      rw [if_pos heq]
    · intro k hk
      omega
    · simpa using he

/-- `pushTail` on a node of height `h + 1` that holds `len` values: while the
node has room the tail is put in, and a full node is returned as it is
together with a new node that holds the tail. -/
theorem pushTail_spec : ∀ (h : Nat) (arr tail : List (ArrayItem V)) (xs : List V)
    (base len : Nat), node_ok (h + 1) arr xs base len → (h = 0 ∨ 0 < len) →
    node_ok 0 tail xs (base + len) 32 →
    (len < 32 ^ (h + 2) →
      ∃ arr1, pushTail (5 * h) arr tail = .ok (arr1, none) ∧
        node_ok (h + 1) arr1 xs base (len + 32)) ∧
    (len = 32 ^ (h + 2) →
      ∃ e, pushTail (5 * h) arr tail = .ok (arr, some e) ∧
        node_ok (h + 1) e xs (base + len) 32) := by
  intro h
  induction h with
  | zero =>
    intro arr tail xs base len hn _ ht
    have hpt : pushTail (5 * 0) arr tail = pushTail_expansion arr tail := rfl
    rw [hpt]
    rcases hn with ⟨h0, hl0⟩ | ⟨m, last, h1, h2, h3, h4, h5, a, h6, h7⟩
    · subst h0 hl0
      obtain ⟨q1, _⟩ := pushTail_expansion_spec 0 ([] : List (ArrayItem V)) tail xs base
        (by simp) (fun k hk => absurd hk (by simp)) (by simpa using ht)
      refine ⟨fun _ => ?_, fun hc => absurd hc (by norm_num)⟩
      obtain ⟨arr1, e1, e2⟩ := q1 (by simp)
      exact ⟨arr1, e1, by simpa using e2⟩
    · have hl32 : last = 32 := h7.1
      have hlen : len = arr.length * 32 ^ (0 + 1) := by rw [h1, h3, hl32]; ring
      have hfull : ∀ k, k < arr.length → ∃ c, arr[k]? = some (.array c) ∧
          node_ok 0 c xs (base + k * 32 ^ (0 + 1)) (32 ^ (0 + 1)) := by
        intro k hk
        rcases Nat.lt_or_eq_of_le (show k ≤ m by omega) with hlt | heq
        · exact h5 k hlt
        · subst heq
          exact ⟨a, h6, by rw [hl32] at h7; simpa using h7⟩
      obtain ⟨q1, q2⟩ := pushTail_expansion_spec 0 arr tail xs base (by omega) hfull
        (by rw [← hlen]; exact ht)
      rw [← hlen] at q1 q2
      constructor
      · intro hlt
        exact q1 (by norm_num at hlt hlen; omega)
      · intro heq
        exact q2 (by norm_num at heq hlen; omega)
  | succ h ih =>
    intro arr tail xs base len hn hpos ht
    have hlenpos : 0 < len := by
      rcases hpos with h0 | h0
      · omega
      · exact h0
    rcases hn with ⟨_, hl0⟩ | ⟨m, last, h1, h2, h3, h4, h5, a, h6, h7⟩
    · omega
    · have hcap := (node_ok_len_le (h + 1) a xs _ last h7).1
      have ha : 0 < a.length ∧ a.length ≤ 32 := by
        rcases h7 with ⟨_, hz⟩ | ⟨m1, _, g1, g2, _⟩
        · omega
        · omega
      have hlast : arr[arr.length - 1]? = some (.array a) := by
        rw [h1]; simpa using h6
      have hunf : pushTail (5 * (h + 1)) arr tail
          = match pushTail (5 * h) a tail with
            | .error e => .error e
            | .ok (newchild, none) => .ok (List.set arr m (.array newchild), none)
            | .ok (_, some expansion) => pushTail_expansion arr expansion := by
        rw [show 5 * (h + 1) = 5 * h + 5 by ring]
        conv_lhs => unfold pushTail
        simp only [show (0 : Nat) < arr.length by omega, not_true_eq_false, if_false,
          ArrayImpl.get, hlast, ArrayImpl.cast, ArrayImpl.create, ha.1, ha.2, and_self, if_true,
          show arr.length ≤ 32 by omega, ArrayImpl.set,
          show arr.length - 1 < arr.length by omega]
        rw [show arr.length - 1 = m by omega]
      have htail : node_ok 0 tail xs (base + m * 32 ^ (h + 1 + 1) + last) 32 := by
        rw [h3] at ht
        rw [Nat.add_assoc]
        exact ht
      obtain ⟨r1, r2⟩ := ih a tail xs (base + m * 32 ^ (h + 1 + 1)) last h7 (Or.inr h4) htail
      rcases Nat.lt_or_eq_of_le hcap with hlt | heq
      · obtain ⟨a1, e1, e2⟩ := r1 hlt
        have hres : pushTail (5 * (h + 1)) arr tail = .ok (List.set arr m (.array a1), none) := by
          rw [hunf, e1]
        have hmul : m * 32 ^ (h + 1 + 1) ≤ 31 * 32 ^ (h + 1 + 1) :=
          Nat.mul_le_mul_right _ (by omega)
        have hc3 : 32 ^ (h + 1 + 2) = 32 * 32 ^ (h + 1 + 1) := pow32_succ (h + 1 + 1)
        constructor
        · intro _
          refine ⟨_, hres, Or.inr ⟨m, last + 32, by simp [h1], h2, by omega, by omega, ?_, a1, ?_, e2⟩⟩
          · intro k hk
            obtain ⟨c, g1, g2⟩ := h5 k hk
            refine ⟨c, ?_, g2⟩
            rw [List.getElem?_set_ne (by omega), g1]
          · rw [List.getElem?_set_self (by omega)]
        · intro hfull
          omega
      · obtain ⟨e, e1, e2⟩ := r2 heq
        have hres : pushTail (5 * (h + 1)) arr tail = pushTail_expansion arr e := by
          rw [hunf, e1]
        have hlen : len = arr.length * 32 ^ (h + 1 + 1) := by rw [h1, h3, heq]; ring
        have hfull : ∀ k, k < arr.length → ∃ c, arr[k]? = some (.array c) ∧
            node_ok (h + 1) c xs (base + k * 32 ^ (h + 1 + 1)) (32 ^ (h + 1 + 1)) := by
          intro k hk
          rcases Nat.lt_or_eq_of_le (show k ≤ m by omega) with hlt | hkm
          · exact h5 k hlt
          · subst hkm
            exact ⟨a, h6, by rw [heq] at h7; exact h7⟩
        have he : node_ok (h + 1) e xs (base + arr.length * 32 ^ (h + 1 + 1)) 32 := by
          rw [← hlen, h3, ← Nat.add_assoc]
          exact e2
        obtain ⟨q1, q2⟩ := pushTail_expansion_spec (h + 1) arr e xs base (by omega) hfull he
        rw [← hlen] at q1 q2
        rw [hres]
        have hc3 : 32 ^ (h + 1 + 2) = 32 * 32 ^ (h + 1 + 1) := pow32_succ (h + 1 + 1)
        have hcpos := pow32_pos (h + 1 + 1)
        constructor
        · intro hlt
          refine q1 ?_
          by_contra hge
          have : 32 * 32 ^ (h + 1 + 1) ≤ arr.length * 32 ^ (h + 1 + 1) :=
            Nat.mul_le_mul_right _ (by omega)
          omega
        · intro hfl
          refine q2 ?_
          have : arr.length * 32 ^ (h + 1 + 1) = 32 * 32 ^ (h + 1 + 1) := by omega
          exact Nat.eq_of_mul_eq_mul_right hcpos this

end VectorImpl

end park

namespace park

namespace VectorImpl

variable {V : Type}

theorem EMPTY_repr : vector_repr (EMPTY : VectorImpl V) [] :=
  ⟨rfl, by simp [EMPTY], by simp [EMPTY], fun h => absurd h (by simp), fun j hj => by simp [EMPTY] at hj,
    0, rfl, Or.inl ⟨rfl, rfl⟩, Or.inl rfl⟩

/-- One `conj`, up to the sum `cnt_ + 1`. -/
theorem conj_eq (v : VectorImpl V) (xs : List V) (val : V) (hv : vector_repr v xs) :
    ∃ shift root tail,
      v.conj val = (match next_cnt v.cnt_ with
        | .error e => .error e
        | .ok cnt => .ok ⟨cnt, shift, root, tail⟩) ∧
      vector_repr ⟨xs.length + 1, shift, root, tail⟩ (xs ++ [val]) := by
  obtain ⟨hcnt, ht32, htle, htpos, htail, h, hshift, hroot, hne⟩ := hv
  by_cases hlt : v.tail_.length < 32
  · refine ⟨v.shift_, v.root_, v.tail_ ++ [.value val], ?_, ?_⟩
    · unfold conj ArrayImpl.append
      rw [if_pos hlt, if_pos (by omega)]
    · refine ⟨by simp, by simp; omega, by simp; omega, fun _ => by simp, ?_, h, hshift, ?_, ?_⟩
      · intro j hj
        simp only [List.length_append, List.length_singleton] at hj ⊢
        rcases Nat.lt_or_eq_of_le (show j ≤ v.tail_.length by omega) with hjl | hje
        · obtain ⟨x, e1, e2⟩ := htail j hjl
          refine ⟨x, ?_, by rw [List.getElem?_append_left hjl, e2]⟩
          rw [show xs.length + 1 - (v.tail_.length + 1) + j = xs.length - v.tail_.length + j by omega,
            List.getElem?_append_left (by omega), e1]
        · refine ⟨val, ?_, ?_⟩
          · rw [show xs.length + 1 - (v.tail_.length + 1) + j = xs.length by omega]
            simp
          · rw [hje]; simp
      · simp only [List.length_append, List.length_singleton]
        rw [show xs.length + 1 - (v.tail_.length + 1) = xs.length - v.tail_.length by omega]
        exact node_ok_append _ _ _ _ _ _ hroot
      · simp only [List.length_append, List.length_singleton]
        rw [show xs.length + 1 - (v.tail_.length + 1) = xs.length - v.tail_.length by omega]
        exact hne
  · have ht : v.tail_.length = 32 := by omega
    have hleaf : node_ok 0 v.tail_ xs (0 + (xs.length - v.tail_.length)) 32 := by
      refine ⟨rfl, ht, fun j hj => ?_⟩
      obtain ⟨x, e1, e2⟩ := htail j (by omega)
      exact ⟨x, by rw [Nat.zero_add]; exact e1, e2⟩
    have hcap := (node_ok_len_le (h + 1) v.root_ xs 0 _ hroot).1
    obtain ⟨r1, r2⟩ := pushTail_spec h v.root_ v.tail_ xs 0 (xs.length - v.tail_.length) hroot hne
      hleaf
    have hunf : v.conj val
        = match pushTail (5 * h) v.root_ v.tail_ with
          | .error e => .error e
          | .ok (newroot, expansion) =>
            match next_cnt v.cnt_ with
            | .error e => .error e
            | .ok cnt =>
              .ok ⟨cnt, (match expansion with
                    | some e => (ArrayImpl.create2 (.array newroot) (.array e), v.shift_ + 5)
                    | none => (newroot, v.shift_)).2,
                  (match expansion with
                    | some e => (ArrayImpl.create2 (.array newroot) (.array e), v.shift_ + 5)
                    | none => (newroot, v.shift_)).1, ArrayImpl.create1 (.value val)⟩ := by
      unfold conj
      rw [if_neg hlt, if_neg (by omega), show v.shift_ - 5 = 5 * h by omega]
    have hlast : ∀ j, j < [ArrayItem.value val].length →
        ∃ x, (xs ++ [val])[(xs ++ [val]).length - [ArrayItem.value val].length + j]? = some x ∧
          [ArrayItem.value val][j]? = some (.value x) := by
      intro j hj
      simp only [List.length_singleton, Nat.lt_one_iff] at hj
      subst hj
      exact ⟨val, by simp, rfl⟩
    have hoff : (xs ++ [val]).length - [ArrayItem.value val].length
        = xs.length - v.tail_.length + 32 := by
      simp only [List.length_append, List.length_singleton]
      omega
    rcases Nat.lt_or_eq_of_le hcap with hl | he
    · obtain ⟨root1, e1, e2⟩ := r1 hl
      refine ⟨v.shift_, root1, ArrayImpl.create1 (.value val), ?_, ?_⟩
      · rw [hunf, e1]
      · refine ⟨by simp, by simp [ArrayImpl.create1], by simp [ArrayImpl.create1],
          fun _ => by simp [ArrayImpl.create1], hlast, h, hshift, ?_, Or.inr ?_⟩
        · show node_ok (h + 1) root1 (xs ++ [val]) 0
            ((xs ++ [val]).length - [ArrayItem.value val].length)
          rw [hoff]
          exact node_ok_append _ _ _ _ _ _ e2
        · show 0 < (xs ++ [val]).length - [ArrayItem.value val].length
          rw [hoff]; omega
    · obtain ⟨e, e1, e2⟩ := r2 he
      refine ⟨v.shift_ + 5, ArrayImpl.create2 (.array v.root_) (.array e),
        ArrayImpl.create1 (.value val), ?_, ?_⟩
      · rw [hunf, e1]
      · refine ⟨by simp, by simp [ArrayImpl.create1], by simp [ArrayImpl.create1],
          fun _ => by simp [ArrayImpl.create1], hlast, h + 1, by simp only []; omega, ?_, Or.inr ?_⟩
        · show node_ok (h + 1 + 1) [.array v.root_, .array e] (xs ++ [val]) 0
            ((xs ++ [val]).length - [ArrayItem.value val].length)
          rw [hoff]
          refine Or.inr ⟨1, 32, rfl, by omega, by rw [he]; ring, by decide, ?_,
            e, rfl, ?_⟩
          · intro k hk
            have hk0 : k = 0 := by omega
            subst hk0
            refine ⟨v.root_, rfl, ?_⟩
            have := node_ok_append _ _ _ [val] _ _ hroot
            rw [he] at this
            simpa using this
          · have := node_ok_append _ _ _ [val] _ _ e2
            rw [he] at this
            simpa using this
        · show 0 < (xs ++ [val]).length - [ArrayItem.value val].length
          rw [hoff]; omega

theorem conj_spec (v : VectorImpl V) (xs : List V) (val : V) (hv : vector_repr v xs)
    (hn : xs.length + 1 < 2 ^ 31) :
    ∃ v1, v.conj val = .ok v1 ∧ vector_repr v1 (xs ++ [val]) := by
  obtain ⟨shift, root, tail, e1, e2⟩ := conj_eq v xs val hv
  refine ⟨_, ?_, e2⟩
  rw [e1]
  unfold next_cnt
  rw [hv.1, if_pos hn]

theorem conj_overflow (v : VectorImpl V) (xs : List V) (val : V) (hv : vector_repr v xs)
    (hn : 2 ^ 31 ≤ xs.length + 1) : v.conj val = .error .undefined := by
  obtain ⟨shift, root, tail, e1, _⟩ := conj_eq v xs val hv
  rw [e1]
  unfold next_cnt
  rw [hv.1, if_neg (by omega)]

theorem conj_all_append (ys zs : List V) : ∀ (v : VectorImpl V),
    v.conj_all (ys ++ zs) = match v.conj_all ys with
      | .error e => .error e
      | .ok v1 => v1.conj_all zs := by
  induction ys with
  | nil => intro v; rfl
  | cons y ys ih =>
    intro v
    simp only [List.cons_append, conj_all]
    cases v.conj y with
    | error e => rfl
    | ok v1 => exact ih v1

theorem conj_all_spec (ys : List V) : ∀ (v : VectorImpl V) (xs : List V), vector_repr v xs →
    xs.length + ys.length < 2 ^ 31 →
    ∃ v1, v.conj_all ys = .ok v1 ∧ vector_repr v1 (xs ++ ys) := by
  induction ys with
  | nil =>
    intro v xs hv _
    exact ⟨v, rfl, by simpa using hv⟩
  | cons y ys ih =>
    intro v xs hv hn
    simp only [List.length_cons] at hn
    obtain ⟨v1, e1, e2⟩ := conj_spec v xs y hv (by omega)
    obtain ⟨v2, e3, e4⟩ := ih v1 (xs ++ [y]) e2 (by simp; omega)
    refine ⟨v2, ?_, by simpa using e4⟩
    simp only [conj_all, e1, e3]

/-- What `nth` returns on a vector that holds the values `xs`. -/
theorem nth_spec (v : VectorImpl V) (xs : List V) (hv : vector_repr v xs) :
    (∀ i x, xs[i]? = some x → v.nth i = .ok (.value x)) ∧
    (∀ i, xs.length ≤ i → v.nth i = .error (.runtime_error "index out of bound")) := by
  obtain ⟨hcnt, ht32, htle, htpos, htail, h, hshift, hroot, hne⟩ := hv
  constructor
  · intro i x hx
    have hi : i < xs.length := by
      by_contra hge
      rw [List.getElem?_eq_none (by omega)] at hx
      exact absurd hx (by simp)
    have hmod := (node_ok_len_le (h + 1) v.root_ xs 0 _ hroot).2
    have hcap := (node_ok_len_le (h + 1) v.root_ xs 0 _ hroot).1
    unfold nth tailoff
    rw [hcnt, if_pos hi, low_mask]
    by_cases hge : i ≥ xs.length - v.tail_.length
    · rw [if_pos hge]
      obtain ⟨y, e1, e2⟩ := htail (i - (xs.length - v.tail_.length)) (by omega)
      rw [show xs.length - v.tail_.length + (i - (xs.length - v.tail_.length)) = i by omega, hx] at e1
      rw [show i - (xs.length - v.tail_.length) = i % 32 by omega] at e2
      simp only [Option.some.injEq] at e1
      unfold ArrayImpl.get
      rw [e2, e1]
    · rw [if_neg hge]
      have hlt : i % 32 ^ (h + 1 + 1) < xs.length - v.tail_.length := by
        rw [Nat.mod_eq_of_lt (by omega)]
        omega
      obtain ⟨leaf, y, e1, e2, e3⟩ := descend_spec (h + 1) v.root_ xs 0 _ i hroot hlt
      rw [Nat.mod_eq_of_lt (by omega), Nat.zero_add, hx] at e3
      simp only [Option.some.injEq] at e3
      rw [hshift, e1]
      simp only [ArrayImpl.get, e2, e3]
  · intro i hi
    unfold nth
    rw [hcnt, if_neg (by omega)]

end VectorImpl

end park

namespace park

/-- C27, the sentence as it stands fails for large `n`: `cnt_` is an `int`,
and the conj of a value to a vector of `2^31 - 1` values computes
`cnt_ + 1` beyond the largest `int`, which is undefined. -/
theorem C27_count_overflow_counterexample :
    (VectorImpl.EMPTY : VectorImpl Nat).conj_all (List.replicate 2147483648 0)
      = .error .undefined := by
  have hrep : List.replicate 2147483648 (0 : Nat) = List.replicate 2147483647 0 ++ [0] :=
    List.replicate_succ' 2147483647 0
  obtain ⟨v1, e1, e2⟩ := VectorImpl.conj_all_spec (List.replicate 2147483647 (0 : Nat))
    VectorImpl.EMPTY [] VectorImpl.EMPTY_repr
    (by rw [List.length_replicate, List.length_nil]; norm_num)
  have e3 := VectorImpl.conj_overflow v1 _ 0 e2
    (by rw [List.nil_append, List.length_replicate]; norm_num)
  rw [hrep, VectorImpl.conj_all_append, e1]
  simp only [VectorImpl.conj_all, e3]

/-- C27, amended: for every sequence `x0, ..., x(n-1)` of fewer than `2^31`
values, conj-ing them in order to the empty vector gives a vector of size `n`
whose `nth(i)` returns `xi` for every `i < n` and raises the
index-out-of-bound error for every `i >= n`; and every vector built on the
way, after `k` of the values, is still the vector of the first `k` values
when the last one has been built: `nth(i)` on it returns `xi` for `i < k` and
raises the error for `i >= k`. -/
theorem C27_vector_conj_nth {V : Type} (xs : List V) (hn : xs.length < 2 ^ 31) :
    ∃ v, VectorImpl.EMPTY.conj_all xs = .ok v ∧ v.size = xs.length ∧
      (∀ i x, xs[i]? = some x → v.nth i = .ok (.value x)) ∧
      (∀ i, xs.length ≤ i → v.nth i = .error (.runtime_error "index out of bound")) ∧
      ∀ k, k ≤ xs.length →
        ∃ vk, VectorImpl.EMPTY.conj_all (xs.take k) = .ok vk ∧
          vk.conj_all (xs.drop k) = .ok v ∧ vk.size = k ∧
          (∀ i x, i < k → xs[i]? = some x → vk.nth i = .ok (.value x)) ∧
          (∀ i, k ≤ i → vk.nth i = .error (.runtime_error "index out of bound")) := by
  obtain ⟨v, e1, e2⟩ := VectorImpl.conj_all_spec xs VectorImpl.EMPTY [] VectorImpl.EMPTY_repr
    (by simpa using hn)
  rw [List.nil_append] at e2
  obtain ⟨n1, n2⟩ := VectorImpl.nth_spec v xs e2
  refine ⟨v, e1, e2.1, n1, n2, ?_⟩
  intro k hk
  obtain ⟨vk, f1, f2⟩ := VectorImpl.conj_all_spec (xs.take k) VectorImpl.EMPTY []
    VectorImpl.EMPTY_repr (by rw [List.length_take, List.length_nil]; omega)
  rw [List.nil_append] at f2
  obtain ⟨m1, m2⟩ := VectorImpl.nth_spec vk (xs.take k) f2
  have hrest : vk.conj_all (xs.drop k) = .ok v := by
    have := VectorImpl.conj_all_append (xs.take k) (xs.drop k) VectorImpl.EMPTY
    rw [List.take_append_drop, e1, f1] at this
    exact this.symm
  have hlen : (xs.take k).length = k := by rw [List.length_take]; omega
  refine ⟨vk, f1, hrest, by rw [VectorImpl.size, f2.1, hlen], ?_, ?_⟩
  · intro i x hi hx
    exact m1 i x (by rw [List.getElem?_take_of_lt hi]; exact hx)
  · intro i hi
    exact m2 i (by rw [hlen]; exact hi)

theorem C27_vector_conj_nth_witness :
    ∃ v, VectorImpl.EMPTY.conj_all [10, 20, 30] = .ok v ∧ v.size = 3 ∧
      v.nth 1 = .ok (.value 20) ∧ v.nth 3 = .error (.runtime_error "index out of bound") :=
  match C27_vector_conj_nth [10, 20, 30] (by decide) with
  | ⟨v, h1, h2, h3, h4, _⟩ => ⟨v, h1, h2, h3 1 20 rfl, h4 3 (by decide)⟩

end park

namespace park

namespace mapimpl

variable {K V : Type}

/-! ## What `assoc` keeps and what `find` returns -/

theorem insert_leaf_leaves_mem (d : Nat) (nodes : List (Node K V)) (idx h : Nat) (k : K) (v : V)
    (x : Nat × K × V)
    (hx : x ∈ (nodes.map (Node.leaves d)).flatten ∨ x = (h, k, v)) :
    x ∈ ((Node.insert_leaf_node_at_idx nodes idx k v h).map (Node.leaves d)).flatten := by
  rw [List.mem_flatten]
  unfold Node.insert_leaf_node_at_idx
  rcases hx with hx | hx
  · rw [List.mem_flatten] at hx
    obtain ⟨l, hl, hxl⟩ := hx
    obtain ⟨c, hc, rfl⟩ := List.mem_map.mp hl
    refine ⟨_, List.mem_map.mpr ⟨c, ?_, rfl⟩, hxl⟩
    rw [← List.take_append_drop idx nodes] at hc
    rw [List.mem_append] at hc
    rw [List.mem_append, List.mem_append]
    rcases hc with hc | hc
    · exact Or.inl (Or.inl hc)
    · exact Or.inr hc
  · refine ⟨_, List.mem_map.mpr ⟨Node.Leaf h k v, ?_, rfl⟩, ?_⟩
    · rw [List.mem_append, List.mem_append]
      exact Or.inl (Or.inr (List.mem_singleton.mpr rfl))
    · rw [Node.leaves_Leaf, List.mem_singleton]
      exact hx

theorem set_child_leaves_mem (d : Nat) (nodes : List (Node K V)) (idx : Nat) (n1 : Node K V)
    (x : Nat × K × V) (hidx : idx < nodes.length)
    (hx : x ∈ n1.leaves d ∨ ∃ (i : Nat) (c : Node K V), i ≠ idx ∧ nodes[i]? = some c ∧
      x ∈ c.leaves d) :
    x ∈ ((nodes.set idx n1).map (Node.leaves d)).flatten := by
  rw [mem_flatten_leaves]
  rcases hx with hx | ⟨i, c, hne, hi, hxc⟩
  · exact ⟨idx, n1, by rw [List.getElem?_set_self hidx], hx⟩
  · exact ⟨i, c, by rw [List.getElem?_set_ne (Ne.symm hne)]; exact hi, hxc⟩

/-- `assoc` keeps the leaves of the other hashes, holds the new leaf
afterwards, and reports a leaf as added exactly when the node held no leaf of
the hash. -/
theorem Node.assoc_leaves (map_key_equals : K → K → Except Exn Bool) :
    ∀ (fuel d : Nat) (n : Node K V) (s pre h : Nat) (k : K) (v : V),
      n.wf d s pre → s % 5 = 0 → d + s / 5 = 14 → 1 ≤ d → h < 2 ^ 64 → h % 2 ^ s = pre →
      n.assoc_fuel d ≤ fuel →
      (∀ k0 v0, (h, k0, v0) ∈ n.leaves d → map_key_equals k0 k = .ok true) →
      ∃ n1 leaf_added, n.assoc map_key_equals fuel s h k v = .ok (n1, leaf_added, false) ∧
        (h, k, v) ∈ n1.leaves d ∧
        (∀ x, x ∈ n.leaves d → x.1 ≠ h → x ∈ n1.leaves d) ∧
        (leaf_added = true ↔ ∀ k0 v0, (h, k0, v0) ∉ n.leaves d) := by
  intro fuel
  induction fuel with
  | zero =>
    intro d n s pre h k v hwf h5 hd hd1 hh hpre hfuel
    cases n with
    | Empty => simp [Node.wf] at hwf
    | Leaf lh lk lv =>
      simp only [Node.assoc_fuel] at hfuel
      omega
    | BitmapIndexed bm s0 hh0 nodes =>
      cases d with
      | zero => omega
      | succ d =>
        rw [Node.wf_BitmapIndexed] at hwf
        simp only [Node.assoc_fuel] at hfuel
        omega
    | Full s0 hh0 nodes =>
      cases d with
      | zero => omega
      | succ d =>
        rw [Node.wf_Full] at hwf
        simp only [Node.assoc_fuel] at hfuel
        omega
  | succ fuel ih =>
    intro d n s pre h k v hwf h5 hd hd1 hh hpre hfuel hall
    cases n with
    | Empty => simp [Node.wf] at hwf
    | Leaf lh lk lv =>
      rw [Node.wf_Leaf] at hwf
      by_cases e : h = lh
      · have heq := hall lk lv (by rw [Node.leaves_Leaf, e]; exact List.mem_singleton.mpr rfl)
        refine ⟨Node.Leaf h k v, false, ?_, ?_, ?_, ?_⟩
        · simp only [Node.assoc, if_pos e, heq]
        · rw [Node.leaves_Leaf]; exact List.mem_singleton.mpr rfl
        · intro x hx hne
          rw [Node.leaves_Leaf, List.mem_singleton] at hx
          rw [hx] at hne
          exact absurd e.symm hne
        · constructor
          · intro hf; exact absurd hf (by decide)
          · intro hno
            exact absurd (by rw [Node.leaves_Leaf, e]; exact List.mem_singleton.mpr rfl)
              (hno lk lv)
      · have hs64 : s < 64 :=
          shift_lt_of_ne h lh s hh hwf.1 e (by rw [hpre, hwf.2])
        have hs60 : s ≤ 60 := by omega
        cases d with
        | zero => omega
        | succ d =>
        have hbwf : (Node.BitmapIndexed (map_bitpos lh s) s lh [Node.Leaf lh lk lv]).wf (d + 1)
            s pre := by
          rw [Node.wf_BitmapIndexed]
          have hm32 := map_mask_lt lh s
          have hbm : map_bitpos lh s = 0 ||| 1 <<< map_mask lh s := by
            unfold map_bitpos; rw [Nat.zero_or]
          refine ⟨rfl, hs60, ?_, ?_, ?_, ?_⟩
          · rw [← hpre]; exact Nat.mod_lt _ (Nat.pos_pow_of_pos s (by decide))
          · unfold map_bitpos
            rw [Nat.one_shiftLeft]
            exact Nat.pow_lt_pow_right (by decide) hm32
          · rw [hbm, popcount32_or 0 _ (by simp) hm32]
            rfl
          · intro i c hi
            cases i with
            | zero =>
              simp only [List.getElem?_cons_zero, Option.some.injEq] at hi
              subst hi
              refine ⟨map_mask lh s, hm32, ?_, ?_, ?_⟩
              · unfold map_bitpos
                rw [testBit_one_shiftLeft]; simp
              · rw [hbm, below_or 0 _ _ (by simp), below_zero]
                simp
              · rw [Node.wf_Leaf]
                refine ⟨hwf.1, ?_⟩
                rw [mod_next_level, hwf.2]
            | succ i => simp at hi
        have hleaves : (Node.BitmapIndexed (map_bitpos lh s) s lh [Node.Leaf lh lk lv]).leaves
            (d + 1) = (Node.Leaf lh lk lv).leaves (d + 1) := by
          rw [Node.leaves_BitmapIndexed, Node.leaves_Leaf]
          simp [Node.leaves_Leaf]
        obtain ⟨n1, la, h1, h2, h3, h4⟩ := ih (d + 1) _ s pre h k v hbwf h5 hd hd1 hh hpre (by
          simp only [Node.assoc_fuel] at hfuel ⊢
          omega) (by rw [hleaves]; exact hall)
        rw [hleaves] at h3 h4
        refine ⟨n1, la, ?_, h2, h3, h4⟩
        simp only [Node.assoc, if_neg e, hs64, not_true_eq_false, if_false]
        exact h1
    | BitmapIndexed bm s0 hh0 nodes =>
      cases d with
      | zero => simp [Node.wf] at hwf
      | succ d =>
      rw [Node.wf_BitmapIndexed] at hwf
      obtain ⟨hs0, hs60, hprelt, hbm32, hlen, hch⟩ := hwf
      subst hs0
      have hs64 : s0 < 64 := by omega
      have hm32 := map_mask_lt h s0
      have hidx : map_index bm (map_bitpos h s0) = below bm (map_mask h s0) :=
        map_index_eq_below bm _ hm32
      have hd2 : 1 ≤ d := by omega
      by_cases hbit : bm.testBit (map_mask h s0) = true
      · have hcond : bm &&& map_bitpos h s0 ≠ 0 := (and_bit_ne_zero bm _).mpr hbit
        have hlt : below bm (map_mask h s0) < nodes.length := by
          rw [hlen]; exact below_lt_popcount32 bm _ hm32 hbit
        obtain ⟨b2, hb2, hbit2, hbel2, hcwf⟩ :=
          hch _ _ (List.getElem?_eq_getElem hlt)
        have eb : b2 = map_mask h s0 := below_inj bm _ _ hbit2 hbit hbel2
        subst eb
        have hchild : ∀ k0 v0, (h, k0, v0) ∈ (Node.BitmapIndexed bm s0 hh0 nodes).leaves (d + 1) ↔
            (h, k0, v0) ∈ (nodes.get ⟨_, hlt⟩).leaves d := by
          intro k0 v0
          constructor
          · intro hm
            rw [Node.leaves_BitmapIndexed, mem_flatten_leaves] at hm
            obtain ⟨i, c, hi, hxc⟩ := hm
            have := (Node.leaf_child_BitmapIndexed d bm s0 pre nodes hprelt hch i c hi _ hxc).2
            simp only at this
            subst this
            rw [List.getElem?_eq_getElem hlt] at hi
            simp only [Option.some.injEq] at hi
            rw [← hi] at hxc
            exact hxc
          · intro hm
            rw [Node.leaves_BitmapIndexed, mem_flatten_leaves]
            exact ⟨_, _, List.getElem?_eq_getElem hlt, hm⟩
        obtain ⟨n1, la, h1, h2, h3, h4⟩ := ih d (nodes.get ⟨_, hlt⟩) (s0 + 5)
          (pre + map_mask h s0 * 2 ^ s0) h k v hcwf (by omega) (by omega) hd2 hh
          (by rw [mod_next_level, hpre]) (by
            have : Node.assoc_fuel (nodes.get ⟨_, hlt⟩) d ≤ 2 * d - 1 := by
              unfold Node.assoc_fuel
              split <;> omega
            simp only [Node.assoc_fuel] at hfuel
            omega)
          (fun k0 v0 hm => hall k0 v0 ((hchild k0 v0).mpr hm))
        refine ⟨Node.BitmapIndexed bm s0 (Node.first_hash nodes)
          (nodes.set (below bm (map_mask h s0)) n1), la, ?_, ?_, ?_, ?_⟩
        · simp only [Node.assoc, hs64, not_true_eq_false, if_false, hcond, ne_eq,
            if_true, hidx, List.getElem?_eq_getElem hlt]
          simp only [List.get_eq_getElem] at h1
          rw [h1]
          simp
        · rw [Node.leaves_BitmapIndexed]
          exact set_child_leaves_mem d nodes _ n1 _ hlt (Or.inl h2)
        · intro x hx hne
          rw [Node.leaves_BitmapIndexed, mem_flatten_leaves] at hx
          obtain ⟨i, c, hi, hxc⟩ := hx
          rw [Node.leaves_BitmapIndexed]
          by_cases ei : i = below bm (map_mask h s0)
          · subst ei
            rw [List.getElem?_eq_getElem hlt] at hi
            simp only [Option.some.injEq] at hi
            rw [← hi] at hxc
            exact set_child_leaves_mem d nodes _ n1 _ hlt (Or.inl (h3 x hxc hne))
          · exact set_child_leaves_mem d nodes _ n1 _ hlt (Or.inr ⟨i, c, ei, hi, hxc⟩)
        · rw [h4]
          constructor
          · intro hno k0 v0 hm
            exact hno k0 v0 ((hchild k0 v0).mp hm)
          · intro hno k0 v0 hm
            exact hno k0 v0 ((hchild k0 v0).mpr hm)
      · have hbitf : bm.testBit (map_mask h s0) = false := by simpa using hbit
        have hcond : ¬ bm &&& map_bitpos h s0 ≠ 0 := fun hc => hbit ((and_bit_ne_zero bm _).mp hc)
        have hnone : ∀ k0 v0, (h, k0, v0) ∉ (Node.BitmapIndexed bm s0 hh0 nodes).leaves (d + 1) := by
          intro k0 v0 hm
          rw [Node.leaves_BitmapIndexed, mem_flatten_leaves] at hm
          obtain ⟨i, c, hi, hxc⟩ := hm
          have := (Node.leaf_child_BitmapIndexed d bm s0 pre nodes hprelt hch i c hi _ hxc).1
          exact absurd this hbit
        have hpc := popcount32_or bm (map_mask h s0) hbitf hm32
        have hbp : map_bitpos h s0 = 1 <<< map_mask h s0 := rfl
        by_cases hfullbm : bm ||| map_bitpos h s0 = 0xffffffff
        · have hl31 : nodes.length = 31 := by
            rw [← hbp, hfullbm, popcount32_full] at hpc
            omega
          refine ⟨Node.Full s0 (Node.first_hash nodes)
            (Node.insert_leaf_node_at_idx nodes (below bm (map_mask h s0)) k v h), true,
            ?_, ?_, ?_, ?_⟩
          · simp only [Node.assoc, hs64, not_true_eq_false, if_false, hcond, hidx, hfullbm,
              if_true, hl31, ne_eq]
          · rw [Node.leaves_Full]
            exact insert_leaf_leaves_mem d nodes _ h k v _ (Or.inr rfl)
          · intro x hx _
            rw [Node.leaves_BitmapIndexed] at hx
            rw [Node.leaves_Full]
            exact insert_leaf_leaves_mem d nodes _ h k v _ (Or.inl hx)
          · exact ⟨fun _ => hnone, fun _ => rfl⟩
        · refine ⟨Node.BitmapIndexed (bm ||| map_bitpos h s0) s0 (Node.first_hash nodes)
            (Node.insert_leaf_node_at_idx nodes (below bm (map_mask h s0)) k v h), true,
            ?_, ?_, ?_, ?_⟩
          · simp only [Node.assoc, hs64, not_true_eq_false, if_false, hcond, hidx, hfullbm]
          · rw [Node.leaves_BitmapIndexed]
            exact insert_leaf_leaves_mem d nodes _ h k v _ (Or.inr rfl)
          · intro x hx _
            rw [Node.leaves_BitmapIndexed] at hx
            rw [Node.leaves_BitmapIndexed]
            exact insert_leaf_leaves_mem d nodes _ h k v _ (Or.inl hx)
          · exact ⟨fun _ => hnone, fun _ => rfl⟩
    | Full s0 hh0 nodes =>
      cases d with
      | zero => simp [Node.wf] at hwf
      | succ d =>
      rw [Node.wf_Full] at hwf
      obtain ⟨hs0, hs60, hprelt, hlen, hch⟩ := hwf
      subst hs0
      have hs64 : s0 < 64 := by omega
      have hm32 := map_mask_lt h s0
      have hd2 : 1 ≤ d := by omega
      have hlt : map_mask h s0 < nodes.length := by rw [hlen]; exact hm32
      have hcwf := hch _ _ (List.getElem?_eq_getElem hlt)
      have hchild : ∀ k0 v0, (h, k0, v0) ∈ (Node.Full s0 hh0 nodes).leaves (d + 1) ↔
          (h, k0, v0) ∈ (nodes.get ⟨_, hlt⟩).leaves d := by
        intro k0 v0
        constructor
        · intro hm
          rw [Node.leaves_Full, mem_flatten_leaves] at hm
          obtain ⟨i, c, hi, hxc⟩ := hm
          have := Node.leaf_child_Full d s0 pre nodes hprelt hch i c hi _ hxc
          simp only at this
          subst this
          rw [List.getElem?_eq_getElem hlt] at hi
          simp only [Option.some.injEq] at hi
          rw [← hi] at hxc
          exact hxc
        · intro hm
          rw [Node.leaves_Full, mem_flatten_leaves]
          exact ⟨_, _, List.getElem?_eq_getElem hlt, hm⟩
      obtain ⟨n1, la, h1, h2, h3, h4⟩ := ih d (nodes.get ⟨_, hlt⟩) (s0 + 5)
        (pre + map_mask h s0 * 2 ^ s0) h k v hcwf (by omega) (by omega) hd2 hh
        (by rw [mod_next_level, hpre]) (by
          have : Node.assoc_fuel (nodes.get ⟨_, hlt⟩) d ≤ 2 * d - 1 := by
            unfold Node.assoc_fuel
            split <;> omega
          simp only [Node.assoc_fuel] at hfuel
          omega)
        (fun k0 v0 hm => hall k0 v0 ((hchild k0 v0).mpr hm))
      refine ⟨Node.Full s0 (Node.first_hash nodes) (nodes.set (map_mask h s0) n1), la,
        ?_, ?_, ?_, ?_⟩
      · simp only [Node.assoc, hs64, not_true_eq_false, if_false, List.getElem?_eq_getElem hlt]
        simp only [List.get_eq_getElem] at h1
        rw [h1]
        simp
      · rw [Node.leaves_Full]
        exact set_child_leaves_mem d nodes _ n1 _ hlt (Or.inl h2)
      · intro x hx hne
        rw [Node.leaves_Full, mem_flatten_leaves] at hx
        obtain ⟨i, c, hi, hxc⟩ := hx
        rw [Node.leaves_Full]
        by_cases ei : i = map_mask h s0
        · subst ei
          rw [List.getElem?_eq_getElem hlt] at hi
          simp only [Option.some.injEq] at hi
          rw [← hi] at hxc
          exact set_child_leaves_mem d nodes _ n1 _ hlt (Or.inl (h3 x hxc hne))
        · exact set_child_leaves_mem d nodes _ n1 _ hlt (Or.inr ⟨i, c, ei, hi, hxc⟩)
      · rw [h4]
        constructor
        · intro hno k0 v0 hm
          exact hno k0 v0 ((hchild k0 v0).mp hm)
        · intro hno k0 v0 hm
          exact hno k0 v0 ((hchild k0 v0).mpr hm)

end mapimpl

end park

namespace park

namespace mapimpl

variable {K V : Type}

/-- What `find` returns on a node of the shape `wf`, for a hash with the low
bits of the node: the leaf of this hash when its key is equal to the key
looked for, and nothing when the key differs or the node holds no leaf of the
hash. -/
theorem Node.find_spec (map_key_equals : K → K → Except Exn Bool) :
    ∀ (fuel d : Nat) (n : Node K V) (s pre h : Nat) (key : K),
      n.wf d s pre → h < 2 ^ 64 → h % 2 ^ s = pre → d < fuel →
      (∀ k0 v0, (h, k0, v0) ∈ n.leaves d →
        n.find map_key_equals fuel h key
          = match map_key_equals k0 key with
            | .error e => .error e
            | .ok true => .ok (some (Node.Leaf h k0 v0))
            | .ok false => .ok none) ∧
      ((∀ k0 v0, (h, k0, v0) ∉ n.leaves d) → n.find map_key_equals fuel h key = .ok none) := by
  intro fuel
  induction fuel with
  | zero => intro d n s pre h key _ _ _ hf; omega
  | succ fuel ih =>
    intro d n s pre h key hwf hh hpre hfuel
    cases n with
    | Empty => simp [Node.wf] at hwf
    | Leaf lh lk lv =>
      constructor
      · intro k0 v0 hm
        rw [Node.leaves_Leaf, List.mem_singleton] at hm
        simp only [Prod.mk.injEq] at hm
        obtain ⟨e1, e2, e3⟩ := hm
        subst e1 e2 e3
        simp only [Node.find, if_true]
      · intro hno
        have hne : h ≠ lh := by
          intro e
          exact hno lk lv (by rw [Node.leaves_Leaf, e]; exact List.mem_singleton.mpr rfl)
        simp only [Node.find, if_neg hne]
    | BitmapIndexed bm s0 hh0 nodes =>
      cases d with
      | zero => simp [Node.wf] at hwf
      | succ d =>
      rw [Node.wf_BitmapIndexed] at hwf
      obtain ⟨hs0, hs60, hprelt, hbm32, hlen, hch⟩ := hwf
      subst hs0
      have hs64 : s0 < 64 := by omega
      have hm32 := map_mask_lt h s0
      have hidx : map_index bm (map_bitpos h s0) = below bm (map_mask h s0) :=
        map_index_eq_below bm _ hm32
      by_cases hbit : bm.testBit (map_mask h s0) = true
      · have hcond : bm &&& map_bitpos h s0 ≠ 0 := (and_bit_ne_zero bm _).mpr hbit
        have hlt : below bm (map_mask h s0) < nodes.length := by
          rw [hlen]; exact below_lt_popcount32 bm _ hm32 hbit
        obtain ⟨b2, hb2, hbit2, hbel2, hcwf⟩ :=
          hch _ _ (List.getElem?_eq_getElem hlt)
        have eb : b2 = map_mask h s0 := below_inj bm _ _ hbit2 hbit hbel2
        subst eb
        have hchild : ∀ k0 v0, (h, k0, v0) ∈ (Node.BitmapIndexed bm s0 hh0 nodes).leaves (d + 1) ↔
            (h, k0, v0) ∈ (nodes.get ⟨_, hlt⟩).leaves d := by
          intro k0 v0
          constructor
          · intro hm
            rw [Node.leaves_BitmapIndexed, mem_flatten_leaves] at hm
            obtain ⟨i, c, hi, hxc⟩ := hm
            have := (Node.leaf_child_BitmapIndexed d bm s0 pre nodes hprelt hch i c hi _ hxc).2
            simp only at this
            subst this
            rw [List.getElem?_eq_getElem hlt] at hi
            simp only [Option.some.injEq] at hi
            rw [← hi] at hxc
            exact hxc
          · intro hm
            rw [Node.leaves_BitmapIndexed, mem_flatten_leaves]
            exact ⟨_, _, List.getElem?_eq_getElem hlt, hm⟩
        obtain ⟨i1, i2⟩ := ih d (nodes.get ⟨_, hlt⟩) (s0 + 5) (pre + map_mask h s0 * 2 ^ s0) h key
          hcwf hh (by rw [mod_next_level, hpre]) (by omega)
        have hunf : (Node.BitmapIndexed bm s0 hh0 nodes).find map_key_equals (fuel + 1) h key
            = (nodes.get ⟨_, hlt⟩).find map_key_equals fuel h key := by
          simp only [Node.find, hs64, not_true_eq_false, if_false, hcond, ne_eq, if_true, hidx,
            List.getElem?_eq_getElem hlt, not_false_eq_true, List.get_eq_getElem]
        rw [hunf]
        exact ⟨fun k0 v0 hm => i1 k0 v0 ((hchild k0 v0).mp hm),
          fun hno => i2 (fun k0 v0 hm => hno k0 v0 ((hchild k0 v0).mpr hm))⟩
      · have hcond : ¬ bm &&& map_bitpos h s0 ≠ 0 := fun hc => hbit ((and_bit_ne_zero bm _).mp hc)
        have hnone : ∀ k0 v0, (h, k0, v0) ∉ (Node.BitmapIndexed bm s0 hh0 nodes).leaves (d + 1) := by
          intro k0 v0 hm
          rw [Node.leaves_BitmapIndexed, mem_flatten_leaves] at hm
          obtain ⟨i, c, hi, hxc⟩ := hm
          have := (Node.leaf_child_BitmapIndexed d bm s0 pre nodes hprelt hch i c hi _ hxc).1
          exact absurd this hbit
        have hunf : (Node.BitmapIndexed bm s0 hh0 nodes).find map_key_equals (fuel + 1) h key
            = .ok none := by
          simp only [Node.find, hs64, not_true_eq_false, if_false, hcond]
        rw [hunf]
        exact ⟨fun k0 v0 hm => absurd hm (hnone k0 v0), fun _ => rfl⟩
    | Full s0 hh0 nodes =>
      cases d with
      | zero => simp [Node.wf] at hwf
      | succ d =>
      rw [Node.wf_Full] at hwf
      obtain ⟨hs0, hs60, hprelt, hlen, hch⟩ := hwf
      subst hs0
      have hs64 : s0 < 64 := by omega
      have hm32 := map_mask_lt h s0
      have hlt : map_mask h s0 < nodes.length := by rw [hlen]; exact hm32
      have hcwf := hch _ _ (List.getElem?_eq_getElem hlt)
      have hchild : ∀ k0 v0, (h, k0, v0) ∈ (Node.Full s0 hh0 nodes).leaves (d + 1) ↔
          (h, k0, v0) ∈ (nodes.get ⟨_, hlt⟩).leaves d := by
        intro k0 v0
        constructor
        · intro hm
          rw [Node.leaves_Full, mem_flatten_leaves] at hm
          obtain ⟨i, c, hi, hxc⟩ := hm
          have := Node.leaf_child_Full d s0 pre nodes hprelt hch i c hi _ hxc
          simp only at this
          subst this
          rw [List.getElem?_eq_getElem hlt] at hi
          simp only [Option.some.injEq] at hi
          rw [← hi] at hxc
          exact hxc
        · intro hm
          rw [Node.leaves_Full, mem_flatten_leaves]
          exact ⟨_, _, List.getElem?_eq_getElem hlt, hm⟩
      obtain ⟨i1, i2⟩ := ih d (nodes.get ⟨_, hlt⟩) (s0 + 5) (pre + map_mask h s0 * 2 ^ s0) h key
        hcwf hh (by rw [mod_next_level, hpre]) (by omega)
      have hunf : (Node.Full s0 hh0 nodes).find map_key_equals (fuel + 1) h key
          = (nodes.get ⟨_, hlt⟩).find map_key_equals fuel h key := by
        simp only [Node.find, hs64, not_true_eq_false, if_false, List.getElem?_eq_getElem hlt,
          List.get_eq_getElem]
      rw [hunf]
      exact ⟨fun k0 v0 hm => i1 k0 v0 ((hchild k0 v0).mp hm),
        fun hno => i2 (fun k0 v0 hm => hno k0 v0 ((hchild k0 v0).mpr hm))⟩

end mapimpl

end park

namespace park

variable {K V : Type}

/-! ## `assoc` and `get` on a map -/

/-- `MapImpl::assoc` of a key whose hash is held by no other key of the map:
the map returned, its count and its leaves. -/
theorem MapImpl.assoc_root_leaves (map_key_hash : K → Except Exn Nat)
    (map_key_equals : K → K → Except Exn Bool) (m : MapImpl K V) (fuel : Nat) (k : K) (v : V)
    (h : Nat) (hwf : m.wf map_key_hash) (hfuel : 28 ≤ fuel) (hk : map_key_hash k = .ok h)
    (hh : h < 2 ^ 64)
    (hall : ∀ k0 v0, (h, k0, v0) ∈ m.root_.leaves 14 → map_key_equals k0 k = .ok true) :
    ∃ m1 leaf_added, m.assoc map_key_hash map_key_equals fuel k v = .ok m1 ∧
      m1.wf map_key_hash ∧
      m1.count_ = (if leaf_added = true then (m.count_ + 1) % 2 ^ 64 else m.count_) ∧
      (h, k, v) ∈ m1.root_.leaves 14 ∧
      (∀ x, x ∈ m.root_.leaves 14 → x.1 ≠ h → x ∈ m1.root_.leaves 14) ∧
      (∀ x, x ∈ m1.root_.leaves 14 → x ∈ m.root_.leaves 14 ∨ x = (h, k, v)) ∧
      (leaf_added = true ↔ ∀ k0 v0, (h, k0, v0) ∉ m.root_.leaves 14) := by
  have hmod : h % 2 ^ 0 = 0 := by simp [Nat.mod_one]
  rcases hwf.1 with e | e
  · cases fuel with
    | zero => omega
    | succ fuel =>
      refine ⟨⟨(m.count_ + 1) % 2 ^ 64, .Leaf h k v⟩, true, ?_, ⟨Or.inr ?_, ?_⟩, by simp, ?_, ?_,
        ?_, ?_⟩
      · unfold MapImpl.assoc
        simp [hk, e, mapimpl.Node.assoc]
      · rw [mapimpl.Node.wf_Leaf]
        exact ⟨hh, hmod⟩
      · intro x hx
        rw [mapimpl.Node.leaves_Leaf, List.mem_singleton] at hx
        rw [hx]
        exact hk
      · rw [mapimpl.Node.leaves_Leaf]; exact List.mem_singleton.mpr rfl
      · intro x hx
        rw [e] at hx
        simp [mapimpl.Node.leaves] at hx
      · intro x hx
        rw [mapimpl.Node.leaves_Leaf, List.mem_singleton] at hx
        exact Or.inr hx
      · refine ⟨fun _ k0 v0 hm => ?_, fun _ => rfl⟩
        rw [e] at hm
        simp [mapimpl.Node.leaves] at hm
  · have hf : m.root_.assoc_fuel 14 ≤ fuel := by
      have : m.root_.assoc_fuel 14 ≤ 27 := by
        unfold mapimpl.Node.assoc_fuel
        split <;> omega
      omega
    obtain ⟨n1, la, h1, h2, h3⟩ :=
      (mapimpl.Node.assoc_spec map_key_equals fuel 14 m.root_ 0 0 h k v e (by decide)
        (by decide) (by decide) hh hmod hf).2 hall
    obtain ⟨n2, la2, g1, g2, g3, g4⟩ :=
      mapimpl.Node.assoc_leaves map_key_equals fuel 14 m.root_ 0 0 h k v e (by decide)
        (by decide) (by decide) hh hmod hf hall
    rw [h1] at g1
    simp only [Except.ok.injEq, Prod.mk.injEq, and_true] at g1
    obtain ⟨en, ela⟩ := g1
    subst en ela
    refine ⟨⟨if la = true then (m.count_ + 1) % 2 ^ 64 else m.count_, n1⟩, la, ?_,
      ⟨Or.inr h2, ?_⟩, rfl, g2, g3, h3, g4⟩
    · unfold MapImpl.assoc
      simp only [hk, h1]
      simp
    · intro x hx
      rcases h3 x hx with e1 | e1
      · exact hwf.2 x e1
      · rw [e1]; exact hk

/-- `MapImpl::get` on a map of the shape `wf`. -/
theorem MapImpl.get_spec (map_key_hash : K → Except Exn Nat)
    (map_key_equals : K → K → Except Exn Bool) (m : MapImpl K V) (fuel : Nat) (key : K)
    (h : Nat) (hwf : m.wf map_key_hash) (hfuel : 15 ≤ fuel) (hk : map_key_hash key = .ok h)
    (hh : h < 2 ^ 64) :
    (∀ k0 v0, (h, k0, v0) ∈ m.root_.leaves 14 →
      m.get map_key_hash map_key_equals fuel key
        = match map_key_equals k0 key with
          | .error e => .error e
          | .ok true => .ok (some v0)
          | .ok false => .ok none) ∧
    ((∀ k0 v0, (h, k0, v0) ∉ m.root_.leaves 14) →
      m.get map_key_hash map_key_equals fuel key = .ok none) := by
  have hmod : h % 2 ^ 0 = 0 := by simp [Nat.mod_one]
  rcases hwf.1 with e | e
  · cases fuel with
    | zero => omega
    | succ fuel =>
      constructor
      · intro k0 v0 hm
        rw [e] at hm
        simp [mapimpl.Node.leaves] at hm
      · intro _
        unfold MapImpl.get
        simp [hk, e, mapimpl.Node.find]
  · obtain ⟨f1, f2⟩ := mapimpl.Node.find_spec map_key_equals fuel 14 m.root_ 0 0 h key e hh hmod
      (by omega)
    constructor
    · intro k0 v0 hm
      unfold MapImpl.get
      rw [hk]
      simp only []
      rw [f1 k0 v0 hm]
      cases map_key_equals k0 key with
      | error e => rfl
      | ok b => cases b <;> rfl
    · intro hno
      unfold MapImpl.get
      rw [hk]
      simp only []
      rw [f2 hno]

/-- C28: for a map `m` of the shape that `assoc` keeps from the empty map on,
where every key has a hash of 64 bits, distinct keys have distinct hashes and
`map_key_equals` answers whether the hashes are equal: `assoc(m, k, v)`
returns a map `m1` of this shape; `get(m1, k)` returns `v`; `get(m1, k')` is
`get(m, k')` for every other key `k'`; and `get` on `m`, a value that `assoc`
only reads, returns a result for every key. -/
theorem C28_get_after_assoc (map_key_hash : K → Except Exn Nat)
    (map_key_equals : K → K → Except Exn Bool) (m : MapImpl K V) (fuel : Nat) (k : K) (v : V)
    (hwf : m.wf map_key_hash) (hfuel : 28 ≤ fuel)
    (hhash : ∀ a, ∃ h, map_key_hash a = .ok h ∧ h < 2 ^ 64)
    (hinj : ∀ a b, map_key_hash a = map_key_hash b → a = b)
    (heq : ∀ a b ha hb, map_key_hash a = .ok ha → map_key_hash b = .ok hb →
      map_key_equals a b = .ok (decide (ha = hb))) :
    ∃ m1, m.assoc map_key_hash map_key_equals fuel k v = .ok m1 ∧ m1.wf map_key_hash ∧
      m1.get map_key_hash map_key_equals fuel k = .ok (some v) ∧
      (∀ k1, k1 ≠ k → m1.get map_key_hash map_key_equals fuel k1
        = m.get map_key_hash map_key_equals fuel k1) ∧
      (∀ k1, ∃ r, m.get map_key_hash map_key_equals fuel k1 = .ok r) := by
  obtain ⟨h, hk, hh⟩ := hhash k
  have heqs : ∀ (mm : MapImpl K V) (hx : Nat) (key k0 : K) (v0 : V), mm.wf map_key_hash →
      map_key_hash key = .ok hx → (hx, k0, v0) ∈ mm.root_.leaves 14 →
      map_key_equals k0 key = .ok true := by
    intro mm hx key k0 v0 hmw hkey hm
    have := hmw.2 _ hm
    rw [heq k0 key hx hx this hkey]
    simp
  obtain ⟨m1, la, e1, hwf1, _, hin, hkeep, hsub, _⟩ :=
    MapImpl.assoc_root_leaves map_key_hash map_key_equals m fuel k v h hwf hfuel hk hh
      (fun k0 v0 hm => heqs m h k k0 v0 hwf hk hm)
  have hget : ∀ (mm : MapImpl K V) (key : K), mm.wf map_key_hash →
      ∀ hx, map_key_hash key = .ok hx → hx < 2 ^ 64 →
      (∀ k0 v0, (hx, k0, v0) ∈ mm.root_.leaves 14 →
        mm.get map_key_hash map_key_equals fuel key = .ok (some v0)) ∧
      ((∀ k0 v0, (hx, k0, v0) ∉ mm.root_.leaves 14) →
        mm.get map_key_hash map_key_equals fuel key = .ok none) := by
    intro mm key hmw hx hkey hxlt
    obtain ⟨g1, g2⟩ := MapImpl.get_spec map_key_hash map_key_equals mm fuel key hx hmw
      (by omega) hkey hxlt
    refine ⟨fun k0 v0 hm => ?_, g2⟩
    rw [g1 k0 v0 hm, heqs mm hx key k0 v0 hmw hkey hm]
  refine ⟨m1, e1, hwf1, (hget m1 k hwf1 h hk hh).1 k v hin, ?_, ?_⟩
  · intro k1 hne
    obtain ⟨h1, hk1, hh1⟩ := hhash k1
    have hhne : h1 ≠ h := by
      intro e
      exact hne (hinj k1 k (by rw [hk1, hk, e]))
    by_cases hex : ∃ k0 v0, (h1, k0, v0) ∈ m.root_.leaves 14
    · obtain ⟨k0, v0, hm⟩ := hex
      rw [(hget m k1 hwf h1 hk1 hh1).1 k0 v0 hm,
        (hget m1 k1 hwf1 h1 hk1 hh1).1 k0 v0 (hkeep _ hm hhne)]
    · have hno : ∀ k0 v0, (h1, k0, v0) ∉ m.root_.leaves 14 :=
        fun k0 v0 hm => hex ⟨k0, v0, hm⟩
      have hno1 : ∀ k0 v0, (h1, k0, v0) ∉ m1.root_.leaves 14 := by
        intro k0 v0 hm
        rcases hsub _ hm with e | e
        · exact hno k0 v0 e
        · simp only [Prod.mk.injEq] at e
          exact hhne e.1
      rw [(hget m k1 hwf h1 hk1 hh1).2 hno, (hget m1 k1 hwf1 h1 hk1 hh1).2 hno1]
  · intro k1
    obtain ⟨h1, hk1, hh1⟩ := hhash k1
    by_cases hex : ∃ k0 v0, (h1, k0, v0) ∈ m.root_.leaves 14
    · obtain ⟨k0, v0, hm⟩ := hex
      exact ⟨_, (hget m k1 hwf h1 hk1 hh1).1 k0 v0 hm⟩
    · exact ⟨_, (hget m k1 hwf h1 hk1 hh1).2 (fun k0 v0 hm => hex ⟨k0, v0, hm⟩)⟩

end park

namespace park

theorem example_small_map_wf : example_small_map.wf example_small_hash := by
  refine ⟨Or.inr ?_, ?_⟩
  · show (mapimpl.Node.Leaf 1 (1 : Fin 4) 10).wf 14 0 0
    rw [mapimpl.Node.wf_Leaf]
    exact ⟨by norm_num, by simp⟩
  · intro x hx
    have : x = (1, (1 : Fin 4), 10) := by
      simpa [example_small_map, mapimpl.Node.leaves_Leaf] using hx
    rw [this]
    rfl

theorem example_small_hash_total (a : Fin 4) :
    ∃ h, example_small_hash a = .ok h ∧ h < 2 ^ 64 :=
  ⟨a.val, rfl, lt_of_lt_of_le a.isLt (by norm_num)⟩

theorem example_small_hash_injective (a b : Fin 4)
    (h : example_small_hash a = example_small_hash b) : a = b := by
  unfold example_small_hash at h
  simp only [Except.ok.injEq] at h
  exact Fin.ext h

theorem example_small_equals_hash (a b : Fin 4) (ha hb : Nat)
    (h1 : example_small_hash a = .ok ha) (h2 : example_small_hash b = .ok hb) :
    example_small_equals a b = .ok (decide (ha = hb)) := by
  unfold example_small_hash at h1 h2
  simp only [Except.ok.injEq] at h1 h2
  subst h1 h2
  rfl

theorem C28_get_after_assoc_witness :
    ∃ m1, example_small_map.assoc example_small_hash example_small_equals 28 2 20 = .ok m1 ∧
      m1.get example_small_hash example_small_equals 28 2 = .ok (some 20) ∧
      m1.get example_small_hash example_small_equals 28 1
        = example_small_map.get example_small_hash example_small_equals 28 1 :=
  match C28_get_after_assoc example_small_hash example_small_equals example_small_map 28 2 20
    example_small_map_wf (by decide) example_small_hash_total example_small_hash_injective
    example_small_equals_hash with
  | ⟨m1, h1, _, h2, h3, _⟩ => ⟨m1, h1, h2, h3 1 (by decide)⟩

end park

namespace park

namespace mapimpl

variable {K V : Type}

/-! ## Every hash once -/

theorem nodup_children (d : Nat) (nodes : List (Node K V))
    (hnd : ∀ (i : Nat) (c : Node K V), nodes[i]? = some c →
      ((c.leaves d).map Prod.fst).Nodup)
    (hsep : ∀ (i j : Nat) (c1 c2 : Node K V) (x y : Nat × K × V), nodes[i]? = some c1 →
      nodes[j]? = some c2 → x ∈ c1.leaves d → y ∈ c2.leaves d → x.1 = y.1 → i = j) :
    (((nodes.map (Node.leaves d)).flatten).map Prod.fst).Nodup := by
  rw [List.map_flatten, List.map_map, List.nodup_flatten]
  constructor
  · intro l hl
    obtain ⟨c, hc, rfl⟩ := List.mem_map.mp hl
    obtain ⟨i, hi⟩ := List.getElem?_of_mem hc
    exact hnd i c hi
  · rw [List.pairwise_map, List.pairwise_iff_getElem]
    intro i j hi hj hij
    rw [Function.comp, Function.comp, List.disjoint_left]
    intro a ha hb
    obtain ⟨x, hx, e1⟩ := List.mem_map.mp ha
    obtain ⟨y, hy, e2⟩ := List.mem_map.mp hb
    have := hsep i j _ _ x y (List.getElem?_eq_getElem hi) (List.getElem?_eq_getElem hj) hx hy
      (by rw [e1, e2])
    omega

/-- The leaves of a node of the shape `wf` have different hashes. -/
theorem Node.leaves_hashes_nodup : ∀ (d : Nat) (n : Node K V) (s pre : Nat), n.wf d s pre →
    ((n.leaves d).map Prod.fst).Nodup := by
  intro d
  induction d with
  | zero =>
    intro n s pre hwf
    cases n with
    | Empty => simp [Node.wf] at hwf
    | Leaf h k v => rw [Node.leaves_Leaf]; simp
    | BitmapIndexed bm s0 hh nodes => simp [Node.wf] at hwf
    | Full s0 hh nodes => simp [Node.wf] at hwf
  | succ d ih =>
    intro n s pre hwf
    cases n with
    | Empty => simp [Node.wf] at hwf
    | Leaf h k v => rw [Node.leaves_Leaf]; simp
    | BitmapIndexed bm s0 hh nodes =>
      rw [Node.wf_BitmapIndexed] at hwf
      obtain ⟨hs0, _, hprelt, _, _, hch⟩ := hwf
      subst hs0
      rw [Node.leaves_BitmapIndexed]
      refine nodup_children d nodes ?_ ?_
      · intro i c hi
        obtain ⟨b, _, _, _, hc⟩ := hch i c hi
        exact ih c _ _ hc
      · intro i j c1 c2 x y hi hj hx hy e
        have g1 := (Node.leaf_child_BitmapIndexed d bm s0 pre nodes hprelt hch i c1 hi x hx).2
        have g2 := (Node.leaf_child_BitmapIndexed d bm s0 pre nodes hprelt hch j c2 hj y hy).2
        rw [e] at g1
        omega
    | Full s0 hh nodes =>
      rw [Node.wf_Full] at hwf
      obtain ⟨hs0, _, hprelt, _, hch⟩ := hwf
      subst hs0
      rw [Node.leaves_Full]
      refine nodup_children d nodes ?_ ?_
      · intro i c hi
        exact ih c _ _ (hch i c hi)
      · intro i j c1 c2 x y hi hj hx hy e
        have g1 := Node.leaf_child_Full d s0 pre nodes hprelt hch i c1 hi x hx
        have g2 := Node.leaf_child_Full d s0 pre nodes hprelt hch j c2 hj y hy
        rw [e] at g1
        omega

end mapimpl

end park

namespace park

namespace MapImpl

variable {K V : Type}

/-! ## The size of a map and what `iterate` visits -/

theorem latest_nil (k : K) (v : V) : ¬ latest ([] : List (K × V)) k v := by
  rintro ⟨pre, post, h, _⟩
  cases pre <;> simp at h

theorem latest_snoc (kvs : List (K × V)) (k k1 : K) (v v1 : V) :
    latest (kvs ++ [(k, v)]) k1 v1 ↔ (k1 = k ∧ v1 = v) ∨ (k1 ≠ k ∧ latest kvs k1 v1) := by
  constructor
  · rintro ⟨pre, post, h, hpost⟩
    rcases List.eq_nil_or_concat post with e | ⟨L, b, e⟩
    · subst e
      have h2 : kvs ++ [(k, v)] = pre ++ [(k1, v1)] := h
      have := List.append_inj' h2 rfl
      simp only [List.cons.injEq, Prod.mk.injEq, and_true] at this
      exact Or.inl ⟨this.2.1.symm, this.2.2.symm⟩
    · rw [List.concat_eq_append] at e
      subst e
      have h2 : kvs ++ [(k, v)] = (pre ++ (k1, v1) :: L) ++ [b] := by
        rw [h]; simp
      have := List.append_inj' h2 rfl
      simp only [List.cons.injEq, and_true] at this
      obtain ⟨e1, e2⟩ := this
      have hb : b ∈ L ++ [b] := by simp
      have hne := hpost b hb
      rw [← e2] at hne
      refine Or.inr ⟨fun e => hne e.symm, pre, L, e1, fun p hp => hpost p ?_⟩
      simp [hp]
  · rintro (⟨e1, e2⟩ | ⟨hne, pre, post, h, hpost⟩)
    · subst e1 e2
      exact ⟨kvs, [], rfl, fun p hp => by simp at hp⟩
    · refine ⟨pre, post ++ [(k, v)], by rw [h]; simp, fun p hp => ?_⟩
      rw [List.mem_append, List.mem_singleton] at hp
      rcases hp with hp | hp
      · exact hpost p hp
      · rw [hp]; exact fun e => hne e.symm

theorem latest_key [DecidableEq K] (kvs : List (K × V)) (k : K) :
    (∃ v, latest kvs k v) ↔ k ∈ kvs.map Prod.fst := by
  induction kvs using List.reverseRecOn with
  | nil =>
    simp only [List.map_nil, List.not_mem_nil, iff_false]
    rintro ⟨v, hv⟩
    exact latest_nil k v hv
  | append_singleton kvs kv ih =>
    obtain ⟨a, b⟩ := kv
    simp only [List.map_append, List.map_cons, List.map_nil, List.mem_append, List.mem_singleton]
    constructor
    · rintro ⟨v, hv⟩
      rcases (latest_snoc kvs a k b v).mp hv with ⟨e, _⟩ | ⟨_, hl⟩
      · exact Or.inr e
      · exact Or.inl (ih.mp ⟨v, hl⟩)
    · intro h
      by_cases e : k = a
      · exact ⟨b, (latest_snoc kvs a k b b).mpr (Or.inl ⟨e, rfl⟩)⟩
      · rcases h with h | h
        · obtain ⟨v, hv⟩ := ih.mpr h
          exact ⟨v, (latest_snoc kvs a k b v).mpr (Or.inr ⟨e, hv⟩)⟩
        · exact absurd h e

theorem hashes_nodup (map_key_hash : K → Except Exn Nat) (m : MapImpl K V)
    (hwf : m.wf map_key_hash) : ((m.root_.leaves 14).map Prod.fst).Nodup := by
  rcases hwf.1 with e | e
  · rw [e]; simp [mapimpl.Node.leaves]
  · exact mapimpl.Node.leaves_hashes_nodup 14 m.root_ 0 0 e

theorem mem_iterate_iff (m : MapImpl K V) (k : K) (v : V) :
    (k, v) ∈ m.iterate 14 ↔ ∃ h, (h, k, v) ∈ m.root_.leaves 14 := by
  unfold MapImpl.iterate mapimpl.Node.iterate
  rw [List.mem_map]
  constructor
  · rintro ⟨x, hx, e⟩
    exact ⟨x.1, by rw [← e]; exact hx⟩
  · rintro ⟨h, hm⟩
    exact ⟨_, hm, rfl⟩

theorem keys_nodup (map_key_hash : K → Except Exn Nat) (m : MapImpl K V)
    (hwf : m.wf map_key_hash) : ((m.iterate 14).map Prod.fst).Nodup := by
  have hn := hashes_nodup map_key_hash m hwf
  unfold MapImpl.iterate mapimpl.Node.iterate
  rw [List.map_map]
  have e : (m.root_.leaves 14).map Prod.fst
      = ((m.root_.leaves 14).map (Prod.fst ∘ fun x => x.2)).map
          (fun k => match map_key_hash k with | .ok h => h | .error _ => 0) := by
    rw [List.map_map]
    apply List.map_congr_left
    intro x hx
    simp only [Function.comp]
    rw [hwf.2 x hx]
  rw [e] at hn
  exact List.Nodup.of_map _ hn

end MapImpl

end park

namespace park

namespace MapImpl

variable {K V : Type}

/-- One `assoc` that returns keeps the map in step with the calls, and the
count goes up by one exactly for a key that the map did not hold. -/
theorem holds_assoc [DecidableEq K] (map_key_hash : K → Except Exn Nat)
    (map_key_equals : K → K → Except Exn Bool) (fuel : Nat) (hfuel : 28 ≤ fuel)
    (hhash : ∀ a, ∃ h, map_key_hash a = .ok h ∧ h < 2 ^ 64)
    (heq : ∀ a b, map_key_equals a b = .ok (decide (a = b)))
    (m m1 : MapImpl K V) (kvs : List (K × V)) (k : K) (v : V)
    (hm : holds map_key_hash m kvs) (hlen : kvs.length + 1 < 2 ^ 64)
    (hok : m.assoc map_key_hash map_key_equals fuel k v = .ok m1) :
    holds map_key_hash m1 (kvs ++ [(k, v)]) ∧
      m1.count_ = (if k ∈ (m.iterate 14).map Prod.fst then m.count_ else m.count_ + 1) := by
  obtain ⟨hwf, hcount, hle, hiter⟩ := hm
  obtain ⟨h, hk, hh⟩ := hhash k
  have hmod : h % 2 ^ 0 = 0 := by simp [Nat.mod_one]
  have hall : ∀ k0 v0, (h, k0, v0) ∈ m.root_.leaves 14 → map_key_equals k0 k = .ok true := by
    intro k0 v0 hmem
    by_cases e : k0 = k
    · rw [heq, e]; simp
    · exfalso
      have hf : map_key_equals k0 k = .ok false := by rw [heq]; simp [e]
      rcases hwf.1 with e0 | e0
      · rw [e0] at hmem
        simp [mapimpl.Node.leaves] at hmem
      · have := (mapimpl.Node.assoc_spec map_key_equals fuel 14 m.root_ 0 0 h k v e0 (by decide)
          (by decide) (by decide) hh hmod (by
            have : m.root_.assoc_fuel 14 ≤ 27 := by
              unfold mapimpl.Node.assoc_fuel
              split <;> omega
            omega)).1 k0 v0 hmem hf
        unfold MapImpl.assoc at hok
        simp only [hk, this] at hok
        simp at hok
  obtain ⟨m2, la, e1, hwf1, hc1, hin, hkeep, hsub, hla⟩ :=
    MapImpl.assoc_root_leaves map_key_hash map_key_equals m fuel k v h hwf hfuel hk hh hall
  rw [hok] at e1
  simp only [Except.ok.injEq] at e1
  subst e1
  have hkey : ∀ k0 v0, (h, k0, v0) ∈ m.root_.leaves 14 → k0 = k := by
    intro k0 v0 hmem
    have := hall k0 v0 hmem
    rw [heq] at this
    simpa using this
  have hpresent : k ∈ (m.iterate 14).map Prod.fst ↔ ∃ k0 v0, (h, k0, v0) ∈ m.root_.leaves 14 := by
    constructor
    · intro hmem
      obtain ⟨y, hy, e⟩ := List.mem_map.mp hmem
      obtain ⟨hx, hx2⟩ := (mem_iterate_iff m y.1 y.2).mp hy
      have := hwf.2 _ hx2
      simp only at this
      rw [e, hk] at this
      simp only [Except.ok.injEq] at this
      exact ⟨y.1, y.2, by rw [this]; exact hx2⟩
    · rintro ⟨k0, v0, hmem⟩
      have := hkey k0 v0 hmem
      subst this
      exact List.mem_map.mpr ⟨(k0, v0), (mem_iterate_iff m k0 v0).mpr ⟨h, hmem⟩, rfl⟩
  have hn := hashes_nodup map_key_hash m hwf
  have hn1 := hashes_nodup map_key_hash m1 hwf1
  have hlen1 : (m1.root_.leaves 14).length
      = if la = true then (m.root_.leaves 14).length + 1 else (m.root_.leaves 14).length := by
    by_cases hl : la = true
    · rw [if_pos hl]
      have hnew := hla.mp hl
      have hnot : h ∉ (m.root_.leaves 14).map Prod.fst := by
        intro hmem
        obtain ⟨x, hx, e⟩ := List.mem_map.mp hmem
        exact hnew x.2.1 x.2.2 (by rw [← e]; exact hx)
      have hperm : List.Perm ((m1.root_.leaves 14).map Prod.fst)
          (h :: (m.root_.leaves 14).map Prod.fst) := by
        rw [List.perm_ext_iff_of_nodup hn1 (List.nodup_cons.mpr ⟨hnot, hn⟩)]
        intro a
        rw [List.mem_cons]
        constructor
        · intro ha
          obtain ⟨x, hx, e⟩ := List.mem_map.mp ha
          rcases hsub x hx with g | g
          · exact Or.inr (List.mem_map.mpr ⟨x, g, e⟩)
          · rw [g] at e; exact Or.inl e.symm
        · rintro (ha | ha)
          · rw [ha]; exact List.mem_map.mpr ⟨_, hin, rfl⟩
          · obtain ⟨x, hx, e⟩ := List.mem_map.mp ha
            have hne : x.1 ≠ h := by
              intro e2
              exact hnew x.2.1 x.2.2 (by rw [← e2]; exact hx)
            exact List.mem_map.mpr ⟨x, hkeep x hx hne, e⟩
      have := hperm.length_eq
      simpa using this
    · rw [if_neg hl]
      have hold : ∃ k0 v0, (h, k0, v0) ∈ m.root_.leaves 14 := by
        by_contra hno
        exact hl (hla.mpr (fun k0 v0 hmem => hno ⟨k0, v0, hmem⟩))
      obtain ⟨k0, v0, hmem⟩ := hold
      have hperm : List.Perm ((m1.root_.leaves 14).map Prod.fst)
          ((m.root_.leaves 14).map Prod.fst) := by
        rw [List.perm_ext_iff_of_nodup hn1 hn]
        intro a
        constructor
        · intro ha
          obtain ⟨x, hx, e⟩ := List.mem_map.mp ha
          rcases hsub x hx with g | g
          · exact List.mem_map.mpr ⟨x, g, e⟩
          · rw [g] at e
            rw [← e]
            exact List.mem_map.mpr ⟨_, hmem, rfl⟩
        · intro ha
          obtain ⟨x, hx, e⟩ := List.mem_map.mp ha
          by_cases hne : x.1 = h
          · rw [← e, hne]
            exact List.mem_map.mpr ⟨_, hin, rfl⟩
          · exact List.mem_map.mpr ⟨x, hkeep x hx hne, e⟩
      have := hperm.length_eq
      simpa using this
  have hla2 : la = true ↔ k ∉ (m.iterate 14).map Prod.fst := by
    rw [hpresent, hla]
    constructor
    · rintro hno ⟨k0, v0, hmem⟩
      exact hno k0 v0 hmem
    · intro hno k0 v0 hmem
      exact hno ⟨k0, v0, hmem⟩
  have hcnt : m1.count_
      = if k ∈ (m.iterate 14).map Prod.fst then m.count_ else m.count_ + 1 := by
    rw [hc1]
    by_cases hl : la = true
    · rw [if_pos hl, if_neg (hla2.mp hl), Nat.mod_eq_of_lt (by omega)]
    · rw [if_neg hl, if_pos (by
        by_contra hc
        exact hl (hla2.mpr hc))]
  refine ⟨⟨hwf1, ?_, ?_, ?_⟩, hcnt⟩
  · rw [hc1, hlen1]
    by_cases hl : la = true
    · rw [if_pos hl, if_pos hl, Nat.mod_eq_of_lt (by omega), hcount]
    · rw [if_neg hl, if_neg hl, hcount]
  · rw [hcnt, List.length_append, List.length_singleton]
    split_ifs <;> omega
  · intro k1 v1
    rw [latest_snoc, mem_iterate_iff]
    constructor
    · rintro ⟨hx, hx1⟩
      by_cases ehx : hx = h
      · subst ehx
        have hu : k1 = k ∧ v1 = v := by
          rcases hwf1.1 with e0 | e0
          · rw [e0] at hx1
            simp [mapimpl.Node.leaves] at hx1
          · exact mapimpl.Node.leaves_hash_unique 14 m1.root_ 0 0 e0 hx k1 k v1 v hx1 hin
        exact Or.inl hu
      · rcases hsub _ hx1 with g | g
        · have hne : k1 ≠ k := by
            intro e
            have := hwf.2 _ g
            simp only at this
            rw [e, hk] at this
            simp only [Except.ok.injEq] at this
            exact ehx this.symm
          exact Or.inr ⟨hne, (hiter k1 v1).mp ((mem_iterate_iff m k1 v1).mpr ⟨hx, g⟩)⟩
        · simp only [Prod.mk.injEq] at g
          exact Or.inl ⟨g.2.1, g.2.2⟩
    · rintro (⟨e1, e2⟩ | ⟨hne, hl⟩)
      · subst e1 e2
        exact ⟨h, hin⟩
      · obtain ⟨hx, hx1⟩ := (mem_iterate_iff m k1 v1).mp ((hiter k1 v1).mpr hl)
        have hxne : hx ≠ h := by
          intro e
          rw [e] at hx1
          exact hne (hkey k1 v1 hx1)
        exact ⟨hx, hkeep _ hx1 hxne⟩

theorem holds_EMPTY (map_key_hash : K → Except Exn Nat) :
    holds map_key_hash (MapImpl.EMPTY : MapImpl K V) [] := by
  refine ⟨MapImpl.EMPTY_wf map_key_hash, rfl, Nat.le_refl _, fun k v => ?_⟩
  constructor
  · intro hm
    simp [MapImpl.iterate, mapimpl.Node.iterate, MapImpl.EMPTY, mapimpl.Node.leaves] at hm
  · intro hl
    exact absurd hl (latest_nil k v)

theorem holds_assoc_all [DecidableEq K] (map_key_hash : K → Except Exn Nat)
    (map_key_equals : K → K → Except Exn Bool) (fuel : Nat) (hfuel : 28 ≤ fuel)
    (hhash : ∀ a, ∃ h, map_key_hash a = .ok h ∧ h < 2 ^ 64)
    (heq : ∀ a b, map_key_equals a b = .ok (decide (a = b))) (rest : List (K × V)) :
    ∀ (m m1 : MapImpl K V) (kvs : List (K × V)), holds map_key_hash m kvs →
      kvs.length + rest.length < 2 ^ 64 →
      m.assoc_all map_key_hash map_key_equals fuel rest = .ok m1 →
      holds map_key_hash m1 (kvs ++ rest) := by
  induction rest with
  | nil =>
    intro m m1 kvs hm _ hok
    simp only [assoc_all, Except.ok.injEq] at hok
    subst hok
    simpa using hm
  | cons kv rest ih =>
    intro m m1 kvs hm hlen hok
    simp only [List.length_cons] at hlen
    simp only [assoc_all] at hok
    cases hstep : m.assoc map_key_hash map_key_equals fuel kv.1 kv.2 with
    | error e => rw [hstep] at hok; simp at hok
    | ok m2 =>
      rw [hstep] at hok
      have h2 := (holds_assoc map_key_hash map_key_equals fuel hfuel hhash heq m m2 kvs kv.1 kv.2
        hm (by omega) hstep).1
      have := ih m2 m1 (kvs ++ [(kv.1, kv.2)]) h2 (by simp; omega) hok
      simpa using this

end MapImpl

end park

namespace park

/-- C29: for a map made from the empty map by a sequence of `assoc` calls
none of which raises, the keys being compared by equality, every key having a
hash of 64 bits and the calls being fewer than a `size_t` can count: `size()`
is the number of distinct keys associated; `iterate` visits `size()` entries,
no key twice, and visits a key with a value exactly when this value is the one
most recently associated with the key; a further `assoc` that returns leaves
the size as it is for a key associated before and adds one to it for a new
key. -/
theorem C29_map_size_and_iterate {K V : Type} [DecidableEq K]
    (map_key_hash : K → Except Exn Nat) (map_key_equals : K → K → Except Exn Bool)
    (fuel : Nat) (kvs : List (K × V)) (m : MapImpl K V) (hfuel : 28 ≤ fuel)
    (hhash : ∀ a, ∃ h, map_key_hash a = .ok h ∧ h < 2 ^ 64)
    (heq : ∀ a b, map_key_equals a b = .ok (decide (a = b)))
    (hlen : kvs.length + 1 < 2 ^ 64)
    (hok : MapImpl.EMPTY.assoc_all map_key_hash map_key_equals fuel kvs = .ok m) :
    m.size = ((kvs.map Prod.fst).dedup).length ∧
    (m.iterate 14).length = m.size ∧
    ((m.iterate 14).map Prod.fst).Nodup ∧
    (∀ k v, (k, v) ∈ m.iterate 14 ↔ MapImpl.latest kvs k v) ∧
    (∀ k v m1, m.assoc map_key_hash map_key_equals fuel k v = .ok m1 →
      (k ∈ kvs.map Prod.fst → m1.size = m.size) ∧
      (k ∉ kvs.map Prod.fst → m1.size = m.size + 1)) := by
  have hm := MapImpl.holds_assoc_all map_key_hash map_key_equals fuel hfuel hhash heq kvs
    MapImpl.EMPTY m [] (MapImpl.holds_EMPTY map_key_hash) (by simp; omega) hok
  rw [List.nil_append] at hm
  obtain ⟨hwf, hcount, hle, hiter⟩ := hm
  have hnd := MapImpl.keys_nodup map_key_hash m hwf
  have hkeys : ∀ k, k ∈ (m.iterate 14).map Prod.fst ↔ k ∈ kvs.map Prod.fst := by
    intro k
    rw [← MapImpl.latest_key kvs k]
    constructor
    · intro hk
      obtain ⟨y, hy, e⟩ := List.mem_map.mp hk
      exact ⟨y.2, (hiter k y.2).mp (by rw [← e]; exact hy)⟩
    · rintro ⟨v, hv⟩
      exact List.mem_map.mpr ⟨(k, v), (hiter k v).mpr hv, rfl⟩
  have hitlen : (m.iterate 14).length = m.size := by
    unfold MapImpl.size MapImpl.iterate mapimpl.Node.iterate
    rw [List.length_map, hcount]
  refine ⟨?_, hitlen, hnd, hiter, ?_⟩
  · have hperm : List.Perm ((m.iterate 14).map Prod.fst) ((kvs.map Prod.fst).dedup) := by
      rw [List.perm_ext_iff_of_nodup hnd (List.nodup_dedup _)]
      intro a
      rw [hkeys, List.mem_dedup]
    have := hperm.length_eq
    rw [List.length_map, hitlen] at this
    exact this
  · intro k v m1 hstep
    have hs := (MapImpl.holds_assoc map_key_hash map_key_equals fuel hfuel hhash heq m m1 kvs k v
      ⟨hwf, hcount, hle, hiter⟩ hlen hstep).2
    unfold MapImpl.size
    constructor
    · intro hk
      rw [hs, if_pos ((hkeys k).mpr hk)]
    · intro hk
      rw [hs, if_neg (fun hc => hk ((hkeys k).mp hc))]

theorem example_filled_map_made :
    MapImpl.EMPTY.assoc_all example_key_hash example_key_equals 28 example_calls
      = .ok example_filled_map := rfl

theorem C29_map_size_and_iterate_witness :
    example_filled_map.size = ((example_calls.map Prod.fst).dedup).length ∧
      (example_filled_map.iterate 14).length = example_filled_map.size ∧
      ((example_filled_map.iterate 14).map Prod.fst).Nodup :=
  match C29_map_size_and_iterate example_key_hash example_key_equals 28 example_calls
    example_filled_map (by decide) (fun a => ⟨a % 4, rfl, by omega⟩) (fun _ _ => rfl)
    (by decide) example_filled_map_made with
  | ⟨h1, h2, h3, _⟩ => ⟨h1, h2, h3⟩

end park

namespace park

/-! ## The code of an expression and its stack effect -/

theorem X64.binds_append (a c : List X64.Instr) : X64.binds (a ++ c) = X64.binds a ++ X64.binds c := by
  induction a with
  | nil => rfl
  | cons i a ih => cases i <;> simp [X64.binds, ih]

theorem X64.pops_append (a c : List X64.Instr) : X64.pops (a ++ c) = X64.pops a + X64.pops c := by
  induction a with
  | nil => simp [X64.pops]
  | cons i a ih =>
    cases i with
    | emit_call call => cases call <;> simp [X64.pops, ih]; omega
    | _ => simp [X64.pops, ih]

mutual
theorem X64Backend.visit_emits (b : X64Backend) : ∀ (n : AST.Node) (x64 x64' : X64Assembler),
    n.plain = true → b.visit n x64 = .ok x64' →
    ∃ c, x64'.code = x64.code ++ c ∧ x64.labels ≤ x64'.labels ∧
      (∀ l, l ∈ X64.binds c → x64.labels < l ∧ l ≤ x64'.labels) ∧ X64.pops c = n.pops
  | .Literal _, x64, x64', _, h => by
    simp only [X64Backend.visit, Except.ok.injEq] at h
    subst h
    exact ⟨_, rfl, Nat.le_refl _, by simp [X64.binds], by simp [X64.pops, AST.Node.pops]⟩
  | .Symbol _, x64, x64', _, h => by
    simp only [X64Backend.visit, Except.ok.injEq] at h
    subst h
    exact ⟨_, rfl, Nat.le_refl _, by simp [X64.binds], by simp [X64.pops, AST.Node.pops]⟩
  | .Builtin _, x64, x64', _, h => by
    simp only [X64Backend.visit, Except.ok.injEq] at h
    subst h
    exact ⟨_, rfl, Nat.le_refl _, by simp [X64.binds], by simp [X64.pops, AST.Node.pops]⟩
  | .Local _, x64, x64', _, h => by
    simp only [X64Backend.visit, Except.ok.injEq] at h
    subst h
    exact ⟨_, rfl, Nat.le_refl _, by simp [X64.binds], by simp [X64.pops, AST.Node.pops]⟩
  | .Global _ _ _, x64, x64', _, h => by
    simp only [X64Backend.visit, Except.ok.injEq] at h
    subst h
    exact ⟨_, rfl, Nat.le_refl _, by simp [X64.binds], by simp [X64.pops, AST.Node.pops]⟩
  | .Function _ _, x64, x64', _, h => by
    simp only [X64Backend.visit, Except.ok.injEq] at h
    subst h
    exact ⟨_, rfl, Nat.le_refl _, by simp [X64.binds], by simp [X64.pops, AST.Node.pops]⟩
  | .Return _, _, _, hp, _ => by simp [AST.Node.plain] at hp
  | .Recur _, _, _, hp, _ => by simp [AST.Node.plain] at hp
  | .Let symbol_ e, x64, x64', hp, h => by
    simp only [AST.Node.plain] at hp
    simp only [X64Backend.visit, bind, Except.bind] at h
    cases he : b.visit e x64 with
    | error err => simp [he] at h
    | ok x1 =>
      simp only [he, pure, Except.pure, Except.ok.injEq] at h
      subst h
      obtain ⟨c, h1, h2, h3, h4⟩ := X64Backend.visit_emits b e x64 x1 hp he
      refine ⟨c ++ [.emit_call (.exec_let symbol_)], ?_, h2, ?_, ?_⟩
      · simp [X64Assembler.emit, h1]
      · intro l hl
        rw [X64.binds_append] at hl
        simp only [X64.binds, List.append_nil] at hl
        exact h3 l hl
      · rw [X64.pops_append, h4]
        simp [X64.pops, AST.Node.pops]
  | .Do statements_, x64, x64', hp, h => by
    simp only [AST.Node.plain, Bool.and_eq_true] at hp
    simp only [X64Backend.visit] at h
    obtain ⟨c, h1, h2, h3, h4⟩ := X64Backend.visit_do_emits b statements_ x64 x64' hp.2 h
    exact ⟨c, h1, h2, h3, by rw [h4]; simp [AST.Node.pops]⟩
  | .Branch cond t f, x64, x64', hp, h => by
    simp only [AST.Node.plain, Bool.and_eq_true] at hp
    simp only [X64Backend.visit, bind, Except.bind] at h
    cases hc : b.visit cond { x64 with labels := x64.labels + 2 } with
    | error err => simp [hc] at h
    | ok x1 =>
      simp only [hc] at h
      cases ht : b.visit t (x1.emit [.emit_call .exec_bool, .test_rax_rax, .jz (x64.labels + 1)]) with
      | error err => simp [ht] at h
      | ok x2 =>
        simp only [ht] at h
        cases hf : b.visit f (x2.emit [.jmp_rel (x64.labels + 2), .bind (x64.labels + 1)]) with
        | error err => simp [hf] at h
        | ok x3 =>
          simp only [hf, pure, Except.pure, Except.ok.injEq] at h
          subst h
          obtain ⟨cc, c1, c2, c3, c4⟩ := X64Backend.visit_emits b cond _ x1 hp.1.1 hc
          obtain ⟨ct, t1, t2, t3, t4⟩ := X64Backend.visit_emits b t _ x2 hp.1.2 ht
          obtain ⟨cf, f1, f2, f3, f4⟩ := X64Backend.visit_emits b f _ x3 hp.2 hf
          simp only [X64Assembler.emit] at t1 t2 t3 f1 f2 f3 c1 c2 c3
          refine ⟨cc ++ [.emit_call .exec_bool, .test_rax_rax, .jz (x64.labels + 1)] ++ ct ++
            [.jmp_rel (x64.labels + 2), .bind (x64.labels + 1)] ++ cf ++ [.bind (x64.labels + 2)],
            ?_, ?_, ?_, ?_⟩
          · simp [X64Assembler.emit, f1, t1, c1]
          · simp only [X64Assembler.emit]; omega
          · intro l hl
            simp only [X64.binds_append, X64.binds, List.append_nil, List.mem_append,
              List.mem_singleton, List.mem_cons, List.not_mem_nil, or_false] at hl
            simp only [X64Assembler.emit]
            rcases hl with (((hl | hl) | hl) | hl) | hl
            · have := c3 l hl; omega
            · have := t3 l hl; omega
            · omega
            · have := f3 l hl; omega
            · omega
          · simp only [X64.pops_append, X64.pops, c4, t4, f4, AST.Node.pops]
            omega
  | .Apply addr throws_ target_ callable_ arguments_, x64, x64', hp, h => by
    simp only [AST.Node.plain, Bool.and_eq_true] at hp
    simp only [X64Backend.visit, bind, Except.bind] at h
    split at h
    · simp at h
    · cases hc : b.visit callable_ { x64 with labels := x64.labels + 4 } with
      | error err => simp [hc] at h
      | ok x1 =>
        simp only [hc] at h
        cases ha : b.visit_arguments arguments_ x1 with
        | error err => simp [ha] at h
        | ok x2 =>
          simp only [ha, pure, Except.pure, Except.ok.injEq] at h
          subst h
          obtain ⟨cc, c1, c2, c3, c4⟩ := X64Backend.visit_emits b callable_ _ x1 hp.1 hc
          obtain ⟨ca, a1, a2, a3, a4⟩ := X64Backend.visit_arguments_emits b arguments_ _ x2 hp.2 ha
          simp only at c1 c2 c3
          refine ⟨cc ++ ca ++ b.apply_code ⟨addr, arguments_.length, throws_, target_⟩
            (x64.labels + 1) (x64.labels + 2) (x64.labels + 3) (x64.labels + 4), ?_, ?_, ?_, ?_⟩
          · simp only [X64Backend.apply_call, X64Assembler.emit, a1, c1, List.append_assoc]
          · simp only [X64Backend.apply_call, X64Assembler.emit]; omega
          · intro l hl
            simp only [X64.binds_append, X64.binds, X64Backend.apply_code, List.append_nil,
              List.mem_append, List.mem_singleton, List.mem_cons, List.not_mem_nil, or_false] at hl
            simp only [X64Backend.apply_call, X64Assembler.emit]
            rcases hl with (hl | hl) | hl
            · have := c3 l hl; omega
            · have := a3 l hl; omega
            · omega
          · simp only [X64.pops_append, X64.pops, X64Backend.apply_code, c4, a4, AST.Node.pops,
              Nat.add_zero]
theorem X64Backend.visit_do_emits (b : X64Backend) : ∀ (stmts : List AST.Node)
    (x64 x64' : X64Assembler),
    AST.Node.plain_list stmts = true → b.visit_do stmts x64 = .ok x64' →
    ∃ c, x64'.code = x64.code ++ c ∧ x64.labels ≤ x64'.labels ∧
      (∀ l, l ∈ X64.binds c → x64.labels < l ∧ l ≤ x64'.labels) ∧
      X64.pops c = AST.Node.pops_list stmts + (stmts.length - 1)
  | [], x64, x64', _, h => by
    simp only [X64Backend.visit_do, Except.ok.injEq] at h
    subst h
    exact ⟨[], by simp, Nat.le_refl _, by simp [X64.binds], by simp [X64.pops, AST.Node.pops_list]⟩
  | s :: rest, x64, x64', hp, h => by
    simp only [AST.Node.plain_list, Bool.and_eq_true] at hp
    simp only [X64Backend.visit_do, bind, Except.bind] at h
    cases hs : b.visit s x64 with
    | error err => simp [hs] at h
    | ok x1 =>
      simp only [hs] at h
      obtain ⟨cs, s1, s2, s3, s4⟩ := X64Backend.visit_emits b s x64 x1 hp.1 hs
      obtain ⟨cr, r1, r2, r3, r4⟩ := X64Backend.visit_do_emits b rest _ x64' hp.2 h
      cases rest with
      | nil =>
        simp only [List.isEmpty_nil, if_true] at r1 r2 r3
        simp only [X64Backend.visit_do, List.isEmpty_nil, if_true, Except.ok.injEq] at h
        subst h
        exact ⟨cs, s1, s2, s3, by simp [AST.Node.pops_list, s4]⟩
      | cons r rest =>
        simp only [List.isEmpty_cons, Bool.false_eq_true, if_false, X64Assembler.emit] at r1 r2 r3
        refine ⟨cs ++ [.emit_call .exec_pop] ++ cr, ?_, by omega, ?_, ?_⟩
        · simp [r1, s1]
        · intro l hl
          simp only [X64.binds_append, X64.binds, List.append_nil, List.mem_append] at hl
          rcases hl with hl | hl
          · have := s3 l hl; omega
          · have := r3 l hl; omega
        · simp only [X64.pops_append, X64.pops, s4, r4, AST.Node.pops_list, List.length_cons]
          omega
theorem X64Backend.visit_arguments_emits (b : X64Backend) : ∀ (args : List AST.Node)
    (x64 x64' : X64Assembler),
    AST.Node.plain_list args = true → b.visit_arguments args x64 = .ok x64' →
    ∃ c, x64'.code = x64.code ++ c ∧ x64.labels ≤ x64'.labels ∧
      (∀ l, l ∈ X64.binds c → x64.labels < l ∧ l ≤ x64'.labels) ∧
      X64.pops c = AST.Node.pops_list args
  | [], x64, x64', _, h => by
    simp only [X64Backend.visit_arguments, Except.ok.injEq] at h
    subst h
    exact ⟨[], by simp, Nat.le_refl _, by simp [X64.binds], by simp [X64.pops, AST.Node.pops_list]⟩
  | s :: rest, x64, x64', hp, h => by
    simp only [AST.Node.plain_list, Bool.and_eq_true] at hp
    simp only [X64Backend.visit_arguments, bind, Except.bind] at h
    cases hs : b.visit s x64 with
    | error err => simp [hs] at h
    | ok x1 =>
      simp only [hs] at h
      obtain ⟨cs, s1, s2, s3, s4⟩ := X64Backend.visit_emits b s x64 x1 hp.1 hs
      obtain ⟨cr, r1, r2, r3, r4⟩ := X64Backend.visit_arguments_emits b rest _ x64' hp.2 h
      refine ⟨cs ++ cr, ?_, by omega, ?_, ?_⟩
      · simp [r1, s1]
      · intro l hl
        simp only [X64.binds_append, List.mem_append] at hl
        rcases hl with hl | hl
        · have := s3 l hl; omega
        · have := r3 l hl; omega
      · simp only [X64.pops_append, s4, r4, AST.Node.pops_list]
end

end park

namespace park

namespace X64

theorem get_at (A : List Instr) (i : Instr) (B : List Instr) :
    (A ++ i :: B).get? A.length = some i := by
  rw [List.get?_eq_getElem?, List.getElem?_append_right (Nat.le_refl _)]
  simp

theorem find_label_map (l : Nat) : ∀ (A B : List Instr), l ∉ binds A →
    find_label l (A ++ B) = (find_label l B).map (· + A.length)
  | [], B, _ => by simp
  | i :: A, B, h => by
    have ih := find_label_map l A B
    cases i with
    | bind l1 =>
      simp only [binds, List.mem_cons, not_or] at h
      have hne : ¬ l1 = l := fun e => h.1 e.symm
      have e : find_label l (Instr.bind l1 :: (A ++ B)) = (find_label l (A ++ B)).map (· + 1) := by
        simp [find_label, hne]
      rw [List.cons_append, e, ih h.2]
      cases find_label l B <;> simp [Nat.add_assoc]
    | emit_call _ =>
      simp only [binds] at h
      have e : ∀ c, find_label l (Instr.emit_call c :: (A ++ B)) =
          (find_label l (A ++ B)).map (· + 1) := fun c => by simp [find_label]
      rw [List.cons_append, e, ih h]
      cases find_label l B <;> simp [Nat.add_assoc]
    | call_target _ =>
      simp only [binds] at h
      have e : ∀ c, find_label l (Instr.call_target c :: (A ++ B)) =
          (find_label l (A ++ B)).map (· + 1) := fun c => by simp [find_label]
      rw [List.cons_append, e, ih h]
      cases find_label l B <;> simp [Nat.add_assoc]
    | call_exit_thunk _ =>
      simp only [binds] at h
      have e : ∀ c, find_label l (Instr.call_exit_thunk c :: (A ++ B)) =
          (find_label l (A ++ B)).map (· + 1) := fun c => by simp [find_label]
      rw [List.cons_append, e, ih h]
      cases find_label l B <;> simp [Nat.add_assoc]
    | test_rax_rax =>
      simp only [binds] at h
      have e : find_label l (Instr.test_rax_rax :: (A ++ B)) =
          (find_label l (A ++ B)).map (· + 1) := by simp [find_label]
      rw [List.cons_append, e, ih h]
      cases find_label l B <;> simp [Nat.add_assoc]
    | cmp_rax_1 =>
      simp only [binds] at h
      have e : find_label l (Instr.cmp_rax_1 :: (A ++ B)) =
          (find_label l (A ++ B)).map (· + 1) := by simp [find_label]
      rw [List.cons_append, e, ih h]
      cases find_label l B <;> simp [Nat.add_assoc]
    | jz _ =>
      simp only [binds] at h
      have e : ∀ c, find_label l (Instr.jz c :: (A ++ B)) =
          (find_label l (A ++ B)).map (· + 1) := fun c => by simp [find_label]
      rw [List.cons_append, e, ih h]
      cases find_label l B <;> simp [Nat.add_assoc]
    | js _ =>
      simp only [binds] at h
      have e : ∀ c, find_label l (Instr.js c :: (A ++ B)) =
          (find_label l (A ++ B)).map (· + 1) := fun c => by simp [find_label]
      rw [List.cons_append, e, ih h]
      cases find_label l B <;> simp [Nat.add_assoc]
    | jmp_rel _ =>
      simp only [binds] at h
      have e : ∀ c, find_label l (Instr.jmp_rel c :: (A ++ B)) =
          (find_label l (A ++ B)).map (· + 1) := fun c => by simp [find_label]
      rw [List.cons_append, e, ih h]
      cases find_label l B <;> simp [Nat.add_assoc]

theorem find_label_at (l : Nat) (A B : List Instr) (h : l ∉ binds A) :
    find_label l (A ++ .bind l :: B) = some A.length := by
  rw [find_label_map l A _ h]
  simp [find_label]

theorem run_step (env : HelperEnv) (methods : Methods) (code : List Instr) (fuel : Nat)
    (m : State) (i : Instr) (h : code.get? m.pc = some i) :
    run env methods code (fuel + 1) m =
      (step env methods code m).bind (run env methods code fuel) := by
  have hlt : m.pc < code.length := by
    by_contra hge
    rw [List.get?_eq_none.mpr (by omega)] at h
    cases h
  simp only [run, hlt, if_true]
  rfl

theorem run_emit_call (env : HelperEnv) (methods : Methods) (code : List Instr) (fuel : Nat)
    (m : State) (call : Call) (h : code.get? m.pc = some (.emit_call call)) :
    run env methods code (fuel + 1) m =
      (exec_call env m.fbr call).bind (fun r => run env methods code fuel
        { m with fbr := r.1, rax := r.2.getD m.rax, pc := m.pc + 1 }) := by
  rw [run_step env methods code fuel m _ h]
  simp only [step, h]
  cases exec_call env m.fbr call with
  | error e => rfl
  | ok r => rfl

theorem run_bind (env : HelperEnv) (methods : Methods) (code : List Instr) (fuel : Nat)
    (m : State) (l : Nat) (h : code.get? m.pc = some (.bind l)) :
    run env methods code (fuel + 1) m = run env methods code fuel { m with pc := m.pc + 1 } := by
  rw [run_step env methods code fuel m _ h]
  simp only [step, h]
  rfl

theorem run_test (env : HelperEnv) (methods : Methods) (code : List Instr) (fuel : Nat)
    (m : State) (h : code.get? m.pc = some .test_rax_rax) :
    run env methods code (fuel + 1) m = run env methods code fuel
      { m with zf := decide (m.rax = 0), sf := decide (m.rax < 0), pc := m.pc + 1 } := by
  rw [run_step env methods code fuel m _ h]
  simp only [step, h]
  rfl

theorem run_jz (env : HelperEnv) (methods : Methods) (code : List Instr) (fuel : Nat)
    (m : State) (l : Nat) (h : code.get? m.pc = some (.jz l)) :
    run env methods code (fuel + 1) m = run env methods code fuel
      (if m.zf then goto code m l else { m with pc := m.pc + 1 }) := by
  rw [run_step env methods code fuel m _ h]
  simp only [step, h]
  rfl

theorem run_jmp_rel (env : HelperEnv) (methods : Methods) (code : List Instr) (fuel : Nat)
    (m : State) (l : Nat) (h : code.get? m.pc = some (.jmp_rel l)) :
    run env methods code (fuel + 1) m = run env methods code fuel (goto code m l) := by
  rw [run_step env methods code fuel m _ h]
  simp only [step, h]
  rfl

theorem run_call_target (env : HelperEnv) (methods : Methods) (code : List Instr) (fuel : Nat)
    (m : State) (apply : AST.Apply) (h : code.get? m.pc = some (.call_target apply)) :
    run env methods code (fuel + 1) m =
      (call_target methods m.fbr m.target_ apply).bind (fun r => run env methods code fuel
        { m with fbr := r.1, target_ := r.2.1, rax := r.2.2, pc := m.pc + 1 }) := by
  rw [run_step env methods code fuel m _ h]
  simp only [step, h]
  cases call_target methods m.fbr m.target_ apply with
  | error e => rfl
  | ok r => rfl

theorem runs_as_seq (env : HelperEnv) (methods : Methods) (code : List Instr) (m : State)
    (b1 b2 pc1 pc2 : Nat) (E : Except Exn World) (F : World → Except Exn World)
    (h1 : runs_as env methods code m b1 E pc1)
    (h2 : ∀ w rax zf sf, E = .ok w →
      runs_as env methods code ⟨w.1, w.2, rax, zf, sf, pc1, none⟩ b2 (F w) pc2) :
    runs_as env methods code m (b1 + b2) (E.bind F) pc2 := by
  obtain ⟨k1, hk1, rax1, zf1, sf1, hr1⟩ := h1
  cases E with
  | error e =>
    refine ⟨k1, by omega, 0, false, false, fun fuel => ?_⟩
    rw [hr1 fuel]
    rfl
  | ok w =>
    obtain ⟨k2, hk2, rax2, zf2, sf2, hr2⟩ := h2 w rax1 zf1 sf1 rfl
    refine ⟨k2 + k1, by omega, rax2, zf2, sf2, fun fuel => ?_⟩
    rw [← Nat.add_assoc, hr1 (fuel + k2)]
    show run env methods code (fuel + k2) _ = _
    rw [hr2 fuel]
    rfl

theorem runs_as_mono (env : HelperEnv) (methods : Methods) (code : List Instr) (m : State)
    (b1 b2 pc : Nat) (E : Except Exn World) (hle : b1 ≤ b2)
    (h : runs_as env methods code m b1 E pc) : runs_as env methods code m b2 E pc := by
  obtain ⟨k, hk, r⟩ := h
  exact ⟨k, by omega, r⟩

theorem runs_as_nil (env : HelperEnv) (methods : Methods) (code : List Instr)
    (fbr : FiberImpl) (t : Nat → Option MethodImpl) (rax : Int) (zf sf : Bool) (pc : Nat) :
    runs_as env methods code ⟨fbr, t, rax, zf, sf, pc, none⟩ 0 (.ok (fbr, t)) pc :=
  ⟨0, Nat.le_refl _, rax, zf, sf, fun _ => rfl⟩

/-- A helper that returns nothing. -/
theorem runs_as_emit_call (env : HelperEnv) (methods : Methods) (code : List Instr)
    (fbr : FiberImpl) (t : Nat → Option MethodImpl) (rax : Int) (zf sf : Bool) (pc : Nat)
    (call : Call) (h : code.get? pc = some (.emit_call call)) :
    runs_as env methods code ⟨fbr, t, rax, zf, sf, pc, none⟩ 1
      ((exec_call env fbr call).bind (fun r => .ok (r.1, t))) (pc + 1) := by
  cases he : exec_call env fbr call with
  | error e =>
    refine ⟨1, Nat.le_refl _, 0, false, false, fun fuel => ?_⟩
    rw [run_emit_call env methods code fuel _ call h]
    simp only [he]
    rfl
  | ok r =>
    refine ⟨1, Nat.le_refl _, r.2.getD rax, zf, sf, fun fuel => ?_⟩
    rw [run_emit_call env methods code fuel _ call h]
    simp only [he]
    rfl

end X64

end park

namespace park

namespace X64

theorem get_in (A L B : List Instr) (i : Nat) (h : i < L.length) :
    (A ++ L ++ B).get? (A.length + i) = L.get? i := by
  rw [List.get?_eq_getElem?, List.get?_eq_getElem?, List.append_assoc,
    List.getElem?_append_right (Nat.le_add_right _ _), Nat.add_sub_cancel_left,
    List.getElem?_append_left h]

theorem goto_some (code : List Instr) (m : State) (l j : Nat) (h : find_label l code = some j) :
    goto code m l = { m with pc := j } := by
  simp [goto, h]

theorem runs_as_cast (env : HelperEnv) (methods : Methods) (code code1 : List Instr) (m : State)
    (b b1 pc pc1 : Nat) (E E1 : Except Exn World) (h : runs_as env methods code m b E pc)
    (hc : code = code1) (hb : b ≤ b1) (hE : E = E1) (hpc : pc = pc1) :
    runs_as env methods code1 m b1 E1 pc1 := by
  subst hc hE hpc
  exact runs_as_mono env methods code m b b1 pc E hb h

/-- Some instructions run first. -/
theorem runs_as_after (env : HelperEnv) (methods : Methods) (code : List Instr) (m m1 : State)
    (j b pc : Nat) (E : Except Exn World)
    (hj : ∀ fuel, run env methods code (fuel + j) m = run env methods code fuel m1)
    (h : runs_as env methods code m1 b E pc) : runs_as env methods code m (j + b) E pc := by
  obtain ⟨k, hk, rax, zf, sf, hr⟩ := h
  refine ⟨k + j, by omega, rax, zf, sf, fun fuel => ?_⟩
  rw [← Nat.add_assoc, hj (fuel + k), hr fuel]

/-- Some instructions that keep the fiber and the registers run last. -/
theorem runs_as_before (env : HelperEnv) (methods : Methods) (code : List Instr) (m : State)
    (j b pc pc1 : Nat) (E : Except Exn World) (h : runs_as env methods code m b E pc)
    (hj : ∀ (w : World) rax zf sf fuel,
      run env methods code (fuel + j) ⟨w.1, w.2, rax, zf, sf, pc, none⟩ =
        run env methods code fuel ⟨w.1, w.2, rax, zf, sf, pc1, none⟩) :
    runs_as env methods code m (b + j) E pc1 := by
  obtain ⟨k, hk, rax, zf, sf, hr⟩ := h
  refine ⟨j + k, by omega, rax, zf, sf, fun fuel => ?_⟩
  rw [← Nat.add_assoc, hr (fuel + j)]
  cases E with
  | error e => rfl
  | ok w => exact hj w rax zf sf fuel

theorem runs_as_error (env : HelperEnv) (methods : Methods) (code : List Instr) (m : State)
    (j b pc : Nat) (e : Exn) (hle : j ≤ b)
    (hj : ∀ fuel, run env methods code (fuel + j) m = .error e) :
    runs_as env methods code m b (.error e) pc :=
  ⟨j, hle, 0, false, false, fun fuel => by rw [hj fuel]; rfl⟩

theorem run_jmp_bind (env : HelperEnv) (methods : Methods) (code : List Instr)
    (m : State) (l l1 j : Nat) (h : code.get? m.pc = some (.jmp_rel l))
    (hl : find_label l code = some j) (hb : code.get? j = some (.bind l1)) (fuel : Nat) :
    run env methods code (fuel + 2) m = run env methods code fuel { m with pc := j + 1 } := by
  rw [show fuel + 2 = (fuel + 1) + 1 from rfl, run_jmp_rel env methods code _ m l h,
    goto_some code m l j hl, run_bind env methods code fuel _ l1 hb]

theorem run_bool_error (env : HelperEnv) (methods : Methods) (code : List Instr)
    (fbr : FiberImpl) (t : Nat → Option MethodImpl) (rax : Int) (zf sf : Bool) (pc : Nat)
    (e : Exn) (h0 : code.get? pc = some (.emit_call .exec_bool))
    (hb : fbr.exec_bool env = .error e) (fuel : Nat) :
    run env methods code (fuel + 1) ⟨fbr, t, rax, zf, sf, pc, none⟩ = .error e := by
  rw [run_emit_call env methods code fuel _ _ h0]
  simp only [exec_call, hb]
  rfl

theorem run_bool_true (env : HelperEnv) (methods : Methods) (code : List Instr)
    (fbr fbr1 : FiberImpl) (t : Nat → Option MethodImpl) (rax : Int) (zf sf : Bool) (pc l : Nat)
    (h0 : code.get? pc = some (.emit_call .exec_bool))
    (h1 : code.get? (pc + 1) = some .test_rax_rax)
    (h2 : code.get? (pc + 2) = some (.jz l))
    (hb : fbr.exec_bool env = .ok (fbr1, true)) (fuel : Nat) :
    run env methods code (fuel + 3) ⟨fbr, t, rax, zf, sf, pc, none⟩ =
      run env methods code fuel ⟨fbr1, t, 1, false, false, pc + 3, none⟩ := by
  rw [show fuel + 3 = (fuel + 2) + 1 from rfl, run_emit_call env methods code _ _ _ h0]
  simp only [exec_call, hb]
  show run env methods code (fuel + 1 + 1) ⟨fbr1, t, 1, zf, sf, pc + 1, none⟩ = _
  rw [run_test env methods code _ _ h1]
  show run env methods code (fuel + 1) ⟨fbr1, t, 1, false, false, pc + 1 + 1, none⟩ = _
  rw [run_jz env methods code _ _ l h2]
  rfl

theorem run_bool_false (env : HelperEnv) (methods : Methods) (code : List Instr)
    (fbr fbr1 : FiberImpl) (t : Nat → Option MethodImpl) (rax : Int) (zf sf : Bool)
    (pc l l1 j : Nat)
    (h0 : code.get? pc = some (.emit_call .exec_bool))
    (h1 : code.get? (pc + 1) = some .test_rax_rax)
    (h2 : code.get? (pc + 2) = some (.jz l))
    (hl : find_label l code = some j) (hj : code.get? j = some (.bind l1))
    (hb : fbr.exec_bool env = .ok (fbr1, false)) (fuel : Nat) :
    run env methods code (fuel + 4) ⟨fbr, t, rax, zf, sf, pc, none⟩ =
      run env methods code fuel ⟨fbr1, t, 0, true, false, j + 1, none⟩ := by
  rw [show fuel + 4 = (fuel + 3) + 1 from rfl, run_emit_call env methods code _ _ _ h0]
  simp only [exec_call, hb]
  show run env methods code (fuel + 2 + 1) ⟨fbr1, t, 0, zf, sf, pc + 1, none⟩ = _
  rw [run_test env methods code _ _ h1]
  show run env methods code (fuel + 1 + 1) ⟨fbr1, t, 0, true, false, pc + 1 + 1, none⟩ = _
  rw [run_jz env methods code _ _ l h2]
  show run env methods code (fuel + 1) (goto code _ l) = _
  rw [goto_some code _ l j hl, run_bind env methods code fuel _ l1 hj]

theorem run_apply_error (env : HelperEnv) (methods : Methods) (code : List Instr)
    (fbr : FiberImpl) (t : Nat → Option MethodImpl) (rax : Int) (zf sf : Bool) (pc l : Nat)
    (apply : AST.Apply) (e : Exn)
    (h0 : code.get? pc = some (.bind l))
    (h1 : code.get? (pc + 1) = some (.call_target apply))
    (hc : call_target methods fbr t apply = .error e) (fuel : Nat) :
    run env methods code (fuel + 2) ⟨fbr, t, rax, zf, sf, pc, none⟩ = .error e := by
  rw [show fuel + 2 = (fuel + 1) + 1 from rfl, run_bind env methods code _ _ l h0]
  show run env methods code (fuel + 1) ⟨fbr, t, rax, zf, sf, pc + 1, none⟩ = _
  rw [run_call_target env methods code _ _ apply h1]
  simp only [hc]
  rfl

theorem run_apply_zero (env : HelperEnv) (methods : Methods) (code : List Instr)
    (fbr fbr1 : FiberImpl) (t t1 : Nat → Option MethodImpl) (rax : Int) (zf sf : Bool)
    (pc l l1 l2 j : Nat) (apply : AST.Apply)
    (h0 : code.get? pc = some (.bind l))
    (h1 : code.get? (pc + 1) = some (.call_target apply))
    (h2 : code.get? (pc + 2) = some .test_rax_rax)
    (h3 : code.get? (pc + 3) = some (.jz l1))
    (hl : find_label l1 code = some j) (hj : code.get? j = some (.bind l2))
    (hc : call_target methods fbr t apply = .ok (fbr1, t1, 0)) (fuel : Nat) :
    run env methods code (fuel + 5) ⟨fbr, t, rax, zf, sf, pc, none⟩ =
      run env methods code fuel ⟨fbr1, t1, 0, true, false, j + 1, none⟩ := by
  rw [show fuel + 5 = (fuel + 4) + 1 from rfl, run_bind env methods code _ _ l h0]
  show run env methods code (fuel + 3 + 1) ⟨fbr, t, rax, zf, sf, pc + 1, none⟩ = _
  rw [run_call_target env methods code _ _ apply h1]
  simp only [hc]
  show run env methods code (fuel + 2 + 1) ⟨fbr1, t1, 0, zf, sf, pc + 1 + 1, none⟩ = _
  rw [run_test env methods code _ _ h2]
  show run env methods code (fuel + 1 + 1) ⟨fbr1, t1, 0, true, false, pc + 1 + 1 + 1, none⟩ = _
  rw [run_jz env methods code _ _ l1 h3]
  show run env methods code (fuel + 1) (goto code _ l1) = _
  rw [goto_some code _ l1 j hl, run_bind env methods code fuel _ l2 hj]

/-- The code of a node that is a single helper call. -/
theorem runs_as_leaf (env : HelperEnv) (methods : Methods) (x64 x64' : X64Assembler)
    (c : List Instr) (call : Call) (E : Except Exn World)
    (pre post : List Instr) (fbr : FiberImpl) (t : Nat → Option MethodImpl) (rax : Int)
    (zf sf : Bool) (h : x64' = x64.emit [.emit_call call]) (hcode : x64'.code = x64.code ++ c)
    (hE : (exec_call env fbr call).bind (fun r => .ok (r.1, t)) = E) :
    runs_as env methods (pre ++ c ++ post) ⟨fbr, t, rax, zf, sf, pre.length, none⟩ c.length E
      (pre.length + c.length) := by
  subst h
  simp only [X64Assembler.emit] at hcode
  have hc : c = [.emit_call call] := (List.append_cancel_left hcode).symm
  subst hc
  have hget : (pre ++ [Instr.emit_call call] ++ post).get? pre.length =
      some (.emit_call call) := by
    have := get_in pre [Instr.emit_call call] post 0 (by simp)
    simpa using this
  exact runs_as_cast env methods _ _ _ _ _ _ _ _ _
    (runs_as_emit_call env methods _ fbr t rax zf sf pre.length call hget) rfl
    (Nat.le_refl _) hE rfl

end X64

end park

namespace park

namespace X64

theorem get_mid (pre c L post : List Instr) (k : Nat) (h : k < L.length) :
    (pre ++ c ++ (L ++ post)).get? (pre.length + c.length + k) = L.get? k := by
  have := get_in (pre ++ c) L post k h
  rw [List.length_append] at this
  rw [← List.append_assoc]
  exact this

theorem exec_call_literal (env : HelperEnv) (fbr : FiberImpl) (t : Nat → Option MethodImpl)
    (methods : Methods) (v : value_t) :
    (exec_call env fbr (.exec_literal v)).bind (fun r => .ok (r.1, t)) =
      described_effect env methods (.Literal v) (fbr, t) := by
  simp only [exec_call, described_effect, bind, pure, Except.pure]
  cases fbr.exec_literal v <;> rfl

theorem exec_call_symbol (env : HelperEnv) (fbr : FiberImpl) (t : Nat → Option MethodImpl)
    (methods : Methods) (v : Nat) :
    (exec_call env fbr (.exec_symbol v)).bind (fun r => .ok (r.1, t)) =
      described_effect env methods (.Symbol v) (fbr, t) := by
  simp only [exec_call, described_effect, bind, pure, Except.pure]
  cases fbr.exec_symbol env v <;> rfl

theorem exec_call_builtin (env : HelperEnv) (fbr : FiberImpl) (t : Nat → Option MethodImpl)
    (methods : Methods) (v : value_t) :
    (exec_call env fbr (.exec_builtin v)).bind (fun r => .ok (r.1, t)) =
      described_effect env methods (.Builtin v) (fbr, t) := by
  simp only [exec_call, described_effect, bind, pure, Except.pure]
  cases fbr.exec_builtin v <;> rfl

theorem exec_call_local (env : HelperEnv) (fbr : FiberImpl) (t : Nat → Option MethodImpl)
    (methods : Methods) (v : Nat) :
    (exec_call env fbr (.exec_local v)).bind (fun r => .ok (r.1, t)) =
      described_effect env methods (.Local v) (fbr, t) := by
  simp only [exec_call, described_effect, bind, pure, Except.pure]
  cases fbr.exec_local v <;> rfl

theorem exec_call_global (env : HelperEnv) (fbr : FiberImpl) (t : Nat → Option MethodImpl)
    (methods : Methods) (i : Bool) (v : Option Value) (n : Nat) :
    (exec_call env fbr (.exec_global i v n)).bind (fun r => .ok (r.1, t)) =
      described_effect env methods (.Global i v n) (fbr, t) := by
  simp only [exec_call, described_effect, bind, pure, Except.pure]
  cases fbr.exec_global env i v n <;> rfl

theorem exec_call_function (env : HelperEnv) (fbr : FiberImpl) (t : Nat → Option MethodImpl)
    (methods : Methods) (f : AST.Function) (v : List Nat) :
    (exec_call env fbr (.exec_function f v)).bind (fun r => .ok (r.1, t)) =
      described_effect env methods (.Function f v) (fbr, t) := by
  simp only [exec_call, described_effect, bind, pure, Except.pure]
  cases fbr.exec_function env f v <;> rfl

end X64

end park

namespace park

namespace X64

mutual
theorem visit_runs (env : HelperEnv) (methods : Methods) (b : X64Backend)
    (hm : ∀ target fbr apply out, methods target fbr apply = .ok out → out.2.2 = 0) :
    ∀ (n : AST.Node) (x64 x64' : X64Assembler) (c : List Instr), n.plain = true →
      b.visit n x64 = .ok x64' → x64'.code = x64.code ++ c →
      ∀ (pre post : List Instr) (fbr : FiberImpl) (t : Nat → Option MethodImpl) (rax : Int)
        (zf sf : Bool), (∀ l, l ∈ binds pre → l ≤ x64.labels) →
        runs_as env methods (pre ++ c ++ post) ⟨fbr, t, rax, zf, sf, pre.length, none⟩ c.length
          (described_effect env methods n (fbr, t)) (pre.length + c.length)
  | .Literal v, x64, x64', c, _, h, hcode, pre, post, fbr, t, rax, zf, sf, _ => by
    simp only [X64Backend.visit, Except.ok.injEq] at h
    exact runs_as_leaf env methods x64 x64' c _ _ pre post fbr t rax zf sf h.symm hcode
      (exec_call_literal env fbr t methods v)
  | .Symbol v, x64, x64', c, _, h, hcode, pre, post, fbr, t, rax, zf, sf, _ => by
    simp only [X64Backend.visit, Except.ok.injEq] at h
    exact runs_as_leaf env methods x64 x64' c _ _ pre post fbr t rax zf sf h.symm hcode
      (exec_call_symbol env fbr t methods v)
  | .Builtin v, x64, x64', c, _, h, hcode, pre, post, fbr, t, rax, zf, sf, _ => by
    simp only [X64Backend.visit, Except.ok.injEq] at h
    exact runs_as_leaf env methods x64 x64' c _ _ pre post fbr t rax zf sf h.symm hcode
      (exec_call_builtin env fbr t methods v)
  | .Local v, x64, x64', c, _, h, hcode, pre, post, fbr, t, rax, zf, sf, _ => by
    simp only [X64Backend.visit, Except.ok.injEq] at h
    exact runs_as_leaf env methods x64 x64' c _ _ pre post fbr t rax zf sf h.symm hcode
      (exec_call_local env fbr t methods v)
  | .Global i v n, x64, x64', c, _, h, hcode, pre, post, fbr, t, rax, zf, sf, _ => by
    simp only [X64Backend.visit, Except.ok.injEq] at h
    exact runs_as_leaf env methods x64 x64' c _ _ pre post fbr t rax zf sf h.symm hcode
      (exec_call_global env fbr t methods i v n)
  | .Function f v, x64, x64', c, _, h, hcode, pre, post, fbr, t, rax, zf, sf, _ => by
    simp only [X64Backend.visit, Except.ok.injEq] at h
    exact runs_as_leaf env methods x64 x64' c _ _ pre post fbr t rax zf sf h.symm hcode
      (exec_call_function env fbr t methods f v)
  | .Return _, _, _, _, hp, _, _, _, _, _, _, _, _, _, _ => by simp [AST.Node.plain] at hp
  | .Recur _, _, _, _, hp, _, _, _, _, _, _, _, _, _, _ => by simp [AST.Node.plain] at hp
  | .Let s e, x64, x64', c, hp, h, hcode, pre, post, fbr, t, rax, zf, sf, hpre => by
    simp only [AST.Node.plain] at hp
    simp only [X64Backend.visit, bind, Except.bind] at h
    cases he : b.visit e x64 with
    | error err => simp [he] at h
    | ok x1 =>
      simp only [he, pure, Except.pure, Except.ok.injEq] at h
      subst h
      obtain ⟨ce, e1, _, _, _⟩ := X64Backend.visit_emits b e x64 x1 hp he
      have hc : c = ce ++ [.emit_call (.exec_let s)] := by
        simp only [X64Assembler.emit, e1, List.append_assoc] at hcode
        exact (List.append_cancel_left hcode).symm
      subst hc
      have ih := visit_runs env methods b hm e x64 x1 ce hp he e1 pre
        ([.emit_call (.exec_let s)] ++ post) fbr t rax zf sf hpre
      have hseq := runs_as_seq env methods _ _ _ 1 _ (pre.length + ce.length + 1) _
        (fun w => (exec_call env w.1 (.exec_let s)).bind (fun r => .ok (r.1, w.2))) ih
        (fun w rax1 zf1 sf1 _ => runs_as_emit_call env methods _ w.1 w.2 rax1 zf1 sf1 _
          (.exec_let s) (get_mid pre ce [.emit_call (.exec_let s)] post 0 (by simp)))
      refine runs_as_cast env methods _ _ _ _ _ _ _ _ _ hseq (by simp) (by simp) ?_
        (by simp; omega)
      simp only [described_effect, exec_call, bind, pure, Except.pure]
      cases described_effect env methods e (fbr, t) with
      | error err => rfl
      | ok w =>
        simp only [Except.bind]
        cases w.1.exec_let env s <;> rfl
  | .Do stmts, x64, x64', c, hp, h, hcode, pre, post, fbr, t, rax, zf, sf, hpre => by
    simp only [AST.Node.plain, Bool.and_eq_true] at hp
    simp only [X64Backend.visit] at h
    have := visit_do_runs env methods b hm stmts x64 x64' c hp.2 h hcode pre post fbr t rax zf sf
      hpre
    simpa only [described_effect] using this
  | .Branch cond tb fb, x64, x64', c, hp, h, hcode, pre, post, fbr, t, rax, zf, sf, hpre => by
    simp only [AST.Node.plain, Bool.and_eq_true] at hp
    simp only [X64Backend.visit, bind, Except.bind] at h
    cases hc : b.visit cond { x64 with labels := x64.labels + 2 } with
    | error err => simp [hc] at h
    | ok x1 =>
      simp only [hc] at h
      cases ht : b.visit tb
          (x1.emit [.emit_call .exec_bool, .test_rax_rax, .jz (x64.labels + 1)]) with
      | error err => simp [ht] at h
      | ok x2 =>
        simp only [ht] at h
        cases hf : b.visit fb (x2.emit [.jmp_rel (x64.labels + 2), .bind (x64.labels + 1)]) with
        | error err => simp [hf] at h
        | ok x3 =>
          simp only [hf, pure, Except.pure, Except.ok.injEq] at h
          subst h
          obtain ⟨cc, c1, c2, c3, _⟩ := X64Backend.visit_emits b cond _ x1 hp.1.1 hc
          obtain ⟨ct, e1, e2, e3, _⟩ := X64Backend.visit_emits b tb _ x2 hp.1.2 ht
          obtain ⟨cf, f1, f2, f3, _⟩ := X64Backend.visit_emits b fb _ x3 hp.2 hf
          simp only [X64Assembler.emit] at e1 e2 e3 f1 f2 f3 c1 c2 c3
          have hcc : c = cc ++ ([.emit_call .exec_bool, .test_rax_rax, .jz (x64.labels + 1)] ++
              (ct ++ ([.jmp_rel (x64.labels + 2), .bind (x64.labels + 1)] ++
                (cf ++ [.bind (x64.labels + 2)])))) := by
            simp only [X64Assembler.emit, f1, e1, c1, List.append_assoc] at hcode
            exact (List.append_cancel_left hcode).symm
          subst hcc
          -- the code, with the places of its parts
          have hcode1 : pre ++ (cc ++ ([Instr.emit_call .exec_bool, .test_rax_rax,
              .jz (x64.labels + 1)] ++ (ct ++ ([Instr.jmp_rel (x64.labels + 2),
              .bind (x64.labels + 1)] ++ (cf ++ [Instr.bind (x64.labels + 2)]))))) ++ post =
              pre ++ cc ++ ([Instr.emit_call .exec_bool, .test_rax_rax, .jz (x64.labels + 1)] ++
                (ct ++ ([Instr.jmp_rel (x64.labels + 2), .bind (x64.labels + 1)] ++
                (cf ++ [Instr.bind (x64.labels + 2)])) ++ post)) := by
            simp only [List.append_assoc]
          have hcode2 : pre ++ (cc ++ ([Instr.emit_call .exec_bool, .test_rax_rax,
              .jz (x64.labels + 1)] ++ (ct ++ ([Instr.jmp_rel (x64.labels + 2),
              .bind (x64.labels + 1)] ++ (cf ++ [Instr.bind (x64.labels + 2)]))))) ++ post =
              (pre ++ cc ++ [Instr.emit_call .exec_bool, .test_rax_rax, .jz (x64.labels + 1)]) ++
                ct ++ ([Instr.jmp_rel (x64.labels + 2), .bind (x64.labels + 1)] ++
                (cf ++ [Instr.bind (x64.labels + 2)] ++ post)) := by
            simp only [List.append_assoc]
          have hcode3 : pre ++ (cc ++ ([Instr.emit_call .exec_bool, .test_rax_rax,
              .jz (x64.labels + 1)] ++ (ct ++ ([Instr.jmp_rel (x64.labels + 2),
              .bind (x64.labels + 1)] ++ (cf ++ [Instr.bind (x64.labels + 2)]))))) ++ post =
              (pre ++ cc ++ [Instr.emit_call .exec_bool, .test_rax_rax, .jz (x64.labels + 1)] ++
                ct ++ [Instr.jmp_rel (x64.labels + 2), .bind (x64.labels + 1)]) ++
                cf ++ ([Instr.bind (x64.labels + 2)] ++ post) := by
            simp only [List.append_assoc]
          have hcode4 : pre ++ (cc ++ ([Instr.emit_call .exec_bool, .test_rax_rax,
              .jz (x64.labels + 1)] ++ (ct ++ ([Instr.jmp_rel (x64.labels + 2),
              .bind (x64.labels + 1)] ++ (cf ++ [Instr.bind (x64.labels + 2)]))))) ++ post =
              (pre ++ cc ++ [Instr.emit_call .exec_bool, .test_rax_rax, .jz (x64.labels + 1)] ++
                ct ++ [Instr.jmp_rel (x64.labels + 2)]) ++
                .bind (x64.labels + 1) :: (cf ++ [Instr.bind (x64.labels + 2)] ++ post) := by
            simp only [List.append_assoc, List.cons_append, List.nil_append]
          have hcode5 : pre ++ (cc ++ ([Instr.emit_call .exec_bool, .test_rax_rax,
              .jz (x64.labels + 1)] ++ (ct ++ ([Instr.jmp_rel (x64.labels + 2),
              .bind (x64.labels + 1)] ++ (cf ++ [Instr.bind (x64.labels + 2)]))))) ++ post =
              (pre ++ cc ++ [Instr.emit_call .exec_bool, .test_rax_rax, .jz (x64.labels + 1)] ++
                ct ++ [Instr.jmp_rel (x64.labels + 2), .bind (x64.labels + 1)] ++ cf) ++
                .bind (x64.labels + 2) :: post := by
            simp only [List.append_assoc, List.cons_append, List.nil_append]
          -- the instructions at these places
          have g0 := get_mid pre cc [Instr.emit_call .exec_bool, .test_rax_rax,
            .jz (x64.labels + 1)] ((ct ++ ([Instr.jmp_rel (x64.labels + 2),
            .bind (x64.labels + 1)] ++ (cf ++ [Instr.bind (x64.labels + 2)])) ++ post)) 0 (by simp)
          have g1 := get_mid pre cc [Instr.emit_call .exec_bool, .test_rax_rax,
            .jz (x64.labels + 1)] ((ct ++ ([Instr.jmp_rel (x64.labels + 2),
            .bind (x64.labels + 1)] ++ (cf ++ [Instr.bind (x64.labels + 2)])) ++ post)) 1 (by simp)
          have g2 := get_mid pre cc [Instr.emit_call .exec_bool, .test_rax_rax,
            .jz (x64.labels + 1)] ((ct ++ ([Instr.jmp_rel (x64.labels + 2),
            .bind (x64.labels + 1)] ++ (cf ++ [Instr.bind (x64.labels + 2)])) ++ post)) 2 (by simp)
          rw [← hcode1] at g0 g1 g2
          simp only [List.get?_cons_zero, List.get?_cons_succ, Nat.add_zero] at g0 g1 g2
          have g3 := get_mid (pre ++ cc ++ [Instr.emit_call .exec_bool, .test_rax_rax,
            .jz (x64.labels + 1)]) ct [Instr.jmp_rel (x64.labels + 2), .bind (x64.labels + 1)]
            (cf ++ [Instr.bind (x64.labels + 2)] ++ post) 0 (by simp)
          rw [← hcode2] at g3
          simp only [List.get?_cons_zero, Nat.add_zero] at g3
          have g4 := get_at (pre ++ cc ++ [Instr.emit_call .exec_bool, .test_rax_rax,
            .jz (x64.labels + 1)] ++ ct ++ [Instr.jmp_rel (x64.labels + 2)])
            (.bind (x64.labels + 1)) (cf ++ [Instr.bind (x64.labels + 2)] ++ post)
          rw [← hcode4] at g4
          have g5 := get_at (pre ++ cc ++ [Instr.emit_call .exec_bool, .test_rax_rax,
            .jz (x64.labels + 1)] ++ ct ++ [Instr.jmp_rel (x64.labels + 2),
            .bind (x64.labels + 1)] ++ cf) (.bind (x64.labels + 2)) post
          rw [← hcode5] at g5
          -- the places of the two labels
          have l1 := find_label_at (x64.labels + 1) (pre ++ cc ++ [Instr.emit_call .exec_bool,
            .test_rax_rax, .jz (x64.labels + 1)] ++ ct ++ [Instr.jmp_rel (x64.labels + 2)])
            (cf ++ [Instr.bind (x64.labels + 2)] ++ post) (by
              simp only [binds_append, binds, List.append_nil, List.mem_append, not_or]
              refine ⟨⟨fun hl => ?_, fun hl => ?_⟩, fun hl => ?_⟩
              · have := hpre _ hl; omega
              · have := c3 _ hl; omega
              · have := e3 _ hl; omega)
          rw [← hcode4] at l1
          have l2 := find_label_at (x64.labels + 2) (pre ++ cc ++ [Instr.emit_call .exec_bool,
            .test_rax_rax, .jz (x64.labels + 1)] ++ ct ++ [Instr.jmp_rel (x64.labels + 2),
            .bind (x64.labels + 1)] ++ cf) post (by
              simp only [binds_append, binds, List.append_nil, List.mem_append, not_or,
                List.mem_singleton]
              refine ⟨⟨⟨⟨fun hl => ?_, fun hl => ?_⟩, fun hl => ?_⟩, by omega⟩, fun hl => ?_⟩
              · have := hpre _ hl; omega
              · have := c3 _ hl; omega
              · have := e3 _ hl; omega
              · have := f3 _ hl; omega)
          rw [← hcode5] at l2
          -- the condition
          have ihc := visit_runs env methods b hm cond _ x1 cc hp.1.1 hc c1 pre
            ([Instr.emit_call .exec_bool, .test_rax_rax, .jz (x64.labels + 1)] ++
              (ct ++ ([Instr.jmp_rel (x64.labels + 2), .bind (x64.labels + 1)] ++
              (cf ++ [Instr.bind (x64.labels + 2)])) ++ post)) fbr t rax zf sf
            (fun l hl => by have := hpre l hl; simp only; omega)
          rw [← hcode1] at ihc
          -- the arms
          have iht := fun fbr1 t1 rax1 zf1 sf1 => visit_runs env methods b hm tb _ x2 ct hp.1.2
            ht e1 (pre ++ cc ++ [Instr.emit_call .exec_bool, .test_rax_rax,
              .jz (x64.labels + 1)])
            ([Instr.jmp_rel (x64.labels + 2), .bind (x64.labels + 1)] ++
              (cf ++ [Instr.bind (x64.labels + 2)] ++ post)) fbr1 t1 rax1 zf1 sf1
            (fun l hl => by
              simp only [binds_append, binds, List.append_nil, List.mem_append] at hl
              simp only [X64Assembler.emit]
              rcases hl with hl | hl
              · have := hpre l hl; omega
              · have := c3 l hl; omega)
          rw [← hcode2] at iht
          have ihf := fun fbr1 t1 rax1 zf1 sf1 => visit_runs env methods b hm fb _ x3 cf hp.2
            hf f1 (pre ++ cc ++ [Instr.emit_call .exec_bool, .test_rax_rax,
              .jz (x64.labels + 1)] ++ ct ++ [Instr.jmp_rel (x64.labels + 2),
              .bind (x64.labels + 1)])
            ([Instr.bind (x64.labels + 2)] ++ post) fbr1 t1 rax1 zf1 sf1
            (fun l hl => by
              simp only [binds_append, binds, List.append_nil, List.mem_append,
                List.mem_singleton] at hl
              simp only [X64Assembler.emit]
              rcases hl with ((hl | hl) | hl) | hl
              · have := hpre l hl; omega
              · have := c3 l hl; omega
              · have := e3 l hl; omega
              · omega)
          rw [← hcode3] at ihf
          simp only [List.length_append, List.length_cons, List.length_nil] at g3 g4 g5 l1 l2 iht ihf
          have hseq := runs_as_seq env methods _ _ _
            (3 + ct.length + 2 + cf.length + 1) _
            (pre.length + (cc.length + (3 + (ct.length + (2 + (cf.length + 1)))))) _
            (fun w => (w.1.exec_bool env).bind (fun r =>
              if r.2 then described_effect env methods tb (r.1, w.2)
              else described_effect env methods fb (r.1, w.2))) ihc
            (fun w rax1 zf1 sf1 _ => by
              show runs_as env methods _ _ (3 + ct.length + 2 + cf.length + 1)
                ((w.1.exec_bool env).bind (fun r =>
                  if r.2 then described_effect env methods tb (r.1, w.2)
                  else described_effect env methods fb (r.1, w.2))) _
              cases hb : w.1.exec_bool env with
              | error err =>
                exact runs_as_error env methods _ _ 1 (3 + ct.length + 2 + cf.length + 1) _ err
                  (by omega) (run_bool_error env methods _ w.1 w.2 rax1 zf1 sf1 _ err g0 hb)
              | ok r =>
                obtain ⟨fbr1, cnd⟩ := r
                cases cnd with
                | true =>
                  have h3 := run_bool_true env methods _ w.1 fbr1 w.2 rax1 zf1 sf1 _ _ g0 g1 g2 hb
                  have ha := runs_as_after env methods _ _ _ 3 _ _ _ h3
                    (runs_as_before env methods _ _ 2 _ _
                      (pre.length + (cc.length + (3 + (ct.length + (2 + (cf.length + 1)))))) _
                      (iht fbr1 w.2 1 false false)
                      (fun w1 rax2 zf2 sf2 fuel => by
                        have := run_jmp_bind env methods _
                          ⟨w1.1, w1.2, rax2, zf2, sf2, _, none⟩ _ _ _ g3 l2 g5 fuel
                        rw [this]
                        congr 2
                        omega))
                  exact runs_as_cast env methods _ _ _ _ _ _ _ _ _ ha rfl (by omega) rfl rfl
                | false =>
                  have h4 := run_bool_false env methods _ w.1 fbr1 w.2 rax1 zf1 sf1 _ _ _ _
                    g0 g1 g2 l1 g4 hb
                  have ha := runs_as_after env methods _ _ _ 4 _ _ _ h4
                    (runs_as_before env methods _ _ 1 _ _
                      (pre.length + (cc.length + (3 + (ct.length + (2 + (cf.length + 1)))))) _
                      (ihf fbr1 w.2 0 true false)
                      (fun w1 rax2 zf2 sf2 fuel => by
                        have := run_bind env methods _ fuel
                          ⟨w1.1, w1.2, rax2, zf2, sf2, _, none⟩ _ g5
                        rw [this]
                        congr 2
                        simp only
                        omega))
                  exact runs_as_cast env methods _ _ _ _ _ _ _ _ _ ha rfl (by omega) rfl rfl)
          have heff : (described_effect env methods cond (fbr, t)).bind (fun w =>
              (w.1.exec_bool env).bind (fun r =>
                if r.2 then described_effect env methods tb (r.1, w.2)
                else described_effect env methods fb (r.1, w.2))) =
              described_effect env methods (.Branch cond tb fb) (fbr, t) := by
            simp only [described_effect, bind]
          exact runs_as_cast env methods _ _ _ _ _ _ _ _ _ hseq rfl
            (by simp only [List.length_append, List.length_cons, List.length_nil]; omega) heff
            (by simp only [List.length_append, List.length_cons, List.length_nil])
  | .Apply addr throws_ target_ callable_ arguments_, x64, x64', c, hp, h, hcode, pre, post, fbr,
      t, rax, zf, sf, hpre => by
    simp only [AST.Node.plain, Bool.and_eq_true] at hp
    simp only [X64Backend.visit, bind, Except.bind] at h
    split at h
    · simp at h
    · cases hc : b.visit callable_ { x64 with labels := x64.labels + 4 } with
      | error err => simp [hc] at h
      | ok x1 =>
        simp only [hc] at h
        cases ha : b.visit_arguments arguments_ x1 with
        | error err => simp [ha] at h
        | ok x2 =>
          simp only [ha, pure, Except.pure, Except.ok.injEq] at h
          subst h
          obtain ⟨cc, c1, c2, c3, _⟩ := X64Backend.visit_emits b callable_ _ x1 hp.1 hc
          obtain ⟨ca, a1, a2, a3, _⟩ :=
            X64Backend.visit_arguments_emits b arguments_ _ x2 hp.2 ha
          simp only at c1 c2 c3
          have hcc : c = cc ++ (ca ++ b.apply_code ⟨addr, arguments_.length, throws_, target_⟩
              (x64.labels + 1) (x64.labels + 2) (x64.labels + 3) (x64.labels + 4)) := by
            simp only [X64Backend.apply_call, X64Assembler.emit, a1, c1,
              List.append_assoc] at hcode
            exact (List.append_cancel_left hcode).symm
          subst hcc
          have hcode1 : pre ++ (cc ++ (ca ++ b.apply_code
              ⟨addr, arguments_.length, throws_, target_⟩
              (x64.labels + 1) (x64.labels + 2) (x64.labels + 3) (x64.labels + 4))) ++ post =
              pre ++ cc ++ (ca ++ b.apply_code ⟨addr, arguments_.length, throws_, target_⟩
              (x64.labels + 1) (x64.labels + 2) (x64.labels + 3) (x64.labels + 4) ++ post) := by
            simp only [List.append_assoc]
          have hcode2 : pre ++ (cc ++ (ca ++ b.apply_code
              ⟨addr, arguments_.length, throws_, target_⟩
              (x64.labels + 1) (x64.labels + 2) (x64.labels + 3) (x64.labels + 4))) ++ post =
              (pre ++ cc) ++ ca ++ (b.apply_code ⟨addr, arguments_.length, throws_, target_⟩
              (x64.labels + 1) (x64.labels + 2) (x64.labels + 3) (x64.labels + 4) ++ post) := by
            simp only [List.append_assoc]
          have hcode3 : pre ++ (cc ++ (ca ++ b.apply_code
              ⟨addr, arguments_.length, throws_, target_⟩
              (x64.labels + 1) (x64.labels + 2) (x64.labels + 3) (x64.labels + 4))) ++ post =
              (pre ++ cc ++ ca ++ (b.apply_code ⟨addr, arguments_.length, throws_, target_⟩
              (x64.labels + 1) (x64.labels + 2) (x64.labels + 3) (x64.labels + 4)).take 13) ++
              .bind (x64.labels + 3) :: post := by
            simp only [List.append_assoc, X64Backend.apply_code, List.take, List.cons_append,
              List.nil_append]
          have g := fun k hk => get_mid (pre ++ cc) ca (b.apply_code
            ⟨addr, arguments_.length, throws_, target_⟩
            (x64.labels + 1) (x64.labels + 2) (x64.labels + 3) (x64.labels + 4)) post k hk
          rw [← hcode2] at g
          have g0 := g 0 (by simp [X64Backend.apply_code])
          have g1 := g 1 (by simp [X64Backend.apply_code])
          have g2 := g 2 (by simp [X64Backend.apply_code])
          have g3 := g 3 (by simp [X64Backend.apply_code])
          rw [show (b.apply_code ⟨addr, arguments_.length, throws_, target_⟩ (x64.labels + 1)
            (x64.labels + 2) (x64.labels + 3) (x64.labels + 4)).get? 0 =
            some (.bind (x64.labels + 1)) from rfl] at g0
          simp only [Nat.add_zero] at g0
          rw [show (b.apply_code ⟨addr, arguments_.length, throws_, target_⟩ (x64.labels + 1)
            (x64.labels + 2) (x64.labels + 3) (x64.labels + 4)).get? 1 =
            some (.call_target ⟨addr, arguments_.length, throws_, target_⟩) from rfl] at g1
          rw [show (b.apply_code ⟨addr, arguments_.length, throws_, target_⟩ (x64.labels + 1)
            (x64.labels + 2) (x64.labels + 3) (x64.labels + 4)).get? 2 =
            some .test_rax_rax from rfl] at g2
          rw [show (b.apply_code ⟨addr, arguments_.length, throws_, target_⟩ (x64.labels + 1)
            (x64.labels + 2) (x64.labels + 3) (x64.labels + 4)).get? 3 =
            some (.jz (x64.labels + 3)) from rfl] at g3
          have g5 := get_at (pre ++ cc ++ ca ++ (b.apply_code
            ⟨addr, arguments_.length, throws_, target_⟩
            (x64.labels + 1) (x64.labels + 2) (x64.labels + 3) (x64.labels + 4)).take 13)
            (.bind (x64.labels + 3)) post
          rw [← hcode3] at g5
          have l3 := find_label_at (x64.labels + 3) (pre ++ cc ++ ca ++ (b.apply_code
            ⟨addr, arguments_.length, throws_, target_⟩
            (x64.labels + 1) (x64.labels + 2) (x64.labels + 3) (x64.labels + 4)).take 13) post (by
              simp only [binds_append, binds, X64Backend.apply_code, List.take, List.append_nil,
                List.mem_append, not_or, List.mem_cons, List.mem_singleton, List.not_mem_nil,
                or_false]
              refine ⟨⟨⟨fun hl => ?_, fun hl => ?_⟩, fun hl => ?_⟩, by omega⟩
              · have := hpre _ hl; omega
              · have := c3 _ hl; omega
              · have := a3 _ hl; omega)
          rw [← hcode3] at l3
          have ihc := visit_runs env methods b hm callable_ _ x1 cc hp.1 hc c1 pre
            (ca ++ b.apply_code ⟨addr, arguments_.length, throws_, target_⟩
              (x64.labels + 1) (x64.labels + 2) (x64.labels + 3) (x64.labels + 4) ++ post)
            fbr t rax zf sf (fun l hl => by have := hpre l hl; simp only; omega)
          rw [← hcode1] at ihc
          have iha := fun fbr1 t1 rax1 zf1 sf1 => visit_arguments_runs env methods b hm
            arguments_ x1 x2 ca hp.2 ha a1 (pre ++ cc)
            (b.apply_code ⟨addr, arguments_.length, throws_, target_⟩
              (x64.labels + 1) (x64.labels + 2) (x64.labels + 3) (x64.labels + 4) ++ post)
            fbr1 t1 rax1 zf1 sf1
            (fun l hl => by
              simp only [binds_append, List.mem_append] at hl
              rcases hl with hl | hl
              · have := hpre l hl; omega
              · have := c3 l hl; omega)
          rw [← hcode2] at iha
          have htake : ((b.apply_code ⟨addr, arguments_.length, throws_, target_⟩
            (x64.labels + 1) (x64.labels + 2) (x64.labels + 3) (x64.labels + 4)).take 13).length =
            13 := rfl
          simp only [List.length_append, htake] at g0 g1 g2 g3 g5 l3 iha
          have hseq := runs_as_seq env methods _ _ _ (ca.length + 14) _
            (pre.length + (cc.length + (ca.length + 14))) _
            (fun w => (described_effect_arguments env methods arguments_ w).bind (fun w1 =>
              (call_target methods w1.1 w1.2 ⟨addr, arguments_.length, throws_, target_⟩).bind
                (fun r => .ok (r.1, r.2.1)))) ihc
            (fun w rax1 zf1 sf1 _ =>
              runs_as_seq env methods _ _ _ 14 _ (pre.length + (cc.length + (ca.length + 14))) _
                (fun w1 =>
                  (call_target methods w1.1 w1.2 ⟨addr, arguments_.length, throws_, target_⟩).bind
                    (fun r => .ok (r.1, r.2.1))) (iha w.1 w.2 rax1 zf1 sf1)
                (fun w1 rax2 zf2 sf2 _ => by
                  show runs_as env methods _ _ 14
                    ((call_target methods w1.1 w1.2
                      ⟨addr, arguments_.length, throws_, target_⟩).bind
                        (fun r => .ok (r.1, r.2.1))) _
                  cases hct : call_target methods w1.1 w1.2
                      ⟨addr, arguments_.length, throws_, target_⟩ with
                  | error err =>
                    exact runs_as_error env methods _ _ 2 14 _ err (by omega)
                      (run_apply_error env methods _ w1.1 w1.2 rax2 zf2 sf2 _ _ _ err g0 g1 hct)
                  | ok r =>
                    obtain ⟨fbr1, t1, rax3⟩ := r
                    have hz : rax3 = 0 := by
                      simp only [call_target, bind, Except.bind] at hct
                      split at hct
                      · cases hct
                      · rename_i out hout
                        have := hm _ _ _ _ hout
                        simp only [pure, Except.pure, Except.ok.injEq, Prod.mk.injEq] at hct
                        rw [← hct.2.2]
                        exact this
                    subst hz
                    have h5 := run_apply_zero env methods _ w1.1 fbr1 w1.2 t1 rax2 zf2 sf2 _ _ _ _
                      _ _ g0 g1 g2 g3 l3 g5 hct
                    refine ⟨5, by omega, 0, true, false, fun fuel => ?_⟩
                    rw [h5 fuel]
                    simp only [Except.bind]
                    congr 2
                    omega))
          have heff : (described_effect env methods callable_ (fbr, t)).bind (fun w =>
              (described_effect_arguments env methods arguments_ w).bind (fun w1 =>
                (call_target methods w1.1 w1.2 ⟨addr, arguments_.length, throws_, target_⟩).bind
                  (fun r => .ok (r.1, r.2.1)))) =
              described_effect env methods (.Apply addr throws_ target_ callable_ arguments_)
                (fbr, t) := by
            simp only [described_effect, bind]
            cases described_effect env methods callable_ (fbr, t) with
            | error err => rfl
            | ok w =>
              simp only [Except.bind]
              cases described_effect_arguments env methods arguments_ w with
              | error err => rfl
              | ok w1 =>
                simp only []
                cases call_target methods w1.1 w1.2
                    ⟨addr, arguments_.length, throws_, target_⟩ with
                | error err => rfl
                | ok r => rfl
          have hlen : (b.apply_code ⟨addr, arguments_.length, throws_, target_⟩
            (x64.labels + 1) (x64.labels + 2) (x64.labels + 3) (x64.labels + 4)).length = 14 := rfl
          exact runs_as_cast env methods _ _ _ _ _ _ _ _ _ hseq rfl
            (by simp only [List.length_append, hlen]; omega) heff
            (by simp only [List.length_append, hlen])
theorem visit_do_runs (env : HelperEnv) (methods : Methods) (b : X64Backend)
    (hm : ∀ target fbr apply out, methods target fbr apply = .ok out → out.2.2 = 0) :
    ∀ (stmts : List AST.Node) (x64 x64' : X64Assembler) (c : List Instr),
      AST.Node.plain_list stmts = true →
      b.visit_do stmts x64 = .ok x64' → x64'.code = x64.code ++ c →
      ∀ (pre post : List Instr) (fbr : FiberImpl) (t : Nat → Option MethodImpl) (rax : Int)
        (zf sf : Bool), (∀ l, l ∈ binds pre → l ≤ x64.labels) →
        runs_as env methods (pre ++ c ++ post) ⟨fbr, t, rax, zf, sf, pre.length, none⟩ c.length
          (described_effect_do env methods stmts (fbr, t)) (pre.length + c.length)
  | [], x64, x64', c, _, h, hcode, pre, post, fbr, t, rax, zf, sf, _ => by
    simp only [X64Backend.visit_do, Except.ok.injEq] at h
    subst h
    have hc : c = [] := by
      have : x64.code ++ [] = x64.code ++ c := by simpa using hcode
      exact (List.append_cancel_left this).symm
    subst hc
    exact runs_as_cast env methods _ _ _ _ _ _ _ _ _
      (runs_as_nil env methods _ fbr t rax zf sf pre.length) rfl (Nat.le_refl _)
      (by simp [described_effect_do]) (by simp)
  | s :: rest, x64, x64', c, hp, h, hcode, pre, post, fbr, t, rax, zf, sf, hpre => by
    simp only [AST.Node.plain_list, Bool.and_eq_true] at hp
    simp only [X64Backend.visit_do, bind, Except.bind] at h
    cases hs : b.visit s x64 with
    | error err => simp [hs] at h
    | ok x1 =>
      simp only [hs] at h
      obtain ⟨cs, s1, s2, s3, _⟩ := X64Backend.visit_emits b s x64 x1 hp.1 hs
      obtain ⟨cr, r1, _, _, _⟩ := X64Backend.visit_do_emits b rest _ x64' hp.2 h
      cases rest with
      | nil =>
        simp only [X64Backend.visit_do, List.isEmpty_nil, if_true, Except.ok.injEq] at h
        subst h
        have ih := visit_runs env methods b hm s x64 x1 c hp.1 hs hcode pre post fbr t rax zf sf
          hpre
        refine runs_as_cast env methods _ _ _ _ _ _ _ _ _ ih rfl (Nat.le_refl _) ?_ rfl
        simp only [described_effect_do, bind, List.isEmpty_nil, if_true]
        cases described_effect env methods s (fbr, t) <;> rfl
      | cons r rest =>
        simp only [List.isEmpty_cons, Bool.false_eq_true, if_false] at h r1
        have hc : c = cs ++ ([.emit_call .exec_pop] ++ cr) := by
          simp only [X64Assembler.emit, r1, s1, List.append_assoc] at hcode
          exact (List.append_cancel_left hcode).symm
        subst hc
        have hcode1 : pre ++ (cs ++ ([Instr.emit_call .exec_pop] ++ cr)) ++ post =
            pre ++ cs ++ ([Instr.emit_call .exec_pop] ++ (cr ++ post)) := by
          simp only [List.append_assoc]
        have hcode2 : pre ++ (cs ++ ([Instr.emit_call .exec_pop] ++ cr)) ++ post =
            (pre ++ cs ++ [Instr.emit_call .exec_pop]) ++ cr ++ post := by
          simp only [List.append_assoc]
        have g0 := get_mid pre cs [Instr.emit_call .exec_pop] (cr ++ post) 0 (by simp)
        rw [← hcode1] at g0
        simp only [List.get?_cons_zero, Nat.add_zero] at g0
        have ihs := visit_runs env methods b hm s x64 x1 cs hp.1 hs s1 pre
          ([Instr.emit_call .exec_pop] ++ (cr ++ post)) fbr t rax zf sf hpre
        rw [← hcode1] at ihs
        have ihr := fun fbr1 t1 rax1 zf1 sf1 => visit_do_runs env methods b hm (r :: rest) _ x64'
          cr hp.2 h r1 (pre ++ cs ++ [Instr.emit_call .exec_pop]) post fbr1 t1 rax1 zf1 sf1
          (fun l hl => by
            simp only [binds_append, binds, List.append_nil, List.mem_append] at hl
            simp only [X64Assembler.emit]
            rcases hl with hl | hl
            · have := hpre l hl; omega
            · have := s3 l hl; omega)
        rw [← hcode2] at ihr
        simp only [List.length_append, List.length_cons, List.length_nil] at ihr
        have hseq := runs_as_seq env methods _ _ _ (1 + cr.length) _
          (pre.length + cs.length + 1 + cr.length) _
          (fun w => ((exec_call env w.1 .exec_pop).bind (fun r1 => .ok (r1.1, w.2))).bind
            (fun w1 => described_effect_do env methods (r :: rest) w1)) ihs
          (fun w rax1 zf1 sf1 _ =>
            runs_as_seq env methods _ _ 1 cr.length _ (pre.length + cs.length + 1 + cr.length)
              ((exec_call env w.1 .exec_pop).bind (fun r1 => .ok (r1.1, w.2)))
              (fun w1 => described_effect_do env methods (r :: rest) w1)
              (runs_as_emit_call env methods _ w.1 w.2 rax1 zf1 sf1 _ .exec_pop g0)
              (fun w1 rax2 zf2 sf2 _ => ihr w1.1 w1.2 rax2 zf2 sf2))
        refine runs_as_cast env methods _ _ _ _ _ _ _ _ _ hseq rfl
          (by simp only [List.length_append, List.length_cons, List.length_nil]; omega) ?_
          (by simp only [List.length_append, List.length_cons, List.length_nil]; omega)
        simp only [described_effect_do, exec_call, bind, List.isEmpty_cons, Bool.false_eq_true,
          if_false, pure, Except.pure]
        cases described_effect env methods s (fbr, t) with
        | error err => rfl
        | ok w =>
          simp only [Except.bind]
          cases w.1.exec_pop <;> rfl
theorem visit_arguments_runs (env : HelperEnv) (methods : Methods) (b : X64Backend)
    (hm : ∀ target fbr apply out, methods target fbr apply = .ok out → out.2.2 = 0) :
    ∀ (args : List AST.Node) (x64 x64' : X64Assembler) (c : List Instr),
      AST.Node.plain_list args = true →
      b.visit_arguments args x64 = .ok x64' → x64'.code = x64.code ++ c →
      ∀ (pre post : List Instr) (fbr : FiberImpl) (t : Nat → Option MethodImpl) (rax : Int)
        (zf sf : Bool), (∀ l, l ∈ binds pre → l ≤ x64.labels) →
        runs_as env methods (pre ++ c ++ post) ⟨fbr, t, rax, zf, sf, pre.length, none⟩ c.length
          (described_effect_arguments env methods args (fbr, t)) (pre.length + c.length)
  | [], x64, x64', c, _, h, hcode, pre, post, fbr, t, rax, zf, sf, _ => by
    simp only [X64Backend.visit_arguments, Except.ok.injEq] at h
    subst h
    have hc : c = [] := by
      have : x64.code ++ [] = x64.code ++ c := by simpa using hcode
      exact (List.append_cancel_left this).symm
    subst hc
    exact runs_as_cast env methods _ _ _ _ _ _ _ _ _
      (runs_as_nil env methods _ fbr t rax zf sf pre.length) rfl (Nat.le_refl _)
      (by simp [described_effect_arguments]) (by simp)
  | s :: rest, x64, x64', c, hp, h, hcode, pre, post, fbr, t, rax, zf, sf, hpre => by
    simp only [AST.Node.plain_list, Bool.and_eq_true] at hp
    simp only [X64Backend.visit_arguments, bind, Except.bind] at h
    cases hs : b.visit s x64 with
    | error err => simp [hs] at h
    | ok x1 =>
      simp only [hs] at h
      obtain ⟨cs, s1, s2, s3, _⟩ := X64Backend.visit_emits b s x64 x1 hp.1 hs
      obtain ⟨cr, r1, _, _, _⟩ := X64Backend.visit_arguments_emits b rest _ x64' hp.2 h
      have hc : c = cs ++ cr := by
        simp only [r1, s1, List.append_assoc] at hcode
        exact (List.append_cancel_left hcode).symm
      subst hc
      have hcode1 : pre ++ (cs ++ cr) ++ post = pre ++ cs ++ (cr ++ post) := by
        simp only [List.append_assoc]
      have hcode2 : pre ++ (cs ++ cr) ++ post = (pre ++ cs) ++ cr ++ post := by
        simp only [List.append_assoc]
      have ihs := visit_runs env methods b hm s x64 x1 cs hp.1 hs s1 pre (cr ++ post) fbr t rax
        zf sf hpre
      rw [← hcode1] at ihs
      have ihr := fun fbr1 t1 rax1 zf1 sf1 => visit_arguments_runs env methods b hm rest _ x64'
        cr hp.2 h r1 (pre ++ cs) post fbr1 t1 rax1 zf1 sf1
        (fun l hl => by
          simp only [binds_append, List.mem_append] at hl
          rcases hl with hl | hl
          · have := hpre l hl; omega
          · have := s3 l hl; omega)
      rw [← hcode2] at ihr
      simp only [List.length_append] at ihr
      have hseq := runs_as_seq env methods _ _ _ cr.length _ (pre.length + cs.length + cr.length)
        _ (fun w => described_effect_arguments env methods rest w) ihs
        (fun w rax1 zf1 sf1 _ => ihr w.1 w.2 rax1 zf1 sf1)
      have heff : (described_effect env methods s (fbr, t)).bind (fun w =>
          described_effect_arguments env methods rest w) =
          described_effect_arguments env methods (s :: rest) (fbr, t) := by
        simp only [described_effect_arguments, bind]
      exact runs_as_cast env methods _ _ _ _ _ _ _ _ _ hseq rfl
        (by simp only [List.length_append]; omega) heff
        (by simp only [List.length_append]; omega)
end

end X64

end park

namespace park

namespace X64

theorem unchanged_below_refl (env : HelperEnv) (fs : List frame_stack_t) (lets : List Nat)
    (s : Nat) (slots : List value_t) : unchanged_below env fs lets s slots slots :=
  fun _ _ => Or.inl rfl

theorem let_slot_mono (env : HelperEnv) (fs : List frame_stack_t) (l1 l2 : List Nat) (i : Nat)
    (hsub : ∀ n, n ∈ l1 → n ∈ l2) (h : let_slot env fs l1 i) : let_slot env fs l2 i := by
  obtain ⟨frame, frames, f, namei, idx, h1, h2, h3, h4⟩ := h
  exact ⟨frame, frames, f, namei, idx, h1, hsub _ h2, h3, h4⟩

theorem unchanged_below_mono (env : HelperEnv) (fs : List frame_stack_t) (l1 l2 : List Nat)
    (s1 s2 : Nat) (a c : List value_t) (hs : s2 ≤ s1) (hsub : ∀ n, n ∈ l1 → n ∈ l2)
    (h : unchanged_below env fs l1 s1 a c) : unchanged_below env fs l2 s2 a c := by
  intro i hi
  rcases h i (by omega) with h | h
  · exact Or.inl h
  · exact Or.inr (let_slot_mono env fs l1 l2 i hsub h)

theorem unchanged_below_trans (env : HelperEnv) (fs : List frame_stack_t) (l1 l2 : List Nat)
    (s : Nat) (a c d : List value_t) (h1 : unchanged_below env fs l1 s a c)
    (h2 : unchanged_below env fs l2 s c d) : unchanged_below env fs (l1 ++ l2) s a d := by
  intro i hi
  rcases h2 i hi with h | h
  · rcases h1 i hi with g | g
    · exact Or.inl (h.trans g)
    · exact Or.inr (let_slot_mono env fs l1 _ i (fun n hn => List.mem_append_left _ hn) g)
  · exact Or.inr (let_slot_mono env fs l2 _ i (fun n hn => List.mem_append_right _ hn) h)

theorem unchanged_below_push (env : HelperEnv) (fs : List frame_stack_t) (s : Nat)
    (slots : List value_t) (v : value_t) (hs : s ≤ slots.length) :
    unchanged_below env fs [] s slots (slots ++ [v]) := by
  intro i hi
  left
  rw [List.get?_eq_getElem?, List.get?_eq_getElem?, List.getElem?_append_left (by omega)]

theorem unchanged_below_take (env : HelperEnv) (fs : List frame_stack_t) (s m : Nat)
    (slots : List value_t) (hs : s ≤ m) :
    unchanged_below env fs [] s slots (slots.take m) := by
  intro i hi
  left
  rw [List.get?_eq_getElem?, List.get?_eq_getElem?, List.getElem?_take_of_lt (by omega)]

theorem unchanged_below_take_push (env : HelperEnv) (fs : List frame_stack_t) (s m : Nat)
    (slots : List value_t) (v : value_t) (hs : s ≤ m) (hm : m ≤ slots.length) :
    unchanged_below env fs [] s slots (slots.take m ++ [v]) := by
  intro i hi
  left
  rw [List.get?_eq_getElem?, List.get?_eq_getElem?,
    List.getElem?_append_left (by rw [List.length_take]; omega),
    List.getElem?_take_of_lt (by omega)]

end X64

namespace FiberImpl

theorem push_spec (fbr fbr1 : FiberImpl) (v : value_t) (fs : List frame_stack_t)
    (ls : List Nat)
    (h : (fbr.stack.push_back v).bind (fun s => .ok ⟨s, fs, ls⟩) = .ok fbr1) :
    fbr1.frame_stack = fs ∧ ∃ x, fbr1.stack.slots = fbr.stack.slots ++ [x] := by
  cases hp : fbr.stack.push_back v with
  | error e => simp [hp, Except.bind] at h
  | ok s1 =>
    simp only [hp, Except.bind, Except.ok.injEq] at h
    subst h
    exact ⟨rfl, v, Stack.push_back_slots _ _ _ hp⟩

theorem exec_literal_spec (fbr fbr1 : FiberImpl) (v : value_t)
    (h : fbr.exec_literal v = .ok fbr1) :
    fbr1.frame_stack = fbr.frame_stack ∧ ∃ x, fbr1.stack.slots = fbr.stack.slots ++ [x] :=
  push_spec fbr fbr1 v _ _ h

theorem exec_builtin_spec (fbr fbr1 : FiberImpl) (v : value_t)
    (h : fbr.exec_builtin v = .ok fbr1) :
    fbr1.frame_stack = fbr.frame_stack ∧ ∃ x, fbr1.stack.slots = fbr.stack.slots ++ [x] :=
  push_spec fbr fbr1 v _ _ h

theorem exec_symbol_spec (env : HelperEnv) (fbr fbr1 : FiberImpl) (namei_ : Nat)
    (h : fbr.exec_symbol env namei_ = .ok fbr1) :
    fbr1.frame_stack = fbr.frame_stack ∧ ∃ x, fbr1.stack.slots = fbr.stack.slots ++ [x] := by
  simp only [exec_symbol, bind, Except.bind] at h
  cases hl : env.lookup fbr namei_ with
  | error e => simp [hl] at h
  | ok found =>
    cases found with
    | none => simp [hl, throw, throwThe, MonadExceptOf.throw] at h
    | some value =>
      simp only [hl] at h
      exact push_spec fbr fbr1 (.RVALUE value) _ _ h

theorem exec_local_spec (fbr fbr1 : FiberImpl) (index_ : Nat)
    (h : fbr.exec_local index_ = .ok fbr1) :
    fbr1.frame_stack = fbr.frame_stack ∧ ∃ x, fbr1.stack.slots = fbr.stack.slots ++ [x] := by
  unfold exec_local at h
  cases hf : fbr.frame_stack with
  | nil => simp [hf] at h
  | cons frame frames =>
    simp only [hf, bind, Except.bind] at h
    cases ha : fbr.stack.argument frame.base index_ with
    | error e => simp [ha] at h
    | ok slot =>
      simp only [ha] at h
      exact push_spec fbr fbr1 slot _ _ h

theorem exec_global_spec (env : HelperEnv) (fbr fbr1 : FiberImpl) (i : Bool) (v : Option Value)
    (namei_ : Nat) (h : fbr.exec_global env i v namei_ = .ok fbr1) :
    fbr1.frame_stack = fbr.frame_stack ∧ ∃ x, fbr1.stack.slots = fbr.stack.slots ++ [x] := by
  cases i with
  | true =>
    cases v with
    | none =>
      simp [exec_global, bind, Except.bind, pure, Except.pure, throw, throwThe,
        MonadExceptOf.throw] at h
    | some value =>
      simp only [exec_global, bind, Except.bind, pure, Except.pure, if_true] at h
      exact push_spec fbr fbr1 (.RVALUE value) _ _ h
  | false =>
    cases hns : env.ns_find namei_ with
    | none =>
      simp [exec_global, hns, bind, Except.bind, pure, Except.pure, throw, throwThe,
        MonadExceptOf.throw] at h
    | some value =>
      simp only [exec_global, hns, bind, Except.bind, pure, Except.pure, Bool.false_eq_true,
        if_false] at h
      exact push_spec fbr fbr1 (.RVALUE value) _ _ h

theorem exec_function_spec (env : HelperEnv) (fbr fbr1 : FiberImpl) (f : AST.Function)
    (v : List Nat) (h : fbr.exec_function env f v = .ok fbr1) :
    fbr1.frame_stack = fbr.frame_stack ∧ ∃ x, fbr1.stack.slots = fbr.stack.slots ++ [x] := by
  simp only [exec_function, bind, Except.bind] at h
  split at h
  · cases h
  · exact push_spec fbr fbr1 _ _ _ h

theorem exec_pop_spec (fbr fbr1 : FiberImpl) (h : fbr.exec_pop = .ok fbr1) :
    fbr1.frame_stack = fbr.frame_stack ∧ 1 ≤ fbr.stack.slots.length ∧
      fbr1.stack.slots = fbr.stack.slots.take (fbr.stack.slots.length - 1) := by
  simp only [exec_pop, Stack.pop_back, Stack.pop, Stack.size, bind, Except.bind] at h
  split at h
  · cases h
  · rename_i s1 hs
    simp only [pure, Except.pure, Except.ok.injEq] at h
    subst h
    by_cases hle : 1 ≤ fbr.stack.slots.length
    · simp only [hle, if_true, Except.ok.injEq] at hs
      subst hs
      exact ⟨rfl, hle, rfl⟩
    · simp [hle] at hs

theorem exec_bool_spec (env : HelperEnv) (fbr fbr1 : FiberImpl) (r : Bool)
    (h : fbr.exec_bool env = .ok (fbr1, r)) :
    fbr1.frame_stack = fbr.frame_stack ∧ 1 ≤ fbr.stack.slots.length ∧
      fbr1.stack.slots = fbr.stack.slots.take (fbr.stack.slots.length - 1) := by
  simp only [exec_bool, bind, Except.bind] at h
  split at h
  · cases h
  · split at h
    · cases h
    · have hp : fbr.exec_pop = .ok fbr1 := by
        simp only [exec_pop, bind, Except.bind]
        split at h
        · cases h
        · rename_i s1 hs
          simp only [pure, Except.pure, Except.ok.injEq, Prod.mk.injEq] at h
          rw [← h.1]
          rfl
      exact exec_pop_spec fbr fbr1 hp

theorem exec_let_spec (env : HelperEnv) (fbr fbr1 : FiberImpl) (namei_ : Nat)
    (h : fbr.exec_let env namei_ = .ok fbr1) :
    fbr1.frame_stack = fbr.frame_stack ∧
      fbr1.stack.slots.length = fbr.stack.slots.length ∧
      X64.unchanged_below env fbr.frame_stack [namei_] fbr.stack.slots.length fbr.stack.slots
        fbr1.stack.slots := by
  unfold exec_let at h
  cases hf : fbr.frame_stack with
  | nil => simp [hf] at h
  | cons frame frames =>
    simp only [hf, bind, Except.bind] at h
    split at h
    · cases h
    · rename_i function_ _
      cases hl : env.local_index function_ namei_ with
      | none => simp [hl, throw, throwThe, MonadExceptOf.throw] at h
      | some local_index =>
        simp only [hl] at h
        split at h
        · cases h
        · rename_i s1 hs
          simp only [pure, Except.pure, Except.ok.injEq] at h
          subst h
          simp only [Stack.set_local, bind, Except.bind] at hs
          split at hs
          · cases hs
          · rename_i v _
            split at hs
            · simp only [pure, Except.pure, Except.ok.injEq] at hs
              subst hs
              refine ⟨rfl, by simp, fun i hi => ?_⟩
              by_cases hi2 : frame.base + local_index = i
              · right
                exact ⟨frame, frames, function_, namei_, local_index, rfl, by simp, hl, hi2⟩
              · left
                simp only [List.get?_eq_getElem?]
                exact List.getElem?_set_ne hi2
            · cases hs

end FiberImpl

end park

namespace park

namespace X64

theorem stack_effect_push (env : HelperEnv) (lets : List Nat) (fbr fbr1 : FiberImpl)
    (t t1 : Nat → Option MethodImpl)
    (h : fbr1.frame_stack = fbr.frame_stack ∧ ∃ x, fbr1.stack.slots = fbr.stack.slots ++ [x]) :
    stack_effect env lets 1 (fbr, t) (fbr1, t1) := by
  obtain ⟨h1, x, h2⟩ := h
  refine ⟨h1, by simp [h2], ?_⟩
  simp only [h2]
  exact unchanged_below_mono env _ [] lets _ _ _ _ (Nat.le_refl _) (fun _ hn => by cases hn)
    (unchanged_below_push env _ _ _ x (Nat.le_refl _))

theorem stack_effect_trans (env : HelperEnv) (l1 l2 : List Nat) (k1 k2 : Nat) (w w1 w2 : World)
    (h1 : stack_effect env l1 k1 w w1) (h2 : stack_effect env l2 k2 w1 w2) :
    stack_effect env (l1 ++ l2) (k1 + k2) w w2 := by
  obtain ⟨a1, a2, a3⟩ := h1
  obtain ⟨b1, b2, b3⟩ := h2
  refine ⟨b1.trans a1, by omega, ?_⟩
  rw [a1] at b3
  exact unchanged_below_trans env _ l1 l2 _ _ _ _ a3
    (unchanged_below_mono env _ l2 l2 _ _ _ _ (by omega) (fun _ hn => hn) b3)

theorem stack_effect_take (env : HelperEnv) (lets : List Nat) (k j : Nat) (w w1 : World)
    (fbr2 : FiberImpl) (t2 : Nat → Option MethodImpl) (h : stack_effect env lets (k + j) w w1)
    (hf : fbr2.frame_stack = w1.1.frame_stack)
    (hs : fbr2.stack.slots = w1.1.stack.slots.take (w1.1.stack.slots.length - j)) :
    stack_effect env lets k w (fbr2, t2) := by
  obtain ⟨a1, a2, a3⟩ := h
  refine ⟨hf.trans a1, ?_, ?_⟩
  · simp only [hs, List.length_take]
    omega
  · simp only [hs]
    have := unchanged_below_trans env w.1.frame_stack lets [] w.1.stack.slots.length _ _ _ a3
      (unchanged_below_take env _ _ (w1.1.stack.slots.length - j) w1.1.stack.slots (by omega))
    simpa using this

theorem stack_effect_result (env : HelperEnv) (lets : List Nat) (j : Nat) (w w1 : World)
    (fbr2 : FiberImpl) (t2 : Nat → Option MethodImpl) (result : value_t)
    (h : stack_effect env lets j w w1)
    (hf : fbr2.frame_stack = w1.1.frame_stack)
    (hs : fbr2.stack.slots =
      w1.1.stack.slots.take (w1.1.stack.slots.length - j) ++ [result]) :
    stack_effect env lets 1 w (fbr2, t2) := by
  obtain ⟨a1, a2, a3⟩ := h
  refine ⟨hf.trans a1, ?_, ?_⟩
  · simp only [hs, List.length_append, List.length_take, List.length_singleton]
    omega
  · simp only [hs]
    have := unchanged_below_trans env w.1.frame_stack lets [] w.1.stack.slots.length _ _ _ a3
      (unchanged_below_take_push env _ _ (w1.1.stack.slots.length - j) w1.1.stack.slots result
        (by omega) (by omega))
    simpa using this

theorem call_target_spec (methods : Methods) (hm : returns_result methods) (fbr fbr1 : FiberImpl)
    (t t1 : Nat → Option MethodImpl) (apply : AST.Apply) (rax : Int)
    (h : call_target methods fbr t apply = .ok (fbr1, t1, rax)) :
    rax = 0 ∧ fbr1.frame_stack = fbr.frame_stack ∧ ∃ result, fbr1.stack.slots =
      fbr.stack.slots.take (fbr.stack.slots.length - (apply.argument_count + 1)) ++ [result] := by
  simp only [call_target, bind, Except.bind] at h
  split at h
  · cases h
  · rename_i out hout
    obtain ⟨h1, h2, r, h3⟩ := hm _ _ _ _ hout
    simp only [pure, Except.pure, Except.ok.injEq, Prod.mk.injEq] at h
    obtain ⟨e1, _, e3⟩ := h
    subst e1
    exact ⟨e3 ▸ h1, h2, r, h3⟩

mutual
theorem described_effect_spec (env : HelperEnv) (methods : Methods)
    (hm : returns_result methods) :
    ∀ (n : AST.Node) (w w1 : World), n.plain = true →
      described_effect env methods n w = .ok w1 → stack_effect env n.lets 1 w w1
  | .Literal v, w, w1, _, h => by
    simp only [described_effect, bind, Except.bind] at h
    split at h
    · cases h
    · rename_i fbr1 h1
      cases h
      exact stack_effect_push env _ w.1 fbr1 w.2 w.2 (FiberImpl.exec_literal_spec _ _ _ h1)
  | .Symbol v, w, w1, _, h => by
    simp only [described_effect, bind, Except.bind] at h
    split at h
    · cases h
    · rename_i fbr1 h1
      cases h
      exact stack_effect_push env _ w.1 fbr1 w.2 w.2 (FiberImpl.exec_symbol_spec env _ _ _ h1)
  | .Builtin v, w, w1, _, h => by
    simp only [described_effect, bind, Except.bind] at h
    split at h
    · cases h
    · rename_i fbr1 h1
      cases h
      exact stack_effect_push env _ w.1 fbr1 w.2 w.2 (FiberImpl.exec_builtin_spec _ _ _ h1)
  | .Local v, w, w1, _, h => by
    simp only [described_effect, bind, Except.bind] at h
    split at h
    · cases h
    · rename_i fbr1 h1
      cases h
      exact stack_effect_push env _ w.1 fbr1 w.2 w.2 (FiberImpl.exec_local_spec _ _ _ h1)
  | .Global i v n, w, w1, _, h => by
    simp only [described_effect, bind, Except.bind] at h
    split at h
    · cases h
    · rename_i fbr1 h1
      cases h
      exact stack_effect_push env _ w.1 fbr1 w.2 w.2
        (FiberImpl.exec_global_spec env _ _ _ _ _ h1)
  | .Function f v, w, w1, _, h => by
    simp only [described_effect, bind, Except.bind] at h
    split at h
    · cases h
    · rename_i fbr1 h1
      cases h
      exact stack_effect_push env _ w.1 fbr1 w.2 w.2
        (FiberImpl.exec_function_spec env _ _ _ _ h1)
  | .Return _, _, _, hp, _ => by simp [AST.Node.plain] at hp
  | .Recur _, _, _, hp, _ => by simp [AST.Node.plain] at hp
  | .Let s e, w, w1, hp, h => by
    simp only [AST.Node.plain] at hp
    simp only [described_effect, bind, Except.bind] at h
    split at h
    · cases h
    · rename_i w2 h2
      split at h
      · cases h
      · rename_i fbr1 h1
        cases h
        have ih := described_effect_spec env methods hm e w w2 hp h2
        obtain ⟨l1, l2, l3⟩ := FiberImpl.exec_let_spec env _ _ _ h1
        have hl : stack_effect env [s] 0 w2 (fbr1, w2.2) := ⟨l1, by simpa using l2, l3⟩
        have := stack_effect_trans env _ _ _ _ _ _ _ ih hl
        refine ⟨this.1, this.2.1, ?_⟩
        exact unchanged_below_mono env _ _ _ _ _ _ _ (Nat.le_refl _)
          (fun n hn => by
            simp only [AST.Node.lets, List.mem_cons, List.mem_append, List.mem_singleton,
              List.not_mem_nil, or_false] at hn ⊢
            rcases hn with hn | hn
            · exact Or.inr hn
            · exact Or.inl hn) this.2.2
  | .Do stmts, w, w1, hp, h => by
    simp only [AST.Node.plain, Bool.and_eq_true, Bool.not_eq_true', List.isEmpty_eq_false] at hp
    simp only [described_effect] at h
    have := described_effect_do_spec env methods hm stmts w w1 hp.2 (by
      intro e; rw [e] at hp; simp at hp) h
    simpa only [AST.Node.lets] using this
  | .Branch cond tb fb, w, w1, hp, h => by
    simp only [AST.Node.plain, Bool.and_eq_true] at hp
    simp only [described_effect, bind, Except.bind] at h
    split at h
    · cases h
    · rename_i w2 h2
      split at h
      · cases h
      · rename_i r hr
        obtain ⟨fbr1, cnd⟩ := r
        have ihc := described_effect_spec env methods hm cond w w2 hp.1.1 h2
        obtain ⟨b1, b2, b3⟩ := FiberImpl.exec_bool_spec env _ _ _ hr
        have hpop := stack_effect_take env _ 0 1 w w2 fbr1 w2.2 ihc b1 b3
        cases cnd with
        | true =>
          simp only [if_true] at h
          have iht := described_effect_spec env methods hm tb _ w1 hp.1.2 h
          have := stack_effect_trans env _ _ _ _ _ _ _ hpop iht
          refine ⟨this.1, by have := this.2.1; omega, ?_⟩
          exact unchanged_below_mono env _ _ _ _ _ _ _ (Nat.le_refl _)
            (fun n hn => by
              simp only [AST.Node.lets, List.mem_append] at hn ⊢
              rcases hn with hn | hn
              · exact Or.inl (Or.inl hn)
              · exact Or.inl (Or.inr hn)) this.2.2
        | false =>
          simp only [Bool.false_eq_true, if_false] at h
          have ihf := described_effect_spec env methods hm fb _ w1 hp.2 h
          have := stack_effect_trans env _ _ _ _ _ _ _ hpop ihf
          refine ⟨this.1, by have := this.2.1; omega, ?_⟩
          exact unchanged_below_mono env _ _ _ _ _ _ _ (Nat.le_refl _)
            (fun n hn => by
              simp only [AST.Node.lets, List.mem_append] at hn ⊢
              rcases hn with hn | hn
              · exact Or.inl (Or.inl hn)
              · exact Or.inr hn) this.2.2
  | .Apply addr throws_ target_ callable_ arguments_, w, w1, hp, h => by
    simp only [AST.Node.plain, Bool.and_eq_true] at hp
    simp only [described_effect, bind, Except.bind] at h
    split at h
    · cases h
    · rename_i w2 h2
      split at h
      · cases h
      · rename_i w3 h3
        split at h
        · cases h
        · rename_i r hr
          obtain ⟨fbr1, t1, rax⟩ := r
          simp only [pure, Except.pure, Except.ok.injEq] at h
          subst h
          have ihc := described_effect_spec env methods hm callable_ w w2 hp.1 h2
          have iha := described_effect_arguments_spec env methods hm arguments_ w2 w3 hp.2 h3
          obtain ⟨_, c2, res, c3⟩ := call_target_spec methods hm _ _ _ _ _ _ hr
          have htr := stack_effect_trans env _ _ _ _ _ _ _ ihc iha
          have hres := stack_effect_result env _ (1 + arguments_.length) w w3 fbr1 t1 res
            (by simpa using htr) c2
            (by rw [c3]; simp only [Nat.add_comm])
          simpa only [AST.Node.lets] using hres
theorem described_effect_do_spec (env : HelperEnv) (methods : Methods)
    (hm : returns_result methods) :
    ∀ (stmts : List AST.Node) (w w1 : World), AST.Node.plain_list stmts = true → stmts ≠ [] →
      described_effect_do env methods stmts w = .ok w1 →
      stack_effect env (AST.Node.lets_list stmts) 1 w w1
  | [], _, _, _, hne, _ => absurd rfl hne
  | s :: rest, w, w1, hp, _, h => by
    simp only [AST.Node.plain_list, Bool.and_eq_true] at hp
    simp only [described_effect_do, bind, Except.bind] at h
    split at h
    · cases h
    · rename_i w2 h2
      have ihs := described_effect_spec env methods hm s w w2 hp.1 h2
      cases rest with
      | nil =>
        simp only [List.isEmpty_nil, if_true, pure, Except.pure, Except.ok.injEq] at h
        subst h
        simpa [AST.Node.lets_list] using ihs
      | cons r rest =>
        simp only [List.isEmpty_cons, Bool.false_eq_true, if_false] at h
        split at h
        · cases h
        · rename_i fbr1 hpop
          obtain ⟨b1, b2, b3⟩ := FiberImpl.exec_pop_spec _ _ hpop
          have hp1 := stack_effect_take env _ 0 1 w w2 fbr1 w2.2 ihs b1 b3
          have ihr := described_effect_do_spec env methods hm (r :: rest) _ w1 hp.2
            (by simp) h
          have := stack_effect_trans env _ _ _ _ _ _ _ hp1 ihr
          refine ⟨this.1, by have := this.2.1; omega, ?_⟩
          exact unchanged_below_mono env _ _ _ _ _ _ _ (Nat.le_refl _)
            (fun n hn => by simpa [AST.Node.lets_list] using hn) this.2.2
theorem described_effect_arguments_spec (env : HelperEnv) (methods : Methods)
    (hm : returns_result methods) :
    ∀ (args : List AST.Node) (w w1 : World), AST.Node.plain_list args = true →
      described_effect_arguments env methods args w = .ok w1 →
      stack_effect env (AST.Node.lets_list args) args.length w w1
  | [], w, w1, _, h => by
    simp only [described_effect_arguments, Except.ok.injEq] at h
    subst h
    exact ⟨rfl, rfl, unchanged_below_refl env _ _ _ _⟩
  | s :: rest, w, w1, hp, h => by
    simp only [AST.Node.plain_list, Bool.and_eq_true] at hp
    simp only [described_effect_arguments, bind, Except.bind] at h
    split at h
    · cases h
    · rename_i w2 h2
      have ihs := described_effect_spec env methods hm s w w2 hp.1 h2
      have ihr := described_effect_arguments_spec env methods hm rest w2 w1 hp.2 h
      have := stack_effect_trans env _ _ _ _ _ _ _ ihs ihr
      refine ⟨this.1, by have := this.2.1; simp only [List.length_cons]; omega, ?_⟩
      simpa only [AST.Node.lets_list] using this.2.2
end

end X64

end park

namespace park

theorem X64.run_done (env : HelperEnv) (methods : X64.Methods) (code : List X64.Instr)
    (fuel : Nat) (m : X64.State) (h : code.length ≤ m.pc) :
    X64.run env methods code fuel m = .ok m := by
  cases fuel with
  | zero => simp [X64.run, Nat.not_lt.mpr h]
  | succ fuel => simp [X64.run, Nat.not_lt.mpr h]

theorem Frame.result_returns_result (value : MethodImpl → FiberImpl → AST.Apply → value_t) :
    X64.returns_result (fun target fbr apply => Frame.result fbr apply (value target fbr apply)) := by
  intro target fbr apply out h
  simp only [Frame.result, Frame.pop_arguments_and_push_result, bind, Except.bind] at h
  cases hp : fbr.stack.pop (apply.argument_count + 1) with
  | error e => simp [hp] at h
  | ok s1 =>
    simp only [hp] at h
    cases hq : s1.push_back (value target fbr apply) with
    | error e => simp [hq] at h
    | ok s2 =>
      simp only [hq, pure, Except.pure, Except.ok.injEq] at h
      subst h
      refine ⟨rfl, rfl, value target fbr apply, ?_⟩
      have h2 := Stack.push_back_slots _ _ _ hq
      simp only [Stack.pop] at hp
      split at hp
      · simp only [Except.ok.injEq] at hp
        subst hp
        exact h2
      · cases hp

mutual
theorem X64Backend.visit_returns (b : X64Backend) (ha : b.apply_asserts = true) :
    ∀ (n : AST.Node) (x64 : X64Assembler), n.plain = true → ∃ x64', b.visit n x64 = .ok x64'
  | .Literal _, x64, _ => ⟨_, rfl⟩
  | .Symbol _, x64, _ => ⟨_, rfl⟩
  | .Builtin _, x64, _ => ⟨_, rfl⟩
  | .Local _, x64, _ => ⟨_, rfl⟩
  | .Global _ _ _, x64, _ => ⟨_, rfl⟩
  | .Function _ _, x64, _ => ⟨_, rfl⟩
  | .Return _, _, hp => by simp [AST.Node.plain] at hp
  | .Recur _, _, hp => by simp [AST.Node.plain] at hp
  | .Let s e, x64, hp => by
    simp only [AST.Node.plain] at hp
    obtain ⟨x1, h1⟩ := X64Backend.visit_returns b ha e x64 hp
    exact ⟨_, by simp only [X64Backend.visit, h1, bind, Except.bind]; rfl⟩
  | .Do stmts, x64, hp => by
    simp only [AST.Node.plain, Bool.and_eq_true] at hp
    obtain ⟨x1, h1⟩ := X64Backend.visit_do_returns b ha stmts x64 hp.2
    exact ⟨x1, by simp only [X64Backend.visit, h1]⟩
  | .Branch cond tb fb, x64, hp => by
    simp only [AST.Node.plain, Bool.and_eq_true] at hp
    obtain ⟨x1, h1⟩ := X64Backend.visit_returns b ha cond { x64 with labels := x64.labels + 2 }
      hp.1.1
    obtain ⟨x2, h2⟩ := X64Backend.visit_returns b ha tb
      (x1.emit [.emit_call .exec_bool, .test_rax_rax, .jz (x64.labels + 1)]) hp.1.2
    obtain ⟨x3, h3⟩ := X64Backend.visit_returns b ha fb
      (x2.emit [.jmp_rel (x64.labels + 2), .bind (x64.labels + 1)]) hp.2
    exact ⟨_, by simp only [X64Backend.visit, h1, h2, h3, bind, Except.bind]; rfl⟩
  | .Apply addr throws_ target_ callable_ arguments_, x64, hp => by
    simp only [AST.Node.plain, Bool.and_eq_true] at hp
    obtain ⟨x1, h1⟩ := X64Backend.visit_returns b ha callable_
      { x64 with labels := x64.labels + 4 } hp.1
    obtain ⟨x2, h2⟩ := X64Backend.visit_arguments_returns b ha arguments_ x1 hp.2
    exact ⟨_, by
      simp only [X64Backend.visit, ha, not_true_eq_false, if_false, h1, h2, bind, Except.bind]
      rfl⟩
theorem X64Backend.visit_do_returns (b : X64Backend) (ha : b.apply_asserts = true) :
    ∀ (stmts : List AST.Node) (x64 : X64Assembler), AST.Node.plain_list stmts = true →
      ∃ x64', b.visit_do stmts x64 = .ok x64'
  | [], x64, _ => ⟨_, rfl⟩
  | s :: rest, x64, hp => by
    simp only [AST.Node.plain_list, Bool.and_eq_true] at hp
    obtain ⟨x1, h1⟩ := X64Backend.visit_returns b ha s x64 hp.1
    obtain ⟨x2, h2⟩ := X64Backend.visit_do_returns b ha rest
      (if rest.isEmpty then x1 else x1.emit [.emit_call .exec_pop]) hp.2
    exact ⟨x2, by simp only [X64Backend.visit_do, h1, bind, Except.bind, h2]⟩
theorem X64Backend.visit_arguments_returns (b : X64Backend) (ha : b.apply_asserts = true) :
    ∀ (args : List AST.Node) (x64 : X64Assembler), AST.Node.plain_list args = true →
      ∃ x64', b.visit_arguments args x64 = .ok x64'
  | [], x64, _ => ⟨_, rfl⟩
  | s :: rest, x64, hp => by
    simp only [AST.Node.plain_list, Bool.and_eq_true] at hp
    obtain ⟨x1, h1⟩ := X64Backend.visit_returns b ha s x64 hp.1
    obtain ⟨x2, h2⟩ := X64Backend.visit_arguments_returns b ha rest x1 hp.2
    exact ⟨x2, by simp only [X64Backend.visit_arguments, h1, bind, Except.bind, h2]⟩
end


theorem X64Backend.visit_stack_effect (env : HelperEnv) (methods : X64.Methods) (b : X64Backend)
    (n : AST.Node) (labels : Nat) (x64 : X64Assembler) (fbr : FiberImpl) (fuel : Nat)
    (hplain : n.plain = true) (hmethods : X64.returns_result methods)
    (hvisit : b.visit n ⟨[], labels⟩ = .ok x64) (hfuel : x64.code.length ≤ fuel) :
    X64.pops x64.code = n.pops ∧
    (X64.run env methods x64.code fuel (X64.State.start fbr)).map
        (fun m => (m.fbr, m.target_, m.pc, m.left)) =
      (X64.described_effect env methods n (fbr, fun _ => none)).map
        (fun w => (w.1, w.2, x64.code.length, none)) ∧
    (∀ w, X64.described_effect env methods n (fbr, fun _ => none) = .ok w →
      w.1.stack.size = fbr.stack.size + 1 ∧ w.1.frame_stack = fbr.frame_stack ∧
      X64.unchanged_below env fbr.frame_stack n.lets fbr.stack.size fbr.stack.slots
        w.1.stack.slots) ∧
    (∀ addr throws_ target_ callable_ arguments_ w,
      n = .Apply addr throws_ target_ callable_ arguments_ →
      (X64.described_effect env methods callable_ (fbr, fun _ => none)).bind
        (X64.described_effect_arguments env methods arguments_) = .ok w →
      w.1.stack.base arguments_.length = .ok fbr.stack.size ∧
      w.1.stack.size = fbr.stack.size + arguments_.length + 1) := by
  obtain ⟨c, hc, _, _, hpops⟩ := X64Backend.visit_emits b n ⟨[], labels⟩ x64 hplain hvisit
  simp only [List.nil_append] at hc
  have hzero : ∀ target fbr apply out, methods target fbr apply = .ok out → out.2.2 = 0 :=
    fun target fbr apply out h => (hmethods target fbr apply out h).1
  refine ⟨by rw [hc]; exact hpops, ?_, ?_, ?_⟩
  · have hr := X64.visit_runs env methods b hzero n ⟨[], labels⟩ x64 c hplain hvisit
      (by simp [hc]) [] [] fbr (fun _ => none) 0 false false (fun l hl => by cases hl)
    simp only [List.nil_append, List.append_nil, List.length_nil, Nat.zero_add] at hr
    obtain ⟨k, hk, rax, zf, sf, hrun⟩ := hr
    rw [hc]
    have hfk : fuel = (fuel - k) + k := by rw [hc] at hfuel; omega
    rw [hfk]
    show (X64.run env methods c (fuel - k + k) ⟨fbr, fun _ => none, 0, false, false, 0, none⟩).map
      _ = _
    rw [hrun (fuel - k)]
    cases X64.described_effect env methods n (fbr, fun _ => none) with
    | error e => rfl
    | ok w =>
      simp only [Except.bind]
      rw [X64.run_done env methods c _ _ (Nat.le_refl _)]
      rfl
  · intro w hw
    obtain ⟨h1, h2, h3⟩ := X64.described_effect_spec env methods hmethods n _ w hplain hw
    exact ⟨h2, h1, h3⟩
  · intro addr throws_ target_ callable_ arguments_ w hn hw
    subst hn
    simp only [AST.Node.plain, Bool.and_eq_true] at hplain
    cases hcal : X64.described_effect env methods callable_ (fbr, fun _ => none) with
    | error e => simp [hcal, Except.bind] at hw
    | ok w1 =>
      simp only [hcal, Except.bind] at hw
      have s1 := X64.described_effect_spec env methods hmethods callable_ _ w1 hplain.1 hcal
      have s2 := X64.described_effect_arguments_spec env methods hmethods arguments_ w1 w
        hplain.2 hw
      have hlen : w.1.stack.slots.length = fbr.stack.slots.length + arguments_.length + 1 := by
        have a := s1.2.1
        have c := s2.2.1
        simp only at a
        omega
      refine ⟨?_, hlen⟩
      simp only [Stack.base, Stack.size, hlen]
      rw [if_pos (by omega)]
      congr 1
      omega

/-- C30, amended: for every expression node that has no `Return` and no
`Recur` in it and whose `Do` nodes each have a statement, with methods that,
when they return, return 0 and have replaced the callable and the arguments by
one result, and a backend whose exit thunk and return label are set: the
backend emits code for the node, which holds as many `exec_pop` calls as the specification tells (`n - 1` for a `Do` of `n` statements,
besides those of the statements); run with fuel for each of its instructions
it does what the specification describes (`described_effect`: one push for
`Literal`, `Symbol`, `Local`, `Global`, `Builtin` and `Function`; the
expression and a copy of the top slot into the local for `Let`; the statements
with a pop after each but the last for `Do`; the condition, its pop and one
arm for `Branch`; the callable, the arguments and the target for `Apply`),
ending past its last instruction, or raising what a helper raises; when it
ends the value stack has one slot more, the frames are as they were and the
slots that were there are unchanged except for locals written by a `Let`; and
at the call of the target of an `Apply` with `k` arguments from a stack of
size `s`, `base(k)` is `s` and the stack holds `s + k + 1` slots. -/
theorem C30_backend_stack_effect (env : HelperEnv) (methods : X64.Methods) (b : X64Backend)
    (n : AST.Node) (labels : Nat) (fbr : FiberImpl)
    (hplain : n.plain = true) (hasserts : b.apply_asserts = true)
    (hmethods : X64.returns_result methods) :
    ∃ x64, b.visit n ⟨[], labels⟩ = .ok x64 ∧
    X64.pops x64.code = n.pops ∧
    (∀ fuel, x64.code.length ≤ fuel →
      (X64.run env methods x64.code fuel (X64.State.start fbr)).map
          (fun m => (m.fbr, m.target_, m.pc, m.left)) =
        (X64.described_effect env methods n (fbr, fun _ => none)).map
          (fun w => (w.1, w.2, x64.code.length, none))) ∧
    (∀ w, X64.described_effect env methods n (fbr, fun _ => none) = .ok w →
      w.1.stack.size = fbr.stack.size + 1 ∧ w.1.frame_stack = fbr.frame_stack ∧
      X64.unchanged_below env fbr.frame_stack n.lets fbr.stack.size fbr.stack.slots
        w.1.stack.slots) ∧
    (∀ addr throws_ target_ callable_ arguments_ w,
      n = .Apply addr throws_ target_ callable_ arguments_ →
      (X64.described_effect env methods callable_ (fbr, fun _ => none)).bind
        (X64.described_effect_arguments env methods arguments_) = .ok w →
      w.1.stack.base arguments_.length = .ok fbr.stack.size ∧
      w.1.stack.size = fbr.stack.size + arguments_.length + 1) := by
  obtain ⟨x64, hvisit⟩ := X64Backend.visit_returns b hasserts n ⟨[], labels⟩ hplain
  have h := fun fuel hfuel => X64Backend.visit_stack_effect env methods b n labels x64 fbr fuel
    hplain hmethods hvisit hfuel
  obtain ⟨h1, _, h3, h4⟩ := h x64.code.length (Nat.le_refl _)
  exact ⟨x64, hvisit, h1, fun fuel hfuel => (h fuel hfuel).2.1, h3, h4⟩

/-- C30, the sentence as it stands fails for a `Do` whose statement is a
`Recur`, the body of a tail-recursive function: with no helper raising and
`exec_check_defers` returning 0, its code run from the three slots of the
frame leaves through the jump to `recur_label` with three slots again, not
four, and with the argument slot overwritten, though the node has no `Let`. -/
theorem C30_recur_in_do_counterexample :
    example_backend.visit example_recur_body ⟨[], 4⟩ = .ok ⟨example_recur_code, 9⟩ ∧
    example_frame_fiber.stack.slots = [.RVALUE (.Closure 7), .IVALUE 1, .UVALUE] ∧
    example_recur_body.lets = [] ∧
    (X64.run example_helper_env example_methods example_recur_code 24
        (X64.State.start example_frame_fiber)).map (fun m => (m.fbr.stack.slots, m.pc, m.left)) =
      .ok ([.RVALUE (.Closure 7), .IVALUE 5, .UVALUE], 24, some (.jump 4)) :=
  ⟨rfl, rfl, rfl, rfl⟩

theorem C30_backend_stack_effect_witness :
    example_plain_body.plain = true ∧ example_backend.apply_asserts = true ∧
    X64.returns_result example_methods ∧
    example_backend.visit example_plain_body ⟨[], 4⟩ = .ok ⟨example_plain_code, 10⟩ ∧
    X64.pops example_plain_code = 1 ∧
    (X64.run example_helper_env example_methods example_plain_code 28
        (X64.State.start example_frame_fiber)).map (fun m => (m.fbr.stack.slots, m.pc, m.left)) =
      .ok ([.RVALUE (.Closure 7), .IVALUE 1, .IVALUE 3, .IVALUE 42], 28, none) ∧
    (∀ w, X64.described_effect example_helper_env example_methods example_plain_body
        (example_frame_fiber, fun _ => none) = .ok w →
      w.1.stack.size = 3 + 1 ∧ w.1.frame_stack = example_frame_fiber.frame_stack ∧
      X64.unchanged_below example_helper_env example_frame_fiber.frame_stack [5] 3
        example_frame_fiber.stack.slots w.1.stack.slots) :=
  match C30_backend_stack_effect example_helper_env example_methods example_backend
    example_plain_body 4 example_frame_fiber rfl rfl
    (Frame.result_returns_result (fun _ _ _ => .IVALUE 42)) with
  | ⟨_, _, _, _, h, _⟩ =>
    ⟨rfl, rfl, Frame.result_returns_result (fun _ _ _ => .IVALUE 42), rfl, rfl, rfl, h⟩

end park
